import Mathlib

/-!
# Garbage collector core (`lj_gc.c`, `lj_gc.h`): shallow embedding

The heap is a total map from addresses (`Nat`, `0` is the null reference) to
object records.  Every intrusive list of the collector (`nextgc`, `gclist`)
is kept intrusive: a list is a head reference plus the link fields stored in
the heap.  Machine bytes (`marked`) are natural numbers combined with the
same masks as in the C source.
-/

namespace LjGc

/-! ## Constants of `lj_gc.h` -/

def GCSpause : Nat := 0

def GCSpropagate : Nat := 1

def GCSatomic : Nat := 2

def GCSsweepstring : Nat := 3

def GCSsweep : Nat := 4

def GCSfinalize : Nat := 5

def LJ_GC_WHITE0 : Nat := 0x01

def LJ_GC_WHITE1 : Nat := 0x02

def LJ_GC_BLACK : Nat := 0x04

def LJ_GC_FINALIZED : Nat := 0x08

def LJ_GC_WEAKKEY : Nat := 0x08

def LJ_GC_WEAKVAL : Nat := 0x10

def LJ_GC_CDATA_FIN : Nat := 0x10

def LJ_GC_FIXED : Nat := 0x20

def LJ_GC_SFIXED : Nat := 0x40

def LJ_GC_WHITES : Nat := LJ_GC_WHITE0 ||| LJ_GC_WHITE1

def LJ_GC_COLORS : Nat := LJ_GC_WHITES ||| LJ_GC_BLACK

def LJ_GC_WEAK : Nat := LJ_GC_WEAKKEY ||| LJ_GC_WEAKVAL

/-- Complement of a mask inside a byte: `(uint8_t)~m`. -/
def not8 (m : Nat) : Nat := 255 ^^^ (m % 256)

def G_NEW : Nat := 0

def G_SURVIVAL : Nat := 1

def G_OLD0 : Nat := 2

def G_OLD1 : Nat := 3

def G_OLD : Nat := 4

def G_TOUCHED1 : Nat := 5

def G_TOUCHED2 : Nat := 6

def GCSTEPSIZE : Nat := 1024

def GCSWEEPMAX : Nat := 40

def GCSWEEPCOST : Nat := 10

def GCFINALIZECOST : Nat := 100

/-! ## Data model -/

/-- Object type tags, in the order of `gc_freefunc` (ORDER LJ_T). -/
inductive GCT
  | str | upval | thread | proto | func | trace | cdata | tab | udata
  deriving DecidableEq, Repr

/-- Collector kind. -/
inductive GCKind
  | inc | gen
  deriving DecidableEq, Repr

/-- Tagged value: nil, some other non-collectable value, or a reference to a
collectable object together with the type tag stored in the value. -/
inductive TValue
  | nil
  | prim (n : Nat)
  | gcv (it : GCT) (r : Nat)
  deriving DecidableEq, Repr

/-- Hash node of a table. -/
structure Node where
  key : TValue := TValue.nil
  val : TValue := TValue.nil
  deriving DecidableEq, Repr

/-- Where `uv->v` points: at the upvalue's own `tv`, or at a stack slot. -/
inductive UVPtr
  | own
  | slot (th : Nat) (i : Nat)
  deriving DecidableEq, Repr

/-- Constant slot of a trace's IR: opcode class, payload reference and
whether the constant occupies two slots (`irt_is64(t) && o != IR_KNULL`). -/
structure IRIns where
  isKGC : Bool := false
  kgc : Nat := 0
  wide : Bool := false
  deriving DecidableEq, Repr

/-- Call frame of a thread: the function in the frame slot and the slot
index of the frame. -/
structure Frame where
  fn : Nat := 0
  pos : Nat := 0
  deriving DecidableEq, Repr

/-- Collectable object: the common header plus the fields of every variant
the collector reads. -/
structure GCobj where
  gct : GCT := GCT.str
  marked : Nat := 0
  age : Nat := 0
  nextgc : Nat := 0
  gclist : Nat := 0
  /- tables and userdata -/
  metatable : Nat := 0
  /- userdata, functions, threads -/
  env : Nat := 0
  /- result of `lj_meta_fastg(g, mt, MM_mode)` when this object is used as a
     metatable: the characters of a string-valued `__mode`, if any -/
  mmMode : Option (List Char) := none
  /- result of `lj_meta_fastg(g, mt, MM_gc)` when used as a metatable -/
  mmGc : Option TValue := none
  /- table -/
  array : List TValue := []
  hmask : Nat := 0
  node : List Node := []
  /- function -/
  isluafunc : Bool := false
  pt : Nat := 0
  uvptr : List Nat := []
  upvalue : List TValue := []
  /- prototype -/
  chunkname : Nat := 0
  kgc : List Nat := []
  trace : Nat := 0
  framesize : Nat := 0
  sizept : Nat := 0
  /- trace -/
  traceno : Nat := 0
  ir : List IRIns := []
  link : Nat := 0
  nextroot : Nat := 0
  nextside : Nat := 0
  startpt : Nat := 0
  tracesize : Nat := 0
  /- thread -/
  stack : List TValue := []
  top : Nat := 0
  base : Nat := 0
  maxstack : Nat := 0
  frames : List Frame := []
  openupval : Nat := 0
  /- upvalue -/
  closed : Bool := false
  v : UVPtr := UVPtr.own
  tv : TValue := TValue.nil
  /- userdata -/
  len : Nat := 0

/-- A pointer to a `GCRef` cell (`GCRef *p`). -/
inductive Loc
  | root
  | strhash (i : Nat)
  | nextgc (o : Nat)
  | openupval (o : Nat)
  deriving DecidableEq, Repr

/-- Global collector state (`global_State` restricted to what `lj_gc.c`
touches), heap included. -/
structure GState where
  heap : Nat → GCobj := fun _ => {}
  root : Nat := 0
  gray : Nat := 0
  grayagain : Nat := 0
  weak : Nat := 0
  mmudata : Nat := 0
  sweep : Loc := Loc.root
  sweepstr : Nat := 0
  state : Nat := 0
  kind : GCKind := GCKind.inc
  currentwhite : Nat := 0x21
  total : Nat := 0
  estimate : Nat := 0
  threshold : Nat := 0
  debt : Nat := 0
  stepmul : Nat := 0
  pause : Nat := 0
  genmajormul : Nat := 0
  genminormul : Nat := 0
  old : Nat := 0
  reallyold : Nat := 0
  surival : Nat := 0
  udatasur : Nat := 0
  udataold : Nat := 0
  udatarold : Nat := 0
  strhash : Nat → Nat := fun _ => 0
  strmask : Nat := 0
  strnum : Nat := 0
  mainthread : Nat := 0
  /- `LJ_FR2` build flag -/
  fr2 : Bool := false
  /- `traceref(J, traceno)`: address of the trace object with that number -/
  traceref : Nat → Nat := fun _ => 0
  /- `ctype_ctsG(g)->finalizer`, `none` when there is no C type state -/
  ctsFinalizer : Option Nat := none
  nocdatafin : Nat := 0
  jit_base : Nat := 0
  hookmask : Nat := 0
  vmstate : Int := 0
  /- log of the objects handed to a `gc_freefunc` entry, latest first -/
  freed : List Nat := []
  /- `sizeof` constants of the build -/
  szGCtab : Nat := 64
  szTValue : Nat := 8
  szNode : Nat := 24
  szLuaState : Nat := 96
  szGCtrace : Nat := 104
  sizeLfunc : Nat → Nat := fun n => 40 + 8 * n
  sizeCfunc : Nat → Nat := fun n => 40 + 8 * n
  sizeudata : GCobj → Nat := fun u => 48 + u.len
  /- bytes an object's free function returns to the allocator -/
  objsize : GCobj → Nat := fun _ => 16
  /- width in bits of `GCSize` -/
  memw : Nat := 64
  /- `LJ_HASFFI` build flag -/
  hasffi : Bool := true
  /- `LJ_HASJIT` build flag -/
  hasjit : Bool := true
  /- the open upvalues of all threads, in the order in which following
     `uvnext` from `g->uvhead` visits them before it is back at `&g->uvhead` -/
  uvhead : List Nat := []
  /- `g->gcroot[i]` and the build constant `GCROOT_MAX` -/
  gcroot : Nat → Nat := fun _ => 0
  GCROOT_MAX : Nat := 0
  registrytv : TValue := TValue.nil
  /- address standing for the trace being recorded, `&G2J(g)->cur` -/
  curtrace : Nat := 0
  /- the byte `g->strempty.marked` -/
  strempty : Nat := 0

/-- Store an object record at an address. -/
def GState.setObj (g : GState) (a : Nat) (o : GCobj) : GState :=
  { g with heap := fun x => if x = a then o else g.heap x }

/-- Update the object at an address in place. -/
def GState.modObj (g : GState) (a : Nat) (f : GCobj → GCobj) : GState :=
  g.setObj a (f (g.heap a))

/-! ## Color and age macros (`lj_gc.h`, top of `lj_gc.c`) -/

def iswhite (o : GCobj) : Prop := o.marked &&& LJ_GC_WHITES ≠ 0

def isblack (o : GCobj) : Prop := o.marked &&& LJ_GC_BLACK ≠ 0

def isgray (o : GCobj) : Prop := o.marked &&& (LJ_GC_BLACK ||| LJ_GC_WHITES) = 0

instance (o : GCobj) : Decidable (iswhite o) := by unfold iswhite; infer_instance
instance (o : GCobj) : Decidable (isblack o) := by unfold isblack; infer_instance
instance (o : GCobj) : Decidable (isgray o) := by unfold isgray; infer_instance

def otherwhite (g : GState) : Nat := g.currentwhite ^^^ LJ_GC_WHITES

def isdead (g : GState) (o : GCobj) : Prop :=
  o.marked &&& otherwhite g &&& LJ_GC_WHITES ≠ 0

def curwhite (g : GState) : Nat := g.currentwhite &&& LJ_GC_WHITES

instance (g : GState) (o : GCobj) : Decidable (isdead g o) := by
  unfold isdead; infer_instance

def newwhite (g : GState) (o : GCobj) : GCobj := { o with marked := curwhite g % 256 }

def makewhite (g : GState) (o : GCobj) : GCobj :=
  { o with marked := (o.marked &&& not8 LJ_GC_COLORS) ||| curwhite g }

def flipwhite (o : GCobj) : GCobj := { o with marked := o.marked ^^^ LJ_GC_WHITES }

def black2gray (o : GCobj) : GCobj := { o with marked := o.marked &&& not8 LJ_GC_BLACK }

def markfinalized (o : GCobj) : GCobj := { o with marked := o.marked ||| LJ_GC_FINALIZED }

def white2gray (o : GCobj) : GCobj := { o with marked := o.marked &&& not8 LJ_GC_WHITES }

def gray2black (o : GCobj) : GCobj := { o with marked := o.marked ||| LJ_GC_BLACK }

def isfinalized (o : GCobj) : Prop := o.marked &&& LJ_GC_FINALIZED ≠ 0

/-- Modelled from the spec: the macro `isfixed` (used by the generational
sweeps, defined outside `lj_gc.h`), "fixed" being the `FIXED` bit. -/
def isfixed (o : GCobj) : Prop := o.marked &&& LJ_GC_FIXED ≠ 0

def gc_mark_str (o : GCobj) : GCobj := { o with marked := o.marked &&& not8 LJ_GC_WHITES }

instance (o : GCobj) : Decidable (isfinalized o) := by unfold isfinalized; infer_instance
instance (o : GCobj) : Decidable (isfixed o) := by unfold isfixed; infer_instance

def getage (o : GCobj) : Nat := o.age

def setage (o : GCobj) (a : Nat) : GCobj := { o with age := a }

def isold (o : GCobj) : Prop := getage o > G_SURVIVAL

instance (o : GCobj) : Decidable (isold o) := by unfold isold; infer_instance

/-- The macro `changeage(o,f,t)`: as written in `lj_gc.h` it assigns `t` to
the `marked` byte. -/
def changeage (o : GCobj) (_f t : Nat) : GCobj := { o with marked := t }

def getgcparam (p : Nat) : Nat := p * 4

/-- Is the value a collectable reference (`tvisgcv`)? -/
def tvisgcv : TValue → Bool
  | TValue.gcv _ _ => true
  | _ => false

def tvisnil : TValue → Bool
  | TValue.nil => true
  | _ => false

def tvisstr : TValue → Bool
  | TValue.gcv GCT.str _ => true
  | _ => false

def tvisudata : TValue → Bool
  | TValue.gcv GCT.udata _ => true
  | _ => false

/-- Referenced object of a collectable value (`gcV`), null otherwise. -/
def gcV : TValue → Nat
  | TValue.gcv _ r => r
  | _ => 0

def tviswhite (g : GState) (tv : TValue) : Prop :=
  tvisgcv tv = true ∧ iswhite (g.heap (gcV tv))

instance (g : GState) (tv : TValue) : Decidable (tviswhite g tv) := by
  unfold tviswhite; infer_instance

/-- The value an upvalue currently denotes (`uvval(uv)`, that is `*uv->v`). -/
def uvval (g : GState) (uv : GCobj) : TValue :=
  match uv.v with
  | UVPtr.own => uv.tv
  | UVPtr.slot th i => (g.heap th).stack.getD i TValue.nil

/-- Result of `lj_meta_fastg(g, mt, mm)` for `MM_mode`, a null metatable giving
none. -/
def metaMode (g : GState) (mt : Nat) : Option (List Char) :=
  if mt = 0 then none else (g.heap mt).mmMode

/-- Result of `lj_meta_fastg(g, mt, MM_gc)`. -/
def metaGc (g : GState) (mt : Nat) : Option TValue :=
  if mt = 0 then none else (g.heap mt).mmGc

/-! ## Mark phase -/

/-- The function `gc_mark`.  The recursion through `gc_markobj`/`gc_marktv` is
bounded by `fuel`; running out of fuel yields `none`. -/
def gc_mark : Nat → GState → Nat → Option GState
  | 0, _, _ => none
  | n + 1, g, o =>
    let gct := (g.heap o).gct
    let g := g.modObj o white2gray
    match gct with
    | GCT.udata =>
      let mt := (g.heap o).metatable
      let g := g.modObj o gray2black
      (if mt ≠ 0 ∧ iswhite (g.heap mt) then gc_mark n g mt else some g).bind fun g =>
        if iswhite (g.heap (g.heap o).env) then gc_mark n g (g.heap o).env else some g
    | GCT.upval =>
      (if tviswhite g (uvval g (g.heap o)) then gc_mark n g (gcV (uvval g (g.heap o)))
        else some g).bind fun g =>
        if (g.heap o).closed then some (g.modObj o gray2black) else some g
    | GCT.str => some g
    | GCT.cdata => some g
    | _ =>
      some { g.modObj o (fun x => { x with gclist := g.gray }) with gray := o }

/-- The macro `gc_markobj`. -/
def gc_markobj (fuel : Nat) (g : GState) (o : Nat) : Option GState :=
  if iswhite (g.heap o) then gc_mark fuel g o else some g

/-- The macro `gc_marktv`. -/
def gc_marktv (fuel : Nat) (g : GState) (tv : TValue) : Option GState :=
  if tviswhite g tv then gc_mark fuel g (gcV tv) else some g

/-- Counted loop `for (i = start; i < start + count; i++) body(i)` over the
collector state. -/
def loopM (f : Nat → GState → Option GState) : Nat → Nat → GState → Option GState
  | 0, _, g => some g
  | k + 1, i, g => (f i g).bind (loopM f k (i + 1))

/-! ## Propagation phase -/

/-- Weak mode computed from the characters of `__mode` by the loop
`while ((c = *modestr++))`, which ends at the first NUL character (and at the
end of the string, where the terminating NUL is). -/
def modeWeak : List Char → Nat
  | [] => 0
  | c :: cs =>
    if c = Char.ofNat 0 then 0
    else
      let w := modeWeak cs
      if c = 'k' then w ||| LJ_GC_WEAKKEY else if c = 'v' then w ||| LJ_GC_WEAKVAL else w

/-- The value `(int)(~0u & ~LJ_GC_WEAKVAL)` as a 32-bit pattern. -/
def weakFin : Nat := 0xFFFFFFFF ^^^ LJ_GC_WEAKVAL

/-- Signed 32-bit test `w > 0`. -/
def int32Pos (w : Nat) : Prop := 0 < w ∧ w < 2 ^ 31

instance (w : Nat) : Decidable (int32Pos w) := by unfold int32Pos; infer_instance

/-- Body of the hash loop of `gc_traverse_tab` for node `i`. -/
def traverseNode (fuel : Nat) (t weak : Nat) (i : Nat) (g : GState) : Option GState :=
  let n := (g.heap t).node.getD i {}
  if tvisnil n.val then some g
  else
    (if weak &&& LJ_GC_WEAKKEY = 0 then gc_marktv fuel g n.key else some g).bind fun g =>
      let n := (g.heap t).node.getD i {}
      if weak &&& LJ_GC_WEAKVAL = 0 then gc_marktv fuel g n.val else some g

/-- The function `gc_traverse_tab`; returns the new state and `weak`. -/
def gc_traverse_tab (fuel : Nat) (g : GState) (t : Nat) : Option (GState × Nat) :=
  let mt := (g.heap t).metatable
  (if mt ≠ 0 then gc_markobj fuel g mt else some g).bind fun g =>
  let w0 := match metaMode g mt with
    | some cs => modeWeak cs
    | none => 0
  let gw : GState × Nat :=
    if w0 ≠ 0 then
      if g.ctsFinalizer = some t then (g, weakFin)
      else
        let g1 := g.modObj t (fun x =>
          { x with marked := ((x.marked &&& not8 LJ_GC_WEAK) ||| w0) % 256 })
        let g2 := g1.modObj t (fun x => { x with gclist := g1.weak })
        ({ g2 with weak := t }, w0)
    else (g, w0)
  let g := gw.1
  let weak := gw.2
  if weak = LJ_GC_WEAK then some (g, 1)
  else
    (if weak &&& LJ_GC_WEAKVAL = 0 then
      loopM (fun i g => gc_marktv fuel g ((g.heap t).array.getD i TValue.nil))
        (g.heap t).array.length 0 g
     else some g).bind fun g =>
    (if (g.heap t).hmask > 0 then
      loopM (traverseNode fuel t weak) ((g.heap t).hmask + 1) 0 g
     else some g).bind fun g =>
    if weak = 0 ∧ g.kind = GCKind.gen then
      let g1 := g.modObj t (fun x => { x with gclist := g.grayagain })
      let g2 := { g1 with grayagain := t }
      some (g2.modObj t black2gray, weak)
    else some (g, weak)

/-- The function `gc_traverse_func`. -/
def gc_traverse_func (fuel : Nat) (g : GState) (fn : Nat) : Option GState :=
  (gc_markobj fuel g (g.heap fn).env).bind fun g =>
  if (g.heap fn).isluafunc then
    (gc_markobj fuel g (g.heap fn).pt).bind fun g =>
    loopM (fun i g => gc_markobj fuel g ((g.heap fn).uvptr.getD i 0))
      (g.heap fn).uvptr.length 0 g
  else
    loopM (fun i g => gc_marktv fuel g ((g.heap fn).upvalue.getD i TValue.nil))
      (g.heap fn).upvalue.length 0 g

/-- The function `gc_marktrace`. -/
def gc_marktrace (g : GState) (traceno : Nat) : GState :=
  let o := g.traceref traceno
  if iswhite (g.heap o) then
    let g1 := g.modObj o white2gray
    let g2 := g1.modObj o (fun x => { x with gclist := g1.gray })
    { g2 with gray := o }
  else g

/-- The constant walk of `gc_traverse_trace`: `k` bounds the remaining
iterations, `ref` is the current slot (0 stands for `T->nk`). -/
def traverseIR (fuel : Nat) (T : Nat) : Nat → Nat → GState → Option GState
  | 0, _, g => some g
  | k + 1, ref, g =>
    if ref < (g.heap T).ir.length then
      let ins := (g.heap T).ir.getD ref {}
      (if ins.isKGC then gc_markobj fuel g ins.kgc else some g).bind fun g =>
        let ins := (g.heap T).ir.getD ref {}
        traverseIR fuel T k (if ins.wide then ref + 2 else ref + 1) g
    else some g

/-- The function `gc_traverse_trace`. -/
def gc_traverse_trace (fuel : Nat) (g : GState) (T : Nat) : Option GState :=
  if (g.heap T).traceno = 0 then some g
  else
    (traverseIR fuel T (g.heap T).ir.length 0 g).bind fun g =>
    let g := if (g.heap T).link ≠ 0 then gc_marktrace g (g.heap T).link else g
    let g := if (g.heap T).nextroot ≠ 0 then gc_marktrace g (g.heap T).nextroot else g
    let g := if (g.heap T).nextside ≠ 0 then gc_marktrace g (g.heap T).nextside else g
    gc_markobj fuel g (g.heap T).startpt

/-- The function `gc_traverse_proto`. -/
def gc_traverse_proto (fuel : Nat) (g : GState) (pt : Nat) : Option GState :=
  let g := g.modObj (g.heap pt).chunkname gc_mark_str
  (loopM (fun i g => gc_markobj fuel g ((g.heap pt).kgc.getD i 0))
    (g.heap pt).kgc.length 0 g).bind fun g =>
  if (g.heap pt).trace ≠ 0 then some (gc_marktrace g (g.heap pt).trace) else some g

/-- Body of the frame loop of `gc_traverse_frames`: `acc` is the running
`top`, as a slot index relative to `th->stack` (it starts at `th->top - 1`,
which is `-1` for an empty stack). -/
def traverseFrames (fuel : Nat) (th : Nat) :
    Nat → Nat → Int → GState → Option (GState × Int)
  | 0, _, acc, g => some (g, acc)
  | k + 1, i, acc, g =>
    let fr := (g.heap th).frames.getD i {}
    let fn := g.heap fr.fn
    let ftop : Int := if fn.isluafunc then fr.pos + (g.heap fn.pt).framesize else fr.pos
    let acc := if ftop > acc then ftop else acc
    (if ¬ g.fr2 then gc_markobj fuel g fr.fn else some g).bind fun g =>
      traverseFrames fuel th k (i + 1) acc g

/-- The function `gc_traverse_frames`; slot indices are relative to
`th->stack`. -/
def gc_traverse_frames (fuel : Nat) (g : GState) (th : Nat) : Option (GState × Nat) :=
  (traverseFrames fuel th (g.heap th).frames.length 0 (((g.heap th).top : Int) - 1) g).bind
    fun r =>
      let top := r.2 + 1
      some (r.1, (if top > ((r.1.heap th).maxstack : Int) then ((r.1.heap th).maxstack : Int)
        else top).toNat)

/-- Modelled from the spec: `lj_state_shrinkstack` (`lj_state.c`), which
"shrinks accordingly" once the minimum needed stack size is known: the stack
is halved when less than a quarter of it is needed. -/
def lj_state_shrinkstack (g : GState) (th : Nat) (used : Nat) : GState :=
  let sz := (g.heap th).stack.length
  if 4 * used < sz then
    let g1 := g.modObj th (fun x => { x with stack := x.stack.take (sz / 2) })
    { g1 with total := g1.total - g1.szTValue * (sz - sz / 2) }
  else g

/-- Set every slot from index `o` on to nil (`setnilV` loop). -/
def clearFrom (o : Nat) (stack : List TValue) : List TValue :=
  stack.take o ++ List.replicate (stack.length - o) TValue.nil

/-- The function `gc_traverse_thread`. -/
def gc_traverse_thread (fuel : Nat) (g : GState) (th : Nat) : Option GState :=
  let top := (g.heap th).top
  let s0 := 1 + (if g.fr2 then 1 else 0)
  (loopM (fun i g => gc_marktv fuel g ((g.heap th).stack.getD i TValue.nil))
    (top - s0) s0 g).bind fun g =>
  let o := s0 + (top - s0)
  let g := if g.state = GCSatomic then
      g.modObj th (fun x => { x with stack := clearFrom o x.stack })
    else g
  (gc_markobj fuel g (g.heap th).env).bind fun g =>
  (gc_traverse_frames fuel g th).bind fun r =>
  some (lj_state_shrinkstack r.1 th r.2)

/-- The function `propagatemark`; returns the new state and the cost. -/
def propagatemark (fuel : Nat) (g : GState) : Option (GState × Nat) :=
  let o := g.gray
  let gct := (g.heap o).gct
  let g := g.modObj o gray2black
  let g := { g with gray := (g.heap o).gclist }
  match gct with
  | GCT.tab =>
    (gc_traverse_tab fuel g o).bind fun r =>
      let g := if int32Pos r.2 then r.1.modObj o black2gray else r.1
      let t := g.heap o
      some (g, g.szGCtab + g.szTValue * t.array.length +
        (if t.hmask ≠ 0 then g.szNode * (t.hmask + 1) else 0))
  | GCT.func =>
    (gc_traverse_func fuel g o).bind fun g =>
      let fn := g.heap o
      some (g, if fn.isluafunc then g.sizeLfunc fn.uvptr.length
        else g.sizeCfunc fn.upvalue.length)
  | GCT.proto =>
    (gc_traverse_proto fuel g o).bind fun g => some (g, (g.heap o).sizept)
  | GCT.thread =>
    let g1 := g.modObj o (fun x => { x with gclist := g.grayagain })
    let g2 := { g1 with grayagain := o }
    let g3 := g2.modObj o black2gray
    (gc_traverse_thread fuel g3 o).bind fun g =>
      some (g, g.szLuaState + g.szTValue * (g.heap o).stack.length)
  | _ =>
    (gc_traverse_trace fuel g o).bind fun g => some (g, (g.heap o).tracesize)

/-- The function `gc_propagate_gray`: `fuel` bounds the number of loop
iterations (and the marking depth inside each); `none` means the bound was
reached with `gray` still non-empty. -/
def gc_propagate_gray : Nat → GState → Option (GState × Nat)
  | 0, g => if g.gray = 0 then some (g, 0) else none
  | n + 1, g =>
    if g.gray = 0 then some (g, 0)
    else
      (propagatemark n g).bind fun r =>
        (gc_propagate_gray n r.1).bind fun r2 => some (r2.1, r.2 + r2.2)

/-! ## Write barriers -/

/-- The function `lj_gc_barrierf`. -/
def lj_gc_barrierf (fuel : Nat) (g : GState) (o v : Nat) : Option GState :=
  if g.state = GCSpropagate ∨ g.state = GCSatomic then
    (gc_mark fuel g v).bind fun g =>
      if isold (g.heap o) then some (g.modObj v (fun x => setage x G_OLD0)) else some g
  else some (g.modObj o (makewhite g))

/-- The inline function `lj_gc_barrierback` of `lj_gc.h`. -/
def lj_gc_barrierback (g : GState) (t : Nat) : GState :=
  let g1 := g.modObj t black2gray
  let g2 := g1.modObj t (fun x => { x with gclist := g1.grayagain })
  { g2 with grayagain := t }

/-- The macro `lj_gc_anybarriert`. -/
def lj_gc_anybarriert (g : GState) (t : Nat) : GState :=
  if isblack (g.heap t) then lj_gc_barrierback g t else g

/-- The macro `lj_gc_barriert`. -/
def lj_gc_barriert (g : GState) (t : Nat) (tv : TValue) : GState :=
  if tviswhite g tv ∧ isblack (g.heap t) then lj_gc_barrierback g t else g

/-- The macro `lj_gc_objbarriert`. -/
def lj_gc_objbarriert (g : GState) (t : Nat) (o : Nat) : GState :=
  if iswhite (g.heap o) ∧ isblack (g.heap t) then lj_gc_barrierback g t else g

/-- The function `lj_gc_closeuv`. -/
def lj_gc_closeuv (fuel : Nat) (g : GState) (uv : Nat) : Option GState :=
  let val := uvval g (g.heap uv)
  let g := g.modObj uv (fun x => { x with tv := val })
  let g := g.modObj uv (fun x => { x with v := UVPtr.own })
  let g := g.modObj uv (fun x => { x with closed := true })
  let g := g.modObj uv (fun x => { x with nextgc := g.root })
  let g := { g with root := uv }
  if isgray (g.heap uv) then
    if g.state = GCSpropagate ∨ g.state = GCSatomic then
      let g := g.modObj uv gray2black
      if tviswhite g (g.heap uv).tv then lj_gc_barrierf fuel g uv (gcV (g.heap uv).tv)
      else some g
    else some (g.modObj uv (makewhite g))
  else some g

/-! ## Sweep phase -/

/-- Read the cell a `GCRef *` points to. -/
def Loc.get (g : GState) : Loc → Nat
  | Loc.root => g.root
  | Loc.strhash i => g.strhash i
  | Loc.nextgc o => (g.heap o).nextgc
  | Loc.openupval o => (g.heap o).openupval

/-- Write the cell a `GCRef *` points to. -/
def Loc.set (g : GState) (p : Loc) (r : Nat) : GState :=
  match p with
  | Loc.root => { g with root := r }
  | Loc.strhash i => { g with strhash := fun j => if j = i then r else g.strhash j }
  | Loc.nextgc o => g.modObj o (fun x => { x with nextgc := r })
  | Loc.openupval o => g.modObj o (fun x => { x with openupval := r })

/-- Subtraction on `GCSize`. -/
def subSize (g : GState) (a b : Nat) : Nat :=
  (a + 2 ^ g.memw - b % 2 ^ g.memw) % 2 ^ g.memw

/-- Modelled from the spec: the per-type free functions behind
`gc_freefunc` (`lj_str_free`, `lj_func_freeuv`, ..., `lj_udata_free`), which
"release all owned memory and return it to the allocator": the object is
logged as freed and its size is taken off `total`; a string also leaves the
string count. -/
def gc_free (g : GState) (o : Nat) : GState :=
  { g with
    freed := o :: g.freed
    total := subSize g g.total (g.objsize (g.heap o))
    strnum := if (g.heap o).gct = GCT.str then g.strnum - 1 else g.strnum }

/-- The loop of `gc_sweep` with the sweep of a thread's open upvalues
passed in as `inner`; `ow` is `otherwhite(g)` read at entry. -/
def sweepLoop (inner : GState → Nat → Option GState) (ow : Nat) :
    Nat → GState → Loc → Option (GState × Loc)
  | 0, g, p => some (g, p)
  | lim + 1, g, p =>
    let o := p.get g
    if o = 0 then some (g, p)
    else
      (if (g.heap o).gct = GCT.thread then inner g o else some g).bind fun g =>
        if ((g.heap o).marked ^^^ LJ_GC_WHITES) &&& ow ≠ 0 then
          sweepLoop inner ow lim (g.modObj o (makewhite g)) (Loc.nextgc o)
        else
          let g1 := p.set g (g.heap o).nextgc
          let g2 := if o = g1.root then { g1 with root := (g1.heap o).nextgc } else g1
          sweepLoop inner ow lim (gc_free g2 o) p

/-- The function `gc_sweep`; `depth` bounds the nesting of thread sweeps
(`none` when it is exceeded). -/
def gc_sweep : Nat → GState → Loc → Nat → Option (GState × Loc)
  | 0, g, p, lim => sweepLoop (fun _ _ => none) (otherwhite g) lim g p
  | d + 1, g, p, lim =>
    sweepLoop (fun g o => (gc_sweep d g (Loc.openupval o) (2 ^ 32 - 1)).map Prod.fst)
      (otherwhite g) lim g p

/-- The macro `gc_fullsweep`. -/
def gc_fullsweep (depth : Nat) (g : GState) (p : Loc) : Option (GState × Loc) :=
  gc_sweep depth g p (2 ^ 32 - 1)

/-- The function `gc_mayclear`; the state is returned because a string is
marked on the way. -/
def gc_mayclear (g : GState) (o : TValue) (val : Bool) : GState × Bool :=
  if tvisgcv o then
    if tvisstr o then (g.modObj (gcV o) gc_mark_str, false)
    else if iswhite (g.heap (gcV o)) then (g, true)
    else if tvisudata o ∧ val = true ∧ isfinalized (g.heap (gcV o)) then (g, true)
    else (g, false)
  else (g, false)

/-- Counted loop over the collector state for bodies that cannot fail. -/
def loopT (f : Nat → GState → GState) : Nat → Nat → GState → GState
  | 0, _, g => g
  | k + 1, i, g => loopT f k (i + 1) (f i g)

/-- Array-slot body of `gc_clearweak`. -/
def clearArraySlot (t : Nat) (i : Nat) (g : GState) : GState :=
  let r := gc_mayclear g ((g.heap t).array.getD i TValue.nil) true
  if r.2 then r.1.modObj t (fun x => { x with array := x.array.set i TValue.nil })
  else r.1

/-- Hash-node body of `gc_clearweak`. -/
def clearNode (t : Nat) (i : Nat) (g : GState) : GState :=
  if tvisnil ((g.heap t).node.getD i {}).val then g
  else
    let rk := gc_mayclear g ((g.heap t).node.getD i {}).key false
    let rv := if rk.2 then rk
      else gc_mayclear rk.1 ((rk.1.heap t).node.getD i {}).val true
    if rv.2 then
      rv.1.modObj t (fun x =>
        { x with node := x.node.set i { (x.node.getD i {}) with val := TValue.nil } })
    else rv.1

/-- One iteration of the `while (o)` loop of `gc_clearweak`. -/
def clearweakTab (g : GState) (t : Nat) : GState :=
  let g := if (g.heap t).marked &&& LJ_GC_WEAKVAL ≠ 0 then
      loopT (clearArraySlot t) (g.heap t).array.length 0 g
    else g
  if (g.heap t).hmask > 0 then loopT (clearNode t) ((g.heap t).hmask + 1) 0 g else g

/-- The function `gc_clearweak`; `fuel` bounds the length of the list. -/
def gc_clearweak : Nat → GState → Nat → Option GState
  | 0, g, o => if o = 0 then some g else none
  | n + 1, g, o =>
    if o = 0 then some g
    else
      let g := clearweakTab g o
      gc_clearweak n g (g.heap o).gclist

/-- The last branch of the loop body of `lj_gc_separateudata`: mark the
object finalized, unlink it at the cursor `p`, adjust the anchors and link it
to the end of the circular `mmudata` list. -/
def separateMove (g : GState) (p : Loc) (o : Nat) : GState :=
  let g := g.modObj o markfinalized
  let g := p.set g (g.heap o).nextgc
  let g := if o = g.udatasur then { g with udatasur := (g.heap o).nextgc } else g
  let g := if o = g.udataold then { g with udataold := (g.heap o).nextgc } else g
  if g.mmudata ≠ 0 then
    let root := g.mmudata
    let g := g.modObj o (fun x => { x with nextgc := (g.heap root).nextgc })
    let g := g.modObj root (fun x => { x with nextgc := o })
    { g with mmudata := o }
  else
    let g := g.modObj o (fun x => { x with nextgc := o })
    { g with mmudata := o }

/-- The loop of `lj_gc_separateudata`; `fuel` bounds the number of
iterations, `p` is the cursor and `m` the byte count so far. -/
def separateLoop (all : Bool) : Nat → GState → Loc → Nat → Option (GState × Nat)
  | 0, g, p, m => if p.get g = 0 then some (g, m) else none
  | n + 1, g, p, m =>
    let o := p.get g
    if o = 0 then some (g, m)
    else if ¬ (iswhite (g.heap o) ∨ all = true) ∨ isfinalized (g.heap o) then
      separateLoop all n g (Loc.nextgc o) m
    else if metaGc g (g.heap o).metatable = none then
      separateLoop all n (g.modObj o markfinalized) (Loc.nextgc o) m
    else
      separateLoop all n (separateMove g p o) p (m + g.sizeudata (g.heap o))

/-- The function `lj_gc_separateudata`. -/
def lj_gc_separateudata (fuel : Nat) (g : GState) (all : Bool) : Option (GState × Nat) :=
  separateLoop all fuel g (Loc.nextgc g.mainthread) 0

/-! ## Finalizers -/

/-- The function `gc_mark_mmudata`'s `do ... while` loop from element `u`
(already advanced); `fuel` bounds the iterations and the marking depth. -/
def markMmudataLoop (root : Nat) : Nat → GState → Nat → Option GState
  | 0, _, _ => none
  | n + 1, g, u =>
    let u := (g.heap u).nextgc
    let g := g.modObj u (makewhite g)
    (gc_mark n g u).bind fun g =>
      if u ≠ root then markMmudataLoop root n g u else some g

/-- The function `gc_mark_mmudata`. -/
def gc_mark_mmudata (fuel : Nat) (g : GState) : Option GState :=
  if g.mmudata ≠ 0 then markMmudataLoop g.mmudata fuel g g.mmudata else some g

/-- What `lj_gc.c` uses from the rest of the VM around a finalizer call: the
hook macros of `lj_dispatch.h`, `lj_trace_abort`, the protected call
`lj_vm_pcall` (new state and error code) and the constant `LJ_MAX_MEM`. -/
structure VM where
  LJ_MAX_MEM : Nat
  hook_save : Nat → Nat
  hook_entergc : Nat → Nat
  hook_restore : Nat → Nat → Nat
  lj_trace_abort : GState → GState
  lj_vm_pcall : GState → Nat → Nat → GState × Nat
  /- `lj_buf_shrink(L, &g->tmpbuf)` -/
  lj_buf_shrink : GState → Nat → GState := fun g _ => g
  /- `lj_str_resize(L, newmask)` -/
  lj_str_resize : GState → Nat → Nat → GState := fun g _ _ => g
  /- `lj_tab_rehash(L, t)` -/
  lj_tab_rehash : GState → Nat → Nat → GState := fun g _ _ => g
  LJ_MIN_STRTAB : Nat := 256
  LJ_VMST_GC : Nat := 2
  /- `g->allocf(g->allocd, p, osz, nsz)`: the pointer returned, 0 for null -/
  allocf : GState → Nat → Nat → Nat → Nat :=
    fun _ p _ nsz => if nsz = 0 then 0 else if p = 0 then 1 else p
  /- the error code with which `lj_err_mem` leaves -/
  LUA_ERRMEM : Nat := 4

/-- The function `gc_call_finalizer`: final state and the error code handed
to `lj_err_throw`, if any. -/
def gc_call_finalizer (vm : VM) (g : GState) (L : Nat) (mo : TValue) (o : Nat) :
    GState × Option Nat :=
  let oldh := vm.hook_save g.hookmask
  let oldt := g.threshold
  let g := vm.lj_trace_abort g
  let g := { g with hookmask := vm.hook_entergc g.hookmask }
  let g := { g with threshold := vm.LJ_MAX_MEM }
  let top := (g.heap L).top
  let g := g.modObj L (fun x => { x with stack := x.stack.set top mo })
  let top := top + 1
  let g := if g.fr2 then g.modObj L (fun x => { x with stack := x.stack.set top TValue.nil })
    else g
  let top := if g.fr2 then top + 1 else top
  let g := g.modObj L (fun x => { x with stack := x.stack.set top (TValue.gcv (g.heap o).gct o) })
  let g := g.modObj L (fun x => { x with top := top + 1 })
  let r := vm.lj_vm_pcall g L top
  let g := { r.1 with hookmask := vm.hook_restore r.1.hookmask oldh }
  let g := { g with threshold := oldt }
  (g, if r.2 ≠ 0 then some r.2 else none)

/-- Index of the first hash node of a table with the given key. -/
def findKey (k : TValue) : List Node → Option Nat
  | [] => none
  | n :: ns => if n.key = k then some 0 else (findKey k ns).map (· + 1)

/-- The function `gc_finalize`. -/
def gc_finalize (vm : VM) (g : GState) (L : Nat) : GState × Option Nat :=
  let o := (g.heap g.mmudata).nextgc
  let g := if o = g.mmudata then { g with mmudata := 0 }
    else g.modObj g.mmudata (fun x => { x with nextgc := (g.heap o).nextgc })
  if g.hasffi = true ∧ (g.heap o).gct = GCT.cdata then
    let g := g.modObj o (fun x => { x with nextgc := g.root })
    let g := { g with root := o }
    let g := g.modObj o (makewhite g)
    let g := g.modObj o (fun x => { x with marked := x.marked &&& not8 LJ_GC_CDATA_FIN })
    let fin := g.ctsFinalizer.getD 0
    match findKey (TValue.gcv GCT.cdata o) (g.heap fin).node with
    | some i =>
      let tmp := ((g.heap fin).node.getD i {}).val
      if ¬ tvisnil tmp then
        let g := { g with nocdatafin := 0 }
        let g := g.modObj fin (fun x =>
          { x with node := x.node.set i { (x.node.getD i {}) with val := TValue.nil } })
        gc_call_finalizer vm g L tmp o
      else (g, none)
    | none => (g, none)
  else
    let g := g.modObj o (fun x => { x with nextgc := (g.heap g.mainthread).nextgc })
    let g := g.modObj g.mainthread (fun x => { x with nextgc := o })
    let g := g.modObj o (makewhite g)
    match metaGc g (g.heap o).metatable with
    | some mo => gc_call_finalizer vm g L mo o
    | none => (g, none)

/-- The function `lj_gc_finalize_udata`; `fuel` bounds the iterations, the
second component is the error thrown out of the loop, if any. -/
def lj_gc_finalize_udata (vm : VM) : Nat → GState → Nat → Option (GState × Option Nat)
  | 0, g, _ => if g.mmudata = 0 then some (g, none) else none
  | n + 1, g, L =>
    if g.mmudata = 0 then some (g, none)
    else
      let r := gc_finalize vm g L
      match r.2 with
      | some e => some (r.1, some e)
      | none => lj_gc_finalize_udata vm n r.1 L

/-! ## Generational sweeps -/

/-- The function `sweep2old`; `fuel` bounds iterations and nesting. -/
def sweep2old : Nat → GState → Loc → Option GState
  | 0, g, p => if p.get g = 0 then some g else none
  | n + 1, g, p =>
    let o := p.get g
    if o = 0 then some g
    else
      (if (g.heap o).gct = GCT.thread then sweep2old n g (Loc.openupval o)
        else some g).bind fun g =>
        if iswhite (g.heap o) ∧ ¬ isfixed (g.heap o) then
          let g := p.set g (g.heap o).nextgc
          sweep2old n (gc_free g o) p
        else
          sweep2old n (g.modObj o (fun x => setage x G_OLD)) (Loc.nextgc o)

/-- The table `nextage` of `sweepgen`. -/
def nextage : List Nat :=
  [G_SURVIVAL, G_OLD1, G_OLD1, G_OLD, G_OLD, G_TOUCHED1, G_TOUCHED2]

/-- The anchors handed to `sweepgen` as its `GCRef *root`: `&g->gc.old` and
`&g->gc.udataold`. -/
inductive Anchor
  | old
  | udataold
  deriving DecidableEq, Repr

def Anchor.get (g : GState) : Anchor → Nat
  | Anchor.old => g.old
  | Anchor.udataold => g.udataold

def Anchor.set (g : GState) (p : Anchor) (r : Nat) : GState :=
  match p with
  | Anchor.old => { g with old := r }
  | Anchor.udataold => { g with udataold := r }

/-- The function `sweepgen`; `limit` is the object `gcref(limit)`, `root` the
optional anchor to adjust; `fuel` bounds iterations and nesting. -/
def sweepgen : Nat → GState → Loc → Nat → Option Anchor → Option (GState × Loc)
  | 0, g, p, limit, _ => if p.get g = limit then some (g, p) else none
  | n + 1, g, p, limit, root =>
    let o := p.get g
    if o = limit then some (g, p)
    else if o = 0 then none
    else
      (if (g.heap o).gct = GCT.thread then
          (sweepgen n g (Loc.openupval o) 0 none).map Prod.fst
        else some g).bind fun g =>
        if iswhite (g.heap o) ∧ ¬ isfixed (g.heap o) then
          let g := p.set g (g.heap o).nextgc
          let g := match root with
            | some r => if o = r.get g then r.set g (g.heap o).nextgc else g
            | none => g
          sweepgen n (gc_free g o) p limit root
        else
          let g := if getage (g.heap o) = G_NEW then g.modObj o (makewhite g) else g
          let g := g.modObj o (fun x => setage x (nextage.getD (getage x) 0))
          sweepgen n g (Loc.nextgc o) limit root

/-- The function `whitelist`; `fuel` bounds iterations and nesting. -/
def whitelist : Nat → GState → Nat → Option GState
  | 0, g, p => if p = 0 then some g else none
  | n + 1, g, p =>
    if p = 0 then some g
    else
      let g := g.modObj p (makewhite g)
      let g := g.modObj p (fun x => setage x G_NEW)
      (if (g.heap p).gct = GCT.thread then whitelist n g (g.heap p).openupval
        else some g).bind fun g =>
        whitelist n g (g.heap p).nextgc

/-! ## Collector driver -/

/-- Outcome of a function that a finalizer's error may leave through
`lj_err_throw`: a normal return with its value, or the error code thrown;
either way with the state reached. -/
inductive Res (α : Type) where
  | ok (g : GState) (a : α)
  | throw (g : GState) (e : Nat)

/-- Sequencing of two such computations: none when fuel ran out, a thrown
error skips the rest. -/
def andThen {α β : Type} (x : Option (Res α)) (f : GState → α → Option (Res β)) :
    Option (Res β) :=
  match x with
  | none => none
  | some (Res.throw g e) => some (Res.throw g e)
  | some (Res.ok g a) => f g a

/-- Addition on `GCSize`. -/
def addSize (g : GState) (a b : Nat) : Nat := (a + b) % 2 ^ g.memw

/-- The loop condition of `incstep`: `(int64_t)lim > 0` or `(int32_t)lim > 0`
according to the width of `GCSize`. -/
def signedPos (g : GState) (lim : Nat) : Prop :=
  0 < lim % 2 ^ g.memw ∧ lim % 2 ^ g.memw < 2 ^ (g.memw - 1)

instance (g : GState) (lim : Nat) : Decidable (signedPos g lim) := by
  unfold signedPos; infer_instance

/-- The function `gc_mark_gcroot`. -/
def gc_mark_gcroot (fuel : Nat) (g : GState) : Option GState :=
  loopM (fun i g => if g.gcroot i ≠ 0 then gc_markobj fuel g (g.gcroot i) else some g)
    g.GCROOT_MAX 0 g

/-- The function `gc_mark_start`. -/
def gc_mark_start (fuel : Nat) (g : GState) : Option GState :=
  let g := { g with gray := 0 }
  let g := { g with grayagain := 0 }
  let g := { g with weak := 0 }
  (gc_markobj fuel g g.mainthread).bind fun g =>
  (gc_markobj fuel g (g.heap g.mainthread).env).bind fun g =>
  (gc_marktv fuel g g.registrytv).bind fun g =>
  (gc_mark_gcroot fuel g).map fun g => { g with state := GCSpropagate }

/-- The loop of `gc_mark_uv` over the open upvalues still to visit. -/
def markUvLoop (fuel : Nat) : List Nat → GState → Option GState
  | [], g => some g
  | uv :: uvs, g =>
    (if isgray (g.heap uv) then gc_marktv fuel g (uvval g (g.heap uv)) else some g).bind
      (markUvLoop fuel uvs)

/-- The function `gc_mark_uv`. -/
def gc_mark_uv (fuel : Nat) (g : GState) : Option GState :=
  markUvLoop fuel g.uvhead g

/-- The macro `gc_traverse_curtrace`. -/
def gc_traverse_curtrace (fuel : Nat) (g : GState) : Option GState :=
  if g.hasjit = true then gc_traverse_trace fuel g g.curtrace else some g

/-- The function `atomic` up to and including `lj_buf_shrink`: all of its
marking, with the value of `udsize`. -/
def atomicMark (vm : VM) (fuel : Nat) (g : GState) (L : Nat) : Option (GState × Nat) :=
  let grayagain := g.grayagain
  let g := { g with grayagain := 0 }
  let g := { g with state := GCSatomic }
  (gc_mark_uv fuel g).bind fun g =>
  (gc_propagate_gray fuel g).bind fun r =>
  let g := { r.1 with gray := r.1.weak }
  let g := { g with weak := 0 }
  (gc_markobj fuel g L).bind fun g =>
  (gc_traverse_curtrace fuel g).bind fun g =>
  (gc_mark_gcroot fuel g).bind fun g =>
  (gc_propagate_gray fuel g).bind fun r =>
  let g := { r.1 with gray := grayagain }
  (gc_propagate_gray fuel g).bind fun r =>
  (lj_gc_separateudata fuel r.1 false).bind fun s =>
  (gc_mark_mmudata fuel s.1).bind fun g =>
  (gc_propagate_gray fuel g).bind fun r =>
  (gc_clearweak fuel r.1 r.1.weak).bind fun g =>
  some (vm.lj_buf_shrink g L, s.2 + r.2)

/-- The end of `atomic` ("Prepare for sweep phase"). -/
def atomicFlip (g : GState) (udsize : Nat) : GState :=
  let g := { g with currentwhite := otherwhite g % 256 }
  let g := { g with strempty := g.currentwhite }
  let g := { g with sweep := Loc.root }
  { g with estimate := subSize g g.total udsize }

/-- The function `atomic`. -/
def atomic (vm : VM) (fuel : Nat) (g : GState) (L : Nat) : Option GState :=
  (atomicMark vm fuel g L).map fun r => atomicFlip r.1 r.2

/-- The case `GCSsweepstring` of `gc_onestep` after its `gc_fullsweep`. -/
def sweepstringDone (g : GState) (old : Nat) : GState :=
  let g := { g with sweepstr := (g.sweepstr + 1) % 2 ^ 32 }
  let g := if g.sweepstr > g.strmask then { g with state := GCSsweep } else g
  { g with estimate := subSize g g.estimate (subSize g old g.total) }

/-- The case `GCSsweep` of `gc_onestep` after its `gc_sweep`, which returned
the cursor `p`. -/
def sweepDone (vm : VM) (g : GState) (L : Nat) (p : Loc) (old : Nat) : GState :=
  let g := { g with sweep := p }
  let g := { g with estimate := subSize g g.estimate (subSize g old g.total) }
  if g.sweep.get g = 0 then
    let g := if g.strnum ≤ g.strmask >>> 2 ∧ g.strmask > vm.LJ_MIN_STRTAB * 2 - 1 then
        vm.lj_str_resize g L (g.strmask >>> 1)
      else g
    if g.mmudata ≠ 0 then
      let g := { g with state := GCSfinalize }
      if g.hasffi = true then { g with nocdatafin := 1 } else g
    else
      let g := { g with state := GCSpause }
      { g with debt := 0 }
  else g

/-- The case `GCSfinalize` of `gc_onestep`. -/
def finalizeStep (vm : VM) (g : GState) (L : Nat) : Res Nat :=
  if g.mmudata ≠ 0 then
    if g.jit_base ≠ 0 then Res.ok g vm.LJ_MAX_MEM
    else
      match gc_finalize vm g L with
      | (g, some e) => Res.throw g e
      | (g, none) =>
        let g := if g.estimate > GCFINALIZECOST then
            { g with estimate := g.estimate - GCFINALIZECOST }
          else g
        Res.ok g GCFINALIZECOST
  else
    let g := if g.hasffi = true ∧ g.nocdatafin = 0 then
        vm.lj_tab_rehash g L (g.ctsFinalizer.getD 0)
      else g
    let g := { g with state := GCSpause }
    Res.ok { g with debt := 0 } 0

/-- The function `gc_onestep`: new state and cost estimate. -/
def gc_onestep (vm : VM) (fuel : Nat) (g : GState) (L : Nat) : Option (Res Nat) :=
  if g.state = GCSpause then
    (gc_mark_start fuel g).map fun g => Res.ok g 0
  else if g.state = GCSpropagate then
    if g.gray ≠ 0 then (propagatemark fuel g).map fun r => Res.ok r.1 r.2
    else some (Res.ok { g with state := GCSatomic } 0)
  else if g.state = GCSatomic then
    if g.jit_base ≠ 0 then some (Res.ok g vm.LJ_MAX_MEM)
    else
      (atomic vm fuel g L).map fun g =>
        let g := { g with state := GCSsweepstring }
        Res.ok { g with sweepstr := 0 } 0
  else if g.state = GCSsweepstring then
    (gc_fullsweep fuel g (Loc.strhash g.sweepstr)).map fun r =>
      Res.ok (sweepstringDone r.1 g.total) GCSWEEPCOST
  else if g.state = GCSsweep then
    (gc_sweep fuel g g.sweep GCSWEEPMAX).map fun r =>
      Res.ok (sweepDone vm r.1 L r.2 g.total) (GCSWEEPMAX * GCSWEEPCOST)
  else if g.state = GCSfinalize then some (finalizeStep vm g L)
  else some (Res.ok g 0)

/-- The `do ... while` loop of `incstep`; `fuel` also bounds its iterations.
The value is true when the loop was left by the `return 1` path (the state
is the one before the assignments of that path). -/
def incstepLoop (vm : VM) (fuel : Nat) : Nat → GState → Nat → Nat → Option (Res Bool)
  | 0, _, _, _ => none
  | n + 1, g, L, lim =>
    andThen (gc_onestep vm fuel g L) fun g cost =>
      let lim := subSize g lim cost
      if g.state = GCSpause then some (Res.ok g true)
      else if signedPos g lim then incstepLoop vm fuel n g L lim
      else some (Res.ok g false)

/-- The assignments of `incstep` before its loop; `lim` is computed in
32 bits from `GCSTEPSIZE` and `stepmul`. -/
def incstepEntry (vm : VM) (g : GState) : GState × Nat :=
  let g := { g with vmstate := -(vm.LJ_VMST_GC : Int) - 1 }
  let lim := ((GCSTEPSIZE / 100) * g.stepmul) % 2 ^ 32
  let lim := if lim = 0 then vm.LJ_MAX_MEM else lim
  let g := if g.total > g.threshold then
      { g with debt := addSize g g.debt (subSize g g.total g.threshold) }
    else g
  (g, lim)

/-- The function `incstep`. -/
def incstep (vm : VM) (fuel : Nat) (g : GState) (L : Nat) : Option (Res Int) :=
  let ostate := g.vmstate
  let e := incstepEntry vm g
  andThen (incstepLoop vm fuel fuel e.1 L e.2) fun g done =>
    if done = true then
      let g := { g with threshold := ((g.estimate / 100) * g.pause) % 2 ^ g.memw }
      some (Res.ok { g with vmstate := ostate } 1)
    else if g.debt < GCSTEPSIZE then
      let g := { g with threshold := addSize g g.total GCSTEPSIZE }
      some (Res.ok { g with vmstate := ostate } (-1))
    else
      let g := { g with debt := g.debt - GCSTEPSIZE }
      let g := { g with threshold := g.total }
      some (Res.ok { g with vmstate := ostate } 0)

/-- The loop of `lj_gc_runtilstate`; the first argument bounds its
iterations. -/
def runtilLoop (vm : VM) (fuel : Nat) : Nat → GState → Nat → Nat → Option (Res Unit)
  | 0, g, _, st => if g.state = st then some (Res.ok g ()) else none
  | n + 1, g, L, st =>
    if g.state = st then some (Res.ok g ())
    else andThen (gc_onestep vm fuel g L) fun g _ => runtilLoop vm fuel n g L st

/-- The function `lj_gc_runtilstate`. -/
def lj_gc_runtilstate (vm : VM) (fuel : Nat) (g : GState) (L : Nat) (state : Nat) :
    Option (Res Unit) :=
  runtilLoop vm fuel fuel g L state

/-- The function `sweepstringsold`. -/
def sweepstringsold (fuel : Nat) (g : GState) : Option GState :=
  loopM (fun i g => sweep2old fuel g (Loc.strhash i)) (g.strmask + 1) 0 g

/-- The function `sweepstringsgen`. -/
def sweepstringsgen (fuel : Nat) (g : GState) : Option GState :=
  loopM (fun i g => (sweepgen fuel g (Loc.strhash i) 0 none).map Prod.fst) (g.strmask + 1) 0 g

/-- The function `whiltestrings`. -/
def whiltestrings (fuel : Nat) (g : GState) : Option GState :=
  loopM (fun i g => whitelist fuel g (g.strhash i)) g.strmask 0 g

/-- Pointers into the gray lists (`GCRef *p` of `correctgraylist`). -/
inductive GLoc
  | grayagain
  | weak
  | gclist (o : Nat)
  deriving DecidableEq, Repr

def GLoc.get (g : GState) : GLoc → Nat
  | GLoc.grayagain => g.grayagain
  | GLoc.weak => g.weak
  | GLoc.gclist o => (g.heap o).gclist

def GLoc.set (g : GState) (p : GLoc) (r : Nat) : GState :=
  match p with
  | GLoc.grayagain => { g with grayagain := r }
  | GLoc.weak => { g with weak := r }
  | GLoc.gclist o => g.modObj o (fun x => { x with gclist := r })

/-- The function `correctgraylist`; `fuel` bounds the iterations.  An object
of any other type than table, userdata or thread is looked at again and
again, so no fuel is enough. -/
def correctgraylist : Nat → GState → GLoc → Option (GState × GLoc)
  | 0, g, p => if p.get g = 0 then some (g, p) else none
  | n + 1, g, p =>
    let o := p.get g
    if o = 0 then some (g, p)
    else if (g.heap o).gct = GCT.tab ∨ (g.heap o).gct = GCT.udata then
      if getage (g.heap o) = G_TOUCHED1 then
        let g := g.modObj o gray2black
        let g := g.modObj o (fun x => changeage x G_TOUCHED1 G_TOUCHED2)
        correctgraylist n g (GLoc.gclist o)
      else
        let g := if ¬ iswhite (g.heap o) then
            let g := if getage (g.heap o) = G_TOUCHED2 then
                g.modObj o (fun x => changeage x G_TOUCHED2 G_OLD)
              else g
            g.modObj o gray2black
          else g
        correctgraylist n (p.set g (g.heap o).gclist) p
    else if (g.heap o).gct = GCT.thread then
      if iswhite (g.heap o) then correctgraylist n (p.set g (g.heap o).gclist) p
      else correctgraylist n g (GLoc.gclist o)
    else none

/-- The function `correctgraylists`. -/
def correctgraylists (fuel : Nat) (g : GState) : Option GState :=
  (correctgraylist fuel g GLoc.grayagain).bind fun r =>
    let g := r.2.set r.1 r.1.weak
    let g := { g with weak := 0 }
    (correctgraylist fuel g r.2).map Prod.fst

/-- The function `markold`; `fuel` bounds the iterations and the marking. -/
def markold : Nat → GState → Nat → Nat → Option GState
  | 0, g, src, dst => if src = dst then some g else none
  | n + 1, g, src, dst =>
    if src = dst then some g
    else if src = 0 then none
    else
      (if getage (g.heap src) = G_OLD1 ∧ isblack (g.heap src) then
          gc_mark n (g.modObj src black2gray) src
        else some g).bind fun g =>
        markold n g (g.heap src).nextgc dst

/-- The function `markstringold`. -/
def markstringold (fuel : Nat) (g : GState) : Option GState :=
  loopM (fun i g => markold fuel g (g.strhash i) 0) g.strmask 0 g

/-- The function `callallpendingfinalizers`; `fuel` bounds the iterations. -/
def callallpendingfinalizers (vm : VM) : Nat → GState → Nat → Option (Res Unit)
  | 0, g, _ => if g.mmudata = 0 then some (Res.ok g ()) else none
  | n + 1, g, L =>
    if g.mmudata = 0 then some (Res.ok g ())
    else
      match gc_finalize vm g L with
      | (g, some e) => some (Res.throw g e)
      | (g, none) => callallpendingfinalizers vm n g L

/-- The function `finishgencycle`. -/
def finishgencycle (vm : VM) (fuel : Nat) (g : GState) (L : Nat) : Option (Res Unit) :=
  (correctgraylists fuel g).bind fun g =>
    callallpendingfinalizers vm fuel { g with state := GCSpropagate } L

/-- The sweeps of `youngcollection` with their pointer updates: everything
between `atomic` and `finishgencycle`. -/
def youngSweep (fuel : Nat) (g : GState) : Option GState :=
  (sweepgen fuel g Loc.root g.surival none).bind fun r =>
  (sweepgen fuel r.1 r.2 r.1.reallyold (some Anchor.old)).bind fun r2 =>
  let g := { r2.1 with reallyold := r2.1.old }
  let g := { g with old := r.2.get g }
  let g := { g with surival := g.root }
  (sweepstringsgen fuel g).bind fun g =>
  (sweepgen fuel g (Loc.nextgc g.mainthread) g.udatasur none).bind fun r =>
  (sweepgen fuel r.1 r.2 r.1.udatarold (some Anchor.udataold)).bind fun r2 =>
  let g := { r2.1 with udatarold := r2.1.udataold }
  let g := { g with udataold := r.2.get g }
  some { g with udatasur := (g.heap g.mainthread).nextgc }

/-- The function `youngcollection`. -/
def youngcollection (vm : VM) (fuel : Nat) (g : GState) (L : Nat) : Option (Res Unit) :=
  (markold fuel g g.surival g.reallyold).bind fun g =>
  (markold fuel g g.udatasur g.udatarold).bind fun g =>
  (markstringold fuel g).bind fun g =>
  (atomic vm fuel g L).bind fun g =>
  (youngSweep fuel g).bind fun g =>
  finishgencycle vm fuel g L

/-- The assignments of `entergen` between its sweeps and `finishgencycle`. -/
def entergenSeed (g : GState) : GState :=
  let g := { g with surival := g.root }
  let g := { g with old := g.surival }
  let g := { g with reallyold := g.old }
  let g := { g with udatasur := (g.heap g.mainthread).nextgc }
  let g := { g with udataold := g.udatasur }
  let g := { g with udatarold := g.udataold }
  let g := { g with kind := GCKind.gen }
  let g := { g with estimate := g.total }
  { g with threshold := ((g.total / 100) * (100 + g.genminormul)) % 2 ^ g.memw }

/-- The function `entergen`. -/
def entergen (vm : VM) (fuel : Nat) (g : GState) (L : Nat) : Option (Res Unit) :=
  andThen (lj_gc_runtilstate vm fuel g L GCSpause) fun g _ =>
  andThen (lj_gc_runtilstate vm fuel g L GCSpropagate) fun g _ =>
  (atomic vm fuel g L).bind fun g =>
  (sweep2old fuel g Loc.root).bind fun g =>
  (sweepstringsold fuel g).bind fun g =>
  finishgencycle vm fuel (entergenSeed g) L

/-- The function `enterinc`. -/
def enterinc (fuel : Nat) (g : GState) : Option GState :=
  (whitelist fuel g g.root).bind fun g =>
  let g := { g with reallyold := 0 }
  let g := { g with old := 0 }
  let g := { g with surival := 0 }
  (whiltestrings fuel g).map fun g =>
    let g := { g with state := GCSpause }
    { g with kind := GCKind.inc }

/-- The function `fullgen`. -/
def fullgen (vm : VM) (fuel : Nat) (g : GState) (L : Nat) : Option (Res Unit) :=
  (enterinc fuel g).bind fun g => entergen vm fuel g L

/-- The test of `genstep` for a major collection; `majorbase` is an `MSize`
and the product is computed in 32 bits. -/
def genstepMajor (g : GState) : Prop :=
  g.total > g.threshold ∧
    g.total > (((g.estimate % 2 ^ 32) / 100) * (100 + getgcparam g.genmajormul)) % 2 ^ 32

instance (g : GState) : Decidable (genstepMajor g) := by
  unfold genstepMajor; infer_instance

/-- The function `genstep`; `majorbase` and `mem` are `MSize` variables. -/
def genstep (vm : VM) (fuel : Nat) (g : GState) (L : Nat) : Option (Res Unit) :=
  let majorbase := g.estimate % 2 ^ 32
  if genstepMajor g then fullgen vm fuel g L
  else
    andThen (youngcollection vm fuel g L) fun g _ =>
      let mem := g.total % 2 ^ 32
      let g := { g with threshold := ((mem / 100) * (100 + g.genminormul)) % 2 ^ 32 }
      some (Res.ok { g with estimate := majorbase } ())

/-- The function `lj_gc_step`. -/
def lj_gc_step (vm : VM) (fuel : Nat) (g : GState) (L : Nat) : Option (Res Int) :=
  if g.kind = GCKind.inc then incstep vm fuel g L
  else andThen (genstep vm fuel g L) fun g _ => some (Res.ok g 1)

/-- The function `lj_gc_changemode`. -/
def lj_gc_changemode (vm : VM) (fuel : Nat) (g : GState) (L : Nat) (newmode : GCKind) :
    Option (Res Unit) :=
  if newmode ≠ g.kind then
    if newmode = GCKind.gen then entergen vm fuel g L
    else (enterinc fuel g).map fun g => Res.ok g ()
  else some (Res.ok g ())

/-- The second loop of `fullinc`: `do gc_onestep while state != GCSpause`. -/
def fullCycle (vm : VM) (fuel : Nat) : Nat → GState → Nat → Option (Res Unit)
  | 0, _, _ => none
  | n + 1, g, L =>
    andThen (gc_onestep vm fuel g L) fun g _ =>
      if g.state ≠ GCSpause then fullCycle vm fuel n g L else some (Res.ok g ())

/-- The function `lj_gc_freeall`; `depth` bounds the nesting of thread
sweeps.  The loop counter `i` is an `MSize`: with `strmask = ~(MSize)0` the
test `i <= strmask` never fails and the loop does not end (`none`). -/
def lj_gc_freeall (depth : Nat) (g : GState) : Option GState :=
  let g := { g with currentwhite := LJ_GC_WHITES ||| LJ_GC_SFIXED }
  (gc_fullsweep depth g Loc.root).bind fun r =>
    let strmask := r.1.strmask
    if strmask < 2 ^ 32 - 1 then
      loopM (fun i g => (gc_fullsweep depth g (Loc.strhash i)).map Prod.fst) (strmask + 1) 0 r.1
    else none

/-! ## Allocator -/

/-- The function `lj_mem_realloc`: the new state and the pointer returned,
or the state handed to `lj_err_mem` and its error code. -/
def lj_mem_realloc (vm : VM) (g : GState) (p osz nsz : Nat) : Res Nat :=
  let p := vm.allocf g p osz nsz
  if p = 0 ∧ nsz > 0 then Res.throw g vm.LUA_ERRMEM
  else Res.ok { g with total := addSize g (subSize g g.total osz) nsz } p

/-- The function `lj_mem_newgco`: the new state and the address of the new
object, or the state handed to `lj_err_mem` and its error code. -/
def lj_mem_newgco (vm : VM) (g : GState) (size : Nat) : Res Nat :=
  let o := vm.allocf g 0 0 size
  if o = 0 then Res.throw g vm.LUA_ERRMEM
  else
    let g := { g with total := addSize g g.total size }
    let g := g.modObj o (fun x => { x with nextgc := g.root })
    let g := { g with root := o }
    let g := g.modObj o (newwhite g)
    let g := g.modObj o (fun x => setage x G_NEW)
    Res.ok g o

/-- The function `lj_mem_free` (`lj_gc.h`); the allocator call returns
nothing the collector keeps. -/
def lj_mem_free (g : GState) (_p osize : Nat) : GState :=
  { g with total := subSize g g.total osize }

/-! ## Notions used by the statements -/

/-- Every white object of the heap has its address in `S`. -/
def WhiteIn (g : GState) (S : Finset Nat) : Prop :=
  ∀ a, iswhite (g.heap a) → a ∈ S

/-- An object with its color byte and worklist link blanked: what marking
never changes. -/
def shape (o : GCobj) : GCobj := { o with marked := 0, gclist := 0 }

/-- Properly black: `BLACK` set and no white bit. -/
def Black (o : GCobj) : Prop := isblack o ∧ ¬ iswhite o

instance (o : GCobj) : Decidable (Black o) := by unfold Black; infer_instance

/-- The collector state with the heap and the `gray` head blanked: what
marking an object never changes. -/
def GState.restMark (g : GState) : GState := { g with heap := fun _ => {}, gray := 0 }

/-- How a state `g'` reached by marking relates to the state `g` before: only
color bytes and worklist links change, only on objects that were white, and
only in their color bits. -/
structure MarkRel (g g' : GState) : Prop where
  shape_eq : ∀ a, shape (g'.heap a) = shape (g.heap a)
  nonwhite : ∀ a, ¬ iswhite (g.heap a) → g'.heap a = g.heap a
  white : ∀ a, iswhite (g'.heap a) → g'.heap a = g.heap a
  bits : ∀ a, (g'.heap a).marked &&& 248 = (g.heap a).marked &&& 248
  frame : g'.restMark = g.restMark

/-- State for the statements on the forward barrier: a black function at
address 1, a white string at address 2, collector in `Propagate`. -/
def exBarrier : GState :=
  { heap := fun a =>
      if a = 1 then { gct := GCT.func, marked := 4, age := 4 }
      else if a = 2 then { gct := GCT.str, marked := 1 }
      else {}
    state := GCSpropagate }

/-- State for the statements on closing an upvalue: a gray open upvalue at
address 1 aliasing slot 1 of the thread at address 3, which holds the white
table at address 2; collector in `Propagate`. -/
def exCloseuv : GState :=
  { heap := fun a =>
      if a = 1 then { gct := GCT.upval, marked := 0, v := UVPtr.slot 3 1 }
      else if a = 2 then { gct := GCT.tab, marked := 1 }
      else if a = 3 then
        { gct := GCT.thread, marked := 0, stack := [TValue.nil, TValue.gcv GCT.tab 2], top := 2 }
      else {}
    state := GCSpropagate
    root := 3 }

/-- The four field stores at the start of `lj_gc_closeuv`, as one update. -/
def closeFields (val : TValue) (root : Nat) (x : GCobj) : GCobj :=
  { x with tv := val, v := UVPtr.own, closed := true, nextgc := root }

/-- The state in which `gc_call_finalizer` enters `lj_vm_pcall`, with the
stack slot passed as `top`: everything the function does before the call. -/
def finalizerEntry (vm : VM) (g : GState) (L : Nat) (mo : TValue) (o : Nat) : GState × Nat :=
  let g := vm.lj_trace_abort g
  let g := { g with hookmask := vm.hook_entergc g.hookmask }
  let g := { g with threshold := vm.LJ_MAX_MEM }
  let top := (g.heap L).top
  let g := g.modObj L (fun x => { x with stack := x.stack.set top mo })
  let top := top + 1
  let g := if g.fr2 then g.modObj L (fun x => { x with stack := x.stack.set top TValue.nil })
    else g
  let top := if g.fr2 then top + 1 else top
  let g := g.modObj L (fun x => { x with stack := x.stack.set top (TValue.gcv (g.heap o).gct o) })
  let g := g.modObj L (fun x => { x with top := top + 1 })
  (g, top)

/-- A VM for the statements on finalizer calls: the hook macros keep the
event mask in the low four bits and the hook state above it, and every
protected call scribbles over `threshold` and `hookmask` and fails with error
code 2. -/
def exVM : VM :=
  { LJ_MAX_MEM := 2 ^ 31 - 1
    hook_save := fun m => m &&& 240
    hook_entergc := fun m => (m ||| 80) &&& 127
    hook_restore := fun m h => (m &&& 15) ||| h
    lj_trace_abort := fun g => g
    lj_vm_pcall := fun g _ _ => ({ g with threshold := 7, hookmask := 47 }, 2) }

/-- The list `xs` is exactly what following `nextgc` from the reference `h`
visits before reaching null. -/
def Chain (g : GState) : Nat → List Nat → Prop
  | h, [] => h = 0
  | h, x :: xs => h = x ∧ x ≠ 0 ∧ Chain g (g.heap x).nextgc xs

/-- The object a list cell lives in, for the cells inside objects. -/
def Loc.owner : Loc → Option Nat
  | Loc.nextgc o => some o
  | Loc.openupval o => some o
  | _ => none

/-- The test of `gc_sweep` that keeps an object:
`(marked ^ LJ_GC_WHITES) & ow` is non-zero. -/
def sweepKeeps (g : GState) (ow : Nat) (x : Nat) : Prop :=
  ((g.heap x).marked ^^^ LJ_GC_WHITES) &&& ow ≠ 0

instance (g : GState) (ow x : Nat) : Decidable (sweepKeeps g ow x) := by
  unfold sweepKeeps; infer_instance

/-- Store into the cell of `p` inside its owner object. -/
def Loc.put (p : Loc) (o : GCobj) (r : Nat) : GCobj :=
  match p with
  | Loc.nextgc _ => { o with nextgc := r }
  | Loc.openupval _ => { o with openupval := r }
  | _ => o

/-- What a sweep of the list `xs` at the cell `p`, visiting at most `lim`
objects none of which is a thread, leaves behind: `g` before, `g'` and the
returned cursor `p'` after. -/
structure SweepPost (g : GState) (ow : Nat) (p : Loc) (xs : List Nat) (lim : Nat)
    (g' : GState) (p' : Loc) : Prop where
  chain : Chain g' (p.get g')
    ((xs.take lim).filter (fun x => decide (sweepKeeps g ow x)) ++ xs.drop lim)
  cursor : Chain g' (p'.get g') (xs.drop lim)
  frame : ∀ a, a ∉ xs.take lim → (∀ q, p.owner = some q → a ≠ q) → g'.heap a = g.heap a
  owner : ∀ q, p.owner = some q → g'.heap q = p.put (g.heap q) (p.get g')
  kept : ∀ x ∈ xs.take lim, sweepKeeps g ow x →
    g'.heap x = { makewhite g (g.heap x) with nextgc := (g'.heap x).nextgc }
  dead : ∀ x ∈ xs.take lim, ¬ sweepKeeps g ow x → g'.heap x = g.heap x
  freed : g'.freed =
    ((xs.take lim).filter (fun x => decide (¬ sweepKeeps g ow x))).reverse ++ g.freed
  white : g'.currentwhite = g.currentwhite
  root : p ≠ Loc.root → g.root ∉ xs.take lim → g'.root = g.root
  strhash : (∀ i, p ≠ Loc.strhash i) → g'.strhash = g.strhash

/-- An object with its color byte and list links blanked: what a sweep
never changes. -/
def shapeL (o : GCobj) : GCobj := { o with marked := 0, nextgc := 0, openupval := 0 }

/-- The limit `~(uint32_t)0` of `gc_fullsweep`. -/
def fullLim : Nat := 2 ^ 32 - 1

/-- The objects a sweep of the list `xs` visits, in order: before each
object, the open upvalues `U x` of the object (none unless it is a thread),
as far as a full sweep gets. -/
def visited (U : Nat → List Nat) : List Nat → List Nat
  | [] => []
  | x :: xs => (U x).take fullLim ++ x :: visited U xs

/-- Every object of the list `xs` together with its open upvalues. -/
def footprint (U : Nat → List Nat) : List Nat → List Nat
  | [] => []
  | x :: xs => U x ++ x :: footprint U xs

/-- Effect of sweeping the objects `V` on colors, on the free log and on
everything else: `Q` lists the objects of which only a list link changed. -/
structure SweepEff (g g' : GState) (ow : Nat) (V Q : List Nat) : Prop where
  shape : ∀ a, shapeL (g'.heap a) = shapeL (g.heap a)
  frame : ∀ a, a ∉ V → a ∉ Q → g'.heap a = g.heap a
  kept : ∀ v ∈ V, sweepKeeps g ow v → (g'.heap v).marked = (makewhite g (g.heap v)).marked
  same : ∀ v, (v ∉ V ∨ ¬ sweepKeeps g ow v) → (g'.heap v).marked = (g.heap v).marked
  freed : g'.freed = (V.filter (fun x => decide (¬ sweepKeeps g ow x))).reverse ++ g.freed
  white : g'.currentwhite = g.currentwhite

/-- The cell that ends the list `ks` starting in the cell `p`: the `nextgc`
field of the last element, or `p` itself when the list is empty. -/
def lastLoc : Loc → List Nat → Loc
  | p, [] => p
  | _, x :: xs => lastLoc (Loc.nextgc x) xs

/-- What `gc_sweep` leaves behind on a list `xs` whose threads have the open
upvalue lists `U`: the list cell `p` heads the kept objects followed by the
unvisited ones, the returned cursor `p'` heads the unvisited ones and is the
cell that ends the kept ones, every visited thread heads its kept upvalues,
and colors, free log and the rest of the heap are as `SweepEff` says. -/
structure SweepPostN (g : GState) (ow : Nat) (p : Loc) (U : Nat → List Nat) (xs : List Nat)
    (lim : Nat) (g' : GState) (p' : Loc) : Prop where
  chain : Chain g' (p.get g')
    ((xs.take lim).filter (fun x => decide (sweepKeeps g ow x)) ++ xs.drop lim)
  cursor : Chain g' (p'.get g') (xs.drop lim)
  last : p' = lastLoc p ((xs.take lim).filter (fun x => decide (sweepKeeps g ow x)))
  upchain : ∀ t ∈ xs.take lim, (g.heap t).gct = GCT.thread →
    Chain g' (g'.heap t).openupval
      (((U t).take fullLim).filter (fun x => decide (sweepKeeps g ow x)) ++ (U t).drop fullLim)
  eff : SweepEff g g' ow (visited U (xs.take lim)) (p.owner.toList)
  owner : ∀ q, p.owner = some q → g'.heap q = p.put (g.heap q) (p.get g')
  root : p ≠ Loc.root → g.root ∉ visited U (xs.take lim) → g'.root = g.root
  strhash : (∀ i, p ≠ Loc.strhash i) → g'.strhash = g.strhash

/-- State for the statements on the sweep: `root` heads the list of a black
function (1), a table carrying the other white (2) and a gray thread (3) whose
only open upvalue (4) carries the other white; `currentwhite` is
`WHITE0 | FIXED`. -/
def exSweep : GState :=
  { heap := fun a =>
      if a = 1 then { gct := GCT.func, marked := 4, nextgc := 2 }
      else if a = 2 then { gct := GCT.tab, marked := 2, nextgc := 3 }
      else if a = 3 then { gct := GCT.thread, marked := 0, nextgc := 0, openupval := 4 }
      else if a = 4 then { gct := GCT.upval, marked := 2, nextgc := 0 }
      else {}
    root := 1
    currentwhite := 0x21 }

/-- Open upvalues of the threads of `exSweep`. -/
def exSweepU : Nat → List Nat := fun x => if x = 3 then [4] else []

/-- The list `ts` is exactly what following `gclist` from the reference `h`
visits before reaching null. -/
def GChain (g : GState) : Nat → List Nat → Prop
  | h, [] => h = 0
  | h, x :: xs => h = x ∧ x ≠ 0 ∧ GChain g (g.heap x).gclist xs

/-- The value references a white collectable that is not a string. -/
def whiteRef (g : GState) (o : TValue) : Prop :=
  tvisgcv o = true ∧ tvisstr o = false ∧ iswhite (g.heap (gcV o))

/-- The value references a userdata whose `FINALIZED` bit is set. -/
def finUdata (g : GState) (o : TValue) : Prop :=
  tvisudata o = true ∧ isfinalized (g.heap (gcV o))

/-- What `gc_mayclear` decides: the reference is about to die (a finalized
userdata counting only in value position). -/
def aboutToDie (g : GState) (o : TValue) (val : Bool) : Prop :=
  whiteRef g o ∨ (val = true ∧ finUdata g o)

/-- The hash nodes a table owns: `node[0..hmask]` when `hmask > 0`, none
otherwise (the table then points at the shared nil node). -/
def hashIdx (t : GCobj) (i : Nat) : Prop := t.hmask > 0 ∧ i ≤ t.hmask

/-- How the state after clearing weak tables relates to the state before:
objects only lose white bits, and a slot either keeps its value or was set to
nil because its key or value was about to die. -/
structure ClearRel (g g' : GState) : Prop where
  white : ∀ a, iswhite (g'.heap a) → iswhite (g.heap a)
  fin : ∀ a, isfinalized (g'.heap a) ↔ isfinalized (g.heap a)
  weakval : ∀ a, (g'.heap a).marked &&& LJ_GC_WEAKVAL = (g.heap a).marked &&& LJ_GC_WEAKVAL
  gclist : ∀ a, (g'.heap a).gclist = (g.heap a).gclist
  hmask : ∀ a, (g'.heap a).hmask = (g.heap a).hmask
  alen : ∀ a, (g'.heap a).array.length = (g.heap a).array.length
  array : ∀ a i, (g'.heap a).array.getD i TValue.nil = (g.heap a).array.getD i TValue.nil ∨
    ((g'.heap a).array.getD i TValue.nil = TValue.nil ∧
      aboutToDie g ((g.heap a).array.getD i TValue.nil) true)
  key : ∀ a i, ((g'.heap a).node.getD i {}).key = ((g.heap a).node.getD i {}).key
  val : ∀ a i, ((g'.heap a).node.getD i {}).val = ((g.heap a).node.getD i {}).val ∨
    (((g'.heap a).node.getD i {}).val = TValue.nil ∧
      (aboutToDie g ((g.heap a).node.getD i {}).key false ∨
        aboutToDie g ((g.heap a).node.getD i {}).val true) ∧
      (tvisstr ((g.heap a).node.getD i {}).key = true →
        ¬ iswhite (g'.heap (gcV ((g.heap a).node.getD i {}).key))))

/-- An array slot holds nothing that is about to die, and no white string. -/
def arrOK (g : GState) (t i : Nat) : Prop :=
  ¬ whiteRef g ((g.heap t).array.getD i TValue.nil) ∧
  ¬ finUdata g ((g.heap t).array.getD i TValue.nil) ∧
  (tvisstr ((g.heap t).array.getD i TValue.nil) = true →
    ¬ iswhite (g.heap (gcV ((g.heap t).array.getD i TValue.nil))))

/-- A hash node whose value is not nil has no key or value that is a white
non-string collectable, no finalized userdata as value, and no white string
as key or value. -/
def nodeOK (g : GState) (t i : Nat) : Prop :=
  ((g.heap t).node.getD i {}).val ≠ TValue.nil →
    ¬ whiteRef g ((g.heap t).node.getD i {}).key ∧
    ¬ whiteRef g ((g.heap t).node.getD i {}).val ∧
    ¬ finUdata g ((g.heap t).node.getD i {}).val ∧
    (tvisstr ((g.heap t).node.getD i {}).key = true →
      ¬ iswhite (g.heap (gcV ((g.heap t).node.getD i {}).key))) ∧
    (tvisstr ((g.heap t).node.getD i {}).val = true →
      ¬ iswhite (g.heap (gcV ((g.heap t).node.getD i {}).val)))

/-- The weak-table property of a table `t` in a state: every hash node the
table owns is `nodeOK`, and every array slot is `arrOK` when the table has
`WEAKVAL`. -/
def Cleared (g : GState) (t : Nat) : Prop :=
  (∀ i, hashIdx (g.heap t) i → nodeOK g t i) ∧
  ((g.heap t).marked &&& LJ_GC_WEAKVAL ≠ 0 → ∀ i, i < (g.heap t).array.length → arrOK g t i)

/-- State for the statements on weak tables: the weak table 1 (both weak
bits, two hash nodes, one array slot) whose first node has the white table 2
as key, whose second node has the white string 3 as value, and whose array
slot holds the finalized black userdata 4. -/
def exWeak : GState :=
  { heap := fun a =>
      if a = 1 then
        { gct := GCT.tab, marked := 0x18, hmask := 1
          node := [{ key := TValue.gcv GCT.tab 2, val := TValue.prim 7 },
                   { key := TValue.prim 5, val := TValue.gcv GCT.str 3 }]
          array := [TValue.gcv GCT.udata 4] }
      else if a = 2 then { gct := GCT.tab, marked := 1 }
      else if a = 3 then { gct := GCT.str, marked := 1 }
      else if a = 4 then { gct := GCT.udata, marked := 12 }
      else {}
    weak := 1 }

/-- Following `nextgc` from the reference `h` visits exactly `xs` and then
arrives at `e`. -/
def Seg (g : GState) : Nat → List Nat → Nat → Prop
  | h, [], e => h = e
  | h, x :: xs, e => h = x ∧ x ≠ 0 ∧ Seg g (g.heap x).nextgc xs e

/-- The circular list whose last element `g->gc.mmudata` points to holds
exactly `ms`, first to last. -/
def Circ (g : GState) (tail : Nat) : List Nat → Prop
  | [] => tail = 0
  | m :: rest => tail = (m :: rest).getLast (List.cons_ne_nil m rest) ∧
      Seg g m (m :: rest) m

/-- The test of `lj_gc_separateudata` for moving an object to `mmudata`:
white (or `all`), not `FINALIZED`, and with a `__gc` metamethod. -/
def movable (g : GState) (all : Bool) (x : Nat) : Prop :=
  (iswhite (g.heap x) ∨ all = true) ∧ ¬ isfinalized (g.heap x) ∧
    metaGc g (g.heap x).metatable ≠ none

instance (g : GState) (all : Bool) (x : Nat) : Decidable (movable g all x) := by
  unfold movable; infer_instance

/-- An object with its color byte and `nextgc` link blanked: what
`lj_gc_separateudata` never changes. -/
def shapeN (o : GCobj) : GCobj := { o with marked := 0, nextgc := 0 }

/-- The objects `lj_gc_separateudata` deals with: white (or `all`) and not
yet `FINALIZED`. -/
def sepCand (g : GState) (all : Bool) (x : Nat) : Prop :=
  (iswhite (g.heap x) ∨ all = true) ∧ ¬ isfinalized (g.heap x)

instance (g : GState) (all : Bool) (x : Nat) : Decidable (sepCand g all x) := by
  unfold sepCand; infer_instance

/-- The collector state without the heap, `mmudata` and the two userdata
anchors `lj_gc_separateudata` adjusts. -/
def GState.restSep (g : GState) : GState :=
  { g with heap := fun _ => {}, mmudata := 0, udatasur := 0, udataold := 0 }

/-- What `lj_gc_separateudata` leaves behind on the userdata list `xs` at
the cell `nextgc` of `q`, with `ms` on `mmudata` before: the movable objects
are appended to `mmudata` in list order, the others stay in order, every
candidate gets `FINALIZED`, `m'` is the byte count. -/
structure SepPost (g : GState) (all : Bool) (q : Nat) (xs ms : List Nat) (m : Nat)
    (g' : GState) (m' : Nat) : Prop where
  chain : Chain g' (g'.heap q).nextgc (xs.filter (fun x => decide (¬ movable g all x)))
  circ : Circ g' g'.mmudata (ms ++ xs.filter (fun x => decide (movable g all x)))
  marked_in : ∀ x ∈ xs, (g'.heap x).marked =
    if sepCand g all x then (g.heap x).marked ||| LJ_GC_FINALIZED else (g.heap x).marked
  marked_out : ∀ a, a ∉ xs → (g'.heap a).marked = (g.heap a).marked
  shape : ∀ a, shapeN (g'.heap a) = shapeN (g.heap a)
  frame : ∀ a, a ∉ xs → a ∉ ms → a ≠ q → g'.heap a = g.heap a
  size : m' = m +
    ((xs.filter (fun x => decide (movable g all x))).map (fun x => g.sizeudata (g.heap x))).sum
  rest : g'.restSep = g.restSep

/-- The heap after the move branch of `lj_gc_separateudata` when the cursor
is the `nextgc` cell of `q` and `x` is moved. -/
def moveHeap (g : GState) (q x : Nat) (a : Nat) : GCobj :=
  if a = x then
    { g.heap x with
      marked := (g.heap x).marked ||| LJ_GC_FINALIZED
      nextgc := if g.mmudata ≠ 0 then (g.heap g.mmudata).nextgc else x }
  else if a = g.mmudata ∧ g.mmudata ≠ 0 then { g.heap a with nextgc := x }
  else if a = q then { g.heap q with nextgc := (g.heap x).nextgc }
  else g.heap a

/-- The anchor adjustment inside the move branch of `lj_gc_separateudata`. -/
def moveAnchors (g : GState) (o : Nat) : GState :=
  let g := if o = g.udatasur then { g with udatasur := (g.heap o).nextgc } else g
  if o = g.udataold then { g with udataold := (g.heap o).nextgc } else g

/-- The linking into `mmudata` at the end of the move branch of
`lj_gc_separateudata`. -/
def moveLink (g : GState) (o : Nat) : GState :=
  if g.mmudata ≠ 0 then
    let root := g.mmudata
    let g := g.modObj o (fun x => { x with nextgc := (g.heap root).nextgc })
    let g := g.modObj root (fun x => { x with nextgc := o })
    { g with mmudata := o }
  else
    let g := g.modObj o (fun x => { x with nextgc := o })
    { g with mmudata := o }

/-- Every object that has the `FINALIZED` bit in `g` still has it in `g'`. -/
def FinKept (g g' : GState) : Prop :=
  ∀ a, isfinalized (g.heap a) → isfinalized (g'.heap a)

/-- The rest of the VM never clears a `FINALIZED` bit: `lj_trace_abort` and
the code run under `lj_vm_pcall` (the finalizer) leave set bits set. -/
def VMKeepsFin (vm : VM) : Prop :=
  (∀ g, FinKept g (vm.lj_trace_abort g)) ∧ (∀ g L top, FinKept g (vm.lj_vm_pcall g L top).1)

/-- The collector operations that touch a userdata after it has been
separated, and `lj_gc_separateudata` itself, with their arguments. -/
inductive GcOp
  | separateudata (fuel : Nat) (all : Bool)
  | mark_mmudata (fuel : Nat)
  | finalize (L : Nat)
  | makewhite (o : Nat)
  | sweep (depth : Nat) (p : Loc) (lim : Nat)
  | sweepgen (fuel : Nat) (p : Loc) (limit : Nat) (root : Option Anchor)
  | sweep2old (fuel : Nat) (p : Loc)
  | whitelist (fuel : Nat) (p : Nat)

/-- Run one collector operation. -/
def GcOp.run (vm : VM) (g : GState) : GcOp → Option GState
  | GcOp.separateudata fuel all => (lj_gc_separateudata fuel g all).map Prod.fst
  | GcOp.mark_mmudata fuel => gc_mark_mmudata fuel g
  | GcOp.finalize L => some (gc_finalize vm g L).1
  | GcOp.makewhite o => some (g.modObj o (LjGc.makewhite g))
  | GcOp.sweep depth p lim => (gc_sweep depth g p lim).map Prod.fst
  | GcOp.sweepgen fuel p limit root => (LjGc.sweepgen fuel g p limit root).map Prod.fst
  | GcOp.sweep2old fuel p => LjGc.sweep2old fuel g p
  | GcOp.whitelist fuel p => LjGc.whitelist fuel g p

/-- Run a sequence of collector operations, first to last. -/
def runOps (vm : VM) : List GcOp → GState → Option GState
  | [], g => some g
  | op :: ops, g => (op.run vm g).bind (runOps vm ops)

/-- State for the statements on userdata separation: main thread at address
1 heading the userdata list 2, 3, 4; 2 is white with a `__gc` metamethod in
its metatable 5, 3 is white without metatable, 4 is already `FINALIZED`. -/
def exSep : GState :=
  { heap := fun a =>
      if a = 1 then { gct := GCT.thread, marked := 4, nextgc := 2 }
      else if a = 2 then { gct := GCT.udata, marked := 1, nextgc := 3, metatable := 5 }
      else if a = 3 then { gct := GCT.udata, marked := 1, nextgc := 4 }
      else if a = 4 then { gct := GCT.udata, marked := 9, nextgc := 0, metatable := 5 }
      else if a = 5 then { gct := GCT.tab, marked := 4, mmGc := some (TValue.prim 1) }
      else {}
    mainthread := 1
    mmudata := 0 }

/-- The finalizers and `lj_trace_abort` enqueue nothing and raise no error:
the circular `mmudata` list and the main thread are the same after the call,
and `lj_vm_pcall` reports success. -/
def VMQuiet (vm : VM) : Prop :=
  (∀ g ms, Circ g g.mmudata ms →
    Circ (vm.lj_trace_abort g) (vm.lj_trace_abort g).mmudata ms) ∧
  (∀ g, (vm.lj_trace_abort g).mainthread = g.mainthread) ∧
  (∀ g L top ms, Circ g g.mmudata ms →
    Circ (vm.lj_vm_pcall g L top).1 (vm.lj_vm_pcall g L top).1.mmudata ms) ∧
  (∀ g L top, (vm.lj_vm_pcall g L top).1.mainthread = g.mainthread) ∧
  (∀ g L top, (vm.lj_vm_pcall g L top).2 = 0)

/-- The objects `lj_gc_finalize_udata` hands to `gc_finalize`, in order: at
every iteration the successor of the object `g->gc.mmudata` points to. -/
def finalizeSeq (vm : VM) : Nat → GState → Nat → List Nat
  | 0, _, _ => []
  | n + 1, g, L =>
    if g.mmudata = 0 then []
    else
      (g.heap g.mmudata).nextgc ::
        (match (gc_finalize vm g L).2 with
          | some _ => []
          | none => finalizeSeq vm n (gc_finalize vm g L).1 L)

/-- The state of `gc_finalize` after unlinking the first object of the
circular `mmudata` list. -/
def finalizeUnlink (g : GState) : GState :=
  let o := (g.heap g.mmudata).nextgc
  if o = g.mmudata then { g with mmudata := 0 }
  else g.modObj g.mmudata (fun x => { x with nextgc := (g.heap o).nextgc })

/-- The userdata branch of `gc_finalize` up to the lookup of `__gc`: the
object `o` is linked in after the main thread and made white. -/
def finalizeRelink (g : GState) (o : Nat) : GState :=
  let g := g.modObj o (fun x => { x with nextgc := (g.heap g.mainthread).nextgc })
  let g := g.modObj g.mainthread (fun x => { x with nextgc := o })
  g.modObj o (makewhite g)

/-- The state of `gc_finalize` on a userdata at the point where its `__gc`
metamethod is looked up. -/
def finalizePre (g : GState) : GState :=
  finalizeRelink (finalizeUnlink g) (g.heap g.mmudata).nextgc

/-- The cdata branch of `gc_finalize` up to the lookup of the finalizer:
the object `o` is linked in at `root`, made white and loses `CDATA_FIN`. -/
def finalizeRelinkCdata (g : GState) (o : Nat) : GState :=
  let g := g.modObj o (fun x => { x with nextgc := g.root })
  let g := { g with root := o }
  let g := g.modObj o (makewhite g)
  g.modObj o (fun x => { x with marked := x.marked &&& not8 LJ_GC_CDATA_FIN })

/-- The rest of the cdata branch of `gc_finalize`. -/
def finalizeCdataCall (vm : VM) (g : GState) (L o : Nat) : GState × Option Nat :=
  let fin := g.ctsFinalizer.getD 0
  match findKey (TValue.gcv GCT.cdata o) (g.heap fin).node with
  | some i =>
    let tmp := ((g.heap fin).node.getD i {}).val
    if ¬ tvisnil tmp then
      let g := { g with nocdatafin := 0 }
      let g := g.modObj fin (fun x =>
        { x with node := x.node.set i { (x.node.getD i {}) with val := TValue.nil } })
      gc_call_finalizer vm g L tmp o
    else (g, none)
  | none => (g, none)

/-- A VM whose finalizers do nothing and succeed. -/
def quietVM : VM :=
  { LJ_MAX_MEM := 2 ^ 31 - 1
    hook_save := fun m => m &&& 240
    hook_entergc := fun m => (m ||| 80) &&& 127
    hook_restore := fun m h => (m &&& 15) ||| h
    lj_trace_abort := fun g => g
    lj_vm_pcall := fun g _ _ => (g, 0) }

/-- State for the statements on finalization: main thread at address 1, the
userdata 2 and 3 on `mmudata` (3 last), both with the `__gc` metamethod of
the metatable 5. -/
def exFin : GState :=
  { heap := fun a =>
      if a = 1 then
        { gct := GCT.thread, marked := 4, nextgc := 0,
          stack := [TValue.nil, TValue.nil, TValue.nil, TValue.nil] }
      else if a = 2 then { gct := GCT.udata, marked := 9, nextgc := 3, metatable := 5 }
      else if a = 3 then { gct := GCT.udata, marked := 9, nextgc := 2, metatable := 5 }
      else if a = 5 then { gct := GCT.tab, marked := 4, mmGc := some (TValue.prim 1) }
      else {}
    mainthread := 1
    mmudata := 3 }

/-- The object a value refers to, if it is collectable. -/
def tvRef (tv : TValue) : List Nat := if tvisgcv tv then [gcV tv] else []

/-- The references of a hash node: none when the value is nil (an empty
slot), else the key (when `keys`) and the value. -/
def nodeRefs (keys : Bool) (n : Node) : List Nat :=
  if tvisnil n.val then [] else (if keys then tvRef n.key else []) ++ tvRef n.val

/-- The collectable constants of a trace's IR, walking the constant slots as
`gc_traverse_trace` does (a wide constant occupies two slots). -/
def irRefs (ir : List IRIns) : Nat → Nat → List Nat
  | 0, _ => []
  | k + 1, ref =>
    if ref < ir.length then
      (if (ir.getD ref {}).isKGC then [(ir.getD ref {}).kgc] else []) ++
        irRefs ir k (if (ir.getD ref {}).wide then ref + 2 else ref + 1)
    else []

/-- The trace object a trace number refers to, if the number is non-zero. -/
def traceRef (g : GState) (n : Nat) : List Nat := if n ≠ 0 then [g.traceref n] else []

/-- The objects an object directly references.  With `strict` every table
counts its hash keys; without, the keys of the FFI finalizer table
(`cts->finalizer`) are left out. -/
def children (strict : Bool) (g : GState) (a : Nat) : List Nat :=
  let o := g.heap a
  match o.gct with
  | GCT.str => []
  | GCT.cdata => []
  | GCT.udata => (if o.metatable ≠ 0 then [o.metatable] else []) ++ [o.env]
  | GCT.upval => tvRef (uvval g o)
  | GCT.tab =>
    (if o.metatable ≠ 0 then [o.metatable] else []) ++ (o.array.map tvRef).flatten ++
      (if o.hmask > 0 then
        ((List.range (o.hmask + 1)).map (fun i =>
          nodeRefs (strict || decide (g.ctsFinalizer ≠ some a)) (o.node.getD i {}))).flatten
       else [])
  | GCT.func =>
    o.env :: (if o.isluafunc then o.pt :: o.uvptr else (o.upvalue.map tvRef).flatten)
  | GCT.proto => o.chunkname :: (o.kgc ++ traceRef g o.trace)
  | GCT.trace =>
    if o.traceno = 0 then []
    else irRefs o.ir o.ir.length 0 ++ traceRef g o.link ++ traceRef g o.nextroot ++
      traceRef g o.nextside ++ [o.startpt]
  | GCT.thread =>
    ((List.range (o.top - (1 + (if g.fr2 then 1 else 0)))).map (fun i =>
      tvRef (o.stack.getD (1 + (if g.fr2 then 1 else 0) + i) TValue.nil))).flatten ++
      [o.env] ++ (if ¬ g.fr2 then o.frames.map (fun fr => fr.fn) else [])

/-- No object referenced by `a` is white. -/
def KidsOK (strict : Bool) (g : GState) (a : Nat) : Prop :=
  ∀ v ∈ children strict g a, ¬ iswhite (g.heap v)

/-- The tri-color invariant: no black object directly references a white
object. -/
def TriColor (strict : Bool) (g : GState) : Prop :=
  ∀ a, isblack (g.heap a) → KidsOK strict g a

/-- The object types `propagatemark` traverses. -/
def trav (t : GCT) : Prop :=
  t ≠ GCT.str ∧ t ≠ GCT.upval ∧ t ≠ GCT.udata ∧ t ≠ GCT.cdata

/-- The gray list is the `gclist` chain `ts` of distinct non-white
traversable objects. -/
structure GrayB (g : GState) (ts : List Nat) : Prop where
  chain : GChain g g.gray ts
  nodup : ts.Nodup
  ok : ∀ t ∈ ts, ¬ iswhite (g.heap t) ∧ trav (g.heap t).gct

/-- Number of white objects among `S`. -/
def mu (S : Finset Nat) (g : GState) : Nat :=
  (S.filter (fun a => iswhite (g.heap a))).card

/-- An object without color byte, worklist link and stack contents. -/
def shapeS (o : GCobj) : GCobj := { o with marked := 0, gclist := 0, stack := [] }

/-- The collector state without the heap, the worklist heads and the memory
total: what the propagation phase never changes. -/
def GState.restProp (g : GState) : GState :=
  { g with heap := fun _ => {}, gray := 0, grayagain := 0, weak := 0, total := 0 }

/-- Every trace number refers to a trace object. -/
def TraceOK (g : GState) : Prop := ∀ n, (g.heap (g.traceref n)).gct = GCT.trace

/-- How a state `g'` reached while `o` is being traversed relates to the
state `g` before: white objects are untouched, only colors, worklist links
and stack slots change (slots only to nil), and the gray list only grows by
objects that were white, each costing one white object of `S`. -/
structure PropBase (o : Nat) (S : Finset Nat) (g g' : GState) : Prop where
  white : ∀ a, iswhite (g'.heap a) → g'.heap a = g.heap a
  shape : ∀ a, shapeS (g'.heap a) = shapeS (g.heap a)
  stack : ∀ a i, (g'.heap a).stack.getD i TValue.nil = (g.heap a).stack.getD i TValue.nil ∨
    (g'.heap a).stack.getD i TValue.nil = TValue.nil
  rest : g'.restProp = g.restProp
  gray : ∀ ts, GrayB g ts → o ∉ ts → ¬ iswhite (g.heap o) → WhiteIn g S →
    ∃ new, GrayB g' (new ++ ts) ∧ (∀ x ∈ new, iswhite (g.heap x)) ∧
      new.length + mu S g' ≤ mu S g

/-- The relation `PropBase` together with: every newly black object has
non-white children. -/
structure PropRel (o : Nat) (S : Finset Nat) (g g' : GState) : Prop where
  base : PropBase o S g g'
  black : ∀ a, isblack (g'.heap a) → isblack (g.heap a) ∨ KidsOK false g' a

/-- What holds throughout the traversal of `o`: `o` and the null address are
not white, trace numbers resolve to traces, `S` covers the white objects and
`fuel` their number. -/
structure Ctx (o : Nat) (S : Finset Nat) (fuel : Nat) (g : GState) : Prop where
  cur : ¬ iswhite (g.heap o)
  null : ¬ iswhite (g.heap 0)
  trace : TraceOK g
  cover : WhiteIn g S
  fuel : mu S g ≤ fuel

/-- The `weak` bits `gc_traverse_tab` computes from the `__mode` of the
metatable `mt`. -/
def tabWeak (g : GState) (mt : Nat) : Nat :=
  match metaMode g mt with
  | some cs => modeWeak cs
  | none => 0

/-- The weak-table setup of `gc_traverse_tab`: the state and the value of
`weak` after it. -/
def tabSetWeak (g : GState) (t w0 : Nat) : GState × Nat :=
  if w0 ≠ 0 then
    if g.ctsFinalizer = some t then (g, weakFin)
    else
      let g1 := g.modObj t (fun x =>
        { x with marked := ((x.marked &&& not8 LJ_GC_WEAK) ||| w0) % 256 })
      let g2 := g1.modObj t (fun x => { x with gclist := g1.weak })
      ({ g2 with weak := t }, w0)
  else (g, w0)

/-- The marking loops and the generational tail of `gc_traverse_tab` for a
given value of `weak`. -/
def tabMarkParts (fuel : Nat) (g : GState) (t weak : Nat) : Option (GState × Nat) :=
  (if weak &&& LJ_GC_WEAKVAL = 0 then
    loopM (fun i g => gc_marktv fuel g ((g.heap t).array.getD i TValue.nil))
      (g.heap t).array.length 0 g
   else some g).bind fun g =>
  (if (g.heap t).hmask > 0 then
    loopM (traverseNode fuel t weak) ((g.heap t).hmask + 1) 0 g
   else some g).bind fun g =>
  if weak = 0 ∧ g.kind = GCKind.gen then
    let g1 := g.modObj t (fun x => { x with gclist := g.grayagain })
    let g2 := { g1 with grayagain := t }
    some (g2.modObj t black2gray, weak)
  else some (g, weak)

/-- The references `gc_traverse_tab` marks in a hash node for a given value
of `weak`. -/
def nodeRefsW (weak : Nat) (n : Node) : List Nat :=
  if tvisnil n.val then []
  else (if weak &&& LJ_GC_WEAKKEY = 0 then tvRef n.key else []) ++
    (if weak &&& LJ_GC_WEAKVAL = 0 then tvRef n.val else [])

/-- The state of `propagatemark` after the object at the head of the gray
list has been made black and taken off the list. -/
def popGray (g : GState) : GState :=
  { g.modObj g.gray gray2black with gray := ((g.modObj g.gray gray2black).heap g.gray).gclist }

/-- What holds between two calls of `propagatemark`: the gray list is `ts`,
no black object references a white one (the hash keys of the FFI finalizer
table apart), the null address is not white, trace numbers resolve to traces
and `S` covers the white objects. -/
structure PInv (S : Finset Nat) (g : GState) (ts : List Nat) : Prop where
  gray : GrayB g ts
  tri : TriColor false g
  null : ¬ iswhite (g.heap 0)
  trace : TraceOK g
  cover : WhiteIn g S

/-- State for the statements on propagation: the FFI finalizer table at
address 1, gray and alone on the gray list, with the weak-key metatable 2
and one hash entry whose key is the white cdata 3; a white string 4 in its
array part. -/
def exTri : GState :=
  { heap := fun a =>
      if a = 1 then
        { gct := GCT.tab, marked := 0, metatable := 2, hmask := 1,
          array := [TValue.gcv GCT.str 4],
          node := [{ key := TValue.gcv GCT.cdata 3, val := TValue.prim 1 }, {}] }
      else if a = 2 then { gct := GCT.tab, marked := 4, mmMode := some ['k'] }
      else if a = 3 then { gct := GCT.cdata, marked := 1 }
      else if a = 4 then { gct := GCT.str, marked := 1 }
      else { gct := GCT.trace }
    gray := 1
    ctsFinalizer := some 1 }

/-- The record `whitelist` leaves of an object: current white, age `G_NEW`. -/
def whiteNew (g : GState) (o : GCobj) : GCobj := setage (makewhite g o) G_NEW

/-- The state in which the objects of `S` have been made white and new. -/
def whitened (g : GState) (S : List Nat) : GState :=
  { g with heap := fun a => if a ∈ S then whiteNew g (g.heap a) else g.heap a }

/-- The assignments of `enterinc` around its two walks. -/
def enterincFields (g : GState) : GState :=
  { g with reallyold := 0, old := 0, surival := 0, state := GCSpause, kind := GCKind.inc }

/-- State for the statements on `enterinc`: generational mode, main thread 1
with the open upvalue 4 and the table 2 on `root`, the string 6 on hash chain
0 and the string 7 on hash chain 1 (`strmask = 1`); all black and old. -/
def exInc : GState :=
  { heap := fun a =>
      if a = 1 then { gct := GCT.thread, marked := 0x64, age := G_OLD, nextgc := 2, openupval := 4 }
      else if a = 2 then { gct := GCT.tab, marked := 0x04, age := G_OLD }
      else if a = 4 then { gct := GCT.upval, marked := 0x04, age := G_OLD }
      else if a = 6 then { gct := GCT.str, marked := 0x04, age := G_OLD }
      else if a = 7 then { gct := GCT.str, marked := 0x04, age := G_OLD }
      else {}
    root := 1
    mainthread := 1
    strmask := 1
    strhash := fun i => if i = 0 then 6 else if i = 1 then 7 else 0
    kind := GCKind.gen
    state := GCSpropagate
    surival := 1, old := 1, reallyold := 1 }

/-- Open upvalues of the threads of `exInc`. -/
def exIncU (x : Nat) : List Nat := if x = 1 then [4] else []

/-- Strings of the hash chains of `exInc`. -/
def exIncS (i : Nat) : List Nat := if i = 0 then [6] else if i = 1 then [7] else []

/-- State for the statements on the atomic step: state `GCSatomic` on a
trace (`jit_base` set), main thread 1 gray, no other object. -/
def exAtomic : GState :=
  { heap := fun a =>
      if a = 1 then { gct := GCT.thread, marked := 0x60, stack := [TValue.nil] }
      else {}
    root := 1
    mainthread := 1
    state := GCSatomic
    jit_base := 1
    stepmul := 100
    total := 4096
    threshold := 2048
    pause := 200 }

/-- Consecutive `gc_onestep` calls starting in `g` return normally, with the
states and costs listed in `tr`. -/
def stepsOK (vm : VM) (fuel : Nat) (L : Nat) : GState → List (GState × Nat) → Prop
  | _, [] => True
  | g, s :: tr => gc_onestep vm fuel g L = some (Res.ok s.1 s.2) ∧ stepsOK vm fuel L s.1 tr

/-- An object record without the fields the mark phase writes: the `marked`
byte, the links `gclist` and `nextgc`, the stack slots and the array and hash
slots. -/
def coreObj (o : GCobj) : GCobj :=
  { o with marked := 0, gclist := 0, nextgc := 0, stack := [], array := [], node := [] }

/-- The collector state without what the marking of `atomic` writes: the
heap, the gray lists, `mmudata` with the two userdata anchors, `total` and
`state`. -/
def GState.restAtomic (g : GState) : GState :=
  { g with heap := fun _ => {}, gray := 0, grayagain := 0, weak := 0, total := 0, mmudata := 0
           udatasur := 0, udataold := 0, state := 0 }

/-- The footprint of marking: between `g` and `g'` objects differ at most in
the fields `coreObj` leaves out, and the state in those `restAtomic` leaves
out. -/
structure Quiet (g g' : GState) : Prop where
  core : ∀ a, coreObj (g'.heap a) = coreObj (g.heap a)
  rest : g'.restAtomic = g.restAtomic

/-- The buffer shrink at the end of `atomic` stays within the footprint of
marking: it may resize the buffer and change `total`, nothing else the
collector reads. -/
def VMBufQuiet (vm : VM) : Prop := ∀ g L, Quiet g (vm.lj_buf_shrink g L)

/-- State for the statements on `atomic`: the gray main thread 1 and the
table 2, current-white and anchored in `gcroot[0]`. -/
def exFlip : GState :=
  { heap := fun a =>
      if a = 1 then { gct := GCT.thread, marked := 0x60, nextgc := 2, stack := [TValue.nil] }
      else if a = 2 then { gct := GCT.tab, marked := 0x01 }
      else {}
    root := 1
    mainthread := 1
    gcroot := fun i => if i = 0 then 2 else 0
    GCROOT_MAX := 1
    state := GCSatomic
    total := 4096 }

/-- An object record without its color byte and its gray-list link. -/
def tintObj (o : GCobj) : GCobj := { o with marked := 0, gclist := 0 }

/-- The collector state without the heap and the heads of the two gray
lists that `correctgraylists` rewrites. -/
def GState.restGray (g : GState) : GState :=
  { g with heap := fun _ => {}, grayagain := 0, weak := 0 }

/-- The footprint of `correctgraylist`: objects differ at most in `marked`
and `gclist`, the state at most in the heap, `grayagain` and `weak`. -/
structure GrayFix (g g' : GState) : Prop where
  obj : ∀ a, tintObj (g'.heap a) = tintObj (g.heap a)
  rest : g'.restGray = g.restGray

/-- The fields of the collector state that `correctgraylists` leaves alone,
one by one. -/
structure GrayFlds (g g' : GState) : Prop where
  root : g'.root = g.root
  strhash : g'.strhash = g.strhash
  strmask : g'.strmask = g.strmask
  mmudata : g'.mmudata = g.mmudata
  threshold : g'.threshold = g.threshold
  total : g'.total = g.total
  estimate : g'.estimate = g.estimate
  genminormul : g'.genminormul = g.genminormul
  memw : g'.memw = g.memw
  mainthread : g'.mainthread = g.mainthread
  surival : g'.surival = g.surival
  old : g'.old = g.old
  reallyold : g'.reallyold = g.reallyold
  udatasur : g'.udatasur = g.udatasur
  udataold : g'.udataold = g.udataold
  udatarold : g'.udatarold = g.udatarold
  kind : g'.kind = g.kind
  state : g'.state = g.state
  currentwhite : g'.currentwhite = g.currentwhite
  freed : g'.freed = g.freed

/-- State for the statements on `genstep`: generational mode, the main
thread 1 alone on `root`, `total` below `threshold`, `genminormul = 20` and
`genmajormul = 25` as stored. -/
def exGen : GState :=
  { heap := fun a =>
      if a = 1 then
        { gct := GCT.thread, marked := 0x64, age := G_OLD, stack := [TValue.nil] }
      else {}
    root := 1
    mainthread := 1
    kind := GCKind.gen
    state := GCSpropagate
    surival := 1, old := 1, reallyold := 1
    total := 1000
    threshold := 2000
    estimate := 900
    genminormul := 20
    genmajormul := 25 }

/-- The state `exGen` with more than 4 GiB in `estimate` (64-bit `GCSize`). -/
def exGenBig : GState := { exGen with estimate := 2 ^ 32 + 500 }

/-- Ages only grow: every object with one of the seven ages in `g` has in
`g'` an age that is one of the seven and numerically not smaller. -/
def AgeMono (g g' : GState) : Prop :=
  ∀ a, (g.heap a).age ≤ G_TOUCHED2 →
    (g.heap a).age ≤ (g'.heap a).age ∧ (g'.heap a).age ≤ G_TOUCHED2

/-- The rest of the VM never lowers an age: `lj_trace_abort`, the code run
under `lj_vm_pcall` (the finalizers) and `lj_buf_shrink`. -/
def VMKeepsAge (vm : VM) : Prop :=
  (∀ g, AgeMono g (vm.lj_trace_abort g)) ∧ (∀ g L top, AgeMono g (vm.lj_vm_pcall g L top).1) ∧
    VMBufQuiet vm

/-- State for the statements on `youngcollection`: generational mode, the
new white table 2 (anchored in `gcroot[0]`) ahead of the old main thread 1
on `root`. -/
def exYoung : GState :=
  { heap := fun a =>
      if a = 1 then
        { gct := GCT.thread, marked := 0x64, age := G_OLD, stack := [TValue.nil] }
      else if a = 2 then { gct := GCT.tab, marked := 0x01, age := G_NEW, nextgc := 1 }
      else {}
    root := 2
    mainthread := 1
    gcroot := fun i => if i = 0 then 2 else 0
    GCROOT_MAX := 1
    kind := GCKind.gen
    state := GCSpropagate
    surival := 1, old := 1, reallyold := 1
    total := 1000
    threshold := 2000 }

/-- The test of `sweep2old` and `sweepgen` that frees an object: white and
not fixed. -/
def oldDead (g : GState) (x : Nat) : Prop := iswhite (g.heap x) ∧ ¬ isfixed (g.heap x)

instance (g : GState) (x : Nat) : Decidable (oldDead g x) := by
  unfold oldDead; infer_instance

/-- An object with its age and its list links blanked: what `sweep2old`
never changes. -/
def shapeO (o : GCobj) : GCobj := { o with age := 0, nextgc := 0, openupval := 0 }

/-- The collector state without what a sweep writes: the heap, the list
heads `root` and `strhash`, the free log, `total` and the string count. -/
def GState.restOld (g : GState) : GState :=
  { g with heap := fun _ => {}, root := 0, strhash := fun _ => 0, freed := [], total := 0
           strnum := 0 }

/-- What `sweep2old` leaves behind on a list `xs` at the cell `p` whose
threads have the open-upvalue lists `U`: `g` before, `g'` after.  The cell
heads the objects that are not freed, in their order, and so does every
thread for its upvalues; these objects have age `G_OLD`; the freed ones are
logged in visiting order; nothing else changes. -/
structure OldPost (g : GState) (p : Loc) (U : Nat → List Nat) (xs : List Nat)
    (g' : GState) : Prop where
  chain : Chain g' (p.get g') (xs.filter (fun x => decide (¬ oldDead g x)))
  upchain : ∀ t ∈ xs, (g.heap t).gct = GCT.thread →
    Chain g' (g'.heap t).openupval ((U t).filter (fun x => decide (¬ oldDead g x)))
  frame : ∀ a, a ∉ footprint U xs → (∀ q, p.owner = some q → a ≠ q) → g'.heap a = g.heap a
  owner : ∀ q, p.owner = some q → g'.heap q = p.put (g.heap q) (p.get g')
  shape : ∀ a, shapeO (g'.heap a) = shapeO (g.heap a)
  old : ∀ v ∈ footprint U xs, ¬ oldDead g v → (g'.heap v).age = G_OLD
  same : ∀ v, (v ∉ footprint U xs ∨ oldDead g v) → (g'.heap v).age = (g.heap v).age
  freed : g'.freed
    = ((footprint U xs).filter (fun x => decide (oldDead g x))).reverse ++ g.freed
  root : p ≠ Loc.root → g'.root = g.root
  strhash : ∀ j, p ≠ Loc.strhash j → g'.strhash j = g.strhash j
  rest : g'.restOld = g.restOld

/-- What the sweep of the open upvalues `U x` of `x` inside `sweep2old`
leaves behind (nothing at all unless `x` is a thread). -/
structure OldInner (g : GState) (x : Nat) (U : Nat → List Nat) (g1 : GState) : Prop where
  frame : ∀ a, a ∉ U x → a ≠ x → g1.heap a = g.heap a
  self : g1.heap x = { g.heap x with openupval := (g1.heap x).openupval }
  shape : ∀ a, shapeO (g1.heap a) = shapeO (g.heap a)
  old : ∀ v ∈ U x, ¬ oldDead g v → (g1.heap v).age = G_OLD
  same : ∀ v, (v ∉ U x ∨ oldDead g v) → (g1.heap v).age = (g.heap v).age
  freed : g1.freed = ((U x).filter (fun y => decide (oldDead g y))).reverse ++ g.freed
  root : g1.root = g.root
  strhash : g1.strhash = g.strhash
  rest : g1.restOld = g.restOld
  up : (g.heap x).gct = GCT.thread →
    Chain g1 (g1.heap x).openupval ((U x).filter (fun y => decide (¬ oldDead g y)))

/-- What `sweepstringsold` leaves behind on the hash chains `i ≤ j < i + k`
holding the strings `S j`: each chain heads its strings that are not freed,
these have age `G_OLD`, and objects off the chains are untouched. -/
structure StrPost (S : Nat → List Nat) (g : GState) (i k : Nat) (g' : GState) : Prop where
  chain : ∀ j, i ≤ j → j < i + k →
    Chain g' (g'.strhash j) ((S j).filter (fun x => decide (¬ oldDead g x)))
  old : ∀ j, i ≤ j → j < i + k → ∀ v ∈ S j, ¬ oldDead g v → (g'.heap v).age = G_OLD
  frame : ∀ a, (∀ j, i ≤ j → j < i + k → a ∉ S j) → g'.heap a = g.heap a
  shape : ∀ a, shapeO (g'.heap a) = shapeO (g.heap a)
  root : g'.root = g.root
  strhash : ∀ j, ¬ (i ≤ j ∧ j < i + k) → g'.strhash j = g.strhash j
  rest : g'.restOld = g.restOld

/-- State for the statements on `entergen`: incremental mode at
`GCSpause`; `root` heads the unreachable white table 2 and the main thread 1,
hash chain 0 (`strmask = 0`) holds the unreachable white string 6, and every
trace number resolves to the black trace 7. -/
def exEnter : GState :=
  { heap := fun a =>
      if a = 1 then { gct := GCT.thread, marked := 0x61, stack := [TValue.nil] }
      else if a = 2 then { gct := GCT.tab, marked := 0x01, nextgc := 1 }
      else if a = 6 then { gct := GCT.str, marked := 0x01 }
      else if a = 7 then { gct := GCT.trace, marked := 0x04 }
      else {}
    root := 2
    mainthread := 1
    traceref := fun _ => 7
    strhash := fun i => if i = 0 then 6 else 0
    strmask := 0
    state := GCSpause
    total := 1000 }

/-- State for `entergen` on trace: state `GCSatomic` with `jit_base` set;
`root` holds the gray main thread 1 alone, there is no userdata, and every
trace number resolves to the black trace 7. -/
def exEnterJit : GState :=
  { heap := fun a =>
      if a = 1 then { gct := GCT.thread, marked := 0x60, stack := [TValue.nil] }
      else if a = 7 then { gct := GCT.trace, marked := 0x04 }
      else {}
    root := 1
    mainthread := 1
    traceref := fun _ => 7
    state := GCSatomic
    jit_base := 1
    total := 1000 }

/-- The state in which the objects of `V` have been recolored to the
current white. -/
def sweptWhite (g : GState) (V : List Nat) : GState :=
  { g with heap := fun a => if a ∈ V then makewhite g (g.heap a) else g.heap a }

/-- The collector state without the fields the two sweep cases of
`gc_onestep` assign before the sweep ends. -/
def GState.restSw (g : GState) : GState :=
  { g with sweepstr := 0, state := 0, estimate := 0, sweep := Loc.root }

/-- A VM for the statements on the allocator: requests above 1000 bytes
fail, every other allocation lands at address 9. -/
def exAllocVM : VM :=
  { LJ_MAX_MEM := 2 ^ 31 - 1
    hook_save := fun m => m &&& 240
    hook_entergc := fun m => (m ||| 80) &&& 127
    hook_restore := fun m h => (m &&& 15) ||| h
    lj_trace_abort := fun g => g
    lj_vm_pcall := fun g _ _ => (g, 0)
    allocf := fun _ _ _ nsz => if nsz = 0 ∨ nsz > 1000 then 0 else 9 }

/-- State for the statements on the allocator: the table 2 alone on `root`,
`total = 500`. -/
def exAlloc : GState :=
  { heap := fun a => if a = 2 then { gct := GCT.tab, marked := 0x01 } else {}
    root := 2
    total := 500 }

/-- The collector state without the heap, `root` and `total`: what
`lj_mem_newgco` never changes. -/
def GState.restNew (g : GState) : GState := { g with heap := fun _ => {}, root := 0, total := 0 }

/-- State for the statements on `correctgraylist`: generational mode, the
gray fixed table 2 of age `G_TOUCHED1` alone on `grayagain`, the gray fixed
table 3 of age `G_TOUCHED2` alone on `weak`. -/
def exTouched : GState :=
  { heap := fun a =>
      if a = 2 then { gct := GCT.tab, marked := 0x20, age := G_TOUCHED1 }
      else if a = 3 then { gct := GCT.tab, marked := 0x20, age := G_TOUCHED2 }
      else {}
    grayagain := 2
    weak := 3
    kind := GCKind.gen
    state := GCSpropagate }

/-- The references the marking of one object follows have the types the VM
gives them: the metatable and the environment of a userdata are tables, and
the value of an upvalue is not an upvalue. -/
def MarkTyped (g : GState) : Prop :=
  (∀ a, (g.heap a).gct = GCT.udata →
    ((g.heap a).metatable ≠ 0 → (g.heap (g.heap a).metatable).gct = GCT.tab) ∧
    (g.heap (g.heap a).env).gct = GCT.tab) ∧
  (∀ a, (g.heap a).gct = GCT.upval →
    ∀ x ∈ tvRef (uvval g (g.heap a)), (g.heap x).gct ≠ GCT.upval)

/-- State for the statements on `gc_mark`: the white open upvalue 1 aliasing
slot 1 of the thread 3, which holds nil; the gray table 5 alone on `gray`. -/
def exOpenUv : GState :=
  { heap := fun a =>
      if a = 1 then { gct := GCT.upval, marked := 0x01, v := UVPtr.slot 3 1 }
      else if a = 3 then { gct := GCT.thread, marked := 0, stack := [TValue.nil, TValue.nil], top := 2 }
      else if a = 5 then { gct := GCT.tab, marked := 0 }
      else {}
    state := GCSpropagate
    gray := 5
    root := 3 }

/-- The collector state without what a sweep writes: the heap, the list
heads `root` and `strhash`, the free log, `total` and the string count. -/
def GState.restSwp (g : GState) : GState :=
  { g with heap := fun _ => {}, root := 0, strhash := fun _ => 0, freed := [], total := 0,
           strnum := 0 }

/-- What one `gc_onestep` in state `GCSsweepstring` does: from `g` with
`sweepstr = i` and the chain `xs` in `strhash[i]` to `s` at cost `c`.  The
chain keeps the strings that pass the sweep test, in order and recolored;
the others are freed in order; no other string and no other chain changes;
`estimate` drops by what `total` dropped; the state becomes `GCSsweep` exactly
when `i` is `strmask`. -/
structure StrStep (g : GState) (i : Nat) (xs : List Nat) (s : GState) (c : Nat) : Prop where
  cost : c = GCSWEEPCOST
  chain : Chain s (s.strhash i) (xs.filter (fun x => decide (sweepKeeps g (otherwhite g) x)))
  freed : s.freed
    = (xs.filter (fun x => decide (¬ sweepKeeps g (otherwhite g) x))).reverse ++ g.freed
  kept : ∀ x ∈ xs, sweepKeeps g (otherwhite g) x →
    (s.heap x).marked = (makewhite g (g.heap x)).marked
  frame : ∀ a, a ∉ xs → s.heap a = g.heap a
  others : ∀ j, j ≠ i → s.strhash j = g.strhash j
  sweepstr : s.sweepstr = i + 1
  state : s.state = if i = g.strmask then GCSsweep else GCSsweepstring
  estimate : s.estimate = subSize g g.estimate (subSize g g.total s.total)
  strmask : s.strmask = g.strmask
  root : s.root = g.root
  white : s.currentwhite = g.currentwhite

/-- Consecutive sweep-string steps from chain `i` on, with the states and
costs listed. -/
def strRun (S : Nat → List Nat) : Nat → GState → List (GState × Nat) → Prop
  | _, _, [] => True
  | i, g, s :: tr => StrStep g i (S i) s.1 s.2 ∧ strRun S (i + 1) s.1 tr

/-- State for the statements on the string sweep: state `GCSsweepstring`,
two hash chains, the first with a live string 6 and a dead string 7, the
second with the dead string 8; current white `WHITE0`. -/
def exStrSweep : GState :=
  { heap := fun a =>
      if a = 6 then { gct := GCT.str, marked := 0x01, nextgc := 7 }
      else if a = 7 then { gct := GCT.str, marked := 0x02 }
      else if a = 8 then { gct := GCT.str, marked := 0x02 }
      else {}
    strhash := fun i => if i = 0 then 6 else if i = 1 then 8 else 0
    strmask := 1
    strnum := 3
    state := GCSsweepstring
    sweepstr := 0
    total := 1000
    estimate := 900 }

/-- Strings of the hash chains of `exStrSweep`. -/
def exStrSweepS (i : Nat) : List Nat := if i = 0 then [6, 7] else if i = 1 then [8] else []

/-- What the traversal of the object `o` leaves alone while it marks the
children: the color byte and the worklist link of `o` itself (as long as `o`
is not white and its color byte is a byte), the heads of `grayagain` and
`weak`, and the collector mode. -/
structure Stay (o : Nat) (g g' : GState) : Prop where
  obj : ¬ iswhite (g.heap o) → (g.heap o).marked < 256 →
    (g'.heap o).marked = (g.heap o).marked ∧ (g'.heap o).gclist = (g.heap o).gclist
  grayagain : g'.grayagain = g.grayagain
  weak : g'.weak = g.weak
  kind : g'.kind = g.kind

/-- The value of `weak` that `gc_traverse_tab` computes for the table `t`:
positive when the table is treated as weak, zero when it is fully strong. -/
def tabWeakness (g : GState) (t : Nat) : Nat :=
  (tabSetWeak g t (tabWeak g (g.heap t).metatable)).2

/-- State for the statements on `propagatemark`: the gray table 1, alone on
the gray list, whose black metatable 2 has `__mode = "k"` and whose array
part holds the white table 4. -/
def exWeakTab : GState :=
  { heap := fun a =>
      if a = 1 then
        { gct := GCT.tab, marked := 0, metatable := 2, array := [TValue.gcv GCT.tab 4] }
      else if a = 2 then { gct := GCT.tab, marked := 4, mmMode := some ['k'] }
      else if a = 4 then { gct := GCT.tab, marked := 1 }
      else { gct := GCT.trace }
    gray := 1
    weak := 7 }

/-- The bit `LJ_GC_SFIXED` is set in the color byte. -/
def issfixed (o : GCobj) : Prop := o.marked &&& LJ_GC_SFIXED ≠ 0

instance (o : GCobj) : Decidable (issfixed o) := by unfold issfixed; infer_instance

/-- What a full sweep of the hash chain `i`, holding the strings `xs`, leaves
behind: the chain keeps the strings that pass the sweep test, in order; the
others are freed in order; no other string, no other chain and nothing else
of the collector state changes. -/
structure ChainSwept (g : GState) (i : Nat) (xs : List Nat) (s : GState) : Prop where
  chain : Chain s (s.strhash i) (xs.filter (fun x => decide (sweepKeeps g (otherwhite g) x)))
  freed : s.freed
    = (xs.filter (fun x => decide (¬ sweepKeeps g (otherwhite g) x))).reverse ++ g.freed
  frame : ∀ a, a ∉ xs → s.heap a = g.heap a
  others : ∀ j, j ≠ i → s.strhash j = g.strhash j
  rest : s.restSwp = g.restSwp
  root : s.root = g.root

/-- State for the statements on shutdown: the root list holds the main
thread 1 (super-fixed, with the open upvalue 4) and the fixed black table 2;
the hash chains hold the super-fixed string 6 and the fixed string 7, and the
black string 8. -/
def exFreeall : GState :=
  { heap := fun a =>
      if a = 1 then { gct := GCT.thread, marked := 0x61, nextgc := 2, openupval := 4 }
      else if a = 2 then { gct := GCT.tab, marked := 0x24 }
      else if a = 4 then { gct := GCT.upval, marked := 0x01 }
      else if a = 6 then { gct := GCT.str, marked := 0x61, nextgc := 7 }
      else if a = 7 then { gct := GCT.str, marked := 0x21 }
      else if a = 8 then { gct := GCT.str, marked := 0x04 }
      else {}
    root := 1
    strhash := fun i => if i = 0 then 6 else if i = 1 then 8 else 0
    strmask := 1
    strnum := 3 }

/-- Open upvalues of the threads of `exFreeall`. -/
def exFreeallU : Nat → List Nat := fun x => if x = 1 then [4] else []

/-- Strings of the hash chains of `exFreeall`. -/
def exFreeallS (i : Nat) : List Nat := if i = 0 then [6, 7] else if i = 1 then [8] else []

/-- The elements `correctgraylist` keeps on the list: tables and userdata of
age `G_TOUCHED1`, and threads that are not white. -/
def grayKeeps (g : GState) (x : Nat) : Prop :=
  (((g.heap x).gct = GCT.tab ∨ (g.heap x).gct = GCT.udata) ∧
      getage (g.heap x) = G_TOUCHED1) ∨
    ((g.heap x).gct = GCT.thread ∧ ¬ iswhite (g.heap x))

instance (g : GState) (x : Nat) : Decidable (grayKeeps g x) := by
  unfold grayKeeps; infer_instance

/-- The cell that ends the list `ks` starting in the cell `p`: the `gclist`
field of the last element, or `p` itself when the list is empty. -/
def lastCell : GLoc → List Nat → GLoc
  | p, [] => p
  | _, x :: xs => lastCell (GLoc.gclist x) xs

/-- What `correctgraylist` leaves of the list `ts` that started in the cell
`p`: `g` before, `g'` and the returned cursor `p'` after. -/
structure GrayPost (g : GState) (p : GLoc) (ts : List Nat) (g' : GState) (p' : GLoc) :
    Prop where
  chain : GChain g' (p.get g') (ts.filter (fun x => decide (grayKeeps g x)))
  cursor : p' = lastCell p (ts.filter (fun x => decide (grayKeeps g x)))
  frame : ∀ a, a ∉ ts → (∀ q, p = GLoc.gclist q → a ≠ q) → g'.heap a = g.heap a
  owner : ∀ q, p = GLoc.gclist q → (g'.heap q).marked = (g.heap q).marked
  white : ∀ t ∈ ts, ((g.heap t).gct = GCT.tab ∨ (g.heap t).gct = GCT.udata) →
    getage (g.heap t) ≠ G_TOUCHED1 → iswhite (g.heap t) →
    (g'.heap t).marked = (g.heap t).marked
  thread : ∀ t ∈ ts, (g.heap t).gct = GCT.thread → (g'.heap t).marked = (g.heap t).marked
  grayagain : p ≠ GLoc.grayagain → g'.grayagain = g.grayagain
  weak : p ≠ GLoc.weak → g'.weak = g.weak

/-- State for the statements on the gray lists after a young collection:
`grayagain` holds the touched table 2, the white thread 3 and the gray thread
5; `weak` holds the white new table 6 and the touched userdata 7. -/
def exGrayLists : GState :=
  { heap := fun a =>
      if a = 2 then { gct := GCT.tab, marked := 0, age := G_TOUCHED1, gclist := 3 }
      else if a = 3 then { gct := GCT.thread, marked := 1, gclist := 5 }
      else if a = 5 then { gct := GCT.thread, marked := 0 }
      else if a = 6 then { gct := GCT.tab, marked := 1, age := G_NEW, gclist := 7 }
      else if a = 7 then { gct := GCT.udata, marked := 0, age := G_TOUCHED1 }
      else {}
    grayagain := 2
    weak := 6
    kind := GCKind.gen }

/-- An object with its color byte, its age and its list links blanked: what
`sweepgen` never changes. -/
def shapeG (o : GCobj) : GCobj := { o with marked := 0, age := 0, nextgc := 0, openupval := 0 }

/-- The collector state without what `sweepgen` writes: the heap, the list
heads `root` and `strhash`, the anchors `old` and `udataold`, the free log,
`total` and the string count. -/
def GState.restGen (g : GState) : GState :=
  { g with heap := fun _ => {}, root := 0, strhash := fun _ => 0, freed := [], total := 0,
           strnum := 0, old := 0, udataold := 0 }

/-- The color byte `sweepgen` leaves on a survivor: recolored to the current
white when its age is `G_NEW`, unchanged otherwise. -/
def genMarked (g : GState) (o : GCobj) : Nat :=
  if getage o = G_NEW then (makewhite g o).marked else o.marked

/-- What `sweepgen` leaves behind on the objects `xs` between the cell `p`
and the object `limit`, whose threads have the open-upvalue lists `U`: `g`
before, `g'` and the returned cursor `p'` after.  The cell heads the
survivors, in their order, followed by `limit`, and the cursor is the link
that points to `limit`; every thread heads its surviving upvalues; the
survivors have the age `nextage` gives and the color `genMarked` gives; the
white objects that are not fixed are logged as freed, in visiting order; an
anchor that referred to an object of the list refers to the first survivor
from that object on, or to `limit`; nothing else changes. -/
structure GenPost (g : GState) (p : Loc) (U : Nat → List Nat) (xs : List Nat) (limit : Nat)
    (root : Option Anchor) (g' : GState) (p' : Loc) : Prop where
  chain : Seg g' (p.get g') (xs.filter (fun x => decide (¬ oldDead g x))) limit
  cursor : p' = lastLoc p (xs.filter (fun x => decide (¬ oldDead g x)))
  upchain : ∀ t ∈ xs, (g.heap t).gct = GCT.thread →
    Chain g' (g'.heap t).openupval ((U t).filter (fun x => decide (¬ oldDead g x)))
  frame : ∀ a, a ∉ footprint U xs → (∀ q, p.owner = some q → a ≠ q) → g'.heap a = g.heap a
  owner : ∀ q, p.owner = some q → g'.heap q = p.put (g.heap q) (p.get g')
  shape : ∀ a, shapeG (g'.heap a) = shapeG (g.heap a)
  age : ∀ v ∈ footprint U xs, ¬ oldDead g v →
    (g'.heap v).age = nextage.getD (g.heap v).age 0
  mark : ∀ v ∈ footprint U xs, ¬ oldDead g v → (g'.heap v).marked = genMarked g (g.heap v)
  same : ∀ v, (v ∉ footprint U xs ∨ oldDead g v) →
    (g'.heap v).age = (g.heap v).age ∧ (g'.heap v).marked = (g.heap v).marked
  freed : g'.freed
    = ((footprint U xs).filter (fun x => decide (oldDead g x))).reverse ++ g.freed
  groot : p ≠ Loc.root → g'.root = g.root
  strhash : ∀ j, p ≠ Loc.strhash j → g'.strhash j = g.strhash j
  rest : g'.restGen = g.restGen
  anchorOff : ∀ r : Anchor, (root = some r → r.get g ∉ xs) → r.get g' = r.get g
  anchorIn : ∀ r : Anchor, root = some r → ∀ pre suf, xs = pre ++ suf →
    r.get g = suf.headD limit →
    r.get g' = (suf.filter (fun x => decide (¬ oldDead g x))).headD limit

/-- What the sweep of the open upvalues `U x` of `x` inside `sweepgen`
leaves behind (nothing at all unless `x` is a thread). -/
structure GenInner (g : GState) (x : Nat) (U : Nat → List Nat) (g1 : GState) : Prop where
  frame : ∀ a, a ∉ U x → a ≠ x → g1.heap a = g.heap a
  self : g1.heap x = { g.heap x with openupval := (g1.heap x).openupval }
  shape : ∀ a, shapeG (g1.heap a) = shapeG (g.heap a)
  age : ∀ v ∈ U x, ¬ oldDead g v → (g1.heap v).age = nextage.getD (g.heap v).age 0
  mark : ∀ v ∈ U x, ¬ oldDead g v → (g1.heap v).marked = genMarked g (g.heap v)
  same : ∀ v, (v ∉ U x ∨ oldDead g v) →
    (g1.heap v).age = (g.heap v).age ∧ (g1.heap v).marked = (g.heap v).marked
  freed : g1.freed = ((U x).filter (fun y => decide (oldDead g y))).reverse ++ g.freed
  root : g1.root = g.root
  strhash : g1.strhash = g.strhash
  rest : g1.restGen = g.restGen
  anchors : ∀ r : Anchor, r.get g1 = r.get g
  up : (g.heap x).gct = GCT.thread →
    Chain g1 (g1.heap x).openupval ((U x).filter (fun y => decide (¬ oldDead g y)))

/-- State for the statements on `sweepgen`: `root` heads the new black table
2, the new white table 3, the gray thread 5 of age `G_SURVIVAL` with the
white open upvalue 6, and the old black table 7; `old` refers to the table
3. -/
def exSweepgen : GState :=
  { heap := fun a =>
      if a = 2 then { gct := GCT.tab, marked := 0x04, age := G_NEW, nextgc := 3 }
      else if a = 3 then { gct := GCT.tab, marked := 0x02, age := G_NEW, nextgc := 5 }
      else if a = 5 then
        { gct := GCT.thread, marked := 0x00, age := G_SURVIVAL, nextgc := 7, openupval := 6 }
      else if a = 6 then { gct := GCT.upval, marked := 0x02, age := G_NEW }
      else if a = 7 then { gct := GCT.tab, marked := 0x04, age := G_OLD }
      else {}
    root := 2
    old := 3
    reallyold := 7
    currentwhite := 0x01
    kind := GCKind.gen }

/-- Open upvalues of the threads of `exSweepgen`. -/
def exSweepgenU : Nat → List Nat := fun x => if x = 5 then [6] else []

/-- An object without what marking may change while the lists stay as they
are: the `marked` byte, the link `gclist`, the stack slots and the array and
hash slots. -/
def linkObj (o : GCobj) : GCobj :=
  { o with marked := 0, gclist := 0, stack := [], array := [], node := [] }

/-- The collector state without what the marking of `atomic` writes when it
moves no userdata to `mmudata`: the heap, the gray lists, `total`, `state`,
and the fields set by the flip at its end. -/
def GState.restLink (g : GState) : GState :=
  { g with heap := fun _ => {}, gray := 0, grayagain := 0, weak := 0, total := 0, state := 0
           currentwhite := 0, strempty := 0, sweep := Loc.root, estimate := 0 }

/-- Marking that moves nothing: between `g` and `g'` objects differ at most
in the fields `linkObj` leaves out (so every `nextgc` link is kept), and the
state in those `restLink` leaves out. -/
structure Tame (g g' : GState) : Prop where
  core : ∀ a, linkObj (g'.heap a) = linkObj (g.heap a)
  rest : g'.restLink = g.restLink

/-- The buffer shrink at the end of `atomic` changes neither a list link nor
an anchor. -/
def VMBufTame (vm : VM) : Prop := ∀ g L, Tame g (vm.lj_buf_shrink g L)

/-- An object without what `propagatemark` may change: the `marked` byte,
the link `gclist` and the stack slots. -/
def steadyObj (o : GCobj) : GCobj := { o with marked := 0, gclist := 0, stack := [] }

/-- The collector state without what `propagatemark` writes: the heap, the
gray lists and `total`. -/
def GState.restSteady (g : GState) : GState :=
  { g with heap := fun _ => {}, gray := 0, grayagain := 0, weak := 0, total := 0 }

/-- The footprint of `propagatemark`: between `g` and `g'` objects differ at
most in the fields `steadyObj` leaves out, and the state in those
`restSteady` leaves out; `state`, `mmudata` and `debt` are kept. -/
structure Steady (g g' : GState) : Prop where
  core : ∀ a, steadyObj (g'.heap a) = steadyObj (g.heap a)
  rest : g'.restSteady = g.restSteady

/-- The collector state a call leaves, returned normally or by an error. -/
def Res.gst {α : Type} : Res α → GState
  | Res.ok g _ => g
  | Res.throw g _ => g

/-- The edges of the state machine of `gc_onestep`. -/
def gcEdge (s s' : Nat) : Prop :=
  (s = GCSpause ∧ s' = GCSpropagate) ∨ (s = GCSpropagate ∧ s' = GCSatomic) ∨
  (s = GCSatomic ∧ s' = GCSsweepstring) ∨ (s = GCSsweepstring ∧ s' = GCSsweep) ∨
  (s = GCSsweep ∧ s' = GCSfinalize) ∨ (s = GCSsweep ∧ s' = GCSpause) ∨
  (s = GCSfinalize ∧ s' = GCSpause)

/-- The code run from a finalizer call, `lj_trace_abort` and what runs under
`lj_vm_pcall`, does not step the collector: `gc.state` is the same after. -/
def VMKeepsState (vm : VM) : Prop :=
  (∀ g, (vm.lj_trace_abort g).state = g.state) ∧
  (∀ g L top, (vm.lj_vm_pcall g L top).1.state = g.state)

/-- State for the statements on the transitions of `gc_onestep`: state
`GCSsweep` with the cursor at the end of the empty `root` list, the userdata
2 on `mmudata` and a debt of 7. -/
def exEdge : GState :=
  { heap := fun a =>
      if a = 1 then { gct := GCT.thread, marked := 0x24 }
      else if a = 2 then { gct := GCT.udata, marked := 0x09, nextgc := 2 }
      else {}
    mainthread := 1
    mmudata := 2
    state := GCSsweep
    debt := 7
    total := 1000
    estimate := 1000 }

/-- The object an anchor refers to after `lj_gc_separateudata` has run over
the userdata list `xs`: an anchor `a` on the list moves to the first object
from `a` on that is not moved, or to null when there is none; an anchor off
the list stays. -/
def sepAnchor (g : GState) (all : Bool) : List Nat → Nat → Nat
  | [], a => a
  | x :: xs, a =>
    if x = a then ((x :: xs).filter (fun y => decide (¬ movable g all y))).headD 0
    else sepAnchor g all xs a

/-- State for the statements on the anchors of the userdata list: main thread
at address 1 heading the userdata list 2, 3, 4; 2 and 3 are white with the
`__gc` metamethod of the metatable 5, 4 is black; `udatasur` refers to 2 and
`udataold` to 4. -/
def exAnchor : GState :=
  { heap := fun a =>
      if a = 1 then { gct := GCT.thread, marked := 4, nextgc := 2 }
      else if a = 2 then { gct := GCT.udata, marked := 1, nextgc := 3, metatable := 5 }
      else if a = 3 then { gct := GCT.udata, marked := 1, nextgc := 4, metatable := 5 }
      else if a = 4 then { gct := GCT.udata, marked := 4, nextgc := 0, metatable := 5 }
      else if a = 5 then { gct := GCT.tab, marked := 4, mmGc := some (TValue.prim 1) }
      else {}
    mainthread := 1
    udatasur := 2
    udataold := 4
    mmudata := 0 }

/-- The characters of a `__mode` string that the loop of `gc_traverse_tab`
reads: those before the first NUL character. -/
def cstr (cs : List Char) : List Char :=
  cs.takeWhile (fun c => decide (c ≠ Char.ofNat 0))

/-- The metatable of the table `t` has a string `__mode` in which the
character `c` occurs before the first NUL character. -/
def modeHas (g : GState) (t : Nat) (c : Char) : Prop :=
  match metaMode g (g.heap t).metatable with
  | some cs => c ∈ cstr cs
  | none => False

instance (g : GState) (t : Nat) (c : Char) : Decidable (modeHas g t c) :=
  match h : metaMode g (g.heap t).metatable with
  | some cs => decidable_of_iff (c ∈ cstr cs) (by unfold modeHas; rw [h])
  | none => isFalse (by unfold modeHas; rw [h]; exact not_false)

/-- The metatable of the table `t` has a string `__mode` containing the
character `c` anywhere. -/
def modeContains (g : GState) (t : Nat) (c : Char) : Prop :=
  match metaMode g (g.heap t).metatable with
  | some cs => c ∈ cs
  | none => False

instance (g : GState) (t : Nat) (c : Char) : Decidable (modeContains g t c) :=
  match h : metaMode g (g.heap t).metatable with
  | some cs => decidable_of_iff (c ∈ cs) (by unfold modeContains; rw [h])
  | none => isFalse (by unfold modeContains; rw [h]; exact not_false)

/-- The weak bits of a mode: `LJ_GC_WEAKKEY` when `k`, `LJ_GC_WEAKVAL` when
`v`. -/
def weakBits (k v : Prop) [Decidable k] [Decidable v] : Nat :=
  (if k then LJ_GC_WEAKKEY else 0) ||| (if v then LJ_GC_WEAKVAL else 0)

/-- The table `t` gets the weak bits `bits` in place of its old ones and is
pushed on the list `weak`. -/
def pushWeak (g : GState) (t bits : Nat) : GState :=
  let g1 := g.modObj t (fun x =>
    { x with marked := ((x.marked &&& not8 LJ_GC_WEAK) ||| bits) % 256 })
  let g2 := g1.modObj t (fun x => { x with gclist := g1.weak })
  { g2 with weak := t }

/-- Marking of the hash node `i` of the table `t`: nothing when the value is
nil, else the key when `keys` and the value when `vals`. -/
def markNode (fuel t : Nat) (keys vals : Bool) (i : Nat) (g : GState) : Option GState :=
  let n := (g.heap t).node.getD i {}
  if tvisnil n.val then some g
  else
    (if keys then gc_marktv fuel g n.key else some g).bind fun g =>
      let n := (g.heap t).node.getD i {}
      if vals then gc_marktv fuel g n.val else some g

/-- Marking of the slots of the table `t`: the array slots when `vals`, then
the hash nodes `0 .. hmask` (when `hmask > 0`) with `markNode`. -/
def markSlots (fuel t : Nat) (keys vals : Bool) (g : GState) : Option GState :=
  (if vals then
    loopM (fun i g => gc_marktv fuel g ((g.heap t).array.getD i TValue.nil))
      (g.heap t).array.length 0 g
   else some g).bind fun g =>
  if (g.heap t).hmask > 0 then
    loopM (markNode fuel t keys vals) ((g.heap t).hmask + 1) 0 g
  else some g

/-- The end of the traversal of a strong table: in generational mode the
table goes on `grayagain` and is made gray again. -/
def genTail (g : GState) (t : Nat) : GState :=
  if g.kind = GCKind.gen then
    ({ g.modObj t (fun x => { x with gclist := g.grayagain }) with
        grayagain := t }).modObj t black2gray
  else g

/-- The traversal of the table `t` told by its mode, `k` and `v` being looked
for before the first NUL character of `__mode`: the metatable is marked; a
table without mode is marked with keys and values; the FFI finalizer table
with a mode is marked with values and without keys and is not pushed on
`weak`; any other table with a mode gets exactly the bits of the mode, is
pushed on `weak` and is marked without the weak parts, not at all when both
are weak. -/
def traverseTabModes (fuel : Nat) (g : GState) (t : Nat) : Option (GState × Nat) :=
  (if (g.heap t).metatable ≠ 0 then gc_markobj fuel g (g.heap t).metatable
    else some g).bind fun g1 =>
    if ¬ (modeHas g t 'k' ∨ modeHas g t 'v') then
      (markSlots fuel t true true g1).map fun g2 => (genTail g2 t, 0)
    else if g.ctsFinalizer = some t then
      (markSlots fuel t false true g1).map fun g2 => (g2, weakFin)
    else if modeHas g t 'k' ∧ modeHas g t 'v' then
      some (pushWeak g1 t LJ_GC_WEAK, 1)
    else
      (markSlots fuel t (decide (¬ modeHas g t 'k')) (decide (¬ modeHas g t 'v'))
        (pushWeak g1 t (weakBits (modeHas g t 'k') (modeHas g t 'v')))).map fun g2 =>
        (g2, weakBits (modeHas g t 'k') (modeHas g t 'v'))

/-- State for the statement on weak modes: the gray table 1 whose white
metatable 2 has `__mode = "xk"`, with the white table 4 in the array part and
one hash node with the white key 5 and the white value 6. -/
def exModes : GState :=
  { heap := fun a =>
      if a = 1 then
        { gct := GCT.tab, marked := 0, metatable := 2, array := [TValue.gcv GCT.tab 4],
          hmask := 1,
          node := [{ key := TValue.gcv GCT.tab 5, val := TValue.gcv GCT.tab 6 }, {}] }
      else if a = 2 then { gct := GCT.tab, marked := 1, mmMode := some ['x', 'k'] }
      else if a = 4 ∨ a = 5 ∨ a = 6 then { gct := GCT.tab, marked := 1 }
      else { gct := GCT.trace }
    gray := 1
    weak := 7 }

/-- State in which `__mode` holds a NUL character before the `k`: the gray
table 1 with the black metatable 2, `__mode = "\0k"`, and one hash node with
the white key 5 and the white value 6. -/
def exNulMode : GState :=
  { heap := fun a =>
      if a = 1 then
        { gct := GCT.tab, marked := 0, metatable := 2, hmask := 1,
          node := [{ key := TValue.gcv GCT.tab 5, val := TValue.gcv GCT.tab 6 }, {}] }
      else if a = 2 then { gct := GCT.tab, marked := 4, mmMode := some [Char.ofNat 0, 'k'] }
      else if a = 5 ∨ a = 6 then { gct := GCT.tab, marked := 1 }
      else { gct := GCT.trace }
    gray := 1
    weak := 7 }

/-- A VM whose finalizers step the collector: the code run under
`lj_vm_pcall` calls `lj_gc_step` twice, as a finalizer that calls
`collectgarbage("step")` twice does, and returns without error. -/
def exStepVM : VM :=
  { exVM with
    lj_vm_pcall := fun g L _ =>
      match lj_gc_step exVM 6 g L with
      | some (Res.ok g1 _) =>
        (match lj_gc_step exVM 6 g1 L with
          | some (Res.ok g2 _) => (g2, 0)
          | _ => (g1, 0))
      | _ => (g, 0) }

/-- State for the finalizer that steps the collector: state `GCSfinalize`,
the userdata 2 alone on `mmudata`, its metatable 3 with a `__gc` field, the
current-white main thread 1 and `stepmul = 1`. -/
def exFinStep : GState :=
  { heap := fun a =>
      if a = 1 then { gct := GCT.thread, marked := 0x21 }
      else if a = 2 then { gct := GCT.udata, marked := 0x09, nextgc := 2, metatable := 3 }
      else if a = 3 then { gct := GCT.tab, marked := 0x04, mmGc := some (TValue.prim 0) }
      else {}
    root := 1
    mainthread := 1
    mmudata := 2
    state := GCSfinalize
    stepmul := 1
    total := 1000
    estimate := 1000 }

/-- A VM whose finalizers switch the collector to incremental mode: the code
run under `lj_vm_pcall` calls `lj_gc_changemode(L, KGC_INC)` and returns
without error. -/
def exModeVM : VM :=
  { exVM with
    lj_vm_pcall := fun g L _ =>
      match lj_gc_changemode exVM 6 g L GCKind.inc with
      | some (Res.ok g1 _) => (g1, 0)
      | _ => (g, 0) }

/-- State for the finalizer that switches mode: generational mode, the old
black table 2 and the old black main thread 1 on `root`, followed by the new
white userdata 3, whose black metatable 4 has a `__gc` field. -/
def exAgeDrop : GState :=
  { heap := fun a =>
      if a = 1 then { gct := GCT.thread, marked := 0x64, age := G_OLD, nextgc := 3 }
      else if a = 2 then { gct := GCT.tab, marked := 0x04, age := G_OLD, nextgc := 1 }
      else if a = 3 then { gct := GCT.udata, marked := 0x01, age := G_NEW, metatable := 4 }
      else if a = 4 then
        { gct := GCT.tab, marked := 0x24, age := G_OLD, mmGc := some (TValue.prim 0) }
      else {}
    root := 2
    mainthread := 1
    kind := GCKind.gen
    state := GCSpropagate
    surival := 2, old := 2, reallyold := 2
    total := 1000
    threshold := 2000 }

/-- Color bytes stay bytes: an object whose `marked` field is below 256 in
`g` has it below 256 in `g'`. -/
def Byt (g g' : GState) : Prop :=
  ∀ a, (g.heap a).marked < 256 → (g'.heap a).marked < 256

/-- What a step of the mark phase leaves of the objects other than `o`: one
that is not white, with a color byte below 256, keeps its color byte and its
link `gclist`. -/
def Oth (o : Nat) (g g' : GState) : Prop :=
  ∀ a, a ≠ o → ¬ iswhite (g.heap a) → (g.heap a).marked < 256 →
    (g'.heap a).marked = (g.heap a).marked ∧ (g'.heap a).gclist = (g.heap a).gclist

/-- A marking operation that traverses no object of a work list, as seen from
the lists: the relation `PropBase` with the null object as the one being
traversed, every object that is not white kept (`Stay`), and color bytes
staying bytes. -/
structure Op (S : Finset Nat) (g g' : GState) : Prop where
  base : PropBase 0 S g g'
  stay : ∀ a, Stay a g g'
  byt : Byt g g'

/-- The work lists of the mark phase are well formed: `gray`, `grayagain` and
`weak` are the `gclist` chains `gs`, `as` and `ws`, and `ps` is a chain set
aside with head `ph`; their objects are distinct, not white, of a type that
`propagatemark` traverses, and in `S`; every color byte is a byte, the null
object is not white, trace numbers resolve to traces and `S` covers the white
objects. -/
structure Work (S : Finset Nat) (g : GState) (gs as ws ps : List Nat) (ph : Nat) : Prop where
  gray : GChain g g.gray gs
  again : GChain g g.grayagain as
  weak : GChain g g.weak ws
  parked : GChain g ph ps
  nodup : (gs ++ (as ++ (ws ++ ps))).Nodup
  ok : ∀ t ∈ gs ++ (as ++ (ws ++ ps)),
    ¬ iswhite (g.heap t) ∧ trav (g.heap t).gct ∧ t ∈ S
  bytes : ∀ a, (g.heap a).marked < 256
  null : ¬ iswhite (g.heap 0)
  trace : TraceOK g
  cover : WhiteIn g S

/-- The collector state without the heap. -/
def GState.noHeap (g : GState) : GState := { g with heap := fun _ => {} }

/-- An object without its color byte and its array and hash slots: what
`gc_clearweak` never changes. -/
def slotObj (o : GCobj) : GCobj := { o with marked := 0, array := [], node := [] }

/-- The footprint of `gc_clearweak`: objects differ at most in the color
byte (which stays a byte and does not turn white) and in the array and hash
slots; nothing outside the heap changes. -/
structure Still (g g' : GState) : Prop where
  obj : ∀ a, slotObj (g'.heap a) = slotObj (g.heap a)
  byt : Byt g g'
  white : ∀ a, iswhite (g'.heap a) → iswhite (g.heap a)
  rest : g'.noHeap = g.noHeap

/-- What marking relies on in every state: color bytes are bytes, the null
address is not white, trace numbers resolve to traces, and the white objects
are among `S`. -/
structure Sane (S : Finset Nat) (g : GState) : Prop where
  bytes : ∀ a, (g.heap a).marked < 256
  null : ¬ iswhite (g.heap 0)
  trace : TraceOK g
  cover : WhiteIn g S

/-- The object is a thread or a table. -/
def thrOrTab (o : GCobj) : Prop := o.gct = GCT.thread ∨ o.gct = GCT.tab

/-- The gray lists at the end of marking: `gray` is empty, `grayagain`
holds the distinct threads and tables `as`, `weak` the distinct tables `ws`,
none of them white. -/
structure MarkEnd (g : GState) (as ws : List Nat) : Prop where
  gray : g.gray = 0
  again : GChain g g.grayagain as
  weak : GChain g g.weak ws
  nodup : (as ++ ws).Nodup
  akind : ∀ t ∈ as, thrOrTab (g.heap t)
  wkind : ∀ t ∈ ws, (g.heap t).gct = GCT.tab
  nonwhite : ∀ t ∈ as ++ ws, ¬ iswhite (g.heap t)

/-- A heap on which the atomic step can run: the three gray lists are
`gclist` chains (`gs`, `as`, `ws`) of distinct objects that are not white and
of a type `propagatemark` traverses, color bytes are bytes, the null address
is not white, trace numbers resolve to traces, the white objects are among
`S`; the userdata list after the main thread is the `nextgc` chain `xs`, the
circular `mmudata` list holds `ms`, both of distinct objects of `S` that are
userdata or cdata, neither holds the main thread, and `currentwhite` has a
white bit. -/
structure AtomicReady (S : Finset Nat) (g : GState) (gs as ws xs ms : List Nat) : Prop where
  work : Work S g gs as ws [] 0
  udata : Chain g (g.heap g.mainthread).nextgc xs
  mmudata : Circ g g.mmudata ms
  nodup : (xs ++ ms).Nodup
  main : g.mainthread ≠ 0 ∧ g.mainthread ∉ xs ∧ g.mainthread ∉ ms
  kinds : ∀ u ∈ xs ++ ms, ¬ trav (g.heap u).gct ∧ u ∈ S
  white : curwhite g ≠ 0

/-- State for the statements on the atomic step off trace: state
`GCSatomic`, `jit_base` null, the gray main thread 1 and the black trace 2 to
which every trace number resolves. -/
def exAtomicRun : GState :=
  { heap := fun a =>
      if a = 1 then { gct := GCT.thread, marked := 0x60, stack := [TValue.nil] }
      else if a = 2 then { gct := GCT.trace, marked := 4 }
      else {}
    root := 1
    mainthread := 1
    traceref := fun _ => 2
    state := GCSatomic
    stepmul := 100
    total := 4096
    threshold := 2048
    pause := 200 }

/-- What the sweeps leave alone for the gray lists: every `gclist` link
and object type, and the three list heads. -/
structure GrayKept (g g' : GState) : Prop where
  obj : ∀ a, (g'.heap a).gclist = (g.heap a).gclist ∧ (g'.heap a).gct = (g.heap a).gct
  gray : g'.gray = g.gray
  grayagain : g'.grayagain = g.grayagain
  weak : g'.weak = g.weak

/-- Modelled from the spec: `lj_buf_shrink(L, &g->tmpbuf)` only resizes the
temporary buffer, so of the collector state it changes at most `total`. -/
def VMBufOnly (vm : VM) : Prop := ∀ g L, ∃ t, vm.lj_buf_shrink g L = { g with total := t }

/-- A run of `gc_onestep` calls: `k` calls lead from `g` to `s`, each made
in a state that satisfies `P` and each returning normally. -/
def StepsIn (vm : VM) (fuel L : Nat) (P : GState → Prop) : Nat → GState → GState → Prop
  | 0, g, s => g = s
  | k + 1, g, s => P g ∧
      ∃ g1 c, gc_onestep vm fuel g L = some (Res.ok g1 c) ∧ StepsIn vm fuel L P k g1 s

/-- The collector is not in state `GCSpause`. -/
def notPause (g : GState) : Prop := g.state ≠ GCSpause

/-- The collector is in one of the two sweep states. -/
def inSweep (g : GState) : Prop := g.state = GCSsweepstring ∨ g.state = GCSsweep

/-- The value of `currentwhite` in a normal cycle: one white bit and the
mask bit `FIXED`. -/
def whiteOK (g : GState) : Prop :=
  g.currentwhite = LJ_GC_WHITE0 ||| LJ_GC_FIXED ∨ g.currentwhite = LJ_GC_WHITE1 ||| LJ_GC_FIXED

/-- Well-formed lists: `root` is the `nextgc` chain `xs`, whose threads head
the open-upvalue chains `U` (no thread among the upvalues), the hash chains
`0..strmask` are the chains `St` (no thread among them), all these objects
are distinct and in `S`; `strmask + 1` fits 32 bits, `currentwhite` is that
of a normal cycle, color bytes are bytes, the null address is not white,
trace numbers resolve to traces and `S` covers the white objects. -/
structure Lists (S : Finset Nat) (g : GState) (U St : Nat → List Nat) (xs : List Nat) :
    Prop where
  sane : Sane S g
  root : Chain g g.root xs
  upch : ∀ x ∈ xs, (g.heap x).gct = GCT.thread → Chain g (g.heap x).openupval (U x)
  upnt : ∀ x ∈ xs, (g.heap x).gct ≠ GCT.thread → U x = []
  upth : ∀ x ∈ xs, ∀ u ∈ U x, (g.heap u).gct ≠ GCT.thread
  str : ∀ j, j ≤ g.strmask → Chain g (g.strhash j) (St j)
  strth : ∀ j, j ≤ g.strmask → ∀ s ∈ St j, (g.heap s).gct ≠ GCT.thread
  nodup : (footprint U xs ++ ((List.range (g.strmask + 1)).map St).flatten).Nodup
  mem : ∀ x ∈ footprint U xs ++ ((List.range (g.strmask + 1)).map St).flatten, x ∈ S
  mask : g.strmask + 1 < 2 ^ 32
  white : whiteOK g

/-- Nothing to finalize: the list `xs` is `R`, the main thread and the
userdata list `ud`, whose objects are of a type `propagatemark` does not
traverse and have no `__gc` metamethod, and `mmudata` is empty. -/
structure NoFin (g : GState) (xs R ud : List Nat) : Prop where
  split : xs = R ++ g.mainthread :: ud
  main : g.mainthread ≠ 0
  kinds : ∀ u ∈ ud, ¬ trav (g.heap u).gct ∧ metaGc g (g.heap u).metatable = none
  empty : g.mmudata = 0

/-- Modelled from the spec: `lj_str_resize(L, newmask)` rehashes the string
table.  It replaces the chain heads and the mask (not by a larger one when
`newmask` is not larger, as in the call of the collector, which halves it)
and changes `total`; of the objects it changes nothing but the `nextgc`
links, and those of the strings only; the new chains are well formed and hold
the strings of the old ones. -/
def VMStrRehash (vm : VM) : Prop :=
  ∀ g L m, ∃ (h : Nat → Nat) (m' : Nat) (nx : Nat → Nat) (t : Nat),
    vm.lj_str_resize g L m =
      { g with strhash := h, strmask := m', total := t,
               heap := fun a => { g.heap a with nextgc := nx a } } ∧
    (m ≤ g.strmask → m' ≤ g.strmask) ∧
    ∀ St : Nat → List Nat, (∀ j, j ≤ g.strmask → Chain g (g.strhash j) (St j)) →
      (((List.range (g.strmask + 1)).map St).flatten).Nodup →
      (∀ a, a ∉ ((List.range (g.strmask + 1)).map St).flatten → nx a = (g.heap a).nextgc) ∧
      ∃ St' : Nat → List Nat,
        (∀ j, j ≤ m' → Chain (vm.lj_str_resize g L m) (h j) (St' j)) ∧
        (((List.range (m' + 1)).map St').flatten).Perm
          (((List.range (g.strmask + 1)).map St).flatten)

/-- Modelled from the spec: `lj_tab_rehash(L, t)` reallocates the parts of
the table `t`: it changes the array and hash slots of `t` and `total`,
nothing else. -/
def VMTabRehash (vm : VM) : Prop :=
  ∀ g L t, ∃ (arr : List TValue) (nod : List Node) (tot : Nat),
    vm.lj_tab_rehash g L t =
      { g with total := tot,
               heap := fun a => if a = t then { g.heap a with array := arr, node := nod }
                 else g.heap a }

/-- The collector state without what the sweep steps of `gc_onestep` write:
the heap, the list heads, the string table mask, the free log, the counters
and the fields of the state machine. -/
def GState.restCyc (g : GState) : GState :=
  { g with heap := fun _ => {}, root := 0, strhash := fun _ => 0, strmask := 0, freed := [],
           total := 0, strnum := 0, sweep := Loc.root, sweepstr := 0, state := 0,
           estimate := 0, debt := 0 }

/-- What the sweep steps leave alone: the type, the metatable, the `__gc`
and `__mode` fields and the `gclist` link of every object, and every field
of the state that `restCyc` keeps; the string table does not grow. -/
structure SwKept (g s : GState) : Prop where
  obj : ∀ a, (s.heap a).gct = (g.heap a).gct ∧ (s.heap a).metatable = (g.heap a).metatable ∧
    (s.heap a).mmGc = (g.heap a).mmGc ∧ (s.heap a).gclist = (g.heap a).gclist
  rest : s.restCyc = g.restCyc
  mask : s.strmask ≤ g.strmask

/-- What every step of a collection without finalizers keeps: the type, the
metatable and the `__gc` entry of every object, the main thread, `jit_base`,
`vmstate` and the mode; the string table does not grow. -/
structure Same (g s : GState) : Prop where
  obj : ∀ a, (s.heap a).gct = (g.heap a).gct ∧ (s.heap a).metatable = (g.heap a).metatable ∧
    (s.heap a).mmGc = (g.heap a).mmGc
  main : s.mainthread = g.mainthread
  jit : s.jit_base = g.jit_base
  vmst : s.vmstate = g.vmstate
  kind : s.kind = g.kind
  mask : s.strmask ≤ g.strmask

/-- A state from which the incremental cycle runs to `GCSpause` without
running a finalizer: well-formed lists (`Lists`), no finalizable userdata
(`NoFin`), a state of the state machine; in the two mark states `jit_base`
null, the main thread not white and well-formed work lists; in the two sweep
states the main thread passing the sweep test, `sweepstr` a chain index while
the strings are swept, and the cursor `sweep` at the end of a part `pre` of
`root`. -/
structure Ready (S : Finset Nat) (g : GState) (U St : Nat → List Nat) (xs R ud : List Nat) :
    Prop where
  lists : Lists S g U St xs
  nofin : NoFin g xs R ud
  state : g.state ≤ GCSfinalize
  mark : g.state = GCSpropagate ∨ g.state = GCSatomic →
    g.jit_base = 0 ∧ ¬ iswhite (g.heap g.mainthread) ∧ ∃ gs as ws, Work S g gs as ws [] 0
  sweep : g.state = GCSsweepstring ∨ g.state = GCSsweep →
    sweepKeeps g (otherwhite g) g.mainthread ∧
    (g.state = GCSsweepstring → g.sweepstr ≤ g.strmask) ∧
    ∃ pre rest, xs = pre ++ rest ∧ g.sweep = lastLoc Loc.root pre

/-! ## Byte arithmetic -/

theorem mod256_and (a b : Nat) : (a &&& b) % 256 = (a % 256) &&& (b % 256) := by
  apply Nat.eq_of_testBit_eq; intro i
  have e : (256 : Nat) = 2 ^ 8 := by norm_num
  simp only [e, Nat.testBit_mod_two_pow, Nat.testBit_and]
  cases decide (i < 8) <;> simp

theorem mod256_or (a b : Nat) : (a ||| b) % 256 = (a % 256) ||| (b % 256) := by
  apply Nat.eq_of_testBit_eq; intro i
  have e : (256 : Nat) = 2 ^ 8 := by norm_num
  simp only [e, Nat.testBit_mod_two_pow, Nat.testBit_or]
  cases decide (i < 8) <;> simp

theorem mod256_xor (a b : Nat) : (a ^^^ b) % 256 = (a % 256) ^^^ (b % 256) := by
  apply Nat.eq_of_testBit_eq; intro i
  have e : (256 : Nat) = 2 ^ 8 := by norm_num
  simp only [e, Nat.testBit_mod_two_pow, Nat.testBit_xor]
  cases decide (i < 8) <;> simp

theorem land_byte (m k : Nat) (hk : k < 256) : m &&& k = (m % 256) &&& k := by
  have h1 : m &&& k < 256 := lt_of_le_of_lt Nat.and_le_right hk
  have h2 := mod256_and m k
  rw [Nat.mod_eq_of_lt h1, Nat.mod_eq_of_lt hk] at h2
  exact h2

set_option maxRecDepth 100000 in

theorem w2g_byte : ∀ r < 256, (r &&& 252) &&& 3 = 0 ∧ (r &&& 252) &&& 248 = r &&& 248 ∧
    (r &&& 252) &&& 4 = r &&& 4 := by decide

set_option maxRecDepth 100000 in

theorem g2b_byte : ∀ r < 256, (r ||| 4) &&& 3 = r &&& 3 ∧ (r ||| 4) &&& 248 = r &&& 248 ∧
    (r ||| 4) &&& 4 = 4 := by decide

set_option maxRecDepth 100000 in

theorem b2g_byte : ∀ r < 256, (r &&& 251) &&& 3 = r &&& 3 ∧ (r &&& 251) &&& 248 = r &&& 248 ∧
    (r &&& 251) &&& 4 = 0 := by decide

set_option maxRecDepth 1000000 in

theorem mkw_byte : ∀ r < 256, ∀ c < 4, ((r &&& 248) ||| c) &&& 3 = c ∧
    ((r &&& 248) ||| c) &&& 248 = r &&& 248 ∧ ((r &&& 248) ||| c) &&& 4 = 0 := by decide

theorem mod256_lt (m : Nat) : m % 256 < 256 := Nat.mod_lt _ (by decide)

/-- Effect of `white2gray` on a marked byte. -/
theorem w2g_bits (m : Nat) : (m &&& not8 LJ_GC_WHITES) &&& 3 = 0 ∧
    (m &&& not8 LJ_GC_WHITES) &&& 248 = m &&& 248 ∧
    (m &&& not8 LJ_GC_WHITES) &&& 4 = m &&& 4 := by
  have e : not8 LJ_GC_WHITES = 252 := by decide
  have h := w2g_byte (m % 256) (mod256_lt m)
  rw [e, land_byte (m &&& 252) 3 (by decide), land_byte (m &&& 252) 248 (by decide),
    land_byte (m &&& 252) 4 (by decide), mod256_and, land_byte m 248 (by decide),
    land_byte m 4 (by decide)]
  exact h

/-- Effect of `gray2black` on a marked byte. -/
theorem g2b_bits (m : Nat) : (m ||| LJ_GC_BLACK) &&& 3 = m &&& 3 ∧
    (m ||| LJ_GC_BLACK) &&& 248 = m &&& 248 ∧ (m ||| LJ_GC_BLACK) &&& 4 = 4 := by
  have e : LJ_GC_BLACK = 4 := by decide
  have h := g2b_byte (m % 256) (mod256_lt m)
  rw [e, land_byte (m ||| 4) 3 (by decide), land_byte (m ||| 4) 248 (by decide),
    land_byte (m ||| 4) 4 (by decide), mod256_or, land_byte m 248 (by decide),
    land_byte m 3 (by decide)]
  exact h

/-- Effect of `black2gray` on a marked byte. -/
theorem b2g_bits (m : Nat) : (m &&& not8 LJ_GC_BLACK) &&& 3 = m &&& 3 ∧
    (m &&& not8 LJ_GC_BLACK) &&& 248 = m &&& 248 ∧
    (m &&& not8 LJ_GC_BLACK) &&& 4 = 0 := by
  have e : not8 LJ_GC_BLACK = 251 := by decide
  have h := b2g_byte (m % 256) (mod256_lt m)
  rw [e, land_byte (m &&& 251) 3 (by decide), land_byte (m &&& 251) 248 (by decide),
    land_byte (m &&& 251) 4 (by decide), mod256_and, land_byte m 248 (by decide),
    land_byte m 3 (by decide)]
  exact h

/-- Effect of `makewhite` on a marked byte. -/
theorem mkw_bits (m cw : Nat) :
    ((m &&& not8 LJ_GC_COLORS) ||| (cw &&& LJ_GC_WHITES)) &&& 3 = cw &&& 3 ∧
    ((m &&& not8 LJ_GC_COLORS) ||| (cw &&& LJ_GC_WHITES)) &&& 248 = m &&& 248 ∧
    ((m &&& not8 LJ_GC_COLORS) ||| (cw &&& LJ_GC_WHITES)) &&& 4 = 0 := by
  have e : not8 LJ_GC_COLORS = 248 := by decide
  have e3 : LJ_GC_WHITES = 3 := by decide
  have hc : cw &&& 3 < 4 := lt_of_le_of_lt Nat.and_le_right (by decide)
  have hc2 : (cw &&& 3) % 256 = cw &&& 3 := Nat.mod_eq_of_lt (lt_trans hc (by decide))
  have h := mkw_byte (m % 256) (mod256_lt m) (cw &&& 3) hc
  rw [e, e3, land_byte (m &&& 248 ||| cw &&& 3) 3 (by decide),
    land_byte (m &&& 248 ||| cw &&& 3) 248 (by decide),
    land_byte (m &&& 248 ||| cw &&& 3) 4 (by decide), mod256_or, mod256_and, hc2,
    land_byte m 248 (by decide)]
  exact h

set_option maxRecDepth 100000 in

theorem gray_byte : ∀ r < 256, (r &&& 7 = 0 ↔ (r &&& 3 = 0 ∧ r &&& 4 = 0)) := by decide

/-- Gray means neither a white bit nor the black bit. -/
theorem isgray_iff (x : GCobj) : isgray x ↔ ¬ iswhite x ∧ ¬ isblack x := by
  have e7 : LJ_GC_BLACK ||| LJ_GC_WHITES = 7 := by decide
  have h := gray_byte (x.marked % 256) (mod256_lt _)
  rw [← land_byte _ 7 (by decide), ← land_byte _ 3 (by decide),
    ← land_byte _ 4 (by decide)] at h
  unfold isgray iswhite isblack
  rw [e7, h]
  simp only [ne_eq, not_not]
  exact Iff.rfl

/-! ## Heap updates -/

@[simp] theorem setObj_heap_same (g : GState) (a : Nat) (o : GCobj) :
    (g.setObj a o).heap a = o := by simp [GState.setObj]

theorem setObj_heap_ne (g : GState) (a b : Nat) (o : GCobj) (h : b ≠ a) :
    (g.setObj a o).heap b = g.heap b := by simp [GState.setObj, h]

@[simp] theorem modObj_heap_same (g : GState) (a : Nat) (f : GCobj → GCobj) :
    (g.modObj a f).heap a = f (g.heap a) := by simp [GState.modObj]

theorem modObj_heap_ne (g : GState) (a b : Nat) (f : GCobj → GCobj) (h : b ≠ a) :
    (g.modObj a f).heap b = g.heap b := by simp [GState.modObj, setObj_heap_ne _ _ _ _ h]

theorem modObj_heap (g : GState) (a b : Nat) (f : GCobj → GCobj) :
    (g.modObj a f).heap b = if b = a then f (g.heap a) else g.heap b := by
  by_cases h : b = a
  · subst h; simp
  · simp [h, modObj_heap_ne _ _ _ _ h]

/-! ## Marking -/

theorem MarkRel.mrefl (g : GState) : MarkRel g g :=
  ⟨fun _ => rfl, fun _ _ => rfl, fun _ _ => rfl, fun _ => rfl, rfl⟩

theorem MarkRel.mtrans {g1 g2 g3 : GState} (h1 : MarkRel g1 g2) (h2 : MarkRel g2 g3) :
    MarkRel g1 g3 := by
  refine ⟨fun a => (h2.shape_eq a).trans (h1.shape_eq a), ?_, ?_,
    fun a => (h2.bits a).trans (h1.bits a), h2.frame.trans h1.frame⟩
  · intro a ha
    have e1 := h1.nonwhite a ha
    have e2 := h2.nonwhite a (by rw [e1]; exact ha)
    rw [e2, e1]
  · intro a ha
    have e2 := h2.white a ha
    have e1 := h1.white a (by rw [← e2]; exact ha)
    rw [e2, e1]

/-- One more color change on an object that was white at the start. -/
theorem MarkRel.mmod {g g2 g3 : GState} (h : MarkRel g g2) (o : Nat) (f : GCobj → GCobj)
    (ho : iswhite (g.heap o)) (hs : ∀ x, shape (f x) = shape x)
    (hb : ∀ x, (f x).marked &&& 248 = x.marked &&& 248)
    (hn : ¬ iswhite (f (g2.heap o)))
    (hh : g3.heap = (g2.modObj o f).heap) (hr : g3.restMark = g2.restMark) :
    MarkRel g g3 := by
  refine ⟨?_, ?_, ?_, ?_, hr.trans h.frame⟩
  · intro a
    rw [hh, modObj_heap]
    split
    · next e => subst e; rw [hs]; exact h.shape_eq a
    · exact h.shape_eq a
  · intro a ha
    rw [hh, modObj_heap]
    split
    · next e => subst e; exact absurd ho ha
    · exact h.nonwhite a ha
  · intro a ha
    rw [hh, modObj_heap] at ha ⊢
    split at ha
    · exact absurd ha hn
    · next e => simp only [e, if_false]; exact h.white a ha
  · intro a
    rw [hh, modObj_heap]
    split
    · next e => subst e; rw [hb]; exact h.bits a
    · exact h.bits a

theorem white2gray_not_white (x : GCobj) : ¬ iswhite (white2gray x) := by
  unfold iswhite white2gray
  exact fun h => h (w2g_bits x.marked).1

theorem gray2black_white_iff (x : GCobj) : iswhite (gray2black x) ↔ iswhite x := by
  unfold iswhite gray2black
  have h := (g2b_bits x.marked).1
  constructor <;> intro hw <;> intro h0 <;> apply hw
  · show (x.marked ||| LJ_GC_BLACK) &&& 3 = 0
    rw [h]; exact h0
  · show x.marked &&& 3 = 0
    rw [← h]; exact h0

theorem shape_white2gray (x : GCobj) : shape (white2gray x) = shape x := rfl

theorem shape_gray2black (x : GCobj) : shape (gray2black x) = shape x := rfl

theorem shape_black2gray (x : GCobj) : shape (black2gray x) = shape x := rfl

theorem shape_gclist (x : GCobj) (r : Nat) : shape { x with gclist := r } = shape x := rfl

theorem bits_white2gray (x : GCobj) : (white2gray x).marked &&& 248 = x.marked &&& 248 :=
  (w2g_bits x.marked).2.1

theorem bits_gray2black (x : GCobj) : (gray2black x).marked &&& 248 = x.marked &&& 248 :=
  (g2b_bits x.marked).2.1

/-- A guarded recursive marking call inherits `MarkRel` from the induction
hypothesis. -/
theorem guarded_rel {n : Nat}
    (ih : ∀ (g : GState) (o : Nat) (g' : GState), iswhite (g.heap o) →
      gc_mark n g o = some g' → MarkRel g g' ∧ ¬ iswhite (g'.heap o))
    (c : Prop) [Decidable c]
    (g : GState) (a : Nat) (hca : c → iswhite (g.heap a)) (g' : GState)
    (h : (if c then gc_mark n g a else some g) = some g') :
    MarkRel g g' ∧ (c → ¬ iswhite (g'.heap a)) := by
  by_cases hcc : c
  · rw [if_pos hcc] at h
    have := ih g a g' (hca hcc) h
    exact ⟨this.1, fun _ => this.2⟩
  · rw [if_neg hcc] at h
    injection h with h; subst h
    exact ⟨MarkRel.mrefl g, fun x => absurd x hcc⟩

/-- Marking a white object: only white objects change, only in their color
bits and worklist link, and the object itself ends non-white. -/
theorem gc_mark_rel : ∀ (n : Nat) (g : GState) (o : Nat) (g' : GState),
    iswhite (g.heap o) → gc_mark n g o = some g' →
      MarkRel g g' ∧ ¬ iswhite (g'.heap o) := by
  intro n
  induction n with
  | zero => intro g o g' _ h; simp [gc_mark] at h
  | succ n ih =>
    intro g o g' ho h
    have h1 : MarkRel g (g.modObj o white2gray) :=
      MarkRel.mmod (MarkRel.mrefl g) o white2gray ho shape_white2gray bits_white2gray
        (white2gray_not_white _) rfl rfl
    have hw1 : ¬ iswhite ((g.modObj o white2gray).heap o) := by
      rw [modObj_heap_same]; exact white2gray_not_white _
    simp only [gc_mark] at h
    cases hg : (g.heap o).gct <;> rw [hg] at h <;> simp only at h
    case str => injection h with h; subst h; exact ⟨h1, hw1⟩
    case cdata => injection h with h; subst h; exact ⟨h1, hw1⟩
    case udata =>
      have h2 : MarkRel g ((g.modObj o white2gray).modObj o gray2black) :=
        MarkRel.mmod h1 o gray2black ho shape_gray2black bits_gray2black
          (by rw [gray2black_white_iff]; exact hw1) rfl rfl
      have hw2 : ¬ iswhite (((g.modObj o white2gray).modObj o gray2black).heap o) := by
        rw [modObj_heap_same, gray2black_white_iff]; exact hw1
      rw [Option.bind_eq_some] at h
      obtain ⟨g3, h3, h4⟩ := h
      have r3 := guarded_rel ih _ _ _ (fun hc => hc.2) g3 h3
      have e3 : g3.heap o = ((g.modObj o white2gray).modObj o gray2black).heap o :=
        r3.1.nonwhite o hw2
      have r4 := guarded_rel ih _ _ _ (fun hc => hc) g' h4
      refine ⟨h2.mtrans (r3.1.mtrans r4.1), ?_⟩
      rw [r4.1.nonwhite o (by rw [e3]; exact hw2), e3]; exact hw2
    case upval =>
      rw [Option.bind_eq_some] at h
      obtain ⟨g3, h3, h4⟩ := h
      have r3 := guarded_rel ih _ _ _ (fun hc => hc.2) g3 h3
      have e3 : g3.heap o = (g.modObj o white2gray).heap o := r3.1.nonwhite o hw1
      have hw3 : ¬ iswhite (g3.heap o) := by rw [e3]; exact hw1
      by_cases hcl : (g3.heap o).closed = true
      · rw [if_pos hcl] at h4
        injection h4 with h4; subst h4
        refine ⟨MarkRel.mmod (h1.mtrans r3.1) o gray2black ho shape_gray2black bits_gray2black
          (by rw [gray2black_white_iff]; exact hw3) rfl rfl, ?_⟩
        rw [modObj_heap_same, gray2black_white_iff]; exact hw3
      · rw [if_neg hcl] at h4
        injection h4 with h4; subst h4
        exact ⟨h1.mtrans r3.1, hw3⟩
    all_goals
      injection h with h; subst h
      refine ⟨MarkRel.mmod h1 o (fun x => { x with gclist := g.gray }) ho
        (fun x => shape_gclist x _) (fun _ => rfl) ?_ rfl rfl, ?_⟩
      · exact hw1
      · simp only [modObj_heap_same]
        have hx := white2gray_not_white (g.heap o)
        unfold iswhite at hx ⊢; exact hx

theorem MarkRel.mwhiteIn {g g' : GState} (h : MarkRel g g') {S : Finset Nat}
    (hS : WhiteIn g S) : WhiteIn g' S := by
  intro a ha
  have e := h.white a ha
  exact hS a (by rw [← e]; exact ha)

theorem WhiteIn.erase {g : GState} {S : Finset Nat} (hS : WhiteIn g S) (o : Nat)
    (ho : ¬ iswhite (g.heap o)) : WhiteIn g (S.erase o) := by
  intro a ha
  refine Finset.mem_erase.mpr ⟨?_, hS a ha⟩
  intro e; subst e; exact ho ha

theorem bind_total {α β : Type} {X : Option α} {f : α → Option β}
    (hX : ∃ a, X = some a) (hf : ∀ a, X = some a → ∃ b, f a = some b) :
    ∃ b, X.bind f = some b := by
  obtain ⟨a, ha⟩ := hX
  obtain ⟨b, hb⟩ := hf a ha
  exact ⟨b, by rw [ha]; exact hb⟩

/-- A guarded recursive marking call returns when the fuel covers the white
objects. -/
theorem guarded_total {n : Nat}
    (ih : ∀ (S : Finset Nat) (g : GState) (o : Nat), WhiteIn g S → iswhite (g.heap o) →
      S.card ≤ n → ∃ g', gc_mark n g o = some g')
    (c : Prop) [Decidable c] (S : Finset Nat) (g : GState) (a : Nat)
    (hca : c → iswhite (g.heap a)) (hS : WhiteIn g S) (hn : S.card ≤ n) :
    ∃ g', (if c then gc_mark n g a else some g) = some g' := by
  by_cases hcc : c
  · rw [if_pos hcc]; exact ih S g a hS (hca hcc) hn
  · rw [if_neg hcc]; exact ⟨g, rfl⟩

/-- Marking a white object returns as soon as the fuel is at least the number
of white objects. -/
theorem gc_mark_total : ∀ (n : Nat) (S : Finset Nat) (g : GState) (o : Nat),
    WhiteIn g S → iswhite (g.heap o) → S.card ≤ n → ∃ g', gc_mark n g o = some g' := by
  intro n
  induction n with
  | zero =>
    intro S g o hS ho hn
    have := Finset.card_pos.mpr ⟨o, hS o ho⟩
    omega
  | succ n ih =>
    intro S g o hS ho hn
    have hrel : ∀ (m : Nat) (g : GState) (o : Nat) (g' : GState), iswhite (g.heap o) →
        gc_mark m g o = some g' → MarkRel g g' ∧ ¬ iswhite (g'.heap o) := gc_mark_rel
    have h1 : MarkRel g (g.modObj o white2gray) :=
      MarkRel.mmod (MarkRel.mrefl g) o white2gray ho shape_white2gray bits_white2gray
        (white2gray_not_white _) rfl rfl
    have hw1 : ¬ iswhite ((g.modObj o white2gray).heap o) := by
      rw [modObj_heap_same]; exact white2gray_not_white _
    have hc : (S.erase o).card ≤ n := by
      rw [Finset.card_erase_of_mem (hS o ho)]; omega
    simp only [gc_mark]
    cases hg : (g.heap o).gct <;> simp only
    case str => exact ⟨_, rfl⟩
    case cdata => exact ⟨_, rfl⟩
    case udata =>
      have h2 : MarkRel g ((g.modObj o white2gray).modObj o gray2black) :=
        MarkRel.mmod h1 o gray2black ho shape_gray2black bits_gray2black
          (by rw [gray2black_white_iff]; exact hw1) rfl rfl
      have hw2 : ¬ iswhite (((g.modObj o white2gray).modObj o gray2black).heap o) := by
        rw [modObj_heap_same, gray2black_white_iff]; exact hw1
      have hS2 := (h2.mwhiteIn hS).erase o hw2
      apply bind_total
      · exact guarded_total ih _ (S.erase o) _ _ And.right hS2 hc
      · intro g3 h3
        have r3 := guarded_rel (hrel n) _ _ _ And.right g3 h3
        have hS3 := r3.1.mwhiteIn hS2
        exact guarded_total ih _ (S.erase o) g3 _ id hS3 hc
    case upval =>
      have hS1 := (h1.mwhiteIn hS).erase o hw1
      apply bind_total
      · exact guarded_total ih _ (S.erase o) _ _ And.right hS1 hc
      · intro g3 _
        split <;> exact ⟨_, rfl⟩
    all_goals exact ⟨_, rfl⟩

/-! ## Backward barrier -/

/-- C4: `lj_gc_barrierback` on a black table clears only the `BLACK` bit
(the table is gray if it had no white bit), makes it the head of `grayagain`
with `gclist` the previous head, and changes nothing else; afterwards, and as
long as the table is not black, the guarded barriers `lj_gc_anybarriert`,
`lj_gc_barriert` and `lj_gc_objbarriert` leave the state untouched, so the
table is not linked a second time. -/
theorem barrierback_spec (g : GState) (t : Nat) (hb : isblack (g.heap t)) :
    ((g.heap t).marked &&& LJ_GC_BLACK ≠ 0 ∧
      ((lj_gc_barrierback g t).heap t).marked &&& LJ_GC_BLACK = 0) ∧
    ((lj_gc_barrierback g t).heap t).marked &&& not8 LJ_GC_BLACK =
      (g.heap t).marked &&& not8 LJ_GC_BLACK ∧
    (¬ iswhite (g.heap t) → isgray ((lj_gc_barrierback g t).heap t)) ∧
    (lj_gc_barrierback g t).grayagain = t ∧
    ((lj_gc_barrierback g t).heap t).gclist = g.grayagain ∧
    (lj_gc_barrierback g t).heap t =
      { g.heap t with marked := (g.heap t).marked &&& not8 LJ_GC_BLACK,
                      gclist := g.grayagain } ∧
    (∀ a, a ≠ t → (lj_gc_barrierback g t).heap a = g.heap a) ∧
    { lj_gc_barrierback g t with heap := g.heap, grayagain := g.grayagain } = g ∧
    lj_gc_anybarriert (lj_gc_barrierback g t) t = lj_gc_barrierback g t ∧
    (∀ tv, lj_gc_barriert (lj_gc_barrierback g t) t tv = lj_gc_barrierback g t) ∧
    (∀ o, lj_gc_objbarriert (lj_gc_barrierback g t) t o = lj_gc_barrierback g t) ∧
    (∀ g2 : GState, ¬ isblack (g2.heap t) →
      lj_gc_anybarriert g2 t = g2 ∧ (∀ tv, lj_gc_barriert g2 t tv = g2) ∧
      (∀ o, lj_gc_objbarriert g2 t o = g2)) := by
  have hbits := b2g_bits (g.heap t).marked
  have hobj : (lj_gc_barrierback g t).heap t =
      { g.heap t with marked := (g.heap t).marked &&& not8 LJ_GC_BLACK,
                      gclist := g.grayagain } := by
    simp [lj_gc_barrierback, black2gray, GState.modObj, GState.setObj]
  have hm : ((lj_gc_barrierback g t).heap t).marked =
      (g.heap t).marked &&& not8 LJ_GC_BLACK := by rw [hobj]
  have hnb : ¬ isblack ((lj_gc_barrierback g t).heap t) := by
    unfold isblack; rw [hm]
    exact fun h => h hbits.2.2
  have hgen : ∀ g2 : GState, ¬ isblack (g2.heap t) →
      lj_gc_anybarriert g2 t = g2 ∧ (∀ tv, lj_gc_barriert g2 t tv = g2) ∧
      (∀ o, lj_gc_objbarriert g2 t o = g2) := by
    intro g2 h2
    refine ⟨by simp [lj_gc_anybarriert, h2], fun tv => by simp [lj_gc_barriert, h2],
      fun o => by simp [lj_gc_objbarriert, h2]⟩
  refine ⟨?_, ?_, ?_, ?_, ?_, hobj, ?_, ?_, (hgen _ hnb).1, (hgen _ hnb).2.1,
    (hgen _ hnb).2.2, hgen⟩
  · exact ⟨hb, by rw [hm]; exact hbits.2.2⟩
  · rw [hm, Nat.and_assoc, Nat.and_self]
  · intro hw
    unfold isgray; rw [hm]
    have e : LJ_GC_BLACK ||| LJ_GC_WHITES = 7 := by decide
    have hw3 : (g.heap t).marked &&& 3 = 0 := by
      unfold iswhite at hw; simpa [show LJ_GC_WHITES = 3 from rfl] using hw
    rw [e]
    have h7 : ∀ x : Nat, x &&& 3 = 0 → x &&& 4 = 0 → x &&& 7 = 0 := by
      intro x h3 h4
      have : (7 : Nat) = 3 ||| 4 := by decide
      rw [this, Nat.and_or_distrib_left, h3, h4]; rfl
    exact h7 _ (by rw [hbits.1]; exact hw3) hbits.2.2
  · simp [lj_gc_barrierback]
  · rw [hobj]
  · intro a ha
    simp [lj_gc_barrierback, GState.modObj, GState.setObj, ha]
  · simp [lj_gc_barrierback, GState.modObj, GState.setObj]

/-- Witness for `barrierback_spec`: a black table at address 1. -/
theorem barrierback_spec_witness :
    ((lj_gc_barrierback { heap := fun a => if a = 1 then { gct := GCT.tab, marked := 4 } else {} } 1).heap 1).marked
      &&& LJ_GC_BLACK = 0 :=
  (barrierback_spec { heap := fun a => if a = 1 then { gct := GCT.tab, marked := 4 } else {} } 1
    (by decide)).1.2

/-- C5: the backward barrier never writes the age: after
`lj_gc_barrierback` the table is on `grayagain` but its age is what it was, so
an old table (age `G_OLD`) in generational mode does not become `G_TOUCHED1`. -/
theorem barrierback_age_unchanged (g : GState) (t : Nat) :
    ((lj_gc_barrierback g t).heap t).age = (g.heap t).age ∧
    (lj_gc_barrierback g t).grayagain = t ∧
    ((lj_gc_barrierback
        { heap := fun a => if a = 1 then { gct := GCT.tab, marked := 4, age := G_OLD } else {},
          kind := GCKind.gen, state := GCSpropagate } 1).heap 1).age = G_OLD ∧
    G_OLD ≠ G_TOUCHED1 := by
  refine ⟨?_, ?_, ?_, by decide⟩
  · simp [lj_gc_barrierback, black2gray, GState.modObj, GState.setObj]
  · simp [lj_gc_barrierback]
  · simp [lj_gc_barrierback, black2gray, GState.modObj, GState.setObj]

/-! ## Forward barrier -/

theorem shape_age {x y : GCobj} (h : shape x = shape y) : x.age = y.age :=
  show (shape x).age = (shape y).age from congrArg GCobj.age h

theorem makewhite_not_black (g : GState) (x : GCobj) : ¬ isblack (makewhite g x) := by
  unfold isblack makewhite curwhite
  exact fun h => h (mkw_bits x.marked g.currentwhite).2.2

/-- C3: for a black `o` and a white `v`, `lj_gc_barrierf` returns (given fuel
for the white objects).  In `Propagate`/`Atomic` it leaves `o` unchanged, makes
`v` non-white with the `marked` byte `gc_mark` gives it, and sets `age(v)` to
`G_OLD0` when `o` is old, leaving the age of `v` alone otherwise.  In every
other state it recolors `o` to the current white, keeping its non-color bits,
and leaves every other object, `v` included, unchanged.  In both cases `o`
black and `v` white no longer holds. -/
theorem barrierf_spec (fuel : Nat) (S : Finset Nat) (g : GState) (o v : Nat)
    (ho : Black (g.heap o)) (hv : iswhite (g.heap v))
    (hS : WhiteIn g S) (hfuel : S.card ≤ fuel) :
    ∃ g', lj_gc_barrierf fuel g o v = some g' ∧
      ((g.state = GCSpropagate ∨ g.state = GCSatomic) →
        g'.heap o = g.heap o ∧ ¬ iswhite (g'.heap v) ∧
        (∃ gm, gc_mark fuel g v = some gm ∧ (g'.heap v).marked = (gm.heap v).marked) ∧
        (isold (g.heap o) → (g'.heap v).age = G_OLD0) ∧
        (¬ isold (g.heap o) → (g'.heap v).age = (g.heap v).age)) ∧
      (¬ (g.state = GCSpropagate ∨ g.state = GCSatomic) →
        g'.heap o = makewhite g (g.heap o) ∧
        (g'.heap o).marked &&& LJ_GC_WHITES = curwhite g ∧
        (g'.heap o).marked &&& LJ_GC_BLACK = 0 ∧
        (g'.heap o).marked &&& not8 LJ_GC_COLORS = (g.heap o).marked &&& not8 LJ_GC_COLORS ∧
        (∀ a, a ≠ o → g'.heap a = g.heap a) ∧ g'.heap v = g.heap v) ∧
      ¬ (isblack (g'.heap o) ∧ iswhite (g'.heap v)) := by
  have hov : o ≠ v := by
    intro e; subst e; exact ho.2 hv
  by_cases hst : g.state = GCSpropagate ∨ g.state = GCSatomic
  · obtain ⟨gm, hgm⟩ := gc_mark_total fuel S g v hS hv hfuel
    obtain ⟨hrel, hnw⟩ := gc_mark_rel fuel g v gm hv hgm
    have eo : gm.heap o = g.heap o := hrel.nonwhite o ho.2
    by_cases hold : isold (g.heap o)
    · refine ⟨gm.modObj v (fun x => setage x G_OLD0), ?_, ?_, fun h => absurd hst h, ?_⟩
      · simp only [lj_gc_barrierf, if_pos hst, hgm, Option.some_bind, eo, if_pos hold]
      · intro _
        refine ⟨by rw [modObj_heap_ne _ _ _ _ hov]; exact eo, ?_, ⟨gm, hgm, ?_⟩, ?_, ?_⟩
        · rw [modObj_heap_same]; unfold iswhite setage at *; exact hnw
        · rw [modObj_heap_same]; rfl
        · intro _; rw [modObj_heap_same]; rfl
        · intro h; exact absurd hold h
      · rintro ⟨_, hw⟩
        rw [modObj_heap_same] at hw
        unfold iswhite setage at *; exact hnw hw
    · refine ⟨gm, ?_, ?_, fun h => absurd hst h, fun h => hnw h.2⟩
      · simp only [lj_gc_barrierf, if_pos hst, hgm, Option.some_bind, eo, if_neg hold]
      · intro _
        exact ⟨eo, hnw, ⟨gm, hgm, rfl⟩, fun h => absurd h hold,
          fun _ => shape_age (hrel.shape_eq v)⟩
  · have hb := mkw_bits (g.heap o).marked g.currentwhite
    refine ⟨g.modObj o (makewhite g), ?_, fun h => absurd h hst, ?_, ?_⟩
    · simp only [lj_gc_barrierf, if_neg hst]
    · intro _
      refine ⟨modObj_heap_same _ _ _, ?_, ?_, ?_, fun a ha => modObj_heap_ne _ _ _ _ ha,
        modObj_heap_ne _ _ _ _ (Ne.symm hov)⟩
      · rw [modObj_heap_same]; exact hb.1
      · rw [modObj_heap_same]; exact hb.2.2
      · rw [modObj_heap_same]; exact hb.2.1
    · rintro ⟨hbl, _⟩
      rw [modObj_heap_same] at hbl
      exact makewhite_not_black g _ hbl

/-- Witness for `barrierf_spec`: black function 1, white string 2. -/
theorem barrierf_spec_witness :
    ∃ g', lj_gc_barrierf 1 exBarrier 1 2 = some g' ∧ ¬ iswhite (g'.heap 2) := by
  have hS : WhiteIn exBarrier {2} := by
    intro a ha
    by_cases h2 : a = 2
    · simp [h2]
    · exfalso
      by_cases h1 : a = 1
      · subst h1; revert ha; decide
      · simp [exBarrier, iswhite, h1, h2] at ha
  obtain ⟨g', h1, h2, _, _⟩ :=
    barrierf_spec 1 {2} exBarrier 1 2 (by decide) (by decide) hS (by decide)
  exact ⟨g', h1, (h2 (Or.inl rfl)).2.1⟩

/-! ## Closing an upvalue -/

theorem modObj_modObj (g : GState) (a : Nat) (f h : GCobj → GCobj) :
    (g.modObj a f).modObj a h = g.modObj a (fun x => h (f x)) := by
  unfold GState.modObj GState.setObj
  simp only [if_true]
  congr 1
  funext x
  by_cases hx : x = a <;> simp [hx]

/-- The function `lj_gc_closeuv` with its four field stores merged. -/
theorem closeuv_eq (fuel : Nat) (g : GState) (uv : Nat) :
    lj_gc_closeuv fuel g uv =
      (fun g5 : GState =>
        if isgray (g5.heap uv) then
          if g5.state = GCSpropagate ∨ g5.state = GCSatomic then
            if tviswhite (g5.modObj uv gray2black) ((g5.modObj uv gray2black).heap uv).tv then
              lj_gc_barrierf fuel (g5.modObj uv gray2black) uv
                (gcV ((g5.modObj uv gray2black).heap uv).tv)
            else some (g5.modObj uv gray2black)
          else some (g5.modObj uv (makewhite g5))
        else some g5)
      { g.modObj uv (closeFields (uvval g (g.heap uv)) g.root) with root := uv } := by
  unfold lj_gc_closeuv
  simp only [modObj_modObj]
  rfl

theorem gray2black_black (x : GCobj) : isblack (gray2black x) := by
  unfold isblack gray2black
  intro h
  exact absurd ((g2b_bits x.marked).2.2.symm.trans h) (by decide)

/-- The forward barrier during marking, in terms of `gc_mark`. -/
theorem barrierf_marking (fuel : Nat) (S : Finset Nat) (g : GState) (o v : Nat)
    (hst : g.state = GCSpropagate ∨ g.state = GCSatomic)
    (ho : ¬ iswhite (g.heap o)) (hv : iswhite (g.heap v))
    (hS : WhiteIn g S) (hfuel : S.card ≤ fuel) :
    ∃ g' gm, lj_gc_barrierf fuel g o v = some g' ∧ MarkRel g gm ∧
      ¬ iswhite (gm.heap v) ∧ g'.heap o = g.heap o ∧ g'.root = g.root ∧
      ¬ iswhite (g'.heap v) := by
  have hov : o ≠ v := by
    intro e; subst e; exact ho hv
  obtain ⟨gm, hgm⟩ := gc_mark_total fuel S g v hS hv hfuel
  obtain ⟨hrel, hnw⟩ := gc_mark_rel fuel g v gm hv hgm
  have eo : gm.heap o = g.heap o := hrel.nonwhite o ho
  have er : gm.root = g.root :=
    show gm.restMark.root = g.restMark.root from congrArg GState.root hrel.frame
  by_cases hold : isold (g.heap o)
  · refine ⟨gm.modObj v (fun x => setage x G_OLD0), gm, ?_, hrel, hnw, ?_, er, ?_⟩
    · simp only [lj_gc_barrierf, if_pos hst, hgm, Option.some_bind, eo, if_pos hold]
    · rw [modObj_heap_ne _ _ _ _ hov]; exact eo
    · rw [modObj_heap_same]; unfold iswhite setage at *; exact hnw
  · refine ⟨gm, gm, ?_, hrel, hnw, eo, er, hnw⟩
    simp only [lj_gc_barrierf, if_pos hst, hgm, Option.some_bind, eo, if_neg hold]

/-- C6: `lj_gc_closeuv` returns (given fuel for the white objects) with the
upvalue closed, `uv->v` pointing at its own `tv`, which holds the value the
upvalue denoted before, and the upvalue at the head of `root` in front of the
previous head.  A gray upvalue ends black in `Propagate`/`Atomic`, with a value
that is not white, and current-white in any other state; an upvalue that was
not gray keeps its `marked` byte.  With a white bit in `currentwhite`, the
closed upvalue is never gray. -/
theorem closeuv_spec (fuel : Nat) (S : Finset Nat) (g : GState) (uv : Nat)
    (hS : WhiteIn g S) (hfuel : S.card ≤ fuel) :
    ∃ g', lj_gc_closeuv fuel g uv = some g' ∧
      (g'.heap uv).closed = true ∧ (g'.heap uv).v = UVPtr.own ∧
      (g'.heap uv).tv = uvval g (g.heap uv) ∧
      g'.root = uv ∧ (g'.heap uv).nextgc = g.root ∧
      (isgray (g.heap uv) → (g.state = GCSpropagate ∨ g.state = GCSatomic) →
        Black (g'.heap uv) ∧ ¬ tviswhite g' (g'.heap uv).tv) ∧
      (isgray (g.heap uv) → ¬ (g.state = GCSpropagate ∨ g.state = GCSatomic) →
        (g'.heap uv).marked &&& LJ_GC_WHITES = curwhite g ∧
        (g'.heap uv).marked &&& LJ_GC_BLACK = 0) ∧
      (¬ isgray (g.heap uv) → (g'.heap uv).marked = (g.heap uv).marked) ∧
      (curwhite g ≠ 0 → ¬ isgray (g'.heap uv)) := by
  rw [closeuv_eq]
  generalize hg5 :
    ({ g.modObj uv (closeFields (uvval g (g.heap uv)) g.root) with root := uv } : GState) = g5
  have h5uv : g5.heap uv = closeFields (uvval g (g.heap uv)) g.root (g.heap uv) := by
    rw [← hg5]; exact modObj_heap_same _ _ _
  have h5ne : ∀ a, a ≠ uv → g5.heap a = g.heap a := by
    intro a ha; rw [← hg5]; exact modObj_heap_ne _ _ _ _ ha
  have h5st : g5.state = g.state := by rw [← hg5]; rfl
  have h5cw : curwhite g5 = curwhite g := by rw [← hg5]; rfl
  have h5root : g5.root = uv := by rw [← hg5]
  have h5m : (g5.heap uv).marked = (g.heap uv).marked := by rw [h5uv]; rfl
  clear hg5
  have h5gray : isgray (g5.heap uv) ↔ isgray (g.heap uv) := by
    unfold isgray; rw [h5m]
  have h5S : WhiteIn g5 S := by
    intro a ha
    by_cases hau : a = uv
    · subst hau; apply hS; unfold iswhite at *; rw [← h5m]; exact ha
    · rw [h5ne a hau] at ha; exact hS a ha
  simp only
  by_cases hgr : isgray (g.heap uv)
  · rw [if_pos (h5gray.mpr hgr)]
    have hgr5 := (isgray_iff _).mp (h5gray.mpr hgr)
    by_cases hst : g.state = GCSpropagate ∨ g.state = GCSatomic
    · rw [if_pos (by rw [h5st]; exact hst)]
      have hb6 : Black ((g5.modObj uv gray2black).heap uv) := by
        rw [modObj_heap_same]
        exact ⟨gray2black_black _, by rw [gray2black_white_iff]; exact hgr5.1⟩
      have h6 : (g5.modObj uv gray2black).heap uv = gray2black (g5.heap uv) :=
        modObj_heap_same _ _ _
      have h6S : WhiteIn (g5.modObj uv gray2black) S := by
        intro a ha
        by_cases hau : a = uv
        · subst hau; exact absurd ha hb6.2
        · rw [modObj_heap_ne _ _ _ _ hau] at ha; exact h5S a ha
      by_cases htw : tviswhite (g5.modObj uv gray2black) ((g5.modObj uv gray2black).heap uv).tv
      · rw [if_pos htw]
        obtain ⟨g', gm, hg', _, _, huv', hroot', hv'⟩ :=
          barrierf_marking fuel S (g5.modObj uv gray2black) uv _
            (by show (g5.modObj uv gray2black).state = _ ∨ _; exact (by rw [← h5st] at hst; exact hst))
            hb6.2 htw.2 h6S hfuel
        have e' : g'.heap uv = gray2black (g5.heap uv) := by rw [huv', h6]
        refine ⟨g', hg', ?_, ?_, ?_, ?_, ?_, ?_, fun _ h => absurd hst h,
          fun h => absurd hgr h, ?_⟩
        · rw [e', h5uv]; rfl
        · rw [e', h5uv]; rfl
        · rw [e', h5uv]; rfl
        · rw [hroot']; exact h5root
        · rw [e', h5uv]; rfl
        · intro _ _
          refine ⟨by rw [huv']; exact hb6, ?_⟩
          rw [huv']
          exact fun h => hv' h.2
        · intro _
          rw [isgray_iff, huv']
          exact fun h => h.2 hb6.1
      · rw [if_neg htw]
        refine ⟨_, rfl, ?_, ?_, ?_, h5root, ?_, fun _ _ => ⟨hb6, htw⟩,
          fun _ h => absurd hst h, fun h => absurd hgr h, ?_⟩
        · rw [h6, h5uv]; rfl
        · rw [h6, h5uv]; rfl
        · rw [h6, h5uv]; rfl
        · rw [h6, h5uv]; rfl
        · intro _
          rw [isgray_iff]
          exact fun h => h.2 hb6.1
    · rw [if_neg (by rw [h5st]; exact hst)]
      have hb := mkw_bits (g5.heap uv).marked g5.currentwhite
      have h6 : (g5.modObj uv (makewhite g5)).heap uv = makewhite g5 (g5.heap uv) :=
        modObj_heap_same _ _ _
      have hw6 : ((g5.modObj uv (makewhite g5)).heap uv).marked &&& LJ_GC_WHITES = curwhite g := by
        rw [h6, ← h5cw]; exact hb.1
      refine ⟨_, rfl, ?_, ?_, ?_, h5root, ?_, fun _ h => absurd h hst,
        fun _ _ => ⟨hw6, by rw [h6]; exact hb.2.2⟩, fun h => absurd hgr h, ?_⟩
      · rw [h6, h5uv]; rfl
      · rw [h6, h5uv]; rfl
      · rw [h6, h5uv]; rfl
      · rw [h6, h5uv]; rfl
      · intro hcw
        rw [isgray_iff]
        intro h
        apply h.1
        unfold iswhite; rw [hw6]; exact hcw
  · rw [if_neg (fun h => hgr (h5gray.mp h))]
    refine ⟨g5, rfl, ?_, ?_, ?_, h5root, ?_, fun h => absurd h hgr, fun h => absurd h hgr,
      fun _ => h5m, fun _ h => hgr (h5gray.mp h)⟩
    · rw [h5uv]; rfl
    · rw [h5uv]; rfl
    · rw [h5uv]; rfl
    · rw [h5uv]; rfl

/-- Witness for `closeuv_spec`: a gray open upvalue whose stack slot holds a
white table, closed during `Propagate`. -/
theorem closeuv_spec_witness :
    ∃ g', lj_gc_closeuv 1 exCloseuv 1 = some g' ∧ (g'.heap 1).closed = true ∧
      g'.root = 1 ∧ (g'.heap 1).nextgc = 3 := by
  have hS : WhiteIn exCloseuv {2} := by
    intro a ha
    by_cases h2 : a = 2
    · simp [h2]
    · exfalso
      by_cases h1 : a = 1
      · subst h1; revert ha; decide
      · by_cases h3 : a = 3
        · subst h3; revert ha; decide
        · simp [exCloseuv, iswhite, h1, h2, h3] at ha
  obtain ⟨g', h1, h2, _, _, h5, h6, _⟩ := closeuv_spec 1 {2} exCloseuv 1 hS (by decide)
  exact ⟨g', h1, h2, h5, h6⟩

/-! ## Finalizer call -/

theorem modObj_threshold (g : GState) (a : Nat) (f : GCobj → GCobj) :
    (g.modObj a f).threshold = g.threshold := rfl

theorem modObj_hookmask (g : GState) (a : Nat) (f : GCobj → GCobj) :
    (g.modObj a f).hookmask = g.hookmask := rfl

/-- C10: whatever the protected call returns, after `gc_call_finalizer` the
threshold is the one at entry and the hook state (what `hook_save` reads) is
the one at entry; the call itself runs with `threshold = LJ_MAX_MEM` under
`hook_entergc`; an error is thrown exactly when the call returned a non-zero
code, that code is the one thrown, and the state it is thrown from is the
restored one. -/
theorem call_finalizer_spec (vm : VM) (g : GState) (L : Nat) (mo : TValue) (o : Nat)
    (hhook : ∀ m m', vm.hook_save (vm.hook_restore m' (vm.hook_save m)) = vm.hook_save m) :
    (finalizerEntry vm g L mo o).1.threshold = vm.LJ_MAX_MEM ∧
    (finalizerEntry vm g L mo o).1.hookmask = vm.hook_entergc (vm.lj_trace_abort g).hookmask ∧
    (gc_call_finalizer vm g L mo o).1 =
      { (vm.lj_vm_pcall (finalizerEntry vm g L mo o).1 L (finalizerEntry vm g L mo o).2).1 with
        hookmask := vm.hook_restore
          (vm.lj_vm_pcall (finalizerEntry vm g L mo o).1 L (finalizerEntry vm g L mo o).2).1.hookmask
          (vm.hook_save g.hookmask)
        threshold := g.threshold } ∧
    (gc_call_finalizer vm g L mo o).1.threshold = g.threshold ∧
    vm.hook_save (gc_call_finalizer vm g L mo o).1.hookmask = vm.hook_save g.hookmask ∧
    (∀ e, (gc_call_finalizer vm g L mo o).2 = some e ↔
      ((vm.lj_vm_pcall (finalizerEntry vm g L mo o).1 L (finalizerEntry vm g L mo o).2).2 = e
        ∧ e ≠ 0)) ∧
    ((gc_call_finalizer vm g L mo o).2 = none ↔
      (vm.lj_vm_pcall (finalizerEntry vm g L mo o).1 L (finalizerEntry vm g L mo o).2).2 = 0) := by
  have hfin : (gc_call_finalizer vm g L mo o).1 =
      { (vm.lj_vm_pcall (finalizerEntry vm g L mo o).1 L (finalizerEntry vm g L mo o).2).1 with
        hookmask := vm.hook_restore
          (vm.lj_vm_pcall (finalizerEntry vm g L mo o).1 L (finalizerEntry vm g L mo o).2).1.hookmask
          (vm.hook_save g.hookmask)
        threshold := g.threshold } := rfl
  have hthrow : (gc_call_finalizer vm g L mo o).2 =
      if (vm.lj_vm_pcall (finalizerEntry vm g L mo o).1 L (finalizerEntry vm g L mo o).2).2 ≠ 0
      then some (vm.lj_vm_pcall (finalizerEntry vm g L mo o).1 L (finalizerEntry vm g L mo o).2).2
      else none := rfl
  refine ⟨?_, ?_, hfin, ?_, ?_, ?_, ?_⟩
  · unfold finalizerEntry
    simp only [modObj_threshold]
    split <;> rfl
  · unfold finalizerEntry
    simp only [modObj_hookmask]
    split <;> rfl
  · rw [hfin]
  · rw [hfin]; exact hhook _ _
  · intro e
    rw [hthrow]
    by_cases h0 : (vm.lj_vm_pcall (finalizerEntry vm g L mo o).1 L
        (finalizerEntry vm g L mo o).2).2 = 0
    · rw [if_neg (not_not.mpr h0)]
      constructor
      · intro h; cases h
      · rintro ⟨h1, h2⟩; exact absurd (h1 ▸ h0) h2
    · rw [if_pos h0]
      constructor
      · intro h; injection h with h; exact ⟨h, h ▸ h0⟩
      · rintro ⟨h1, _⟩; rw [h1]
  · rw [hthrow]
    by_cases h0 : (vm.lj_vm_pcall (finalizerEntry vm g L mo o).1 L
        (finalizerEntry vm g L mo o).2).2 = 0
    · rw [if_neg (not_not.mpr h0)]; exact ⟨fun _ => h0, fun _ => rfl⟩
    · rw [if_pos h0]; exact ⟨fun h => (by cases h), fun h => absurd h h0⟩

theorem exVM_hook (m m' : Nat) :
    exVM.hook_save (exVM.hook_restore m' (exVM.hook_save m)) = exVM.hook_save m := by
  show ((m' &&& 15) ||| (m &&& 240)) &&& 240 = m &&& 240
  rw [Nat.and_comm _ 240, Nat.and_or_distrib_left, Nat.and_comm 240 (m' &&& 15),
    Nat.and_comm 240 (m &&& 240), Nat.and_assoc, Nat.and_assoc]
  have e : (15 &&& 240 : Nat) = 0 := by decide
  rw [e]; simp

/-- Witness for `call_finalizer_spec`: a finalizer that fails with code 2
after overwriting `threshold` and `hookmask`. -/
theorem call_finalizer_spec_witness :
    (gc_call_finalizer exVM { threshold := 1000, hookmask := 0x13 } 1 TValue.nil 2).1.threshold
      = 1000 ∧
    (gc_call_finalizer exVM { threshold := 1000, hookmask := 0x13 } 1 TValue.nil 2).2 = some 2 :=
  ⟨(call_finalizer_spec exVM { threshold := 1000, hookmask := 0x13 } 1 TValue.nil 2
      exVM_hook).2.2.2.1,
   ((call_finalizer_spec exVM { threshold := 1000, hookmask := 0x13 } 1 TValue.nil 2
      exVM_hook).2.2.2.2.2.1 2).mpr ⟨rfl, by decide⟩⟩

/-! ## Sweep -/

theorem Chain.congr {g g' : GState} : ∀ {xs : List Nat} {h : Nat},
    (∀ x ∈ xs, (g'.heap x).nextgc = (g.heap x).nextgc) → Chain g h xs → Chain g' h xs
  | [], _, _, hc => hc
  | x :: xs, h, hn, hc => by
    obtain ⟨h1, h2, h3⟩ := hc
    refine ⟨h1, h2, ?_⟩
    rw [hn x (List.mem_cons_self _ _)]
    exact Chain.congr (fun y hy => hn y (List.mem_cons_of_mem _ hy)) h3

theorem Chain.zero_not_mem {g : GState} : ∀ {xs : List Nat} {h : Nat},
    Chain g h xs → 0 ∉ xs
  | [], _, _ => by simp
  | x :: xs, h, hc => by
    obtain ⟨_, h2, h3⟩ := hc
    intro hm
    rcases List.mem_cons.mp hm with e | e
    · exact h2 e.symm
    · exact Chain.zero_not_mem h3 e

theorem Loc.get_set (g : GState) (p : Loc) (r : Nat) : p.get (p.set g r) = r := by
  cases p <;> simp [Loc.get, Loc.set]

theorem Loc.set_heap_ne (g : GState) (p : Loc) (r a : Nat) (h : ∀ q, p.owner = some q → a ≠ q) :
    (p.set g r).heap a = g.heap a := by
  cases p with
  | root => rfl
  | strhash i => rfl
  | nextgc o => unfold Loc.set; exact modObj_heap_ne _ _ _ _ (h o rfl)
  | openupval o => unfold Loc.set; exact modObj_heap_ne _ _ _ _ (h o rfl)

theorem Loc.set_nextgc (g : GState) (p : Loc) (r a : Nat)
    (h : ∀ q, p = Loc.nextgc q → a ≠ q) :
    ((p.set g r).heap a).nextgc = (g.heap a).nextgc := by
  cases p with
  | root => rfl
  | strhash i => rfl
  | nextgc o => rw [Loc.set, modObj_heap_ne _ _ _ _ (h o rfl)]
  | openupval o =>
    rw [Loc.set, modObj_heap]
    split
    · next e => subst e; rfl
    · rfl

theorem Loc.set_marked (g : GState) (p : Loc) (r a : Nat) :
    ((p.set g r).heap a).marked = (g.heap a).marked ∧
    ((p.set g r).heap a).gct = (g.heap a).gct := by
  cases p with
  | root => exact ⟨rfl, rfl⟩
  | strhash i => exact ⟨rfl, rfl⟩
  | nextgc o =>
    rw [Loc.set, modObj_heap]
    split
    · next e => subst e; exact ⟨rfl, rfl⟩
    · exact ⟨rfl, rfl⟩
  | openupval o =>
    rw [Loc.set, modObj_heap]
    split
    · next e => subst e; exact ⟨rfl, rfl⟩
    · exact ⟨rfl, rfl⟩

theorem Loc.put_get_self (g : GState) (p : Loc) (q : Nat) (h : p.owner = some q) :
    p.put (g.heap q) (p.get g) = g.heap q := by
  cases p with
  | root => cases h
  | strhash i => cases h
  | nextgc o => injection h with h; subst h; rfl
  | openupval o => injection h with h; subst h; rfl

theorem Loc.set_owner (g : GState) (p : Loc) (q r : Nat) (h : p.owner = some q) :
    (p.set g r).heap q = p.put (g.heap q) r := by
  cases p with
  | root => cases h
  | strhash i => cases h
  | nextgc o => injection h with h; subst h; unfold Loc.set; exact modObj_heap_same _ _ _
  | openupval o => injection h with h; subst h; unfold Loc.set; exact modObj_heap_same _ _ _

theorem Loc.put_put (p : Loc) (o : GCobj) (r r' : Nat) : p.put (p.put o r) r' = p.put o r' := by
  cases p <;> rfl

theorem sweepKeeps_congr {g g' : GState} {ow x : Nat}
    (h : (g'.heap x).marked = (g.heap x).marked) : sweepKeeps g' ow x ↔ sweepKeeps g ow x := by
  unfold sweepKeeps; rw [h]

theorem Loc.set_fields (g : GState) (p : Loc) (r : Nat) :
    (p.set g r).currentwhite = g.currentwhite ∧ (p.set g r).freed = g.freed ∧
    (p ≠ Loc.root → (p.set g r).root = g.root) ∧
    ((∀ i, p ≠ Loc.strhash i) → (p.set g r).strhash = g.strhash) := by
  cases p with
  | root => exact ⟨rfl, rfl, fun h => absurd rfl h, fun _ => rfl⟩
  | strhash i => exact ⟨rfl, rfl, fun _ => rfl, fun h => absurd rfl (h i)⟩
  | nextgc o => exact ⟨rfl, rfl, fun _ => rfl, fun _ => rfl⟩
  | openupval o => exact ⟨rfl, rfl, fun _ => rfl, fun _ => rfl⟩

/-- The state after the `else` branch of the sweep loop: unlink, adjust the
root anchor, free. -/
theorem sweepFree_facts (g : GState) (p : Loc) (x r : Nat) :
    (gc_free (if x = (p.set g r).root then
        { p.set g r with root := ((p.set g r).heap x).nextgc } else p.set g r) x).heap
      = (p.set g r).heap ∧
    (gc_free (if x = (p.set g r).root then
        { p.set g r with root := ((p.set g r).heap x).nextgc } else p.set g r) x).strhash
      = (p.set g r).strhash ∧
    (gc_free (if x = (p.set g r).root then
        { p.set g r with root := ((p.set g r).heap x).nextgc } else p.set g r) x).currentwhite
      = g.currentwhite ∧
    (gc_free (if x = (p.set g r).root then
        { p.set g r with root := ((p.set g r).heap x).nextgc } else p.set g r) x).freed
      = x :: g.freed ∧
    (x ≠ (p.set g r).root →
      (gc_free (if x = (p.set g r).root then
        { p.set g r with root := ((p.set g r).heap x).nextgc } else p.set g r) x).root
      = (p.set g r).root) := by
  have hf := Loc.set_fields g p r
  by_cases h : x = (p.set g r).root
  · rw [if_pos h]
    exact ⟨rfl, rfl, hf.1, by show x :: (p.set g r).freed = _; rw [hf.2.1], fun h' => absurd h h'⟩
  · rw [if_neg h]
    exact ⟨rfl, rfl, hf.1, by show x :: (p.set g r).freed = _; rw [hf.2.1], fun _ => rfl⟩

theorem Chain.head_ne {g : GState} {xs : List Nat} {h x : Nat} (hc : Chain g h xs)
    (hx0 : x ≠ 0) (hx : x ∉ xs) : h ≠ x := by
  cases xs with
  | nil => intro e; exact hx0 (e.symm.trans hc)
  | cons y ys => intro e; exact hx (by rw [← e, hc.1]; exact List.mem_cons_self _ _)

theorem makewhite_congr {g g' : GState} (h : g'.currentwhite = g.currentwhite) (o : GCobj) :
    makewhite g' o = makewhite g o := by
  unfold makewhite curwhite; rw [h]

/-- The sweep loop over a list without threads: it returns, and leaves the
state described by `SweepPost`. -/
theorem sweepLoop_flat (inner : GState → Nat → Option GState) (ow : Nat) :
    ∀ (lim : Nat) (xs : List Nat) (g : GState) (p : Loc),
    Chain g (p.get g) xs → xs.Nodup → (∀ q, p.owner = some q → q ∉ xs) →
    (∀ x ∈ xs, (g.heap x).gct ≠ GCT.thread) →
    ∃ g' p', sweepLoop inner ow lim g p = some (g', p') ∧ SweepPost g ow p xs lim g' p' := by
  intro lim
  induction lim with
  | zero =>
    intro xs g p hc _ _ _
    refine ⟨g, p, rfl, ?_⟩
    exact
      { chain := by simpa using hc
        cursor := by simpa using hc
        frame := fun _ _ _ => rfl
        owner := fun q hq => (Loc.put_get_self g p q hq).symm
        kept := fun x hx => by simp at hx
        dead := fun x hx => by simp at hx
        freed := by simp
        white := rfl
        root := fun _ _ => rfl
        strhash := fun _ => rfl }
  | succ lim ih =>
    intro xs g p hc hnd hown hth
    cases xs with
    | nil =>
      have h0 : p.get g = 0 := hc
      refine ⟨g, p, by simp [sweepLoop, h0], ?_⟩
      exact
        { chain := by simpa using hc
          cursor := by simpa using hc
          frame := fun _ _ _ => rfl
          owner := fun q hq => (Loc.put_get_self g p q hq).symm
          kept := fun x hx => by simp at hx
          dead := fun x hx => by simp at hx
          freed := by simp
          white := rfl
          root := fun _ _ => rfl
          strhash := fun _ => rfl }
    | cons x rest =>
      obtain ⟨hx, hx0, hrest⟩ := hc
      have hxr : x ∉ rest := (List.nodup_cons.mp hnd).1
      have hndr : rest.Nodup := (List.nodup_cons.mp hnd).2
      have hthx : (g.heap x).gct ≠ GCT.thread := hth x (List.mem_cons_self _ _)
      have hpx : ∀ q, p.owner = some q → x ≠ q := fun q hq e =>
        hown q hq (e ▸ List.mem_cons_self _ _)
      by_cases hk : sweepKeeps g ow x
      · -- the object is kept
        have hc1 : Chain (g.modObj x (makewhite g))
            ((Loc.nextgc x).get (g.modObj x (makewhite g))) rest := by
          have e : (Loc.nextgc x).get (g.modObj x (makewhite g)) = (g.heap x).nextgc := by
            simp [Loc.get, makewhite]
          rw [e]
          refine Chain.congr (fun y hy => ?_) hrest
          rw [modObj_heap_ne _ _ _ _ (ne_of_mem_of_not_mem hy hxr)]
        obtain ⟨g', p', hrun, post⟩ := ih rest (g.modObj x (makewhite g)) (Loc.nextgc x) hc1 hndr
          (fun q hq => by injection hq with hq; subst hq; exact hxr)
          (fun y hy => by
            rw [modObj_heap_ne _ _ _ _ (ne_of_mem_of_not_mem hy hxr)]
            exact hth y (List.mem_cons_of_mem _ hy))
        refine ⟨g', p', ?_, ?_⟩
        · rw [sweepLoop]
          simp only [hx, hx0, if_false, if_neg hthx, Option.some_bind]
          have hk' : ((g.heap x).marked ^^^ LJ_GC_WHITES) &&& ow ≠ 0 := hk
          rw [if_pos hk']; exact hrun
        · have h1ne : ∀ a, a ≠ x → (g.modObj x (makewhite g)).heap a = g.heap a :=
            fun a ha => modObj_heap_ne _ _ _ _ ha
          have hmt : ∀ y, y ∈ rest.take lim → y ≠ x := fun y hy =>
            ne_of_mem_of_not_mem (List.mem_of_mem_take hy) hxr
          have hkc : ∀ y ∈ rest.take lim,
              (sweepKeeps (g.modObj x (makewhite g)) ow y ↔ sweepKeeps g ow y) := fun y hy =>
            sweepKeeps_congr (by rw [h1ne y (hmt y hy)])
          have hfk : (rest.take lim).filter (fun y => decide (sweepKeeps (g.modObj x (makewhite g)) ow y))
              = (rest.take lim).filter (fun y => decide (sweepKeeps g ow y)) :=
            List.filter_congr (fun y hy => by simp only [hkc y hy])
          have hfd : (rest.take lim).filter
                (fun y => decide (¬ sweepKeeps (g.modObj x (makewhite g)) ow y))
              = (rest.take lim).filter (fun y => decide (¬ sweepKeeps g ow y)) :=
            List.filter_congr (fun y hy => by simp only [hkc y hy])
          have hqq : ∀ q, p.owner = some q → g'.heap q = g.heap q := by
            intro q hq
            have hqx : q ≠ x := fun e => hpx q hq e.symm
            rw [post.frame q (fun hm => hown q hq (List.mem_cons_of_mem _ (List.mem_of_mem_take hm)))
              (fun q' hq' => by injection hq' with hq'; subst hq'; exact hqx)]
            exact h1ne q hqx
          have hget : p.get g' = p.get g := by
            cases p with
            | root =>
              have := post.root (by simp) (by
                show g.root ∉ rest.take lim
                have e : g.root = x := hx
                rw [e]; exact fun hm => hxr (List.mem_of_mem_take hm))
              exact this
            | strhash i => exact congrFun (post.strhash (by simp)) i
            | nextgc q => show (g'.heap q).nextgc = (g.heap q).nextgc; rw [hqq q rfl]
            | openupval q => show (g'.heap q).openupval = (g.heap q).openupval; rw [hqq q rfl]
          exact
            { chain := by
                rw [List.take_succ_cons, List.filter_cons_of_pos (by simpa using hk),
                  List.drop_succ_cons, List.cons_append]
                refine ⟨hget.trans hx, hx0, ?_⟩
                rw [← hfk]; exact post.chain
              cursor := by rw [List.drop_succ_cons]; exact post.cursor
              frame := by
                intro a ha hao
                rw [List.take_succ_cons] at ha
                have hax : a ≠ x := fun e => ha (e ▸ List.mem_cons_self _ _)
                rw [post.frame a (fun hm => ha (List.mem_cons_of_mem _ hm))
                  (fun q' hq' => by injection hq' with hq'; subst hq'; exact hax)]
                exact h1ne a hax
              owner := by
                intro q hq
                rw [hqq q hq, hget]; exact (Loc.put_get_self g p q hq).symm
              kept := by
                intro y hy hky
                rw [List.take_succ_cons] at hy
                rcases List.mem_cons.mp hy with e | hy
                · subst e
                  have := post.owner y rfl
                  rw [modObj_heap_same] at this
                  exact this
                · have := post.kept y hy ((hkc y hy).mpr hky)
                  rw [h1ne y (hmt y hy)] at this
                  exact this
              dead := by
                intro y hy hky
                rw [List.take_succ_cons] at hy
                rcases List.mem_cons.mp hy with e | hy
                · subst e; exact absurd hk hky
                · rw [post.dead y hy (fun h => hky ((hkc y hy).mp h))]
                  exact h1ne y (hmt y hy)
              freed := by
                rw [List.take_succ_cons, List.filter_cons_of_neg (by simpa using hk), ← hfd]
                exact post.freed
              white := post.white
              root := by
                intro hp hr
                rw [List.take_succ_cons] at hr
                exact post.root (by simp) (fun hm => hr (List.mem_cons_of_mem _ hm))
              strhash := fun _ => post.strhash (by simp) }
      · -- the object is freed
        have hk' : ¬ ((g.heap x).marked ^^^ LJ_GC_WHITES) &&& ow ≠ 0 := hk
        have hnx : (g.heap x).nextgc ≠ x := Chain.head_ne hrest hx0 hxr
        have h1x : (p.set g (g.heap x).nextgc).heap x = g.heap x :=
          Loc.set_heap_ne g p _ x hpx
        have hfacts := sweepFree_facts g p x ((p.set g (g.heap x).nextgc).heap x).nextgc
        rw [h1x] at hfacts
        generalize hg3 : gc_free (if x = (p.set g (g.heap x).nextgc).root then
            { p.set g (g.heap x).nextgc with
              root := ((p.set g (g.heap x).nextgc).heap x).nextgc }
            else p.set g (g.heap x).nextgc) x = g3 at hfacts
        obtain ⟨f1, f2, f3, f4, f5⟩ := hfacts
        have h3ne : ∀ a, (∀ q, p.owner = some q → a ≠ q) → g3.heap a = g.heap a := by
          intro a ha; rw [f1]; exact Loc.set_heap_ne g p _ a ha
        have h3own : ∀ q, p.owner = some q → g3.heap q = p.put (g.heap q) (g.heap x).nextgc := by
          intro q hq; rw [f1]; exact Loc.set_owner g p q _ hq
        have hrno : ∀ y ∈ rest, ∀ q, p.owner = some q → y ≠ q := fun y hy q hq e =>
          hown q hq (e ▸ List.mem_cons_of_mem _ hy)
        have hget3 : p.get g3 = (g.heap x).nextgc := by
          have e1 := Loc.get_set g p (g.heap x).nextgc
          cases p with
          | root =>
            have : x ≠ (Loc.set g Loc.root (g.heap x).nextgc).root := fun e => hnx e.symm
            show g3.root = _
            rw [f5 this]; rfl
          | strhash i => show g3.strhash i = _; rw [f2]; exact e1
          | nextgc q => show (g3.heap q).nextgc = _; rw [f1]; exact e1
          | openupval q => show (g3.heap q).openupval = _; rw [f1]; exact e1
        have hc3 : Chain g3 (p.get g3) rest := by
          rw [hget3]
          exact Chain.congr (fun y hy => by rw [h3ne y (hrno y hy)]) hrest
        obtain ⟨g', p', hrun, post⟩ := ih rest g3 p hc3 hndr
          (fun q hq hm => hown q hq (List.mem_cons_of_mem _ hm))
          (fun y hy => by rw [h3ne y (hrno y hy)]; exact hth y (List.mem_cons_of_mem _ hy))
        refine ⟨g', p', ?_, ?_⟩
        · rw [sweepLoop]
          simp only [hx, hx0, if_false, if_neg hthx, Option.some_bind]
          rw [if_neg hk', hg3]; exact hrun
        · have hmt : ∀ y, y ∈ rest.take lim → y ∈ rest := fun y hy => List.mem_of_mem_take hy
          have hkc : ∀ y ∈ rest.take lim, (sweepKeeps g3 ow y ↔ sweepKeeps g ow y) := fun y hy =>
            sweepKeeps_congr (by rw [h3ne y (hrno y (hmt y hy))])
          have hfk : (rest.take lim).filter (fun y => decide (sweepKeeps g3 ow y))
              = (rest.take lim).filter (fun y => decide (sweepKeeps g ow y)) :=
            List.filter_congr (fun y hy => by simp only [hkc y hy])
          have hfd : (rest.take lim).filter (fun y => decide (¬ sweepKeeps g3 ow y))
              = (rest.take lim).filter (fun y => decide (¬ sweepKeeps g ow y)) :=
            List.filter_congr (fun y hy => by simp only [hkc y hy])
          exact
            { chain := by
                rw [List.take_succ_cons, List.filter_cons_of_neg (by simpa using hk),
                  List.drop_succ_cons, ← hfk]
                exact post.chain
              cursor := by rw [List.drop_succ_cons]; exact post.cursor
              frame := by
                intro a ha hao
                rw [List.take_succ_cons] at ha
                rw [post.frame a (fun hm => ha (List.mem_cons_of_mem _ hm)) hao]
                exact h3ne a hao
              owner := by
                intro q hq
                rw [post.owner q hq, h3own q hq, Loc.put_put]
              kept := by
                intro y hy hky
                rw [List.take_succ_cons] at hy
                rcases List.mem_cons.mp hy with e | hy
                · subst e; exact absurd hky hk
                · have := post.kept y hy ((hkc y hy).mpr hky)
                  rw [h3ne y (hrno y (hmt y hy)), makewhite_congr f3] at this
                  exact this
              dead := by
                intro y hy hky
                rw [List.take_succ_cons] at hy
                rcases List.mem_cons.mp hy with e | hy
                · subst e
                  rw [post.frame y (fun hm => hxr (hmt y hm)) hpx]
                  exact h3ne y hpx
                · rw [post.dead y hy (fun h => hky ((hkc y hy).mp h))]
                  exact h3ne y (hrno y (hmt y hy))
              freed := by
                rw [List.take_succ_cons, List.filter_cons_of_pos (by simpa using hk), ← hfd,
                  post.freed, f4, List.reverse_cons, List.append_assoc]
                rfl
              white := post.white.trans f3
              root := by
                intro hp hr
                rw [List.take_succ_cons] at hr
                have e1 : (p.set g (g.heap x).nextgc).root = g.root :=
                  (Loc.set_fields g p _).2.2.1 hp
                have hxroot : x ≠ (p.set g (g.heap x).nextgc).root := by
                  rw [e1]; exact fun e => hr (e ▸ List.mem_cons_self _ _)
                have e3 : g3.root = g.root := (f5 hxroot).trans e1
                rw [post.root hp (by rw [e3]; exact fun hm => hr (List.mem_cons_of_mem _ hm))]
                exact e3
              strhash := by
                intro hp
                rw [post.strhash hp, f2]
                exact (Loc.set_fields g p _).2.2.2 hp }

theorem SweepEff.srefl (g : GState) (ow : Nat) (Q : List Nat) : SweepEff g g ow [] Q :=
  { shape := fun _ => rfl
    frame := fun _ _ _ => rfl
    kept := fun v hv => by simp at hv
    same := fun _ _ => rfl
    freed := by simp
    white := rfl }

theorem makewhite_marked_congr {g g' : GState} {o o' : GCobj}
    (hw : g'.currentwhite = g.currentwhite) (hm : o'.marked = o.marked) :
    (makewhite g' o').marked = (makewhite g o).marked := by
  unfold makewhite curwhite; simp only [hw, hm]

theorem SweepEff.strans {g g1 g2 : GState} {ow : Nat} {V1 V2 Q1 Q2 : List Nat}
    (h1 : SweepEff g g1 ow V1 Q1) (h2 : SweepEff g1 g2 ow V2 Q2)
    (hd : ∀ v ∈ V2, v ∉ V1) : SweepEff g g2 ow (V1 ++ V2) (Q1 ++ Q2) := by
  have hkc : ∀ v, v ∉ V1 → (sweepKeeps g1 ow v ↔ sweepKeeps g ow v) := fun v hv =>
    sweepKeeps_congr (h1.same v (Or.inl hv))
  refine
    { shape := fun a => (h2.shape a).trans (h1.shape a)
      frame := ?_, kept := ?_, same := ?_, freed := ?_
      white := h2.white.trans h1.white }
  · intro a hV hQ
    rw [List.mem_append, not_or] at hV hQ
    rw [h2.frame a hV.2 hQ.2, h1.frame a hV.1 hQ.1]
  · intro v hv hk
    rcases List.mem_append.mp hv with hv1 | hv2
    · have hv2 : v ∉ V2 := fun h => hd v h hv1
      rw [h2.same v (Or.inl hv2)]
      exact h1.kept v hv1 hk
    · have hv1 : v ∉ V1 := hd v hv2
      rw [h2.kept v hv2 ((hkc v hv1).mpr hk)]
      exact makewhite_marked_congr h1.white (h1.same v (Or.inl hv1))
  · intro v hv
    have e1 : (g1.heap v).marked = (g.heap v).marked := by
      rcases hv with hv | hv
      · exact h1.same v (Or.inl (fun h => hv (List.mem_append_left _ h)))
      · exact h1.same v (Or.inr hv)
    have e2 : (g2.heap v).marked = (g1.heap v).marked := by
      rcases hv with hv | hv
      · exact h2.same v (Or.inl (fun h => hv (List.mem_append_right _ h)))
      · exact h2.same v (Or.inr (fun h => hv ((sweepKeeps_congr e1).mp h)))
    rw [e2, e1]
  · have hf : V2.filter (fun x => decide (¬ sweepKeeps g1 ow x))
        = V2.filter (fun x => decide (¬ sweepKeeps g ow x)) :=
      List.filter_congr (fun v hv => by simp only [hkc v (hd v hv)])
    rw [h2.freed, h1.freed, hf, List.filter_append, List.reverse_append, List.append_assoc]

theorem SweepEff.mono {g g' : GState} {ow : Nat} {V Q Q' : List Nat}
    (h : SweepEff g g' ow V Q) (hq : ∀ a, a ∈ Q → a ∈ V ∨ a ∈ Q') : SweepEff g g' ow V Q' :=
  { shape := h.shape
    frame := fun a hV hQ => h.frame a hV (fun hm => (hq a hm).elim hV hQ)
    kept := h.kept
    same := h.same
    freed := h.freed
    white := h.white }

theorem shapeL_put (p : Loc) (o : GCobj) (r : Nat) : shapeL (p.put o r) = shapeL o := by
  cases p <;> rfl

theorem marked_put (p : Loc) (o : GCobj) (r : Nat) : (p.put o r).marked = o.marked := by
  cases p <;> rfl

theorem SweepPost.eff {g g' : GState} {ow : Nat} {p p' : Loc} {xs : List Nat} {lim : Nat}
    (h : SweepPost g ow p xs lim g' p') : SweepEff g g' ow (xs.take lim) p.owner.toList := by
  have hown : ∀ a, a ∉ p.owner.toList → ∀ q, p.owner = some q → a ≠ q := by
    intro a ha q hq e
    apply ha; rw [hq, e]; simp
  have hsame : ∀ a, a ∉ xs.take lim → (g'.heap a).marked = (g.heap a).marked ∧
      shapeL (g'.heap a) = shapeL (g.heap a) := by
    intro a ha
    by_cases hq : a ∈ p.owner.toList
    · have hq' : p.owner = some a := by
        cases hp : p.owner with
        | none => rw [hp] at hq; simp at hq
        | some q => rw [hp] at hq; simp at hq; rw [hq]
      rw [h.owner a hq']
      exact ⟨marked_put _ _ _, shapeL_put _ _ _⟩
    · rw [h.frame a ha (hown a hq)]; exact ⟨rfl, rfl⟩
  refine
    { shape := ?_, frame := fun a hV hQ => h.frame a hV (hown a hQ), kept := ?_, same := ?_
      freed := h.freed, white := h.white }
  · intro a
    by_cases ha : a ∈ xs.take lim
    · by_cases hk : sweepKeeps g ow a
      · rw [h.kept a ha hk]; rfl
      · rw [h.dead a ha hk]
    · exact (hsame a ha).2
  · intro v hv hk
    rw [h.kept v hv hk]
  · intro v hv
    by_cases ha : v ∈ xs.take lim
    · rcases hv with hv | hv
      · exact absurd ha hv
      · rw [h.dead v ha hv]
    · exact (hsame v ha).1

theorem mem_footprint_self (U : Nat → List Nat) : ∀ {xs : List Nat} {x : Nat},
    x ∈ xs → x ∈ footprint U xs
  | y :: ys, x, h => by
    rcases List.mem_cons.mp h with e | h
    · subst e; simp [footprint]
    · have := mem_footprint_self U h
      simp [footprint, this]

theorem mem_footprint_up (U : Nat → List Nat) : ∀ {xs : List Nat} {x u : Nat},
    x ∈ xs → u ∈ U x → u ∈ footprint U xs
  | y :: ys, x, u, h, hu => by
    rcases List.mem_cons.mp h with e | h
    · subst e; simp [footprint, hu]
    · have := mem_footprint_up U h hu
      simp [footprint, this]

theorem visited_sub_footprint (U : Nat → List Nat) : ∀ {xs : List Nat} {lim : Nat} {a : Nat},
    a ∈ visited U (xs.take lim) → a ∈ footprint U xs
  | [], lim, a, h => by simp [visited] at h
  | y :: ys, 0, a, h => by simp [visited] at h
  | y :: ys, lim + 1, a, h => by
    rw [List.take_succ_cons] at h
    simp only [visited, List.mem_append, List.mem_cons] at h
    simp only [footprint, List.mem_append, List.mem_cons]
    rcases h with h | h | h
    · exact Or.inl (List.mem_of_mem_take h)
    · exact Or.inr (Or.inl h)
    · exact Or.inr (Or.inr (visited_sub_footprint U h))

theorem mem_visited_self (U : Nat → List Nat) : ∀ {xs : List Nat} {x : Nat},
    x ∈ xs → x ∈ visited U xs
  | y :: ys, x, h => by
    rcases List.mem_cons.mp h with e | h
    · subst e; simp [visited]
    · have := mem_visited_self U h
      simp [visited, this]

theorem gc_sweep_zero (g : GState) (p : Loc) (lim : Nat) :
    gc_sweep 0 g p lim = sweepLoop (fun _ _ => none) (otherwhite g) lim g p := by
  rw [gc_sweep]

/-- The sweep of a thread's open upvalues inside the sweep loop. -/
theorem inner_step (d : Nat) (ow : Nat) (U : Nat → List Nat) (g : GState) (x : Nat)
    (how : ow = otherwhite g)
    (hch : (g.heap x).gct = GCT.thread → Chain g (g.heap x).openupval (U x))
    (hnt : (g.heap x).gct ≠ GCT.thread → U x = [])
    (hU : ∀ u ∈ U x, (g.heap u).gct ≠ GCT.thread)
    (hnd : (U x).Nodup) (hx : x ∉ U x) :
    ∃ g_in, (if (g.heap x).gct = GCT.thread then
        (gc_sweep d g (Loc.openupval x) (2 ^ 32 - 1)).map Prod.fst else some g) = some g_in ∧
      SweepEff g g_in ow ((U x).take fullLim) [x] ∧
      ((g.heap x).gct = GCT.thread → Chain g_in (g_in.heap x).openupval
        (((U x).take fullLim).filter (fun y => decide (sweepKeeps g ow y))
          ++ (U x).drop fullLim)) ∧
      g_in.heap x = (Loc.openupval x).put (g.heap x) (g_in.heap x).openupval ∧
      (g.root ∉ (U x).take fullLim → g_in.root = g.root) ∧ g_in.strhash = g.strhash := by
  by_cases ht : (g.heap x).gct = GCT.thread
  · rw [if_pos ht]
    obtain ⟨g_in, p_in, hrun, post⟩ : ∃ g_in p_in,
        gc_sweep d g (Loc.openupval x) (2 ^ 32 - 1) = some (g_in, p_in) ∧
        SweepPost g ow (Loc.openupval x) (U x) (2 ^ 32 - 1) g_in p_in := by
      cases d with
      | zero =>
        rw [gc_sweep, ← how]
        exact sweepLoop_flat _ ow (2 ^ 32 - 1) (U x) g (Loc.openupval x) (hch ht) hnd
          (fun q hq => by injection hq with hq; subst hq; exact hx) hU
      | succ d =>
        rw [gc_sweep, ← how]
        exact sweepLoop_flat _ ow (2 ^ 32 - 1) (U x) g (Loc.openupval x) (hch ht) hnd
          (fun q hq => by injection hq with hq; subst hq; exact hx) hU
    refine ⟨g_in, by rw [hrun]; rfl, post.eff, fun _ => post.chain, post.owner x rfl,
      fun hr => post.root (by simp) hr, post.strhash (by simp)⟩
  · rw [if_neg ht]
    have hU0 : U x = [] := hnt ht
    refine ⟨g, rfl, ?_, fun h => absurd h ht, rfl, fun _ => rfl, rfl⟩
    rw [hU0]
    exact SweepEff.srefl g ow [x]

theorem shapeL_makewhite (g : GState) (o : GCobj) : shapeL (makewhite g o) = shapeL o := rfl

/-- Effect of the `makewhite` branch of the sweep loop. -/
theorem keepStep_eff (g : GState) (ow x : Nat) (hk : sweepKeeps g ow x) :
    SweepEff g (g.modObj x (makewhite g)) ow [x] [] :=
  { shape := fun a => by
      rw [modObj_heap]; split
      · next e => subst e; rfl
      · rfl
    frame := fun a hV _ => modObj_heap_ne _ _ _ _ (fun e => hV (by simp [e]))
    kept := fun v hv _ => by
      have e : v = x := by simpa using hv
      subst e; rw [modObj_heap_same]
    same := fun v hv => by
      rcases hv with hv | hv
      · rw [modObj_heap_ne _ _ _ _ (fun e => hv (by simp [e]))]
      · by_cases e : v = x
        · subst e; exact absurd hk hv
        · rw [modObj_heap_ne _ _ _ _ e]
    freed := by
      rw [List.filter_cons_of_neg (by simpa using hk)]; rfl
    white := rfl }

/-- Effect of the freeing branch of the sweep loop. -/
theorem freeStep_eff (g g3 : GState) (ow x r : Nat) (p : Loc) (hk : ¬ sweepKeeps g ow x)
    (f1 : g3.heap = (p.set g r).heap) (f3 : g3.currentwhite = g.currentwhite)
    (f4 : g3.freed = x :: g.freed) :
    SweepEff g g3 ow [x] p.owner.toList := by
  have hm : ∀ a, (g3.heap a).marked = (g.heap a).marked := fun a => by
    rw [f1]; exact (Loc.set_marked g p r a).1
  refine
    { shape := ?_, frame := ?_, kept := fun v hv hkv => ?_, same := fun v _ => hm v
      freed := ?_, white := f3 }
  · intro a
    rw [f1]
    cases p with
    | root => rfl
    | strhash i => rfl
    | nextgc o =>
      unfold Loc.set; rw [modObj_heap]; split
      · next e => subst e; rfl
      · rfl
    | openupval o =>
      unfold Loc.set; rw [modObj_heap]; split
      · next e => subst e; rfl
      · rfl
  · intro a _ hQ
    rw [f1]
    exact Loc.set_heap_ne g p r a (fun q hq e => hQ (by rw [hq, e]; simp))
  · have e : v = x := by simpa using hv
    subst e; exact absurd hkv hk
  · rw [f4, List.filter_cons_of_pos (by simpa using hk)]; rfl

theorem Loc.get_congr (g g' : GState) (p : Loc)
    (hq : ∀ q, p.owner = some q → g'.heap q = g.heap q)
    (hr : p = Loc.root → g'.root = g.root)
    (hs : (∀ i, p ≠ Loc.strhash i) ∨ g'.strhash = g.strhash) :
    p.get g' = p.get g := by
  cases p with
  | root => exact hr rfl
  | strhash i =>
    rcases hs with hs | hs
    · exact absurd rfl (hs i)
    · exact congrFun hs i
  | nextgc q => show (g'.heap q).nextgc = (g.heap q).nextgc; rw [hq q rfl]
  | openupval q => show (g'.heap q).openupval = (g.heap q).openupval; rw [hq q rfl]

theorem otherwhite_congr {g g' : GState} (h : g'.currentwhite = g.currentwhite) :
    otherwhite g' = otherwhite g := by
  unfold otherwhite; rw [h]

theorem filter_keep_congr {g g' : GState} {ow : Nat} {l : List Nat}
    (h : ∀ y ∈ l, g'.heap y = g.heap y) :
    l.filter (fun y => decide (sweepKeeps g' ow y)) =
      l.filter (fun y => decide (sweepKeeps g ow y)) :=
  List.filter_congr (fun y hy => by
    have : sweepKeeps g' ow y ↔ sweepKeeps g ow y := sweepKeeps_congr (by rw [h y hy])
    simp only [this])

/-- Hypotheses of the sweep on the rest of the list carry over to a state
that agrees with the old one on the footprint of the rest. -/
theorem sweepHyps_congr {g g1 : GState} {U : Nat → List Nat} {rest : List Nat}
    (hfoot : ∀ a ∈ footprint U rest, g1.heap a = g.heap a)
    (hUch : ∀ x ∈ rest, (g.heap x).gct = GCT.thread → Chain g (g.heap x).openupval (U x))
    (hUnt : ∀ x ∈ rest, (g.heap x).gct ≠ GCT.thread → U x = [])
    (hUth : ∀ x ∈ rest, ∀ u ∈ U x, (g.heap u).gct ≠ GCT.thread) :
    (∀ x ∈ rest, (g1.heap x).gct = GCT.thread → Chain g1 (g1.heap x).openupval (U x)) ∧
    (∀ x ∈ rest, (g1.heap x).gct ≠ GCT.thread → U x = []) ∧
    (∀ x ∈ rest, ∀ u ∈ U x, (g1.heap u).gct ≠ GCT.thread) := by
  refine ⟨?_, ?_, ?_⟩
  · intro t ht hth
    have e := hfoot t (mem_footprint_self U ht)
    rw [e] at hth ⊢
    exact Chain.congr (fun u hu => by rw [hfoot u (mem_footprint_up U ht hu)]) (hUch t ht hth)
  · intro t ht hth
    rw [hfoot t (mem_footprint_self U ht)] at hth
    exact hUnt t ht hth
  · intro t ht u hu
    rw [hfoot u (mem_footprint_up U ht hu)]
    exact hUth t ht u hu

/-- The sweep loop of `gc_sweep` at a nesting depth of one or more, on a
list whose open upvalues are no threads: it returns, and leaves the state
described by `SweepPostN`. -/
theorem sweepLoop_nested (d : Nat) (ow : Nat) (U : Nat → List Nat) :
    ∀ (lim : Nat) (xs : List Nat) (g : GState) (p : Loc),
    ow = otherwhite g → Chain g (p.get g) xs →
    (∀ x ∈ xs, (g.heap x).gct = GCT.thread → Chain g (g.heap x).openupval (U x)) →
    (∀ x ∈ xs, (g.heap x).gct ≠ GCT.thread → U x = []) →
    (∀ x ∈ xs, ∀ u ∈ U x, (g.heap u).gct ≠ GCT.thread) →
    (footprint U xs).Nodup → (∀ q, p.owner = some q → q ∉ footprint U xs) →
    ∃ g' p', sweepLoop (fun g o => (gc_sweep d g (Loc.openupval o) (2 ^ 32 - 1)).map Prod.fst)
        ow lim g p = some (g', p') ∧ SweepPostN g ow p U xs lim g' p' := by
  intro lim
  induction lim with
  | zero =>
    intro xs g p _ hc _ _ _ _ _
    refine ⟨g, p, rfl, ?_⟩
    exact
      { chain := by simpa using hc
        cursor := by simpa using hc
        last := rfl
        upchain := fun t ht => by simp at ht
        eff := by rw [List.take_zero]; exact SweepEff.srefl g ow _
        owner := fun q hq => (Loc.put_get_self g p q hq).symm
        root := fun _ _ => rfl
        strhash := fun _ => rfl }
  | succ lim ih =>
    intro xs g p how hc hUch hUnt hUth hnd hown
    cases xs with
    | nil =>
      have h0 : p.get g = 0 := hc
      refine ⟨g, p, by simp [sweepLoop, h0], ?_⟩
      exact
        { chain := by simpa using hc
          cursor := by simpa using hc
          last := rfl
          upchain := fun t ht => by simp at ht
          eff := by rw [List.take_nil]; exact SweepEff.srefl g ow _
          owner := fun q hq => (Loc.put_get_self g p q hq).symm
          root := fun _ _ => rfl
          strhash := fun _ => rfl }
    | cons x rest =>
      obtain ⟨hx, hx0, hrest⟩ := hc
      -- separation facts
      have hnd' : (U x ++ x :: footprint U rest).Nodup := hnd
      obtain ⟨hndU, hnd2, hdisj⟩ := List.nodup_append.mp hnd'
      have hxfr : x ∉ footprint U rest := (List.nodup_cons.mp hnd2).1
      have hndr : (footprint U rest).Nodup := (List.nodup_cons.mp hnd2).2
      have hxU : x ∉ U x := fun h => hdisj h (List.mem_cons_self _ _)
      have hUfr : ∀ u ∈ U x, u ∉ footprint U rest := fun u hu h =>
        hdisj hu (List.mem_cons_of_mem _ h)
      have hxr : x ∉ rest := fun h => hxfr (mem_footprint_self U h)
      have hownx : ∀ q, p.owner = some q → q ≠ x := fun q hq e =>
        hown q hq (by rw [e]; simp [footprint])
      have hownU : ∀ q, p.owner = some q → q ∉ U x := fun q hq h =>
        hown q hq (by simp [footprint, h])
      have hownfr : ∀ q, p.owner = some q → q ∉ footprint U rest := fun q hq h =>
        hown q hq (by simp [footprint, h])
      -- the nested sweep
      obtain ⟨g_in, hinner, effA, upA, hAx, rootA, strA⟩ := inner_step d ow U g x how
        (hUch x (List.mem_cons_self _ _)) (hUnt x (List.mem_cons_self _ _))
        (hUth x (List.mem_cons_self _ _)) hndU hxU
      have hAne : ∀ a, a ∉ U x → a ≠ x → g_in.heap a = g.heap a := fun a h1 h2 =>
        effA.frame a (fun h => h1 (List.mem_of_mem_take h)) (by simpa using h2)
      have hAmx : (g_in.heap x).marked = (g.heap x).marked :=
        effA.same x (Or.inl (fun h => hxU (List.mem_of_mem_take h)))
      have hAnx : (g_in.heap x).nextgc = (g.heap x).nextgc := by rw [hAx]; rfl
      have hAfoot : ∀ a ∈ footprint U rest, g_in.heap a = g.heap a := fun a ha =>
        hAne a (fun h => hUfr a h ha) (fun e => hxfr (e ▸ ha))
      have hAown : ∀ q, p.owner = some q → g_in.heap q = g.heap q := fun q hq =>
        hAne q (hownU q hq) (hownx q hq)
      have hAget : p.get g_in = x := by
        rw [Loc.get_congr g g_in p hAown
          (fun e => rootA (by
            have : g.root = x := by rw [e] at hx; exact hx
            rw [this]; exact fun h => hxU (List.mem_of_mem_take h)))
          (Or.inr strA)]
        exact hx
      have hkin : sweepKeeps g_in ow x ↔ sweepKeeps g ow x := sweepKeeps_congr hAmx
      have hVsub : ∀ a, a ∈ visited U (rest.take lim) → a ∈ footprint U rest := fun a ha =>
        visited_sub_footprint U ha
      by_cases hk : sweepKeeps g ow x
      · -- kept
        have hk' : ((g_in.heap x).marked ^^^ LJ_GC_WHITES) &&& ow ≠ 0 := hkin.mpr hk
        have effB := keepStep_eff g_in ow x (hkin.mpr hk)
        have h1ne : ∀ a, a ≠ x → (g_in.modObj x (makewhite g_in)).heap a = g_in.heap a :=
          fun a ha => modObj_heap_ne _ _ _ _ ha
        have hfoot1 : ∀ a ∈ footprint U rest,
            (g_in.modObj x (makewhite g_in)).heap a = g.heap a := fun a ha => by
          rw [h1ne a (fun e => hxfr (e ▸ ha))]; exact hAfoot a ha
        obtain ⟨c1, c2, c3⟩ := sweepHyps_congr hfoot1
          (fun y hy => hUch y (List.mem_cons_of_mem _ hy))
          (fun y hy => hUnt y (List.mem_cons_of_mem _ hy))
          (fun y hy => hUth y (List.mem_cons_of_mem _ hy))
        have hc1 : Chain (g_in.modObj x (makewhite g_in))
            ((Loc.nextgc x).get (g_in.modObj x (makewhite g_in))) rest := by
          have e : (Loc.nextgc x).get (g_in.modObj x (makewhite g_in)) = (g.heap x).nextgc := by
            simp [Loc.get, makewhite, hAnx]
          rw [e]
          exact Chain.congr (fun y hy => by rw [hfoot1 y (mem_footprint_self U hy)]) hrest
        obtain ⟨g', p', hrun, post⟩ := ih rest (g_in.modObj x (makewhite g_in)) (Loc.nextgc x)
          (how.trans (otherwhite_congr effA.white).symm) hc1 c1 c2 c3 hndr
          (fun q hq => by injection hq with hq; subst hq; exact hxfr)
        refine ⟨g', p', ?_, ?_⟩
        · rw [sweepLoop]
          simp only [hx, hx0, if_false]
          rw [hinner]
          simp only [Option.some_bind]
          rw [if_pos hk']; exact hrun
        · have hqq : ∀ q, p.owner = some q → g'.heap q = g.heap q := by
            intro q hq
            rw [post.eff.frame q (fun h => hownfr q hq (hVsub q h))
              (by simpa [Loc.owner] using hownx q hq), h1ne q (hownx q hq)]
            exact hAown q hq
          have hroot1 : p ≠ Loc.root ∨ g.root = x := by
            by_cases hp : p = Loc.root
            · right; rw [hp] at hx; exact hx
            · left; exact hp
          have hget : p.get g' = x := by
            rw [Loc.get_congr g_in g' p
              (fun q hq => by rw [hqq q hq, hAown q hq])
              (fun e => by
                have hgr : g.root = x := by rw [e] at hx; exact hx
                have hgr1 : g_in.root = x := by rw [e] at hAget; exact hAget
                rw [post.root (by simp) (by
                  show g_in.root ∉ _
                  rw [hgr1]; exact fun h => hxfr (hVsub x h))]
                rfl)
              (Or.inr (post.strhash (by simp)))]
            exact hAget
          have hx' : g'.heap x = (Loc.nextgc x).put (makewhite g_in (g_in.heap x))
              ((Loc.nextgc x).get g') := by
            have := post.owner x rfl
            rw [modObj_heap_same] at this
            exact this
          exact
            { chain := by
                rw [List.take_succ_cons, List.filter_cons_of_pos (by simpa using hk),
                  List.drop_succ_cons, List.cons_append]
                refine ⟨hget, hx0, ?_⟩
                rw [← filter_keep_congr (fun y hy =>
                  hfoot1 y (mem_footprint_self U (List.mem_of_mem_take hy)))]
                exact post.chain
              cursor := by rw [List.drop_succ_cons]; exact post.cursor
              last := by
                rw [List.take_succ_cons, List.filter_cons_of_pos (by simpa using hk)]
                show p' = lastLoc (Loc.nextgc x) _
                rw [← filter_keep_congr (fun y hy =>
                  hfoot1 y (mem_footprint_self U (List.mem_of_mem_take hy)))]
                exact post.last
              upchain := by
                intro t ht hth
                rw [List.take_succ_cons] at ht
                rcases List.mem_cons.mp ht with e | ht
                · subst e
                  have e1 : (g'.heap t).openupval = (g_in.heap t).openupval := by
                    rw [hx']; rfl
                  rw [e1]
                  refine Chain.congr (fun u hu => ?_) (upA hth)
                  have huU : u ∈ U t := by
                    rcases List.mem_append.mp hu with h | h
                    · exact List.mem_of_mem_take (List.mem_of_mem_filter h)
                    · exact List.mem_of_mem_drop h
                  have hut : u ≠ t := fun e => hxU (e ▸ huU)
                  rw [post.eff.frame u (fun h => hUfr u huU (hVsub u h))
                    (by simpa [Loc.owner] using hut), h1ne u hut]
                · have hmr := List.mem_of_mem_take ht
                  have := post.upchain t ht (by
                    rw [hfoot1 t (mem_footprint_self U hmr)]; exact hth)
                  rw [filter_keep_congr (fun y hy =>
                    hfoot1 y (mem_footprint_up U hmr (List.mem_of_mem_take hy)))] at this
                  exact this
              eff := by
                rw [List.take_succ_cons]
                have e12 := effA.strans effB (fun v hv => by
                  have e : v = x := by simpa using hv
                  rw [e]; exact fun h => hxU (List.mem_of_mem_take h))
                have e123 := e12.strans post.eff (fun v hv => by
                  have hvf := hVsub v hv
                  intro h
                  rcases List.mem_append.mp h with h | h
                  · exact hUfr v (List.mem_of_mem_take h) hvf
                  · have e : v = x := by simpa using h
                    exact hxfr (e ▸ hvf))
                have e' : visited U (x :: rest.take lim) =
                    ((U x).take fullLim ++ [x]) ++ visited U (rest.take lim) := by
                  simp [visited]
                rw [e']
                refine e123.mono (fun a ha => Or.inl ?_)
                have hax : a = x := by
                  simp only [List.mem_append, List.mem_singleton, List.not_mem_nil, or_false,
                    Loc.owner, Option.toList, List.mem_cons] at ha
                  rcases ha with h | h <;> exact h
                rw [hax]; simp
              owner := by
                intro q hq
                rw [hqq q hq, hget, ← hx]; exact (Loc.put_get_self g p q hq).symm
              root := by
                intro hp hr
                rw [List.take_succ_cons] at hr
                simp only [visited, List.mem_append, List.mem_cons, not_or] at hr
                have e1 : g_in.root = g.root := rootA hr.1
                rw [post.root (by simp) (by
                  show g_in.root ∉ _
                  rw [e1]; exact hr.2.2)]
                exact e1
              strhash := fun _ => (post.strhash (by simp)).trans strA }
      · -- freed
        have hk' : ¬ ((g_in.heap x).marked ^^^ LJ_GC_WHITES) &&& ow ≠ 0 :=
          fun h => hk (hkin.mp h)
        have hpx : ∀ q, p.owner = some q → x ≠ q := fun q hq e => hownx q hq e.symm
        have hrest_in : Chain g_in (g_in.heap x).nextgc rest := by
          rw [hAnx]
          exact Chain.congr (fun y hy => by rw [hAfoot y (mem_footprint_self U hy)]) hrest
        have hnx : (g_in.heap x).nextgc ≠ x := Chain.head_ne hrest_in hx0 hxr
        have h1x : (p.set g_in (g_in.heap x).nextgc).heap x = g_in.heap x :=
          Loc.set_heap_ne g_in p _ x hpx
        have hfacts := sweepFree_facts g_in p x ((p.set g_in (g_in.heap x).nextgc).heap x).nextgc
        rw [h1x] at hfacts
        generalize hg3 : gc_free (if x = (p.set g_in (g_in.heap x).nextgc).root then
            { p.set g_in (g_in.heap x).nextgc with
              root := ((p.set g_in (g_in.heap x).nextgc).heap x).nextgc }
            else p.set g_in (g_in.heap x).nextgc) x = g3 at hfacts
        obtain ⟨f1, f2, f3, f4, f5⟩ := hfacts
        have effB := freeStep_eff g_in g3 ow x (g_in.heap x).nextgc p (fun h => hk (hkin.mp h))
          f1 f3 f4
        have h3ne : ∀ a, (∀ q, p.owner = some q → a ≠ q) → g3.heap a = g_in.heap a := by
          intro a ha; rw [f1]; exact Loc.set_heap_ne g_in p _ a ha
        have h3own : ∀ q, p.owner = some q →
            g3.heap q = p.put (g_in.heap q) (g_in.heap x).nextgc := by
          intro q hq; rw [f1]; exact Loc.set_owner g_in p q _ hq
        have hfoot3 : ∀ a ∈ footprint U rest, g3.heap a = g.heap a := fun a ha => by
          rw [h3ne a (fun q hq e => hownfr q hq (e ▸ ha))]; exact hAfoot a ha
        have hget3 : p.get g3 = (g_in.heap x).nextgc := by
          have e1 := Loc.get_set g_in p (g_in.heap x).nextgc
          cases p with
          | root =>
            have : x ≠ (Loc.set g_in Loc.root (g_in.heap x).nextgc).root := fun e => hnx e.symm
            show g3.root = _
            rw [f5 this]; rfl
          | strhash i => show g3.strhash i = _; rw [f2]; exact e1
          | nextgc q => show (g3.heap q).nextgc = _; rw [f1]; exact e1
          | openupval q => show (g3.heap q).openupval = _; rw [f1]; exact e1
        obtain ⟨c1, c2, c3⟩ := sweepHyps_congr hfoot3
          (fun y hy => hUch y (List.mem_cons_of_mem _ hy))
          (fun y hy => hUnt y (List.mem_cons_of_mem _ hy))
          (fun y hy => hUth y (List.mem_cons_of_mem _ hy))
        have hc3 : Chain g3 (p.get g3) rest := by
          rw [hget3, hAnx]
          exact Chain.congr (fun y hy => by rw [hfoot3 y (mem_footprint_self U hy)]) hrest
        obtain ⟨g', p', hrun, post⟩ := ih rest g3 p
          (how.trans ((otherwhite_congr f3).trans (otherwhite_congr effA.white)).symm)
          hc3 c1 c2 c3 hndr hownfr
        refine ⟨g', p', ?_, ?_⟩
        · rw [sweepLoop]
          simp only [hx, hx0, if_false]
          rw [hinner]
          simp only [Option.some_bind]
          rw [if_neg hk', hg3]; exact hrun
        · have hxQ : x ∉ p.owner.toList := by
            cases hp : p.owner with
            | none => simp
            | some q => simpa using (hownx q hp).symm
          have hxV : x ∉ visited U (rest.take lim) := fun h => hxfr (hVsub x h)
          exact
            { chain := by
                rw [List.take_succ_cons, List.filter_cons_of_neg (by simpa using hk),
                  List.drop_succ_cons]
                rw [← filter_keep_congr (fun y hy =>
                  hfoot3 y (mem_footprint_self U (List.mem_of_mem_take hy)))]
                exact post.chain
              cursor := by rw [List.drop_succ_cons]; exact post.cursor
              last := by
                rw [List.take_succ_cons, List.filter_cons_of_neg (by simpa using hk)]
                rw [← filter_keep_congr (fun y hy =>
                  hfoot3 y (mem_footprint_self U (List.mem_of_mem_take hy)))]
                exact post.last
              upchain := by
                intro t ht hth
                rw [List.take_succ_cons] at ht
                rcases List.mem_cons.mp ht with e | ht
                · subst e
                  have e1 : g'.heap t = g_in.heap t := by
                    rw [post.eff.frame t hxV hxQ]; exact h3ne t hpx
                  rw [e1]
                  refine Chain.congr (fun u hu => ?_) (upA hth)
                  have huU : u ∈ U t := by
                    rcases List.mem_append.mp hu with h | h
                    · exact List.mem_of_mem_take (List.mem_of_mem_filter h)
                    · exact List.mem_of_mem_drop h
                  have huQ : ∀ q, p.owner = some q → u ≠ q := fun q hq e =>
                    hownU q hq (e ▸ huU)
                  rw [post.eff.frame u (fun h => hUfr u huU (hVsub u h))
                    (fun h => by
                      cases hp : p.owner with
                      | none => rw [hp] at h; simp at h
                      | some q => rw [hp] at h; exact huQ q hp (by simpa using h)),
                    h3ne u huQ]
                · have hmr := List.mem_of_mem_take ht
                  have := post.upchain t ht (by
                    rw [hfoot3 t (mem_footprint_self U hmr)]; exact hth)
                  rw [filter_keep_congr (fun y hy =>
                    hfoot3 y (mem_footprint_up U hmr (List.mem_of_mem_take hy)))] at this
                  exact this
              eff := by
                rw [List.take_succ_cons]
                have e12 := effA.strans effB (fun v hv => by
                  have e : v = x := by simpa using hv
                  rw [e]; exact fun h => hxU (List.mem_of_mem_take h))
                have e123 := e12.strans post.eff (fun v hv => by
                  have hvf := hVsub v hv
                  intro h
                  rcases List.mem_append.mp h with h | h
                  · exact hUfr v (List.mem_of_mem_take h) hvf
                  · have e : v = x := by simpa using h
                    exact hxfr (e ▸ hvf))
                have e' : visited U (x :: rest.take lim) =
                    ((U x).take fullLim ++ [x]) ++ visited U (rest.take lim) := by
                  simp [visited]
                rw [e']
                refine e123.mono (fun a ha => ?_)
                simp only [List.mem_append, List.mem_singleton] at ha
                rcases ha with (h | h) | h
                · left; rw [h]; simp
                · right; exact h
                · right; exact h
              owner := by
                intro q hq
                rw [post.owner q hq, h3own q hq, Loc.put_put, hAown q hq]
              root := by
                intro hp hr
                rw [List.take_succ_cons] at hr
                simp only [visited, List.mem_append, List.mem_cons, not_or] at hr
                have e0 : g_in.root = g.root := rootA hr.1
                have e1 : (p.set g_in (g_in.heap x).nextgc).root = g_in.root :=
                  (Loc.set_fields g_in p _).2.2.1 hp
                have hxroot : x ≠ (p.set g_in (g_in.heap x).nextgc).root := by
                  rw [e1, e0]; exact fun e => hr.2.1 e.symm
                have e3 : g3.root = g.root := ((f5 hxroot).trans e1).trans e0
                rw [post.root hp (by rw [e3]; exact hr.2.2)]
                exact e3
              strhash := by
                intro hp
                rw [post.strhash hp, f2, (Loc.set_fields g_in p _).2.2.2 hp]
                exact strA }

set_option maxRecDepth 100000 in

theorem sweep_test_byte : ∀ r < 256,
    (((r ^^^ 3) &&& 34 = 0 ↔ (r &&& 34 &&& 3 ≠ 0 ∧ r &&& 32 = 0)) ∧
     ((r ^^^ 3) &&& 33 = 0 ↔ (r &&& 33 &&& 3 ≠ 0 ∧ r &&& 32 = 0))) ∧
    (r &&& 3 = 0 → (r ^^^ 3) &&& 34 ≠ 0 ∧ (r ^^^ 3) &&& 33 ≠ 0) ∧
    (r &&& 3 = 1 → (r ^^^ 3) &&& 34 ≠ 0) ∧ (r &&& 3 = 2 → (r ^^^ 3) &&& 33 ≠ 0) := by
  decide

/-- The sweep test in a normal cycle, where `currentwhite` is one white bit
plus the `FIXED` mask bit: an object fails it exactly when it is dead and not
fixed; black, gray, current-white and fixed objects pass. -/
theorem sweep_test_normal (g : GState)
    (hcw : g.currentwhite = LJ_GC_WHITE0 ||| LJ_GC_FIXED ∨
      g.currentwhite = LJ_GC_WHITE1 ||| LJ_GC_FIXED) (v : Nat) :
    (¬ sweepKeeps g (otherwhite g) v ↔ (isdead g (g.heap v) ∧ ¬ isfixed (g.heap v))) ∧
    (¬ iswhite (g.heap v) → sweepKeeps g (otherwhite g) v) ∧
    ((g.heap v).marked &&& LJ_GC_WHITES = curwhite g → sweepKeeps g (otherwhite g) v) ∧
    (isfixed (g.heap v) → sweepKeeps g (otherwhite g) v) := by
  have hb := sweep_test_byte ((g.heap v).marked % 256) (mod256_lt _)
  have e1 : ∀ k < 256, (((g.heap v).marked % 256) ^^^ 3) &&& k = ((g.heap v).marked ^^^ 3) &&& k := by
    intro k hk
    rw [land_byte ((g.heap v).marked ^^^ 3) k hk, mod256_xor]
  have e2 : ∀ k < 256, ((g.heap v).marked % 256) &&& k &&& 3 = (g.heap v).marked &&& k &&& 3 := by
    intro k hk
    rw [← land_byte (g.heap v).marked k hk]
  have e3 : ∀ k < 256, ((g.heap v).marked % 256) &&& k = (g.heap v).marked &&& k := by
    intro k hk
    rw [← land_byte (g.heap v).marked k hk]
  rw [e1 34 (by decide), e1 33 (by decide), e2 34 (by decide), e2 33 (by decide),
    e3 32 (by decide), e3 3 (by decide)] at hb
  obtain ⟨⟨hb1, hb2⟩, hb3, hb4, hb5⟩ := hb
  unfold sweepKeeps isdead isfixed iswhite otherwhite curwhite
  rcases hcw with h | h
  · rw [h]
    refine ⟨?_, ?_, ?_, ?_⟩
    · rw [not_not]
      exact hb1.trans (Iff.and Iff.rfl (not_not.symm))
    · intro hw; exact (hb3 (not_not.mp hw)).1
    · intro hw; exact hb4 hw
    · intro hf h0; exact hf (hb1.mp h0).2
  · rw [h]
    refine ⟨?_, ?_, ?_, ?_⟩
    · rw [not_not]
      exact hb2.trans (Iff.and Iff.rfl (not_not.symm))
    · intro hw; exact (hb3 (not_not.mp hw)).2
    · intro hw; exact hb5 hw
    · intro hf h0; exact hf (hb2.mp h0).2

/-- C2: on a well-formed list `xs` at the cell `p` (threads heading their
open upvalues `U`, all objects distinct) `gc_sweep` returns, having visited
`visited U (xs.take lim)`.  The objects handed to a free function are exactly
the visited objects for which `(marked ^ LJ_GC_WHITES) & otherwhite(g)` is
zero (`sweepKeeps` fails), in visiting order; every other visited object is
recolored to the current white with its non-color bits unchanged; the kept
objects stay linked in their original order, in the list itself and in every
visited thread's open-upvalue list, followed by the unvisited ones; objects off
the list are untouched.  In a normal cycle (`currentwhite` one white bit plus
the `FIXED` mask bit) the freed objects are exactly the dead ones that are not
fixed, so black, gray, current-white and fixed objects are never freed. -/
theorem gc_sweep_spec (g : GState) (p : Loc) (lim : Nat) (U : Nat → List Nat) (xs : List Nat)
    (hc : Chain g (p.get g) xs)
    (hUch : ∀ x ∈ xs, (g.heap x).gct = GCT.thread → Chain g (g.heap x).openupval (U x))
    (hUnt : ∀ x ∈ xs, (g.heap x).gct ≠ GCT.thread → U x = [])
    (hUth : ∀ x ∈ xs, ∀ u ∈ U x, (g.heap u).gct ≠ GCT.thread)
    (hnd : (footprint U xs).Nodup) (hown : ∀ q, p.owner = some q → q ∉ footprint U xs) :
    ∃ g' p', gc_sweep 1 g p lim = some (g', p') ∧
      g'.freed = ((visited U (xs.take lim)).filter
        (fun v => decide (¬ sweepKeeps g (otherwhite g) v))).reverse ++ g.freed ∧
      (∀ v ∈ visited U (xs.take lim), sweepKeeps g (otherwhite g) v →
        (g'.heap v).marked = ((g.heap v).marked &&& not8 LJ_GC_COLORS) ||| curwhite g ∧
        (g'.heap v).marked &&& not8 LJ_GC_COLORS = (g.heap v).marked &&& not8 LJ_GC_COLORS ∧
        (g'.heap v).marked &&& LJ_GC_WHITES = curwhite g ∧
        (g'.heap v).marked &&& LJ_GC_BLACK = 0) ∧
      (∀ v ∈ visited U (xs.take lim), ¬ sweepKeeps g (otherwhite g) v →
        (g'.heap v).marked = (g.heap v).marked) ∧
      Chain g' (p.get g')
        ((xs.take lim).filter (fun x => decide (sweepKeeps g (otherwhite g) x))
          ++ xs.drop lim) ∧
      Chain g' (p'.get g') (xs.drop lim) ∧
      (∀ t ∈ xs.take lim, (g.heap t).gct = GCT.thread →
        Chain g' (g'.heap t).openupval
          (((U t).take fullLim).filter (fun x => decide (sweepKeeps g (otherwhite g) x))
            ++ (U t).drop fullLim)) ∧
      (∀ a, a ∉ visited U (xs.take lim) → (∀ q, p.owner = some q → a ≠ q) →
        g'.heap a = g.heap a) ∧
      (∀ a, shapeL (g'.heap a) = shapeL (g.heap a)) ∧
      ((g.currentwhite = LJ_GC_WHITE0 ||| LJ_GC_FIXED ∨
          g.currentwhite = LJ_GC_WHITE1 ||| LJ_GC_FIXED) →
        ∀ v, (¬ sweepKeeps g (otherwhite g) v ↔
            (isdead g (g.heap v) ∧ ¬ isfixed (g.heap v))) ∧
          (¬ iswhite (g.heap v) → sweepKeeps g (otherwhite g) v) ∧
          ((g.heap v).marked &&& LJ_GC_WHITES = curwhite g →
            sweepKeeps g (otherwhite g) v) ∧
          (isfixed (g.heap v) → sweepKeeps g (otherwhite g) v)) := by
  obtain ⟨g', p', hrun, post⟩ := sweepLoop_nested 0 (otherwhite g) U lim xs g p rfl hc hUch hUnt
    hUth hnd hown
  refine ⟨g', p', by rw [gc_sweep]; exact hrun, post.eff.freed, ?_, ?_, post.chain, post.cursor,
    post.upchain, ?_, post.eff.shape, fun hcw v => sweep_test_normal g hcw v⟩
  · intro v hv hk
    have hm := post.eff.kept v hv hk
    have hb := mkw_bits (g.heap v).marked g.currentwhite
    refine ⟨hm, ?_, ?_, ?_⟩
    · rw [hm]; exact hb.2.1
    · rw [hm]; exact hb.1
    · rw [hm]; exact hb.2.2
  · intro v _ hk
    exact post.eff.same v (Or.inr hk)
  · intro a ha hq
    refine post.eff.frame a ha (fun h => ?_)
    cases hp : p.owner with
    | none => rw [hp] at h; simp at h
    | some q => rw [hp] at h; exact hq q hp (by simpa using h)

/-- Witness for `gc_sweep_spec`: the sweep of `exSweep` frees the table and
the upvalue and keeps the function and the thread, in order. -/
theorem gc_sweep_spec_witness :
    ∃ g' p', gc_sweep 1 exSweep Loc.root 40 = some (g', p') ∧
      g'.freed = [4, 2] ∧ Chain g' (Loc.root.get g') [1, 3] := by
  have hU : ∀ x ∈ [1, 2, 3], x = 1 ∨ x = 2 ∨ x = 3 := fun x hx => by simpa using hx
  obtain ⟨g', p', h1, h2, _, _, h5, _⟩ := gc_sweep_spec exSweep Loc.root 40 exSweepU [1, 2, 3]
    ⟨rfl, by decide, rfl, by decide, rfl, by decide, rfl⟩
    (fun x hx ht => by
      rcases hU x hx with e | e | e <;> subst e
      · exact absurd ht (by decide)
      · exact absurd ht (by decide)
      · exact ⟨rfl, by decide, rfl⟩)
    (fun x hx _ => by
      rcases hU x hx with e | e | e <;> subst e
      · rfl
      · rfl
      · exact absurd rfl ‹_›)
    (fun x hx u hu => by
      rcases hU x hx with e | e | e <;> subst e
      · simp [exSweepU] at hu
      · simp [exSweepU] at hu
      · have e : u = 4 := by simpa [exSweepU] using hu
        subst e; decide)
    (by decide) (fun q hq => by cases hq)
  refine ⟨g', p', h1, ?_, ?_⟩
  · rw [h2]; decide
  · have e : (List.take 40 [1, 2, 3]).filter
        (fun x => decide (sweepKeeps exSweep (otherwhite exSweep) x)) ++ List.drop 40 [1, 2, 3]
        = [1, 3] := by decide
    rw [e] at h5; exact h5

/-! ## Clearing weak tables -/

theorem ClearRel.crefl (g : GState) : ClearRel g g :=
  { white := fun _ h => h, fin := fun _ => Iff.rfl, weakval := fun _ => rfl
    gclist := fun _ => rfl, hmask := fun _ => rfl, alen := fun _ => rfl
    array := fun _ _ => Or.inl rfl, key := fun _ _ => rfl, val := fun _ _ => Or.inl rfl }

theorem aboutToDie_mono {g g' : GState} (hw : ∀ a, iswhite (g'.heap a) → iswhite (g.heap a))
    (hf : ∀ a, isfinalized (g'.heap a) ↔ isfinalized (g.heap a)) {o : TValue} {v : Bool}
    (h : aboutToDie g' o v) : aboutToDie g o v := by
  rcases h with ⟨h1, h2, h3⟩ | ⟨h1, h2, h3⟩
  · exact Or.inl ⟨h1, h2, hw _ h3⟩
  · exact Or.inr ⟨h1, h2, (hf _).mp h3⟩

theorem aboutToDie_nil (g : GState) (v : Bool) : ¬ aboutToDie g TValue.nil v := by
  rintro (⟨h1, _, _⟩ | ⟨_, h2, _⟩)
  · cases h1
  · cases h2

theorem ClearRel.ctrans {g g1 g2 : GState} (h1 : ClearRel g g1) (h2 : ClearRel g1 g2) :
    ClearRel g g2 := by
  have hmono : ∀ {o : TValue} {v : Bool}, aboutToDie g1 o v → aboutToDie g o v :=
    fun h => aboutToDie_mono h1.white h1.fin h
  refine
    { white := fun a h => h1.white a (h2.white a h)
      fin := fun a => (h2.fin a).trans (h1.fin a)
      weakval := fun a => (h2.weakval a).trans (h1.weakval a)
      gclist := fun a => (h2.gclist a).trans (h1.gclist a)
      hmask := fun a => (h2.hmask a).trans (h1.hmask a)
      alen := fun a => (h2.alen a).trans (h1.alen a)
      array := ?_
      key := fun a i => (h2.key a i).trans (h1.key a i)
      val := ?_ }
  · intro a i
    rcases h2.array a i with e2 | ⟨e2, r2⟩
    · rcases h1.array a i with e1 | ⟨e1, r1⟩
      · exact Or.inl (e2.trans e1)
      · exact Or.inr ⟨e2.trans e1, r1⟩
    · rcases h1.array a i with e1 | ⟨e1, r1⟩
      · exact Or.inr ⟨e2, by rw [← e1]; exact hmono r2⟩
      · exact Or.inr ⟨e2, r1⟩
  · intro a i
    rcases h2.val a i with e2 | ⟨e2, r2, s2⟩
    · rcases h1.val a i with e1 | ⟨e1, r1, s1⟩
      · exact Or.inl (e2.trans e1)
      · exact Or.inr ⟨e2.trans e1, r1, fun hs hw => s1 hs (h2.white _ hw)⟩
    · rcases h1.val a i with e1 | ⟨e1, r1, s1⟩
      · refine Or.inr ⟨e2, ?_, ?_⟩
        · rw [← e1, ← h1.key a i]
          exact r2.imp hmono hmono
        · rw [← h1.key a i]; exact s2
      · exact Or.inr ⟨e2, r1, fun hs hw => s1 hs (h2.white _ hw)⟩

theorem and8_of_and248 {a b k : Nat} (hk : 248 &&& k = k) (h : a &&& 248 = b &&& 248) :
    a &&& k = b &&& k := by
  have := congrArg (· &&& k) h
  simp only [Nat.and_assoc, hk] at this
  exact this

theorem modObj_marked_only (g : GState) (s : Nat) (f : GCobj → GCobj)
    (hf : ∀ x, f x = { x with marked := (f x).marked }) (a : Nat) :
    (g.modObj s f).heap a = { g.heap a with marked := ((g.modObj s f).heap a).marked } := by
  by_cases e : a = s
  · subst e; rw [modObj_heap_same]; exact hf _
  · rw [modObj_heap_ne _ _ _ _ e]

theorem modObj_marked_only_fields (g : GState) (s : Nat) (f : GCobj → GCobj)
    (hf : ∀ x, f x = { x with marked := (f x).marked }) (a : Nat) :
    ((g.modObj s f).heap a).gclist = (g.heap a).gclist ∧
    ((g.modObj s f).heap a).hmask = (g.heap a).hmask ∧
    ((g.modObj s f).heap a).array = (g.heap a).array ∧
    ((g.modObj s f).heap a).node = (g.heap a).node := by
  by_cases e : a = s
  · subst e; rw [modObj_heap_same, hf]; exact ⟨rfl, rfl, rfl, rfl⟩
  · rw [modObj_heap_ne _ _ _ _ e]; exact ⟨rfl, rfl, rfl, rfl⟩

/-- Marking a string (`gc_mark_str`) in terms of `ClearRel`. -/
theorem markstr_rel (g : GState) (s : Nat) :
    ClearRel g (g.modObj s gc_mark_str) ∧ ¬ iswhite ((g.modObj s gc_mark_str).heap s) := by
  have hb := w2g_bits (g.heap s).marked
  have hnw : ¬ iswhite (gc_mark_str (g.heap s)) := by
    unfold iswhite gc_mark_str
    exact fun h => h hb.1
  have hmo := modObj_marked_only_fields g s gc_mark_str (fun _ => rfl)
  have h248 : ∀ a, ((g.modObj s gc_mark_str).heap a).marked &&& 248 =
      (g.heap a).marked &&& 248 := by
    intro a
    by_cases e : a = s
    · subst e; rw [modObj_heap_same]; exact hb.2.1
    · rw [modObj_heap_ne _ _ _ _ e]
  refine ⟨?_, by rw [modObj_heap_same]; exact hnw⟩
  refine
    { white := ?_, fin := ?_, weakval := ?_
      gclist := fun a => (hmo a).1
      hmask := fun a => (hmo a).2.1
      alen := fun a => by rw [(hmo a).2.2.1]
      array := fun a i => Or.inl (by rw [(hmo a).2.2.1])
      key := fun a i => by rw [(hmo a).2.2.2]
      val := fun a i => Or.inl (by rw [(hmo a).2.2.2]) }
  · intro a h
    by_cases e : a = s
    · subst e; rw [modObj_heap_same] at h; exact absurd h hnw
    · rw [modObj_heap_ne _ _ _ _ e] at h; exact h
  · intro a
    unfold isfinalized
    rw [and8_of_and248 (by decide) (h248 a)]
  · intro a
    exact and8_of_and248 (by decide) (h248 a)

theorem tvisudata_facts {o : TValue} (h : tvisudata o = true) :
    tvisgcv o = true ∧ tvisstr o = false := by
  cases o with
  | nil => cases h
  | prim n => cases h
  | gcv it r => cases it <;> first | exact ⟨rfl, rfl⟩ | cases h

theorem tvisstr_gcv {o : TValue} (h : tvisstr o = true) : tvisgcv o = true := by
  cases o with
  | nil => cases h
  | prim n => cases h
  | gcv it r => rfl

/-- The function `gc_mayclear`: it answers "about to die", marks a string
and changes nothing else. -/
theorem mayclear_spec (g : GState) (o : TValue) (val : Bool) :
    ClearRel g (gc_mayclear g o val).1 ∧
    ((gc_mayclear g o val).2 = true ↔ aboutToDie g o val) ∧
    (tvisstr o = true → ¬ iswhite ((gc_mayclear g o val).1.heap (gcV o))) ∧
    (∀ a, ((gc_mayclear g o val).1.heap a).array = (g.heap a).array ∧
      ((gc_mayclear g o val).1.heap a).node = (g.heap a).node) := by
  unfold gc_mayclear
  by_cases hg : tvisgcv o = true
  · rw [if_pos hg]
    by_cases hs : tvisstr o = true
    · rw [if_pos hs]
      have hm := markstr_rel g (gcV o)
      have hmo := modObj_marked_only_fields g (gcV o) gc_mark_str (fun _ => rfl)
      refine ⟨hm.1, ?_, fun _ => hm.2, fun a => ⟨(hmo a).2.2.1, (hmo a).2.2.2⟩⟩
      constructor
      · intro h; cases h
      · rintro (⟨_, h2, _⟩ | ⟨_, h2, _⟩)
        · rw [hs] at h2; cases h2
        · have := (tvisudata_facts h2).2; rw [hs] at this; cases this
    · rw [if_neg hs]
      have hs' : tvisstr o = false := by simpa using hs
      by_cases hw : iswhite (g.heap (gcV o))
      · rw [if_pos hw]
        exact ⟨ClearRel.crefl g, ⟨fun _ => Or.inl ⟨hg, hs', hw⟩, fun _ => rfl⟩,
          fun h => absurd h hs, fun _ => ⟨rfl, rfl⟩⟩
      · rw [if_neg hw]
        by_cases hu : tvisudata o = true ∧ val = true ∧ isfinalized (g.heap (gcV o))
        · rw [if_pos hu]
          exact ⟨ClearRel.crefl g, ⟨fun _ => Or.inr ⟨hu.2.1, hu.1, hu.2.2⟩, fun _ => rfl⟩,
            fun h => absurd h hs, fun _ => ⟨rfl, rfl⟩⟩
        · rw [if_neg hu]
          refine ⟨ClearRel.crefl g, ⟨fun h => (by cases h), ?_⟩, fun h => absurd h hs,
            fun _ => ⟨rfl, rfl⟩⟩
          rintro (⟨_, _, h3⟩ | ⟨h1, h2, h3⟩)
          · exact absurd h3 hw
          · exact absurd ⟨h2, h1, h3⟩ hu
  · rw [if_neg hg]
    refine ⟨ClearRel.crefl g, ⟨fun h => (by cases h), ?_⟩, fun h => absurd (tvisstr_gcv h) hg,
      fun _ => ⟨rfl, rfl⟩⟩
    rintro (⟨h1, _, _⟩ | ⟨_, h2, _⟩)
    · exact absurd h1 hg
    · exact absurd (tvisudata_facts h2).1 hg

theorem getD_set_nil (l : List TValue) (i j : Nat) :
    (l.set i TValue.nil).getD j TValue.nil =
      if j = i then TValue.nil else l.getD j TValue.nil := by
  simp only [List.getD_eq_getElem?_getD, List.getElem?_set]
  by_cases h : i = j
  · subst h
    by_cases hl : i < l.length
    · simp [hl]
    · simp [hl]
  · have h' : ¬ j = i := fun e => h e.symm
    simp [h, h']

theorem whiteRef_mono {g g' : GState} (h : ClearRel g g') {o : TValue}
    (hw : whiteRef g' o) : whiteRef g o :=
  ⟨hw.1, hw.2.1, h.white _ hw.2.2⟩

theorem finUdata_mono {g g' : GState} (h : ClearRel g g') {o : TValue}
    (hw : finUdata g' o) : finUdata g o :=
  ⟨hw.1, (h.fin _).mp hw.2⟩

theorem whiteRef_nil (g : GState) : ¬ whiteRef g TValue.nil := fun h => by cases h.1

theorem finUdata_nil (g : GState) : ¬ finUdata g TValue.nil := fun h => by cases h.1

theorem arrOK_stable {g g' : GState} (h : ClearRel g g') {t i : Nat} (hok : arrOK g t i) :
    arrOK g' t i := by
  unfold arrOK at *
  rcases h.array t i with e | ⟨e, _⟩
  · rw [e]
    exact ⟨fun hw => hok.1 (whiteRef_mono h hw), fun hw => hok.2.1 (finUdata_mono h hw),
      fun hs hw => hok.2.2 hs (h.white _ hw)⟩
  · rw [e]
    exact ⟨whiteRef_nil g', finUdata_nil g', fun hs => by cases hs⟩

theorem nodeOK_stable {g g' : GState} (h : ClearRel g g') {t i : Nat} (hok : nodeOK g t i) :
    nodeOK g' t i := by
  unfold nodeOK at *
  rcases h.val t i with e | ⟨e, _⟩
  · rw [e, h.key t i]
    intro hv
    obtain ⟨h1, h2, h3, h4, h5⟩ := hok hv
    exact ⟨fun hw => h1 (whiteRef_mono h hw), fun hw => h2 (whiteRef_mono h hw),
      fun hw => h3 (finUdata_mono h hw), fun hs hw => h4 hs (h.white _ hw),
      fun hs hw => h5 hs (h.white _ hw)⟩
  · intro hv; exact absurd e hv

theorem Cleared_stable {g g' : GState} (h : ClearRel g g') {t : Nat} (hc : Cleared g t) :
    Cleared g' t := by
  refine ⟨fun i hi => nodeOK_stable h (hc.1 i ?_), fun hw i hi => arrOK_stable h (hc.2 ?_ i ?_)⟩
  · unfold hashIdx at *; rw [h.hmask] at hi; exact hi
  · rw [← h.weakval]; exact hw
  · rw [← h.alen]; exact hi

/-- Setting an array slot to nil for a reason keeps `ClearRel`. -/
theorem clearSet_rel {g g1 : GState} (h : ClearRel g g1) (t i : Nat)
    (he : (g1.heap t).array.getD i TValue.nil = (g.heap t).array.getD i TValue.nil)
    (hr : aboutToDie g ((g.heap t).array.getD i TValue.nil) true) :
    ClearRel g (g1.modObj t (fun x => { x with array := x.array.set i TValue.nil })) := by
  have hobj : ∀ a, (g1.modObj t (fun x => { x with array := x.array.set i TValue.nil })).heap a =
      if a = t then { g1.heap t with array := (g1.heap t).array.set i TValue.nil }
      else g1.heap a := fun a => modObj_heap _ _ _ _
  refine
    { white := ?_, fin := ?_, weakval := ?_, gclist := ?_, hmask := ?_, alen := ?_
      array := ?_, key := ?_, val := ?_ }
  · intro a; rw [hobj]; split
    · next e => subst e; exact h.white a
    · exact h.white a
  · intro a; rw [hobj]; split
    · next e => subst e; exact h.fin a
    · exact h.fin a
  · intro a; rw [hobj]; split
    · next e => subst e; exact h.weakval a
    · exact h.weakval a
  · intro a; rw [hobj]; split
    · next e => subst e; exact h.gclist a
    · exact h.gclist a
  · intro a; rw [hobj]; split
    · next e => subst e; exact h.hmask a
    · exact h.hmask a
  · intro a; rw [hobj]; split
    · next e => subst e; simp only [List.length_set]; exact h.alen a
    · exact h.alen a
  · intro a j; rw [hobj]; split
    · next e =>
      subst e
      simp only [getD_set_nil]
      by_cases hj : j = i
      · subst hj; rw [if_pos rfl]; exact Or.inr ⟨rfl, hr⟩
      · rw [if_neg hj]; exact h.array a j
    · exact h.array a j
  · intro a j; rw [hobj]; split
    · next e => subst e; exact h.key a j
    · exact h.key a j
  · intro a j
    have hw : ∀ b, iswhite ((g1.modObj t (fun x =>
        { x with array := x.array.set i TValue.nil })).heap b) → iswhite (g1.heap b) := by
      intro b; rw [hobj]; split
      · next e => subst e; exact fun h => h
      · exact fun h => h
    have hv : ((g1.modObj t (fun x => { x with array := x.array.set i TValue.nil })).heap a).node
        = (g1.heap a).node := by
      rw [hobj]; split
      · next e => subst e; rfl
      · rfl
    rw [hv]
    rcases h.val a j with e | ⟨e, r, s⟩
    · exact Or.inl e
    · exact Or.inr ⟨e, r, fun hs hx => s hs (hw _ hx)⟩

/-- The array-slot body of `gc_clearweak`. -/
theorem clearArraySlot_spec (g : GState) (t i : Nat) :
    ClearRel g (clearArraySlot t i g) ∧ arrOK (clearArraySlot t i g) t i := by
  have hm := mayclear_spec g ((g.heap t).array.getD i TValue.nil) true
  obtain ⟨hrel, hiff, hstr, hsame⟩ := hm
  unfold clearArraySlot
  by_cases hb : (gc_mayclear g ((g.heap t).array.getD i TValue.nil) true).2 = true
  · rw [if_pos hb]
    have he : ((gc_mayclear g ((g.heap t).array.getD i TValue.nil) true).1.heap t).array.getD i
        TValue.nil = (g.heap t).array.getD i TValue.nil := by rw [(hsame t).1]
    refine ⟨clearSet_rel hrel t i he (hiff.mp hb), ?_⟩
    unfold arrOK
    rw [modObj_heap_same]
    simp only [getD_set_nil, if_true]
    exact ⟨whiteRef_nil _, finUdata_nil _, fun hs => by cases hs⟩
  · rw [if_neg hb]
    refine ⟨hrel, ?_⟩
    unfold arrOK
    rw [(hsame t).1]
    have hnd : ¬ aboutToDie g ((g.heap t).array.getD i TValue.nil) true := fun h => hb (hiff.mpr h)
    exact ⟨fun hw => hnd (Or.inl (whiteRef_mono hrel hw)),
      fun hw => hnd (Or.inr ⟨rfl, finUdata_mono hrel hw⟩), hstr⟩

theorem getD_set_node (l : List Node) (i j : Nat) (v : Node) :
    (l.set i v).getD j {} = if j = i ∧ i < l.length then v else l.getD j {} := by
  simp only [List.getD_eq_getElem?_getD, List.getElem?_set]
  by_cases h : i = j
  · subst h
    by_cases hl : i < l.length
    · simp [hl]
    · simp [hl, List.getElem?_eq_none (Nat.le_of_not_lt hl)]
  · have h' : ¬ j = i := fun e => h e.symm
    simp [h, h']

theorem tvisnil_iff (x : TValue) : tvisnil x = true ↔ x = TValue.nil := by
  cases x <;> simp [tvisnil]

theorem set_nil_val (l : List Node) (i : Nat) :
    ((l.set i { (l.getD i {}) with val := TValue.nil }).getD i {}).val = TValue.nil := by
  rw [getD_set_node]
  split
  · rfl
  · next hj =>
    have hl : ¬ i < l.length := fun hl => hj ⟨rfl, hl⟩
    rw [List.getD_eq_getElem?_getD, List.getElem?_eq_none (Nat.le_of_not_lt hl)]; rfl

/-- Setting a node's value to nil for a reason keeps `ClearRel`. -/
theorem clearSetNode_rel {g g1 : GState} (h : ClearRel g g1) (t i : Nat)
    (he : (g1.heap t).node.getD i {} = (g.heap t).node.getD i {})
    (hr : aboutToDie g ((g.heap t).node.getD i {}).key false ∨
      aboutToDie g ((g.heap t).node.getD i {}).val true)
    (hstr : tvisstr ((g.heap t).node.getD i {}).key = true →
      ¬ iswhite (g1.heap (gcV ((g.heap t).node.getD i {}).key))) :
    ClearRel g (g1.modObj t (fun x =>
      { x with node := x.node.set i { (x.node.getD i {}) with val := TValue.nil } })) := by
  have hobj : ∀ a, (g1.modObj t (fun x =>
      { x with node := x.node.set i { (x.node.getD i {}) with val := TValue.nil } })).heap a =
      if a = t then
        { g1.heap t with
          node := (g1.heap t).node.set i { ((g1.heap t).node.getD i {}) with val := TValue.nil } }
      else g1.heap a := fun a => modObj_heap _ _ _ _
  refine
    { white := ?_, fin := ?_, weakval := ?_, gclist := ?_, hmask := ?_, alen := ?_
      array := ?_, key := ?_, val := ?_ }
  · intro a; rw [hobj]; split
    · next e => subst e; exact h.white a
    · exact h.white a
  · intro a; rw [hobj]; split
    · next e => subst e; exact h.fin a
    · exact h.fin a
  · intro a; rw [hobj]; split
    · next e => subst e; exact h.weakval a
    · exact h.weakval a
  · intro a; rw [hobj]; split
    · next e => subst e; exact h.gclist a
    · exact h.gclist a
  · intro a; rw [hobj]; split
    · next e => subst e; exact h.hmask a
    · exact h.hmask a
  · intro a; rw [hobj]; split
    · next e => subst e; exact h.alen a
    · exact h.alen a
  · intro a j; rw [hobj]; split
    · next e => subst e; exact h.array a j
    · exact h.array a j
  · intro a j; rw [hobj]; split
    · next e =>
      subst e
      simp only [getD_set_node]
      split
      · next hj => rw [hj.1]; exact h.key a i
      · exact h.key a j
    · exact h.key a j
  · intro a j
    have hw : ∀ b, iswhite ((g1.modObj t (fun x =>
        { x with node := x.node.set i { (x.node.getD i {}) with val := TValue.nil } })).heap b) →
        iswhite (g1.heap b) := by
      intro b; rw [hobj]; split
      · next e => subst e; exact fun h => h
      · exact fun h => h
    have hold : ((g1.heap a).node.getD j {}).val = ((g.heap a).node.getD j {}).val ∨
        (((g1.heap a).node.getD j {}).val = TValue.nil ∧
          (aboutToDie g ((g.heap a).node.getD j {}).key false ∨
            aboutToDie g ((g.heap a).node.getD j {}).val true) ∧
          (tvisstr ((g.heap a).node.getD j {}).key = true →
            ¬ iswhite ((g1.modObj t (fun x =>
              { x with node := x.node.set i { (x.node.getD i {}) with val := TValue.nil } })).heap
                (gcV ((g.heap a).node.getD j {}).key)))) := by
      rcases h.val a j with e | ⟨e, r, s⟩
      · exact Or.inl e
      · exact Or.inr ⟨e, r, fun hs hx => s hs (hw _ hx)⟩
    by_cases e : a = t
    · subst e
      by_cases hj : j = i ∧ i < (g1.heap a).node.length
      · right
        rw [hj.1]
        refine ⟨?_, hr, fun hs hx => hstr hs (hw _ hx)⟩
        rw [modObj_heap_same]
        exact set_nil_val _ _
      · have hv : ((g1.modObj a (fun x =>
            { x with node := x.node.set i { (x.node.getD i {}) with val := TValue.nil } })).heap
              a).node.getD j {} = (g1.heap a).node.getD j {} := by
          rw [modObj_heap_same]
          simp only [getD_set_node, if_neg hj]
        rw [hv]; exact hold
    · have hv : ((g1.modObj t (fun x =>
          { x with node := x.node.set i { (x.node.getD i {}) with val := TValue.nil } })).heap
            a).node = (g1.heap a).node := by
        rw [modObj_heap_ne _ _ _ _ e]
      rw [hv]; exact hold

/-- The body `clearNode` with its short-circuit `||` spelled out. -/
theorem clearNode_eq (g : GState) (t i : Nat) :
    clearNode t i g =
      if tvisnil ((g.heap t).node.getD i {}).val = true then g
      else if (gc_mayclear g ((g.heap t).node.getD i {}).key false).2 = true then
        (gc_mayclear g ((g.heap t).node.getD i {}).key false).1.modObj t (fun x =>
          { x with node := x.node.set i { (x.node.getD i {}) with val := TValue.nil } })
      else if (gc_mayclear (gc_mayclear g ((g.heap t).node.getD i {}).key false).1
          (((gc_mayclear g ((g.heap t).node.getD i {}).key false).1.heap t).node.getD i {}).val
          true).2 = true then
        (gc_mayclear (gc_mayclear g ((g.heap t).node.getD i {}).key false).1
          (((gc_mayclear g ((g.heap t).node.getD i {}).key false).1.heap t).node.getD i {}).val
          true).1.modObj t (fun x =>
          { x with node := x.node.set i { (x.node.getD i {}) with val := TValue.nil } })
      else
        (gc_mayclear (gc_mayclear g ((g.heap t).node.getD i {}).key false).1
          (((gc_mayclear g ((g.heap t).node.getD i {}).key false).1.heap t).node.getD i {}).val
          true).1 := by
  unfold clearNode
  by_cases hn : tvisnil ((g.heap t).node.getD i {}).val = true
  · rw [if_pos hn, if_pos hn]
  · rw [if_neg hn, if_neg hn]
    by_cases hk : (gc_mayclear g ((g.heap t).node.getD i {}).key false).2 = true
    · simp only [hk, if_true]
    · simp only [hk, if_false]
      rfl

/-- The hash-node body of `gc_clearweak`. -/
theorem clearNode_spec (g : GState) (t i : Nat) :
    ClearRel g (clearNode t i g) ∧ nodeOK (clearNode t i g) t i := by
  rw [clearNode_eq]
  by_cases hn : tvisnil ((g.heap t).node.getD i {}).val = true
  · rw [if_pos hn]
    exact ⟨ClearRel.crefl g, fun hv => absurd ((tvisnil_iff _).mp hn) hv⟩
  · rw [if_neg hn]
    obtain ⟨krel, kiff, kstr, ksame⟩ := mayclear_spec g ((g.heap t).node.getD i {}).key false
    generalize gc_mayclear g ((g.heap t).node.getD i {}).key false = rk at *
    have hnode1 : (rk.1.heap t).node = (g.heap t).node := (ksame t).2
    by_cases hkb : rk.2 = true
    · rw [if_pos hkb]
      refine ⟨clearSetNode_rel krel t i (by rw [hnode1]) (Or.inl (kiff.mp hkb)) kstr, ?_⟩
      intro hv
      exfalso; apply hv
      rw [modObj_heap_same]
      exact set_nil_val _ _
    · rw [if_neg hkb]
      obtain ⟨vrel, viff, vstr, vsame⟩ :=
        mayclear_spec rk.1 ((rk.1.heap t).node.getD i {}).val true
      generalize gc_mayclear rk.1 ((rk.1.heap t).node.getD i {}).val true = rv at *
      have hnode2 : (rv.1.heap t).node = (g.heap t).node := (vsame t).2.trans hnode1
      have hrel2 : ClearRel g rv.1 := krel.ctrans vrel
      have hnk : ¬ aboutToDie g ((g.heap t).node.getD i {}).key false :=
        fun h => hkb (kiff.mpr h)
      by_cases hvb : rv.2 = true
      · rw [if_pos hvb]
        have hr : aboutToDie g ((g.heap t).node.getD i {}).val true := by
          have := viff.mp hvb
          rw [hnode1] at this
          exact aboutToDie_mono krel.white krel.fin this
        refine ⟨clearSetNode_rel hrel2 t i (by rw [hnode2]) (Or.inr hr)
          (fun hs hw => kstr hs (vrel.white _ hw)), ?_⟩
        intro hv
        exfalso; apply hv
        rw [modObj_heap_same]
        exact set_nil_val _ _
      · rw [if_neg hvb]
        refine ⟨hrel2, ?_⟩
        intro _
        rw [hnode2]
        have hnv : ¬ aboutToDie rk.1 ((g.heap t).node.getD i {}).val true := by
          intro h; apply hvb; apply viff.mpr; rw [hnode1]; exact h
        rw [hnode1] at vstr
        refine ⟨fun hw => hnk (Or.inl (whiteRef_mono hrel2 hw)),
          fun hw => hnv (Or.inl (whiteRef_mono vrel hw)),
          fun hw => hnv (Or.inr ⟨rfl, finUdata_mono vrel hw⟩),
          fun hs hw => kstr hs (vrel.white _ hw), vstr⟩

theorem loopT_inv (f : Nat → GState → GState) (I : Nat → GState → Prop)
    (hstep : ∀ i g, I i g → I (i + 1) (f i g)) :
    ∀ (k i : Nat) (g : GState), I i g → I (i + k) (loopT f k i g) := by
  intro k
  induction k with
  | zero => intro i g h; exact h
  | succ k ih =>
    intro i g h
    have := ih (i + 1) (f i g) (hstep i g h)
    rw [Nat.add_assoc, Nat.add_comm 1 k] at this
    exact this

/-- One table of the weak list: afterwards it has the weak-table property. -/
theorem clearweakTab_spec (g : GState) (t : Nat) :
    ClearRel g (clearweakTab g t) ∧ Cleared (clearweakTab g t) t := by
  -- array part
  have hA : ∃ g1, g1 = (if (g.heap t).marked &&& LJ_GC_WEAKVAL ≠ 0 then
        loopT (clearArraySlot t) (g.heap t).array.length 0 g else g) ∧ ClearRel g g1 ∧
      ((g.heap t).marked &&& LJ_GC_WEAKVAL ≠ 0 →
        ∀ j, j < (g.heap t).array.length → arrOK g1 t j) := by
    by_cases hw : (g.heap t).marked &&& LJ_GC_WEAKVAL ≠ 0
    · rw [if_pos hw]
      have := loopT_inv (clearArraySlot t)
        (fun i gg => ClearRel g gg ∧ ∀ j, j < i → arrOK gg t j)
        (fun i gg hI => by
          obtain ⟨r, ok⟩ := clearArraySlot_spec gg t i
          refine ⟨hI.1.ctrans r, fun j hj => ?_⟩
          rcases Nat.lt_succ_iff_lt_or_eq.mp hj with h | h
          · exact arrOK_stable r (hI.2 j h)
          · rw [h]; exact ok)
        (g.heap t).array.length 0 g ⟨ClearRel.crefl g, fun j hj => absurd hj (Nat.not_lt_zero _)⟩
      rw [Nat.zero_add] at this
      exact ⟨_, rfl, this.1, fun _ => this.2⟩
    · rw [if_neg hw]
      exact ⟨g, rfl, ClearRel.crefl g, fun h => absurd h hw⟩
  obtain ⟨g1, hg1, rel1, ok1⟩ := hA
  unfold clearweakTab
  simp only
  rw [← hg1]
  by_cases hh : (g1.heap t).hmask > 0
  · rw [if_pos hh]
    have := loopT_inv (clearNode t)
      (fun i gg => ClearRel g1 gg ∧ ∀ j, j < i → nodeOK gg t j)
      (fun i gg hI => by
        obtain ⟨r, ok⟩ := clearNode_spec gg t i
        refine ⟨hI.1.ctrans r, fun j hj => ?_⟩
        rcases Nat.lt_succ_iff_lt_or_eq.mp hj with h | h
        · exact nodeOK_stable r (hI.2 j h)
        · rw [h]; exact ok)
      ((g1.heap t).hmask + 1) 0 g1 ⟨ClearRel.crefl g1, fun j hj => absurd hj (Nat.not_lt_zero _)⟩
    rw [Nat.zero_add] at this
    obtain ⟨rel2, ok2⟩ := this
    refine ⟨rel1.ctrans rel2, ?_, ?_⟩
    · intro i hi
      unfold hashIdx at hi
      rw [rel2.hmask] at hi
      exact ok2 i (Nat.lt_succ_of_le hi.2)
    · intro hw i hi
      rw [rel2.weakval, rel1.weakval] at hw
      rw [rel2.alen, rel1.alen] at hi
      exact arrOK_stable rel2 (ok1 hw i hi)
  · rw [if_neg hh]
    refine ⟨rel1, ?_, ?_⟩
    · intro i hi
      exact absurd hi.1 hh
    · intro hw i hi
      rw [rel1.weakval] at hw
      rw [rel1.alen] at hi
      exact ok1 hw i hi

theorem GChain.gcongr {g g' : GState} : ∀ {xs : List Nat} {h : Nat},
    (∀ x, (g'.heap x).gclist = (g.heap x).gclist) → GChain g h xs → GChain g' h xs
  | [], _, _, hc => hc
  | x :: xs, h, hn, hc => by
    obtain ⟨h1, h2, h3⟩ := hc
    refine ⟨h1, h2, ?_⟩
    rw [hn x]
    exact GChain.gcongr hn h3

/-- The whole of `gc_clearweak` on a list of tables. -/
theorem clearweak_main : ∀ (n : Nat) (ts : List Nat) (g : GState) (h : Nat),
    GChain g h ts → ts.length ≤ n →
    ∃ g', gc_clearweak n g h = some g' ∧ ClearRel g g' ∧ ∀ t ∈ ts, Cleared g' t := by
  intro n
  induction n with
  | zero =>
    intro ts g h hc hl
    have : ts = [] := List.length_eq_zero.mp (Nat.le_zero.mp hl)
    subst this
    have h0 : h = 0 := hc
    exact ⟨g, by simp [gc_clearweak, h0], ClearRel.crefl g, fun t ht => by simp at ht⟩
  | succ n ih =>
    intro ts g h hc hl
    cases ts with
    | nil =>
      have h0 : h = 0 := hc
      exact ⟨g, by simp [gc_clearweak, h0], ClearRel.crefl g, fun t ht => by simp at ht⟩
    | cons x rest =>
      obtain ⟨hx, hx0, hrest⟩ := hc
      obtain ⟨rel1, ok1⟩ := clearweakTab_spec g x
      have hc1 : GChain (clearweakTab g x) ((clearweakTab g x).heap x).gclist rest := by
        rw [rel1.gclist]
        exact GChain.gcongr rel1.gclist hrest
      obtain ⟨g', hrun, rel2, ok2⟩ := ih rest (clearweakTab g x) _ hc1
        (by simpa using hl)
      refine ⟨g', ?_, rel1.ctrans rel2, ?_⟩
      · rw [gc_clearweak, hx, if_neg hx0]
        exact hrun
      · intro t ht
        rcases List.mem_cons.mp ht with e | ht
        · rw [e]; exact Cleared_stable rel2 ok1
        · exact ok2 t ht

/-- C7: on a list of tables linked through `gclist`, `gc_clearweak` returns,
and afterwards, for every table on the list: no hash node the table owns
(`node[0..hmask]`, `hmask > 0`) whose value is still non-nil has a key or a
value that is a white non-string collectable, nor a value that is a
`FINALIZED` userdata, and the strings among its keys and values are not white;
with `WEAKVAL` the same holds for every array slot.  Everywhere in the heap a
key is never changed and a value or array slot is either unchanged or nil, and
it is nil only for a reason (`aboutToDie`, which a string never is and a
finalized userdata only as a value): a slot whose key is not a white
non-string collectable and whose value is not about to die keeps its value.
Every string the function examines is not white afterwards: the key of every
node that had a value, the value of every such node whose key was not about to
die, and with `WEAKVAL` every array slot. -/
theorem gc_clearweak_spec (fuel : Nat) (g : GState) (head : Nat) (ts : List Nat)
    (hch : GChain g head ts) (hfuel : ts.length ≤ fuel) :
    ∃ g', gc_clearweak fuel g head = some g' ∧
      (∀ t ∈ ts,
        (∀ i, (g'.heap t).hmask > 0 → i ≤ (g'.heap t).hmask →
          ((g'.heap t).node.getD i {}).val ≠ TValue.nil →
            ¬ whiteRef g' ((g'.heap t).node.getD i {}).key ∧
            ¬ whiteRef g' ((g'.heap t).node.getD i {}).val ∧
            ¬ finUdata g' ((g'.heap t).node.getD i {}).val ∧
            (tvisstr ((g'.heap t).node.getD i {}).key = true →
              ¬ iswhite (g'.heap (gcV ((g'.heap t).node.getD i {}).key))) ∧
            (tvisstr ((g'.heap t).node.getD i {}).val = true →
              ¬ iswhite (g'.heap (gcV ((g'.heap t).node.getD i {}).val)))) ∧
        ((g'.heap t).marked &&& LJ_GC_WEAKVAL ≠ 0 → ∀ i, i < (g'.heap t).array.length →
          ¬ whiteRef g' ((g'.heap t).array.getD i TValue.nil) ∧
          ¬ finUdata g' ((g'.heap t).array.getD i TValue.nil) ∧
          (tvisstr ((g'.heap t).array.getD i TValue.nil) = true →
            ¬ iswhite (g'.heap (gcV ((g'.heap t).array.getD i TValue.nil)))))) ∧
      (∀ a i, ((g'.heap a).node.getD i {}).key = ((g.heap a).node.getD i {}).key ∧
        (((g'.heap a).node.getD i {}).val = ((g.heap a).node.getD i {}).val ∨
          ((g'.heap a).node.getD i {}).val = TValue.nil) ∧
        ((g'.heap a).array.getD i TValue.nil = (g.heap a).array.getD i TValue.nil ∨
          (g'.heap a).array.getD i TValue.nil = TValue.nil)) ∧
      (∀ a i, ((g'.heap a).node.getD i {}).val ≠ ((g.heap a).node.getD i {}).val →
        whiteRef g ((g.heap a).node.getD i {}).key ∨
        whiteRef g ((g.heap a).node.getD i {}).val ∨
        finUdata g ((g.heap a).node.getD i {}).val) ∧
      (∀ a i, (g'.heap a).array.getD i TValue.nil ≠ (g.heap a).array.getD i TValue.nil →
        whiteRef g ((g.heap a).array.getD i TValue.nil) ∨
        finUdata g ((g.heap a).array.getD i TValue.nil)) ∧
      (∀ o, tvisstr o = true → ¬ whiteRef g o ∧ ¬ finUdata g o) ∧
      (∀ t ∈ ts,
        (∀ i, (g.heap t).hmask > 0 → i ≤ (g.heap t).hmask →
          ((g.heap t).node.getD i {}).val ≠ TValue.nil →
            (tvisstr ((g.heap t).node.getD i {}).key = true →
              ¬ iswhite (g'.heap (gcV ((g.heap t).node.getD i {}).key))) ∧
            (¬ whiteRef g ((g.heap t).node.getD i {}).key →
              tvisstr ((g.heap t).node.getD i {}).val = true →
              ¬ iswhite (g'.heap (gcV ((g.heap t).node.getD i {}).val)))) ∧
        ((g.heap t).marked &&& LJ_GC_WEAKVAL ≠ 0 → ∀ i, i < (g.heap t).array.length →
          tvisstr ((g.heap t).array.getD i TValue.nil) = true →
          ¬ iswhite (g'.heap (gcV ((g.heap t).array.getD i TValue.nil))))) ∧
      (∀ a, iswhite (g'.heap a) → iswhite (g.heap a)) := by
  obtain ⟨g', hrun, rel, ok⟩ := clearweak_main fuel ts g head hch hfuel
  have hstrno : ∀ o v, tvisstr o = true → ¬ aboutToDie g o v := by
    intro o v hs h
    rcases h with h | ⟨_, h⟩
    · have := h.2.1; rw [hs] at this; cases this
    · have := (tvisudata_facts h.1).2; rw [hs] at this; cases this
  refine ⟨g', hrun, ?_, ?_, ?_, ?_, ?_, ?_, rel.white⟩
  rotate_left 5
  · intro t ht
    obtain ⟨h1, h2⟩ := ok t ht
    refine ⟨fun i hm hi hv => ⟨fun hs => ?_, fun hk hs => ?_⟩, fun hw i hi hs => ?_⟩
    · rcases rel.val t i with e | ⟨_, _, s⟩
      · have := (h1 i ⟨by rw [rel.hmask]; exact hm, by rw [rel.hmask]; exact hi⟩
          (by rw [e]; exact hv)).2.2.2.1
        rw [rel.key] at this
        exact this hs
      · exact s hs
    · rcases rel.val t i with e | ⟨_, r, _⟩
      · have := (h1 i ⟨by rw [rel.hmask]; exact hm, by rw [rel.hmask]; exact hi⟩
          (by rw [e]; exact hv)).2.2.2.2
        rw [e] at this
        exact this hs
      · rcases r with r | r
        · rcases r with r | ⟨h, _⟩
          · exact absurd r hk
          · cases h
        · exact absurd r (hstrno _ _ hs)
    · rcases rel.array t i with e | ⟨_, r⟩
      · have := (h2 (by rw [rel.weakval]; exact hw) i (by rw [rel.alen]; exact hi)).2.2
        rw [e] at this
        exact this hs
      · exact absurd r (hstrno _ _ hs)
  · intro t ht
    obtain ⟨h1, h2⟩ := ok t ht
    exact ⟨fun i hm hi hv => h1 i ⟨hm, hi⟩ hv, fun hw i hi => h2 hw i hi⟩
  · intro a i
    refine ⟨rel.key a i, (rel.val a i).imp id And.left, (rel.array a i).imp id And.left⟩
  · intro a i hne
    rcases rel.val a i with e | ⟨_, r, _⟩
    · exact absurd e hne
    · rcases r with (r | ⟨h, _⟩) | (r | ⟨_, r⟩)
      · exact Or.inl r
      · cases h
      · exact Or.inr (Or.inl r)
      · exact Or.inr (Or.inr r)
  · intro a i hne
    rcases rel.array a i with e | ⟨_, r⟩
    · exact absurd e hne
    · rcases r with r | ⟨_, r⟩
      · exact Or.inl r
      · exact Or.inr r
  · intro o hs
    refine ⟨fun h => ?_, fun h => ?_⟩
    · have := h.2.1; rw [hs] at this; cases this
    · have := (tvisudata_facts h.1).2; rw [hs] at this; cases this

/-- Witness for `gc_clearweak_spec`: the weak table of `exWeak`. -/
theorem gc_clearweak_spec_witness :
    ∃ g', gc_clearweak 1 exWeak exWeak.weak = some g' ∧
      ((g'.heap 1).node.getD 1 {}).key = TValue.prim 5 ∧
      (∀ a, iswhite (g'.heap a) → iswhite (exWeak.heap a)) := by
  obtain ⟨g', h1, _, h3, _, _, _, _, h7⟩ :=
    gc_clearweak_spec 1 exWeak exWeak.weak [1] ⟨rfl, by decide, rfl⟩ (by decide)
  exact ⟨g', h1, (h3 1 1).1, h7⟩

/-! ## Separating userdata -/

theorem Seg.scongr {g g' : GState} : ∀ {xs : List Nat} {h e : Nat},
    (∀ x ∈ xs, (g'.heap x).nextgc = (g.heap x).nextgc) → Seg g h xs e → Seg g' h xs e
  | [], _, _, _, hc => hc
  | x :: xs, h, e, hn, hc => by
    obtain ⟨h1, h2, h3⟩ := hc
    refine ⟨h1, h2, ?_⟩
    rw [hn x (List.mem_cons_self _ _)]
    exact Seg.scongr (fun y hy => hn y (List.mem_cons_of_mem _ hy)) h3

theorem Seg.append {g : GState} : ∀ {xs ys : List Nat} {h m e : Nat},
    Seg g h xs m → Seg g m ys e → Seg g h (xs ++ ys) e
  | [], _, _, _, _, h1, h2 => by
    have : _ = _ := h1
    rw [List.nil_append, this]; exact h2
  | x :: xs, ys, h, m, e, h1, h2 => by
    obtain ⟨a, b, c⟩ := h1
    exact ⟨a, b, Seg.append c h2⟩

theorem Seg.snoc_iff {g : GState} : ∀ {xs : List Nat} {h t e : Nat},
    Seg g h (xs ++ [t]) e ↔ Seg g h xs t ∧ t ≠ 0 ∧ (g.heap t).nextgc = e
  | [], h, t, e => by
    constructor
    · rintro ⟨a, b, c⟩; exact ⟨a, b, c⟩
    · rintro ⟨a, b, c⟩; exact ⟨a, b, c⟩
  | x :: xs, h, t, e => by
    constructor
    · rintro ⟨a, b, c⟩
      obtain ⟨c1, c2, c3⟩ := Seg.snoc_iff.mp c
      exact ⟨⟨a, b, c1⟩, c2, c3⟩
    · rintro ⟨⟨a, b, c1⟩, c2, c3⟩
      exact ⟨a, b, Seg.snoc_iff.mpr ⟨c1, c2, c3⟩⟩

theorem Seg.nonzero {g : GState} : ∀ {xs : List Nat} {h e : Nat}, Seg g h xs e → 0 ∉ xs
  | [], _, _, _ => by simp
  | x :: xs, h, e, hc => by
    obtain ⟨_, h2, h3⟩ := hc
    intro hm
    rcases List.mem_cons.mp hm with e' | e'
    · exact h2 e'.symm
    · exact Seg.nonzero h3 e'

theorem Chain.seg {g : GState} : ∀ {xs : List Nat} {h : Nat}, Chain g h xs ↔ Seg g h xs 0
  | [], h => Iff.rfl
  | x :: xs, h => by
    constructor
    · rintro ⟨a, b, c⟩; exact ⟨a, b, Chain.seg.mp c⟩
    · rintro ⟨a, b, c⟩; exact ⟨a, b, Chain.seg.mpr c⟩

theorem Circ.tail_mem {g : GState} {tail : Nat} {ms : List Nat} (h : Circ g tail ms)
    (hne : ms ≠ []) : tail ∈ ms ∧ tail ≠ 0 := by
  cases ms with
  | nil => exact absurd rfl hne
  | cons m rest =>
    obtain ⟨h1, h2⟩ := h
    have hm : tail ∈ m :: rest := by rw [h1]; exact List.getLast_mem _
    exact ⟨hm, fun e => Seg.nonzero h2 (e ▸ hm)⟩

theorem Circ.nil_iff {g : GState} {tail : Nat} {ms : List Nat} (h : Circ g tail ms) :
    tail = 0 ↔ ms = [] := by
  constructor
  · intro e
    by_contra hne
    exact (h.tail_mem hne).2 e
  · intro e; subst e; exact h

/-- Appending an object to a non-empty circular list, as
`lj_gc_separateudata` links it: the old last element points at the new one,
which points at the first. -/
theorem Circ.snoc {g g' : GState} {tail x : Nat} {ms : List Nat} (h : Circ g tail ms)
    (hne : ms ≠ []) (hnd : ms.Nodup) (hx : x ∉ ms) (hx0 : x ≠ 0)
    (hxn : (g'.heap x).nextgc = (g.heap tail).nextgc)
    (htn : (g'.heap tail).nextgc = x)
    (hfr : ∀ a ∈ ms, a ≠ tail → (g'.heap a).nextgc = (g.heap a).nextgc) :
    Circ g' x (ms ++ [x]) := by
  cases ms with
  | nil => exact absurd rfl hne
  | cons m rest =>
    obtain ⟨h1, h2⟩ := h
    -- split off the last element
    have hsplit : (m :: rest) = (m :: rest).dropLast ++ [tail] := by
      rw [h1]; exact (List.dropLast_append_getLast _).symm
    have hnd' : ((m :: rest).dropLast ++ [tail]).Nodup := by rw [← hsplit]; exact hnd
    have htl : tail ∉ (m :: rest).dropLast := by
      intro hm
      have := (List.nodup_append.mp hnd').2.2
      exact this hm (List.mem_singleton_self _)
    rw [hsplit] at h2
    obtain ⟨s1, s2, s3⟩ := Seg.snoc_iff.mp h2
    have s1' : Seg g' m (m :: rest).dropLast tail :=
      Seg.scongr (fun a ha => hfr a (by rw [hsplit]; exact List.mem_append_left _ ha)
        (fun e => htl (e ▸ ha))) s1
    have hfull : Seg g' m (((m :: rest).dropLast ++ [tail]) ++ [x]) m :=
      Seg.snoc_iff.mpr ⟨Seg.snoc_iff.mpr ⟨s1', s2, htn⟩, hx0, by rw [hxn]; exact s3⟩
    rw [← hsplit] at hfull
    refine ⟨?_, hfull⟩
    simp

theorem separateMove_eq (g : GState) (p : Loc) (o : Nat) :
    separateMove g p o = moveLink (moveAnchors
      (p.set (g.modObj o markfinalized) ((g.modObj o markfinalized).heap o).nextgc) o) o := rfl

theorem moveAnchors_facts (g : GState) (o : Nat) :
    (moveAnchors g o).heap = g.heap ∧ (moveAnchors g o).mmudata = g.mmudata ∧
    (moveAnchors g o).restSep = g.restSep ∧ (moveAnchors g o).sizeudata = g.sizeudata := by
  unfold moveAnchors
  simp only []
  split <;> split <;> exact ⟨rfl, rfl, rfl, rfl⟩

theorem moveLink_facts (g : GState) (o : Nat) :
    (∀ a, (moveLink g o).heap a =
      if g.mmudata ≠ 0 then
        (if a = g.mmudata then { (if a = o then
            { g.heap o with nextgc := (g.heap g.mmudata).nextgc } else g.heap a) with nextgc := o }
         else if a = o then { g.heap o with nextgc := (g.heap g.mmudata).nextgc } else g.heap a)
      else if a = o then { g.heap o with nextgc := o } else g.heap a) ∧
    (moveLink g o).mmudata = o ∧
    (moveLink g o).restSep = g.restSep ∧ (moveLink g o).sizeudata = g.sizeudata := by
  unfold moveLink
  by_cases hm : g.mmudata = 0
  · rw [if_neg (fun h => h hm)]
    refine ⟨fun a => ?_, rfl, rfl, rfl⟩
    rw [if_neg (fun h => h hm)]
    dsimp only
    rw [modObj_heap]
  · rw [if_pos hm]
    refine ⟨fun a => ?_, rfl, rfl, rfl⟩
    rw [if_pos hm]
    dsimp only
    by_cases h1 : a = g.mmudata
    · subst h1; rw [if_pos rfl, modObj_heap, if_pos rfl, modObj_heap]
    · rw [if_neg h1, modObj_heap, if_neg h1, modObj_heap]

theorem separateMove_facts (g : GState) (q x : Nat) (hxq : x ≠ q) (hxm : x ≠ g.mmudata)
    (hqm : q ≠ g.mmudata) :
    (∀ a, (separateMove g (Loc.nextgc q) x).heap a = moveHeap g q x a) ∧
    (separateMove g (Loc.nextgc q) x).mmudata = x ∧
    (separateMove g (Loc.nextgc q) x).restSep = g.restSep ∧
    (separateMove g (Loc.nextgc q) x).sizeudata = g.sizeudata := by
  have hqx : q ≠ x := fun e => hxq e.symm
  have hmx : g.mmudata ≠ x := fun e => hxm e.symm
  have hmq : g.mmudata ≠ q := fun e => hqm e.symm
  rw [separateMove_eq]
  generalize hG2 : Loc.set (g.modObj x markfinalized) (Loc.nextgc q)
    ((g.modObj x markfinalized).heap x).nextgc = G2
  have h2h : ∀ a, G2.heap a = if a = q then { g.heap q with nextgc := (g.heap x).nextgc }
      else if a = x then markfinalized (g.heap x) else g.heap a := by
    intro a; rw [← hG2]; unfold Loc.set
    simp only [modObj_heap, hqx, if_false, if_true]
    by_cases h : a = q
    · simp [h, markfinalized]
    · simp [h]
  have h2m : G2.mmudata = g.mmudata := by rw [← hG2]; rfl
  have h2r : G2.restSep = g.restSep := by rw [← hG2]; rfl
  have h2s : G2.sizeudata = g.sizeudata := by rw [← hG2]; rfl
  obtain ⟨a1, a2, a3, a4⟩ := moveAnchors_facts G2 x
  generalize moveAnchors G2 x = G4 at a1 a2 a3 a4 ⊢
  obtain ⟨l1, l2, l3, l4⟩ := moveLink_facts G4 x
  refine ⟨fun a => ?_, l2, l3.trans (a3.trans h2r), l4.trans (a4.trans h2s)⟩
  rw [l1, a1, a2, h2m, h2h, h2h, h2h]
  unfold moveHeap
  by_cases hm : g.mmudata = 0
  · by_cases h1 : a = x
    · simp [h1, hxq, hm, markfinalized]
    · by_cases h2 : a = q
      · simp [h1, h2, hm, hqx]
      · simp [h1, h2, hm]
  · by_cases h1 : a = x
    · simp [h1, hxq, hm, hxm, hmx, hmq, markfinalized]
    · by_cases h2 : a = q
      · simp [h1, h2, hm, hqx, hqm, hmx, hmq]
      · by_cases h3 : a = g.mmudata
        · simp [h3, hm, hmx, hmq]
        · simp [h1, h2, h3, hm]

theorem Circ.ccongr {g g' : GState} {tail : Nat} {ms : List Nat}
    (hn : ∀ x ∈ ms, (g'.heap x).nextgc = (g.heap x).nextgc) (h : Circ g tail ms) :
    Circ g' tail ms := by
  cases ms with
  | nil => exact h
  | cons m rest => exact ⟨h.1, Seg.scongr hn h.2⟩

theorem Circ.single {g : GState} {x : Nat} (hx0 : x ≠ 0) (hn : (g.heap x).nextgc = x) :
    Circ g x [x] :=
  ⟨rfl, rfl, hx0, hn⟩

theorem moveHeap_other (g : GState) (q x a : Nat) (h1 : a ≠ x) (h2 : a ≠ q)
    (h3 : g.mmudata ≠ 0 → a ≠ g.mmudata) : moveHeap g q x a = g.heap a := by
  unfold moveHeap
  rw [if_neg h1, if_neg (fun h => h3 h.2 h.1), if_neg h2]

theorem moveHeap_shape (g : GState) (q x a : Nat) :
    shapeN (moveHeap g q x a) = shapeN (g.heap a) := by
  unfold moveHeap
  by_cases h1 : a = x
  · rw [if_pos h1]; subst h1; rfl
  · rw [if_neg h1]
    by_cases h2 : a = g.mmudata ∧ g.mmudata ≠ 0
    · rw [if_pos h2]; rfl
    · rw [if_neg h2]
      by_cases h3 : a = q
      · rw [if_pos h3]; subst h3; rfl
      · rw [if_neg h3]

theorem moveHeap_marked (g : GState) (q x a : Nat) (h1 : a ≠ x) :
    (moveHeap g q x a).marked = (g.heap a).marked := by
  unfold moveHeap
  rw [if_neg h1]
  by_cases h2 : a = g.mmudata ∧ g.mmudata ≠ 0
  · rw [if_pos h2]
  · rw [if_neg h2]
    by_cases h3 : a = q
    · rw [if_pos h3]; subst h3; rfl
    · rw [if_neg h3]

theorem shapeN_fields {a b : GCobj} (h : shapeN a = shapeN b) :
    a.metatable = b.metatable ∧ a.mmGc = b.mmGc ∧ a.len = b.len ∧ a.gct = b.gct := by
  have e1 : (shapeN a).metatable = (shapeN b).metatable := by rw [h]
  have e2 : (shapeN a).mmGc = (shapeN b).mmGc := by rw [h]
  have e3 : (shapeN a).len = (shapeN b).len := by rw [h]
  have e4 : (shapeN a).gct = (shapeN b).gct := by rw [h]
  exact ⟨e1, e2, e3, e4⟩

theorem metaGc_congr {g g' : GState} (hs : ∀ a, shapeN (g'.heap a) = shapeN (g.heap a))
    (mt : Nat) : metaGc g' mt = metaGc g mt := by
  unfold metaGc
  rw [(shapeN_fields (hs mt)).2.1]

theorem sepCand_congr {g g' : GState} {x : Nat} (all : Bool)
    (hm : (g'.heap x).marked = (g.heap x).marked) : sepCand g' all x ↔ sepCand g all x := by
  unfold sepCand iswhite isfinalized
  rw [hm]

theorem movable_congr {g g' : GState} {x : Nat} (all : Bool)
    (hm : (g'.heap x).marked = (g.heap x).marked)
    (hs : ∀ a, shapeN (g'.heap a) = shapeN (g.heap a)) :
    movable g' all x ↔ movable g all x := by
  unfold movable iswhite isfinalized
  rw [hm, metaGc_congr hs, (shapeN_fields (hs x)).1]

theorem movable_cand {g : GState} {all : Bool} {x : Nat} (h : movable g all x) :
    sepCand g all x := ⟨h.1, h.2.1⟩

theorem markfinalized_shape (g : GState) (x a : Nat) :
    shapeN ((g.modObj x markfinalized).heap a) = shapeN (g.heap a) := by
  rw [modObj_heap]
  split_ifs with h
  · subst h; rfl
  · rfl

theorem restSep_sizeudata {g g' : GState} (h : g'.restSep = g.restSep) :
    g'.sizeudata = g.sizeudata := by
  have : g'.restSep.sizeudata = g.restSep.sizeudata := by rw [h]
  exact this

/-- The statement of `SepPost` only depends on the marks of the listed
objects and on what `lj_gc_separateudata` never changes. -/
theorem sep_congr {g g1 : GState} (all : Bool) (xs : List Nat)
    (hh : ∀ y ∈ xs, g1.heap y = g.heap y)
    (hs : ∀ a, shapeN (g1.heap a) = shapeN (g.heap a))
    (hz : g1.sizeudata = g.sizeudata) :
    xs.filter (fun x => decide (movable g1 all x)) = xs.filter (fun x => decide (movable g all x)) ∧
    xs.filter (fun x => decide (¬ movable g1 all x))
      = xs.filter (fun x => decide (¬ movable g all x)) ∧
    ((xs.filter (fun x => decide (movable g1 all x))).map (fun x => g1.sizeudata (g1.heap x))).sum
      = ((xs.filter (fun x => decide (movable g all x))).map
          (fun x => g.sizeudata (g.heap x))).sum := by
  have hmv : ∀ y ∈ xs, (movable g1 all y ↔ movable g all y) :=
    fun y hy => movable_congr all (by rw [hh y hy]) hs
  have e1 : xs.filter (fun x => decide (movable g1 all x))
      = xs.filter (fun x => decide (movable g all x)) :=
    List.filter_congr (fun y hy => by simp only [decide_eq_decide]; exact hmv y hy)
  have e2 : xs.filter (fun x => decide (¬ movable g1 all x))
      = xs.filter (fun x => decide (¬ movable g all x)) :=
    List.filter_congr (fun y hy => by
      simp only [decide_eq_decide]; exact not_congr (hmv y hy))
  refine ⟨e1, e2, ?_⟩
  rw [e1, hz]
  congr 1
  apply List.map_congr_left
  intro y hy
  rw [hh y (List.mem_filter.mp hy).1]

theorem separateLoop_nil (all : Bool) (n : Nat) (g : GState) (p : Loc) (m : Nat)
    (h : p.get g = 0) : separateLoop all n g p m = some (g, m) := by
  cases n with
  | zero => unfold separateLoop; rw [if_pos h]
  | succ n => unfold separateLoop; simp only []; rw [if_pos h]

theorem separateLoop_skip (all : Bool) (n : Nat) (g : GState) (p : Loc) (m x : Nat)
    (h : p.get g = x) (hx0 : x ≠ 0) (hc : ¬ sepCand g all x) :
    separateLoop all (n + 1) g p m = separateLoop all n g (Loc.nextgc x) m := by
  conv => lhs; unfold separateLoop
  simp only []
  rw [h, if_neg hx0, if_pos]
  by_contra hn
  exact hc ⟨by_contra fun h1 => hn (Or.inl h1), fun h2 => hn (Or.inr h2)⟩

theorem separateLoop_nogc (all : Bool) (n : Nat) (g : GState) (p : Loc) (m x : Nat)
    (h : p.get g = x) (hx0 : x ≠ 0) (hc : sepCand g all x)
    (hg : metaGc g (g.heap x).metatable = none) :
    separateLoop all (n + 1) g p m
      = separateLoop all n (g.modObj x markfinalized) (Loc.nextgc x) m := by
  conv => lhs; unfold separateLoop
  simp only []
  rw [h, if_neg hx0, if_neg, if_pos hg]
  rintro (h1 | h2)
  · exact h1 hc.1
  · exact hc.2 h2

theorem separateLoop_move (all : Bool) (n : Nat) (g : GState) (p : Loc) (m x : Nat)
    (h : p.get g = x) (hx0 : x ≠ 0) (hc : sepCand g all x)
    (hg : metaGc g (g.heap x).metatable ≠ none) :
    separateLoop all (n + 1) g p m
      = separateLoop all n (separateMove g p x) p (m + g.sizeudata (g.heap x)) := by
  conv => lhs; unfold separateLoop
  simp only []
  rw [h, if_neg hx0, if_neg, if_neg hg]
  rintro (h1 | h2)
  · exact h1 hc.1
  · exact hc.2 h2

/-- The loop of `lj_gc_separateudata` terminates on a well-formed userdata
list and leaves the state `SepPost` describes. -/
theorem separateLoop_spec (all : Bool) : ∀ (xs : List Nat) (n : Nat) (g : GState) (q m : Nat)
    (ms : List Nat), Chain g (g.heap q).nextgc xs → Circ g g.mmudata ms → (xs ++ ms).Nodup →
    q ≠ 0 → q ∉ xs → q ∉ ms → xs.length ≤ n →
    ∃ g' m', separateLoop all n g (Loc.nextgc q) m = some (g', m') ∧
      SepPost g all q xs ms m g' m'
  | [], n, g, q, m, ms, hc, hcirc, _, _, _, _, _ => by
    refine ⟨g, m, separateLoop_nil all n g _ m hc, ?_⟩
    exact ⟨hc, by simpa using hcirc, fun x hx => (by cases hx), fun _ _ => rfl, fun _ => rfl,
      fun _ _ _ _ => rfl, by simp, rfl⟩
  | x :: rest, 0, _, _, _, _, _, _, _, _, _, _, hl => by simp at hl
  | x :: rest, n + 1, g, q, m, ms, hc, hcirc, hnd, hq0, hq, hqm, hl => by
    obtain ⟨hqx', hx0, hrest⟩ := hc
    have hget : Loc.get g (Loc.nextgc q) = x := hqx'
    have hnd' : (rest ++ ms).Nodup := (List.nodup_cons.mp hnd).2
    have hxr : x ∉ rest := fun h => (List.nodup_cons.mp hnd).1 (List.mem_append_left _ h)
    have hxm : x ∉ ms := fun h => (List.nodup_cons.mp hnd).1 (List.mem_append_right _ h)
    have hqx : q ≠ x := fun e => hq (e ▸ List.mem_cons_self _ _)
    have hqr : q ∉ rest := fun h => hq (List.mem_cons_of_mem _ h)
    have hln : rest.length ≤ n := Nat.le_of_succ_le_succ hl
    by_cases hcand : sepCand g all x
    · by_cases hg : metaGc g (g.heap x).metatable = none
      · -- no finalizer: just mark
        rw [separateLoop_nogc all n g _ m x hget hx0 hcand hg]
        have hmov : ¬ movable g all x := fun h => h.2.2 hg
        have hh : ∀ a, a ≠ x → (g.modObj x markfinalized).heap a = g.heap a :=
          fun a ha => modObj_heap_ne _ _ _ _ ha
        have hhr : ∀ y ∈ rest, (g.modObj x markfinalized).heap y = g.heap y :=
          fun y hy => hh y (fun e => hxr (e ▸ hy))
        obtain ⟨g', m', hrun, P⟩ := separateLoop_spec all rest n (g.modObj x markfinalized) x m ms
          (by
            rw [modObj_heap_same]
            exact Chain.congr (fun y hy => by rw [hhr y hy]) hrest)
          (Circ.ccongr (fun y hy => by rw [hh y (fun e => hxm (e ▸ hy))]) hcirc)
          hnd' hx0 hxr hxm hln
        obtain ⟨e1, e2, e3⟩ := sep_congr all rest hhr (markfinalized_shape g x) rfl
        refine ⟨g', m', hrun, ?_⟩
        refine ⟨?_, ?_, ?_, ?_, ?_, ?_, ?_, P.rest⟩
        · rw [List.filter_cons_of_pos (by simpa using hmov)]
          refine ⟨?_, hx0, ?_⟩
          · rw [P.frame q hqr hqm hqx, hh q hqx]; exact hqx'
          · rw [← e2]; exact P.chain
        · rw [List.filter_cons_of_neg (by simpa using hmov), ← e1]; exact P.circ
        · intro y hy
          rcases List.mem_cons.mp hy with e | hy'
          · subst e
            rw [P.marked_out y hxr, if_pos hcand, modObj_heap_same]; rfl
          · rw [P.marked_in y hy', hhr y hy']
            by_cases hcy : sepCand g all y
            · rw [if_pos hcy, if_pos ((sepCand_congr all (by rw [hhr y hy'])).mpr hcy)]
            · rw [if_neg hcy, if_neg (fun h => hcy ((sepCand_congr all (by rw [hhr y hy'])).mp h))]
        · intro a ha
          rw [P.marked_out a (fun h => ha (List.mem_cons_of_mem _ h)),
            hh a (fun e => ha (e ▸ List.mem_cons_self _ _))]
        · intro a; rw [P.shape a]; exact markfinalized_shape g x a
        · intro a ha ham haq
          have hax : a ≠ x := fun e => ha (e ▸ List.mem_cons_self _ _)
          rw [P.frame a (fun h => ha (List.mem_cons_of_mem _ h)) ham hax, hh a hax]
        · rw [List.filter_cons_of_neg (by simpa using hmov), ← e3]; exact P.size
      · -- finalizer present: move to the end of mmudata
        rw [separateLoop_move all n g _ m x hget hx0 hcand hg]
        have hmov : movable g all x := ⟨hcand.1, hcand.2, hg⟩
        have hdis : ∀ y ∈ rest, y ∉ ms := fun y hy hym =>
          (List.nodup_append.mp hnd').2.2 hy hym
        have hmm0 : ∀ a, a ∉ ms → g.mmudata ≠ 0 → a ≠ g.mmudata := by
          intro a ha h0 e
          have hne : ms ≠ [] := fun h => h0 (hcirc.nil_iff.mpr h)
          exact ha (e ▸ (hcirc.tail_mem hne).1)
        have hqmm : q ≠ g.mmudata := by
          by_cases h0 : g.mmudata = 0
          · rw [h0]; exact hq0
          · exact hmm0 q hqm h0
        have hxmm : x ≠ g.mmudata := by
          by_cases h0 : g.mmudata = 0
          · rw [h0]; exact hx0
          · exact hmm0 x hxm h0
        obtain ⟨f1, f2, f3, f4⟩ := separateMove_facts g q x (fun e => hqx e.symm) hxmm hqmm
        generalize separateMove g (Loc.nextgc q) x = G7 at f1 f2 f3 f4 ⊢
        have hhr : ∀ y ∈ rest, G7.heap y = g.heap y := fun y hy => by
          rw [f1]
          exact moveHeap_other g q x y (fun e => hxr (e ▸ hy)) (fun e => hqr (e ▸ hy))
            (hmm0 y (hdis y hy))
        have hxmk : (G7.heap x).marked = (g.heap x).marked ||| LJ_GC_FINALIZED := by
          rw [f1]; unfold moveHeap; rw [if_pos rfl]
        have hxn : (G7.heap x).nextgc
            = if g.mmudata ≠ 0 then (g.heap g.mmudata).nextgc else x := by
          rw [f1]; unfold moveHeap; rw [if_pos rfl]
        have hqn : (G7.heap q).nextgc = (g.heap x).nextgc := by
          rw [f1]; unfold moveHeap
          rw [if_neg hqx, if_neg (fun h => hqmm h.1), if_pos rfl]
        have hcirc7 : Circ G7 G7.mmudata (ms ++ [x]) := by
          rw [f2]
          by_cases hne : ms = []
          · subst hne
            have h0 : g.mmudata = 0 := hcirc
            exact Circ.single hx0 (by rw [hxn, if_neg (fun h => h h0)])
          · have h0 : g.mmudata ≠ 0 := fun h => hne (hcirc.nil_iff.mp h)
            refine Circ.snoc hcirc hne (List.nodup_append.mp hnd').2.1 hxm hx0
              (by rw [hxn, if_pos h0]) ?_ ?_
            · rw [f1]; unfold moveHeap
              rw [if_neg (fun e => hxmm e.symm), if_pos ⟨rfl, h0⟩]
            · intro a ha hat
              rw [f1, moveHeap_other g q x a (fun e => hxm (e ▸ ha)) (fun e => hqm (e ▸ ha))
                (fun _ => hat)]
        have hnd7 : (rest ++ (ms ++ [x])).Nodup := by
          rw [← List.append_assoc]
          refine List.nodup_append.mpr ⟨hnd', List.nodup_singleton x, ?_⟩
          intro y hy hyx
          rw [List.mem_singleton] at hyx
          subst hyx
          rcases List.mem_append.mp hy with h | h
          · exact hxr h
          · exact hxm h
        obtain ⟨g', m', hrun, P⟩ := separateLoop_spec all rest n G7 q
          (m + g.sizeudata (g.heap x)) (ms ++ [x])
          (by rw [hqn]; exact Chain.congr (fun y hy => by rw [hhr y hy]) hrest)
          hcirc7 hnd7 hq0 hqr
          (fun h => by
            rcases List.mem_append.mp h with h | h
            · exact hqm h
            · exact hqx (List.mem_singleton.mp h))
          hln
        have hs7 : ∀ a, shapeN (G7.heap a) = shapeN (g.heap a) :=
          fun a => by rw [f1]; exact moveHeap_shape g q x a
        obtain ⟨e1, e2, e3⟩ := sep_congr all rest hhr hs7 f4
        refine ⟨g', m', hrun, ?_⟩
        refine ⟨?_, ?_, ?_, ?_, ?_, ?_, ?_, P.rest.trans f3⟩
        · rw [List.filter_cons_of_neg (by simpa using hmov), ← e2]; exact P.chain
        · rw [List.filter_cons_of_pos (by simpa using hmov), ← e1]
          have := P.circ
          rw [List.append_assoc] at this
          exact this
        · intro y hy
          rcases List.mem_cons.mp hy with e | hy'
          · subst e
            rw [P.marked_out y hxr, if_pos hcand, hxmk]
          · rw [P.marked_in y hy', hhr y hy']
            by_cases hcy : sepCand g all y
            · rw [if_pos hcy, if_pos ((sepCand_congr all (by rw [hhr y hy'])).mpr hcy)]
            · rw [if_neg hcy, if_neg (fun h => hcy ((sepCand_congr all (by rw [hhr y hy'])).mp h))]
        · intro a ha
          rw [P.marked_out a (fun h => ha (List.mem_cons_of_mem _ h)), f1,
            moveHeap_marked g q x a (fun e => ha (e ▸ List.mem_cons_self _ _))]
        · intro a; rw [P.shape a]; exact hs7 a
        · intro a ha ham haq
          have hax : a ≠ x := fun e => ha (e ▸ List.mem_cons_self _ _)
          rw [P.frame a (fun h => ha (List.mem_cons_of_mem _ h))
            (fun h => by
              rcases List.mem_append.mp h with h | h
              · exact ham h
              · exact hax (List.mem_singleton.mp h)) haq, f1,
            moveHeap_other g q x a hax haq (hmm0 a ham)]
        · rw [List.filter_cons_of_pos (by simpa using hmov), List.map_cons, List.sum_cons,
            ← e3, ← Nat.add_assoc]
          exact P.size
    · -- not a candidate: step over it
      rw [separateLoop_skip all n g _ m x hget hx0 hcand]
      have hmov : ¬ movable g all x := fun h => hcand (movable_cand h)
      obtain ⟨g', m', hrun, P⟩ := separateLoop_spec all rest n g x m ms hrest hcirc hnd' hx0 hxr hxm hln
      refine ⟨g', m', hrun, ?_⟩
      refine ⟨?_, ?_, ?_, ?_, P.shape, ?_, ?_, P.rest⟩
      · rw [List.filter_cons_of_pos (by simpa using hmov)]
        refine ⟨?_, hx0, P.chain⟩
        rw [P.frame q hqr hqm hqx]; exact hqx'
      · rw [List.filter_cons_of_neg (by simpa using hmov)]; exact P.circ
      · intro y hy
        rcases List.mem_cons.mp hy with e | hy'
        · subst e; rw [P.marked_out y hxr, if_neg hcand]
        · exact P.marked_in y hy'
      · intro a ha; exact P.marked_out a (fun h => ha (List.mem_cons_of_mem _ h))
      · intro a ha ham haq
        exact P.frame a (fun h => ha (List.mem_cons_of_mem _ h)) ham
          (fun e => ha (e ▸ List.mem_cons_self _ _))
      · rw [List.filter_cons_of_neg (by simpa using hmov)]; exact P.size

/-! ## The `FINALIZED` bit is never cleared -/

theorem FinKept.frefl (g : GState) : FinKept g g := fun _ h => h

theorem FinKept.ftrans {a b c : GState} (h1 : FinKept a b) (h2 : FinKept b c) : FinKept a c :=
  fun x h => h2 x (h1 x h)

theorem FinKept.f_of_heap {g g' : GState} (h : g'.heap = g.heap) : FinKept g g' :=
  fun a ha => by rw [h]; exact ha

theorem FinKept.modObj (g : GState) (o : Nat) (f : GCobj → GCobj)
    (hf : isfinalized (g.heap o) → isfinalized (f (g.heap o))) : FinKept g (g.modObj o f) := by
  intro a ha
  rw [modObj_heap]
  split_ifs with h
  · subst h; exact hf ha
  · exact ha

theorem isfinalized_of_bits {x y : GCobj} (h : y.marked &&& 248 = x.marked &&& 248) :
    isfinalized x → isfinalized y := by
  unfold isfinalized
  rw [and8_of_and248 (show 248 &&& LJ_GC_FINALIZED = LJ_GC_FINALIZED by decide) h]
  exact id

theorem fin_white2gray (x : GCobj) : isfinalized x → isfinalized (white2gray x) :=
  isfinalized_of_bits (w2g_bits x.marked).2.1

theorem fin_gray2black (x : GCobj) : isfinalized x → isfinalized (gray2black x) :=
  isfinalized_of_bits (g2b_bits x.marked).2.1

theorem fin_makewhite (g : GState) (x : GCobj) : isfinalized x → isfinalized (makewhite g x) :=
  isfinalized_of_bits (mkw_bits x.marked g.currentwhite).2.1

set_option maxRecDepth 100000 in

theorem or8_byte : ∀ r, r < 256 → (r ||| 8) &&& 8 = 8 := by decide

theorem fin_markfinalized (x : GCobj) : isfinalized (markfinalized x) := by
  unfold isfinalized markfinalized
  show (x.marked ||| 8) &&& 8 ≠ 0
  rw [land_byte (x.marked ||| 8) 8 (by decide), mod256_or,
    or8_byte (x.marked % 256) (mod256_lt x.marked)]
  decide

theorem FinKept.bind {X : Option GState} {f : GState → Option GState} {g g' : GState}
    (hX : ∀ g1, X = some g1 → FinKept g g1)
    (hf : ∀ g1 g2, X = some g1 → f g1 = some g2 → FinKept g1 g2)
    (h : X.bind f = some g') : FinKept g g' := by
  cases hx : X with
  | none => rw [hx] at h; cases h
  | some g1 =>
    rw [hx] at h
    exact (hX g1 hx).ftrans (hf g1 g' hx h)

theorem FinKept.guard (c : Prop) [Decidable c] {X : Option GState} {g g' : GState}
    (hX : ∀ g1, X = some g1 → FinKept g g1)
    (h : (if c then X else some g) = some g') : FinKept g g' := by
  by_cases hc : c
  · rw [if_pos hc] at h; exact hX g' h
  · rw [if_neg hc] at h; cases h; exact FinKept.frefl g

theorem gc_mark_fin : ∀ (n : Nat) (g : GState) (o : Nat) (g' : GState),
    gc_mark n g o = some g' → FinKept g g' := by
  intro n
  induction n with
  | zero => intro g o g' h; simp [gc_mark] at h
  | succ n ih =>
    intro g o g' h
    have h1 : FinKept g (g.modObj o white2gray) := FinKept.modObj g o _ (fin_white2gray _)
    refine h1.ftrans ?_
    unfold gc_mark at h
    simp only [] at h
    generalize g.modObj o white2gray = G at h ⊢
    cases hg : (g.heap o).gct <;> rw [hg] at h <;> simp only [] at h
    case udata =>
      exact (FinKept.modObj G o _ (fin_gray2black _)).ftrans
        (FinKept.bind (fun g1 h1 => FinKept.guard _ (fun g2 h2 => ih _ _ _ h2) h1)
          (fun g1 g2 _ h2 => FinKept.guard _ (fun g3 h3 => ih _ _ _ h3) h2) h)
    case upval =>
      refine FinKept.bind (fun g1 h1 => FinKept.guard _ (fun g2 h2 => ih _ _ _ h2) h1)
        (fun g1 g2 _ h2 => ?_) h
      split at h2
      · cases h2; exact FinKept.modObj g1 o _ (fin_gray2black _)
      · cases h2; exact FinKept.frefl _
    case str => cases h; exact FinKept.frefl _
    case cdata => cases h; exact FinKept.frefl _
    all_goals
      cases h
      intro a ha
      exact FinKept.modObj G o (fun x => { x with gclist := G.gray }) (fun hh => hh) a ha

theorem markMmudataLoop_fin (root : Nat) : ∀ (n : Nat) (g : GState) (u : Nat) (g' : GState),
    markMmudataLoop root n g u = some g' → FinKept g g' := by
  intro n
  induction n with
  | zero => intro g u g' h; simp [markMmudataLoop] at h
  | succ n ih =>
    intro g u g' h
    unfold markMmudataLoop at h
    simp only [] at h
    refine FinKept.ftrans ?_
      (FinKept.bind (fun g1 h1 => gc_mark_fin _ _ _ _ h1) (fun g1 g2 _ h2 => ?_) h)
    · exact FinKept.modObj g _ _ (fin_makewhite g _)
    · split at h2
      · exact ih _ _ _ h2
      · cases h2; exact FinKept.frefl _

theorem gc_mark_mmudata_fin (n : Nat) (g g' : GState) (h : gc_mark_mmudata n g = some g') :
    FinKept g g' := by
  unfold gc_mark_mmudata at h
  split at h
  · exact markMmudataLoop_fin _ _ _ _ _ h
  · cases h; exact FinKept.frefl _

theorem Loc.set_fin (g : GState) (p : Loc) (r : Nat) : FinKept g (p.set g r) := by
  cases p with
  | root => exact FinKept.f_of_heap rfl
  | strhash i => exact FinKept.f_of_heap rfl
  | nextgc o => exact FinKept.modObj g o (fun x => { x with nextgc := r }) (fun h => h)
  | openupval o => exact FinKept.modObj g o (fun x => { x with openupval := r }) (fun h => h)

theorem Anchor.aset_fin (g : GState) (p : Anchor) (r : Nat) : FinKept g (p.set g r) := by
  cases p with
  | old => exact FinKept.f_of_heap rfl
  | udataold => exact FinKept.f_of_heap rfl

theorem gc_free_fin (g : GState) (o : Nat) : FinKept g (gc_free g o) := FinKept.f_of_heap rfl

theorem free_ite_heap (G : GState) (c : Prop) [Decidable c] (v o : Nat) :
    (gc_free (if c then { G with root := v } else G) o).heap = G.heap := by
  split <;> rfl

theorem sweepLoop_fin (inner : GState → Nat → Option GState) (ow : Nat)
    (hin : ∀ g o g', inner g o = some g' → FinKept g g') :
    ∀ (lim : Nat) (g : GState) (p : Loc) (r : GState × Loc),
      sweepLoop inner ow lim g p = some r → FinKept g r.1 := by
  intro lim
  induction lim with
  | zero => intro g p r h; simp [sweepLoop] at h; subst h; exact FinKept.frefl _
  | succ lim ih =>
    intro g p r h
    unfold sweepLoop at h
    simp only [] at h
    split at h
    · cases h; exact FinKept.frefl _
    · cases hx : (if (g.heap (p.get g)).gct = GCT.thread then inner g (p.get g) else some g) with
      | none => rw [hx] at h; cases h
      | some g1 =>
        rw [hx] at h
        have h1 : FinKept g g1 := by
          split at hx
          · exact hin _ _ _ hx
          · cases hx; exact FinKept.frefl _
        refine h1.ftrans ?_
        simp only [Option.bind] at h
        split at h
        · exact (FinKept.modObj g1 _ _ (fin_makewhite g1 _)).ftrans (ih _ _ _ h)
        · refine FinKept.ftrans ?_ (ih _ _ _ h)
          intro a ha
          rw [free_ite_heap]
          exact Loc.set_fin g1 p _ a ha

theorem gc_sweep_fin : ∀ (d : Nat) (g : GState) (p : Loc) (lim : Nat) (r : GState × Loc),
    gc_sweep d g p lim = some r → FinKept g r.1 := by
  intro d
  induction d with
  | zero =>
    intro g p lim r h
    unfold gc_sweep at h
    exact sweepLoop_fin _ _ (fun _ _ _ hh => by cases hh) _ _ _ _ h
  | succ d ih =>
    intro g p lim r h
    unfold gc_sweep at h
    refine sweepLoop_fin _ _ (fun g1 o g2 hh => ?_) _ _ _ _ h
    cases hs : gc_sweep d g1 (Loc.openupval o) (2 ^ 32 - 1) with
    | none => rw [hs] at hh; cases hh
    | some r1 =>
      rw [hs] at hh
      cases hh
      exact ih _ _ _ _ hs

theorem fin_setage (x : GCobj) (a : Nat) : isfinalized x → isfinalized (setage x a) :=
  fun h => h

theorem sweep2old_fin : ∀ (n : Nat) (g : GState) (p : Loc) (g' : GState),
    sweep2old n g p = some g' → FinKept g g' := by
  intro n
  induction n with
  | zero =>
    intro g p g' h
    unfold sweep2old at h
    split at h
    · cases h; exact FinKept.frefl _
    · cases h
  | succ n ih =>
    intro g p g' h
    unfold sweep2old at h
    simp only [] at h
    split at h
    · cases h; exact FinKept.frefl _
    · refine FinKept.bind (fun g1 h1 => FinKept.guard _ (fun g2 h2 => ih _ _ _ h2) h1)
        (fun g1 g2 _ h2 => ?_) h
      split at h2
      · refine FinKept.ftrans ?_ (ih _ _ _ h2)
        exact (Loc.set_fin g1 p _).ftrans (gc_free_fin _ _)
      · refine FinKept.ftrans ?_ (ih _ _ _ h2)
        exact FinKept.modObj g1 _ (fun x => setage x G_OLD) (fun hh => hh)

theorem whitelist_fin : ∀ (n : Nat) (g : GState) (p : Nat) (g' : GState),
    whitelist n g p = some g' → FinKept g g' := by
  intro n
  induction n with
  | zero =>
    intro g p g' h
    unfold whitelist at h
    split at h
    · cases h; exact FinKept.frefl _
    · cases h
  | succ n ih =>
    intro g p g' h
    unfold whitelist at h
    split at h
    · cases h; exact FinKept.frefl _
    · simp only [] at h
      refine FinKept.ftrans ?_
        (FinKept.bind (fun g1 h1 => FinKept.guard _ (fun g2 h2 => ih _ _ _ h2) h1)
          (fun g1 g2 _ h2 => ih _ _ _ h2) h)
      exact (FinKept.modObj g p _ (fin_makewhite g _)).ftrans
        (FinKept.modObj _ p (fun x => setage x G_NEW) (fun hh => hh))

theorem sweepgen_fin : ∀ (n : Nat) (g : GState) (p : Loc) (limit : Nat) (root : Option Anchor)
    (r : GState × Loc), sweepgen n g p limit root = some r → FinKept g r.1 := by
  intro n
  induction n with
  | zero =>
    intro g p limit root r h
    unfold sweepgen at h
    split at h
    · cases h; exact FinKept.frefl _
    · cases h
  | succ n ih =>
    intro g p limit root r h
    unfold sweepgen at h
    simp only [] at h
    split at h
    · cases h; exact FinKept.frefl _
    · split at h
      · cases h
      · cases hx : (if (g.heap (p.get g)).gct = GCT.thread then
            (sweepgen n g (Loc.openupval (p.get g)) 0 none).map Prod.fst else some g) with
        | none => rw [hx] at h; cases h
        | some g1 =>
          rw [hx] at h
          have h1 : FinKept g g1 := by
            split at hx
            · cases hs : sweepgen n g (Loc.openupval (p.get g)) 0 none with
              | none => rw [hs] at hx; cases hx
              | some r1 =>
                rw [hs] at hx; cases hx
                exact ih _ _ _ _ _ hs
            · cases hx; exact FinKept.frefl _
          refine h1.ftrans ?_
          simp only [Option.bind] at h
          split at h
          · refine FinKept.ftrans ?_ (ih _ _ _ _ _ h)
            refine FinKept.ftrans ?_ (gc_free_fin _ _)
            cases root with
            | none => exact Loc.set_fin g1 p _
            | some rt =>
              simp only []
              split
              · refine FinKept.ftrans ?_ (Anchor.aset_fin _ rt _)
                exact Loc.set_fin g1 p _
              · exact Loc.set_fin g1 p _
          · refine FinKept.ftrans ?_ (ih _ _ _ _ _ h)
            refine FinKept.ftrans ?_
              (FinKept.modObj _ _ (fun x => setage x (nextage.getD (getage x) 0)) (fun hh => hh))
            split
            · exact FinKept.modObj g1 _ _ (fin_makewhite g1 _)
            · exact FinKept.frefl _

theorem gc_call_finalizer_fin (vm : VM) (hvm : VMKeepsFin vm) (g : GState) (L : Nat)
    (mo : TValue) (o : Nat) : FinKept g (gc_call_finalizer vm g L mo o).1 := by
  unfold gc_call_finalizer
  simp only []
  intro a ha
  refine hvm.2 _ _ _ a ?_
  refine FinKept.modObj _ _ _ ?_ a ?_
  · exact fun h => h
  refine FinKept.modObj _ _ _ ?_ a ?_
  · exact fun h => h
  have h0 : isfinalized ((vm.lj_trace_abort g).heap a) := hvm.1 g a ha
  split
  · refine FinKept.modObj _ _ _ ?_ a ?_
    · exact fun h => h
    refine FinKept.modObj _ _ _ ?_ a ?_
    · exact fun h => h
    exact h0
  · refine FinKept.modObj _ _ _ ?_ a ?_
    · exact fun h => h
    exact h0

set_option maxRecDepth 100000 in

theorem and239_byte : ∀ r, r < 256 → (r &&& 239) &&& 8 = r &&& 8 := by decide

theorem fin_clear_cdatafin (x : GCobj) :
    isfinalized x → isfinalized { x with marked := x.marked &&& not8 LJ_GC_CDATA_FIN } := by
  unfold isfinalized
  have e : not8 LJ_GC_CDATA_FIN = 239 := by decide
  show x.marked &&& 8 ≠ 0 → (x.marked &&& not8 LJ_GC_CDATA_FIN) &&& 8 ≠ 0
  rw [e, land_byte (x.marked &&& 239) 8 (by decide), mod256_and,
    show (239 : Nat) % 256 = 239 from rfl, and239_byte _ (mod256_lt x.marked),
    ← land_byte x.marked 8 (by decide)]
  exact id

theorem gc_finalize_fin (vm : VM) (hvm : VMKeepsFin vm) (g : GState) (L : Nat) :
    FinKept g (gc_finalize vm g L).1 := by
  unfold gc_finalize
  simp only []
  generalize hG1 : (if (g.heap g.mmudata).nextgc = g.mmudata then { g with mmudata := 0 }
    else g.modObj g.mmudata
      (fun x => { x with nextgc := (g.heap (g.heap g.mmudata).nextgc).nextgc })) = G1
  have h1 : FinKept g G1 := by
    rw [← hG1]
    split
    · exact FinKept.f_of_heap rfl
    · exact FinKept.modObj g _ (fun x => { x with nextgc := _ }) (fun h => h)
  refine h1.ftrans ?_
  generalize (g.heap g.mmudata).nextgc = o
  split
  · have hA : ∀ a, isfinalized (G1.heap a) → isfinalized
        ((((({ G1.modObj o (fun x => { x with nextgc := G1.root }) with root := o }).modObj o
          (makewhite { G1.modObj o (fun x => { x with nextgc := G1.root }) with root := o })).modObj
            o (fun x => { x with marked := x.marked &&& not8 LJ_GC_CDATA_FIN })).heap a)) := by
      intro a ha
      refine FinKept.modObj _ _ _ ?_ a ?_
      · exact fin_clear_cdatafin _
      refine FinKept.modObj _ _ _ ?_ a ?_
      · exact fin_makewhite _ _
      exact FinKept.modObj G1 o (fun x => { x with nextgc := G1.root }) (fun h => h) a ha
    intro a ha
    split
    · split
      · refine gc_call_finalizer_fin vm hvm _ _ _ _ a ?_
        refine FinKept.modObj _ _ _ ?_ a ?_
        · exact fun h => h
        exact hA a ha
      · exact hA a ha
    · exact hA a ha
  · have hA : ∀ a, isfinalized (G1.heap a) → isfinalized
        (((((G1.modObj o (fun x => { x with nextgc := (G1.heap G1.mainthread).nextgc })).modObj
          G1.mainthread (fun x => { x with nextgc := o })).modObj o
          (makewhite ((G1.modObj o (fun x => { x with nextgc := (G1.heap G1.mainthread).nextgc })).modObj
          G1.mainthread (fun x => { x with nextgc := o })))).heap a)) := by
      intro a ha
      refine FinKept.modObj _ _ _ ?_ a ?_
      · exact fin_makewhite _ _
      refine FinKept.modObj _ _ _ ?_ a ?_
      · exact fun h => h
      exact FinKept.modObj G1 o (fun x => { x with nextgc := (G1.heap G1.mainthread).nextgc })
        (fun h => h) a ha
    intro a ha
    split
    · exact gc_call_finalizer_fin vm hvm _ _ _ _ a (hA a ha)
    · exact hA a ha

theorem separateMove_fin (g : GState) (p : Loc) (o : Nat) :
    FinKept g (separateMove g p o) := by
  rw [separateMove_eq]
  have h1 : FinKept g (g.modObj o markfinalized) :=
    FinKept.modObj g o _ (fun _ => fin_markfinalized _)
  have h2 := Loc.set_fin (g.modObj o markfinalized) p ((g.modObj o markfinalized).heap o).nextgc
  refine h1.ftrans (h2.ftrans ?_)
  generalize Loc.set (g.modObj o markfinalized) p ((g.modObj o markfinalized).heap o).nextgc = G
  refine (FinKept.f_of_heap (moveAnchors_facts G o).1).ftrans ?_
  generalize moveAnchors G o = G4
  unfold moveLink
  split
  · intro a ha
    dsimp only
    refine FinKept.modObj _ _ _ ?_ a ?_
    · exact fun h => h
    exact FinKept.modObj G4 o (fun x => { x with nextgc := (G4.heap G4.mmudata).nextgc })
      (fun h => h) a ha
  · intro a ha
    dsimp only
    exact FinKept.modObj G4 o (fun x => { x with nextgc := o }) (fun h => h) a ha

theorem separateLoop_fin (all : Bool) : ∀ (n : Nat) (g : GState) (p : Loc) (m : Nat)
    (r : GState × Nat), separateLoop all n g p m = some r → FinKept g r.1 := by
  intro n
  induction n with
  | zero =>
    intro g p m r h
    unfold separateLoop at h
    split at h
    · cases h; exact FinKept.frefl _
    · cases h
  | succ n ih =>
    intro g p m r h
    unfold separateLoop at h
    simp only [] at h
    split at h
    · cases h; exact FinKept.frefl _
    · split at h
      · exact ih _ _ _ _ h
      · split at h
        · exact FinKept.ftrans (FinKept.modObj g _ _ (fun _ => fin_markfinalized _))
            (ih _ _ _ _ h)
        · exact FinKept.ftrans (separateMove_fin g p _) (ih _ _ _ _ h)

theorem GcOp.run_fin (vm : VM) (hvm : VMKeepsFin vm) (g g' : GState) (op : GcOp)
    (h : op.run vm g = some g') : FinKept g g' := by
  cases op with
  | separateudata fuel all =>
    simp only [GcOp.run, lj_gc_separateudata, Option.map_eq_some'] at h
    obtain ⟨r, hr, e⟩ := h
    subst e
    exact separateLoop_fin _ _ _ _ _ _ hr
  | mark_mmudata fuel => exact gc_mark_mmudata_fin _ _ _ h
  | finalize L =>
    simp only [GcOp.run, Option.some.injEq] at h
    subst h
    exact gc_finalize_fin vm hvm g L
  | makewhite o =>
    simp only [GcOp.run, Option.some.injEq] at h
    subst h
    exact FinKept.modObj g o _ (fin_makewhite g _)
  | sweep depth p lim =>
    simp only [GcOp.run, Option.map_eq_some'] at h
    obtain ⟨r, hr, e⟩ := h
    subst e
    exact gc_sweep_fin _ _ _ _ _ hr
  | sweepgen fuel p limit root =>
    simp only [GcOp.run, Option.map_eq_some'] at h
    obtain ⟨r, hr, e⟩ := h
    subst e
    exact sweepgen_fin _ _ _ _ _ _ hr
  | sweep2old fuel p => exact sweep2old_fin _ _ _ _ h
  | whitelist fuel p => exact whitelist_fin _ _ _ _ h

theorem runOps_fin (vm : VM) (hvm : VMKeepsFin vm) : ∀ (ops : List GcOp) (g g' : GState),
    runOps vm ops g = some g' → FinKept g g'
  | [], g, g', h => by
    simp only [runOps, Option.some.injEq] at h
    subst h
    exact FinKept.frefl _
  | op :: ops, g, g', h => by
    unfold runOps at h
    exact FinKept.bind (fun g1 h1 => GcOp.run_fin vm hvm _ _ _ h1)
      (fun g1 g2 _ h2 => runOps_fin vm hvm ops _ _ h2) h

/-- C8: a userdata is placed on `mmudata` at most once.  On a well-formed
userdata list `lj_gc_separateudata` (either value of `all`) returns, appends
to `mmudata` exactly the movable objects, none of which had `FINALIZED`, and
leaves every one of them with `FINALIZED` set; after any sequence of
collector operations (`lj_gc_separateudata`, `gc_mark_mmudata`, `gc_finalize`,
`makewhite`, `gc_sweep`, `sweepgen`, `sweep2old`, `whitelist`) every set
`FINALIZED` bit is still set, so a later `lj_gc_separateudata` appends none
of the objects moved before.  The finalizers run by `gc_finalize` are assumed
not to clear the bit themselves. -/
theorem separateudata_once (vm : VM) (hvm : VMKeepsFin vm) (g : GState) (all : Bool)
    (fuel : Nat) (xs ms : List Nat)
    (hc : Chain g (g.heap g.mainthread).nextgc xs) (hcirc : Circ g g.mmudata ms)
    (hnd : (xs ++ ms).Nodup) (hm0 : g.mainthread ≠ 0) (hmx : g.mainthread ∉ xs)
    (hmm : g.mainthread ∉ ms) (hl : xs.length ≤ fuel) :
    ∃ g1 m1, lj_gc_separateudata fuel g all = some (g1, m1) ∧
      Circ g1 g1.mmudata (ms ++ xs.filter (fun x => decide (movable g all x))) ∧
      (∀ x ∈ xs, isfinalized (g.heap x) → ¬ movable g all x) ∧
      (∀ x ∈ xs, movable g all x → isfinalized (g1.heap x)) ∧
      ∀ (ops : List GcOp) (g2 : GState), runOps vm ops g1 = some g2 →
        (∀ a, isfinalized (g1.heap a) → isfinalized (g2.heap a)) ∧
        ∀ (all2 : Bool) (fuel2 : Nat) (xs2 ms2 : List Nat),
          Chain g2 (g2.heap g2.mainthread).nextgc xs2 → Circ g2 g2.mmudata ms2 →
          (xs2 ++ ms2).Nodup → g2.mainthread ≠ 0 → g2.mainthread ∉ xs2 →
          g2.mainthread ∉ ms2 → xs2.length ≤ fuel2 →
          ∃ g3 m3, lj_gc_separateudata fuel2 g2 all2 = some (g3, m3) ∧
            Circ g3 g3.mmudata (ms2 ++ xs2.filter (fun x => decide (movable g2 all2 x))) ∧
            ∀ x ∈ xs, movable g all x →
              x ∉ xs2.filter (fun x => decide (movable g2 all2 x)) := by
  obtain ⟨g1, m1, hrun, P⟩ :=
    separateLoop_spec all xs fuel g g.mainthread 0 ms hc hcirc hnd hm0 hmx hmm hl
  have hfin : ∀ x ∈ xs, movable g all x → isfinalized (g1.heap x) := by
    intro x hx hmv
    unfold isfinalized
    rw [P.marked_in x hx, if_pos (movable_cand hmv)]
    exact fin_markfinalized (g.heap x)
  refine ⟨g1, m1, hrun, P.circ, fun x _ hf hmv => hmv.2.1 hf, hfin, fun ops g2 hops =>
    ⟨runOps_fin vm hvm ops g1 g2 hops, fun all2 fuel2 xs2 ms2 c2 k2 n2 z2 a2 b2 l2 => ?_⟩⟩
  obtain ⟨g3, m3, hrun3, P3⟩ :=
    separateLoop_spec all2 xs2 fuel2 g2 g2.mainthread 0 ms2 c2 k2 n2 z2 a2 b2 l2
  refine ⟨g3, m3, hrun3, P3.circ, fun x hx hmv hmem => ?_⟩
  have h2 : movable g2 all2 x := of_decide_eq_true (List.mem_filter.mp hmem).2
  exact h2.2.1 (runOps_fin vm hvm ops g1 g2 hops x (hfin x hx hmv))

theorem separateudata_once_witness :
    ∃ g1 m1, lj_gc_separateudata 3 exSep false = some (g1, m1) ∧ Circ g1 g1.mmudata [2] ∧
      isfinalized (g1.heap 2) := by
  obtain ⟨g1, m1, h1, h2, _, h4, _⟩ := separateudata_once exVM
    ⟨fun g => FinKept.frefl g, fun g _ _ => FinKept.f_of_heap rfl⟩ exSep false 3 [2, 3, 4] []
    ⟨rfl, by decide, rfl, by decide, rfl, by decide, rfl⟩ rfl (by decide) (by decide)
    (by decide) (by simp) (by decide)
  have e : ([] : List Nat) ++ [2, 3, 4].filter (fun x => decide (movable exSep false x)) = [2] := by
    decide
  rw [e] at h2
  exact ⟨g1, m1, h1, h2, h4 2 (by simp) (by decide)⟩

/-! ## Finalizing userdata -/

/-- Unlinking the first element of a circular list, as `gc_finalize` does. -/
theorem Circ.pop {g : GState} {tail o : Nat} {rest : List Nat} (h : Circ g tail (o :: rest))
    (hnd : (o :: rest).Nodup) :
    (g.heap tail).nextgc = o ∧ (o = tail ↔ rest = []) ∧
    (rest ≠ [] → ∀ g' : GState, (g'.heap tail).nextgc = (g.heap o).nextgc →
      (∀ a ∈ rest, a ≠ tail → (g'.heap a).nextgc = (g.heap a).nextgc) → Circ g' tail rest) := by
  obtain ⟨h1, h2⟩ := h
  cases rest with
  | nil =>
    have e : tail = o := h1
    subst e
    exact ⟨h2.2.2, ⟨fun _ => rfl, fun _ => rfl⟩, fun hne => absurd rfl hne⟩
  | cons r rs =>
    obtain ⟨_, ho0, h3⟩ := h2
    have ht : tail = (r :: rs).getLast (List.cons_ne_nil r rs) := by
      rw [h1]; exact List.getLast_cons (List.cons_ne_nil r rs)
    have hsplit : (r :: rs) = (r :: rs).dropLast ++ [tail] := by
      rw [ht]; exact (List.dropLast_append_getLast _).symm
    have htm : tail ∈ r :: rs := by rw [ht]; exact List.getLast_mem _
    have hot : o ≠ tail := fun e => (List.nodup_cons.mp hnd).1 (e ▸ htm)
    have hnd' : ((r :: rs).dropLast ++ [tail]).Nodup := by
      rw [← hsplit]; exact (List.nodup_cons.mp hnd).2
    have htl : tail ∉ (r :: rs).dropLast := fun hm =>
      (List.nodup_append.mp hnd').2.2 hm (List.mem_singleton_self _)
    have h3' := h3
    rw [hsplit] at h3'
    obtain ⟨s1, s2, s3⟩ := Seg.snoc_iff.mp h3'
    refine ⟨s3, ⟨fun e => absurd e hot, fun e => by cases e⟩, fun _ g' hn hfr => ?_⟩
    refine ⟨ht, ?_⟩
    have hr : (g.heap o).nextgc = r := h3.1
    have s1' : Seg g' (g.heap o).nextgc (r :: rs).dropLast tail :=
      Seg.scongr (fun a ha => hfr a (by rw [hsplit]; exact List.mem_append_left _ ha)
        (fun e => htl (e ▸ ha))) s1
    have hfull : Seg g' (g.heap o).nextgc ((r :: rs).dropLast ++ [tail]) (g.heap o).nextgc :=
      Seg.snoc_iff.mpr ⟨s1', s2, hn⟩
    rw [← hsplit, hr] at hfull
    exact hfull

theorem nextgc_modObj (G : GState) (a : Nat) (f : GCobj → GCobj) (x : Nat)
    (h : x = a → (f (G.heap a)).nextgc = (G.heap a).nextgc) :
    ((G.modObj a f).heap x).nextgc = (G.heap x).nextgc := by
  rw [modObj_heap]
  split_ifs with e
  · subst e; exact h rfl
  · rfl

theorem gc_call_finalizer_fst (vm : VM) (g : GState) (L : Nat) (mo : TValue) (o : Nat) :
    (gc_call_finalizer vm g L mo o).1 =
      { (vm.lj_vm_pcall (finalizerEntry vm g L mo o).1 L (finalizerEntry vm g L mo o).2).1 with
        hookmask := vm.hook_restore
          (vm.lj_vm_pcall (finalizerEntry vm g L mo o).1 L (finalizerEntry vm g L mo o).2).1.hookmask
          (vm.hook_save g.hookmask)
        threshold := g.threshold } := rfl

theorem gc_call_finalizer_snd (vm : VM) (g : GState) (L : Nat) (mo : TValue) (o : Nat) :
    (gc_call_finalizer vm g L mo o).2 =
      if (vm.lj_vm_pcall (finalizerEntry vm g L mo o).1 L (finalizerEntry vm g L mo o).2).2 ≠ 0
      then some (vm.lj_vm_pcall (finalizerEntry vm g L mo o).1 L (finalizerEntry vm g L mo o).2).2
      else none := rfl

theorem finalizerEntry_next (vm : VM) (g : GState) (L : Nat) (mo : TValue) (o : Nat) :
    (finalizerEntry vm g L mo o).1.mmudata = (vm.lj_trace_abort g).mmudata ∧
    (finalizerEntry vm g L mo o).1.mainthread = (vm.lj_trace_abort g).mainthread ∧
    ∀ x, ((finalizerEntry vm g L mo o).1.heap x).nextgc
      = ((vm.lj_trace_abort g).heap x).nextgc := by
  unfold finalizerEntry
  simp only []
  refine ⟨?_, ?_, fun x => ?_⟩
  · split <;> rfl
  · split <;> rfl
  · rw [nextgc_modObj _ _ _ _ (fun _ => rfl), nextgc_modObj _ _ _ _ (fun _ => rfl)]
    split
    · rw [nextgc_modObj _ _ _ _ (fun _ => rfl), nextgc_modObj _ _ _ _ (fun _ => rfl)]
    · rw [nextgc_modObj _ _ _ _ (fun _ => rfl)]

/-- A quiet finalizer call keeps the `mmudata` list and reports no error. -/
theorem gc_call_finalizer_quiet (vm : VM) (hq : VMQuiet vm) (g : GState) (L : Nat)
    (mo : TValue) (o : Nat) (rest : List Nat) (h : Circ g g.mmudata rest) :
    Circ (gc_call_finalizer vm g L mo o).1 (gc_call_finalizer vm g L mo o).1.mmudata rest ∧
    (gc_call_finalizer vm g L mo o).1.mainthread = g.mainthread ∧
    (gc_call_finalizer vm g L mo o).2 = none := by
  obtain ⟨q1, q2, q3, q4, q5⟩ := hq
  obtain ⟨e1, e2, e3⟩ := finalizerEntry_next vm g L mo o
  have c1 := q1 g rest h
  have c2 : Circ (finalizerEntry vm g L mo o).1 (finalizerEntry vm g L mo o).1.mmudata rest := by
    rw [e1]; exact Circ.ccongr (fun x _ => e3 x) c1
  have c3 := q3 _ L (finalizerEntry vm g L mo o).2 rest c2
  refine ⟨?_, ?_, ?_⟩
  · rw [gc_call_finalizer_fst]
    refine Circ.ccongr ?_ c3
    intro _ _; rfl
  · rw [gc_call_finalizer_fst]
    exact (q4 _ _ _).trans (e2.trans (q2 g))
  · rw [gc_call_finalizer_snd, if_neg (not_not.mpr (q5 _ _ _))]

theorem gc_finalize_eq (vm : VM) (g : GState) (L : Nat) :
    gc_finalize vm g L =
      if (finalizeUnlink g).hasffi = true ∧
          ((finalizeUnlink g).heap (g.heap g.mmudata).nextgc).gct = GCT.cdata then
        finalizeCdataCall vm (finalizeRelinkCdata (finalizeUnlink g) (g.heap g.mmudata).nextgc) L
          (g.heap g.mmudata).nextgc
      else
        match metaGc (finalizePre g)
            ((finalizePre g).heap (g.heap g.mmudata).nextgc).metatable with
        | some mo => gc_call_finalizer vm (finalizePre g) L mo (g.heap g.mmudata).nextgc
        | none => (finalizePre g, none) := rfl

theorem finalizeUnlink_pop {g : GState} {o : Nat} {rest : List Nat}
    (hcirc : Circ g g.mmudata (o :: rest)) (hnd : (o :: rest).Nodup) :
    (g.heap g.mmudata).nextgc = o ∧
    Circ (finalizeUnlink g) (finalizeUnlink g).mmudata rest ∧
    ((finalizeUnlink g).mmudata = 0 ↔ rest = []) ∧
    (finalizeUnlink g).mainthread = g.mainthread ∧
    (∀ a, a ≠ g.mmudata → (finalizeUnlink g).heap a = g.heap a) ∧
    (∀ a, { (finalizeUnlink g).heap a with nextgc := 0 } = { g.heap a with nextgc := 0 }) := by
  obtain ⟨p1, p2, p3⟩ := hcirc.pop hnd
  refine ⟨p1, ?_⟩
  unfold finalizeUnlink
  simp only []
  rw [p1]
  by_cases hr : rest = []
  · rw [if_pos (p2.mpr hr)]; subst hr
    exact ⟨rfl, ⟨fun _ => rfl, fun _ => rfl⟩, rfl, fun _ _ => rfl, fun _ => rfl⟩
  · rw [if_neg (fun e => hr (p2.mp e))]
    have hc : Circ (g.modObj g.mmudata (fun x => { x with nextgc := (g.heap o).nextgc }))
        g.mmudata rest := by
      refine p3 hr _ ?_ ?_
      · rw [modObj_heap_same]
      · intro a _ hat; rw [modObj_heap_ne _ _ _ _ hat]
    refine ⟨hc, ⟨fun e => absurd (hc.nil_iff.mp e) hr, fun e => absurd e hr⟩, rfl,
      fun a ha => modObj_heap_ne _ _ _ _ ha, fun a => ?_⟩
    rw [modObj_heap]
    split_ifs with e
    · subst e; rfl
    · rfl

theorem modObj_mainthread (g : GState) (a : Nat) (f : GCobj → GCobj) :
    (g.modObj a f).mainthread = g.mainthread := rfl

theorem finalizeRelink_circ {G : GState} {o : Nat} {rest : List Nat}
    (c : Circ G G.mmudata rest) (ho : o ∉ rest) (hm : G.mainthread ∉ rest) :
    Circ (finalizeRelink G o) (finalizeRelink G o).mmudata rest ∧
    (finalizeRelink G o).mainthread = G.mainthread := by
  refine ⟨?_, rfl⟩
  refine Circ.ccongr ?_ c
  intro x hx
  unfold finalizeRelink
  simp only []
  have hxo : x ≠ o := fun e => ho (e ▸ hx)
  have hxm : x ≠ G.mainthread := fun e => hm (e ▸ hx)
  simp only [modObj_mainthread]
  rw [nextgc_modObj _ _ _ _ (fun e => absurd e hxo),
    nextgc_modObj _ _ _ _ (fun e => absurd e hxm),
    nextgc_modObj _ _ _ _ (fun e => absurd e hxo)]

theorem finalizeRelinkCdata_circ {G : GState} {o : Nat} {rest : List Nat}
    (c : Circ G G.mmudata rest) (ho : o ∉ rest) :
    Circ (finalizeRelinkCdata G o) (finalizeRelinkCdata G o).mmudata rest ∧
    (finalizeRelinkCdata G o).mainthread = G.mainthread := by
  refine ⟨?_, rfl⟩
  refine Circ.ccongr ?_ c
  intro x hx
  unfold finalizeRelinkCdata
  simp only []
  have hxo : x ≠ o := fun e => ho (e ▸ hx)
  rw [nextgc_modObj _ _ _ _ (fun e => absurd e hxo),
    nextgc_modObj _ _ _ _ (fun e => absurd e hxo),
    nextgc_modObj _ _ _ _ (fun e => absurd e hxo)]

theorem finalizeCdataCall_quiet (vm : VM) (hq : VMQuiet vm) (G : GState) (L o : Nat)
    (rest : List Nat) (c : Circ G G.mmudata rest) :
    Circ (finalizeCdataCall vm G L o).1 (finalizeCdataCall vm G L o).1.mmudata rest ∧
    (finalizeCdataCall vm G L o).1.mainthread = G.mainthread ∧
    (finalizeCdataCall vm G L o).2 = none := by
  unfold finalizeCdataCall
  simp only []
  split
  · split
    · refine gc_call_finalizer_quiet vm hq _ L _ o rest ?_
      refine Circ.ccongr ?_ c
      intro x _
      rw [nextgc_modObj _ _ _ _ (fun _ => rfl)]
    · exact ⟨c, rfl, rfl⟩
  · exact ⟨c, rfl, rfl⟩

/-- With quiet finalizers `gc_finalize` takes the first object off the
`mmudata` list, leaves the others on it and reports no error. -/
theorem gc_finalize_pop (vm : VM) (hq : VMQuiet vm) (g : GState) (L o : Nat) (rest : List Nat)
    (hcirc : Circ g g.mmudata (o :: rest)) (hnd : (o :: rest).Nodup)
    (hmt : g.mainthread ∉ rest) :
    (g.heap g.mmudata).nextgc = o ∧
    Circ (gc_finalize vm g L).1 (gc_finalize vm g L).1.mmudata rest ∧
    (gc_finalize vm g L).1.mainthread = g.mainthread ∧
    (gc_finalize vm g L).2 = none := by
  obtain ⟨p1, c1, _, m1, _, _⟩ := finalizeUnlink_pop hcirc hnd
  have hor : o ∉ rest := (List.nodup_cons.mp hnd).1
  refine ⟨p1, ?_⟩
  rw [gc_finalize_eq, p1]
  split
  · obtain ⟨c2, m2⟩ := finalizeRelinkCdata_circ c1 hor
    obtain ⟨r1, r2, r3⟩ := finalizeCdataCall_quiet vm hq _ L o rest c2
    exact ⟨r1, r2.trans (m2.trans m1), r3⟩
  · have e : finalizePre g = finalizeRelink (finalizeUnlink g) o := by
      unfold finalizePre; rw [p1]
    obtain ⟨c2, m2⟩ := finalizeRelink_circ c1 hor (by rw [m1]; exact hmt)
    rw [e]
    split
    · obtain ⟨r1, r2, r3⟩ := gc_call_finalizer_quiet vm hq _ L _ o rest c2
      exact ⟨r1, r2.trans (m2.trans m1), r3⟩
    · exact ⟨c2, m2.trans m1, rfl⟩

/-- With quiet finalizers `lj_gc_finalize_udata` drains the `mmudata` list
front to back. -/
theorem finalize_udata_drain (vm : VM) (hq : VMQuiet vm) (L : Nat) :
    ∀ (ms : List Nat) (n : Nat) (g : GState), Circ g g.mmudata ms → ms.Nodup →
      g.mainthread ∉ ms → ms.length ≤ n →
      ∃ g', lj_gc_finalize_udata vm n g L = some (g', none) ∧ g'.mmudata = 0 ∧
        g'.mainthread = g.mainthread ∧ finalizeSeq vm n g L = ms
  | [], n, g, hc, _, _, _ => by
    have h0 : g.mmudata = 0 := hc
    refine ⟨g, ?_, h0, rfl, ?_⟩
    · cases n <;> (unfold lj_gc_finalize_udata; rw [if_pos h0])
    · cases n
      · rfl
      · unfold finalizeSeq; rw [if_pos h0]
  | o :: rest, 0, _, _, _, _, hl => by simp at hl
  | o :: rest, n + 1, g, hc, hnd, hmt, hl => by
    have hne : g.mmudata ≠ 0 := (hc.tail_mem (List.cons_ne_nil _ _)).2
    obtain ⟨p1, c1, m1, r1⟩ := gc_finalize_pop vm hq g L o rest hc hnd
      (fun h => hmt (List.mem_cons_of_mem _ h))
    obtain ⟨g', h1, h2, h3, h4⟩ := finalize_udata_drain vm hq L rest n (gc_finalize vm g L).1 c1
      (List.nodup_cons.mp hnd).2 (by rw [m1]; exact fun h => hmt (List.mem_cons_of_mem _ h))
      (Nat.le_of_succ_le_succ hl)
    refine ⟨g', ?_, h2, h3.trans m1, ?_⟩
    · unfold lj_gc_finalize_udata
      rw [if_neg hne]
      simp only [r1]
      exact h1
    · unfold finalizeSeq
      rw [if_neg hne, p1]
      simp only [r1]
      rw [h4]

theorem finalizeUnlink_currentwhite (g : GState) :
    (finalizeUnlink g).currentwhite = g.currentwhite := by
  unfold finalizeUnlink
  simp only []
  split <;> rfl

theorem nextgc_blank {a b : GCobj} (h : { a with nextgc := 0 } = { b with nextgc := 0 }) :
    a.marked = b.marked ∧ a.gct = b.gct ∧ a.metatable = b.metatable := by
  have e1 : ({ a with nextgc := 0 } : GCobj).marked = ({ b with nextgc := 0 } : GCobj).marked := by
    rw [h]
  have e2 : ({ a with nextgc := 0 } : GCobj).gct = ({ b with nextgc := 0 } : GCobj).gct := by
    rw [h]
  have e3 : ({ a with nextgc := 0 } : GCobj).metatable
      = ({ b with nextgc := 0 } : GCobj).metatable := by
    rw [h]
  exact ⟨e1, e2, e3⟩

/-- The state in which `gc_finalize` looks up `__gc` on the userdata `o`. -/
theorem finalizePre_facts {g : GState} {o : Nat} {rest : List Nat}
    (hcirc : Circ g g.mmudata (o :: rest)) (hnd : (o :: rest).Nodup)
    (hmt : g.mainthread ∉ o :: rest) :
    Circ (finalizePre g) (finalizePre g).mmudata rest ∧
    ((finalizePre g).mmudata = 0 ↔ rest = []) ∧
    ((finalizePre g).heap g.mainthread).nextgc = o ∧
    ((finalizePre g).heap o).nextgc = (g.heap g.mainthread).nextgc ∧
    ((finalizePre g).heap o).marked = ((g.heap o).marked &&& not8 LJ_GC_COLORS) ||| curwhite g := by
  obtain ⟨p1, c1, z1, m1, f1, b1⟩ := finalizeUnlink_pop hcirc hnd
  have hor : o ∉ rest := (List.nodup_cons.mp hnd).1
  have hmo : g.mainthread ≠ o := fun e => hmt (e ▸ List.mem_cons_self _ _)
  have hmr : g.mainthread ∉ rest := fun h => hmt (List.mem_cons_of_mem _ h)
  have hmm : g.mainthread ≠ g.mmudata := fun e =>
    hmt (e ▸ (hcirc.tail_mem (List.cons_ne_nil _ _)).1)
  have e : finalizePre g = finalizeRelink (finalizeUnlink g) o := by
    unfold finalizePre; rw [p1]
  obtain ⟨c2, _⟩ := finalizeRelink_circ c1 hor (by rw [m1]; exact hmr)
  rw [e]
  refine ⟨c2, z1, ?_, ?_, ?_⟩
  · unfold finalizeRelink
    simp only [modObj_mainthread, m1]
    rw [modObj_heap_ne _ _ _ _ hmo, modObj_heap_same]
  · unfold finalizeRelink
    simp only [modObj_mainthread, m1]
    rw [modObj_heap_same, modObj_heap_ne _ _ _ _ (fun e => hmo e.symm), modObj_heap_same]
    show ((finalizeUnlink g).heap g.mainthread).nextgc = _
    rw [f1 _ hmm]
  · unfold finalizeRelink
    simp only [modObj_mainthread, m1]
    rw [modObj_heap_same, modObj_heap_ne _ _ _ _ (fun e => hmo e.symm), modObj_heap_same]
    show ((finalizeUnlink g).heap o).marked &&& not8 LJ_GC_COLORS
      ||| (finalizeUnlink g).currentwhite &&& LJ_GC_WHITES = _
    rw [(nextgc_blank (b1 o)).1, finalizeUnlink_currentwhite]
    rfl

theorem restSep_mainthread {g g' : GState} (h : g'.restSep = g.restSep) :
    g'.mainthread = g.mainthread := by
  have : g'.restSep.mainthread = g.restSep.mainthread := by rw [h]
  exact this

/-- C9 (amended): on a well-formed circular `mmudata` list whose first object
is the userdata `o`, `gc_finalize` unlinks exactly `o` (the successor of the
object `mmudata` points to), `mmudata` becoming null iff `o` was the only
element, links `o` in as the head of `mainthread.nextgc` and makes it
current-white in the state in which `__gc` is looked up.  Provided the
finalizers enqueue nothing and raise no error, `lj_gc_finalize_udata` on a
list `ms` returns with `mmudata = null` after finalizing exactly the objects
of `ms`, first to last; after `lj_gc_separateudata` that is the old list
followed by the moved objects in the order they were appended. -/
theorem finalize_spec (vm : VM) (hq : VMQuiet vm) (g : GState) (L : Nat) :
    (∀ o rest, Circ g g.mmudata (o :: rest) → (o :: rest).Nodup → g.mainthread ∉ o :: rest →
      (g.heap o).gct = GCT.udata →
      (g.heap g.mmudata).nextgc = o ∧
      gc_finalize vm g L =
        (match metaGc (finalizePre g) ((finalizePre g).heap o).metatable with
          | some mo => gc_call_finalizer vm (finalizePre g) L mo o
          | none => (finalizePre g, none)) ∧
      Circ (finalizePre g) (finalizePre g).mmudata rest ∧
      ((finalizePre g).mmudata = 0 ↔ rest = []) ∧
      ((finalizePre g).heap g.mainthread).nextgc = o ∧
      ((finalizePre g).heap o).nextgc = (g.heap g.mainthread).nextgc ∧
      ((finalizePre g).heap o).marked
        = ((g.heap o).marked &&& not8 LJ_GC_COLORS) ||| curwhite g ∧
      Circ (gc_finalize vm g L).1 (gc_finalize vm g L).1.mmudata rest) ∧
    (∀ ms fuel, Circ g g.mmudata ms → ms.Nodup → g.mainthread ∉ ms → ms.length ≤ fuel →
      ∃ g', lj_gc_finalize_udata vm fuel g L = some (g', none) ∧ g'.mmudata = 0 ∧
        finalizeSeq vm fuel g L = ms) ∧
    (∀ all fuel xs ms, Chain g (g.heap g.mainthread).nextgc xs → Circ g g.mmudata ms →
      (xs ++ ms).Nodup → g.mainthread ≠ 0 → g.mainthread ∉ xs → g.mainthread ∉ ms →
      xs.length ≤ fuel →
      ∃ g1 m1, lj_gc_separateudata fuel g all = some (g1, m1) ∧
        ∀ fuel2, (ms ++ xs.filter (fun x => decide (movable g all x))).length ≤ fuel2 →
          finalizeSeq vm fuel2 g1 L = ms ++ xs.filter (fun x => decide (movable g all x))) := by
  refine ⟨fun o rest hc hnd hmt hud => ?_, fun ms fuel hc hnd hmt hl => ?_,
    fun all fuel xs ms hch hc hnd hm0 hmx hmm hl => ?_⟩
  · obtain ⟨p1, _, _, _, _, b1⟩ := finalizeUnlink_pop hc hnd
    obtain ⟨a1, a2, a3, a4, a5⟩ := finalizePre_facts hc hnd hmt
    obtain ⟨_, c1, _, _⟩ := gc_finalize_pop vm hq g L o rest hc hnd
      (fun h => hmt (List.mem_cons_of_mem _ h))
    refine ⟨p1, ?_, a1, a2, a3, a4, a5, c1⟩
    rw [gc_finalize_eq, p1, if_neg]
    intro h
    have := h.2
    rw [(nextgc_blank (b1 o)).2.1, hud] at this
    cases this
  · obtain ⟨g', h1, h2, _, h4⟩ := finalize_udata_drain vm hq L ms fuel g hc hnd hmt hl
    exact ⟨g', h1, h2, h4⟩
  · obtain ⟨g1, m1, hrun, P⟩ :=
      separateLoop_spec all xs fuel g g.mainthread 0 ms hch hc hnd hm0 hmx hmm hl
    refine ⟨g1, m1, hrun, fun fuel2 hl2 => ?_⟩
    have hndx := List.nodup_append.mp hnd
    have hnd2 : (ms ++ xs.filter (fun x => decide (movable g all x))).Nodup :=
      List.nodup_append.mpr ⟨hndx.2.1, hndx.1.filter _,
        fun a ha hb => hndx.2.2 (List.mem_filter.mp hb).1 ha⟩
    have hmt1 : g1.mainthread ∉ ms ++ xs.filter (fun x => decide (movable g all x)) := by
      rw [restSep_mainthread P.rest]
      intro h
      rcases List.mem_append.mp h with h | h
      · exact hmm h
      · exact hmx (List.mem_filter.mp h).1
    obtain ⟨_, _, _, _, h4⟩ := finalize_udata_drain vm hq L _ fuel2 g1 P.circ hnd2 hmt1 hl2
    exact h4

theorem finalize_spec_witness :
    ∃ g', lj_gc_finalize_udata quietVM 2 exFin 1 = some (g', none) ∧ g'.mmudata = 0 ∧
      finalizeSeq quietVM 2 exFin 1 = [2, 3] :=
  (finalize_spec quietVM
    ⟨fun _ _ h => h, fun _ => rfl, fun _ _ _ _ h => h, fun _ _ _ => rfl, fun _ _ _ => rfl⟩
    exFin 1).2.1 [2, 3] 2 ⟨rfl, rfl, by decide, rfl, by decide, rfl⟩ (by decide) (by decide)
    (by decide)

/-- C9, as stated, fails when a finalizer raises an error: with finalizers
that enqueue nothing (they leave heap and `mmudata` alone) but fail with
code 2, `lj_gc_finalize_udata` on the two-element list of `exFin` stops after
one finalization and leaves `mmudata` non-null. -/
theorem finalize_udata_error_stops :
    Circ exFin exFin.mmudata [2, 3] ∧
    (∀ g L top, (exVM.lj_vm_pcall g L top).1.heap = g.heap ∧
      (exVM.lj_vm_pcall g L top).1.mmudata = g.mmudata) ∧
    (∀ g, exVM.lj_trace_abort g = g) ∧
    ∃ g', lj_gc_finalize_udata exVM 2 exFin 1 = some (g', some 2) ∧ g'.mmudata = 3 ∧
      finalizeSeq exVM 2 exFin 1 = [2] :=
  ⟨⟨rfl, rfl, by decide, rfl, by decide, rfl⟩, fun _ _ _ => ⟨rfl, rfl⟩, fun _ => rfl,
    (gc_finalize exVM exFin 1).1, rfl, rfl, rfl⟩

/-! ## Propagation: the tri-color invariant -/

/-- The reference fields of two objects agree. -/
structure SameRefs (a b : GCobj) : Prop where
  gct : a.gct = b.gct
  metatable : a.metatable = b.metatable
  env : a.env = b.env
  array : a.array = b.array
  hmask : a.hmask = b.hmask
  node : a.node = b.node
  isluafunc : a.isluafunc = b.isluafunc
  pt : a.pt = b.pt
  uvptr : a.uvptr = b.uvptr
  upvalue : a.upvalue = b.upvalue
  chunkname : a.chunkname = b.chunkname
  kgc : a.kgc = b.kgc
  trace : a.trace = b.trace
  traceno : a.traceno = b.traceno
  ir : a.ir = b.ir
  link : a.link = b.link
  nextroot : a.nextroot = b.nextroot
  nextside : a.nextside = b.nextside
  startpt : a.startpt = b.startpt
  top : a.top = b.top
  frames : a.frames = b.frames
  v : a.v = b.v
  tv : a.tv = b.tv
  closed : a.closed = b.closed
  mmMode : a.mmMode = b.mmMode
  maxstack : a.maxstack = b.maxstack
  framesize : a.framesize = b.framesize

theorem shapeS_fields {a b : GCobj} (h : shapeS a = shapeS b) : SameRefs a b := by
  constructor
  · exact (show (shapeS a).gct = (shapeS b).gct by rw [h])
  · exact (show (shapeS a).metatable = (shapeS b).metatable by rw [h])
  · exact (show (shapeS a).env = (shapeS b).env by rw [h])
  · exact (show (shapeS a).array = (shapeS b).array by rw [h])
  · exact (show (shapeS a).hmask = (shapeS b).hmask by rw [h])
  · exact (show (shapeS a).node = (shapeS b).node by rw [h])
  · exact (show (shapeS a).isluafunc = (shapeS b).isluafunc by rw [h])
  · exact (show (shapeS a).pt = (shapeS b).pt by rw [h])
  · exact (show (shapeS a).uvptr = (shapeS b).uvptr by rw [h])
  · exact (show (shapeS a).upvalue = (shapeS b).upvalue by rw [h])
  · exact (show (shapeS a).chunkname = (shapeS b).chunkname by rw [h])
  · exact (show (shapeS a).kgc = (shapeS b).kgc by rw [h])
  · exact (show (shapeS a).trace = (shapeS b).trace by rw [h])
  · exact (show (shapeS a).traceno = (shapeS b).traceno by rw [h])
  · exact (show (shapeS a).ir = (shapeS b).ir by rw [h])
  · exact (show (shapeS a).link = (shapeS b).link by rw [h])
  · exact (show (shapeS a).nextroot = (shapeS b).nextroot by rw [h])
  · exact (show (shapeS a).nextside = (shapeS b).nextside by rw [h])
  · exact (show (shapeS a).startpt = (shapeS b).startpt by rw [h])
  · exact (show (shapeS a).top = (shapeS b).top by rw [h])
  · exact (show (shapeS a).frames = (shapeS b).frames by rw [h])
  · exact (show (shapeS a).v = (shapeS b).v by rw [h])
  · exact (show (shapeS a).tv = (shapeS b).tv by rw [h])
  · exact (show (shapeS a).closed = (shapeS b).closed by rw [h])
  · exact (show (shapeS a).mmMode = (shapeS b).mmMode by rw [h])
  · exact (show (shapeS a).maxstack = (shapeS b).maxstack by rw [h])
  · exact (show (shapeS a).framesize = (shapeS b).framesize by rw [h])

theorem restProp_fields {g g' : GState} (h : g'.restProp = g.restProp) :
    g'.ctsFinalizer = g.ctsFinalizer ∧ g'.traceref = g.traceref ∧ g'.fr2 = g.fr2 ∧
    g'.state = g.state ∧ g'.kind = g.kind := by
  refine ⟨?_, ?_, ?_, ?_, ?_⟩
  · exact (show g'.restProp.ctsFinalizer = g.restProp.ctsFinalizer by rw [h])
  · exact (show g'.restProp.traceref = g.restProp.traceref by rw [h])
  · exact (show g'.restProp.fr2 = g.restProp.fr2 by rw [h])
  · exact (show g'.restProp.state = g.restProp.state by rw [h])
  · exact (show g'.restProp.kind = g.restProp.kind by rw [h])

theorem tvRef_nil : tvRef TValue.nil = [] := rfl

theorem PropBase.nonwhite {o : Nat} {S : Finset Nat} {g g' : GState} (h : PropBase o S g g')
    {a : Nat} (ha : ¬ iswhite (g.heap a)) : ¬ iswhite (g'.heap a) := by
  intro hw
  have e := h.white a hw
  rw [e] at hw
  exact ha hw

theorem PropBase.uvval_sub {o : Nat} {S : Finset Nat} {g g' : GState} (h : PropBase o S g g')
    (a v : Nat) (hv : v ∈ tvRef (uvval g' (g'.heap a))) : v ∈ tvRef (uvval g (g.heap a)) := by
  have f := shapeS_fields (h.shape a)
  unfold uvval at hv ⊢
  rw [f.v, f.tv] at hv
  cases hvv : (g.heap a).v with
  | own => rw [hvv] at hv; exact hv
  | slot th i =>
    rw [hvv] at hv
    simp only [] at hv ⊢
    rcases h.stack th i with e | e
    · rw [e] at hv; exact hv
    · rw [e, tvRef_nil] at hv; cases hv

theorem PropBase.children_sub {o : Nat} {S : Finset Nat} {g g' : GState} (h : PropBase o S g g')
    (st : Bool) (a v : Nat) (hv : v ∈ children st g' a) : v ∈ children st g a := by
  have f := shapeS_fields (h.shape a)
  obtain ⟨r1, r2, r3, _, _⟩ := restProp_fields h.rest
  unfold children at hv ⊢
  simp only [] at hv ⊢
  rw [f.gct] at hv
  cases hg : (g.heap a).gct <;> rw [hg] at hv <;> simp only [] at hv ⊢
  case str => exact hv
  case upval => exact h.uvval_sub a v hv
  case thread =>
    rw [f.top, f.env, f.frames, r3] at hv
    rcases List.mem_append.mp hv with h1 | h1
    · rcases List.mem_append.mp h1 with h2 | h2
      · refine List.mem_append_left _ (List.mem_append_left _ ?_)
        obtain ⟨l, hl, hvl⟩ := List.mem_flatten.mp h2
        obtain ⟨i, hi, e⟩ := List.mem_map.mp hl
        subst e
        refine List.mem_flatten.mpr ⟨_, List.mem_map.mpr ⟨i, hi, rfl⟩, ?_⟩
        rcases h.stack a (1 + (if g.fr2 = true then 1 else 0) + i) with e | e
        · rw [e] at hvl; exact hvl
        · rw [e, tvRef_nil] at hvl; cases hvl
      · exact List.mem_append_left _ (List.mem_append_right _ h2)
    · exact List.mem_append_right _ h1
  case proto =>
    rw [f.chunkname, f.kgc, f.trace] at hv
    unfold traceRef at hv ⊢
    rw [r2] at hv
    exact hv
  case func =>
    rw [f.env, f.isluafunc, f.pt, f.uvptr, f.upvalue] at hv
    exact hv
  case trace =>
    rw [f.traceno, f.ir, f.link, f.nextroot, f.nextside, f.startpt] at hv
    unfold traceRef at hv ⊢
    rw [r2] at hv
    exact hv
  case cdata => exact hv
  case tab =>
    rw [f.metatable, f.array, f.hmask, f.node, r1] at hv
    exact hv
  case udata =>
    rw [f.metatable, f.env] at hv
    exact hv

theorem PropBase.kids {o : Nat} {S : Finset Nat} {g g' : GState} (h : PropBase o S g g')
    {st : Bool} {a : Nat} (hk : KidsOK st g a) : KidsOK st g' a :=
  fun v hv => h.nonwhite (hk v (h.children_sub st a v hv))

theorem PropBase.bwhiteIn {o : Nat} {S : Finset Nat} {g g' : GState} (h : PropBase o S g g')
    (hS : WhiteIn g S) : WhiteIn g' S := by
  intro a ha
  have e := h.white a ha
  rw [e] at ha
  exact hS a ha

theorem PropBase.mu_le {o : Nat} {S : Finset Nat} {g g' : GState} (h : PropBase o S g g') :
    mu S g' ≤ mu S g := by
  unfold mu
  apply Finset.card_le_card
  intro a ha
  rw [Finset.mem_filter] at ha ⊢
  refine ⟨ha.1, ?_⟩
  have e := h.white a ha.2
  rw [← e]; exact ha.2

theorem PropBase.brefl (o : Nat) (S : Finset Nat) (g : GState) : PropBase o S g g :=
  ⟨fun _ _ => rfl, fun _ => rfl, fun _ _ => Or.inl rfl, rfl,
    fun ts h _ _ _ => ⟨[], h, fun x hx => (by cases hx), by simp⟩⟩

theorem PropBase.btrans {o : Nat} {S : Finset Nat} {a b c : GState} (h1 : PropBase o S a b)
    (h2 : PropBase o S b c) : PropBase o S a c := by
  refine ⟨?_, ?_, ?_, ?_, ?_⟩
  · intro x hx
    have e := h2.white x hx
    rw [e] at hx ⊢
    exact h1.white x hx
  · intro x; rw [h2.shape, h1.shape]
  · intro x i
    rcases h2.stack x i with e | e
    · rw [e]; exact h1.stack x i
    · exact Or.inr e
  · rw [h2.rest, h1.rest]
  · intro ts hts ho how hS
    obtain ⟨n1, g1, w1, l1⟩ := h1.gray ts hts ho how hS
    have ho1 : o ∉ n1 ++ ts := by
      intro hm
      rcases List.mem_append.mp hm with hm | hm
      · exact how (w1 o hm)
      · exact ho hm
    obtain ⟨n2, g2, w2, l2⟩ := h2.gray (n1 ++ ts) g1 ho1 (h1.nonwhite how) (h1.bwhiteIn hS)
    refine ⟨n2 ++ n1, by rw [List.append_assoc]; exact g2, ?_, ?_⟩
    · intro x hx
      rcases List.mem_append.mp hx with hx | hx
      · have hw := w2 x hx
        have e := h1.white x hw
        rw [← e]; exact hw
      · exact w1 x hx
    · rw [List.length_append]; omega

theorem PropRel.refl (o : Nat) (S : Finset Nat) (g : GState) : PropRel o S g g :=
  ⟨PropBase.brefl o S g, fun _ h => Or.inl h⟩

theorem PropRel.trans {o : Nat} {S : Finset Nat} {a b c : GState} (h1 : PropRel o S a b)
    (h2 : PropRel o S b c) : PropRel o S a c := by
  refine ⟨h1.base.btrans h2.base, ?_⟩
  intro x hx
  rcases h2.black x hx with e | e
  · rcases h1.black x e with e' | e'
    · exact Or.inl e'
    · exact Or.inr (h2.base.kids e')
  · exact Or.inr e

theorem Ctx.step {o : Nat} {S : Finset Nat} {fuel : Nat} {g g' : GState} (c : Ctx o S fuel g)
    (h : PropBase o S g g') : Ctx o S fuel g' := by
  refine ⟨h.nonwhite c.cur, h.nonwhite c.null, ?_, h.bwhiteIn c.cover,
    le_trans h.mu_le c.fuel⟩
  intro n
  rw [(restProp_fields h.rest).2.1, (shapeS_fields (h.shape _)).gct]
  exact c.trace n

theorem GChain.congr_mem {g g' : GState} : ∀ {xs : List Nat} {h : Nat},
    (∀ x ∈ xs, (g'.heap x).gclist = (g.heap x).gclist) → GChain g h xs → GChain g' h xs
  | [], _, _, hc => hc
  | x :: xs, h, hn, hc => by
    obtain ⟨h1, h2, h3⟩ := hc
    refine ⟨h1, h2, ?_⟩
    rw [hn x (List.mem_cons_self _ _)]
    exact GChain.congr_mem (fun y hy => hn y (List.mem_cons_of_mem _ hy)) h3

theorem GrayB.gbcongr {g g' : GState} {ts : List Nat} (h : GrayB g ts) (hg : g'.gray = g.gray)
    (hl : ∀ t ∈ ts, (g'.heap t).gclist = (g.heap t).gclist)
    (hw : ∀ t ∈ ts, ¬ iswhite (g'.heap t))
    (ht : ∀ t ∈ ts, (g'.heap t).gct = (g.heap t).gct) : GrayB g' ts :=
  ⟨by rw [hg]; exact GChain.congr_mem hl h.chain, h.nodup,
    fun t hm => ⟨hw t hm, by rw [ht t hm]; exact (h.ok t hm).2⟩⟩

theorem mu_mono {S : Finset Nat} {g g' : GState}
    (h : ∀ a, iswhite (g'.heap a) → iswhite (g.heap a)) : mu S g' ≤ mu S g := by
  unfold mu
  apply Finset.card_le_card
  intro a ha
  rw [Finset.mem_filter] at ha ⊢
  exact ⟨ha.1, h a ha.2⟩

theorem mu_lt (S : Finset Nat) {g g' : GState} {v : Nat}
    (h : ∀ a, iswhite (g'.heap a) → iswhite (g.heap a)) (hv : v ∈ S)
    (hw : iswhite (g.heap v)) (hw' : ¬ iswhite (g'.heap v)) : mu S g' < mu S g := by
  unfold mu
  apply Finset.card_lt_card
  refine ⟨?_, ?_⟩
  · intro a ha
    rw [Finset.mem_filter] at ha ⊢
    exact ⟨ha.1, h a ha.2⟩
  · intro hsub
    have : v ∈ S.filter (fun a => iswhite (g'.heap a)) :=
      hsub (Finset.mem_filter.mpr ⟨hv, hw⟩)
    exact hw' (Finset.mem_filter.mp this).2

/-- Updating one object without making it white, keeping its reference
fields, is a propagation step, as long as a worklist link only changes on
the current or a white object. -/
theorem PropBase.bmod (o : Nat) (S : Finset Nat) (g : GState) (a : Nat) (f : GCobj → GCobj)
    (hnw : ¬ iswhite (f (g.heap a)))
    (hshape : shapeS (f (g.heap a)) = shapeS (g.heap a))
    (hstack : ∀ i, (f (g.heap a)).stack.getD i TValue.nil = (g.heap a).stack.getD i TValue.nil ∨
      (f (g.heap a)).stack.getD i TValue.nil = TValue.nil)
    (hgl : a = o ∨ iswhite (g.heap a) ∨ (f (g.heap a)).gclist = (g.heap a).gclist) :
    PropBase o S g (g.modObj a f) := by
  have hwh : ∀ x, iswhite ((g.modObj a f).heap x) → (g.modObj a f).heap x = g.heap x := by
    intro x hx
    rw [modObj_heap] at hx ⊢
    split_ifs at hx ⊢ with e
    · exact absurd hx hnw
    · rfl
  refine ⟨hwh, ?_, ?_, rfl, ?_⟩
  · intro x
    rw [modObj_heap]
    split_ifs with e
    · subst e; exact hshape
    · rfl
  · intro x i
    rw [modObj_heap]
    split_ifs with e
    · subst e; exact hstack i
    · exact Or.inl rfl
  · intro ts hts ho how _
    refine ⟨[], ?_, fun x hx => (by cases hx), ?_⟩
    · refine hts.gbcongr rfl ?_ ?_ ?_
      · intro t ht
        rw [modObj_heap]
        split_ifs with e
        · subst e
          rcases hgl with e1 | e1 | e1
          · exact absurd (e1 ▸ ht) ho
          · exact absurd e1 (hts.ok t ht).1
          · exact e1
        · rfl
      · intro t ht
        rw [modObj_heap]
        split_ifs with e
        · exact hnw
        · exact (hts.ok t ht).1
      · intro t ht
        rw [modObj_heap]
        split_ifs with e
        · subst e; exact (shapeS_fields hshape).gct
        · rfl
    · simp only [List.length_nil, Nat.zero_add]
      exact mu_mono (fun x hx => by rw [← hwh x hx]; exact hx)

/-- A state with the same heap and gray list is a propagation step. -/
theorem PropBase.b_of_heap (o : Nat) (S : Finset Nat) {g g' : GState} (hh : g'.heap = g.heap)
    (hg : g'.gray = g.gray) (hr : g'.restProp = g.restProp) : PropBase o S g g' := by
  refine ⟨fun a _ => by rw [hh], fun a => by rw [hh], fun a i => Or.inl (by rw [hh]), hr, ?_⟩
  intro ts hts _ _ _
  refine ⟨[], hts.gbcongr hg (fun t _ => by rw [hh]) (fun t ht => by rw [hh]; exact (hts.ok t ht).1)
    (fun t _ => by rw [hh]), fun x hx => (by cases hx), ?_⟩
  simp only [List.length_nil, Nat.zero_add]
  exact mu_mono (fun x hx => by rw [hh] at hx; exact hx)

theorem with_gray_heap (G : GState) (v : Nat) : ({ G with gray := v } : GState).heap = G.heap :=
  rfl

/-- Turning a white object gray and pushing it on the gray list. -/
theorem PropBase.push (o : Nat) (S : Finset Nat) (g : GState) (v : Nat)
    (hw : iswhite (g.heap v)) (h0 : ¬ iswhite (g.heap 0)) (htr : trav (g.heap v).gct) :
    PropBase o S g
      { (g.modObj v white2gray).modObj v
          (fun x => { x with gclist := (g.modObj v white2gray).gray }) with gray := v } := by
  have hv0 : v ≠ 0 := fun e => h0 (e ▸ hw)
  have hheap : ∀ x, ({ (g.modObj v white2gray).modObj v
      (fun x => { x with gclist := (g.modObj v white2gray).gray }) with gray := v } : GState).heap x
      = if x = v then { white2gray (g.heap v) with gclist := g.gray } else g.heap x := by
    intro x
    rw [with_gray_heap]
    by_cases e : x = v
    · subst e
      rw [if_pos rfl, modObj_heap_same, modObj_heap_same]
      rfl
    · rw [if_neg e, modObj_heap_ne _ _ _ _ e, modObj_heap_ne _ _ _ _ e]
  have hnw : ¬ iswhite ({ white2gray (g.heap v) with gclist := g.gray } : GCobj) :=
    white2gray_not_white (g.heap v)
  have hwh : ∀ x, iswhite (({ (g.modObj v white2gray).modObj v
      (fun x => { x with gclist := (g.modObj v white2gray).gray }) with gray := v } : GState).heap x)
      → ({ (g.modObj v white2gray).modObj v
      (fun x => { x with gclist := (g.modObj v white2gray).gray }) with gray := v } : GState).heap x
        = g.heap x := by
    intro x hx
    rw [hheap] at hx ⊢
    split_ifs at hx ⊢ with e
    · exact absurd hx hnw
    · rfl
  refine ⟨hwh, ?_, ?_, rfl, ?_⟩
  · intro x
    rw [hheap]
    split_ifs with e
    · subst e; rfl
    · rfl
  · intro x i
    rw [hheap]
    split_ifs with e
    · subst e; exact Or.inl rfl
    · exact Or.inl rfl
  · intro ts hts _ _ hS
    have hvt : v ∉ ts := fun hm => (hts.ok v hm).1 hw
    refine ⟨[v], ⟨⟨rfl, hv0, ?_⟩, List.nodup_cons.mpr ⟨hvt, hts.nodup⟩, ?_⟩, ?_, ?_⟩
    · rw [hheap, if_pos rfl]
      refine GChain.congr_mem ?_ hts.chain
      intro t ht
      rw [hheap, if_neg (fun (e : t = v) => hvt (e ▸ ht))]
    · intro t ht
      rw [hheap]
      rcases List.mem_cons.mp ht with e | ht'
      · subst e; rw [if_pos rfl]; exact ⟨hnw, htr⟩
      · rw [if_neg (fun (e : t = v) => hvt (e ▸ ht'))]; exact hts.ok t ht'
    · intro x hx
      rw [List.mem_singleton] at hx
      subst hx; exact hw
    · have := mu_lt S (fun x hx => by rw [← hwh x hx]; exact hx) (hS v hw) hw
        (by rw [hheap, if_pos rfl]; exact hnw)
      show 1 + mu S _ ≤ mu S g
      rw [Nat.add_comm]
      exact this

theorem gray2black_not_white {x : GCobj} (h : ¬ iswhite x) : ¬ iswhite (gray2black x) :=
  fun hw => h ((gray2black_white_iff x).mp hw)

theorem white2gray_black_iff (x : GCobj) : isblack (white2gray x) ↔ isblack x := by
  unfold isblack white2gray
  have h := (w2g_bits x.marked).2.2
  show (x.marked &&& not8 LJ_GC_WHITES) &&& 4 ≠ 0 ↔ x.marked &&& 4 ≠ 0
  rw [h]

theorem guarded_prop {n : Nat} (o : Nat) (S : Finset Nat)
    (ih : ∀ (g : GState) (v : Nat) (g' : GState), iswhite (g.heap v) → ¬ iswhite (g.heap 0) →
      gc_mark n g v = some g' → PropRel o S g g' ∧ ¬ iswhite (g'.heap v))
    (c : Prop) [Decidable c] (g : GState) (a : Nat) (g' : GState)
    (hca : c → iswhite (g.heap a)) (h0 : ¬ iswhite (g.heap 0))
    (h : (if c then gc_mark n g a else some g) = some g') :
    PropRel o S g g' ∧ (c → ¬ iswhite (g'.heap a)) := by
  by_cases hc : c
  · rw [if_pos hc] at h
    obtain ⟨r, p⟩ := ih g a g' (hca hc) h0 h
    exact ⟨r, fun _ => p⟩
  · rw [if_neg hc] at h
    cases h
    exact ⟨PropRel.refl o S g, fun x => absurd x hc⟩

theorem bind_some {α β : Type} {X : Option α} {f : α → Option β} {b : β}
    (h : X.bind f = some b) : ∃ a, X = some a ∧ f a = some b := by
  cases X with
  | none => cases h
  | some a => exact ⟨a, rfl, h⟩

theorem PropRel.w2g (o : Nat) (S : Finset Nat) (g : GState) (v : Nat) (hw : iswhite (g.heap v)) :
    PropRel o S g (g.modObj v white2gray) := by
  refine ⟨PropBase.bmod o S g v white2gray (white2gray_not_white _) rfl (fun _ => Or.inl rfl)
    (Or.inr (Or.inl hw)), ?_⟩
  intro a ha
  rw [modObj_heap] at ha
  split_ifs at ha with e
  · subst e; exact Or.inl ((white2gray_black_iff _).mp ha)
  · exact Or.inl ha

theorem PropBase.g2b (o : Nat) (S : Finset Nat) (g : GState) (v : Nat)
    (hw : ¬ iswhite (g.heap v)) : PropBase o S g (g.modObj v gray2black) :=
  PropBase.bmod o S g v gray2black (gray2black_not_white hw) rfl (fun _ => Or.inl rfl)
    (Or.inr (Or.inr rfl))

theorem KidsOK.udata {st : Bool} {g : GState} {a : Nat} (hg : (g.heap a).gct = GCT.udata)
    (hm : (g.heap a).metatable ≠ 0 → ¬ iswhite (g.heap (g.heap a).metatable))
    (he : ¬ iswhite (g.heap (g.heap a).env)) : KidsOK st g a := by
  intro x hx
  unfold children at hx
  simp only [hg] at hx
  rcases List.mem_append.mp hx with h | h
  · split_ifs at h with e
    · rw [List.mem_singleton] at h; subst h; exact hm e
    · cases h
  · rw [List.mem_singleton] at h; subst h; exact he

theorem KidsOK.upval {st : Bool} {g : GState} {a : Nat} (hg : (g.heap a).gct = GCT.upval)
    (h : ∀ x ∈ tvRef (uvval g (g.heap a)), ¬ iswhite (g.heap x)) : KidsOK st g a := by
  intro x hx
  unfold children at hx
  simp only [hg] at hx
  exact h x hx

theorem gc_mark_prop (o : Nat) (S : Finset Nat) : ∀ (n : Nat) (g : GState) (v : Nat)
    (g' : GState), iswhite (g.heap v) → ¬ iswhite (g.heap 0) → gc_mark n g v = some g' →
    PropRel o S g g' ∧ ¬ iswhite (g'.heap v) := by
  intro n
  induction n with
  | zero => intro g v g' _ _ h; simp [gc_mark] at h
  | succ n ih =>
    intro g v g' hw h0 h
    have r1 := PropRel.w2g o S g v hw
    have hvG : ¬ iswhite ((g.modObj v white2gray).heap v) := by
      rw [modObj_heap_same]; exact white2gray_not_white _
    have h0G := r1.base.nonwhite h0
    have hgG : ((g.modObj v white2gray).heap v).gct = (g.heap v).gct :=
      (shapeS_fields (r1.base.shape v)).gct
    unfold gc_mark at h
    simp only [] at h
    cases hg : (g.heap v).gct <;> rw [hg] at h <;> simp only [] at h
    case str => cases h; exact ⟨r1, hvG⟩
    case cdata => cases h; exact ⟨r1, hvG⟩
    case udata =>
      generalize g.modObj v white2gray = G at h r1 hvG h0G hgG
      obtain ⟨g3, hX, hY⟩ := bind_some h
      have b2 := PropBase.g2b o S G v hvG
      obtain ⟨r3, p3⟩ := guarded_prop o S ih _ _ _ g3 (fun c => c.2) (b2.nonwhite h0G) hX
      obtain ⟨r4, p4⟩ := guarded_prop o S ih _ _ _ g' (fun c => c) (r3.base.nonwhite
        (b2.nonwhite h0G)) hY
      have b34 := r3.base.btrans r4.base
      have bG := b2.btrans b34
      have hv' : ¬ iswhite (g'.heap v) := bG.nonwhite hvG
      refine ⟨⟨r1.base.btrans bG, ?_⟩, hv'⟩
      intro a ha
      by_cases e : a = v
      · subst e
        right
        have f4 := shapeS_fields (r4.base.shape a)
        have fG := shapeS_fields (bG.shape a)
        refine KidsOK.udata (by rw [fG.gct, hgG, hg]) ?_ ?_
        · intro hm
          rw [fG.metatable] at hm ⊢
          apply r4.base.nonwhite
          by_cases c : (G.heap a).metatable ≠ 0 ∧
              iswhite ((G.modObj a gray2black).heap (G.heap a).metatable)
          · exact p3 c
          · exact r3.base.nonwhite (fun hwm => c ⟨hm, hwm⟩)
        · rw [f4.env]
          by_cases c : iswhite (g3.heap (g3.heap a).env)
          · exact p4 c
          · exact r4.base.nonwhite c
      · rcases (r3.trans r4).black a ha with hb | hb
        · rw [modObj_heap_ne _ _ _ _ e] at hb
          rcases r1.black a hb with h1 | h1
          · exact Or.inl h1
          · exact Or.inr (bG.kids h1)
        · exact Or.inr hb
    case upval =>
      generalize g.modObj v white2gray = G at h r1 hvG h0G hgG
      obtain ⟨g3, hX, hY⟩ := bind_some h
      obtain ⟨r3, p3⟩ := guarded_prop o S ih _ _ _ g3 (fun c => c.2) h0G hX
      have hv3 : ¬ iswhite (g3.heap v) := r3.base.nonwhite hvG
      have hk3 : ∀ x ∈ tvRef (uvval G (G.heap v)), ¬ iswhite (g3.heap x) := by
        intro x hx
        unfold tvRef at hx
        split_ifs at hx with hgc
        · rw [List.mem_singleton] at hx
          subst hx
          by_cases c : tviswhite G (uvval G (G.heap v))
          · exact p3 c
          · exact r3.base.nonwhite (fun hwx => c ⟨hgc, hwx⟩)
        · cases hx
      split at hY
      · cases hY
        have b4 := PropBase.g2b o S g3 v hv3
        refine ⟨⟨r1.base.btrans (r3.base.btrans b4), ?_⟩, b4.nonwhite hv3⟩
        intro a ha
        by_cases e : a = v
        · subst e
          right
          refine KidsOK.upval ?_ ?_
          · rw [(shapeS_fields ((r3.base.btrans b4).shape a)).gct, hgG, hg]
          · intro x hx
            exact b4.nonwhite (hk3 x ((r3.base.btrans b4).uvval_sub a x hx))
        · rw [modObj_heap_ne _ _ _ _ e] at ha
          rcases r3.black a ha with hb | hb
          · rcases r1.black a hb with h1 | h1
            · exact Or.inl h1
            · exact Or.inr ((r3.base.btrans b4).kids h1)
          · exact Or.inr (b4.kids hb)
      · cases hY
        exact ⟨r1.trans r3, hv3⟩
    all_goals
      cases h
      have hp := PropBase.push o S g v hw h0 (by rw [hg]; unfold trav; decide)
      refine ⟨⟨hp, ?_⟩, ?_⟩
      · intro a ha
        rw [with_gray_heap, modObj_heap] at ha
        split_ifs at ha with e
        · subst e
          rw [modObj_heap_same] at ha
          exact Or.inl ((white2gray_black_iff _).mp ha)
        · rw [modObj_heap_ne _ _ _ _ e] at ha
          exact Or.inl ha
      · rw [with_gray_heap, modObj_heap_same, modObj_heap_same]
        exact white2gray_not_white _

theorem Ctx.total {o : Nat} {S : Finset Nat} {fuel : Nat} {g : GState} (c : Ctx o S fuel g)
    {a : Nat} (ha : iswhite (g.heap a)) : ∃ g', gc_mark fuel g a = some g' := by
  refine gc_mark_total fuel (S.filter (fun x => iswhite (g.heap x))) g a ?_ ha c.fuel
  intro x hx
  exact Finset.mem_filter.mpr ⟨c.cover x hx, hx⟩

theorem markobj_step {o : Nat} {S : Finset Nat} {fuel : Nat} {g : GState} (c : Ctx o S fuel g)
    (a : Nat) : ∃ g', gc_markobj fuel g a = some g' ∧ PropRel o S g g' ∧
      ¬ iswhite (g'.heap a) := by
  unfold gc_markobj
  by_cases ha : iswhite (g.heap a)
  · rw [if_pos ha]
    obtain ⟨g', h⟩ := c.total ha
    obtain ⟨r, p⟩ := gc_mark_prop o S fuel g a g' ha c.null h
    exact ⟨g', h, r, p⟩
  · rw [if_neg ha]
    exact ⟨g, rfl, PropRel.refl o S g, ha⟩

theorem marktv_step {o : Nat} {S : Finset Nat} {fuel : Nat} {g : GState} (c : Ctx o S fuel g)
    (tv : TValue) : ∃ g', gc_marktv fuel g tv = some g' ∧ PropRel o S g g' ∧
      ∀ x ∈ tvRef tv, ¬ iswhite (g'.heap x) := by
  unfold gc_marktv
  by_cases ha : tviswhite g tv
  · rw [if_pos ha]
    obtain ⟨g', h⟩ := c.total ha.2
    obtain ⟨r, p⟩ := gc_mark_prop o S fuel g _ g' ha.2 c.null h
    refine ⟨g', h, r, fun x hx => ?_⟩
    unfold tvRef at hx
    rw [if_pos ha.1, List.mem_singleton] at hx
    subst hx; exact p
  · rw [if_neg ha]
    refine ⟨g, rfl, PropRel.refl o S g, fun x hx => ?_⟩
    unfold tvRef at hx
    split_ifs at hx with hgc
    · rw [List.mem_singleton] at hx
      subst hx
      exact fun hw => ha ⟨hgc, hw⟩
    · cases hx

theorem marktrace_step {o : Nat} {S : Finset Nat} {fuel : Nat} {g : GState}
    (c : Ctx o S fuel g) (n : Nat) :
    PropRel o S g (gc_marktrace g n) ∧ ¬ iswhite ((gc_marktrace g n).heap (g.traceref n)) := by
  unfold gc_marktrace
  simp only []
  by_cases hw : iswhite (g.heap (g.traceref n))
  · rw [if_pos hw]
    have hp := PropBase.push o S g (g.traceref n) hw c.null
      (by rw [c.trace n]; unfold trav; decide)
    refine ⟨⟨hp, ?_⟩, ?_⟩
    · intro a ha
      rw [with_gray_heap, modObj_heap] at ha
      split_ifs at ha with e
      · subst e
        rw [modObj_heap_same] at ha
        exact Or.inl ((white2gray_black_iff _).mp ha)
      · rw [modObj_heap_ne _ _ _ _ e] at ha
        exact Or.inl ha
    · rw [with_gray_heap, modObj_heap_same, modObj_heap_same]
      exact white2gray_not_white _
  · rw [if_neg hw]
    exact ⟨PropRel.refl o S g, hw⟩

theorem markstr_step (o : Nat) (S : Finset Nat) (g : GState) (s : Nat) :
    PropRel o S g (g.modObj s gc_mark_str) ∧ ¬ iswhite ((g.modObj s gc_mark_str).heap s) := by
  have hnw : ¬ iswhite (gc_mark_str (g.heap s)) := white2gray_not_white (g.heap s)
  refine ⟨⟨PropBase.bmod o S g s gc_mark_str hnw rfl (fun _ => Or.inl rfl)
    (Or.inr (Or.inr rfl)), ?_⟩, by rw [modObj_heap_same]; exact hnw⟩
  intro a ha
  rw [modObj_heap] at ha
  split_ifs at ha with e
  · subst e; exact Or.inl ((white2gray_black_iff _).mp ha)
  · exact Or.inl ha

/-- A counted loop of propagation steps, each establishing a stable fact. -/
theorem loopM_spec {o : Nat} {S : Finset Nat} {fuel : Nat} (f : Nat → GState → Option GState)
    (Q : Nat → GState → Prop)
    (hstable : ∀ j g g', PropRel o S g g' → Q j g → Q j g')
    (hstep : ∀ j g, Ctx o S fuel g → ∃ g', f j g = some g' ∧ PropRel o S g g' ∧ Q j g') :
    ∀ (k i : Nat) (g : GState), Ctx o S fuel g →
      ∃ g', loopM f k i g = some g' ∧ PropRel o S g g' ∧ ∀ j, i ≤ j → j < i + k → Q j g'
  | 0, i, g, _ => ⟨g, rfl, PropRel.refl o S g, fun j h1 h2 => absurd h2 (by omega)⟩
  | k + 1, i, g, c => by
    obtain ⟨g1, h1, r1, q1⟩ := hstep i g c
    obtain ⟨g2, h2, r2, q2⟩ := loopM_spec f Q hstable hstep k (i + 1) g1 (c.step r1.base)
    refine ⟨g2, ?_, r1.trans r2, fun j hj1 hj2 => ?_⟩
    · unfold loopM
      rw [h1]; exact h2
    · by_cases e : j = i
      · subst e; exact hstable j g1 g2 r2 q1
      · exact q2 j (by omega) (by omega)

theorem mem_getD {α : Type} {l : List α} {a : α} (d : α) (h : a ∈ l) :
    ∃ j, j < l.length ∧ l.getD j d = a := by
  obtain ⟨i, hi, e⟩ := List.mem_iff_getElem.mp h
  refine ⟨i, hi, ?_⟩
  rw [List.getD_eq_getElem _ _ hi]; exact e

theorem gc_traverse_func_spec {o : Nat} {S : Finset Nat} {fuel : Nat} {g : GState}
    (c : Ctx o S fuel g) (hg : (g.heap o).gct = GCT.func) :
    ∃ g', gc_traverse_func fuel g o = some g' ∧ PropRel o S g g' ∧ KidsOK false g' o := by
  unfold gc_traverse_func
  obtain ⟨g1, h1, r1, p1⟩ := markobj_step c (g.heap o).env
  have c1 := c.step r1.base
  rw [h1]
  simp only [Option.some_bind]
  have f1 := shapeS_fields (r1.base.shape o)
  by_cases hl : (g1.heap o).isluafunc = true
  · rw [if_pos hl]
    obtain ⟨g2, h2, r2, p2⟩ := markobj_step c1 (g1.heap o).pt
    have c2 := c1.step r2.base
    have f2 := shapeS_fields (r2.base.shape o)
    rw [h2]
    simp only [Option.some_bind]
    obtain ⟨g3, h3, r3, p3⟩ := loopM_spec
      (fun i g => gc_markobj fuel g ((g.heap o).uvptr.getD i 0))
      (fun j g => ¬ iswhite (g.heap ((g.heap o).uvptr.getD j 0)))
      (fun j ga gb r q => by
        dsimp only at q ⊢
        rw [(shapeS_fields (r.base.shape o)).uvptr]; exact r.base.nonwhite q)
      (fun j ga ca => by
        dsimp only
        obtain ⟨g', h, r, p⟩ := markobj_step ca ((ga.heap o).uvptr.getD j 0)
        exact ⟨g', h, r, by rw [(shapeS_fields (r.base.shape o)).uvptr]; exact p⟩) (g2.heap o).uvptr.length 0 g2 c2
    have f3 := shapeS_fields (r3.base.shape o)
    refine ⟨g3, h3, r1.trans (r2.trans r3), ?_⟩
    intro x hx
    unfold children at hx
    simp only [f3.gct, f2.gct, f1.gct, hg, f3.isluafunc, f2.isluafunc, hl, if_true] at hx
    rcases List.mem_cons.mp hx with e | hx
    · subst e
      rw [f3.env, f2.env, f1.env]
      exact r3.base.nonwhite (r2.base.nonwhite p1)
    · rcases List.mem_cons.mp hx with e | hx
      · subst e
        rw [f3.pt, f2.pt]
        exact r3.base.nonwhite p2
      · obtain ⟨j, hj, e⟩ := mem_getD 0 hx
        subst e
        exact p3 j (Nat.zero_le _) (by rw [Nat.zero_add, ← f3.uvptr]; exact hj)
  · rw [if_neg hl]
    obtain ⟨g3, h3, r3, p3⟩ := loopM_spec
      (fun i g => gc_marktv fuel g ((g.heap o).upvalue.getD i TValue.nil))
      (fun j g => ∀ x ∈ tvRef ((g.heap o).upvalue.getD j TValue.nil), ¬ iswhite (g.heap x))
      (fun j ga gb r q => by
        dsimp only at q ⊢
        rw [(shapeS_fields (r.base.shape o)).upvalue]
        exact fun x hx => r.base.nonwhite (q x hx))
      (fun j ga ca => by
        dsimp only
        obtain ⟨g', h, r, p⟩ := marktv_step ca ((ga.heap o).upvalue.getD j TValue.nil)
        exact ⟨g', h, r, by rw [(shapeS_fields (r.base.shape o)).upvalue]; exact p⟩) (g1.heap o).upvalue.length 0 g1 c1
    have f3 := shapeS_fields (r3.base.shape o)
    refine ⟨g3, h3, r1.trans r3, ?_⟩
    intro x hx
    unfold children at hx
    simp only [f3.gct, f1.gct, hg, f3.isluafunc, hl] at hx
    rcases List.mem_cons.mp hx with e | hx
    · subst e
      rw [f3.env, f1.env]
      exact r3.base.nonwhite p1
    · simp only [Bool.false_eq_true, if_false] at hx
      obtain ⟨l, hl', hxl⟩ := List.mem_flatten.mp hx
      obtain ⟨tv, htv, e⟩ := List.mem_map.mp hl'
      subst e
      obtain ⟨j, hj, e⟩ := mem_getD TValue.nil htv
      subst e
      exact p3 j (Nat.zero_le _) (by rw [Nat.zero_add, ← f3.upvalue]; exact hj) x hxl

theorem gc_traverse_tab_eq (fuel : Nat) (g : GState) (t : Nat) :
    gc_traverse_tab fuel g t =
      (if (g.heap t).metatable ≠ 0 then gc_markobj fuel g (g.heap t).metatable
        else some g).bind fun g1 =>
        if (tabSetWeak g1 t (tabWeak g1 (g.heap t).metatable)).2 = LJ_GC_WEAK then
          some ((tabSetWeak g1 t (tabWeak g1 (g.heap t).metatable)).1, 1)
        else
          tabMarkParts fuel (tabSetWeak g1 t (tabWeak g1 (g.heap t).metatable)).1 t
            (tabSetWeak g1 t (tabWeak g1 (g.heap t).metatable)).2 := rfl

theorem traverseNode_spec {o : Nat} {S : Finset Nat} {fuel : Nat} {g : GState}
    (c : Ctx o S fuel g) (weak i : Nat) :
    ∃ g', traverseNode fuel o weak i g = some g' ∧ PropRel o S g g' ∧
      ∀ x ∈ nodeRefsW weak ((g'.heap o).node.getD i {}), ¬ iswhite (g'.heap x) := by
  unfold traverseNode
  simp only []
  by_cases hn : tvisnil ((g.heap o).node.getD i {}).val = true
  · rw [if_pos hn]
    refine ⟨g, rfl, PropRel.refl o S g, fun x hx => ?_⟩
    unfold nodeRefsW at hx
    rw [if_pos hn] at hx
    cases hx
  · rw [if_neg hn]
    have hk : ∃ g1, (if weak &&& LJ_GC_WEAKKEY = 0 then
        gc_marktv fuel g ((g.heap o).node.getD i {}).key else some g) = some g1 ∧
        PropRel o S g g1 ∧ (weak &&& LJ_GC_WEAKKEY = 0 →
          ∀ x ∈ tvRef ((g.heap o).node.getD i {}).key, ¬ iswhite (g1.heap x)) := by
      by_cases hw : weak &&& LJ_GC_WEAKKEY = 0
      · rw [if_pos hw]
        obtain ⟨g1, h1, r1, p1⟩ := marktv_step c ((g.heap o).node.getD i {}).key
        exact ⟨g1, h1, r1, fun _ => p1⟩
      · rw [if_neg hw]
        exact ⟨g, rfl, PropRel.refl o S g, fun h => absurd h hw⟩
    obtain ⟨g1, h1, r1, p1⟩ := hk
    rw [h1]
    simp only [Option.some_bind]
    have c1 := c.step r1.base
    have f1 := shapeS_fields (r1.base.shape o)
    have hv : ∃ g2, (if weak &&& LJ_GC_WEAKVAL = 0 then
        gc_marktv fuel g1 ((g1.heap o).node.getD i {}).val else some g1) = some g2 ∧
        PropRel o S g1 g2 ∧ (weak &&& LJ_GC_WEAKVAL = 0 →
          ∀ x ∈ tvRef ((g1.heap o).node.getD i {}).val, ¬ iswhite (g2.heap x)) := by
      by_cases hw : weak &&& LJ_GC_WEAKVAL = 0
      · rw [if_pos hw]
        obtain ⟨g2, h2, r2, p2⟩ := marktv_step c1 ((g1.heap o).node.getD i {}).val
        exact ⟨g2, h2, r2, fun _ => p2⟩
      · rw [if_neg hw]
        exact ⟨g1, rfl, PropRel.refl o S g1, fun h => absurd h hw⟩
    obtain ⟨g2, h2, r2, p2⟩ := hv
    have f2 := shapeS_fields (r2.base.shape o)
    refine ⟨g2, h2, r1.trans r2, fun x hx => ?_⟩
    unfold nodeRefsW at hx
    rw [f2.node, f1.node, if_neg hn] at hx
    rcases List.mem_append.mp hx with h | h
    · split_ifs at h with hw
      · exact r2.base.nonwhite (p1 hw x h)
      · cases h
    · split_ifs at h with hw
      · rw [← f1.node] at h
        exact p2 hw x h
      · cases h

theorem PropRel.mod (o : Nat) (S : Finset Nat) (g : GState) (a : Nat) (f : GCobj → GCobj)
    (hnw : ¬ iswhite (f (g.heap a)))
    (hshape : shapeS (f (g.heap a)) = shapeS (g.heap a))
    (hstack : ∀ i, (f (g.heap a)).stack.getD i TValue.nil = (g.heap a).stack.getD i TValue.nil ∨
      (f (g.heap a)).stack.getD i TValue.nil = TValue.nil)
    (hgl : a = o ∨ iswhite (g.heap a) ∨ (f (g.heap a)).gclist = (g.heap a).gclist)
    (hb : isblack (f (g.heap a)) → isblack (g.heap a)) :
    PropRel o S g (g.modObj a f) := by
  refine ⟨PropBase.bmod o S g a f hnw hshape hstack hgl, ?_⟩
  intro x hx
  rw [modObj_heap] at hx
  split_ifs at hx with e
  · subst e; exact Or.inl (hb hx)
  · exact Or.inl hx

theorem PropRel.of_heap (o : Nat) (S : Finset Nat) {g g' : GState} (hh : g'.heap = g.heap)
    (hg : g'.gray = g.gray) (hr : g'.restProp = g.restProp) : PropRel o S g g' :=
  ⟨PropBase.b_of_heap o S hh hg hr, fun a ha => Or.inl (by rw [hh] at ha; exact ha)⟩

theorem black2gray_not_white {x : GCobj} (h : ¬ iswhite x) : ¬ iswhite (black2gray x) := by
  unfold iswhite black2gray at *
  intro hw
  apply h
  intro h0
  apply hw
  show (x.marked &&& not8 LJ_GC_BLACK) &&& 3 = 0
  rw [(b2g_bits x.marked).1]; exact h0

theorem black2gray_not_black (x : GCobj) : ¬ isblack (black2gray x) := by
  unfold isblack black2gray
  exact fun h => h (b2g_bits x.marked).2.2

/-- Making the current object gray again is a propagation step. -/
theorem PropRel.b2g (o : Nat) (S : Finset Nat) (g : GState) (h : ¬ iswhite (g.heap o)) :
    PropRel o S g (g.modObj o black2gray) :=
  PropRel.mod o S g o black2gray (black2gray_not_white h) rfl (fun _ => Or.inl rfl)
    (Or.inl rfl) (fun hb => absurd hb (black2gray_not_black _))

/-- Relinking the current object is a propagation step. -/
theorem PropRel.relink (o : Nat) (S : Finset Nat) (g : GState) (r : Nat)
    (h : ¬ iswhite (g.heap o)) :
    PropRel o S g (g.modObj o (fun x => { x with gclist := r })) :=
  PropRel.mod o S g o _ h rfl (fun _ => Or.inl rfl) (Or.inl rfl) (fun hb => hb)

theorem with_grayagain_rel (o : Nat) (S : Finset Nat) (g : GState) (t : Nat) :
    PropRel o S g { g with grayagain := t } :=
  PropRel.of_heap o S rfl rfl rfl

theorem with_weak_rel (o : Nat) (S : Finset Nat) (g : GState) (t : Nat) :
    PropRel o S g { g with weak := t } :=
  PropRel.of_heap o S rfl rfl rfl

theorem tabMarkParts_spec {o : Nat} {S : Finset Nat} {fuel : Nat} {g : GState}
    (c : Ctx o S fuel g) (weak : Nat) :
    ∃ g', tabMarkParts fuel g o weak = some (g', weak) ∧ PropRel o S g g' ∧
      (weak = 0 → g.kind = GCKind.gen → ¬ isblack (g'.heap o)) ∧
      (weak &&& LJ_GC_WEAKVAL = 0 → ∀ tv ∈ (g'.heap o).array, ∀ x ∈ tvRef tv,
        ¬ iswhite (g'.heap x)) ∧
      ((g'.heap o).hmask > 0 → ∀ i, i < (g'.heap o).hmask + 1 →
        ∀ x ∈ nodeRefsW weak ((g'.heap o).node.getD i {}), ¬ iswhite (g'.heap x)) := by
  unfold tabMarkParts
  -- array part
  have hA : ∃ g1, (if weak &&& LJ_GC_WEAKVAL = 0 then
      loopM (fun i g => gc_marktv fuel g ((g.heap o).array.getD i TValue.nil))
        (g.heap o).array.length 0 g else some g) = some g1 ∧ PropRel o S g g1 ∧
      (weak &&& LJ_GC_WEAKVAL = 0 → ∀ tv ∈ (g1.heap o).array, ∀ x ∈ tvRef tv,
        ¬ iswhite (g1.heap x)) := by
    by_cases hw : weak &&& LJ_GC_WEAKVAL = 0
    · rw [if_pos hw]
      obtain ⟨g1, h1, r1, p1⟩ := loopM_spec
        (fun i g => gc_marktv fuel g ((g.heap o).array.getD i TValue.nil))
        (fun j g => ∀ x ∈ tvRef ((g.heap o).array.getD j TValue.nil), ¬ iswhite (g.heap x))
        (fun j ga gb r q => by
          dsimp only at q ⊢
          rw [(shapeS_fields (r.base.shape o)).array]
          exact fun x hx => r.base.nonwhite (q x hx))
        (fun j ga ca => by
          dsimp only
          obtain ⟨g', h, r, p⟩ := marktv_step ca ((ga.heap o).array.getD j TValue.nil)
          exact ⟨g', h, r, by rw [(shapeS_fields (r.base.shape o)).array]; exact p⟩)
        (g.heap o).array.length 0 g c
      refine ⟨g1, h1, r1, fun _ tv htv x hx => ?_⟩
      obtain ⟨j, hj, e⟩ := mem_getD TValue.nil htv
      subst e
      exact p1 j (Nat.zero_le _)
        (by rw [Nat.zero_add, ← (shapeS_fields (r1.base.shape o)).array]; exact hj) x hx
    · rw [if_neg hw]
      exact ⟨g, rfl, PropRel.refl o S g, fun h => absurd h hw⟩
  obtain ⟨g1, h1, r1, p1⟩ := hA
  rw [h1]
  simp only [Option.some_bind]
  have c1 := c.step r1.base
  -- hash part
  have hN : ∃ g2, (if (g1.heap o).hmask > 0 then
      loopM (traverseNode fuel o weak) ((g1.heap o).hmask + 1) 0 g1 else some g1) = some g2 ∧
      PropRel o S g1 g2 ∧
      ((g2.heap o).hmask > 0 → ∀ i, i < (g2.heap o).hmask + 1 →
        ∀ x ∈ nodeRefsW weak ((g2.heap o).node.getD i {}), ¬ iswhite (g2.heap x)) := by
    by_cases hm : (g1.heap o).hmask > 0
    · rw [if_pos hm]
      obtain ⟨g2, h2, r2, p2⟩ := loopM_spec (traverseNode fuel o weak)
        (fun j g => ∀ x ∈ nodeRefsW weak ((g.heap o).node.getD j {}), ¬ iswhite (g.heap x))
        (fun j ga gb r q => by
          dsimp only at q ⊢
          rw [(shapeS_fields (r.base.shape o)).node]
          exact fun x hx => r.base.nonwhite (q x hx))
        (fun j ga ca => traverseNode_spec ca weak j)
        ((g1.heap o).hmask + 1) 0 g1 c1
      refine ⟨g2, h2, r2, fun _ i hi x hx => ?_⟩
      exact p2 i (Nat.zero_le _)
        (by rw [Nat.zero_add, ← (shapeS_fields (r2.base.shape o)).hmask]; exact hi) x hx
    · rw [if_neg hm]
      refine ⟨g1, rfl, PropRel.refl o S g1, fun h => absurd h hm⟩
  obtain ⟨g2, h2, r2, p2⟩ := hN
  rw [h2]
  simp only [Option.some_bind]
  have c2 := c1.step r2.base
  have r12 := r1.trans r2
  have hk : g2.kind = g.kind := (restProp_fields r12.base.rest).2.2.2.2
  by_cases hgen : weak = 0 ∧ g2.kind = GCKind.gen
  · rw [if_pos hgen]
    have s1 := PropRel.relink o S g2 g2.grayagain c2.cur
    have s2 := with_grayagain_rel o S (g2.modObj o (fun x => { x with gclist := g2.grayagain })) o
    have s3 := PropRel.b2g o S _ ((s1.trans s2).base.nonwhite c2.cur)
    have r3 := s1.trans (s2.trans s3)
    refine ⟨_, rfl, r12.trans r3, ?_, ?_, ?_⟩
    · intro _ _
      rw [modObj_heap_same]
      exact black2gray_not_black _
    · intro hw tv htv x hx
      rw [(shapeS_fields (r3.base.shape o)).array] at htv
      exact r3.base.nonwhite (r2.base.nonwhite (p1 hw tv
        (by rw [← (shapeS_fields (r2.base.shape o)).array]; exact htv) x hx))
    · intro hm i hi x hx
      rw [(shapeS_fields (r3.base.shape o)).hmask] at hm hi
      rw [(shapeS_fields (r3.base.shape o)).node] at hx
      exact r3.base.nonwhite (p2 hm i hi x hx)
  · rw [if_neg hgen]
    refine ⟨g2, rfl, r12, ?_, ?_, p2⟩
    · intro hw hk'
      exact absurd ⟨hw, hk.trans hk'⟩ hgen
    · intro hw tv htv x hx
      exact r2.base.nonwhite (p1 hw tv
        (by rw [← (shapeS_fields (r2.base.shape o)).array]; exact htv) x hx)

theorem modeWeak_cases : ∀ cs : List Char,
    modeWeak cs = 0 ∨ modeWeak cs = 8 ∨ modeWeak cs = 16 ∨ modeWeak cs = 24
  | [] => Or.inl rfl
  | c :: cs => by
    have ih := modeWeak_cases cs
    unfold modeWeak
    simp only []
    split_ifs
    · exact Or.inl rfl
    · rcases ih with e | e | e | e <;> rw [e] <;> decide
    · rcases ih with e | e | e | e <;> rw [e] <;> decide
    · exact ih

theorem tabWeak_cases (g : GState) (mt : Nat) :
    tabWeak g mt = 0 ∨ tabWeak g mt = 8 ∨ tabWeak g mt = 16 ∨ tabWeak g mt = 24 := by
  unfold tabWeak
  split
  · exact modeWeak_cases _
  · exact Or.inl rfl

set_option maxRecDepth 100000 in

theorem weak_byte : ∀ r, r < 256 →
    (((r &&& 231) ||| 8) &&& 3 = r &&& 3 ∧ ((r &&& 231) ||| 8) &&& 4 = r &&& 4) ∧
    (((r &&& 231) ||| 16) &&& 3 = r &&& 3 ∧ ((r &&& 231) ||| 16) &&& 4 = r &&& 4) ∧
    (((r &&& 231) ||| 24) &&& 3 = r &&& 3 ∧ ((r &&& 231) ||| 24) &&& 4 = r &&& 4) := by
  decide

theorem weak_bits (m w : Nat) (hw : w = 8 ∨ w = 16 ∨ w = 24) :
    (((m &&& not8 LJ_GC_WEAK) ||| w) % 256) &&& 3 = m &&& 3 ∧
    (((m &&& not8 LJ_GC_WEAK) ||| w) % 256) &&& 4 = m &&& 4 := by
  have e : not8 LJ_GC_WEAK = 231 := by decide
  have h := weak_byte (m % 256) (mod256_lt m)
  rw [e, mod256_or, mod256_and, land_byte m 3 (by decide), land_byte m 4 (by decide)]
  rcases hw with e1 | e1 | e1 <;> subst e1
  · exact h.1
  · exact h.2.1
  · exact h.2.2

theorem tabSetWeak_spec {o : Nat} {S : Finset Nat} {fuel : Nat} {g : GState}
    (c : Ctx o S fuel g) (w0 : Nat) (hw0 : w0 = 0 ∨ w0 = 8 ∨ w0 = 16 ∨ w0 = 24) :
    PropRel o S g (tabSetWeak g o w0).1 ∧
    ((tabSetWeak g o w0).2 = 0 ∨
     ((tabSetWeak g o w0).2 = weakFin ∧ g.ctsFinalizer = some o) ∨
     int32Pos (tabSetWeak g o w0).2) := by
  unfold tabSetWeak
  by_cases h0 : w0 = 0
  · rw [if_neg (not_not.mpr h0)]
    exact ⟨PropRel.refl o S g, Or.inl h0⟩
  · rw [if_pos h0]
    have hw : w0 = 8 ∨ w0 = 16 ∨ w0 = 24 := by
      rcases hw0 with e | e | e | e
      · exact absurd e h0
      · exact Or.inl e
      · exact Or.inr (Or.inl e)
      · exact Or.inr (Or.inr e)
    by_cases hf : g.ctsFinalizer = some o
    · rw [if_pos hf]
      exact ⟨PropRel.refl o S g, Or.inr (Or.inl ⟨rfl, hf⟩)⟩
    · rw [if_neg hf]
      dsimp only
      have hb := weak_bits (g.heap o).marked w0 hw
      have s1 : PropRel o S g (g.modObj o (fun x =>
          { x with marked := ((x.marked &&& not8 LJ_GC_WEAK) ||| w0) % 256 })) := by
        refine PropRel.mod o S g o _ ?_ rfl (fun _ => Or.inl rfl) (Or.inl rfl) ?_
        · intro hwt
          apply c.cur
          unfold iswhite at hwt ⊢
          intro h3
          apply hwt
          show (((g.heap o).marked &&& not8 LJ_GC_WEAK) ||| w0) % 256 &&& 3 = 0
          rw [hb.1]; exact h3
        · intro hbl
          unfold isblack at hbl ⊢
          intro h4
          apply hbl
          show (((g.heap o).marked &&& not8 LJ_GC_WEAK) ||| w0) % 256 &&& 4 = 0
          rw [hb.2]; exact h4
      have s2 := PropRel.relink o S _ (g.modObj o (fun x =>
          { x with marked := ((x.marked &&& not8 LJ_GC_WEAK) ||| w0) % 256 })).weak
        (s1.base.nonwhite c.cur)
      have s3 := with_weak_rel o S ((g.modObj o (fun x =>
          { x with marked := ((x.marked &&& not8 LJ_GC_WEAK) ||| w0) % 256 })).modObj o
          (fun x => { x with gclist := (g.modObj o (fun x =>
          { x with marked := ((x.marked &&& not8 LJ_GC_WEAK) ||| w0) % 256 })).weak })) o
      refine ⟨s1.trans (s2.trans s3), Or.inr (Or.inr ?_)⟩
      unfold int32Pos
      rcases hw with e | e | e <;> subst e <;> decide

theorem KidsOK.tab {st : Bool} {g : GState} {a : Nat} (hg : (g.heap a).gct = GCT.tab)
    (hm : (g.heap a).metatable ≠ 0 → ¬ iswhite (g.heap (g.heap a).metatable))
    (ha : ∀ tv ∈ (g.heap a).array, ∀ x ∈ tvRef tv, ¬ iswhite (g.heap x))
    (hn : (g.heap a).hmask > 0 → ∀ i, i < (g.heap a).hmask + 1 →
      ∀ x ∈ nodeRefs (st || decide (g.ctsFinalizer ≠ some a)) ((g.heap a).node.getD i {}),
        ¬ iswhite (g.heap x)) : KidsOK st g a := by
  intro x hx
  unfold children at hx
  simp only [hg] at hx
  rcases List.mem_append.mp hx with h | h
  · rcases List.mem_append.mp h with h | h
    · split_ifs at h with e
      · rw [List.mem_singleton] at h; subst h; exact hm e
      · cases h
    · obtain ⟨l, hl, hxl⟩ := List.mem_flatten.mp h
      obtain ⟨tv, htv, e⟩ := List.mem_map.mp hl
      subst e
      exact ha tv htv x hxl
  · split_ifs at h with e
    · obtain ⟨l, hl, hxl⟩ := List.mem_flatten.mp h
      obtain ⟨i, hi, e'⟩ := List.mem_map.mp hl
      subst e'
      exact hn e i (List.mem_range.mp hi) x hxl
    · cases h

theorem nodeRefs_sub_zero (keys : Bool) (n : Node) (x : Nat) (h : x ∈ nodeRefs keys n) :
    x ∈ nodeRefsW 0 n := by
  unfold nodeRefs at h
  unfold nodeRefsW
  have e1 : (0 : Nat) &&& LJ_GC_WEAKKEY = 0 := by decide
  have e2 : (0 : Nat) &&& LJ_GC_WEAKVAL = 0 := by decide
  rw [if_pos e1, if_pos e2]
  by_cases hn : tvisnil n.val = true
  · rw [if_pos hn] at h; cases h
  · rw [if_neg hn] at h ⊢
    cases keys
    · simp only [Bool.false_eq_true, if_false, List.nil_append] at h
      exact List.mem_append_right _ h
    · simp only [if_true] at h
      exact h

theorem nodeRefs_sub_fin (n : Node) (x : Nat) (h : x ∈ nodeRefs false n) :
    x ∈ nodeRefsW weakFin n := by
  unfold nodeRefs at h
  unfold nodeRefsW
  have e1 : ¬ weakFin &&& LJ_GC_WEAKKEY = 0 := by decide
  have e2 : weakFin &&& LJ_GC_WEAKVAL = 0 := by decide
  rw [if_neg e1, if_pos e2]
  by_cases hn : tvisnil n.val = true
  · rw [if_pos hn] at h; cases h
  · rw [if_neg hn] at h ⊢
    simp only [Bool.false_eq_true, if_false] at h
    exact h

theorem gc_traverse_tab_spec {o : Nat} {S : Finset Nat} {fuel : Nat} {g : GState}
    (c : Ctx o S fuel g) (hg : (g.heap o).gct = GCT.tab) :
    ∃ g' w, gc_traverse_tab fuel g o = some (g', w) ∧ PropRel o S g g' ∧
      (¬ int32Pos w → isblack (g'.heap o) → KidsOK false g' o) := by
  rw [gc_traverse_tab_eq]
  have hM : ∃ g1, (if (g.heap o).metatable ≠ 0 then gc_markobj fuel g (g.heap o).metatable
      else some g) = some g1 ∧ PropRel o S g g1 ∧
      ((g.heap o).metatable ≠ 0 → ¬ iswhite (g1.heap (g.heap o).metatable)) := by
    by_cases hm : (g.heap o).metatable ≠ 0
    · rw [if_pos hm]
      obtain ⟨g1, h1, r1, p1⟩ := markobj_step c (g.heap o).metatable
      exact ⟨g1, h1, r1, fun _ => p1⟩
    · rw [if_neg hm]
      exact ⟨g, rfl, PropRel.refl o S g, fun h => absurd h hm⟩
  obtain ⟨g1, h1, r1, p1⟩ := hM
  rw [h1]
  simp only [Option.some_bind]
  have c1 := c.step r1.base
  obtain ⟨r2, hcase⟩ := tabSetWeak_spec c1 (tabWeak g1 (g.heap o).metatable)
    (tabWeak_cases g1 _)
  generalize tabSetWeak g1 o (tabWeak g1 (g.heap o).metatable) = gw at r2 hcase ⊢
  have c2 := c1.step r2.base
  by_cases hboth : gw.2 = LJ_GC_WEAK
  · rw [if_pos hboth]
    exact ⟨gw.1, 1, rfl, r1.trans r2, fun h => absurd (by unfold int32Pos; decide) h⟩
  · rw [if_neg hboth]
    obtain ⟨g3, h3, r3, pg, pa, pn⟩ := tabMarkParts_spec c2 gw.2
    have r := r1.trans (r2.trans r3)
    have f := shapeS_fields (r.base.shape o)
    have hmt : (g3.heap o).metatable ≠ 0 → ¬ iswhite (g3.heap (g3.heap o).metatable) := by
      intro hm
      rw [f.metatable] at hm ⊢
      exact (r2.trans r3).base.nonwhite (p1 hm)
    refine ⟨g3, gw.2, h3, r, fun hpos hb => ?_⟩
    rcases hcase with hz | ⟨hfin, hcts⟩ | hp
    · -- strong table
      refine KidsOK.tab (by rw [f.gct, hg]) hmt (pa (by rw [hz]; decide)) ?_
      intro hm i hi x hx
      have := pn hm i hi x
      rw [hz] at this
      exact this (nodeRefs_sub_zero _ _ x hx)
    · -- finalizer table
      refine KidsOK.tab (by rw [f.gct, hg]) hmt (pa (by rw [hfin]; decide)) ?_
      intro hm i hi x hx
      have hc3 : g3.ctsFinalizer = some o := by
        rw [(restProp_fields (r2.trans r3).base.rest).1]; exact hcts
      have hk : (false || decide (g3.ctsFinalizer ≠ some o)) = false := by
        rw [Bool.false_or, decide_eq_false_iff_not]
        exact fun h => h hc3
      rw [hk] at hx
      have := pn hm i hi x
      rw [hfin] at this
      exact this (nodeRefs_sub_fin _ x hx)
    · exact absurd hp hpos

theorem gc_traverse_proto_spec {o : Nat} {S : Finset Nat} {fuel : Nat} {g : GState}
    (c : Ctx o S fuel g) (hg : (g.heap o).gct = GCT.proto) :
    ∃ g', gc_traverse_proto fuel g o = some g' ∧ PropRel o S g g' ∧ KidsOK false g' o := by
  unfold gc_traverse_proto
  simp only []
  obtain ⟨r1, p1⟩ := markstr_step o S g (g.heap o).chunkname
  have c1 := c.step r1.base
  have f1 := shapeS_fields (r1.base.shape o)
  generalize g.modObj (g.heap o).chunkname gc_mark_str = g1 at r1 p1 c1 f1 ⊢
  obtain ⟨g2, h2, r2, p2⟩ := loopM_spec
    (fun i g => gc_markobj fuel g ((g.heap o).kgc.getD i 0))
    (fun j g => ¬ iswhite (g.heap ((g.heap o).kgc.getD j 0)))
    (fun j ga gb r q => by
      dsimp only at q ⊢
      rw [(shapeS_fields (r.base.shape o)).kgc]; exact r.base.nonwhite q)
    (fun j ga ca => by
      dsimp only
      obtain ⟨g', h, r, p⟩ := markobj_step ca ((ga.heap o).kgc.getD j 0)
      exact ⟨g', h, r, by rw [(shapeS_fields (r.base.shape o)).kgc]; exact p⟩)
    (g1.heap o).kgc.length 0 g1 c1
  rw [h2]
  simp only [Option.some_bind]
  have c2 := c1.step r2.base
  have f2 := shapeS_fields (r2.base.shape o)
  have hT : ∃ g3, (if (g2.heap o).trace ≠ 0 then some (gc_marktrace g2 (g2.heap o).trace)
      else some g2) = some g3 ∧ PropRel o S g2 g3 ∧
      ∀ x ∈ traceRef g2 (g2.heap o).trace, ¬ iswhite (g3.heap x) := by
    by_cases ht : (g2.heap o).trace ≠ 0
    · rw [if_pos ht]
      obtain ⟨r3, p3⟩ := marktrace_step c2 (g2.heap o).trace
      refine ⟨_, rfl, r3, fun x hx => ?_⟩
      unfold traceRef at hx
      rw [if_pos ht, List.mem_singleton] at hx
      subst hx; exact p3
    · rw [if_neg ht]
      refine ⟨g2, rfl, PropRel.refl o S g2, fun x hx => ?_⟩
      unfold traceRef at hx
      rw [if_neg ht] at hx
      cases hx
  obtain ⟨g3, h3, r3, p3⟩ := hT
  have f3 := shapeS_fields (r3.base.shape o)
  refine ⟨g3, h3, r1.trans (r2.trans r3), ?_⟩
  intro x hx
  unfold children at hx
  simp only [f3.gct, f2.gct, f1.gct, hg] at hx
  rcases List.mem_cons.mp hx with e | hx
  · subst e
    rw [f3.chunkname, f2.chunkname, f1.chunkname]
    exact (r2.trans r3).base.nonwhite p1
  · rcases List.mem_append.mp hx with hx | hx
    · obtain ⟨j, hj, e⟩ := mem_getD 0 hx
      subst e
      rw [f3.kgc] at hj ⊢
      exact r3.base.nonwhite (p2 j (Nat.zero_le _) (by rw [Nat.zero_add, ← f2.kgc]; exact hj))
    · apply p3
      unfold traceRef at hx ⊢
      rw [f3.trace, (restProp_fields r3.base.rest).2.1] at hx
      exact hx

theorem traverseIR_spec {o : Nat} {S : Finset Nat} {fuel : Nat} :
    ∀ (k ref : Nat) (g : GState), Ctx o S fuel g →
      ∃ g', traverseIR fuel o k ref g = some g' ∧ PropRel o S g g' ∧
        ∀ x ∈ irRefs (g.heap o).ir k ref, ¬ iswhite (g'.heap x)
  | 0, ref, g, _ => ⟨g, rfl, PropRel.refl o S g, fun x hx => by cases hx⟩
  | k + 1, ref, g, c => by
    unfold traverseIR irRefs
    simp only []
    by_cases hr : ref < (g.heap o).ir.length
    · rw [if_pos hr, if_pos hr]
      have hK : ∃ g1, (if ((g.heap o).ir.getD ref {}).isKGC = true then
          gc_markobj fuel g ((g.heap o).ir.getD ref {}).kgc else some g) = some g1 ∧
          PropRel o S g g1 ∧ (((g.heap o).ir.getD ref {}).isKGC = true →
            ¬ iswhite (g1.heap ((g.heap o).ir.getD ref {}).kgc)) := by
        by_cases hk : ((g.heap o).ir.getD ref {}).isKGC = true
        · rw [if_pos hk]
          obtain ⟨g1, h1, r1, p1⟩ := markobj_step c ((g.heap o).ir.getD ref {}).kgc
          exact ⟨g1, h1, r1, fun _ => p1⟩
        · rw [if_neg hk]
          exact ⟨g, rfl, PropRel.refl o S g, fun h => absurd h hk⟩
      obtain ⟨g1, h1, r1, p1⟩ := hK
      rw [h1]
      simp only [Option.some_bind]
      have f1 := shapeS_fields (r1.base.shape o)
      obtain ⟨g2, h2, r2, p2⟩ := traverseIR_spec k
        (if ((g1.heap o).ir.getD ref {}).wide = true then ref + 2 else ref + 1) g1
        (c.step r1.base)
      refine ⟨g2, h2, r1.trans r2, fun x hx => ?_⟩
      rcases List.mem_append.mp hx with hx | hx
      · split_ifs at hx with hk
        · rw [List.mem_singleton] at hx
          subst hx
          exact r2.base.nonwhite (p1 hk)
        · cases hx
      · rw [f1.ir] at p2
        exact p2 x hx
    · rw [if_neg hr, if_neg hr]
      exact ⟨g, rfl, PropRel.refl o S g, fun x hx => by cases hx⟩

theorem marktrace_opt_step {o : Nat} {S : Finset Nat} {fuel : Nat} {g : GState}
    (c : Ctx o S fuel g) (n : Nat) :
    PropRel o S g (if n ≠ 0 then gc_marktrace g n else g) ∧
    ∀ x ∈ traceRef g n, ¬ iswhite ((if n ≠ 0 then gc_marktrace g n else g).heap x) := by
  by_cases hn : n ≠ 0
  · rw [if_pos hn]
    obtain ⟨r, p⟩ := marktrace_step c n
    refine ⟨r, fun x hx => ?_⟩
    unfold traceRef at hx
    rw [if_pos hn, List.mem_singleton] at hx
    subst hx; exact p
  · rw [if_neg hn]
    refine ⟨PropRel.refl o S g, fun x hx => ?_⟩
    unfold traceRef at hx
    rw [if_neg hn] at hx
    cases hx

theorem traceRef_congr {o : Nat} {S : Finset Nat} {g g' : GState} (r : PropBase o S g g')
    (n : Nat) : traceRef g' n = traceRef g n := by
  unfold traceRef
  rw [(restProp_fields r.rest).2.1]

theorem gc_traverse_trace_spec {o : Nat} {S : Finset Nat} {fuel : Nat} {g : GState}
    (c : Ctx o S fuel g) (hg : (g.heap o).gct = GCT.trace) :
    ∃ g', gc_traverse_trace fuel g o = some g' ∧ PropRel o S g g' ∧ KidsOK false g' o := by
  unfold gc_traverse_trace
  by_cases h0 : (g.heap o).traceno = 0
  · rw [if_pos h0]
    refine ⟨g, rfl, PropRel.refl o S g, fun x hx => ?_⟩
    unfold children at hx
    simp only [hg, h0, if_true] at hx
    cases hx
  · rw [if_neg h0]
    obtain ⟨g1, h1, r1, p1⟩ := traverseIR_spec (g.heap o).ir.length 0 g c
    rw [h1]
    simp only [Option.some_bind]
    have c1 := c.step r1.base
    have f1 := shapeS_fields (r1.base.shape o)
    obtain ⟨r2, p2⟩ := marktrace_opt_step c1 (g1.heap o).link
    generalize (if (g1.heap o).link ≠ 0 then gc_marktrace g1 (g1.heap o).link else g1) = g2
      at r2 p2 ⊢
    have c2 := c1.step r2.base
    have f2 := shapeS_fields (r2.base.shape o)
    obtain ⟨r3, p3⟩ := marktrace_opt_step c2 (g2.heap o).nextroot
    generalize (if (g2.heap o).nextroot ≠ 0 then gc_marktrace g2 (g2.heap o).nextroot else g2)
      = g3 at r3 p3 ⊢
    have c3 := c2.step r3.base
    have f3 := shapeS_fields (r3.base.shape o)
    obtain ⟨r4, p4⟩ := marktrace_opt_step c3 (g3.heap o).nextside
    generalize (if (g3.heap o).nextside ≠ 0 then gc_marktrace g3 (g3.heap o).nextside else g3)
      = g4 at r4 p4 ⊢
    have c4 := c3.step r4.base
    have f4 := shapeS_fields (r4.base.shape o)
    obtain ⟨g5, h5, r5, p5⟩ := markobj_step c4 (g4.heap o).startpt
    have f5 := shapeS_fields (r5.base.shape o)
    refine ⟨g5, h5, r1.trans (r2.trans (r3.trans (r4.trans r5))), ?_⟩
    intro x hx
    unfold children at hx
    simp only [f5.gct, f4.gct, f3.gct, f2.gct, f1.gct, hg, f5.traceno, f4.traceno, f3.traceno,
      f2.traceno, f1.traceno, h0, if_false] at hx
    rcases List.mem_append.mp hx with hx | hx
    · rcases List.mem_append.mp hx with hx | hx
      · rcases List.mem_append.mp hx with hx | hx
        · rcases List.mem_append.mp hx with hx | hx
          · rw [f5.ir, f4.ir, f3.ir, f2.ir, f1.ir] at hx
            exact (r2.trans (r3.trans (r4.trans r5))).base.nonwhite (p1 x hx)
          · rw [f5.link, f4.link, f3.link, f2.link, traceRef_congr r5.base, traceRef_congr r4.base,
              traceRef_congr r3.base, traceRef_congr r2.base] at hx
            exact (r3.trans (r4.trans r5)).base.nonwhite (p2 x hx)
        · rw [f5.nextroot, f4.nextroot, f3.nextroot, traceRef_congr r5.base, traceRef_congr r4.base,
            traceRef_congr r3.base] at hx
          exact (r4.trans r5).base.nonwhite (p3 x hx)
      · rw [f5.nextside, f4.nextside, traceRef_congr r5.base, traceRef_congr r4.base] at hx
        exact r5.base.nonwhite (p4 x hx)
    · rw [List.mem_singleton] at hx
      subst hx
      rw [f5.startpt]
      exact p5

theorem take_getD (st : List TValue) (k i : Nat) :
    (st.take k).getD i TValue.nil = st.getD i TValue.nil ∨
    (st.take k).getD i TValue.nil = TValue.nil := by
  by_cases h : i < k
  · left
    simp [List.getD_eq_getElem?_getD, List.getElem?_take, h]
  · right
    simp [List.getD_eq_getElem?_getD, List.getElem?_take, h]

theorem clearFrom_getD (st : List TValue) (k i : Nat) :
    (clearFrom k st).getD i TValue.nil = st.getD i TValue.nil ∨
    (clearFrom k st).getD i TValue.nil = TValue.nil := by
  unfold clearFrom
  by_cases h : i < (st.take k).length
  · rw [List.getD_append _ _ _ _ h]
    exact take_getD st k i
  · right
    rw [List.getD_append_right _ _ _ _ (Nat.le_of_not_lt h)]
    simp only [List.getD_eq_getElem?_getD, List.getElem?_replicate]
    split_ifs <;> rfl

theorem traverseFrames_spec {o : Nat} {S : Finset Nat} {fuel : Nat} :
    ∀ (k i : Nat) (acc : Int) (g : GState), Ctx o S fuel g →
      ∃ r, traverseFrames fuel o k i acc g = some r ∧ PropRel o S g r.1
  | 0, _, acc, g, _ => ⟨(g, acc), rfl, PropRel.refl o S g⟩
  | k + 1, i, acc, g, c => by
    unfold traverseFrames
    simp only []
    have hF : ∃ g1, (if ¬ g.fr2 = true then
        gc_markobj fuel g ((g.heap o).frames.getD i {}).fn else some g) = some g1 ∧
        PropRel o S g g1 := by
      by_cases hf : ¬ g.fr2 = true
      · rw [if_pos hf]
        obtain ⟨g1, h1, r1, _⟩ := markobj_step c ((g.heap o).frames.getD i {}).fn
        exact ⟨g1, h1, r1⟩
      · rw [if_neg hf]
        exact ⟨g, rfl, PropRel.refl o S g⟩
    obtain ⟨g1, h1, r1⟩ := hF
    rw [h1]
    simp only [Option.some_bind]
    obtain ⟨r, h2, r2⟩ := traverseFrames_spec k (i + 1) _ g1 (c.step r1.base)
    exact ⟨r, h2, r1.trans r2⟩

theorem gc_traverse_frames_spec {o : Nat} {S : Finset Nat} {fuel : Nat} {g : GState}
    (c : Ctx o S fuel g) :
    ∃ r, gc_traverse_frames fuel g o = some r ∧ PropRel o S g r.1 := by
  unfold gc_traverse_frames
  obtain ⟨r, h, p⟩ :=
    traverseFrames_spec (g.heap o).frames.length 0 (((g.heap o).top : Int) - 1) g c
  rw [h]
  exact ⟨_, rfl, p⟩

theorem shrinkstack_rel (o : Nat) (S : Finset Nat) (g : GState) (used : Nat)
    (h : ¬ iswhite (g.heap o)) : PropRel o S g (lj_state_shrinkstack g o used) := by
  unfold lj_state_shrinkstack
  simp only []
  split
  · have s1 : PropRel o S g (g.modObj o (fun x =>
        { x with stack := x.stack.take ((g.heap o).stack.length / 2) })) :=
      PropRel.mod o S g o _ h rfl (fun i => take_getD _ _ i) (Or.inl rfl) (fun hb => hb)
    exact s1.trans (PropRel.of_heap o S rfl rfl rfl)
  · exact PropRel.refl o S g

theorem gc_traverse_thread_spec {o : Nat} {S : Finset Nat} {fuel : Nat} {g : GState}
    (c : Ctx o S fuel g) :
    ∃ g', gc_traverse_thread fuel g o = some g' ∧ PropRel o S g g' := by
  unfold gc_traverse_thread
  simp only []
  obtain ⟨g1, h1, r1, _⟩ := loopM_spec
    (fun i g => gc_marktv fuel g ((g.heap o).stack.getD i TValue.nil))
    (fun _ _ => True) (fun _ _ _ _ _ => trivial)
    (fun j ga ca => by
      obtain ⟨g', h, r, _⟩ := marktv_step ca ((ga.heap o).stack.getD j TValue.nil)
      exact ⟨g', h, r, trivial⟩)
    ((g.heap o).top - (1 + (if g.fr2 = true then 1 else 0)))
    (1 + (if g.fr2 = true then 1 else 0)) g c
  rw [h1]
  simp only [Option.some_bind]
  have c1 := c.step r1.base
  generalize (1 + (if g.fr2 = true then 1 else 0) +
    ((g.heap o).top - (1 + (if g.fr2 = true then 1 else 0)))) = K
  have r2 : PropRel o S g1 (if g1.state = GCSatomic then
      g1.modObj o (fun x => { x with stack := clearFrom K x.stack }) else g1) := by
    split
    · exact PropRel.mod o S g1 o _ c1.cur rfl (fun i => clearFrom_getD _ _ i) (Or.inl rfl)
        (fun hb => hb)
    · exact PropRel.refl o S g1
  generalize (if g1.state = GCSatomic then
      g1.modObj o (fun x => { x with stack := clearFrom K x.stack }) else g1) = g2 at r2 ⊢
  have c2 := c1.step r2.base
  obtain ⟨g3, h3, r3, _⟩ := markobj_step c2 (g2.heap o).env
  rw [h3]
  simp only [Option.some_bind]
  have c3 := c2.step r3.base
  obtain ⟨r, h4, r4⟩ := gc_traverse_frames_spec c3
  rw [h4]
  simp only [Option.some_bind]
  have c4 := c3.step r4.base
  exact ⟨_, rfl, r1.trans (r2.trans (r3.trans (r4.trans
    (shrinkstack_rel o S r.1 r.2 c4.cur))))⟩

theorem propagatemark_eq (fuel : Nat) (g : GState) :
    propagatemark fuel g =
      match (g.heap g.gray).gct with
      | GCT.tab =>
        (gc_traverse_tab fuel (popGray g) g.gray).bind fun r =>
          let g' := if int32Pos r.2 then r.1.modObj g.gray black2gray else r.1
          let t := g'.heap g.gray
          some (g', g'.szGCtab + g'.szTValue * t.array.length +
            (if t.hmask ≠ 0 then g'.szNode * (t.hmask + 1) else 0))
      | GCT.func =>
        (gc_traverse_func fuel (popGray g) g.gray).bind fun g' =>
          let fn := g'.heap g.gray
          some (g', if fn.isluafunc then g'.sizeLfunc fn.uvptr.length
            else g'.sizeCfunc fn.upvalue.length)
      | GCT.proto =>
        (gc_traverse_proto fuel (popGray g) g.gray).bind fun g' =>
          some (g', (g'.heap g.gray).sizept)
      | GCT.thread =>
        let g1 := (popGray g).modObj g.gray (fun x => { x with gclist := (popGray g).grayagain })
        let g2 := { g1 with grayagain := g.gray }
        let g3 := g2.modObj g.gray black2gray
        (gc_traverse_thread fuel g3 g.gray).bind fun g' =>
          some (g', g'.szLuaState + g'.szTValue * (g'.heap g.gray).stack.length)
      | _ =>
        (gc_traverse_trace fuel (popGray g) g.gray).bind fun g' =>
          some (g', (g'.heap g.gray).tracesize) := by
  unfold propagatemark popGray
  simp only []

theorem popGray_heap (g : GState) (a : Nat) :
    (popGray g).heap a = (g.modObj g.gray gray2black).heap a := rfl

/-- Taking the head off the gray list and making it black. -/
theorem popGray_base (S : Finset Nat) {g : GState} {o : Nat} {rest : List Nat}
    (hg : GrayB g (o :: rest)) : PropBase o S g (popGray g) ∧ GrayB (popGray g) rest ∧
      o ∉ rest ∧ (∀ a, a ≠ o → (popGray g).heap a = g.heap a) := by
  obtain ⟨hgo, ho0, hch⟩ := hg.chain
  have hnd := List.nodup_cons.mp hg.nodup
  have hnw : ¬ iswhite (g.heap o) := (hg.ok o (List.mem_cons_self _ _)).1
  have b0 := PropBase.g2b o S g o hnw
  have hne : ∀ a, a ≠ o → (popGray g).heap a = g.heap a := by
    intro a ha
    rw [popGray_heap, hgo, modObj_heap_ne _ _ _ _ ha]
  refine ⟨⟨?_, ?_, ?_, ?_, ?_⟩, ⟨?_, hnd.2, ?_⟩, hnd.1, hne⟩
  · intro a ha
    rw [popGray_heap, hgo] at ha ⊢
    exact b0.white a ha
  · intro a
    rw [popGray_heap, hgo]
    exact b0.shape a
  · intro a i
    rw [popGray_heap, hgo]
    exact b0.stack a i
  · exact b0.rest
  · intro ts hts hots _ _
    exfalso
    cases ts with
    | nil => exact ho0 (hgo.symm.trans hts.chain)
    | cons x xs =>
      have : g.gray = x := hts.chain.1
      exact hots (by rw [← hgo, this]; exact List.mem_cons_self _ _)
  · show GChain (popGray g) ((g.modObj g.gray gray2black).heap g.gray).gclist rest
    rw [hgo, modObj_heap_same]
    refine GChain.congr_mem ?_ hch
    intro t ht
    rw [hne t (fun e => hnd.1 (e ▸ ht))]
  · intro t ht
    rw [hne t (fun e => hnd.1 (e ▸ ht))]
    exact hg.ok t (List.mem_cons_of_mem _ ht)

theorem PInv.ctx {S : Finset Nat} {g : GState} {o : Nat} {rest : List Nat} {fuel : Nat}
    (inv : PInv S g (o :: rest)) (hf : mu S g ≤ fuel) : Ctx o S fuel (popGray g) :=
  Ctx.step ⟨(inv.gray.ok o (List.mem_cons_self _ _)).1, inv.null, inv.trace, inv.cover, hf⟩
    (popGray_base S inv.gray).1

/-- After the traversal of the popped object the invariant holds again and
the measure has dropped. -/
theorem propagate_finish {S : Finset Nat} {g : GState} {o : Nat} {rest : List Nat}
    (inv : PInv S g (o :: rest)) {g' : GState} (r : PropRel o S (popGray g) g')
    (hk : isblack (g'.heap o) → KidsOK false g' o) :
    ∃ ts', PInv S g' ts' ∧ ts'.length + mu S g' ≤ rest.length + mu S g := by
  obtain ⟨bpop, gG, ho, hne⟩ := popGray_base S inv.gray
  have hnw : ¬ iswhite (g.heap o) := (inv.gray.ok o (List.mem_cons_self _ _)).1
  have b := bpop.btrans r.base
  obtain ⟨new, gn, _, hl⟩ := r.base.gray rest gG ho (bpop.nonwhite hnw) (bpop.bwhiteIn inv.cover)
  refine ⟨new ++ rest, ⟨gn, ?_, b.nonwhite inv.null, ?_, b.bwhiteIn inv.cover⟩, ?_⟩
  · intro a ha
    by_cases e : a = o
    · subst e; exact hk ha
    · rcases r.black a ha with hb | hb
      · rw [hne a e] at hb
        exact b.kids (inv.tri a hb)
      · exact hb
  · intro n
    rw [(restProp_fields b.rest).2.1, (shapeS_fields (b.shape _)).gct]
    exact inv.trace n
  · have := bpop.mu_le
    rw [List.length_append]
    omega

theorem b2g_heap_not_black (G : GState) (o : Nat) :
    ¬ isblack ((G.modObj o black2gray).heap o) := by
  rw [modObj_heap_same]; exact black2gray_not_black _

/-- One call of `propagatemark` on a non-empty gray list returns, keeps the
invariant and lowers the measure. -/
theorem propagatemark_spec {S : Finset Nat} {g : GState} {o : Nat} {rest : List Nat}
    (fuel : Nat) (inv : PInv S g (o :: rest)) (hf : mu S g ≤ fuel) :
    ∃ r ts', propagatemark fuel g = some r ∧ PInv S r.1 ts' ∧
      ts'.length + mu S r.1 ≤ rest.length + mu S g := by
  have hgo : g.gray = o := inv.gray.chain.1
  have c := inv.ctx hf
  have htr := (inv.gray.ok o (List.mem_cons_self _ _)).2
  have hgct : ((popGray g).heap o).gct = (g.heap o).gct :=
    (shapeS_fields ((popGray_base S inv.gray).1.shape o)).gct
  rw [propagatemark_eq, hgo]
  cases hgc : (g.heap o).gct <;> simp only []
  case str => exact absurd hgc htr.1
  case upval => exact absurd hgc htr.2.1
  case udata => exact absurd hgc htr.2.2.1
  case cdata => exact absurd hgc htr.2.2.2
  case func =>
    obtain ⟨g', h, r, k⟩ := gc_traverse_func_spec c (hgct.trans hgc)
    rw [h]
    obtain ⟨ts', p, l⟩ := propagate_finish inv r (fun _ => k)
    exact ⟨_, ts', rfl, p, l⟩
  case proto =>
    obtain ⟨g', h, r, k⟩ := gc_traverse_proto_spec c (hgct.trans hgc)
    rw [h]
    obtain ⟨ts', p, l⟩ := propagate_finish inv r (fun _ => k)
    exact ⟨_, ts', rfl, p, l⟩
  case trace =>
    obtain ⟨g', h, r, k⟩ := gc_traverse_trace_spec c (hgct.trans hgc)
    rw [h]
    obtain ⟨ts', p, l⟩ := propagate_finish inv r (fun _ => k)
    exact ⟨_, ts', rfl, p, l⟩
  case tab =>
    obtain ⟨g', w, h, r, k⟩ := gc_traverse_tab_spec c (hgct.trans hgc)
    rw [h]
    simp only [Option.some_bind]
    by_cases hp : int32Pos w
    · rw [if_pos hp]
      have r2 := PropRel.b2g o S g' (r.base.nonwhite c.cur)
      obtain ⟨ts', p, l⟩ := propagate_finish inv (r.trans r2)
        (fun hb => absurd hb (b2g_heap_not_black _ o))
      exact ⟨_, ts', rfl, p, l⟩
    · rw [if_neg hp]
      obtain ⟨ts', p, l⟩ := propagate_finish inv r (k hp)
      exact ⟨_, ts', rfl, p, l⟩
  case thread =>
    have s1 := PropRel.relink o S (popGray g) (popGray g).grayagain c.cur
    have s2 := with_grayagain_rel o S
      ((popGray g).modObj o (fun x => { x with gclist := (popGray g).grayagain })) o
    have s3 := PropRel.b2g o S _ ((s1.trans s2).base.nonwhite c.cur)
    have s := s1.trans (s2.trans s3)
    obtain ⟨g', h, r⟩ := gc_traverse_thread_spec (c.step s.base)
    rw [h]
    obtain ⟨ts', p, l⟩ := propagate_finish inv (s.trans r) (fun hb => by
      rcases r.black o hb with h1 | h1
      · exact absurd h1 (b2g_heap_not_black _ o)
      · exact h1)
    exact ⟨_, ts', rfl, p, l⟩

theorem propagate_gray_loop (S : Finset Nat) : ∀ (n : Nat) (g : GState) (ts : List Nat),
    PInv S g ts → ts.length + mu S g ≤ n →
    ∃ g' m, gc_propagate_gray n g = some (g', m) ∧ g'.gray = 0 ∧ PInv S g' [] := by
  intro n
  induction n with
  | zero =>
    intro g ts inv hl
    cases ts with
    | nil =>
      have h0 : g.gray = 0 := inv.gray.chain
      exact ⟨g, 0, by unfold gc_propagate_gray; rw [if_pos h0], h0, inv⟩
    | cons o rest => simp at hl
  | succ n ih =>
    intro g ts inv hl
    cases ts with
    | nil =>
      have h0 : g.gray = 0 := inv.gray.chain
      exact ⟨g, 0, by unfold gc_propagate_gray; rw [if_pos h0], h0, inv⟩
    | cons o rest =>
      have hne : g.gray ≠ 0 := by
        rw [inv.gray.chain.1]; exact inv.gray.chain.2.1
      have hl' : rest.length + mu S g ≤ n := by
        simp only [List.length_cons] at hl; omega
      obtain ⟨r, ts', h1, inv1, l1⟩ := propagatemark_spec n inv (by omega)
      obtain ⟨g', m, h2, hg', inv2⟩ := ih r.1 ts' inv1 (by omega)
      refine ⟨g', r.2 + m, ?_, hg', inv2⟩
      unfold gc_propagate_gray
      rw [if_neg hne, h1]
      simp only [Option.some_bind]
      rw [h2]
      rfl

/-- C1 (amended): from a state whose gray list is a well-formed chain of
non-white traversable objects and in which no black object directly
references a white object, `gc_propagate_gray` returns with the gray list
empty and still no black object directly referencing a white object, the
hash keys of the FFI finalizer table (`cts->finalizer`) apart: every object
that `propagatemark` or `gc_mark` leaves black has had each of its children
marked non-white, except that the keys of the finalizer table stay
unmarked. -/
theorem propagate_gray_spec (g : GState) (fuel : Nat) (ts : List Nat) (S : Finset Nat)
    (hgray : GrayB g ts) (htri : TriColor false g) (hnull : ¬ iswhite (g.heap 0))
    (htrace : TraceOK g) (hS : WhiteIn g S) (hfuel : ts.length + S.card ≤ fuel) :
    ∃ g' m, gc_propagate_gray fuel g = some (g', m) ∧ g'.gray = 0 ∧ TriColor false g' := by
  have hmu : mu S g ≤ S.card := Finset.card_filter_le _ _
  obtain ⟨g', m, h, h0, inv⟩ := propagate_gray_loop S fuel g ts
    ⟨hgray, htri, hnull, htrace, hS⟩ (by omega)
  exact ⟨g', m, h, h0, inv.tri⟩

theorem exTri_heap_other (a : Nat) (h1 : a ≠ 1) (h2 : a ≠ 2) (h3 : a ≠ 3) (h4 : a ≠ 4) :
    exTri.heap a = { gct := GCT.trace } := by
  show (if a = 1 then _ else if a = 2 then _ else if a = 3 then _ else if a = 4 then _ else _)
    = _
  rw [if_neg h1, if_neg h2, if_neg h3, if_neg h4]

theorem exTri_tri (st : Bool) : TriColor st exTri := by
  intro a hb
  by_cases h1 : a = 1
  · subst h1; exact absurd hb (by decide)
  by_cases h2 : a = 2
  · subst h2
    intro v hv
    have e : children st exTri 2 = [] := by cases st <;> rfl
    rw [e] at hv; cases hv
  by_cases h3 : a = 3
  · subst h3; exact absurd hb (by decide)
  by_cases h4 : a = 4
  · subst h4; exact absurd hb (by decide)
  rw [exTri_heap_other a h1 h2 h3 h4] at hb
  exact absurd hb (by decide)

theorem exTri_white : WhiteIn exTri {3, 4} := by
  intro a hw
  by_cases h1 : a = 1
  · subst h1; exact absurd hw (by decide)
  by_cases h2 : a = 2
  · subst h2; exact absurd hw (by decide)
  by_cases h3 : a = 3
  · subst h3; decide
  by_cases h4 : a = 4
  · subst h4; decide
  rw [exTri_heap_other a h1 h2 h3 h4] at hw
  exact absurd hw (by decide)

theorem exTri_gray : GrayB exTri [1] :=
  ⟨⟨rfl, by decide, rfl⟩, by decide, fun t ht => by
    rw [List.mem_singleton] at ht
    subst ht
    exact ⟨by decide, by unfold trav; decide⟩⟩

theorem propagate_gray_spec_witness :
    ∃ g' m, gc_propagate_gray 3 exTri = some (g', m) ∧ g'.gray = 0 ∧ TriColor false g' :=
  propagate_gray_spec exTri 3 [1] {3, 4} exTri_gray (exTri_tri false) (by decide)
    (fun _ => rfl) exTri_white (by decide)

/-- C1, as stated, fails on the FFI finalizer table: in `exTri` no black
object references a white one, yet after `gc_propagate_gray` the finalizer
table 1 is black while its hash key 3 is still white. -/
theorem propagate_gray_finalizer_keys :
    TriColor true exTri ∧ GrayB exTri [1] ∧
    ∃ g' m, gc_propagate_gray 3 exTri = some (g', m) ∧ g'.gray = 0 ∧
      isblack (g'.heap 1) ∧ 3 ∈ children true g' 1 ∧ iswhite (g'.heap 3) ∧
      ¬ TriColor true g' := by
  refine ⟨exTri_tri true, exTri_gray, ((gc_propagate_gray 3 exTri).getD (exTri, 0)).1,
    ((gc_propagate_gray 3 exTri).getD (exTri, 0)).2, ?_, ?_, ?_, ?_, ?_, ?_⟩
  · rfl
  · rfl
  · decide
  · decide
  · decide
  · intro h
    exact h 1 (by decide) 3 (by decide) (by decide)

/-! ## Leaving generational mode -/

theorem mkw_idem_bits (m k c : Nat) : ((m &&& k ||| c) &&& k) ||| c = m &&& k ||| c := by
  apply Nat.eq_of_testBit_eq; intro i
  simp only [Nat.testBit_or, Nat.testBit_and]
  cases m.testBit i <;> cases k.testBit i <;> cases c.testBit i <;> rfl

theorem whiteNew_idem (g : GState) (o : GCobj) : whiteNew g (whiteNew g o) = whiteNew g o := by
  unfold whiteNew setage makewhite
  simp only [mkw_idem_bits]

theorem heap_ext (g : GState) (h1 h2 : Nat → GCobj) (e : ∀ a, h1 a = h2 a) :
    ({ g with heap := h1 } : GState) = { g with heap := h2 } := by
  have : h1 = h2 := funext e
  rw [this]

theorem whitened_congr (g : GState) (A B : List Nat) (h : ∀ a, a ∈ A ↔ a ∈ B) :
    whitened g A = whitened g B := by
  unfold whitened
  apply heap_ext
  intro a
  by_cases ha : a ∈ A
  · rw [if_pos ha, if_pos ((h a).mp ha)]
  · rw [if_neg ha, if_neg (fun hb => ha ((h a).mpr hb))]

theorem whitened_whitened (g : GState) (A B : List Nat) :
    whitened (whitened g A) B = whitened g (A ++ B) := by
  unfold whitened
  apply heap_ext
  intro a
  simp only [List.mem_append]
  by_cases ha : a ∈ A <;> by_cases hb : a ∈ B
  · simp only [ha, hb, if_true, true_or]; exact whiteNew_idem g _
  · simp only [ha, hb, if_true, if_false, true_or]
  · simp only [ha, hb, if_true, if_false, or_true]; rfl
  · simp only [ha, hb, if_false, or_self]

theorem whitened_nil (g : GState) : whitened g [] = g := by
  unfold whitened
  simp only [List.not_mem_nil, if_false]

theorem whitelist_step (g : GState) (p : Nat) :
    (g.modObj p (makewhite g)).modObj p (fun x => setage x G_NEW) = whitened g [p] := by
  unfold whitened GState.modObj GState.setObj
  apply heap_ext
  intro a
  simp only [List.mem_singleton]
  by_cases ha : a = p
  · subst ha; simp only [if_true]; rfl
  · simp only [ha, if_false]

theorem whitened_links (g : GState) (S : List Nat) (a : Nat) :
    ((whitened g S).heap a).nextgc = (g.heap a).nextgc ∧
    ((whitened g S).heap a).openupval = (g.heap a).openupval ∧
    ((whitened g S).heap a).gct = (g.heap a).gct := by
  unfold whitened
  by_cases ha : a ∈ S
  · simp only [ha, if_true]; exact ⟨rfl, rfl, rfl⟩
  · simp only [ha, if_false]; exact ⟨trivial, trivial, trivial⟩

theorem Chain.whitened {g : GState} {S xs : List Nat} {h : Nat} (hc : Chain g h xs) :
    Chain (whitened g S) h xs :=
  Chain.congr (fun x _ => (whitened_links g S x).1) hc

/-- The function `whitelist` on a list without threads. -/
theorem whitelist_flat : ∀ (ys : List Nat) (n : Nat) (g : GState) (h : Nat),
    Chain g h ys → (∀ y ∈ ys, (g.heap y).gct ≠ GCT.thread) → ys.length ≤ n →
    whitelist n g h = some (whitened g ys)
  | [], n, g, h, hc, _, _ => by
    have e : h = 0 := hc
    subst e
    rw [whitened_nil]
    cases n <;> simp [whitelist]
  | y :: ys, 0, g, h, _, _, hl => by simp at hl
  | y :: ys, n + 1, g, h, hc, hnt, hl => by
    obtain ⟨e, h0, hc1⟩ := hc
    subst e
    unfold whitelist
    rw [if_neg h0]
    simp only [whitelist_step]
    have hg : ((whitened g [h]).heap h).gct ≠ GCT.thread := by
      rw [(whitened_links g [h] h).2.2]; exact hnt h (List.mem_cons_self _ _)
    rw [if_neg hg]
    simp only [Option.bind]
    rw [(whitened_links g [h] h).1]
    have ih := whitelist_flat ys n (whitened g [h]) (g.heap h).nextgc (Chain.whitened hc1)
      (fun z hz => by
        rw [(whitened_links g [h] z).2.2]; exact hnt z (List.mem_cons_of_mem _ hz))
      (by simpa using hl)
    rw [ih, whitened_whitened]
    rfl

/-- The function `whitelist` on a list whose threads have the open-upvalue
lists `U`: with fuel for the whole footprint it returns, having made exactly
those objects white and new. -/
theorem whitelist_nested (U : Nat → List Nat) : ∀ (xs : List Nat) (n : Nat) (g : GState) (h : Nat),
    Chain g h xs →
    (∀ x ∈ xs, (g.heap x).gct = GCT.thread → Chain g (g.heap x).openupval (U x)) →
    (∀ x ∈ xs, (g.heap x).gct ≠ GCT.thread → U x = []) →
    (∀ x ∈ xs, ∀ u ∈ U x, (g.heap u).gct ≠ GCT.thread) →
    (footprint U xs).length ≤ n →
    whitelist n g h = some (whitened g (footprint U xs))
  | [], n, g, h, hc, _, _, _, _ => by
    have e : h = 0 := hc
    subst e
    show _ = some (whitened g [])
    rw [whitened_nil]
    cases n <;> simp [whitelist]
  | y :: ys, 0, g, h, _, _, _, _, hl => by simp [footprint] at hl
  | y :: ys, n + 1, g, h, hc, hU, hUn, hUt, hl => by
    obtain ⟨e, h0, hc1⟩ := hc
    subst e
    have hl1 : (U h).length + (footprint U ys).length ≤ n := by
      simp only [footprint, List.length_append, List.length_cons] at hl; omega
    unfold whitelist
    rw [if_neg h0]
    simp only [whitelist_step]
    have hgct := (whitened_links g [h] h).2.2
    have key : ∀ g2 : GState, g2 = whitened g ([h] ++ U h) →
        whitelist n g2 (g2.heap h).nextgc = some (whitened g (footprint U (h :: ys))) := by
      intro g2 e2
      subst e2
      rw [(whitened_links g _ h).1]
      have ih := whitelist_nested U ys n (whitened g ([h] ++ U h)) (g.heap h).nextgc
        (Chain.whitened hc1)
        (fun x hx ht => by
          rw [(whitened_links g _ x).2.2] at ht
          rw [(whitened_links g _ x).2.1]
          exact Chain.whitened (hU x (List.mem_cons_of_mem _ hx) ht))
        (fun x hx ht => by
          rw [(whitened_links g _ x).2.2] at ht
          exact hUn x (List.mem_cons_of_mem _ hx) ht)
        (fun x hx u hu => by
          rw [(whitened_links g _ u).2.2]
          exact hUt x (List.mem_cons_of_mem _ hx) u hu)
        (by omega)
      rw [ih, whitened_whitened]
      refine congrArg some (whitened_congr g _ _ (fun a => ?_))
      simp only [footprint, List.mem_append, List.mem_cons, List.mem_singleton, List.not_mem_nil]
      tauto
    by_cases ht : (g.heap h).gct = GCT.thread
    · rw [if_pos (hgct.trans ht)]
      have hf := whitelist_flat (U h) n (whitened g [h]) ((whitened g [h]).heap h).openupval
        (by
          rw [(whitened_links g _ h).2.1]
          exact Chain.whitened (hU h (List.mem_cons_self _ _) ht))
        (fun u hu => by
          rw [(whitened_links g _ u).2.2]
          exact hUt h (List.mem_cons_self _ _) u hu)
        (by omega)
      rw [hf]
      simp only [Option.bind]
      exact key _ (whitened_whitened g [h] (U h))
    · rw [if_neg (fun e => ht (hgct.symm.trans e))]
      simp only [Option.bind]
      refine key _ ?_
      rw [hUn h (List.mem_cons_self _ _) ht, List.append_nil]

/-- The strings of the chains `i ≤ j < i + k`. -/
theorem whiltestrings_loop (S : Nat → List Nat) (fuel : Nat) : ∀ (k i : Nat) (g : GState),
    (∀ j, i ≤ j → j < i + k → Chain g (g.strhash j) (S j)) →
    (∀ j, i ≤ j → j < i + k → ∀ s ∈ S j, (g.heap s).gct ≠ GCT.thread) →
    (∀ j, i ≤ j → j < i + k → (S j).length ≤ fuel) →
    loopM (fun i g => whitelist fuel g (g.strhash i)) k i g =
      some (whitened g (((List.range k).map (fun j => S (i + j))).flatten))
  | 0, i, g, _, _, _ => by
    show some g = some (whitened g [])
    rw [whitened_nil]
  | k + 1, i, g, hc, hnt, hl => by
    unfold loopM
    rw [whitelist_flat (S i) fuel g (g.strhash i) (hc i (le_refl _) (by omega))
      (hnt i (le_refl _) (by omega)) (hl i (le_refl _) (by omega))]
    simp only [Option.bind]
    rw [whiltestrings_loop S fuel k (i + 1) (whitened g (S i))
      (fun j h1 h2 => Chain.whitened (hc j (by omega) (by omega)))
      (fun j h1 h2 s hs => by
        rw [(whitened_links g _ s).2.2]; exact hnt j (by omega) (by omega) s hs)
      (fun j h1 h2 => hl j (by omega) (by omega))]
    rw [whitened_whitened]
    refine congrArg some (whitened_congr g _ _ (fun a => ?_))
    rw [List.range_succ_eq_map]
    simp only [List.map_cons, List.flatten_cons, List.map_map, List.mem_append, Nat.add_zero]
    have e : ((fun j => S (i + 1 + j)) : Nat → List Nat) = (fun j => S (i + j)) ∘ Nat.succ := by
      funext j; simp only [Function.comp]; congr 1; omega
    rw [e]

theorem whitened_heap_mem (g : GState) (S : List Nat) (a : Nat) (h : a ∈ S) :
    (whitened g S).heap a = whiteNew g (g.heap a) := by
  unfold whitened; simp only [h, if_true]

theorem whitened_heap_shape (g : GState) (S : List Nat) (a : Nat) :
    { (whitened g S).heap a with marked := (g.heap a).marked, age := (g.heap a).age }
      = g.heap a := by
  unfold whitened
  by_cases h : a ∈ S
  · simp only [h, if_true]; rfl
  · simp only [h, if_false]

/-- The function `enterinc` returns the state with the root footprint and
the strings of the chains below `strmask` made white and new. -/
theorem enterinc_eq (fuel : Nat) (g : GState) (U S : Nat → List Nat) (xs : List Nat)
    (hc : Chain g g.root xs)
    (hU : ∀ x ∈ xs, (g.heap x).gct = GCT.thread → Chain g (g.heap x).openupval (U x))
    (hUn : ∀ x ∈ xs, (g.heap x).gct ≠ GCT.thread → U x = [])
    (hUt : ∀ x ∈ xs, ∀ u ∈ U x, (g.heap u).gct ≠ GCT.thread)
    (hS : ∀ j, j < g.strmask → Chain g (g.strhash j) (S j))
    (hSt : ∀ j, j < g.strmask → ∀ s ∈ S j, (g.heap s).gct ≠ GCT.thread)
    (hf : (footprint U xs).length ≤ fuel) (hfs : ∀ j, j < g.strmask → (S j).length ≤ fuel) :
    enterinc fuel g = some (enterincFields (whitened g
      (footprint U xs ++ ((List.range g.strmask).map S).flatten))) := by
  unfold enterinc
  rw [whitelist_nested U xs fuel g g.root hc hU hUn hUt hf]
  simp only [Option.bind]
  unfold whiltestrings
  have hw := whiltestrings_loop S fuel g.strmask 0
    { whitened g (footprint U xs) with reallyold := 0, old := 0, surival := 0 }
    (fun j _ h2 => Chain.congr (fun x _ => (whitened_links g _ x).1)
      (hS j (by simpa using h2)))
    (fun j _ h2 s hs => by
      show ((whitened g (footprint U xs)).heap s).gct ≠ GCT.thread
      rw [(whitened_links g _ s).2.2]; exact hSt j (by simpa using h2) s hs)
    (fun j _ h2 => hfs j (by simpa using h2))
  simp only [Nat.zero_add] at hw
  have e : (fun j => S j) = S := rfl
  rw [e] at hw
  refine (congrArg (Option.map _) hw).trans ?_
  simp only [Option.map]
  refine congrArg some ?_
  have h2 := whitened_whitened g (footprint U xs) ((List.range g.strmask).map S).flatten
  rw [← h2]
  rfl

/-- C15: `lj_gc_changemode` with the current kind as new mode returns the
state unchanged.  On a `root` list `xs` whose threads have the open-upvalue
lists `U`, `enterinc` returns (given fuel for these lists and the string
chains), and `lj_gc_changemode` to incremental from generational mode is that
call.  Nothing is freed and no object changes in anything but `marked` and
`age`, so `root` and every open-upvalue list hold the same objects in the
same order; each of these objects has age `G_NEW`, the white bits of
`currentwhite`, no black bit and its other `marked` bits unchanged;
`surival`, `old` and `reallyold` are null, `state` is `GCSpause` and `kind`
incremental. -/
theorem enterinc_spec (vm : VM) (fuel : Nat) (g : GState) (L : Nat) (U S : Nat → List Nat)
    (xs : List Nat) (hc : Chain g g.root xs)
    (hU : ∀ x ∈ xs, (g.heap x).gct = GCT.thread → Chain g (g.heap x).openupval (U x))
    (hUn : ∀ x ∈ xs, (g.heap x).gct ≠ GCT.thread → U x = [])
    (hUt : ∀ x ∈ xs, ∀ u ∈ U x, (g.heap u).gct ≠ GCT.thread)
    (hS : ∀ j, j < g.strmask → Chain g (g.strhash j) (S j))
    (hSt : ∀ j, j < g.strmask → ∀ s ∈ S j, (g.heap s).gct ≠ GCT.thread)
    (hf : (footprint U xs).length ≤ fuel) (hfs : ∀ j, j < g.strmask → (S j).length ≤ fuel) :
    lj_gc_changemode vm fuel g L g.kind = some (Res.ok g ()) ∧
    ∃ g', enterinc fuel g = some g' ∧
      (g.kind = GCKind.gen →
        lj_gc_changemode vm fuel g L GCKind.inc = some (Res.ok g' ())) ∧
      g'.freed = g.freed ∧ g'.total = g.total ∧ g'.root = g.root ∧
      g'.mainthread = g.mainthread ∧ g'.currentwhite = g.currentwhite ∧
      (∀ a, { g'.heap a with marked := (g.heap a).marked, age := (g.heap a).age }
        = g.heap a) ∧
      Chain g' g'.root xs ∧
      (∀ x ∈ xs, (g.heap x).gct = GCT.thread → Chain g' (g'.heap x).openupval (U x)) ∧
      (∀ v ∈ footprint U xs, (g'.heap v).age = G_NEW ∧
        (g'.heap v).marked &&& LJ_GC_WHITES = curwhite g' ∧
        (g'.heap v).marked &&& LJ_GC_BLACK = 0 ∧
        (g'.heap v).marked &&& not8 LJ_GC_COLORS
          = (g.heap v).marked &&& not8 LJ_GC_COLORS) ∧
      g'.surival = 0 ∧ g'.old = 0 ∧ g'.reallyold = 0 ∧
      g'.state = GCSpause ∧ g'.kind = GCKind.inc := by
  have he := enterinc_eq fuel g U S xs hc hU hUn hUt hS hSt hf hfs
  refine ⟨?_, _, he, ?_, rfl, rfl, rfl, rfl, rfl, ?_, ?_, ?_, ?_, rfl, rfl, rfl, rfl, rfl⟩
  · unfold lj_gc_changemode
    rw [if_neg (fun h => h rfl)]
  · intro hk
    unfold lj_gc_changemode
    rw [if_pos (by rw [hk]; decide), if_neg (by decide), he]
    rfl
  · intro a
    exact whitened_heap_shape g _ a
  · exact Chain.congr (fun x _ => (whitened_links g _ x).1) hc
  · intro x hx ht
    show Chain _ ((whitened g _).heap x).openupval (U x)
    rw [(whitened_links g _ x).2.1]
    exact Chain.congr (fun y _ => (whitened_links g _ y).1) (hU x hx ht)
  · intro v hv
    have e : (enterincFields (whitened g
        (footprint U xs ++ ((List.range g.strmask).map S).flatten))).heap v
        = whiteNew g (g.heap v) :=
      whitened_heap_mem g _ v (List.mem_append_left _ hv)
    rw [e]
    have hb := mkw_bits (g.heap v).marked g.currentwhite
    have e8 : not8 LJ_GC_COLORS = 248 := by decide
    refine ⟨rfl, hb.1, hb.2.2, ?_⟩
    rw [e8]
    exact hb.2.1

/-- Witness for `enterinc_spec`: the state `exInc`. -/
theorem enterinc_spec_witness :
    ∃ g', enterinc 3 exInc = some g' ∧ Chain g' g'.root [1, 2] ∧ g'.kind = GCKind.inc ∧
      (g'.heap 4).age = G_NEW := by
  have hX : ∀ x ∈ [1, 2], x = 1 ∨ x = 2 := fun x hx => by simpa using hx
  obtain ⟨_, g', h1, _, _, _, _, _, _, _, h2, _, h3, _, _, _, _, h4⟩ :=
    enterinc_spec exVM 3 exInc 1 exIncU exIncS [1, 2]
      ⟨rfl, by decide, rfl, by decide, rfl⟩
      (fun x hx ht => by
        rcases hX x hx with e | e <;> subst e
        · exact ⟨rfl, by decide, rfl⟩
        · exact absurd ht (by decide))
      (fun x hx ht => by
        rcases hX x hx with e | e <;> subst e
        · exact absurd rfl ht
        · rfl)
      (fun x hx u hu => by
        rcases hX x hx with e | e <;> subst e
        · have e : u = 4 := by simpa [exIncU] using hu
          subst e; decide
        · simp [exIncU] at hu)
      (fun j hj => by
        have e : j = 0 := by
          have : j < 1 := hj
          omega
        subst e; exact ⟨rfl, by decide, rfl⟩)
      (fun j hj s hs => by
        have e : j = 0 := by
          have : j < 1 := hj
          omega
        subst e
        have e : s = 6 := by simpa [exIncS] using hs
        subst e; decide)
      (by decide)
      (fun j hj => by
        have e : j = 0 := by
          have : j < 1 := hj
          omega
        subst e; decide)
  exact ⟨g', h1, h2, h4, (h3 4 (by decide)).1⟩

/-- C16: the loop of `whiltestrings` stops before the chain `strhash[strmask]`.
In `exInc` (`strmask = 1`) the string 7 on chain 1 is black with age `G_OLD`
before `enterinc` and still so afterwards, while the string 6 on chain 0 has
become white and new. -/
theorem enterinc_skips_last_chain :
    ∃ g', enterinc 3 exInc = some g' ∧ g'.strhash g'.strmask = 7 ∧
      Chain g' (g'.strhash g'.strmask) [7] ∧
      (g'.heap 7).marked = LJ_GC_BLACK ∧ ¬ iswhite (g'.heap 7) ∧ (g'.heap 7).age = G_OLD ∧
      iswhite (g'.heap 6) ∧ (g'.heap 6).age = G_NEW := by
  refine ⟨_, rfl, rfl, ⟨rfl, by decide, rfl⟩, rfl, by decide, rfl, by decide, rfl⟩

/-! ## The collector state machine -/

theorem subSize_not_pos (g : GState) (lim M : Nat) (hw : 0 < g.memw)
    (hM : M < 2 ^ (g.memw - 1)) (hl : lim ≤ M) : ¬ signedPos g (subSize g lim M) := by
  unfold signedPos subSize
  have e : 2 ^ g.memw = 2 * 2 ^ (g.memw - 1) := by
    obtain ⟨k, hk⟩ : ∃ k, g.memw = k + 1 := ⟨g.memw - 1, by omega⟩
    rw [hk, Nat.add_sub_cancel, pow_succ]; ring
  have hM2 : M % 2 ^ g.memw = M := Nat.mod_eq_of_lt (by omega)
  rw [hM2, Nat.mod_mod]
  rintro ⟨h1, h2⟩
  by_cases hq : lim = M
  · subst hq
    have : lim + 2 ^ g.memw - lim = 2 ^ g.memw := by omega
    rw [this, Nat.mod_self] at h1
    exact absurd h1 (by decide)
  · have hlt : lim + 2 ^ g.memw - M < 2 ^ g.memw := by omega
    rw [Nat.mod_eq_of_lt hlt] at h2
    omega

theorem incstepEntry_fields (vm : VM) (g : GState) :
    (incstepEntry vm g).1.state = g.state ∧ (incstepEntry vm g).1.jit_base = g.jit_base ∧
    (incstepEntry vm g).1.memw = g.memw ∧ (incstepEntry vm g).1.heap = g.heap ∧
    (incstepEntry vm g).1.currentwhite = g.currentwhite ∧
    (incstepEntry vm g).1.gray = g.gray ∧ (incstepEntry vm g).1.grayagain = g.grayagain ∧
    (incstepEntry vm g).1.weak = g.weak ∧ (incstepEntry vm g).1.mmudata = g.mmudata ∧
    (incstepEntry vm g).1.root = g.root ∧ (incstepEntry vm g).1.total = g.total ∧
    (incstepEntry vm g).1.estimate = g.estimate ∧ (incstepEntry vm g).1.pause = g.pause := by
  unfold incstepEntry
  simp only []
  split <;> exact ⟨rfl, rfl, rfl, rfl, rfl, rfl, rfl, rfl, rfl, rfl, rfl, rfl, rfl⟩

theorem incstepEntry_lim (vm : VM) (g : GState) (h : 10 * g.stepmul ≤ vm.LJ_MAX_MEM) :
    (incstepEntry vm g).2 ≤ vm.LJ_MAX_MEM := by
  unfold incstepEntry
  simp only []
  have e : GCSTEPSIZE / 100 = 10 := by decide
  rw [e]
  split
  · exact le_refl _
  · exact le_trans (Nat.mod_le _ _) h

theorem onestep_on_trace (vm : VM) (fuel : Nat) (g : GState) (L : Nat)
    (hs : g.state = GCSatomic) (hj : g.jit_base ≠ 0) :
    gc_onestep vm fuel g L = some (Res.ok g vm.LJ_MAX_MEM) := by
  unfold gc_onestep
  rw [if_neg (by rw [hs]; decide), if_neg (by rw [hs]; decide), if_pos hs, if_pos hj]

theorem incstepLoop_on_trace (vm : VM) (fuel n : Nat) (g : GState) (L lim : Nat)
    (hs : g.state = GCSatomic) (hj : g.jit_base ≠ 0) (hw : 0 < g.memw)
    (hM : vm.LJ_MAX_MEM < 2 ^ (g.memw - 1)) (hl : lim ≤ vm.LJ_MAX_MEM) :
    incstepLoop vm fuel (n + 1) g L lim = some (Res.ok g false) := by
  unfold incstepLoop
  rw [onestep_on_trace vm fuel g L hs hj]
  simp only [andThen]
  rw [if_neg (by rw [hs]; decide), if_neg (subSize_not_pos g lim _ hw hM hl)]

theorem andThen_ok {α β : Type} {x : Option (Res α)} {f : GState → α → Option (Res β)}
    {g : GState} {b : β} (h : andThen x f = some (Res.ok g b)) :
    ∃ g1 a, x = some (Res.ok g1 a) ∧ f g1 a = some (Res.ok g b) := by
  cases x with
  | none => cases h
  | some r =>
    cases r with
    | ok g1 a => exact ⟨g1, a, rfl, h⟩
    | throw g1 e => cases h

theorem Quiet.qrefl (g : GState) : Quiet g g := ⟨fun _ => rfl, rfl⟩

theorem Quiet.qtrans {a b c : GState} (h1 : Quiet a b) (h2 : Quiet b c) : Quiet a c :=
  ⟨fun x => (h2.core x).trans (h1.core x), h2.rest.trans h1.rest⟩

theorem Quiet.qmod (g : GState) (o : Nat) (f : GCobj → GCobj)
    (hf : coreObj (f (g.heap o)) = coreObj (g.heap o)) : Quiet g (g.modObj o f) := by
  refine ⟨fun a => ?_, rfl⟩
  rw [modObj_heap]
  split_ifs with h
  · subst h; exact hf
  · rfl

theorem Quiet.qflds {g g' : GState} (h1 : g'.heap = g.heap)
    (h2 : g'.restAtomic = g.restAtomic) : Quiet g g' :=
  ⟨fun a => by rw [h1], h2⟩

theorem Quiet.qguard (c : Prop) [Decidable c] {X : Option GState} {g g' : GState}
    (hX : ∀ g1, X = some g1 → Quiet g g1)
    (h : (if c then X else some g) = some g') : Quiet g g' := by
  by_cases hc : c
  · rw [if_pos hc] at h; exact hX g' h
  · rw [if_neg hc] at h; cases h; exact Quiet.qrefl g

theorem Quiet.qbind {X : Option GState} {f : GState → Option GState} {g g' : GState}
    (hX : ∀ g1, X = some g1 → Quiet g g1)
    (hf : ∀ g1 g2, X = some g1 → f g1 = some g2 → Quiet g1 g2)
    (h : X.bind f = some g') : Quiet g g' := by
  obtain ⟨g1, h1, h2⟩ := bind_some h
  exact (hX g1 h1).qtrans (hf g1 g' h1 h2)

theorem gc_mark_quiet : ∀ (n : Nat) (g : GState) (o : Nat) (g' : GState),
    gc_mark n g o = some g' → Quiet g g' := by
  intro n
  induction n with
  | zero => intro g o g' h; simp [gc_mark] at h
  | succ n ih =>
    intro g o g' h
    have h1 : Quiet g (g.modObj o white2gray) := Quiet.qmod g o _ rfl
    refine h1.qtrans ?_
    unfold gc_mark at h
    simp only [] at h
    generalize g.modObj o white2gray = G at h ⊢
    cases hg : (g.heap o).gct <;> rw [hg] at h <;> simp only [] at h
    case udata =>
      exact (Quiet.qmod G o _ rfl).qtrans
        (Quiet.qbind (fun g1 h1 => Quiet.qguard _ (fun g2 h2 => ih _ _ _ h2) h1)
          (fun g1 g2 _ h2 => Quiet.qguard _ (fun g3 h3 => ih _ _ _ h3) h2) h)
    case upval =>
      refine Quiet.qbind (fun g1 h1 => Quiet.qguard _ (fun g2 h2 => ih _ _ _ h2) h1)
        (fun g1 g2 _ h2 => ?_) h
      split at h2
      · cases h2; exact Quiet.qmod g1 o _ rfl
      · cases h2; exact Quiet.qrefl _
    case str => cases h; exact Quiet.qrefl _
    case cdata => cases h; exact Quiet.qrefl _
    all_goals
      cases h
      exact (Quiet.qmod G o (fun x => { x with gclist := G.gray }) rfl).qtrans
        (Quiet.qflds rfl rfl)

theorem gc_markobj_quiet (n : Nat) (g : GState) (o : Nat) (g' : GState)
    (h : gc_markobj n g o = some g') : Quiet g g' :=
  Quiet.qguard _ (fun _ h1 => gc_mark_quiet _ _ _ _ h1) h

theorem gc_marktv_quiet (n : Nat) (g : GState) (tv : TValue) (g' : GState)
    (h : gc_marktv n g tv = some g') : Quiet g g' :=
  Quiet.qguard _ (fun _ h1 => gc_mark_quiet _ _ _ _ h1) h

theorem loopM_quiet (f : Nat → GState → Option GState)
    (hf : ∀ i g g', f i g = some g' → Quiet g g') :
    ∀ (k i : Nat) (g g' : GState), loopM f k i g = some g' → Quiet g g'
  | 0, _, g, g', h => by cases h; exact Quiet.qrefl g
  | k + 1, i, g, g', h => by
    unfold loopM at h
    exact Quiet.qbind (fun g1 h1 => hf i g g1 h1)
      (fun g1 g2 _ h2 => loopM_quiet f hf k (i + 1) g1 g2 h2) h

theorem traverseNode_quiet (fuel t weak i : Nat) (g g' : GState)
    (h : traverseNode fuel t weak i g = some g') : Quiet g g' := by
  unfold traverseNode at h
  simp only [] at h
  split at h
  · cases h; exact Quiet.qrefl g
  · exact Quiet.qbind (fun g1 h1 => Quiet.qguard _ (fun g2 h2 => gc_marktv_quiet _ _ _ _ h2) h1)
      (fun g1 g2 _ h2 => Quiet.qguard _ (fun g3 h3 => gc_marktv_quiet _ _ _ _ h3) h2) h

theorem tabSetWeak_quiet (g : GState) (t w0 : Nat) : Quiet g (tabSetWeak g t w0).1 := by
  unfold tabSetWeak
  split
  · split
    · exact Quiet.qrefl g
    · refine ⟨fun a => ?_, rfl⟩
      simp only [modObj_heap, eq_self_iff_true, if_true]
      split_ifs with e <;> first | rfl | (subst e; rfl)
  · exact Quiet.qrefl g

theorem tabMarkParts_quiet (fuel : Nat) (g : GState) (t weak : Nat) (r : GState × Nat)
    (h : tabMarkParts fuel g t weak = some r) : Quiet g r.1 := by
  unfold tabMarkParts at h
  obtain ⟨g1, h1, h⟩ := bind_some h
  obtain ⟨g2, h2, h⟩ := bind_some h
  have q1 : Quiet g g1 :=
    Quiet.qguard _ (fun g3 h3 => loopM_quiet _ (fun i a b hab => gc_marktv_quiet _ _ _ _ hab)
      _ _ _ _ h3) h1
  have q2 : Quiet g1 g2 :=
    Quiet.qguard _ (fun g3 h3 => loopM_quiet _ (fun i a b hab => traverseNode_quiet _ _ _ _ _ _ hab)
      _ _ _ _ h3) h2
  refine q1.qtrans (q2.qtrans ?_)
  split at h
  · cases h
    refine ⟨fun a => ?_, rfl⟩
    simp only [modObj_heap, eq_self_iff_true, if_true]
    split_ifs with e <;> first | rfl | (subst e; rfl)
  · cases h; exact Quiet.qrefl _

theorem gc_traverse_tab_quiet (fuel : Nat) (g : GState) (t : Nat) (r : GState × Nat)
    (h : gc_traverse_tab fuel g t = some r) : Quiet g r.1 := by
  rw [gc_traverse_tab_eq] at h
  obtain ⟨g1, h1, h⟩ := bind_some h
  have q1 : Quiet g g1 := Quiet.qguard _ (fun g3 h3 => gc_markobj_quiet _ _ _ _ h3) h1
  refine q1.qtrans ((tabSetWeak_quiet g1 t (tabWeak g1 (g.heap t).metatable)).qtrans ?_)
  split at h
  · cases h; exact Quiet.qrefl _
  · exact tabMarkParts_quiet _ _ _ _ _ h

theorem gc_traverse_func_quiet (fuel : Nat) (g : GState) (fn : Nat) (g' : GState)
    (h : gc_traverse_func fuel g fn = some g') : Quiet g g' := by
  unfold gc_traverse_func at h
  refine Quiet.qbind (fun g1 h1 => gc_markobj_quiet _ _ _ _ h1) (fun g1 g2 _ h2 => ?_) h
  split at h2
  · refine Quiet.qbind (fun g3 h3 => gc_markobj_quiet _ _ _ _ h3) (fun g3 g4 _ h4 => ?_) h2
    exact loopM_quiet _ (fun i a b hab => gc_markobj_quiet _ _ _ _ hab) _ _ _ _ h4
  · exact loopM_quiet _ (fun i a b hab => gc_marktv_quiet _ _ _ _ hab) _ _ _ _ h2

theorem gc_marktrace_quiet (g : GState) (traceno : Nat) : Quiet g (gc_marktrace g traceno) := by
  unfold gc_marktrace
  simp only []
  split
  · refine ⟨fun a => ?_, rfl⟩
    simp only [modObj_heap, eq_self_iff_true, if_true]
    split_ifs with e <;> first | rfl | (subst e; rfl)
  · exact Quiet.qrefl g

theorem traverseIR_quiet (fuel T : Nat) : ∀ (k ref : Nat) (g g' : GState),
    traverseIR fuel T k ref g = some g' → Quiet g g'
  | 0, _, g, g', h => by cases h; exact Quiet.qrefl g
  | k + 1, ref, g, g', h => by
    unfold traverseIR at h
    simp only [] at h
    split at h
    · exact Quiet.qbind (fun g1 h1 => Quiet.qguard _ (fun g2 h2 => gc_markobj_quiet _ _ _ _ h2) h1)
        (fun g1 g2 _ h2 => traverseIR_quiet fuel T k _ g1 g2 h2) h
    · cases h; exact Quiet.qrefl g

theorem gc_traverse_trace_quiet (fuel : Nat) (g : GState) (T : Nat) (g' : GState)
    (h : gc_traverse_trace fuel g T = some g') : Quiet g g' := by
  unfold gc_traverse_trace at h
  split at h
  · cases h; exact Quiet.qrefl g
  · refine Quiet.qbind (fun g1 h1 => traverseIR_quiet _ _ _ _ _ _ h1) (fun g1 g2 _ h2 => ?_) h
    simp only [] at h2
    have q1 : Quiet g1 (if (g1.heap T).link ≠ 0 then gc_marktrace g1 (g1.heap T).link else g1) := by
      split
      · exact gc_marktrace_quiet _ _
      · exact Quiet.qrefl _
    refine q1.qtrans ?_
    generalize (if (g1.heap T).link ≠ 0 then gc_marktrace g1 (g1.heap T).link else g1) = G1 at h2 ⊢
    have q2 : Quiet G1 (if (G1.heap T).nextroot ≠ 0 then gc_marktrace G1 (G1.heap T).nextroot
        else G1) := by
      split
      · exact gc_marktrace_quiet _ _
      · exact Quiet.qrefl _
    refine q2.qtrans ?_
    generalize (if (G1.heap T).nextroot ≠ 0 then gc_marktrace G1 (G1.heap T).nextroot
        else G1) = G2 at h2 ⊢
    have q3 : Quiet G2 (if (G2.heap T).nextside ≠ 0 then gc_marktrace G2 (G2.heap T).nextside
        else G2) := by
      split
      · exact gc_marktrace_quiet _ _
      · exact Quiet.qrefl _
    exact q3.qtrans (gc_markobj_quiet _ _ _ _ h2)

theorem gc_traverse_proto_quiet (fuel : Nat) (g : GState) (pt : Nat) (g' : GState)
    (h : gc_traverse_proto fuel g pt = some g') : Quiet g g' := by
  unfold gc_traverse_proto at h
  simp only [] at h
  refine (Quiet.qmod g (g.heap pt).chunkname gc_mark_str rfl).qtrans ?_
  refine Quiet.qbind (fun g1 h1 => loopM_quiet _ (fun i a b hab => gc_markobj_quiet _ _ _ _ hab)
    _ _ _ _ h1) (fun g1 g2 _ h2 => ?_) h
  split at h2
  · cases h2; exact gc_marktrace_quiet _ _
  · cases h2; exact Quiet.qrefl _

theorem traverseFrames_quiet (fuel th : Nat) : ∀ (k i : Nat) (acc : Int) (g : GState) (r : GState × Int),
    traverseFrames fuel th k i acc g = some r → Quiet g r.1
  | 0, _, _, g, r, h => by cases h; exact Quiet.qrefl g
  | k + 1, i, acc, g, r, h => by
    unfold traverseFrames at h
    simp only [] at h
    obtain ⟨g1, h1, h2⟩ := bind_some h
    exact (Quiet.qguard _ (fun g2 h2 => gc_markobj_quiet _ _ _ _ h2) h1).qtrans
      (traverseFrames_quiet fuel th k _ _ g1 r h2)

theorem gc_traverse_frames_quiet (fuel : Nat) (g : GState) (th : Nat) (r : GState × Nat)
    (h : gc_traverse_frames fuel g th = some r) : Quiet g r.1 := by
  unfold gc_traverse_frames at h
  obtain ⟨r1, h1, h2⟩ := bind_some h
  cases h2
  exact traverseFrames_quiet _ _ _ _ _ _ r1 h1

theorem lj_state_shrinkstack_quiet (g : GState) (th used : Nat) :
    Quiet g (lj_state_shrinkstack g th used) := by
  unfold lj_state_shrinkstack
  simp only []
  split
  · refine ⟨fun a => ?_, rfl⟩
    simp only [modObj_heap]
    split_ifs with e <;> first | rfl | (subst e; rfl)
  · exact Quiet.qrefl g

theorem gc_traverse_thread_quiet (fuel : Nat) (g : GState) (th : Nat) (g' : GState)
    (h : gc_traverse_thread fuel g th = some g') : Quiet g g' := by
  unfold gc_traverse_thread at h
  simp only [] at h
  obtain ⟨g1, h1, h⟩ := bind_some h
  obtain ⟨g2, h2, h⟩ := bind_some h
  obtain ⟨r, h3, h⟩ := bind_some h
  cases h
  have q1 : Quiet g g1 := loopM_quiet _ (fun i a b hab => gc_marktv_quiet _ _ _ _ hab) _ _ _ _ h1
  have q3 := gc_traverse_frames_quiet _ _ _ _ h3
  have q2 := gc_markobj_quiet _ _ _ _ h2
  refine q1.qtrans (Quiet.qtrans ?_ (q2.qtrans (q3.qtrans (lj_state_shrinkstack_quiet _ _ _))))
  split
  · exact Quiet.qmod g1 th _ rfl
  · exact Quiet.qrefl _

theorem popGray_quiet (g : GState) : Quiet g (popGray g) := by
  unfold popGray
  refine ⟨fun a => ?_, rfl⟩
  simp only [modObj_heap]
  split_ifs with e <;> first | rfl | (subst e; rfl)

theorem propagatemark_quiet (fuel : Nat) (g : GState) (r : GState × Nat)
    (h : propagatemark fuel g = some r) : Quiet g r.1 := by
  rw [propagatemark_eq] at h
  refine (popGray_quiet g).qtrans ?_
  generalize popGray g = G at h ⊢
  cases hg : (g.heap g.gray).gct <;> rw [hg] at h <;> simp only [] at h
  case tab =>
    obtain ⟨r1, h1, h2⟩ := bind_some h
    cases h2
    refine (gc_traverse_tab_quiet _ _ _ _ h1).qtrans ?_
    dsimp only
    split
    · exact Quiet.qmod _ _ _ rfl
    · exact Quiet.qrefl _
  case func =>
    obtain ⟨r1, h1, h2⟩ := bind_some h
    cases h2
    exact gc_traverse_func_quiet _ _ _ _ h1
  case proto =>
    obtain ⟨r1, h1, h2⟩ := bind_some h
    cases h2
    exact gc_traverse_proto_quiet _ _ _ _ h1
  case thread =>
    obtain ⟨r1, h1, h2⟩ := bind_some h
    cases h2
    refine Quiet.qtrans ?_ (gc_traverse_thread_quiet _ _ _ _ h1)
    refine ⟨fun a => ?_, rfl⟩
    simp only [modObj_heap, eq_self_iff_true, if_true]
    split_ifs with e <;> first | rfl | (subst e; rfl)
  all_goals
    obtain ⟨r1, h1, h2⟩ := bind_some h
    cases h2
    exact gc_traverse_trace_quiet _ _ _ _ h1

theorem gc_propagate_gray_quiet : ∀ (n : Nat) (g : GState) (r : GState × Nat),
    gc_propagate_gray n g = some r → Quiet g r.1
  | 0, g, r, h => by
    unfold gc_propagate_gray at h
    split at h
    · cases h; exact Quiet.qrefl g
    · cases h
  | n + 1, g, r, h => by
    unfold gc_propagate_gray at h
    split at h
    · cases h; exact Quiet.qrefl g
    · obtain ⟨r1, h1, h2⟩ := bind_some h
      obtain ⟨r2, h3, h4⟩ := bind_some h2
      cases h4
      exact (propagatemark_quiet _ _ _ h1).qtrans (gc_propagate_gray_quiet n _ r2 h3)

theorem markUvLoop_quiet (fuel : Nat) : ∀ (uvs : List Nat) (g g' : GState),
    markUvLoop fuel uvs g = some g' → Quiet g g'
  | [], g, g', h => by cases h; exact Quiet.qrefl g
  | uv :: uvs, g, g', h => by
    unfold markUvLoop at h
    exact Quiet.qbind (fun g1 h1 => Quiet.qguard _ (fun g2 h2 => gc_marktv_quiet _ _ _ _ h2) h1)
      (fun g1 g2 _ h2 => markUvLoop_quiet fuel uvs g1 g2 h2) h

theorem gc_mark_gcroot_quiet (fuel : Nat) (g g' : GState) (h : gc_mark_gcroot fuel g = some g') :
    Quiet g g' :=
  loopM_quiet _ (fun _ _ _ hab => Quiet.qguard _ (fun _ h2 => gc_markobj_quiet _ _ _ _ h2) hab)
    _ _ _ _ h

theorem gc_traverse_curtrace_quiet (fuel : Nat) (g g' : GState)
    (h : gc_traverse_curtrace fuel g = some g') : Quiet g g' :=
  Quiet.qguard _ (fun _ h2 => gc_traverse_trace_quiet _ _ _ _ h2) h

theorem separateMove_quiet (g : GState) (q o : Nat) :
    Quiet g (separateMove g (Loc.nextgc q) o) := by
  rw [separateMove_eq]
  have h1 : Quiet g (g.modObj o markfinalized) := Quiet.qmod g o _ rfl
  have h2 : Quiet (g.modObj o markfinalized)
      (Loc.set (g.modObj o markfinalized) (Loc.nextgc q)
        ((g.modObj o markfinalized).heap o).nextgc) :=
    Quiet.qmod _ q (fun x => { x with nextgc := ((g.modObj o markfinalized).heap o).nextgc }) rfl
  refine h1.qtrans (h2.qtrans ?_)
  generalize Loc.set (g.modObj o markfinalized) (Loc.nextgc q)
    ((g.modObj o markfinalized).heap o).nextgc = G
  have h3 : Quiet G (moveAnchors G o) := by
    unfold moveAnchors
    simp only []
    split <;> split <;> exact Quiet.qflds rfl rfl
  refine h3.qtrans ?_
  generalize moveAnchors G o = G4
  unfold moveLink
  split
  · have a1 := Quiet.qmod G4 o (fun x => { x with nextgc := (G4.heap G4.mmudata).nextgc }) rfl
    have a2 := Quiet.qmod (G4.modObj o (fun x => { x with nextgc := (G4.heap G4.mmudata).nextgc }))
      G4.mmudata (fun x => { x with nextgc := o }) rfl
    exact a1.qtrans (a2.qtrans (Quiet.qflds rfl rfl))
  · have a1 := Quiet.qmod G4 o (fun x => { x with nextgc := o }) rfl
    exact a1.qtrans (Quiet.qflds rfl rfl)

theorem separateLoop_quiet (all : Bool) : ∀ (n : Nat) (g : GState) (q m : Nat)
    (r : GState × Nat), separateLoop all n g (Loc.nextgc q) m = some r → Quiet g r.1 := by
  intro n
  induction n with
  | zero =>
    intro g q m r h
    unfold separateLoop at h
    split at h
    · cases h; exact Quiet.qrefl _
    · cases h
  | succ n ih =>
    intro g q m r h
    unfold separateLoop at h
    simp only [] at h
    split at h
    · cases h; exact Quiet.qrefl _
    · split at h
      · exact ih _ _ _ _ h
      · split at h
        · exact (Quiet.qmod g _ markfinalized rfl).qtrans (ih _ _ _ _ h)
        · exact (separateMove_quiet g q _).qtrans (ih _ _ _ _ h)

theorem markMmudataLoop_quiet (root : Nat) : ∀ (n : Nat) (g : GState) (u : Nat) (g' : GState),
    markMmudataLoop root n g u = some g' → Quiet g g' := by
  intro n
  induction n with
  | zero => intro g u g' h; simp [markMmudataLoop] at h
  | succ n ih =>
    intro g u g' h
    unfold markMmudataLoop at h
    simp only [] at h
    refine Quiet.qtrans (Quiet.qmod g (g.heap u).nextgc (makewhite g) rfl)
      (Quiet.qbind (fun g1 h1 => gc_mark_quiet _ _ _ _ h1) (fun g1 g2 _ h2 => ?_) h)
    split at h2
    · exact ih _ _ _ h2
    · cases h2; exact Quiet.qrefl _

theorem gc_mark_mmudata_quiet (n : Nat) (g g' : GState) (h : gc_mark_mmudata n g = some g') :
    Quiet g g' := by
  unfold gc_mark_mmudata at h
  split at h
  · exact markMmudataLoop_quiet _ _ _ _ _ h
  · cases h; exact Quiet.qrefl _

theorem gc_mayclear_quiet (g : GState) (o : TValue) (val : Bool) :
    Quiet g (gc_mayclear g o val).1 := by
  unfold gc_mayclear
  split
  · split
    · exact Quiet.qmod g _ gc_mark_str rfl
    · split
      · exact Quiet.qrefl g
      · split <;> exact Quiet.qrefl g
  · exact Quiet.qrefl g

theorem loopT_quiet (f : Nat → GState → GState) (hf : ∀ i g, Quiet g (f i g)) :
    ∀ (k i : Nat) (g : GState), Quiet g (loopT f k i g)
  | 0, _, g => Quiet.qrefl g
  | k + 1, i, g => (hf i g).qtrans (loopT_quiet f hf k (i + 1) (f i g))

theorem clearArraySlot_quiet (t i : Nat) (g : GState) : Quiet g (clearArraySlot t i g) := by
  unfold clearArraySlot
  simp only []
  split
  · exact (gc_mayclear_quiet g _ true).qtrans (Quiet.qmod _ t _ rfl)
  · exact gc_mayclear_quiet g _ true

theorem clearNode_quiet (t i : Nat) (g : GState) : Quiet g (clearNode t i g) := by
  unfold clearNode
  split
  · exact Quiet.qrefl g
  · simp only []
    have hk := gc_mayclear_quiet g ((g.heap t).node.getD i {}).key false
    generalize gc_mayclear g ((g.heap t).node.getD i {}).key false = rk at hk ⊢
    have hv : Quiet g (if rk.2 = true then rk
        else gc_mayclear rk.1 ((rk.1.heap t).node.getD i {}).val true).1 := by
      split
      · exact hk
      · exact hk.qtrans (gc_mayclear_quiet _ _ true)
    generalize (if rk.2 = true then rk
        else gc_mayclear rk.1 ((rk.1.heap t).node.getD i {}).val true) = rv at hv ⊢
    split
    · exact hv.qtrans (Quiet.qmod _ t _ rfl)
    · exact hv

theorem clearweakTab_quiet (g : GState) (t : Nat) : Quiet g (clearweakTab g t) := by
  unfold clearweakTab
  simp only []
  have h1 : Quiet g (if (g.heap t).marked &&& LJ_GC_WEAKVAL ≠ 0 then
      loopT (clearArraySlot t) (g.heap t).array.length 0 g else g) := by
    split
    · exact loopT_quiet _ (clearArraySlot_quiet t) _ _ _
    · exact Quiet.qrefl g
  generalize (if (g.heap t).marked &&& LJ_GC_WEAKVAL ≠ 0 then
      loopT (clearArraySlot t) (g.heap t).array.length 0 g else g) = G at h1 ⊢
  split
  · exact h1.qtrans (loopT_quiet _ (clearNode_quiet t) _ _ _)
  · exact h1

theorem gc_clearweak_quiet : ∀ (n : Nat) (g : GState) (o : Nat) (g' : GState),
    gc_clearweak n g o = some g' → Quiet g g'
  | 0, g, o, g', h => by
    unfold gc_clearweak at h
    split at h
    · cases h; exact Quiet.qrefl g
    · cases h
  | n + 1, g, o, g', h => by
    unfold gc_clearweak at h
    split at h
    · cases h; exact Quiet.qrefl g
    · exact (clearweakTab_quiet g o).qtrans (gc_clearweak_quiet n _ _ _ h)

theorem atomicMark_quiet (vm : VM) (hvm : VMBufQuiet vm) (fuel : Nat) (g : GState) (L : Nat)
    (r : GState × Nat) (h : atomicMark vm fuel g L = some r) : Quiet g r.1 := by
  unfold atomicMark at h
  simp only [] at h
  obtain ⟨g1, h1, h⟩ := bind_some h
  obtain ⟨r2, h2, h⟩ := bind_some h
  obtain ⟨g3, h3, h⟩ := bind_some h
  obtain ⟨g4, h4, h⟩ := bind_some h
  obtain ⟨g5, h5, h⟩ := bind_some h
  obtain ⟨r6, h6, h⟩ := bind_some h
  obtain ⟨r7, h7, h⟩ := bind_some h
  obtain ⟨s8, h8, h⟩ := bind_some h
  obtain ⟨g9, h9, h⟩ := bind_some h
  obtain ⟨r10, h10, h⟩ := bind_some h
  obtain ⟨g11, h11, h⟩ := bind_some h
  cases h
  have q0 : Quiet g { g with grayagain := 0, state := GCSatomic } := Quiet.qflds rfl rfl
  have q1 := markUvLoop_quiet fuel _ _ _ h1
  have q2 := gc_propagate_gray_quiet fuel _ _ h2
  have q2' : Quiet r2.1 { r2.1 with gray := r2.1.weak, weak := 0 } := Quiet.qflds rfl rfl
  have q3 := gc_markobj_quiet fuel _ _ _ h3
  have q4 := gc_traverse_curtrace_quiet fuel _ _ h4
  have q5 := gc_mark_gcroot_quiet fuel _ _ h5
  have q6 := gc_propagate_gray_quiet fuel _ _ h6
  have q6' : Quiet r6.1 { r6.1 with gray := g.grayagain } := Quiet.qflds rfl rfl
  have q7 := gc_propagate_gray_quiet fuel _ _ h7
  have q8 := separateLoop_quiet false fuel _ _ _ _ h8
  have q9 := gc_mark_mmudata_quiet fuel _ _ h9
  have q10 := gc_propagate_gray_quiet fuel _ _ h10
  have q11 := gc_clearweak_quiet fuel _ _ _ h11
  exact q0.qtrans (q1.qtrans (q2.qtrans (q2'.qtrans (q3.qtrans (q4.qtrans (q5.qtrans
    (q6.qtrans (q6'.qtrans (q7.qtrans (q8.qtrans (q9.qtrans (q10.qtrans
      (q11.qtrans (hvm _ _))))))))))))))

set_option maxRecDepth 100000 in

theorem flip_byte : ∀ r < 256, (r ^^^ 3) &&& 3 = (r &&& 3) ^^^ 3 ∧
    (r ^^^ 3) &&& 252 = r &&& 252 ∧ (r ^^^ 3) < 256 ∧ (r ^^^ 3) ^^^ 3 = r := by decide

/-- The flip of `currentwhite` on the white bits and on the other bits. -/
theorem flip_bits (cw : Nat) :
    ((cw ^^^ LJ_GC_WHITES) % 256) &&& 3 = (cw &&& 3) ^^^ 3 ∧
    ((cw ^^^ LJ_GC_WHITES) % 256) &&& 252 = cw &&& 252 ∧
    (((cw ^^^ LJ_GC_WHITES) % 256) ^^^ LJ_GC_WHITES) % 256 = cw % 256 ∧
    ((cw ^^^ LJ_GC_WHITES) % 256) ^^^ LJ_GC_WHITES = cw % 256 := by
  have e3 : LJ_GC_WHITES = 3 := by decide
  have h := flip_byte (cw % 256) (mod256_lt cw)
  have e : (cw ^^^ 3) % 256 = (cw % 256) ^^^ 3 := by
    rw [mod256_xor]
  rw [e3, e, land_byte cw 3 (by decide), land_byte cw 252 (by decide)]
  refine ⟨h.1, h.2.1, ?_, h.2.2.2⟩
  rw [h.2.2.2, Nat.mod_mod]

/-! ## The atomic step -/

/-- C11 (amended): once its marking returns, `atomic` returns with
`currentwhite` replaced by `(uint8_t)(currentwhite ^ LJ_GC_WHITES)`: white
bits `WHITE0` become `WHITE1` and conversely, the other bits are unchanged,
and a second `atomic` from any state with the new `currentwhite` gives the
byte of the original back.  `sweep` is `Loc.root`.  The objects that are dead
afterwards are those that carry the white of before when the marking of
`atomic` is complete; an object that was current-white at entry and is marked
by `atomic` is not among them. -/
theorem atomic_flip_spec (vm : VM) (hvm : VMBufQuiet vm) (fuel : Nat) (g : GState) (L : Nat)
    (g1 : GState) (ud : Nat) (hm : atomicMark vm fuel g L = some (g1, ud)) :
    ∃ g', atomic vm fuel g L = some g' ∧
      g'.currentwhite = (g.currentwhite ^^^ LJ_GC_WHITES) % 256 ∧
      (g.currentwhite &&& LJ_GC_WHITES = LJ_GC_WHITE0 →
        g'.currentwhite &&& LJ_GC_WHITES = LJ_GC_WHITE1) ∧
      (g.currentwhite &&& LJ_GC_WHITES = LJ_GC_WHITE1 →
        g'.currentwhite &&& LJ_GC_WHITES = LJ_GC_WHITE0) ∧
      g'.currentwhite &&& not8 LJ_GC_WHITES = g.currentwhite &&& not8 LJ_GC_WHITES ∧
      (∀ (vm2 : VM) (fuel2 L2 : Nat) (h h1 : GState) (ud2 : Nat), VMBufQuiet vm2 →
        h.currentwhite = g'.currentwhite → atomicMark vm2 fuel2 h L2 = some (h1, ud2) →
        ∃ h', atomic vm2 fuel2 h L2 = some h' ∧ h'.currentwhite = g.currentwhite % 256) ∧
      g'.sweep = Loc.root ∧ g'.heap = g1.heap ∧
      (∀ a, isdead g' (g'.heap a) ↔ (g1.heap a).marked &&& curwhite g ≠ 0) := by
  have hcw : ∀ (vm : VM), VMBufQuiet vm → ∀ (fuel : Nat) (g : GState) (L : Nat) (g1 : GState)
      (ud : Nat), atomicMark vm fuel g L = some (g1, ud) →
      atomic vm fuel g L = some (atomicFlip g1 ud) ∧
      (atomicFlip g1 ud).currentwhite = (g.currentwhite ^^^ LJ_GC_WHITES) % 256 := by
    intro vm hvm fuel g L g1 ud hm
    have q := atomicMark_quiet vm hvm fuel g L _ hm
    have e0 := congrArg (fun s : GState => s.currentwhite) q.rest
    have e : g1.currentwhite = g.currentwhite := e0
    refine ⟨?_, ?_⟩
    · unfold atomic; rw [hm]; rfl
    · show (g1.currentwhite ^^^ LJ_GC_WHITES) % 256 = _
      rw [e]
  obtain ⟨ha, hc⟩ := hcw vm hvm fuel g L g1 ud hm
  have e3 : LJ_GC_WHITES = 3 := by decide
  have e252 : not8 LJ_GC_WHITES = 252 := by decide
  have hb := flip_bits g.currentwhite
  rw [e3] at hb hc
  refine ⟨_, ha, by rw [hc, e3], ?_, ?_, ?_, ?_, rfl, rfl, ?_⟩
  · intro h0
    rw [e3] at h0 ⊢
    rw [hc, hb.1, h0]; decide
  · intro h0
    rw [e3] at h0 ⊢
    rw [hc, hb.1, h0]; decide
  · rw [hc, e252, hb.2.1]
  · intro vm2 fuel2 L2 h h1 ud2 hvm2 hh hm2
    obtain ⟨ha2, hc2⟩ := hcw vm2 hvm2 fuel2 h L2 h1 ud2 hm2
    refine ⟨_, ha2, ?_⟩
    rw [hc2, hh, hc, e3, hb.2.2.1]
  · intro a
    unfold isdead otherwhite curwhite
    rw [hc, e3, hb.2.2.2, Nat.and_assoc, ← land_byte g.currentwhite 3 (by decide)]
    rfl

/-- Witness for `atomic_flip_spec`: on `exFlip` the current white goes from
`WHITE0` to `WHITE1`. -/
theorem atomic_flip_spec_witness :
    ∃ g', atomic exVM 5 exFlip 1 = some g' ∧ g'.currentwhite = 0x22 ∧ g'.sweep = Loc.root := by
  obtain ⟨g', h1, h2, _, _, _, _, h3, _⟩ :=
    atomic_flip_spec exVM (fun g _ => Quiet.qrefl g) 5 exFlip 1 _ _ rfl
  exact ⟨g', h1, by rw [h2]; decide, h3⟩

/-- C11, counterexample: in `exFlip` the table 2 is current-white before
`atomic`; it is anchored in `gcroot`, so `atomic` marks it, and after `atomic`
it is black and not dead. -/
theorem atomic_marks_current_white :
    ∃ g', atomic exVM 5 exFlip 1 = some g' ∧
      (exFlip.heap 2).marked &&& LJ_GC_WHITES = curwhite exFlip ∧
      iswhite (exFlip.heap 2) ∧ ¬ isdead exFlip (exFlip.heap 2) ∧
      isblack (g'.heap 2) ∧ ¬ isdead g' (g'.heap 2) :=
  ⟨_, rfl, by decide, by decide, by decide, by decide, by decide⟩

/-! ## Finishing a generational cycle -/

theorem GrayFix.grefl (g : GState) : GrayFix g g := ⟨fun _ => rfl, rfl⟩

theorem GrayFix.gtrans {a b c : GState} (h1 : GrayFix a b) (h2 : GrayFix b c) : GrayFix a c :=
  ⟨fun x => (h2.obj x).trans (h1.obj x), h2.rest.trans h1.rest⟩

theorem GrayFix.gmod (g : GState) (o : Nat) (f : GCobj → GCobj)
    (hf : tintObj (f (g.heap o)) = tintObj (g.heap o)) : GrayFix g (g.modObj o f) := by
  refine ⟨fun a => ?_, rfl⟩
  rw [modObj_heap]
  split_ifs with h
  · subst h; exact hf
  · rfl

theorem GLoc.set_fix (g : GState) (p : GLoc) (r : Nat) : GrayFix g (p.set g r) := by
  cases p with
  | grayagain => exact ⟨fun _ => rfl, rfl⟩
  | weak => exact ⟨fun _ => rfl, rfl⟩
  | gclist o => exact GrayFix.gmod g o (fun x => { x with gclist := r }) rfl

theorem correctgraylist_fix : ∀ (n : Nat) (g : GState) (p : GLoc) (r : GState × GLoc),
    correctgraylist n g p = some r → GrayFix g r.1 := by
  intro n
  induction n with
  | zero =>
    intro g p r h
    unfold correctgraylist at h
    split at h
    · cases h; exact GrayFix.grefl g
    · cases h
  | succ n ih =>
    intro g p r h
    unfold correctgraylist at h
    simp only [] at h
    split at h
    · cases h; exact GrayFix.grefl g
    · split at h
      · split at h
        · refine GrayFix.gtrans ?_ (ih _ _ _ h)
          exact (GrayFix.gmod g (p.get g) gray2black rfl).gtrans
            (GrayFix.gmod _ (p.get g) (fun x => changeage x G_TOUCHED1 G_TOUCHED2) rfl)
        · refine GrayFix.gtrans ?_ (ih _ _ _ h)
          refine GrayFix.gtrans ?_ (GLoc.set_fix _ p _)
          split
          · refine GrayFix.gtrans ?_ (GrayFix.gmod _ (p.get g) gray2black rfl)
            split
            · exact GrayFix.gmod g (p.get g) (fun x => changeage x G_TOUCHED2 G_OLD) rfl
            · exact GrayFix.grefl g
          · exact GrayFix.grefl g
      · split at h
        · split at h
          · exact (GLoc.set_fix g p _).gtrans (ih _ _ _ h)
          · exact ih _ _ _ h
        · cases h

theorem correctgraylists_fix (fuel : Nat) (g g' : GState)
    (h : correctgraylists fuel g = some g') : GrayFix g g' := by
  unfold correctgraylists at h
  obtain ⟨r, h1, h2⟩ := bind_some h
  simp only [Option.map_eq_some'] at h2
  obtain ⟨r2, h3, e⟩ := h2
  subst e
  have q1 := correctgraylist_fix _ _ _ _ h1
  have q2 := GLoc.set_fix r.1 r.2 r.1.weak
  have q3 : GrayFix (r.2.set r.1 r.1.weak) { r.2.set r.1 r.1.weak with weak := 0 } :=
    ⟨fun _ => rfl, rfl⟩
  exact q1.gtrans (q2.gtrans (q3.gtrans (correctgraylist_fix _ _ _ _ h3)))

theorem GrayFix.flds {g g' : GState} (h : GrayFix g g') : GrayFlds g g' := by
  have r := h.rest
  have e_root := congrArg (fun s : GState => s.root) r
  have e_strhash := congrArg (fun s : GState => s.strhash) r
  have e_strmask := congrArg (fun s : GState => s.strmask) r
  have e_mmudata := congrArg (fun s : GState => s.mmudata) r
  have e_threshold := congrArg (fun s : GState => s.threshold) r
  have e_total := congrArg (fun s : GState => s.total) r
  have e_estimate := congrArg (fun s : GState => s.estimate) r
  have e_genminormul := congrArg (fun s : GState => s.genminormul) r
  have e_memw := congrArg (fun s : GState => s.memw) r
  have e_mainthread := congrArg (fun s : GState => s.mainthread) r
  have e_surival := congrArg (fun s : GState => s.surival) r
  have e_old := congrArg (fun s : GState => s.old) r
  have e_reallyold := congrArg (fun s : GState => s.reallyold) r
  have e_udatasur := congrArg (fun s : GState => s.udatasur) r
  have e_udataold := congrArg (fun s : GState => s.udataold) r
  have e_udatarold := congrArg (fun s : GState => s.udatarold) r
  have e_kind := congrArg (fun s : GState => s.kind) r
  have e_state := congrArg (fun s : GState => s.state) r
  have e_currentwhite := congrArg (fun s : GState => s.currentwhite) r
  have e_freed := congrArg (fun s : GState => s.freed) r
  exact ⟨e_root, e_strhash, e_strmask, e_mmudata, e_threshold, e_total, e_estimate, e_genminormul, e_memw, e_mainthread, e_surival, e_old, e_reallyold, e_udatasur, e_udataold, e_udatarold, e_kind, e_state, e_currentwhite, e_freed⟩

/-! ## The generational step -/

theorem genstep_young (vm : VM) (fuel : Nat) (g : GState) (L : Nat) (g1 : GState)
    (hm : ¬ genstepMajor g) (hy : youngcollection vm fuel g L = some (Res.ok g1 ())) :
    genstep vm fuel g L = some (Res.ok
      { g1 with threshold := (((g1.total % 2 ^ 32) / 100) * (100 + g1.genminormul)) % 2 ^ 32
                estimate := g.estimate % 2 ^ 32 } ()) := by
  unfold genstep
  simp only []
  rw [if_neg hm, hy]
  rfl

theorem genstep_major (vm : VM) (fuel : Nat) (g : GState) (L : Nat) (hm : genstepMajor g) :
    genstep vm fuel g L = fullgen vm fuel g L := by
  unfold genstep
  simp only []
  rw [if_pos hm]

theorem callallpendingfinalizers_none (vm : VM) (n : Nat) (g : GState) (L : Nat)
    (h : g.mmudata = 0) : callallpendingfinalizers vm n g L = some (Res.ok g ()) := by
  cases n <;> simp [callallpendingfinalizers, h]

theorem finishgencycle_none (vm : VM) (fuel : Nat) (g g6 : GState) (L : Nat)
    (hc : correctgraylists fuel g = some g6) (h : g.mmudata = 0) :
    finishgencycle vm fuel g L = some (Res.ok { g6 with state := GCSpropagate } ()) := by
  unfold finishgencycle
  rw [hc]
  exact callallpendingfinalizers_none vm fuel _ L
    ((correctgraylists_fix _ _ _ hc).flds.mmudata.trans h)

theorem entergen_eq (vm : VM) (fuel : Nat) (g : GState) (L : Nat) (g1 g2 g3 g4 g5 : GState)
    (h1 : lj_gc_runtilstate vm fuel g L GCSpause = some (Res.ok g1 ()))
    (h2 : lj_gc_runtilstate vm fuel g1 L GCSpropagate = some (Res.ok g2 ()))
    (h3 : atomic vm fuel g2 L = some g3) (h4 : sweep2old fuel g3 Loc.root = some g4)
    (h5 : sweepstringsold fuel g4 = some g5) :
    entergen vm fuel g L = finishgencycle vm fuel (entergenSeed g5) L := by
  unfold entergen
  rw [h1]
  simp only [andThen]
  rw [h2]
  simp only [andThen]
  rw [h3]
  simp only [Option.bind]
  rw [h4]
  simp only [Option.bind]
  rw [h5]

theorem genstepMajor_iff (g : GState) :
    genstepMajor g ↔ g.total > g.threshold ∧
      g.total > (((g.estimate % 2 ^ 32) / 100) * (100 + 4 * g.genmajormul)) % 2 ^ 32 := by
  unfold genstepMajor getgcparam
  rw [Nat.mul_comm g.genmajormul 4]

/-- C18: `genstep` does a major collection (`fullgen`) exactly when
`total > threshold` and `total > (majorbase/100)*(100 + 4*genmajormul)`, the
product in 32 bits; otherwise, once `youngcollection` returns, it returns
with `threshold` computed from the new `total` and with `estimate` set to
`majorbase`.  But `majorbase` is an `MSize`: it holds `estimate` modulo
`2^32`, which is the entry value only below 4 GiB.  In `exGenBig` (64-bit
`GCSize`) `estimate` is `2^32 + 500` at entry and `500` after the young
collection. -/
theorem genstep_truncates_estimate :
    (∀ g : GState, genstepMajor g ↔ g.total > g.threshold ∧
      g.total > (((g.estimate % 2 ^ 32) / 100) * (100 + 4 * g.genmajormul)) % 2 ^ 32) ∧
    (∀ (vm : VM) (fuel : Nat) (g : GState) (L : Nat), genstepMajor g →
      genstep vm fuel g L = fullgen vm fuel g L) ∧
    (∀ (vm : VM) (fuel : Nat) (g : GState) (L : Nat) (g1 : GState), ¬ genstepMajor g →
      youngcollection vm fuel g L = some (Res.ok g1 ()) →
      ∃ g', genstep vm fuel g L = some (Res.ok g' ()) ∧
        g'.estimate = g.estimate % 2 ^ 32 ∧ (g.estimate < 2 ^ 32 → g'.estimate = g.estimate) ∧
        g'.total = g1.total ∧ g'.heap = g1.heap ∧
        g'.threshold = (((g1.total % 2 ^ 32) / 100) * (100 + g1.genminormul)) % 2 ^ 32) ∧
    (∃ g', genstep exVM 5 exGenBig 1 = some (Res.ok g' ()) ∧
      exGenBig.memw = 64 ∧ exGenBig.estimate = 2 ^ 32 + 500 ∧ g'.estimate = 500) := by
  refine ⟨genstepMajor_iff, genstep_major, ?_, ⟨_, rfl, rfl, rfl, rfl⟩⟩
  intro vm fuel g L g1 hm hy
  exact ⟨_, genstep_young vm fuel g L g1 hm hy, rfl, fun h => Nat.mod_eq_of_lt h, rfl, rfl, rfl⟩

/-- C19 (amended): only `genmajormul` is decoded.  The test for a major
collection uses `100 + 4*genmajormul`; the threshold `genstep` sets after a
young collection is `(total/100)*(100 + genminormul)` and the one `entergen`
seeds is the same expression, both with `genminormul` as stored. -/
theorem gen_tunables_spec (vm : VM) (fuel : Nat) (g : GState) (L : Nat) (g1 : GState)
    (hm : ¬ genstepMajor g) (hy : youngcollection vm fuel g L = some (Res.ok g1 ())) :
    (genstepMajor g ↔ g.total > g.threshold ∧
      g.total > (((g.estimate % 2 ^ 32) / 100) * (100 + 4 * g.genmajormul)) % 2 ^ 32) ∧
    (∃ g', genstep vm fuel g L = some (Res.ok g' ()) ∧
      g'.threshold = (((g'.total % 2 ^ 32) / 100) * (100 + g'.genminormul)) % 2 ^ 32) ∧
    (∀ h : GState, (entergenSeed h).threshold
        = ((h.total / 100) * (100 + h.genminormul)) % 2 ^ h.memw ∧
      (entergenSeed h).total = h.total ∧ (entergenSeed h).genminormul = h.genminormul) ∧
    (∀ h h1 h2 h3 h4 h5 h6 : GState,
      lj_gc_runtilstate vm fuel h L GCSpause = some (Res.ok h1 ()) →
      lj_gc_runtilstate vm fuel h1 L GCSpropagate = some (Res.ok h2 ()) →
      atomic vm fuel h2 L = some h3 → sweep2old fuel h3 Loc.root = some h4 →
      sweepstringsold fuel h4 = some h5 → correctgraylists fuel (entergenSeed h5) = some h6 →
      h5.mmudata = 0 →
      ∃ g', entergen vm fuel h L = some (Res.ok g' ()) ∧
        g'.threshold = ((g'.total / 100) * (100 + g'.genminormul)) % 2 ^ g'.memw) := by
  refine ⟨genstepMajor_iff g, ⟨_, genstep_young vm fuel g L g1 hm hy, rfl⟩,
    fun h => ⟨rfl, rfl, rfl⟩, ?_⟩
  intro h h1 h2 h3 h4 h5 h6 a1 a2 a3 a4 a5 a6 a7
  refine ⟨_, (entergen_eq vm fuel h L h1 h2 h3 h4 h5 a1 a2 a3 a4 a5).trans
    (finishgencycle_none vm fuel _ h6 L a6 a7), ?_⟩
  have r := (correctgraylists_fix _ _ _ a6).flds
  show h6.threshold = ((h6.total / 100) * (100 + h6.genminormul)) % 2 ^ h6.memw
  rw [r.threshold, r.total, r.genminormul, r.memw]
  rfl

/-- Witness for `gen_tunables_spec`: the young step of `exGen`. -/
theorem gen_tunables_spec_witness :
    ¬ genstepMajor exGen ∧
    ∃ g', genstep exVM 5 exGen 1 = some (Res.ok g' ()) ∧
      g'.threshold = (((g'.total % 2 ^ 32) / 100) * (100 + g'.genminormul)) % 2 ^ 32 :=
  ⟨by decide, (gen_tunables_spec exVM 5 exGen 1 _ (by decide) rfl).2.1⟩

/-- C19, counterexample: in `exGen` the stored `genminormul` is 20 and
`total` is 1000 after the young collection; `genstep` sets `threshold` to
`10 * (100 + 20) = 1200`, not to `10 * (100 + 4 * 20) = 1800`. -/
theorem genstep_minormul_not_decoded :
    ∃ g', genstep exVM 5 exGen 1 = some (Res.ok g' ()) ∧ g'.genminormul = 20 ∧
      g'.total = 1000 ∧ g'.threshold = 1200 ∧
      g'.threshold ≠ (g'.total / 100) * (100 + 4 * g'.genminormul) :=
  ⟨_, rfl, rfl, rfl, rfl, by decide⟩

/-! ## Ages across a young collection -/

theorem AgeMono.arefl (g : GState) : AgeMono g g := fun _ h => ⟨le_refl _, h⟩

theorem AgeMono.atrans {a b c : GState} (h1 : AgeMono a b) (h2 : AgeMono b c) : AgeMono a c :=
  fun x hx => ⟨le_trans (h1 x hx).1 (h2 x (h1 x hx).2).1, (h2 x (h1 x hx).2).2⟩

theorem AgeMono.aheap {g g' : GState} (h : ∀ a, (g'.heap a).age = (g.heap a).age) :
    AgeMono g g' := fun a ha => by rw [h a]; exact ⟨le_refl _, ha⟩

theorem AgeMono.amod (g : GState) (o : Nat) (f : GCobj → GCobj)
    (hf : (f (g.heap o)).age = (g.heap o).age) : AgeMono g (g.modObj o f) := by
  refine AgeMono.aheap (fun a => ?_)
  rw [modObj_heap]
  split_ifs with h
  · subst h; exact hf
  · rfl

theorem Quiet.q_ages {g g' : GState} (h : Quiet g g') : AgeMono g g' :=
  AgeMono.aheap (fun a => by
    have e := congrArg GCobj.age (h.core a)
    exact e)

theorem GrayFix.g_ages {g g' : GState} (h : GrayFix g g') : AgeMono g g' :=
  AgeMono.aheap (fun a => by
    have e := congrArg GCobj.age (h.obj a)
    exact e)

theorem Loc.set_age (g : GState) (p : Loc) (r : Nat) : AgeMono g (p.set g r) := by
  cases p with
  | root => exact AgeMono.aheap (fun _ => rfl)
  | strhash i => exact AgeMono.aheap (fun _ => rfl)
  | nextgc o => exact AgeMono.amod g o (fun x => { x with nextgc := r }) rfl
  | openupval o => exact AgeMono.amod g o (fun x => { x with openupval := r }) rfl

theorem Anchor.aset_age (g : GState) (p : Anchor) (r : Nat) : AgeMono g (p.set g r) := by
  cases p with
  | old => exact AgeMono.aheap (fun _ => rfl)
  | udataold => exact AgeMono.aheap (fun _ => rfl)

/-- The table `nextage` never lowers an age and stays within the seven
ages. -/
theorem nextage_ge : ∀ a, a ≤ G_TOUCHED2 →
    a ≤ nextage.getD a 0 ∧ nextage.getD a 0 ≤ G_TOUCHED2 := by
  intro a ha
  have h6 : a ≤ 6 := ha
  interval_cases a <;> decide

theorem sweepgen_age : ∀ (n : Nat) (g : GState) (p : Loc) (limit : Nat) (root : Option Anchor)
    (r : GState × Loc), sweepgen n g p limit root = some r → AgeMono g r.1 := by
  intro n
  induction n with
  | zero =>
    intro g p limit root r h
    unfold sweepgen at h
    split at h
    · cases h; exact AgeMono.arefl _
    · cases h
  | succ n ih =>
    intro g p limit root r h
    unfold sweepgen at h
    simp only [] at h
    split at h
    · cases h; exact AgeMono.arefl _
    · split at h
      · cases h
      · cases hx : (if (g.heap (p.get g)).gct = GCT.thread then
            (sweepgen n g (Loc.openupval (p.get g)) 0 none).map Prod.fst else some g) with
        | none => rw [hx] at h; cases h
        | some g1 =>
          rw [hx] at h
          have h1 : AgeMono g g1 := by
            split at hx
            · cases hs : sweepgen n g (Loc.openupval (p.get g)) 0 none with
              | none => rw [hs] at hx; cases hx
              | some r1 =>
                rw [hs] at hx; cases hx
                exact ih _ _ _ _ _ hs
            · cases hx; exact AgeMono.arefl _
          refine h1.atrans ?_
          simp only [Option.bind] at h
          split at h
          · refine AgeMono.atrans ?_ (ih _ _ _ _ _ h)
            refine AgeMono.atrans ?_ (AgeMono.aheap (fun _ => rfl))
            cases root with
            | none => exact Loc.set_age g1 p _
            | some rt =>
              simp only []
              split
              · refine AgeMono.atrans ?_ (Anchor.aset_age _ rt _)
                exact Loc.set_age g1 p _
              · exact Loc.set_age g1 p _
          · refine AgeMono.atrans ?_ (ih _ _ _ _ _ h)
            have hw : AgeMono g1 (if getage (g1.heap (p.get g)) = G_NEW then
                g1.modObj (p.get g) (makewhite g1) else g1) := by
              split
              · exact AgeMono.amod g1 _ _ rfl
              · exact AgeMono.arefl _
            refine hw.atrans ?_
            generalize (if getage (g1.heap (p.get g)) = G_NEW then
                g1.modObj (p.get g) (makewhite g1) else g1) = G2
            intro a ha
            rw [modObj_heap]
            split_ifs with e
            · subst e
              exact nextage_ge _ ha
            · exact ⟨le_refl _, ha⟩

theorem markold_age : ∀ (n : Nat) (g : GState) (src dst : Nat) (g' : GState),
    markold n g src dst = some g' → AgeMono g g' := by
  intro n
  induction n with
  | zero =>
    intro g src dst g' h
    unfold markold at h
    split at h
    · cases h; exact AgeMono.arefl _
    · cases h
  | succ n ih =>
    intro g src dst g' h
    unfold markold at h
    split at h
    · cases h; exact AgeMono.arefl _
    · split at h
      · cases h
      · obtain ⟨g1, h1, h2⟩ := bind_some h
        refine AgeMono.atrans ?_ (ih _ _ _ _ h2)
        split at h1
        · exact (AgeMono.amod g src black2gray rfl).atrans (gc_mark_quiet _ _ _ _ h1).q_ages
        · cases h1; exact AgeMono.arefl _

theorem loopM_age (f : Nat → GState → Option GState)
    (hf : ∀ i g g', f i g = some g' → AgeMono g g') :
    ∀ (k i : Nat) (g g' : GState), loopM f k i g = some g' → AgeMono g g'
  | 0, _, g, g', h => by cases h; exact AgeMono.arefl g
  | k + 1, i, g, g', h => by
    unfold loopM at h
    obtain ⟨g1, h1, h2⟩ := bind_some h
    exact (hf i g g1 h1).atrans (loopM_age f hf k (i + 1) g1 g' h2)

theorem atomic_age (vm : VM) (hvm : VMBufQuiet vm) (fuel : Nat) (g : GState) (L : Nat)
    (g' : GState) (h : atomic vm fuel g L = some g') : AgeMono g g' := by
  unfold atomic at h
  simp only [Option.map_eq_some'] at h
  obtain ⟨r, h1, e⟩ := h
  subst e
  exact (atomicMark_quiet vm hvm fuel g L r h1).q_ages.atrans (AgeMono.aheap (fun _ => rfl))

theorem modObj_age (g : GState) (o : Nat) (f : GCobj → GCobj) (a : Nat)
    (hf : ∀ x, (f x).age = x.age) : ((g.modObj o f).heap a).age = (g.heap a).age := by
  rw [modObj_heap]
  split_ifs with h
  · subst h; exact hf _
  · rfl

theorem AgeMono.a_of_heap {g g1 g' : GState} (h : AgeMono g g1) (e : g'.heap = g1.heap) :
    AgeMono g g' := fun a ha => by rw [e]; exact h a ha

theorem youngSweep_age (fuel : Nat) (g g' : GState) (h : youngSweep fuel g = some g') :
    AgeMono g g' := by
  unfold youngSweep at h
  obtain ⟨r1, h1, h⟩ := bind_some h
  obtain ⟨r2, h2, h⟩ := bind_some h
  simp only [] at h
  obtain ⟨g3, h3, h⟩ := bind_some h
  obtain ⟨r4, h4, h⟩ := bind_some h
  obtain ⟨r5, h5, h⟩ := bind_some h
  cases h
  have q1 := sweepgen_age _ _ _ _ _ _ h1
  have q2 := sweepgen_age _ _ _ _ _ _ h2
  have q3 := loopM_age _
    (fun i a b hab => by
      simp only [Option.map_eq_some'] at hab
      obtain ⟨r, hr, e⟩ := hab
      subst e
      exact sweepgen_age _ _ _ _ _ _ hr) _ _ _ _ h3
  have q4 := sweepgen_age _ _ _ _ _ _ h4
  have q5 := sweepgen_age _ _ _ _ _ _ h5
  have e1 : AgeMono r2.1 g3 := by
    refine AgeMono.atrans ?_ q3
    exact AgeMono.aheap (fun _ => rfl)
  exact (q1.atrans (q2.atrans (e1.atrans (q4.atrans q5)))).a_of_heap rfl

theorem AgeMono.asnoc {g g1 : GState} (o : Nat) (f : GCobj → GCobj)
    (hf : (f (g1.heap o)).age = (g1.heap o).age) (h : AgeMono g g1) :
    AgeMono g (g1.modObj o f) := h.atrans (AgeMono.amod g1 o f hf)

theorem gc_call_finalizer_age (vm : VM) (hvm : VMKeepsAge vm) (g : GState) (L : Nat)
    (mo : TValue) (o : Nat) : AgeMono g (gc_call_finalizer vm g L mo o).1 := by
  unfold gc_call_finalizer
  simp only []
  refine AgeMono.a_of_heap (AgeMono.atrans ?_ (hvm.2.1 _ _ _)) rfl
  refine AgeMono.asnoc _ _ rfl ?_
  refine AgeMono.asnoc _ _ rfl ?_
  have h0 : AgeMono g { vm.lj_trace_abort g with
      hookmask := vm.hook_entergc (vm.lj_trace_abort g).hookmask, threshold := vm.LJ_MAX_MEM } :=
    (hvm.1 g).a_of_heap rfl
  split
  · refine AgeMono.asnoc _ _ rfl ?_
    refine AgeMono.asnoc _ _ rfl ?_
    exact h0
  · refine AgeMono.asnoc _ _ rfl ?_
    exact h0

theorem finalizeUnlink_age (g : GState) : AgeMono g (finalizeUnlink g) := by
  unfold finalizeUnlink
  simp only []
  split
  · exact AgeMono.aheap (fun _ => rfl)
  · exact AgeMono.amod g _ _ rfl

theorem finalizeRelink_age (g : GState) (o : Nat) : AgeMono g (finalizeRelink g o) := by
  unfold finalizeRelink
  dsimp only
  refine AgeMono.asnoc _ _ rfl ?_
  refine AgeMono.asnoc _ _ rfl ?_
  exact AgeMono.amod g o _ rfl

theorem finalizeRelinkCdata_age (g : GState) (o : Nat) :
    AgeMono g (finalizeRelinkCdata g o) := by
  unfold finalizeRelinkCdata
  dsimp only
  refine AgeMono.asnoc _ _ rfl ?_
  refine AgeMono.asnoc _ _ rfl ?_
  refine AgeMono.a_of_heap ?_ rfl
  exact AgeMono.amod g o (fun x => { x with nextgc := g.root }) rfl

theorem finalizeCdataCall_age (vm : VM) (hvm : VMKeepsAge vm) (g : GState) (L o : Nat) :
    AgeMono g (finalizeCdataCall vm g L o).1 := by
  unfold finalizeCdataCall
  simp only []
  split
  · split
    · refine AgeMono.atrans ?_ (gc_call_finalizer_age vm hvm _ _ _ _)
      refine AgeMono.asnoc _ _ rfl ?_
      exact AgeMono.aheap (fun _ => rfl)
    · exact AgeMono.arefl g
  · exact AgeMono.arefl g

theorem gc_finalize_age (vm : VM) (hvm : VMKeepsAge vm) (g : GState) (L : Nat) :
    AgeMono g (gc_finalize vm g L).1 := by
  rw [gc_finalize_eq]
  split
  · exact (finalizeUnlink_age g).atrans ((finalizeRelinkCdata_age _ _).atrans
      (finalizeCdataCall_age vm hvm _ _ _))
  · have hp : AgeMono g (finalizePre g) :=
      (finalizeUnlink_age g).atrans (finalizeRelink_age _ _)
    split
    · exact hp.atrans (gc_call_finalizer_age vm hvm _ _ _ _)
    · exact hp

theorem callallpendingfinalizers_age (vm : VM) (hvm : VMKeepsAge vm) :
    ∀ (n : Nat) (g : GState) (L : Nat) (g' : GState),
    callallpendingfinalizers vm n g L = some (Res.ok g' ()) → AgeMono g g'
  | 0, g, L, g', h => by
    unfold callallpendingfinalizers at h
    split at h
    · cases h; exact AgeMono.arefl g
    · cases h
  | n + 1, g, L, g', h => by
    unfold callallpendingfinalizers at h
    split at h
    · cases h; exact AgeMono.arefl g
    · have ha := gc_finalize_age vm hvm g L
      generalize gc_finalize vm g L = r at h ha
      obtain ⟨g1, e⟩ := r
      cases e with
      | some e => cases h
      | none => exact ha.atrans (callallpendingfinalizers_age vm hvm n g1 L g' h)

theorem finishgencycle_age (vm : VM) (hvm : VMKeepsAge vm) (fuel : Nat) (g : GState) (L : Nat)
    (g' : GState) (h : finishgencycle vm fuel g L = some (Res.ok g' ())) : AgeMono g g' := by
  unfold finishgencycle at h
  obtain ⟨g1, h1, h2⟩ := bind_some h
  refine (correctgraylists_fix _ _ _ h1).g_ages.atrans ?_
  refine AgeMono.atrans ?_ (callallpendingfinalizers_age vm hvm _ _ _ _ h2)
  exact AgeMono.aheap (fun _ => rfl)

theorem youngcollection_age (vm : VM) (hvm : VMKeepsAge vm) (fuel : Nat) (g : GState) (L : Nat)
    (g' : GState) (h : youngcollection vm fuel g L = some (Res.ok g' ())) : AgeMono g g' := by
  unfold youngcollection at h
  obtain ⟨g1, h1, h⟩ := bind_some h
  obtain ⟨g2, h2, h⟩ := bind_some h
  obtain ⟨g3, h3, h⟩ := bind_some h
  obtain ⟨g4, h4, h⟩ := bind_some h
  obtain ⟨g5, h5, h⟩ := bind_some h
  have q1 := markold_age _ _ _ _ _ h1
  have q2 := markold_age _ _ _ _ _ h2
  have q3 := loopM_age _ (fun i a b hab => markold_age _ _ _ _ _ hab) _ _ _ _ h3
  have q4 := atomic_age vm hvm.2.2 _ _ _ _ h4
  have q5 := youngSweep_age _ _ _ h5
  have q6 := finishgencycle_age vm hvm _ _ _ _ h
  exact q1.atrans (q2.atrans (q3.atrans (q4.atrans (q5.atrans q6))))

/-- C20 (as amended): when `youngcollection` returns (finalizers,
`lj_trace_abort` and
`lj_buf_shrink` not lowering ages), every object that had one of the seven
ages has afterwards an age that is numerically greater or equal, in the order
`NEW < SURVIVAL < OLD0 < OLD1 < OLD < TOUCHED1 < TOUCHED2`, and an object that
was old is still old.  The table `nextage` never lowers an age, and three
applications of it lead every age to a fixed point. -/
theorem young_ages_monotone (vm : VM) (hvm : VMKeepsAge vm) (fuel : Nat) (g : GState) (L : Nat)
    (g' : GState) (h : youngcollection vm fuel g L = some (Res.ok g' ())) :
    (∀ a, (g.heap a).age ≤ G_TOUCHED2 →
      (g.heap a).age ≤ (g'.heap a).age ∧ (g'.heap a).age ≤ G_TOUCHED2 ∧
      (isold (g.heap a) → isold (g'.heap a))) ∧
    (G_NEW < G_SURVIVAL ∧ G_SURVIVAL < G_OLD0 ∧ G_OLD0 < G_OLD1 ∧ G_OLD1 < G_OLD ∧
      G_OLD < G_TOUCHED1 ∧ G_TOUCHED1 < G_TOUCHED2) ∧
    (∀ a, a ≤ G_TOUCHED2 → a ≤ nextage.getD a 0 ∧ nextage.getD a 0 ≤ G_TOUCHED2) ∧
    (∀ a, a ≤ G_TOUCHED2 →
      nextage.getD (nextage.getD (nextage.getD (nextage.getD a 0) 0) 0) 0
        = nextage.getD (nextage.getD (nextage.getD a 0) 0) 0) := by
  have hm := youngcollection_age vm hvm fuel g L g' h
  refine ⟨fun a ha => ⟨(hm a ha).1, (hm a ha).2, fun ho => ?_⟩, by decide, nextage_ge, ?_⟩
  · unfold isold getage at ho ⊢
    exact lt_of_lt_of_le ho (hm a ha).1
  · intro a ha
    have h6 : a ≤ 6 := ha
    interval_cases a <;> decide

/-- Witness for `young_ages_monotone`: in `exYoung` the new table survives
and becomes `G_SURVIVAL`, the main thread stays `G_OLD`. -/
theorem young_ages_monotone_witness :
    ∃ g', youngcollection exVM 5 exYoung 1 = some (Res.ok g' ()) ∧
      (exYoung.heap 2).age = G_NEW ∧ (g'.heap 2).age = G_SURVIVAL ∧
      (exYoung.heap 2).age ≤ (g'.heap 2).age ∧ (g'.heap 1).age = G_OLD :=
  ⟨_, rfl, rfl, rfl,
    ((young_ages_monotone exVM
      ⟨fun g => AgeMono.arefl g, fun g _ _ => AgeMono.aheap (fun _ => rfl),
        fun g _ => Quiet.qrefl g⟩ 5 exYoung 1 _ rfl).1 2 (by decide)).1, rfl⟩

/-! ## The sweep into generational mode -/

theorem footprint_nil : ∀ (l : List Nat), footprint (fun _ => []) l = l
  | [] => rfl
  | x :: xs => by
    show [] ++ x :: footprint (fun _ => []) xs = x :: xs
    rw [footprint_nil xs]; rfl

theorem oldDead_congr {g g' : GState} {x : Nat}
    (h : (g'.heap x).marked = (g.heap x).marked) : oldDead g' x ↔ oldDead g x := by
  unfold oldDead iswhite isfixed; rw [h]

theorem shapeO_marked {x y : GCobj} (h : shapeO x = shapeO y) :
    x.marked = y.marked ∧ x.gct = y.gct := by
  have e1 := congrArg GCobj.marked h
  have e2 := congrArg GCobj.gct h
  exact ⟨e1, e2⟩

theorem OldPost.nil (g : GState) (p : Loc) (U : Nat → List Nat) (h0 : p.get g = 0) :
    OldPost g p U [] g :=
  { chain := h0
    upchain := fun t ht => by simp at ht
    frame := fun _ _ _ => rfl
    owner := fun q hq => (Loc.put_get_self g p q hq).symm
    shape := fun _ => rfl
    old := fun v hv => by simp [footprint] at hv
    same := fun _ _ => rfl
    freed := by simp [footprint]
    root := fun _ => rfl
    strhash := fun _ _ => rfl
    rest := rfl }

theorem Loc.set_restOld (g : GState) (p : Loc) (r : Nat) : (p.set g r).restOld = g.restOld := by
  cases p <;> rfl

theorem Loc.set_strhash_ne (g : GState) (p : Loc) (r j : Nat) (h : p ≠ Loc.strhash j) :
    (p.set g r).strhash j = g.strhash j := by
  cases p with
  | root => rfl
  | strhash i =>
    show (if j = i then r else g.strhash j) = g.strhash j
    rw [if_neg (fun e => h (by rw [e]))]
  | nextgc o => rfl
  | openupval o => rfl

theorem Loc.set_shapeO (g : GState) (p : Loc) (r a : Nat) :
    shapeO ((p.set g r).heap a) = shapeO (g.heap a) := by
  cases p with
  | root => rfl
  | strhash i => rfl
  | nextgc o =>
    unfold Loc.set; rw [modObj_heap]; split
    · next e => subst e; rfl
    · rfl
  | openupval o =>
    unfold Loc.set; rw [modObj_heap]; split
    · next e => subst e; rfl
    · rfl

theorem filter_dead_congr {g g' : GState} {l : List Nat}
    (h : ∀ y ∈ l, (g'.heap y).marked = (g.heap y).marked) :
    l.filter (fun y => decide (oldDead g' y)) = l.filter (fun y => decide (oldDead g y)) ∧
    l.filter (fun y => decide (¬ oldDead g' y)) = l.filter (fun y => decide (¬ oldDead g y)) := by
  constructor <;>
  · refine List.filter_congr (fun y hy => ?_)
    have : oldDead g' y ↔ oldDead g y := oldDead_congr (h y hy)
    simp only [this]

theorem OldPost.inner {g g1 : GState} {x : Nat} {U : Nat → List Nat}
    (post : OldPost g (Loc.openupval x) (fun _ => []) (U x) g1) : OldInner g x U g1 :=
  { frame := fun a ha hax => post.frame a (by rw [footprint_nil]; exact ha)
      (fun q hq => by injection hq with hq; subst hq; exact hax)
    self := post.owner x rfl
    shape := post.shape
    old := fun v hv hd => post.old v (by rw [footprint_nil]; exact hv) hd
    same := fun v hv => post.same v (by rw [footprint_nil]; exact hv)
    freed := by rw [post.freed, footprint_nil]
    root := post.root (by simp)
    strhash := funext (fun j => post.strhash j (by simp))
    rest := post.rest
    up := fun _ => post.chain }

theorem OldInner.none (g : GState) (x : Nat) (U : Nat → List Nat)
    (ht : (g.heap x).gct ≠ GCT.thread) (hU : U x = []) : OldInner g x U g :=
  { frame := fun _ _ _ => rfl
    self := rfl
    shape := fun _ => rfl
    old := fun v hv => by rw [hU] at hv; simp at hv
    same := fun _ _ => rfl
    freed := by rw [hU]; rfl
    root := rfl
    strhash := rfl
    rest := rfl
    up := fun h => absurd h ht }

theorem OldInner.marked {g g1 : GState} {x : Nat} {U : Nat → List Nat}
    (h : OldInner g x U g1) (a : Nat) :
    (g1.heap a).marked = (g.heap a).marked ∧ (g1.heap a).gct = (g.heap a).gct :=
  shapeO_marked (h.shape a)

theorem OldInner.nextgc {g g1 : GState} {x : Nat} {U : Nat → List Nat}
    (h : OldInner g x U g1) : (g1.heap x).nextgc = (g.heap x).nextgc := by
  rw [h.self]

theorem Loc.set_age_eq (g : GState) (p : Loc) (r a : Nat) :
    ((p.set g r).heap a).age = (g.heap a).age := by
  cases p with
  | root => rfl
  | strhash i => rfl
  | nextgc o =>
    unfold Loc.set; rw [modObj_heap]; split
    · next e => subst e; rfl
    · rfl
  | openupval o =>
    unfold Loc.set; rw [modObj_heap]; split
    · next e => subst e; rfl
    · rfl

/-- The freeing branch of `sweep2old`, followed by the sweep of the rest. -/
theorem OldPost.cons_dead {g g1 g' : GState} {p : Loc} {U : Nat → List Nat} {x : Nat}
    {rest : List Nat} (inner : OldInner g x U g1) (hd : oldDead g x)
    (post : OldPost (gc_free (p.set g1 (g1.heap x).nextgc) x) p U rest g')
    (hxr : x ∉ footprint U rest) (hUr : ∀ u ∈ U x, u ∉ footprint U rest)
    (hq : ∀ q, p.owner = some q → q ∉ U x ∧ q ≠ x ∧ q ∉ footprint U rest) :
    OldPost g p U (x :: rest) g' := by
  have h2 : ∀ a, (∀ q, p.owner = some q → a ≠ q) →
      (gc_free (p.set g1 (g1.heap x).nextgc) x).heap a = g1.heap a :=
    fun a ha => Loc.set_heap_ne g1 p _ a ha
  have hm2 : ∀ a, ((gc_free (p.set g1 (g1.heap x).nextgc) x).heap a).marked
      = (g.heap a).marked ∧
      ((gc_free (p.set g1 (g1.heap x).nextgc) x).heap a).gct = (g.heap a).gct := fun a =>
    ⟨(Loc.set_marked g1 p _ a).1.trans (inner.marked a).1,
      (Loc.set_marked g1 p _ a).2.trans (inner.marked a).2⟩
  have ha2 : ∀ a, ((gc_free (p.set g1 (g1.heap x).nextgc) x).heap a).age = (g1.heap a).age :=
    fun a => Loc.set_age_eq g1 p _ a
  have hxq : ∀ q, p.owner = some q → x ≠ q := fun q h e => (hq q h).2.1 e.symm
  have hUq : ∀ u ∈ U x, ∀ q, p.owner = some q → u ≠ q := fun u hu q h e =>
    (hq q h).1 (e ▸ hu)
  have hfp : footprint U (x :: rest) = U x ++ x :: footprint U rest := rfl
  refine
    { chain := ?_, upchain := ?_, frame := ?_, owner := ?_, shape := ?_, old := ?_, same := ?_
      freed := ?_, root := ?_, strhash := ?_
      rest := post.rest.trans ((Loc.set_restOld g1 p _).trans inner.rest) }
  · rw [List.filter_cons_of_neg (by simpa using hd),
      ← (filter_dead_congr (fun y _ => (hm2 y).1)).2]
    exact post.chain
  · intro t ht hth
    rcases List.mem_cons.mp ht with e | ht
    · subst e
      have hc := inner.up hth
      have e1 : g'.heap t = g1.heap t := (post.frame t hxr hxq).trans (h2 t hxq)
      rw [e1]
      refine Chain.congr (fun u hu => ?_) hc
      have huU : u ∈ U t := List.mem_of_mem_filter hu
      rw [post.frame u (hUr u huU) (hUq u huU), h2 u (hUq u huU)]
    · have := post.upchain t ht (by rw [(hm2 t).2]; exact hth)
      rw [(filter_dead_congr (fun y _ => (hm2 y).1)).2] at this
      exact this
  · intro a ha haq
    rw [hfp] at ha
    have h1 : a ∉ U x := fun h => ha (List.mem_append_left _ h)
    have h3 : a ≠ x := fun e => ha (List.mem_append_right _ (e ▸ List.mem_cons_self _ _))
    have h4 : a ∉ footprint U rest := fun h =>
      ha (List.mem_append_right _ (List.mem_cons_of_mem _ h))
    rw [post.frame a h4 haq, h2 a haq, inner.frame a h1 h3]
  · intro q hqo
    rw [post.owner q hqo]
    have e : (gc_free (p.set g1 (g1.heap x).nextgc) x).heap q
        = p.put (g1.heap q) (g1.heap x).nextgc := Loc.set_owner g1 p q _ hqo
    rw [e, inner.frame q (hq q hqo).1 (hq q hqo).2.1, Loc.put_put]
  · intro a
    exact (post.shape a).trans ((Loc.set_shapeO g1 p _ a).trans (inner.shape a))
  · intro v hv hdv
    rw [hfp] at hv
    rcases List.mem_append.mp hv with hv | hv
    · rw [post.same v (Or.inl (hUr v hv)), ha2 v]
      exact inner.old v hv hdv
    · rcases List.mem_cons.mp hv with e | hv
      · subst e; exact absurd hd hdv
      · exact post.old v hv (fun h => hdv ((oldDead_congr (hm2 v).1).mp h))
  · intro v hv
    by_cases hvr : v ∈ footprint U rest
    · have hdv : oldDead g v := by
        rcases hv with hv | hv
        · exact absurd (by rw [hfp]; exact List.mem_append_right _ (List.mem_cons_of_mem _ hvr)) hv
        · exact hv
      rw [post.same v (Or.inr ((oldDead_congr (hm2 v).1).mpr hdv)), ha2 v]
      exact inner.same v (Or.inr hdv)
    · rw [post.same v (Or.inl hvr), ha2 v]
      refine inner.same v ?_
      rcases hv with hv | hv
      · exact Or.inl (fun h => hv (by rw [hfp]; exact List.mem_append_left _ h))
      · exact Or.inr hv
  · rw [post.freed, (filter_dead_congr (fun y _ => (hm2 y).1)).1, hfp, List.filter_append,
      List.filter_cons_of_pos (by simpa using hd), List.reverse_append, List.reverse_cons]
    have e : (gc_free (p.set g1 (g1.heap x).nextgc) x).freed = x :: g1.freed := by
      show x :: (p.set g1 (g1.heap x).nextgc).freed = _
      rw [(Loc.set_fields g1 p _).2.1]
    rw [e, inner.freed]
    simp
  · intro hp
    rw [post.root hp]
    show (p.set g1 _).root = _
    rw [(Loc.set_fields g1 p _).2.2.1 hp, inner.root]
  · intro j hp
    rw [post.strhash j hp]
    show (p.set g1 _).strhash j = _
    rw [Loc.set_strhash_ne g1 p _ j hp, inner.strhash]

/-- The keeping branch of `sweep2old`, followed by the sweep of the rest. -/
theorem OldPost.cons_kept {g g1 g' : GState} {p : Loc} {U : Nat → List Nat} {x : Nat}
    {rest : List Nat} (hx : p.get g = x) (hx0 : x ≠ 0)
    (inner : OldInner g x U g1) (hk : ¬ oldDead g x)
    (post : OldPost (g1.modObj x (fun o => setage o G_OLD)) (Loc.nextgc x) U rest g')
    (hxr : x ∉ footprint U rest) (hUr : ∀ u ∈ U x, u ∉ footprint U rest) (hxU : x ∉ U x)
    (hq : ∀ q, p.owner = some q → q ∉ U x ∧ q ≠ x ∧ q ∉ footprint U rest) :
    OldPost g p U (x :: rest) g' := by
  have h2 : ∀ a, a ≠ x → (g1.modObj x (fun o => setage o G_OLD)).heap a = g1.heap a :=
    fun a ha => modObj_heap_ne _ _ _ _ ha
  have hs2 : ∀ a, shapeO ((g1.modObj x (fun o => setage o G_OLD)).heap a)
      = shapeO (g1.heap a) := fun a => by
    rw [modObj_heap]; split
    · next e => subst e; rfl
    · rfl
  have hm2 : ∀ a, ((g1.modObj x (fun o => setage o G_OLD)).heap a).marked = (g.heap a).marked ∧
      ((g1.modObj x (fun o => setage o G_OLD)).heap a).gct = (g.heap a).gct := fun a =>
    shapeO_marked ((hs2 a).trans (inner.shape a))
  have hpx : ∀ q, (Loc.nextgc x).owner = some q → q = x := fun q h => by
    injection h with h; exact h.symm
  have hfp : footprint U (x :: rest) = U x ++ x :: footprint U rest := rfl
  have hqq : ∀ q, p.owner = some q → g'.heap q = g.heap q := fun q hqo => by
    rw [post.frame q (hq q hqo).2.2 (fun q' h' => by rw [hpx q' h']; exact (hq q hqo).2.1),
      h2 q (hq q hqo).2.1, inner.frame q (hq q hqo).1 (hq q hqo).2.1]
  have hroot : g'.root = g.root := (post.root (by simp)).trans inner.root
  have hstr : g'.strhash = g.strhash :=
    (funext (fun j => post.strhash j (by simp))).trans inner.strhash
  have hget : p.get g' = p.get g := Loc.get_congr g g' p hqq (fun _ => hroot) (Or.inr hstr)
  have hself : g'.heap x = { (g1.modObj x (fun o => setage o G_OLD)).heap x with
      nextgc := (g'.heap x).nextgc } := post.owner x rfl
  refine
    { chain := ?_, upchain := ?_, frame := ?_, owner := ?_, shape := ?_, old := ?_, same := ?_
      freed := ?_, root := fun _ => hroot, strhash := fun j _ => congrFun hstr j
      rest := post.rest.trans inner.rest }
  · rw [List.filter_cons_of_pos (by simpa using hk)]
    refine ⟨hget.trans hx, hx0, ?_⟩
    rw [← (filter_dead_congr (fun y _ => (hm2 y).1)).2]
    exact post.chain
  · intro t ht hth
    rcases List.mem_cons.mp ht with e | ht
    · subst e
      have hc := inner.up hth
      have e1 : (g'.heap t).openupval = (g1.heap t).openupval := by
        rw [hself, modObj_heap_same]; rfl
      rw [e1]
      refine Chain.congr (fun u hu => ?_) hc
      have huU : u ∈ U t := List.mem_of_mem_filter hu
      have hut : u ≠ t := fun e => hxU (e ▸ huU)
      rw [post.frame u (hUr u huU) (fun q' h' => by rw [hpx q' h']; exact hut), h2 u hut]
    · have := post.upchain t ht (by rw [(hm2 t).2]; exact hth)
      rw [(filter_dead_congr (fun y _ => (hm2 y).1)).2] at this
      exact this
  · intro a ha haq
    rw [hfp] at ha
    have h1 : a ∉ U x := fun h => ha (List.mem_append_left _ h)
    have h3 : a ≠ x := fun e => ha (List.mem_append_right _ (e ▸ List.mem_cons_self _ _))
    have h4 : a ∉ footprint U rest := fun h =>
      ha (List.mem_append_right _ (List.mem_cons_of_mem _ h))
    rw [post.frame a h4 (fun q' h' => by rw [hpx q' h']; exact h3), h2 a h3,
      inner.frame a h1 h3]
  · intro q hqo
    rw [hqq q hqo, hget]
    exact (Loc.put_get_self g p q hqo).symm
  · intro a
    exact (post.shape a).trans ((hs2 a).trans (inner.shape a))
  · intro v hv hdv
    rw [hfp] at hv
    rcases List.mem_append.mp hv with hv | hv
    · have hvx : v ≠ x := fun e => hxU (e ▸ hv)
      rw [post.same v (Or.inl (hUr v hv)), h2 v hvx]
      exact inner.old v hv hdv
    · rcases List.mem_cons.mp hv with e | hv
      · subst e
        rw [hself, modObj_heap_same]; rfl
      · exact post.old v hv (fun h => hdv ((oldDead_congr (hm2 v).1).mp h))
  · intro v hv
    have hvx : v ≠ x := by
      rcases hv with hv | hv
      · exact fun e => hv (by rw [hfp, e]; exact List.mem_append_right _ (List.mem_cons_self _ _))
      · exact fun e => hk (e ▸ hv)
    by_cases hvr : v ∈ footprint U rest
    · have hdv : oldDead g v := by
        rcases hv with hv | hv
        · exact absurd (by rw [hfp]; exact List.mem_append_right _ (List.mem_cons_of_mem _ hvr)) hv
        · exact hv
      rw [post.same v (Or.inr ((oldDead_congr (hm2 v).1).mpr hdv)), h2 v hvx]
      exact inner.same v (Or.inr hdv)
    · rw [post.same v (Or.inl hvr), h2 v hvx]
      refine inner.same v ?_
      rcases hv with hv | hv
      · exact Or.inl (fun h => hv (by rw [hfp]; exact List.mem_append_left _ h))
      · exact Or.inr hv
  · rw [post.freed, (filter_dead_congr (fun y _ => (hm2 y).1)).1, hfp, List.filter_append,
      List.filter_cons_of_neg (by simpa using hk), List.reverse_append]
    have e : (g1.modObj x (fun o => setage o G_OLD)).freed = g1.freed := rfl
    rw [e, inner.freed]
    simp

/-- The function `sweep2old` on a list whose threads have the open-upvalue
lists `U`: with fuel for the footprint it returns, and leaves the state
described by `OldPost`. -/
theorem sweep2old_post : ∀ (n : Nat) (U : Nat → List Nat) (xs : List Nat) (g : GState) (p : Loc),
    Chain g (p.get g) xs →
    (∀ x ∈ xs, (g.heap x).gct = GCT.thread → Chain g (g.heap x).openupval (U x)) →
    (∀ x ∈ xs, (g.heap x).gct ≠ GCT.thread → U x = []) →
    (∀ x ∈ xs, ∀ u ∈ U x, (g.heap u).gct ≠ GCT.thread) →
    (footprint U xs).Nodup → (∀ q, p.owner = some q → q ∉ footprint U xs) →
    (footprint U xs).length ≤ n →
    ∃ g', sweep2old n g p = some g' ∧ OldPost g p U xs g' := by
  intro n
  induction n with
  | zero =>
    intro U xs g p hc _ _ _ _ _ hl
    cases xs with
    | nil =>
      have h0 : p.get g = 0 := hc
      exact ⟨g, by simp [sweep2old, h0], OldPost.nil g p U h0⟩
    | cons x rest => simp [footprint] at hl
  | succ n ih =>
    intro U xs g p hc hUch hUnt hUth hnd hown hl
    cases xs with
    | nil =>
      have h0 : p.get g = 0 := hc
      exact ⟨g, by simp [sweep2old, h0], OldPost.nil g p U h0⟩
    | cons x rest =>
      obtain ⟨hx, hx0, hrest⟩ := hc
      have hfp : footprint U (x :: rest) = U x ++ x :: footprint U rest := rfl
      rw [hfp] at hnd hl hown
      have hndU : (U x).Nodup := (List.nodup_append.mp hnd).1
      have hnd2 : (x :: footprint U rest).Nodup := (List.nodup_append.mp hnd).2.1
      have hdisj := (List.nodup_append.mp hnd).2.2
      have hxU : x ∉ U x := fun h => hdisj h (List.mem_cons_self _ _)
      have hxr : x ∉ footprint U rest := (List.nodup_cons.mp hnd2).1
      have hndr : (footprint U rest).Nodup := (List.nodup_cons.mp hnd2).2
      have hUr : ∀ u ∈ U x, u ∉ footprint U rest := fun u hu h =>
        hdisj hu (List.mem_cons_of_mem _ h)
      have hq : ∀ q, p.owner = some q → q ∉ U x ∧ q ≠ x ∧ q ∉ footprint U rest :=
        fun q hqo => ⟨fun h => hown q hqo (List.mem_append_left _ h),
          fun e => hown q hqo (List.mem_append_right _ (e ▸ List.mem_cons_self _ _)),
          fun h => hown q hqo (List.mem_append_right _ (List.mem_cons_of_mem _ h))⟩
      have hlU : (U x).length ≤ n := by
        simp only [List.length_append, List.length_cons] at hl; omega
      have hlr : (footprint U rest).length ≤ n := by
        simp only [List.length_append, List.length_cons] at hl; omega
      have hxm : x ∈ x :: rest := List.mem_cons_self _ _
      -- the open upvalues
      have hin : ∃ g1, (if (g.heap x).gct = GCT.thread then sweep2old n g (Loc.openupval x)
          else some g) = some g1 ∧ OldInner g x U g1 := by
        by_cases ht : (g.heap x).gct = GCT.thread
        · rw [if_pos ht]
          obtain ⟨g1, hrun, post⟩ := ih (fun _ => []) (U x) g (Loc.openupval x) (hUch x hxm ht)
            (fun u hu hth => absurd hth (hUth x hxm u hu)) (fun _ _ _ => rfl)
            (fun _ _ u hu => by simp at hu) (by rw [footprint_nil]; exact hndU)
            (fun q hqo => by
              injection hqo with hqo; subst hqo; rw [footprint_nil]; exact hxU)
            (by rw [footprint_nil]; exact hlU)
          exact ⟨g1, hrun, post.inner⟩
        · rw [if_neg ht]
          exact ⟨g, rfl, OldInner.none g x U ht (hUnt x hxm ht)⟩
      obtain ⟨g1, hrun1, inner⟩ := hin
      have hd1 : (iswhite (g1.heap x) ∧ ¬ isfixed (g1.heap x)) ↔ oldDead g x :=
        oldDead_congr (inner.marked x).1
      have hfoot1 : ∀ a ∈ footprint U rest, g1.heap a = g.heap a := fun a ha =>
        inner.frame a (fun h => hUr a h ha) (fun (e : a = x) => hxr (e ▸ ha))
      by_cases hd : oldDead g x
      · -- freed
        have hfoot2 : ∀ a ∈ footprint U rest,
            (gc_free (p.set g1 (g1.heap x).nextgc) x).heap a = g.heap a := fun a ha => by
          have e : (gc_free (p.set g1 (g1.heap x).nextgc) x).heap a = g1.heap a :=
            Loc.set_heap_ne g1 p _ a (fun q hqo (e : a = q) => (hq q hqo).2.2 (e ▸ ha))
          rw [e, hfoot1 a ha]
        obtain ⟨h1, h2, h3⟩ := sweepHyps_congr hfoot2
          (fun y hy => hUch y (List.mem_cons_of_mem _ hy))
          (fun y hy => hUnt y (List.mem_cons_of_mem _ hy))
          (fun y hy => hUth y (List.mem_cons_of_mem _ hy))
        have hc2 : Chain (gc_free (p.set g1 (g1.heap x).nextgc) x)
            (p.get (gc_free (p.set g1 (g1.heap x).nextgc) x)) rest := by
          have e : p.get (gc_free (p.set g1 (g1.heap x).nextgc) x) = (g.heap x).nextgc := by
            have e0 : p.get (gc_free (p.set g1 (g1.heap x).nextgc) x)
                = p.get (p.set g1 (g1.heap x).nextgc) := by cases p <;> rfl
            rw [e0, Loc.get_set, inner.nextgc]
          rw [e]
          exact Chain.congr (fun y hy => by rw [hfoot2 y (mem_footprint_self U hy)]) hrest
        obtain ⟨g', hrun2, post⟩ := ih U rest _ p hc2 h1 h2 h3 hndr
          (fun q hqo => (hq q hqo).2.2) hlr
        refine ⟨g', ?_, OldPost.cons_dead inner hd post hxr hUr hq⟩
        rw [sweep2old]
        simp only [hx, hx0, if_false]
        rw [hrun1]
        simp only [Option.some_bind]
        rw [if_pos (hd1.mpr hd)]
        exact hrun2
      · -- kept
        have hfoot2 : ∀ a ∈ footprint U rest,
            (g1.modObj x (fun o => setage o G_OLD)).heap a = g.heap a := fun a ha => by
          rw [modObj_heap_ne _ _ _ _ (fun (e : a = x) => hxr (e ▸ ha)), hfoot1 a ha]
        obtain ⟨h1, h2, h3⟩ := sweepHyps_congr hfoot2
          (fun y hy => hUch y (List.mem_cons_of_mem _ hy))
          (fun y hy => hUnt y (List.mem_cons_of_mem _ hy))
          (fun y hy => hUth y (List.mem_cons_of_mem _ hy))
        have hc2 : Chain (g1.modObj x (fun o => setage o G_OLD))
            ((Loc.nextgc x).get (g1.modObj x (fun o => setage o G_OLD))) rest := by
          have e : (Loc.nextgc x).get (g1.modObj x (fun o => setage o G_OLD))
              = (g.heap x).nextgc := by
            show ((g1.modObj x (fun o => setage o G_OLD)).heap x).nextgc = _
            rw [modObj_heap_same]
            exact inner.nextgc
          rw [e]
          exact Chain.congr (fun y hy => by rw [hfoot2 y (mem_footprint_self U hy)]) hrest
        obtain ⟨g', hrun2, post⟩ := ih U rest _ (Loc.nextgc x) hc2 h1 h2 h3 hndr
          (fun q hqo => by injection hqo with hqo; subst hqo; exact hxr) hlr
        refine ⟨g', ?_, OldPost.cons_kept hx hx0 inner hd post hxr hUr hxU hq⟩
        rw [sweep2old]
        simp only [hx, hx0, if_false]
        rw [hrun1]
        simp only [Option.some_bind]
        rw [if_neg (fun h => hd (hd1.mp h))]
        exact hrun2

theorem nodup_flatten_range {S : Nat → List Nat} : ∀ (k i : Nat),
    (((List.range (k + 1)).map (fun j => S (i + j))).flatten).Nodup →
    (S i).Nodup ∧ (((List.range k).map (fun j => S (i + 1 + j))).flatten).Nodup ∧
    ∀ j, i + 1 ≤ j → j < i + 1 + k → ∀ s ∈ S j, s ∉ S i := by
  intro k i h
  rw [List.range_succ_eq_map] at h
  simp only [List.map_cons, List.flatten_cons, List.map_map, Nat.add_zero] at h
  have e : ((fun j => S (i + j)) ∘ Nat.succ) = (fun j => S (i + 1 + j)) := by
    funext j; simp only [Function.comp]; congr 1; omega
  rw [e] at h
  obtain ⟨h1, h2, h3⟩ := List.nodup_append.mp h
  refine ⟨h1, h2, fun j hj1 hj2 s hs hsi => h3 hsi ?_⟩
  rw [List.mem_flatten]
  refine ⟨S j, ?_, hs⟩
  rw [List.mem_map]
  exact ⟨j - (i + 1), List.mem_range.mpr (by omega), by congr 1; omega⟩

/-- The loop of `sweepstringsold` over chains of pairwise distinct
strings: it returns, and leaves the state described by `StrPost`. -/
theorem sweepstringsold_loop (S : Nat → List Nat) (fuel : Nat) : ∀ (k i : Nat) (g : GState),
    (∀ j, i ≤ j → j < i + k → Chain g (g.strhash j) (S j)) →
    (∀ j, i ≤ j → j < i + k → ∀ s ∈ S j, (g.heap s).gct ≠ GCT.thread) →
    (((List.range k).map (fun j => S (i + j))).flatten).Nodup →
    (∀ j, i ≤ j → j < i + k → (S j).length ≤ fuel) →
    ∃ g', loopM (fun i g => sweep2old fuel g (Loc.strhash i)) k i g = some g' ∧
      StrPost S g i k g'
  | 0, i, g, _, _, _, _ =>
    ⟨g, rfl,
      { chain := fun j h1 h2 => absurd h2 (by omega)
        old := fun j h1 h2 => absurd h2 (by omega)
        frame := fun _ _ => rfl
        shape := fun _ => rfl
        root := rfl
        strhash := fun _ _ => rfl
        rest := rfl }⟩
  | k + 1, i, g, hc, hnt, hnd, hl => by
    obtain ⟨hndi, hndr, hdisj⟩ := nodup_flatten_range k i hnd
    obtain ⟨g1, hrun1, P⟩ := sweep2old_post fuel (fun _ => []) (S i) g (Loc.strhash i)
      (hc i (le_refl _) (by omega)) (fun s hs ht => absurd ht (hnt i (le_refl _) (by omega) s hs))
      (fun _ _ _ => rfl) (fun _ _ u hu => by simp at hu) (by rw [footprint_nil]; exact hndi)
      (fun q hq => by cases hq) (by rw [footprint_nil]; exact hl i (le_refl _) (by omega))
    have hm1 : ∀ a, (g1.heap a).marked = (g.heap a).marked ∧ (g1.heap a).gct = (g.heap a).gct :=
      fun a => shapeO_marked (P.shape a)
    have hoff : ∀ j, i + 1 ≤ j → j < i + 1 + k → ∀ s ∈ S j, g1.heap s = g.heap s :=
      fun j h1 h2 s hs => P.frame s (by rw [footprint_nil]; exact hdisj j h1 h2 s hs)
        (fun q hq => by cases hq)
    obtain ⟨g', hrun2, Q⟩ := sweepstringsold_loop S fuel k (i + 1) g1
      (fun j h1 h2 => by
        rw [P.strhash j (fun e => by injection e with e; omega)]
        exact Chain.congr (fun s hs => by rw [hoff j h1 h2 s hs]) (hc j (by omega) (by omega)))
      (fun j h1 h2 s hs => by
        rw [(hm1 s).2]; exact hnt j (by omega) (by omega) s hs)
      hndr (fun j h1 h2 => hl j (by omega) (by omega))
    refine ⟨g', ?_, ?_⟩
    · unfold loopM
      rw [hrun1]
      exact hrun2
    · have hi' : ∀ s ∈ S i, g'.heap s = g1.heap s := fun s hs =>
        Q.frame s (fun j h1 h2 hsj => hdisj j h1 h2 s hsj hs)
      refine
        { chain := ?_, old := ?_, frame := ?_, shape := fun a => (Q.shape a).trans (P.shape a)
          root := Q.root.trans (P.root (by simp)), strhash := ?_
          rest := Q.rest.trans P.rest }
      · intro j h1 h2
        rcases Nat.eq_or_lt_of_le h1 with e | h1'
        · subst e
          rw [Q.strhash i (by omega)]
          have hP : Chain g1 (g1.strhash i)
              ((S i).filter (fun x => decide (¬ oldDead g x))) := P.chain
          exact Chain.congr (fun s hs => by rw [hi' s (List.mem_of_mem_filter hs)]) hP
        · have := Q.chain j h1' (by omega)
          rw [(filter_dead_congr (fun y _ => (hm1 y).1)).2] at this
          exact this
      · intro j h1 h2 v hv hd
        rcases Nat.eq_or_lt_of_le h1 with e | h1'
        · subst e
          rw [hi' v hv]
          exact P.old v (by rw [footprint_nil]; exact hv) hd
        · exact Q.old j h1' (by omega) v hv (fun h => hd ((oldDead_congr (hm1 v).1).mp h))
      · intro a ha
        rw [Q.frame a (fun j h1 h2 => ha j (by omega) (by omega))]
        exact P.frame a (by rw [footprint_nil]; exact ha i (le_refl _) (by omega))
          (fun q hq => by cases hq)
      · intro j hj
        rw [Q.strhash j (by omega)]
        exact P.strhash j (fun e => by injection e with e; omega)

theorem restOld_fields {g g' : GState} (h : g'.restOld = g.restOld) :
    g'.strmask = g.strmask ∧ g'.mmudata = g.mmudata ∧ g'.mainthread = g.mainthread ∧
    g'.kind = g.kind ∧ g'.state = g.state := by
  have e1 := congrArg (fun s : GState => s.strmask) h
  have e2 := congrArg (fun s : GState => s.mmudata) h
  have e3 := congrArg (fun s : GState => s.mainthread) h
  have e4 := congrArg (fun s : GState => s.kind) h
  have e5 := congrArg (fun s : GState => s.state) h
  exact ⟨e1, e2, e3, e4, e5⟩

theorem tintObj_fields {x y : GCobj} (h : tintObj x = tintObj y) :
    x.age = y.age ∧ x.nextgc = y.nextgc ∧ x.openupval = y.openupval ∧ x.gct = y.gct := by
  have e1 := congrArg GCobj.age h
  have e2 := congrArg GCobj.nextgc h
  have e3 := congrArg GCobj.openupval h
  have e4 := congrArg GCobj.gct h
  exact ⟨e1, e2, e3, e4⟩

/-- The two sweeps of `entergen`, on a `root` list `xs` with the
open-upvalue lists `U` and the hash chains `S`. -/
theorem entergen_sweeps (fuel : Nat) (g : GState) (U S : Nat → List Nat) (xs : List Nat)
    (hc : Chain g g.root xs)
    (hUch : ∀ x ∈ xs, (g.heap x).gct = GCT.thread → Chain g (g.heap x).openupval (U x))
    (hUnt : ∀ x ∈ xs, (g.heap x).gct ≠ GCT.thread → U x = [])
    (hUth : ∀ x ∈ xs, ∀ u ∈ U x, (g.heap u).gct ≠ GCT.thread)
    (hS : ∀ j, j ≤ g.strmask → Chain g (g.strhash j) (S j))
    (hSt : ∀ j, j ≤ g.strmask → ∀ s ∈ S j, (g.heap s).gct ≠ GCT.thread)
    (hnd : (footprint U xs ++ ((List.range (g.strmask + 1)).map S).flatten).Nodup)
    (hf : (footprint U xs).length ≤ fuel) (hfs : ∀ j, j ≤ g.strmask → (S j).length ≤ fuel) :
    ∃ g4 g5, sweep2old fuel g Loc.root = some g4 ∧ sweepstringsold fuel g4 = some g5 ∧
      OldPost g Loc.root U xs g4 ∧ StrPost S g4 0 (g.strmask + 1) g5 ∧
      (∀ a, (g4.heap a).marked = (g.heap a).marked) ∧
      (∀ a ∈ footprint U xs, g5.heap a = g4.heap a) := by
  obtain ⟨hnd1, hnd2, hdisj⟩ := List.nodup_append.mp hnd
  have hmemS : ∀ j, j ≤ g.strmask → ∀ s ∈ S j,
      s ∈ ((List.range (g.strmask + 1)).map S).flatten := fun j hj s hs => by
    rw [List.mem_flatten]
    exact ⟨S j, List.mem_map.mpr ⟨j, List.mem_range.mpr (by omega), rfl⟩, hs⟩
  obtain ⟨g4, hrun4, P⟩ := sweep2old_post fuel U xs g Loc.root hc hUch hUnt hUth hnd1
    (fun q hq => by cases hq) hf
  have hm4 : ∀ a, (g4.heap a).marked = (g.heap a).marked ∧ (g4.heap a).gct = (g.heap a).gct :=
    fun a => shapeO_marked (P.shape a)
  have hsm : g4.strmask = g.strmask := (restOld_fields P.rest).1
  have hoff : ∀ j, j ≤ g.strmask → ∀ s ∈ S j, g4.heap s = g.heap s := fun j hj s hs =>
    P.frame s (fun h => hdisj h (hmemS j hj s hs)) (fun q hq => by cases hq)
  obtain ⟨g5, hrun5, Q⟩ := sweepstringsold_loop S fuel (g.strmask + 1) 0 g4
    (fun j _ h2 => by
      have hj : j ≤ g.strmask := by omega
      rw [P.strhash j (by simp)]
      exact Chain.congr (fun s hs => by rw [hoff j hj s hs]) (hS j hj))
    (fun j _ h2 s hs => by
      rw [(hm4 s).2]; exact hSt j (by omega) s hs)
    (by
      have e : (fun j => S (0 + j)) = S := by funext j; rw [Nat.zero_add]
      rw [e]; exact hnd2)
    (fun j _ h2 => hfs j (by omega))
  refine ⟨g4, g5, hrun4, ?_, P, Q, fun a => (hm4 a).1, ?_⟩
  · unfold sweepstringsold
    rw [hsm]
    exact hrun5
  · intro a ha
    exact Q.frame a (fun j _ h2 hs => hdisj ha (hmemS j (by omega) a hs))

/-! ## A sweep that frees nothing -/

theorem sweptWhite_congr (g : GState) (A B : List Nat) (h : ∀ a, a ∈ A ↔ a ∈ B) :
    sweptWhite g A = sweptWhite g B := by
  unfold sweptWhite
  apply heap_ext
  intro a
  by_cases ha : a ∈ A
  · rw [if_pos ha, if_pos ((h a).mp ha)]
  · rw [if_neg ha, if_neg (fun hb => ha ((h a).mpr hb))]

theorem footprint_append (U : Nat → List Nat) : ∀ (xs ys : List Nat),
    footprint U (xs ++ ys) = footprint U xs ++ footprint U ys
  | [], ys => rfl
  | x :: xs, ys => by
    show U x ++ x :: footprint U (xs ++ ys) = (U x ++ x :: footprint U xs) ++ footprint U ys
    rw [footprint_append U xs ys]; simp

theorem restSw_fields {g h : GState} (e : g.restSw = h.restSw) :
    g.heap = h.heap ∧ g.freed = h.freed ∧ g.currentwhite = h.currentwhite ∧ g.gray = h.gray ∧
    g.grayagain = h.grayagain ∧ g.weak = h.weak ∧ g.root = h.root ∧ g.strhash = h.strhash ∧
    g.strmask = h.strmask ∧ g.total = h.total := by
  have e1 := congrArg (fun s : GState => s.heap) e
  have e2 := congrArg (fun s : GState => s.freed) e
  have e3 := congrArg (fun s : GState => s.currentwhite) e
  have e4 := congrArg (fun s : GState => s.gray) e
  have e5 := congrArg (fun s : GState => s.grayagain) e
  have e6 := congrArg (fun s : GState => s.weak) e
  have e7 := congrArg (fun s : GState => s.root) e
  have e8 := congrArg (fun s : GState => s.strhash) e
  have e9 := congrArg (fun s : GState => s.strmask) e
  have e10 := congrArg (fun s : GState => s.total) e
  exact ⟨e1, e2, e3, e4, e5, e6, e7, e8, e9, e10⟩

theorem Chain.of_rest {g h : GState} (e : g.restSw = h.restSw) {a : Nat} {xs : List Nat}
    (c : Chain h a xs) : Chain g a xs :=
  Chain.congr (fun x _ => by rw [(restSw_fields e).1]) c

theorem flatten_range_succ (S : Nat → List Nat) (k i : Nat) :
    ((List.range (k + 1)).map (fun j => S (i + j))).flatten
      = S i ++ ((List.range k).map (fun j => S (i + 1 + j))).flatten := by
  rw [List.range_succ_eq_map]
  simp only [List.map_cons, List.flatten_cons, List.map_map, Nat.add_zero]
  have e : ((fun j => S (i + j)) ∘ Nat.succ) = (fun j => S (i + 1 + j)) := by
    funext j; simp only [Function.comp]; congr 1; omega
  rw [e]

/-- The second loop of `fullinc` returns normally exactly along a run of
steps none of which reaches `GCSpause` before the last one does. -/
theorem fullCycle_iff (vm : VM) (fuel : Nat) (L : Nat) : ∀ (n : Nat) (g s : GState),
    fullCycle vm fuel n g L = some (Res.ok s ()) ↔
      ∃ tr c, tr.length < n ∧ stepsOK vm fuel L g (tr ++ [(s, c)]) ∧
        (∀ x ∈ tr, x.1.state ≠ GCSpause) ∧ s.state = GCSpause
  | 0, g, s => by
    constructor
    · intro h; cases h
    · rintro ⟨tr, c, h, _⟩; exact absurd h (Nat.not_lt_zero _)
  | n + 1, g, s => by
    constructor
    · intro h
      unfold fullCycle at h
      obtain ⟨g1, c1, h1, h2⟩ := andThen_ok h
      by_cases hp : g1.state ≠ GCSpause
      · rw [if_pos hp] at h2
        obtain ⟨tr, c, ht, hs, hg, hb⟩ := (fullCycle_iff vm fuel L n g1 s).mp h2
        refine ⟨(g1, c1) :: tr, c, Nat.succ_lt_succ ht, ⟨h1, hs⟩, ?_, hb⟩
        intro x hx
        rcases List.mem_cons.mp hx with e | hx
        · rw [e]; exact hp
        · exact hg x hx
      · rw [if_neg hp] at h2
        cases h2
        exact ⟨[], c1, Nat.succ_pos _, ⟨h1, trivial⟩, fun x hx => absurd hx (List.not_mem_nil x),
          not_not.mp hp⟩
    · rintro ⟨tr, c, ht, hs, hg, hb⟩
      unfold fullCycle
      cases tr with
      | nil =>
        obtain ⟨h1, _⟩ := hs
        rw [h1]
        simp only [andThen]
        rw [if_neg (not_not.mpr hb)]
      | cons x tr =>
        obtain ⟨h1, hs⟩ := hs
        rw [h1]
        simp only [andThen]
        rw [if_pos (hg x (List.mem_cons_self _ _))]
        exact (fullCycle_iff vm fuel L n x.1 s).mpr
          ⟨tr, c, Nat.lt_of_succ_lt_succ ht, hs,
            fun y hy => hg y (List.mem_cons_of_mem _ hy), hb⟩

theorem sub_add_mod (t n M : Nat) (hM : 0 < M) :
    (((t + n) % M) + M - n % M) % M = t % M := by
  have hb : n % M < M := Nat.mod_lt _ hM
  have h1 : (((t + n) % M) + M - n % M) + n % M = (t + n) % M + M := by omega
  have h2 : ((((t + n) % M) + M - n % M) + n % M) ≡ t + n [MOD M] := by
    rw [h1]
    unfold Nat.ModEq
    rw [Nat.add_mod_right, Nat.mod_mod]
  have h3 : n % M ≡ n [MOD M] := Nat.mod_modEq _ _
  exact Nat.ModEq.add_right_cancel h3 h2

/-- C22: when the allocator returns non-null, or `nsz = 0`,
`lj_mem_realloc` returns the allocator's pointer and the state with `total`
replaced by `(total - osz) + nsz` in `GCSize` arithmetic (the exact value
when `osz ≤ total` and the sum fits), nothing else changed; when the
allocator returns null with `nsz > 0` it leaves through `lj_err_mem` with
the state untouched.  `lj_mem_free` replaces `total` by `total - osize` in
`GCSize` arithmetic and nothing else, so freeing the `n` bytes of a
successful allocation gives the state of before back (for `total` a
`GCSize` value). -/
theorem mem_realloc_spec (vm : VM) (g : GState) (p osz nsz : Nat) :
    ((vm.allocf g p osz nsz ≠ 0 ∨ nsz = 0) →
      lj_mem_realloc vm g p osz nsz
        = Res.ok { g with total := ((g.total + 2 ^ g.memw - osz % 2 ^ g.memw) % 2 ^ g.memw + nsz)
            % 2 ^ g.memw } (vm.allocf g p osz nsz) ∧
      (g.total < 2 ^ g.memw → osz ≤ g.total → g.total - osz + nsz < 2 ^ g.memw →
        lj_mem_realloc vm g p osz nsz
          = Res.ok { g with total := g.total - osz + nsz } (vm.allocf g p osz nsz))) ∧
    ((vm.allocf g p osz nsz = 0 ∧ nsz > 0) →
      lj_mem_realloc vm g p osz nsz = Res.throw g vm.LUA_ERRMEM) ∧
    lj_mem_free g p osz
      = { g with total := (g.total + 2 ^ g.memw - osz % 2 ^ g.memw) % 2 ^ g.memw } ∧
    (osz ≤ g.total → g.total < 2 ^ g.memw →
      lj_mem_free g p osz = { g with total := g.total - osz }) ∧
    (g.total < 2 ^ g.memw → ∀ g1 q, lj_mem_realloc vm g 0 0 nsz = Res.ok g1 q →
      lj_mem_free g1 q nsz = g) := by
  have hM : 0 < 2 ^ g.memw := Nat.two_pow_pos _
  have hok : (vm.allocf g p osz nsz ≠ 0 ∨ nsz = 0) →
      lj_mem_realloc vm g p osz nsz
        = Res.ok { g with total := ((g.total + 2 ^ g.memw - osz % 2 ^ g.memw) % 2 ^ g.memw + nsz)
            % 2 ^ g.memw } (vm.allocf g p osz nsz) := by
    intro h
    unfold lj_mem_realloc
    dsimp only
    rw [if_neg (by
      rintro ⟨a, b⟩
      rcases h with h | h
      · exact h a
      · omega)]
    rfl
  refine ⟨fun h => ⟨hok h, fun h0 h1 h2 => ?_⟩, ?_, rfl, ?_, ?_⟩
  · rw [hok h]
    have hb : osz % 2 ^ g.memw = osz := Nat.mod_eq_of_lt (by omega)
    have e1 : (g.total + 2 ^ g.memw - osz % 2 ^ g.memw) % 2 ^ g.memw = (g.total - osz) % 2 ^ g.memw := by
      rw [hb]
      have : g.total + 2 ^ g.memw - osz = (g.total - osz) + 2 ^ g.memw := by omega
      rw [this, Nat.add_mod_right]
    have e2 : ((g.total + 2 ^ g.memw - osz % 2 ^ g.memw) % 2 ^ g.memw + nsz) % 2 ^ g.memw
        = g.total - osz + nsz := by
      rw [e1, Nat.mod_add_mod, Nat.mod_eq_of_lt h2]
    rw [e2]
  · rintro ⟨a, b⟩
    unfold lj_mem_realloc
    dsimp only
    rw [if_pos ⟨a, b⟩]
  · intro h1 h2
    have hb : osz % 2 ^ g.memw = osz := Nat.mod_eq_of_lt (by omega)
    have e : (g.total + 2 ^ g.memw - osz % 2 ^ g.memw) % 2 ^ g.memw = g.total - osz := by
      rw [hb]
      have : g.total + 2 ^ g.memw - osz = (g.total - osz) + 2 ^ g.memw := by omega
      rw [this, Nat.add_mod_right, Nat.mod_eq_of_lt (by omega)]
    show ({ g with total := (g.total + 2 ^ g.memw - osz % 2 ^ g.memw) % 2 ^ g.memw } : GState) = _
    rw [e]
  · intro ht g1 q h
    unfold lj_mem_realloc at h
    dsimp only at h
    split_ifs at h
    injection h with h1 h2
    subst h1
    show ({ g with total := subSize g (addSize g (subSize g g.total 0) nsz) nsz } : GState) = g
    have e : subSize g (addSize g (subSize g g.total 0) nsz) nsz = g.total := by
      unfold subSize addSize
      rw [Nat.zero_mod, Nat.sub_zero, Nat.add_mod_right, Nat.mod_eq_of_lt ht,
        sub_add_mod g.total nsz _ hM, Nat.mod_eq_of_lt ht]
    rw [e]

/-- Witness for `mem_realloc_spec`: growing a block of 100 bytes to 300
moves `total` from 500 to 700, a request of 2000 bytes is refused with the
state untouched, and freeing 200 bytes brings 700 back to 500. -/
theorem mem_realloc_spec_witness :
    lj_mem_realloc exAllocVM exAlloc 9 100 300 = Res.ok { exAlloc with total := 700 } 9 ∧
    lj_mem_realloc exAllocVM exAlloc 0 0 2000 = Res.throw exAlloc 4 ∧
    lj_mem_free { exAlloc with total := 700 } 9 200 = { exAlloc with total := 500 } :=
  ⟨((mem_realloc_spec exAllocVM exAlloc 9 100 300).1 (Or.inl (by decide))).2
      (by decide) (by decide) (by decide),
    (mem_realloc_spec exAllocVM exAlloc 0 0 2000).2.1 ⟨by decide, by decide⟩,
    (mem_realloc_spec exAllocVM { exAlloc with total := 700 } 9 200 0).2.2.2.1
      (by decide) (by decide)⟩

theorem xor_and_mask (c t : Nat) : (c ^^^ t) &&& t = (c &&& t) ^^^ t := by
  apply Nat.eq_of_testBit_eq; intro i
  simp only [Nat.testBit_xor, Nat.testBit_and]
  cases c.testBit i <;> cases t.testBit i <;> rfl

theorem and_xor_mask (c t : Nat) : (c &&& t) &&& (c ^^^ t) &&& t = 0 := by
  apply Nat.eq_of_testBit_eq; intro i
  simp only [Nat.testBit_xor, Nat.testBit_and, Nat.zero_testBit]
  cases c.testBit i <;> cases t.testBit i <;> rfl

theorem xor_and_xor_mask (c t : Nat) :
    (((c &&& t) ^^^ t) &&& (c ^^^ t)) &&& t = (c &&& t) ^^^ t := by
  apply Nat.eq_of_testBit_eq; intro i
  simp only [Nat.testBit_xor, Nat.testBit_and]
  cases c.testBit i <;> cases t.testBit i <;> rfl

/-- The color `newwhite` gives: with one current white it is white, not
dead, and passes the test of `gc_sweep`. -/
theorem newwhite_alive (g : GState) (o : Nat)
    (hm : (g.heap o).marked = g.currentwhite &&& LJ_GC_WHITES)
    (hw : g.currentwhite &&& LJ_GC_WHITES = LJ_GC_WHITE0 ∨
      g.currentwhite &&& LJ_GC_WHITES = LJ_GC_WHITE1) :
    iswhite (g.heap o) ∧ ¬ isdead g (g.heap o) ∧ sweepKeeps g (otherwhite g) o := by
  refine ⟨?_, ?_, ?_⟩
  · unfold iswhite
    rw [hm, Nat.and_assoc, Nat.and_self]
    rcases hw with h | h <;> rw [h] <;> decide
  · unfold isdead otherwhite
    rw [hm, and_xor_mask]
    exact fun h => h rfl
  · unfold sweepKeeps otherwhite
    rw [hm]
    intro h
    have h2 := xor_and_xor_mask g.currentwhite LJ_GC_WHITES
    rw [h] at h2
    rcases hw with e | e <;> rw [e] at h2 <;> revert h2 <;> decide

/-- C23: when the allocator returns a non-null address `o`,
`lj_mem_newgco` returns `o` and a state in which `total` has grown by `size`
(in `GCSize` arithmetic), `o` is the head of `root` with `nextgc` the
previous head, so that `root` is the old list behind `o`, the `marked` byte
of `o` is exactly `currentwhite & LJ_GC_WHITES` and its age is `G_NEW`; no
other object and no other field of the state changes.  When `currentwhite`
has one white bit, `o` is white, not dead, and passes the test of `gc_sweep`
in every state with this `currentwhite` in which its `marked` byte is still
the same, so no sweep before the next flip frees it.  When the allocator
returns null, `lj_mem_newgco` leaves through `lj_err_mem` with the state
untouched, `root` and `total` included. -/
theorem newgco_spec (vm : VM) (g : GState) (size : Nat) :
    (vm.allocf g 0 0 size ≠ 0 →
      ∃ g', lj_mem_newgco vm g size = Res.ok g' (vm.allocf g 0 0 size) ∧
        g'.total = (g.total + size) % 2 ^ g.memw ∧
        g'.root = vm.allocf g 0 0 size ∧
        g'.heap (vm.allocf g 0 0 size)
          = { g.heap (vm.allocf g 0 0 size) with
              nextgc := g.root, marked := g.currentwhite &&& LJ_GC_WHITES, age := G_NEW } ∧
        (∀ a, a ≠ vm.allocf g 0 0 size → g'.heap a = g.heap a) ∧
        g'.restNew = g.restNew ∧
        (∀ xs, Chain g g.root xs → vm.allocf g 0 0 size ∉ xs →
          Chain g' g'.root (vm.allocf g 0 0 size :: xs)) ∧
        ((g.currentwhite &&& LJ_GC_WHITES = LJ_GC_WHITE0 ∨
            g.currentwhite &&& LJ_GC_WHITES = LJ_GC_WHITE1) →
          iswhite (g'.heap (vm.allocf g 0 0 size)) ∧
          ¬ isdead g' (g'.heap (vm.allocf g 0 0 size)) ∧
          ∀ s : GState, s.currentwhite = g.currentwhite →
            (s.heap (vm.allocf g 0 0 size)).marked = (g'.heap (vm.allocf g 0 0 size)).marked →
            sweepKeeps s (otherwhite s) (vm.allocf g 0 0 size))) ∧
    (vm.allocf g 0 0 size = 0 → lj_mem_newgco vm g size = Res.throw g vm.LUA_ERRMEM) := by
  constructor
  · intro ho
    generalize hoe : vm.allocf g 0 0 size = o at ho
    have hc : (g.currentwhite &&& LJ_GC_WHITES) % 256 = g.currentwhite &&& LJ_GC_WHITES :=
      Nat.mod_eq_of_lt (lt_of_le_of_lt Nat.and_le_right (by decide))
    have hmk : ∀ s : GState, (s.heap o).marked = g.currentwhite &&& LJ_GC_WHITES →
        s.currentwhite = g.currentwhite →
        (g.currentwhite &&& LJ_GC_WHITES = LJ_GC_WHITE0 ∨
          g.currentwhite &&& LJ_GC_WHITES = LJ_GC_WHITE1) →
        iswhite (s.heap o) ∧ ¬ isdead s (s.heap o) ∧ sweepKeeps s (otherwhite s) o :=
      fun s h1 h2 hw => newwhite_alive s o (by rw [h2]; exact h1) (by rw [h2]; exact hw)
    unfold lj_mem_newgco
    dsimp only
    rw [hoe, if_neg ho]
    refine ⟨_, rfl, rfl, rfl, ?_, ?_, rfl, ?_, ?_⟩
    · simp only [GState.modObj, GState.setObj, newwhite, setage, curwhite, if_true, hc]
    · intro a ha
      simp only [GState.modObj, GState.setObj, ha, if_false]
    · intro xs hx hn
      refine ⟨rfl, ho, ?_⟩
      refine @Chain.congr g _ xs _ (fun x hx => ?_) ?_
      · have : x ≠ o := fun e => hn (e ▸ hx)
        simp only [GState.modObj, GState.setObj, this, if_false]
      · simp only [GState.modObj, GState.setObj, newwhite, setage, if_true]
        exact hx
    · intro hw
      have hm : ∀ s : GState, (s.heap o).marked = g.currentwhite &&& LJ_GC_WHITES →
          s.currentwhite = g.currentwhite →
          iswhite (s.heap o) ∧ ¬ isdead s (s.heap o) ∧ sweepKeeps s (otherwhite s) o :=
        fun s h1 h2 => hmk s h1 h2 hw
      refine ⟨(hm _ ?_ ?_).1, (hm _ ?_ ?_).2.1, fun s hs hmm => (hm s ?_ hs).2.2⟩
      · simp only [GState.modObj, GState.setObj, newwhite, setage, curwhite, if_true, hc]
      · rfl
      · simp only [GState.modObj, GState.setObj, newwhite, setage, curwhite, if_true, hc]
      · rfl
      · rw [hmm]
        simp only [GState.modObj, GState.setObj, newwhite, setage, curwhite, if_true, hc]
  · intro h0
    unfold lj_mem_newgco
    dsimp only
    rw [if_pos h0]

/-- Witness for `newgco_spec`: a new object of 40 bytes lands at address 9
in front of the table 2, white; a request of 2000 bytes is refused. -/
theorem newgco_spec_witness :
    (∃ g', lj_mem_newgco exAllocVM exAlloc 40 = Res.ok g' 9 ∧ g'.total = 540 ∧ g'.root = 9 ∧
      Chain g' g'.root [9, 2] ∧ iswhite (g'.heap 9)) ∧
    lj_mem_newgco exAllocVM exAlloc 2000 = Res.throw exAlloc 4 := by
  obtain ⟨g', h1, h2, h3, _, _, _, h7, h8⟩ :=
    (newgco_spec exAllocVM exAlloc 40).1 (by decide)
  exact ⟨⟨g', h1, h2, h3, h7 [2] ⟨rfl, by decide, rfl⟩ (by decide), (h8 (Or.inl rfl)).1⟩,
    (newgco_spec exAllocVM exAlloc 2000).2 rfl⟩

/-! ## The correction of the gray lists -/

/-- C24 (divergence): `changeage(o,f,t)` stores `t` into `marked`, not into
`age`.  For a table or userdata `o` alone on the list at `p`:
with age `G_TOUCHED1`, `correctgraylist` returns with `o` still on the list,
but its age is still `G_TOUCHED1` and its `marked` byte is the number
`G_TOUCHED2 = 6`, that is `WHITE1 | BLACK`: white, with every other bit
lost; with age `G_TOUCHED2` and not white, `o` is unlinked, but its age is
still `G_TOUCHED2` and its `marked` byte is `G_OLD | BLACK = 4`, every other
bit lost. -/
theorem correctgraylist_age_not_advanced (n : Nat) (g : GState) (p : GLoc) (o : Nat)
    (hp : p.get g = o) (ho : o ≠ 0)
    (ht : (g.heap o).gct = GCT.tab ∨ (g.heap o).gct = GCT.udata)
    (hl : (g.heap o).gclist = 0) :
    (getage (g.heap o) = G_TOUCHED1 →
      ∃ g', correctgraylist (n + 1) g p = some (g', GLoc.gclist o) ∧ p.get g' = o ∧
        (g'.heap o).age = G_TOUCHED1 ∧ (g'.heap o).marked = 6 ∧ iswhite (g'.heap o) ∧
        (g'.heap o).marked &&& not8 LJ_GC_COLORS = 0) ∧
    (getage (g.heap o) = G_TOUCHED2 → ¬ iswhite (g.heap o) → p ≠ GLoc.gclist o →
      ∃ g', correctgraylist (n + 1) g p = some (g', p) ∧ p.get g' = 0 ∧
        (g'.heap o).age = G_TOUCHED2 ∧ (g'.heap o).marked = 4) := by
  have hage : G_TOUCHED2 ≠ G_TOUCHED1 := by decide
  constructor
  · intro ha
    refine ⟨(g.modObj o gray2black).modObj o (fun x => changeage x G_TOUCHED1 G_TOUCHED2), ?_,
      ?_, ?_, ?_, ?_, ?_⟩
    · rw [correctgraylist]
      simp only [hp, ho, if_false, ht, if_true, ha]
      cases n with
      | zero =>
        rw [correctgraylist]
        simp only [GLoc.get, modObj_heap_same, changeage, gray2black, hl, if_true]
      | succ n =>
        rw [correctgraylist]
        simp only [GLoc.get, modObj_heap_same, changeage, gray2black, hl, if_true]
    · cases p with
      | grayagain => exact hp
      | weak => exact hp
      | gclist q =>
        show (((g.modObj o gray2black).modObj o _).heap q).gclist = o
        by_cases hq : q = o
        · subst hq
          rw [modObj_heap_same, modObj_heap_same]
          exact hp
        · rw [modObj_heap_ne _ _ _ _ hq, modObj_heap_ne _ _ _ _ hq]
          exact hp
    · rw [modObj_heap_same, modObj_heap_same]; exact ha
    · rw [modObj_heap_same, modObj_heap_same]; rfl
    · rw [modObj_heap_same, modObj_heap_same]
      show G_TOUCHED2 &&& LJ_GC_WHITES ≠ 0
      decide
    · rw [modObj_heap_same, modObj_heap_same]
      show G_TOUCHED2 &&& not8 LJ_GC_COLORS = 0
      decide
  · intro ha hw hpo
    have hne : ¬ getage (g.heap o) = G_TOUCHED1 := by rw [ha]; exact hage
    refine ⟨p.set ((g.modObj o (fun x => changeage x G_TOUCHED2 G_OLD)).modObj o gray2black) 0,
      ?_, ?_, ?_, ?_⟩
    · rw [correctgraylist]
      simp only [hp, ho, if_false, ht, if_true, hne, hw, not_false_eq_true, ha, hage]
      have e : (((g.modObj o (fun x => changeage x G_TOUCHED2 G_OLD)).modObj o gray2black).heap
          o).gclist = 0 := by
        rw [modObj_heap_same, modObj_heap_same]; exact hl
      rw [e]
      have hz : p.get (p.set ((g.modObj o (fun x => changeage x G_TOUCHED2 G_OLD)).modObj o
          gray2black) 0) = 0 := by
        cases p with
        | grayagain => rfl
        | weak => rfl
        | gclist q => simp only [GLoc.get, GLoc.set, modObj_heap_same]
      cases n with
      | zero => rw [correctgraylist, if_pos hz]
      | succ n =>
        rw [correctgraylist]
        simp only [hz, if_true]
    · cases p with
      | grayagain => rfl
      | weak => rfl
      | gclist q => simp only [GLoc.get, GLoc.set, modObj_heap_same]
    · cases p with
      | grayagain =>
        show (((g.modObj o _).modObj o gray2black).heap o).age = _
        rw [modObj_heap_same, modObj_heap_same]; exact ha
      | weak =>
        show (((g.modObj o _).modObj o gray2black).heap o).age = _
        rw [modObj_heap_same, modObj_heap_same]; exact ha
      | gclist q =>
        have hq : o ≠ q := fun e => hpo (by rw [e])
        simp only [GLoc.set]
        rw [modObj_heap_ne _ _ _ _ hq, modObj_heap_same, modObj_heap_same]; exact ha
    · cases p with
      | grayagain =>
        show (((g.modObj o _).modObj o gray2black).heap o).marked = _
        rw [modObj_heap_same, modObj_heap_same]
        show G_OLD ||| LJ_GC_BLACK = 4
        decide
      | weak =>
        show (((g.modObj o _).modObj o gray2black).heap o).marked = _
        rw [modObj_heap_same, modObj_heap_same]
        show G_OLD ||| LJ_GC_BLACK = 4
        decide
      | gclist q =>
        have hq : o ≠ q := fun e => hpo (by rw [e])
        simp only [GLoc.set]
        rw [modObj_heap_ne _ _ _ _ hq, modObj_heap_same, modObj_heap_same]
        show G_OLD ||| LJ_GC_BLACK = 4
        decide

/-- Witness for `correctgraylist_age_not_advanced`: in `exTouched` the table
2 stays at age `G_TOUCHED1` with `marked = 6`, the table 3 at age
`G_TOUCHED2` with `marked = 4`; both lose their `FIXED` bit. -/
theorem correctgraylist_age_not_advanced_witness :
    (∃ g', correctgraylist 5 exTouched GLoc.grayagain = some (g', GLoc.gclist 2) ∧
      (g'.heap 2).age = G_TOUCHED1 ∧ (g'.heap 2).marked = 6 ∧ iswhite (g'.heap 2)) ∧
    (∃ g', correctgraylist 5 exTouched GLoc.weak = some (g', GLoc.weak) ∧
      (g'.heap 3).age = G_TOUCHED2 ∧ (g'.heap 3).marked = 4) := by
  obtain ⟨g1, a1, _, a3, a4, a5, _⟩ :=
    (correctgraylist_age_not_advanced 4 exTouched GLoc.grayagain 2 rfl (by decide)
      (Or.inl rfl) rfl).1 rfl
  obtain ⟨g2, b1, _, b3, b4⟩ :=
    (correctgraylist_age_not_advanced 4 exTouched GLoc.weak 3 rfl (by decide)
      (Or.inl rfl) rfl).2 rfl (by decide) (by decide)
  exact ⟨⟨g1, a1, a3, a4, a5⟩, ⟨g2, b1, b3, b4⟩⟩

/-! ## Marking one object -/

theorem guarded_gray {n : Nat}
    (ih : ∀ (g : GState) (v : Nat) (g' : GState), iswhite (g.heap v) → gc_mark n g v = some g' →
      g'.gray = g.gray ∨ iswhite (g.heap g'.gray))
    (c : Prop) [Decidable c] (G : GState) (a : Nat) (hca : c → iswhite (G.heap a)) (g3 : GState)
    (h : (if c then gc_mark n G a else some G) = some g3) :
    (g3.gray = G.gray ∨ iswhite (G.heap g3.gray)) ∧ MarkRel G g3 ∧ (c → ¬ iswhite (g3.heap a)) := by
  by_cases hc : c
  · rw [if_pos hc] at h
    have r := gc_mark_rel n G a g3 (hca hc) h
    exact ⟨ih G a g3 (hca hc) h, r.1, fun _ => r.2⟩
  · rw [if_neg hc] at h
    cases h
    exact ⟨Or.inl rfl, MarkRel.mrefl G, fun x => absurd x hc⟩

/-- The head of `gray` after `gc_mark` is the old head or an object that was
white. -/
theorem gc_mark_gray_head : ∀ (n : Nat) (g : GState) (v : Nat) (g' : GState),
    iswhite (g.heap v) → gc_mark n g v = some g' →
    g'.gray = g.gray ∨ iswhite (g.heap g'.gray) := by
  intro n
  induction n with
  | zero => intro g v g' _ h; simp [gc_mark] at h
  | succ n ih =>
    intro g v g' hw h
    have hG : ∀ (f : GCobj → GCobj) (a : Nat), ¬ iswhite (f (g.heap v)) →
        iswhite ((g.modObj v f).heap a) → iswhite (g.heap a) := by
      intro f a hf ha
      rw [modObj_heap] at ha
      split_ifs at ha with e
      · exact absurd ha hf
      · exact ha
    simp only [gc_mark] at h
    cases hg : (g.heap v).gct <;> rw [hg] at h <;> simp only at h
    case str => cases h; exact Or.inl rfl
    case cdata => cases h; exact Or.inl rfl
    case tab => cases h; exact Or.inr hw
    case func => cases h; exact Or.inr hw
    case proto => cases h; exact Or.inr hw
    case thread => cases h; exact Or.inr hw
    case trace => cases h; exact Or.inr hw
    case udata =>
      have hnw : ¬ iswhite (gray2black (white2gray (g.heap v))) :=
        gray2black_not_white (white2gray_not_white _)
      have e0 : (g.modObj v white2gray).modObj v gray2black
          = g.modObj v (fun x => gray2black (white2gray x)) := by
        rw [modObj_modObj]
      rw [e0] at h
      generalize hGd : g.modObj v (fun x => gray2black (white2gray x)) = G at h
      have hGw : ∀ a, iswhite (G.heap a) → iswhite (g.heap a) := fun a ha => by
        rw [← hGd] at ha; exact hG _ a hnw ha
      have hGg : G.gray = g.gray := by rw [← hGd]; rfl
      obtain ⟨g3, hX, hY⟩ := bind_some h
      obtain ⟨a1, r1, _⟩ := guarded_gray ih _ G _ (fun c => c.2) g3 hX
      obtain ⟨a2, _, _⟩ := guarded_gray ih _ g3 _ (fun c => c) g' hY
      rcases a2 with e | w
      · rw [e]
        rcases a1 with e1 | w1
        · exact Or.inl (e1.trans hGg)
        · exact Or.inr (hGw _ w1)
      · have := r1.white _ w
        exact Or.inr (hGw _ (by rw [← this]; exact w))
    case upval =>
      generalize hGd : g.modObj v white2gray = G at h
      have hGw : ∀ a, iswhite (G.heap a) → iswhite (g.heap a) := fun a ha => by
        rw [← hGd] at ha; exact hG _ a (white2gray_not_white _) ha
      have hGg : G.gray = g.gray := by rw [← hGd]; rfl
      obtain ⟨g3, hX, hY⟩ := bind_some h
      obtain ⟨a1, r1, _⟩ := guarded_gray ih _ G _ (fun c => c.2) g3 hX
      have e : g'.gray = g3.gray := by
        split_ifs at hY <;> cases hY <;> rfl
      rw [e]
      rcases a1 with e1 | w1
      · exact Or.inl (e1.trans hGg)
      · exact Or.inr (hGw _ w1)

theorem shape_fields {x y : GCobj} (h : shape x = shape y) :
    x.gct = y.gct ∧ x.metatable = y.metatable ∧ x.env = y.env ∧ x.v = y.v ∧ x.tv = y.tv ∧
    x.stack = y.stack ∧ x.closed = y.closed ∧ x.age = y.age ∧ x.nextgc = y.nextgc := by
  have e1 := congrArg GCobj.gct h
  have e2 := congrArg GCobj.metatable h
  have e3 := congrArg GCobj.env h
  have e4 := congrArg GCobj.v h
  have e5 := congrArg GCobj.tv h
  have e6 := congrArg GCobj.stack h
  have e7 := congrArg GCobj.closed h
  have e8 := congrArg GCobj.age h
  have e9 := congrArg GCobj.nextgc h
  exact ⟨e1, e2, e3, e4, e5, e6, e7, e8, e9⟩

theorem uvval_shape {g G : GState} (h : ∀ a, shape (G.heap a) = shape (g.heap a)) (o : Nat) :
    uvval G (G.heap o) = uvval g (g.heap o) := by
  unfold uvval
  rw [(shape_fields (h o)).2.2.2.1, (shape_fields (h o)).2.2.2.2.1]
  cases (g.heap o).v with
  | own => rfl
  | slot th i => simp only []; rw [(shape_fields (h th)).2.2.2.2.2.1]

/-- `gc_mark` on a string or cdata: the white bits are cleared. -/
theorem gc_mark_leaf (n : Nat) (g : GState) (o : Nat)
    (h : (g.heap o).gct = GCT.str ∨ (g.heap o).gct = GCT.cdata) :
    gc_mark (n + 1) g o = some (g.modObj o white2gray) := by
  simp only [gc_mark]
  rcases h with h | h <;> rw [h]

/-- `gc_mark` on a table, function, prototype, thread or trace: the white
bits are cleared and the object is pushed on `gray`. -/
theorem gc_mark_push (n : Nat) (g : GState) (o : Nat)
    (h : (g.heap o).gct = GCT.tab ∨ (g.heap o).gct = GCT.func ∨ (g.heap o).gct = GCT.proto ∨
      (g.heap o).gct = GCT.thread ∨ (g.heap o).gct = GCT.trace) :
    gc_mark (n + 1) g o
      = some { (g.modObj o white2gray).modObj o (fun x => { x with gclist := g.gray })
               with gray := o } := by
  simp only [gc_mark]
  rcases h with h | h | h | h | h <;> rw [h] <;> rfl

/-- `gc_mark` on a userdata that returns. -/
theorem gc_mark_udata (n : Nat) (g : GState) (o : Nat) (g' : GState)
    (hg : (g.heap o).gct = GCT.udata)
    (h : gc_mark (n + 1) g o = some g') :
    g'.heap o = gray2black (white2gray (g.heap o)) ∧
    ((g.heap o).metatable ≠ 0 → ¬ iswhite (g'.heap (g.heap o).metatable)) ∧
    ¬ iswhite (g'.heap (g.heap o).env) ∧ (g.gray ≠ o → g'.gray ≠ o) := by
  have ih : ∀ (g : GState) (v : Nat) (g' : GState), iswhite (g.heap v) →
      gc_mark n g v = some g' → g'.gray = g.gray ∨ iswhite (g.heap g'.gray) :=
    gc_mark_gray_head n
  have hnw : ¬ iswhite (gray2black (white2gray (g.heap o))) :=
    gray2black_not_white (white2gray_not_white _)
  simp only [gc_mark] at h
  rw [hg] at h
  simp only at h
  rw [modObj_modObj] at h
  have hmt0 : ((g.modObj o white2gray).heap o).metatable = (g.heap o).metatable := by
    rw [modObj_heap_same]; rfl
  rw [hmt0] at h
  have hGo : (g.modObj o (fun x => gray2black (white2gray x))).heap o
      = gray2black (white2gray (g.heap o)) := modObj_heap_same _ _ _
  have hGg : (g.modObj o (fun x => gray2black (white2gray x))).gray = g.gray := rfl
  generalize g.modObj o (fun x => gray2black (white2gray x)) = G at h hGo hGg
  have henv : (G.heap o).env = (g.heap o).env := by rw [hGo]; rfl
  have hGn : ¬ iswhite (G.heap o) := by rw [hGo]; exact hnw
  obtain ⟨g3, hX, hY⟩ := bind_some h
  obtain ⟨a1, r1, m1⟩ := guarded_gray ih _ G _ (fun c => c.2) g3 hX
  have e3 : g3.heap o = G.heap o := r1.nonwhite o hGn
  rw [e3] at hY
  obtain ⟨a2, r2, m2⟩ := guarded_gray ih _ g3 _ (fun c => c) g' hY
  have e4 : g'.heap o = g3.heap o := r2.nonwhite o (by rw [e3]; exact hGn)
  refine ⟨by rw [e4, e3, hGo], ?_, ?_, ?_⟩
  · intro hm
    have hm3 : ¬ iswhite (g3.heap (g.heap o).metatable) := by
      by_cases hwm : iswhite (G.heap (g.heap o).metatable)
      · exact m1 ⟨hm, hwm⟩
      · rw [r1.nonwhite _ hwm]; exact hwm
    rw [r2.nonwhite _ hm3]; exact hm3
  · rw [← henv]
    by_cases hwe : iswhite (g3.heap (G.heap o).env)
    · exact m2 hwe
    · rw [r2.nonwhite _ hwe]; exact hwe
  · intro hne
    have q3 : g3.gray ≠ o := by
      rcases a1 with e | w
      · rw [e, hGg]; exact hne
      · exact fun e => hGn (e ▸ w)
    rcases a2 with e | w
    · rw [e]; exact q3
    · exact fun e => hGn (by rw [← e3]; exact e ▸ w)

/-- `gc_mark` on an upvalue that returns. -/
theorem gc_mark_upval (n : Nat) (g : GState) (o : Nat) (g' : GState)
    (hg : (g.heap o).gct = GCT.upval)
    (h : gc_mark (n + 1) g o = some g') :
    g'.heap o = (if (g.heap o).closed then gray2black (white2gray (g.heap o))
      else white2gray (g.heap o)) ∧
    (∀ x ∈ tvRef (uvval g (g.heap o)), ¬ iswhite (g'.heap x)) ∧
    (g.gray ≠ o → g'.gray ≠ o) := by
  have ih : ∀ (g : GState) (v : Nat) (g' : GState), iswhite (g.heap v) →
      gc_mark n g v = some g' → g'.gray = g.gray ∨ iswhite (g.heap g'.gray) :=
    gc_mark_gray_head n
  simp only [gc_mark] at h
  rw [hg] at h
  simp only at h
  have hGo : (g.modObj o white2gray).heap o = white2gray (g.heap o) := modObj_heap_same _ _ _
  have hGg : (g.modObj o white2gray).gray = g.gray := rfl
  have hGs : ∀ a, shape ((g.modObj o white2gray).heap a) = shape (g.heap a) := fun a => by
    rw [modObj_heap]; split_ifs with e
    · subst e; rfl
    · rfl
  generalize g.modObj o white2gray = G at h hGo hGg hGs
  have hGn : ¬ iswhite (G.heap o) := by rw [hGo]; exact white2gray_not_white _
  have hval : uvval G (G.heap o) = uvval g (g.heap o) := uvval_shape hGs o
  rw [hval] at h
  obtain ⟨g3, hX, hY⟩ := bind_some h
  obtain ⟨a1, r1, m1⟩ := guarded_gray ih _ G _ (fun c => c.2) g3 hX
  have e3 : g3.heap o = G.heap o := r1.nonwhite o hGn
  have hv3 : ∀ x ∈ tvRef (uvval g (g.heap o)), ¬ iswhite (g3.heap x) := by
    intro x hx
    unfold tvRef at hx
    by_cases hgcv : tvisgcv (uvval g (g.heap o)) = true
    · rw [if_pos hgcv] at hx
      have e : x = gcV (uvval g (g.heap o)) := by simpa using hx
      subst e
      by_cases hwx : iswhite (G.heap (gcV (uvval g (g.heap o))))
      · exact m1 ⟨hgcv, hwx⟩
      · rw [r1.nonwhite _ hwx]; exact hwx
    · rw [if_neg hgcv] at hx; cases hx
  have q3 : g.gray ≠ o → g3.gray ≠ o := by
    intro hne
    rcases a1 with e | w
    · rw [e, hGg]; exact hne
    · exact fun e => hGn (e ▸ w)
  have hcl : (g3.heap o).closed = (g.heap o).closed := by rw [e3, hGo]; rfl
  rw [hcl] at hY
  by_cases hc : (g.heap o).closed = true
  · rw [if_pos hc] at hY ⊢
    cases hY
    refine ⟨by rw [modObj_heap_same, e3, hGo], fun x hx => ?_, q3⟩
    rw [modObj_heap]
    split_ifs with e
    · exact gray2black_not_white (by rw [e3]; exact hGn)
    · exact hv3 x hx
  · rw [if_neg hc] at hY ⊢
    cases hY
    exact ⟨by rw [e3, hGo], hv3, q3⟩

/-- One level of fuel is enough for an object that is neither a userdata nor
an upvalue. -/
theorem gc_mark_total1 (n : Nat) (g : GState) (o : Nat)
    (h1 : (g.heap o).gct ≠ GCT.udata) (h2 : (g.heap o).gct ≠ GCT.upval) :
    ∃ g', gc_mark (n + 1) g o = some g' := by
  simp only [gc_mark]
  cases hg : (g.heap o).gct <;> simp only
  case udata => exact absurd hg h1
  case upval => exact absurd hg h2
  all_goals exact ⟨_, rfl⟩

/-- Two levels of fuel are enough for a userdata whose metatable and
environment are tables. -/
theorem gc_mark_total2 (n : Nat) (g : GState) (o : Nat)
    (hg : (g.heap o).gct = GCT.udata)
    (hm : (g.heap o).metatable ≠ 0 → (g.heap (g.heap o).metatable).gct = GCT.tab)
    (he : (g.heap (g.heap o).env).gct = GCT.tab) :
    ∃ g', gc_mark (n + 2) g o = some g' := by
  rw [gc_mark]
  dsimp only
  rw [hg]
  dsimp only
  rw [modObj_modObj]
  have hmt0 : ((g.modObj o white2gray).heap o).metatable = (g.heap o).metatable := by
    rw [modObj_heap_same]; rfl
  rw [hmt0]
  have hGs : ∀ a, shape ((g.modObj o (fun x => gray2black (white2gray x))).heap a)
      = shape (g.heap a) := fun a => by
    rw [modObj_heap]; split_ifs with e
    · subst e; rfl
    · rfl
  generalize g.modObj o (fun x => gray2black (white2gray x)) = G at hGs
  have hgct : ∀ a, (G.heap a).gct = (g.heap a).gct := fun a => (shape_fields (hGs a)).1
  have henv : (G.heap o).env = (g.heap o).env := (shape_fields (hGs o)).2.2.1
  apply bind_total
  · by_cases c : (g.heap o).metatable ≠ 0 ∧ iswhite (G.heap (g.heap o).metatable)
    · rw [if_pos c]
      exact gc_mark_total1 n G _ (by rw [hgct, hm c.1]; decide) (by rw [hgct, hm c.1]; decide)
    · rw [if_neg c]; exact ⟨G, rfl⟩
  · intro g3 h3
    have r : MarkRel G g3 := by
      by_cases c : (g.heap o).metatable ≠ 0 ∧ iswhite (G.heap (g.heap o).metatable)
      · rw [if_pos c] at h3
        exact (gc_mark_rel _ G _ g3 c.2 h3).1
      · rw [if_neg c] at h3; cases h3; exact MarkRel.mrefl G
    have hgct3 : ∀ a, (g3.heap a).gct = (g.heap a).gct := fun a =>
      ((shape_fields (r.shape_eq a)).1).trans (hgct a)
    have henv3 : (g3.heap o).env = (g.heap o).env :=
      ((shape_fields (r.shape_eq o)).2.2.1).trans henv
    rw [henv3]
    by_cases c : iswhite (g3.heap (g.heap o).env)
    · rw [if_pos c]
      exact gc_mark_total1 n g3 _ (by rw [hgct3, he]; decide) (by rw [hgct3, he]; decide)
    · rw [if_neg c]; exact ⟨g3, rfl⟩

/-- Three levels of fuel are enough for every object when the references
have their types. -/
theorem gc_mark_total3 (n : Nat) (g : GState) (o : Nat) (ht : MarkTyped g) :
    ∃ g', gc_mark (n + 3) g o = some g' := by
  by_cases hu : (g.heap o).gct = GCT.udata
  · exact gc_mark_total2 (n + 1) g o hu (ht.1 o hu).1 (ht.1 o hu).2
  by_cases hv : (g.heap o).gct = GCT.upval
  swap
  · exact gc_mark_total1 (n + 2) g o hu hv
  rw [gc_mark]
  dsimp only
  rw [hv]
  dsimp only
  have hGs : ∀ a, shape ((g.modObj o white2gray).heap a) = shape (g.heap a) := fun a => by
    rw [modObj_heap]; split_ifs with e
    · subst e; rfl
    · rfl
  generalize g.modObj o white2gray = G at hGs
  have hval : uvval G (G.heap o) = uvval g (g.heap o) := uvval_shape hGs o
  have hf : ∀ a, (G.heap a).gct = (g.heap a).gct ∧ (G.heap a).metatable = (g.heap a).metatable ∧
      (G.heap a).env = (g.heap a).env := fun a =>
    ⟨(shape_fields (hGs a)).1, (shape_fields (hGs a)).2.1, (shape_fields (hGs a)).2.2.1⟩
  rw [hval]
  apply bind_total
  · by_cases c : tviswhite G (uvval g (g.heap o))
    · rw [if_pos c]
      have hx : gcV (uvval g (g.heap o)) ∈ tvRef (uvval g (g.heap o)) := by
        unfold tvRef; rw [if_pos c.1]; exact List.mem_singleton_self _
      have hnu := ht.2 o hv _ hx
      by_cases hxu : (g.heap (gcV (uvval g (g.heap o)))).gct = GCT.udata
      · have t := ht.1 _ hxu
        exact gc_mark_total2 n G _ (by rw [(hf _).1]; exact hxu)
          (by rw [(hf _).2.1, (hf _).1]; exact t.1)
          (by rw [(hf _).2.2, (hf _).1]; exact t.2)
      · exact gc_mark_total1 (n + 1) G _ (by rw [(hf _).1]; exact hxu)
          (by rw [(hf _).1]; exact hnu)
    · rw [if_neg c]; exact ⟨G, rfl⟩
  · intro g3 _
    split_ifs
    · exact ⟨_, rfl⟩
    · exact ⟨_, rfl⟩

/-- C28 (amended): `gc_mark` on a white object `o` leaves it non-white
whenever it returns, and with three levels of fuel it returns on every heap
whose references have their types.  A string or cdata only loses its white
bits: no other field of the state changes.  A userdata ends black, with its
metatable (when not null) and its environment not white, and is not made the
head of `gray`.  An upvalue has its value marked; closed it ends black, open
it ends gray (when it carried no black bit), and in both cases it is not
made the head of `gray`: an open upvalue is not pushed.  A table, function,
prototype, thread or trace loses its white bits (so it is gray when it
carried no black bit) and becomes the head of `gray` with `gclist` the
previous head, nothing else changing.  `gc_markobj` and `gc_marktv` leave
the state as it is when the object is not white. -/
theorem gc_mark_spec (n : Nat) (g : GState) (o : Nat) (hw : iswhite (g.heap o)) :
    (∀ g', gc_mark (n + 1) g o = some g' → ¬ iswhite (g'.heap o)) ∧
    (MarkTyped g → ∃ g', gc_mark (n + 3) g o = some g') ∧
    ((g.heap o).gct = GCT.str ∨ (g.heap o).gct = GCT.cdata →
      gc_mark (n + 1) g o = some (g.modObj o white2gray)) ∧
    ((g.heap o).gct = GCT.udata → ∀ g', gc_mark (n + 1) g o = some g' →
      g'.heap o = gray2black (white2gray (g.heap o)) ∧ Black (g'.heap o) ∧
      ((g.heap o).metatable ≠ 0 → ¬ iswhite (g'.heap (g.heap o).metatable)) ∧
      ¬ iswhite (g'.heap (g.heap o).env) ∧ (g.gray ≠ o → g'.gray ≠ o)) ∧
    ((g.heap o).gct = GCT.upval → ∀ g', gc_mark (n + 1) g o = some g' →
      (∀ x ∈ tvRef (uvval g (g.heap o)), ¬ iswhite (g'.heap x)) ∧
      ((g.heap o).closed = true →
        g'.heap o = gray2black (white2gray (g.heap o)) ∧ Black (g'.heap o)) ∧
      ((g.heap o).closed = false →
        g'.heap o = white2gray (g.heap o) ∧ (¬ isblack (g.heap o) → isgray (g'.heap o))) ∧
      (g.gray ≠ o → g'.gray ≠ o)) ∧
    (((g.heap o).gct = GCT.tab ∨ (g.heap o).gct = GCT.func ∨ (g.heap o).gct = GCT.proto ∨
        (g.heap o).gct = GCT.thread ∨ (g.heap o).gct = GCT.trace) →
      ∃ g', gc_mark (n + 1) g o = some g' ∧
        g' = { (g.modObj o white2gray).modObj o (fun x => { x with gclist := g.gray })
               with gray := o } ∧
        g'.gray = o ∧ (g'.heap o).gclist = g.gray ∧
        (g'.heap o).marked = (g.heap o).marked &&& not8 LJ_GC_WHITES ∧
        (¬ isblack (g.heap o) → isgray (g'.heap o)) ∧
        (∀ a, a ≠ o → g'.heap a = g.heap a)) ∧
    (∀ x, ¬ iswhite (g.heap x) → gc_markobj n g x = some g) ∧
    (∀ tv, ¬ tviswhite g tv → gc_marktv n g tv = some g) := by
  have hgray : ¬ isblack (g.heap o) → isgray (white2gray (g.heap o)) := fun hb =>
    (isgray_iff _).mpr ⟨white2gray_not_white _, fun h => hb ((white2gray_black_iff _).mp h)⟩
  have hblack : Black (gray2black (white2gray (g.heap o))) :=
    ⟨gray2black_black _, gray2black_not_white (white2gray_not_white _)⟩
  refine ⟨fun g' h => (gc_mark_rel _ g o g' hw h).2, fun ht => gc_mark_total3 n g o ht,
    gc_mark_leaf n g o, ?_, ?_, ?_, ?_, ?_⟩
  · intro hg g' h
    obtain ⟨a, b, c, d⟩ := gc_mark_udata n g o g' hg h
    exact ⟨a, by rw [a]; exact hblack, b, c, d⟩
  · intro hg g' h
    obtain ⟨a, b, c⟩ := gc_mark_upval n g o g' hg h
    refine ⟨b, fun hc => ?_, fun hc => ?_, c⟩
    · rw [if_pos hc] at a
      exact ⟨a, by rw [a]; exact hblack⟩
    · rw [if_neg (by rw [hc]; decide)] at a
      exact ⟨a, fun hb => by rw [a]; exact hgray hb⟩
  · intro hg
    refine ⟨_, gc_mark_push n g o hg, rfl, rfl, ?_, ?_, ?_, ?_⟩
    · dsimp only
      rw [modObj_heap_same]
    · dsimp only
      rw [modObj_heap_same, modObj_heap_same]; rfl
    · intro hb
      dsimp only
      rw [modObj_heap_same, modObj_heap_same]
      exact hgray hb
    · intro a ha
      dsimp only
      rw [modObj_heap_ne _ _ _ _ ha, modObj_heap_ne _ _ _ _ ha]
  · intro x hx
    unfold gc_markobj
    rw [if_neg hx]
  · intro tv htv
    unfold gc_marktv
    rw [if_neg htv]

/-- Witness for `gc_mark_spec`: the white open upvalue 1 of `exOpenUv`. -/
theorem gc_mark_spec_witness :
    ∃ g', gc_mark 3 exOpenUv 1 = some g' ∧ g'.heap 1 = white2gray (exOpenUv.heap 1) ∧
      isgray (g'.heap 1) ∧ g'.gray ≠ 1 := by
  have hw : iswhite (exOpenUv.heap 1) := by decide
  obtain ⟨g', h⟩ := (gc_mark_spec 0 exOpenUv 1 hw).2.1
    ⟨fun a ha => by
        have : a ≠ 1 ∧ a ≠ 3 ∧ a ≠ 5 := by
          refine ⟨?_, ?_, ?_⟩ <;> intro e <;> subst e <;> exact absurd ha (by decide)
        exact absurd ha (by simp [exOpenUv, this.1, this.2.1, this.2.2]),
      fun a ha x hx => by
        by_cases e : a = 1
        · subst e
          have e0 : tvRef (uvval exOpenUv (exOpenUv.heap 1)) = [] := by decide
          rw [e0] at hx
          cases hx
        · have : a ≠ 3 ∧ a ≠ 5 := by
            refine ⟨?_, ?_⟩ <;> intro e <;> subst e <;> exact absurd ha (by decide)
          exact absurd ha (by simp [exOpenUv, e, this.1, this.2])⟩
  obtain ⟨_, a, b, c⟩ := (gc_mark_spec 2 exOpenUv 1 hw).2.2.2.2.1 rfl g' h
  exact ⟨g', h, (b rfl).1, (b rfl).2 (by decide), c (by decide)⟩

/-- Counterexample to C28 as stated: the white open upvalue 1 of `exOpenUv`
ends gray, but `gray` is still the table 5 with `gclist` null, so the upvalue
is not on the gray list, and its own `gclist` is untouched. -/
theorem gc_mark_open_upvalue_not_pushed :
    gc_mark 3 exOpenUv 1 = some (exOpenUv.modObj 1 white2gray) ∧
    isgray ((exOpenUv.modObj 1 white2gray).heap 1) ∧
    (exOpenUv.modObj 1 white2gray).gray = 5 ∧
    ((exOpenUv.modObj 1 white2gray).heap 5).gclist = 0 ∧
    ((exOpenUv.modObj 1 white2gray).heap 1).gclist = (exOpenUv.heap 1).gclist :=
  ⟨rfl, by decide, rfl, rfl, rfl⟩

/-! ## The string sweep, step by step -/

theorem Loc.set_restSwp (g : GState) (p : Loc) (r : Nat) : (p.set g r).restSwp = g.restSwp := by
  cases p <;> rfl

/-- The sweep loop writes nothing but the heap, the list heads, the free
log, `total` and the string count, and no hash chain but its own. -/
theorem sweepLoop_frame (inner : GState → Nat → Option GState) (ow : Nat)
    (hin : ∀ g o g', inner g o = some g' → g'.restSwp = g.restSwp ∧ g'.strhash = g.strhash) :
    ∀ (lim : Nat) (g : GState) (p : Loc) (r : GState × Loc),
    sweepLoop inner ow lim g p = some r →
    r.1.restSwp = g.restSwp ∧ ∀ j, p ≠ Loc.strhash j → r.1.strhash j = g.strhash j := by
  intro lim
  induction lim with
  | zero =>
    intro g p r h
    rw [sweepLoop] at h
    cases h
    exact ⟨rfl, fun _ _ => rfl⟩
  | succ lim ih =>
    intro g p r h
    rw [sweepLoop] at h
    dsimp only at h
    by_cases h0 : p.get g = 0
    · rw [if_pos h0] at h
      cases h
      exact ⟨rfl, fun _ _ => rfl⟩
    · rw [if_neg h0] at h
      obtain ⟨g1, hX, hY⟩ := bind_some h
      have f1 : g1.restSwp = g.restSwp ∧ g1.strhash = g.strhash := by
        by_cases ht : (g.heap (p.get g)).gct = GCT.thread
        · rw [if_pos ht] at hX; exact hin _ _ _ hX
        · rw [if_neg ht] at hX; cases hX; exact ⟨rfl, rfl⟩
      by_cases hk : ((g1.heap (p.get g)).marked ^^^ LJ_GC_WHITES) &&& ow ≠ 0
      · rw [if_pos hk] at hY
        obtain ⟨a, b⟩ := ih _ _ _ hY
        refine ⟨a.trans f1.1, fun j _ => ?_⟩
        rw [b j (fun e => by cases e)]
        exact congrFun f1.2 j
      · rw [if_neg hk] at hY
        obtain ⟨a, b⟩ := ih _ _ _ hY
        constructor
        · rw [a]
          refine Eq.trans ?_ f1.1
          split_ifs
          · exact Loc.set_restSwp g1 p _
          · exact Loc.set_restSwp g1 p _
        · intro j hj
          rw [b j hj]
          refine Eq.trans ?_ (congrFun f1.2 j)
          split_ifs
          · exact Loc.set_strhash_ne g1 p _ j hj
          · exact Loc.set_strhash_ne g1 p _ j hj

theorem gc_sweep_frame : ∀ (d : Nat) (g : GState) (p : Loc) (lim : Nat) (r : GState × Loc),
    gc_sweep d g p lim = some r →
    r.1.restSwp = g.restSwp ∧ ∀ j, p ≠ Loc.strhash j → r.1.strhash j = g.strhash j := by
  intro d
  induction d with
  | zero =>
    intro g p lim r h
    rw [gc_sweep] at h
    exact sweepLoop_frame _ _ (fun _ _ _ h => by cases h) lim g p r h
  | succ d ih =>
    intro g p lim r h
    rw [gc_sweep] at h
    refine sweepLoop_frame _ _ (fun g1 o g' h1 => ?_) lim g p r h
    cases hr : gc_sweep d g1 (Loc.openupval o) (2 ^ 32 - 1) with
    | none => rw [hr] at h1; cases h1
    | some r1 =>
      rw [hr] at h1
      cases h1
      obtain ⟨a, b⟩ := ih _ _ _ _ hr
      exact ⟨a, funext fun j => b j (fun e => by cases e)⟩

theorem restSwp_fields {g h : GState} (e : g.restSwp = h.restSwp) :
    g.sweepstr = h.sweepstr ∧ g.state = h.state ∧ g.estimate = h.estimate ∧
    g.strmask = h.strmask ∧ g.currentwhite = h.currentwhite ∧ g.memw = h.memw ∧
    g.gray = h.gray ∧ g.grayagain = h.grayagain ∧ g.weak = h.weak ∧ g.mmudata = h.mmudata ∧
    g.sweep = h.sweep ∧ g.kind = h.kind := by
  have e1 := congrArg (fun s : GState => s.sweepstr) e
  have e2 := congrArg (fun s : GState => s.state) e
  have e3 := congrArg (fun s : GState => s.estimate) e
  have e4 := congrArg (fun s : GState => s.strmask) e
  have e5 := congrArg (fun s : GState => s.currentwhite) e
  have e6 := congrArg (fun s : GState => s.memw) e
  have e7 := congrArg (fun s : GState => s.gray) e
  have e8 := congrArg (fun s : GState => s.grayagain) e
  have e9 := congrArg (fun s : GState => s.weak) e
  have e10 := congrArg (fun s : GState => s.mmudata) e
  have e11 := congrArg (fun s : GState => s.sweep) e
  have e12 := congrArg (fun s : GState => s.kind) e
  exact ⟨e1, e2, e3, e4, e5, e6, e7, e8, e9, e10, e11, e12⟩

theorem sweepstringDone_fields (g : GState) (old : Nat) :
    (sweepstringDone g old).heap = g.heap ∧ (sweepstringDone g old).strhash = g.strhash ∧
    (sweepstringDone g old).freed = g.freed ∧ (sweepstringDone g old).root = g.root ∧
    (sweepstringDone g old).total = g.total ∧ (sweepstringDone g old).strmask = g.strmask ∧
    (sweepstringDone g old).currentwhite = g.currentwhite ∧
    (sweepstringDone g old).sweepstr = (g.sweepstr + 1) % 2 ^ 32 ∧
    (sweepstringDone g old).state
      = (if (g.sweepstr + 1) % 2 ^ 32 > g.strmask then GCSsweep else g.state) ∧
    (sweepstringDone g old).estimate = subSize g g.estimate (subSize g old g.total) := by
  unfold sweepstringDone
  dsimp only
  split_ifs <;> exact ⟨rfl, rfl, rfl, rfl, rfl, rfl, rfl, rfl, rfl, rfl⟩

theorem subSize_memw {g h : GState} (e : g.memw = h.memw) (a b : Nat) :
    subSize g a b = subSize h a b := by
  unfold subSize; rw [e]

/-- One `gc_onestep` in state `GCSsweepstring` on a chain of distinct
strings: it returns at cost `GCSWEEPCOST`, with the effect `StrStep`. -/
theorem sweepstring_step_gen (vm : VM) (fuel : Nat) (g : GState) (L : Nat) (i : Nat)
    (xs : List Nat) (hs : g.state = GCSsweepstring) (hi : g.sweepstr = i)
    (hle : i ≤ g.strmask) (hlt : g.strmask + 1 < 2 ^ 32)
    (hc : Chain g (g.strhash i) xs) (hnd : xs.Nodup)
    (hth : ∀ x ∈ xs, (g.heap x).gct ≠ GCT.thread) (hl : xs.length ≤ fullLim)
    (hroot : g.root ∉ xs) :
    ∃ s, gc_onestep vm fuel g L = some (Res.ok s GCSWEEPCOST) ∧ StrStep g i xs s GCSWEEPCOST := by
  have hsw : ∃ g1 p1, gc_sweep fuel g (Loc.strhash i) (2 ^ 32 - 1) = some (g1, p1) ∧
      SweepPost g (otherwhite g) (Loc.strhash i) xs fullLim g1 p1 := by
    cases fuel with
    | zero =>
      rw [gc_sweep]
      exact sweepLoop_flat _ _ fullLim xs g (Loc.strhash i) hc hnd (fun q hq => by cases hq) hth
    | succ d =>
      rw [gc_sweep]
      exact sweepLoop_flat _ _ fullLim xs g (Loc.strhash i) hc hnd (fun q hq => by cases hq) hth
  obtain ⟨g1, p1, hrun, P⟩ := hsw
  obtain ⟨fr, fs⟩ := gc_sweep_frame fuel g (Loc.strhash i) _ _ hrun
  obtain ⟨r1, r2, r3, r4, r5, r6, _⟩ := restSwp_fields fr
  have r1' : g1.sweepstr = g.sweepstr := r1
  have r2' : g1.state = g.state := r2
  have r3' : g1.estimate = g.estimate := r3
  have r4' : g1.strmask = g.strmask := r4
  have r6' : g1.memw = g.memw := r6
  have ht : xs.take fullLim = xs := List.take_of_length_le hl
  have hd : xs.drop fullLim = [] := List.drop_of_length_le hl
  obtain ⟨d1, d2, d3, d4, d5, d6, d7, d8, d9, d10⟩ := sweepstringDone_fields g1 g.total
  have e1 : (g.sweepstr + 1) % 2 ^ 32 = i + 1 := by
    rw [hi]; exact Nat.mod_eq_of_lt (by omega)
  refine ⟨sweepstringDone g1 g.total, ?_, ?_⟩
  · unfold gc_onestep
    rw [if_neg (by rw [hs]; decide), if_neg (by rw [hs]; decide), if_neg (by rw [hs]; decide),
      if_pos hs]
    unfold gc_fullsweep
    rw [hi, hrun]; rfl
  · exact
      { cost := rfl
        chain := by
          have c := P.chain
          rw [ht, hd, List.append_nil] at c
          rw [d2]
          exact Chain.congr (fun x _ => by rw [d1]) c
        freed := by
          rw [d3, P.freed, ht]
        kept := fun x hx hk => by
          rw [d1, P.kept x (by rw [ht]; exact hx) hk]
        frame := fun a ha => by
          rw [d1]
          exact P.frame a (by rw [ht]; exact ha) (fun q hq => by cases hq)
        others := fun j hj => by
          rw [d2]
          exact fs j (fun e => hj (by injection e with e; exact e.symm))
        sweepstr := by rw [d8, r1', e1]
        state := by
          rw [d9, r1', e1, r4', r2', hs]
          by_cases e : i = g.strmask
          · rw [if_pos e, if_pos (by omega)]
          · rw [if_neg e, if_neg (by omega)]
        estimate := by
          rw [d10, d5, r3', subSize_memw r6', subSize_memw r6']
        strmask := by rw [d6, r4']
        root := by
          rw [d4]
          exact P.root (fun e => by cases e) (by rw [ht]; exact hroot)
        white := by rw [d7]; exact P.white }

theorem stepsOK_cons {vm : VM} {fuel L : Nat} {g : GState} {x : GState × Nat}
    {tr : List (GState × Nat)} (h1 : gc_onestep vm fuel g L = some (Res.ok x.1 x.2))
    (h2 : stepsOK vm fuel L x.1 tr) : stepsOK vm fuel L g (x :: tr) := ⟨h1, h2⟩

/-- The steps of `gc_onestep` through the hash chains `i..strmask`: one step
per chain, each with the effect `StrStep`, the last one alone reaching
`GCSsweep`; at the end every chain holds the strings that passed the sweep
test at the start, and the others have been freed chain by chain. -/
theorem sweepstring_run (vm : VM) (fuel : Nat) (L : Nat) (S : Nat → List Nat) :
    ∀ (k i : Nat) (g : GState),
    i + k = g.strmask → g.strmask + 1 < 2 ^ 32 → g.state = GCSsweepstring → g.sweepstr = i →
    (∀ j, i ≤ j → j ≤ g.strmask → Chain g (g.strhash j) (S j)) →
    (∀ j, i ≤ j → j ≤ g.strmask → ∀ s ∈ S j, (g.heap s).gct ≠ GCT.thread) →
    (∀ j, i ≤ j → j ≤ g.strmask → (S j).length ≤ fullLim) →
    (∀ j, i ≤ j → j ≤ g.strmask → g.root ∉ S j) →
    (((List.range (k + 1)).map (fun j => S (i + j))).flatten).Nodup →
    ∃ tr sN, tr.length = k ∧ stepsOK vm fuel L g (tr ++ [(sN, GCSWEEPCOST)]) ∧
      strRun S i g (tr ++ [(sN, GCSWEEPCOST)]) ∧
      (∀ x ∈ tr, x.1.state = GCSsweepstring ∧ x.2 = GCSWEEPCOST) ∧
      sN.state = GCSsweep ∧ sN.sweepstr = g.strmask + 1 ∧ sN.strmask = g.strmask ∧
      sN.root = g.root ∧ sN.currentwhite = g.currentwhite ∧
      (∀ j, i ≤ j → j ≤ g.strmask →
        Chain sN (sN.strhash j)
          ((S j).filter (fun x => decide (sweepKeeps g (otherwhite g) x)))) ∧
      sN.freed = (((List.range (k + 1)).map (fun j =>
          (S (i + j)).filter (fun x => decide (¬ sweepKeeps g (otherwhite g) x)))).flatten).reverse
        ++ g.freed ∧
      (∀ a, (∀ j, i ≤ j → j ≤ g.strmask → a ∉ S j) → sN.heap a = g.heap a) ∧
      (∀ j, j < i → sN.strhash j = g.strhash j) := by
  intro k
  induction k with
  | zero =>
    intro i g hik hmask hs hi hc hth hl hroot hnd
    have hle : i ≤ g.strmask := by omega
    obtain ⟨hndi, _, _⟩ := nodup_flatten_range 0 i hnd
    obtain ⟨s, h1, P⟩ := sweepstring_step_gen vm fuel g L i (S i) hs hi hle hmask
      (hc i (le_refl _) hle) hndi (hth i (le_refl _) hle) (hl i (le_refl _) hle)
      (hroot i (le_refl _) hle)
    have hj : ∀ j, i ≤ j → j ≤ g.strmask → j = i := fun j a b => by omega
    refine ⟨[], s, rfl, ⟨h1, trivial⟩, ⟨P, trivial⟩, fun x hx => absurd hx (List.not_mem_nil x),
      ?_, ?_, P.strmask, P.root, P.white, ?_, ?_, ?_, ?_⟩
    · rw [P.state, if_pos (by omega)]
    · rw [P.sweepstr]; omega
    · intro j a b
      rw [hj j a b]; exact P.chain
    · rw [flatten_range_succ (fun j =>
        (S j).filter (fun x => decide (¬ sweepKeeps g (otherwhite g) x))) 0 i]
      simp only [List.range_zero, List.map_nil, List.flatten_nil, List.append_nil]
      exact P.freed
    · intro a ha
      exact P.frame a (ha i (le_refl _) hle)
    · intro j hj
      exact P.others j (by omega)
  | succ k ih =>
    intro i g hik hmask hs hi hc hth hl hroot hnd
    have hle : i ≤ g.strmask := by omega
    obtain ⟨hndi, hndr, hdisj⟩ := nodup_flatten_range (k + 1) i hnd
    obtain ⟨s, h1, P⟩ := sweepstring_step_gen vm fuel g L i (S i) hs hi hle hmask
      (hc i (le_refl _) hle) hndi (hth i (le_refl _) hle) (hl i (le_refl _) hle)
      (hroot i (le_refl _) hle)
    have hst : s.state = GCSsweepstring := by rw [P.state, if_neg (by omega)]
    have hoff : ∀ j, i + 1 ≤ j → j ≤ g.strmask → ∀ x ∈ S j, s.heap x = g.heap x :=
      fun j a b x hx => P.frame x (hdisj j a (by omega) x hx)
    have hsm : s.strmask = g.strmask := P.strmask
    obtain ⟨tr, sN, t1, t2, t3, t4, t5, t6, t7, t8, t9, t10, t11, t12, t13⟩ :=
      ih (i + 1) s (by rw [hsm]; omega) (by rw [hsm]; exact hmask) hst P.sweepstr
        (fun j a b => by
          rw [hsm] at b
          rw [P.others j (by omega)]
          exact Chain.congr (fun x hx => by rw [hoff j a b x hx]) (hc j (by omega) b))
        (fun j a b x hx => by
          rw [hsm] at b
          rw [hoff j a b x hx]; exact hth j (by omega) b x hx)
        (fun j a b => by rw [hsm] at b; exact hl j (by omega) b)
        (fun j a b => by rw [hsm] at b; rw [P.root]; exact hroot j (by omega) b)
        hndr
    have how : otherwhite s = otherwhite g := otherwhite_congr P.white
    rw [hsm] at t6 t7 t10 t12
    refine ⟨(s, GCSWEEPCOST) :: tr, sN, by rw [List.length_cons, t1], ⟨h1, t2⟩, ⟨P, t3⟩, ?_,
      t5, t6, t7, t8.trans P.root, t9.trans P.white, ?_, ?_, ?_, ?_⟩
    · intro x hx
      rcases List.mem_cons.mp hx with e | hx
      · rw [e]; exact ⟨hst, rfl⟩
      · exact t4 x hx
    · intro j a b
      by_cases e : j = i
      · subst e
        rw [t13 j (by omega)]
        refine Chain.congr (fun x hx => ?_) P.chain
        have hx2 : x ∈ S j := (List.mem_filter.mp hx).1
        rw [t12 x (fun j2 a2 b2 hm => hdisj j2 a2 (by omega) x hm hx2)]
      · have c := t10 j (by omega) b
        rw [how, filter_keep_congr (hoff j (by omega) b)] at c
        exact c
    · rw [t11, P.freed, flatten_range_succ (fun j =>
        (S j).filter (fun x => decide (¬ sweepKeeps g (otherwhite g) x))) (k + 1) i,
        List.reverse_append, List.append_assoc]
      congr 2
      congr 1
      refine List.map_congr_left (fun j hj => ?_)
      rw [how]
      refine List.filter_congr (fun y hy => ?_)
      have hj2 := List.mem_range.mp hj
      have : sweepKeeps s (otherwhite g) y ↔ sweepKeeps g (otherwhite g) y :=
        sweepKeeps_congr (by rw [hoff (i + 1 + j) (by omega) (by omega) y hy])
      simp only [this]
    · intro a ha
      rw [t12 a (fun j a2 b2 => ha j (by omega) b2)]
      exact P.frame a (ha i (le_refl _) hle)
    · intro j hj
      rw [t13 j (by omega)]
      exact P.others j (by omega)

/-- C30: from state `GCSsweepstring` with `sweepstr = 0`, on hash chains
`0..strmask` of pairwise distinct strings (`strmask + 1` a 32-bit value),
`strmask + 1` consecutive calls of `gc_onestep` return, each at cost
`GCSWEEPCOST`.  The call number `i` sweeps chain `i` and no other (`StrStep`):
the chain keeps, in order and recolored, the strings that pass the sweep
test, the others are freed in order, `sweepstr` becomes `i + 1`, and
`estimate` drops by exactly what `total` dropped.  The state is
`GCSsweepstring` after every call but the last, which sweeps chain `strmask`
and leaves `GCSsweep`.  At the end every chain holds the strings that passed
the test at the start and the free log has grown by the others, chain after
chain. -/
theorem sweepstring_steps_spec (vm : VM) (fuel : Nat) (g : GState) (L : Nat)
    (S : Nat → List Nat) (hs : g.state = GCSsweepstring) (hi : g.sweepstr = 0)
    (hmask : g.strmask + 1 < 2 ^ 32)
    (hc : ∀ j, j ≤ g.strmask → Chain g (g.strhash j) (S j))
    (hth : ∀ j, j ≤ g.strmask → ∀ s ∈ S j, (g.heap s).gct ≠ GCT.thread)
    (hl : ∀ j, j ≤ g.strmask → (S j).length ≤ fullLim)
    (hroot : ∀ j, j ≤ g.strmask → g.root ∉ S j)
    (hnd : (((List.range (g.strmask + 1)).map S).flatten).Nodup) :
    ∃ tr sN, tr.length = g.strmask ∧ stepsOK vm fuel L g (tr ++ [(sN, GCSWEEPCOST)]) ∧
      strRun S 0 g (tr ++ [(sN, GCSWEEPCOST)]) ∧
      (∀ x ∈ tr, x.1.state = GCSsweepstring ∧ x.2 = GCSWEEPCOST) ∧
      sN.state = GCSsweep ∧ sN.sweepstr = g.strmask + 1 ∧
      (∀ j, j ≤ g.strmask →
        Chain sN (sN.strhash j)
          ((S j).filter (fun x => decide (sweepKeeps g (otherwhite g) x)))) ∧
      sN.freed = (((List.range (g.strmask + 1)).map (fun j =>
          (S j).filter (fun x => decide (¬ sweepKeeps g (otherwhite g) x)))).flatten).reverse
        ++ g.freed ∧
      (∀ a, (∀ j, j ≤ g.strmask → a ∉ S j) → sN.heap a = g.heap a) := by
  have hS0 : (fun j => S (0 + j)) = S := by funext j; rw [Nat.zero_add]
  have hS1 : (fun j => (S (0 + j)).filter (fun x => decide (¬ sweepKeeps g (otherwhite g) x)))
      = (fun j => (S j).filter (fun x => decide (¬ sweepKeeps g (otherwhite g) x))) := by
    funext j; rw [Nat.zero_add]
  obtain ⟨tr, sN, t1, t2, t3, t4, t5, t6, _, _, _, t10, t11, t12, _⟩ :=
    sweepstring_run vm fuel L S g.strmask 0 g (Nat.zero_add _) hmask hs hi
      (fun j _ b => hc j b) (fun j _ b => hth j b) (fun j _ b => hl j b)
      (fun j _ b => hroot j b) (by rw [hS0]; exact hnd)
  rw [hS1] at t11
  exact ⟨tr, sN, t1, t2, t3, t4, t5, t6, fun j b => t10 j (Nat.zero_le _) b, t11,
    fun a ha => t12 a (fun j _ b => ha j b)⟩

/-- Witness for `sweepstring_steps_spec`: the two chains of `exStrSweep` take
two steps; the dead strings 7 and then 8 are freed, the live string 6
stays. -/
theorem sweepstring_steps_spec_witness :
    ∃ tr sN, tr.length = 1 ∧ stepsOK quietVM 3 1 exStrSweep (tr ++ [(sN, GCSWEEPCOST)]) ∧
      sN.state = GCSsweep ∧ sN.freed = [8, 7] ∧ Chain sN (sN.strhash 0) [6] := by
  have hj : ∀ j, j ≤ exStrSweep.strmask → j = 0 ∨ j = 1 := fun j hj => by
    have : j ≤ 1 := hj
    omega
  obtain ⟨tr, sN, t1, t2, _, _, t5, _, t7, t8, _⟩ :=
    sweepstring_steps_spec quietVM 3 exStrSweep 1 exStrSweepS rfl rfl (by decide)
      (fun j h => by
        rcases hj j h with e | e <;> subst e
        · exact ⟨rfl, by decide, rfl, by decide, rfl⟩
        · exact ⟨rfl, by decide, rfl⟩)
      (fun j h s hs => by
        rcases hj j h with e | e <;> subst e
        · have : s = 6 ∨ s = 7 := by simpa [exStrSweepS] using hs
          rcases this with e | e <;> subst e <;> decide
        · have : s = 8 := by simpa [exStrSweepS] using hs
          subst this; decide)
      (fun j h => by rcases hj j h with e | e <;> subst e <;> decide)
      (fun j h => by rcases hj j h with e | e <;> subst e <;> decide)
      (by decide)
  refine ⟨tr, sN, t1, t2, t5, ?_, ?_⟩
  · rw [t8]; decide
  · have c := t7 0 (by decide)
    have e : (exStrSweepS 0).filter
        (fun x => decide (sweepKeeps exStrSweep (otherwhite exStrSweep) x)) = [6] := by decide
    rw [e] at c; exact c

theorem Stay.yrefl (o : Nat) (g : GState) : Stay o g g :=
  ⟨fun _ _ => ⟨rfl, rfl⟩, rfl, rfl, rfl⟩

theorem Stay.ytrans {o : Nat} {a b c : GState} (h1 : Stay o a b) (h2 : Stay o b c) :
    Stay o a c := by
  refine ⟨fun hw hm => ?_, h2.grayagain.trans h1.grayagain, h2.weak.trans h1.weak,
    h2.kind.trans h1.kind⟩
  obtain ⟨e1, e2⟩ := h1.obj hw hm
  have hw' : ¬ iswhite (b.heap o) := by
    unfold iswhite at hw ⊢; rw [e1]; exact hw
  obtain ⟨e3, e4⟩ := h2.obj hw' (by rw [e1]; exact hm)
  exact ⟨e3.trans e1, e4.trans e2⟩

theorem Stay.smod (o : Nat) (g : GState) (a : Nat) (f : GCobj → GCobj)
    (hf : ¬ iswhite (g.heap a) → (g.heap a).marked < 256 →
      (f (g.heap a)).marked = (g.heap a).marked ∧ (f (g.heap a)).gclist = (g.heap a).gclist) :
    Stay o g (g.modObj a f) := by
  refine ⟨fun hw hm => ?_, rfl, rfl, rfl⟩
  rw [modObj_heap]
  split_ifs with e
  · subst e; exact hf hw hm
  · exact ⟨rfl, rfl⟩

theorem Stay.sflds (o : Nat) {g g' : GState} (h1 : g'.heap = g.heap)
    (h2 : g'.grayagain = g.grayagain) (h3 : g'.weak = g.weak) (h4 : g'.kind = g.kind) :
    Stay o g g' :=
  ⟨fun _ _ => by rw [h1]; exact ⟨rfl, rfl⟩, h2, h3, h4⟩

theorem Stay.sguard {o : Nat} (c : Prop) [Decidable c] {X : Option GState} {g g' : GState}
    (hX : ∀ g1, X = some g1 → Stay o g g1)
    (h : (if c then X else some g) = some g') : Stay o g g' := by
  by_cases hc : c
  · rw [if_pos hc] at h; exact hX g' h
  · rw [if_neg hc] at h; cases h; exact Stay.yrefl o g

theorem Stay.sbind {o : Nat} {X : Option GState} {f : GState → Option GState} {g g' : GState}
    (hX : ∀ g1, X = some g1 → Stay o g g1)
    (hf : ∀ g1 g2, X = some g1 → f g1 = some g2 → Stay o g1 g2)
    (h : X.bind f = some g') : Stay o g g' := by
  obtain ⟨g1, h1, h2⟩ := bind_some h
  exact (hX g1 h1).ytrans (hf g1 g' h1 h2)

theorem MarkRel.stay {g g' : GState} (h : MarkRel g g') (o : Nat) : Stay o g g' := by
  refine ⟨fun hw _ => ?_, ?_, ?_, ?_⟩
  · rw [h.nonwhite o hw]; exact ⟨rfl, rfl⟩
  · exact (show g'.restMark.grayagain = g.restMark.grayagain by rw [h.frame])
  · exact (show g'.restMark.weak = g.restMark.weak by rw [h.frame])
  · exact (show g'.restMark.kind = g.restMark.kind by rw [h.frame])

theorem gc_markobj_stay (o n : Nat) (g : GState) (a : Nat) (g' : GState)
    (h : gc_markobj n g a = some g') : Stay o g g' := by
  unfold gc_markobj at h
  by_cases hw : iswhite (g.heap a)
  · rw [if_pos hw] at h
    exact (gc_mark_rel n g a g' hw h).1.stay o
  · rw [if_neg hw] at h; cases h; exact Stay.yrefl o g

theorem gc_marktv_stay (o n : Nat) (g : GState) (tv : TValue) (g' : GState)
    (h : gc_marktv n g tv = some g') : Stay o g g' := by
  unfold gc_marktv at h
  by_cases hw : tviswhite g tv
  · rw [if_pos hw] at h
    exact (gc_mark_rel n g _ g' hw.2 h).1.stay o
  · rw [if_neg hw] at h; cases h; exact Stay.yrefl o g

theorem loopM_stay (o : Nat) (f : Nat → GState → Option GState)
    (hf : ∀ i g g', f i g = some g' → Stay o g g') :
    ∀ (k i : Nat) (g g' : GState), loopM f k i g = some g' → Stay o g g'
  | 0, _, g, g', h => by cases h; exact Stay.yrefl o g
  | k + 1, i, g, g', h => by
    unfold loopM at h
    exact Stay.sbind (fun g1 h1 => hf i g g1 h1)
      (fun g1 g2 _ h2 => loopM_stay o f hf k (i + 1) g1 g2 h2) h

theorem traverseNode_stay (o fuel t weak i : Nat) (g g' : GState)
    (h : traverseNode fuel t weak i g = some g') : Stay o g g' := by
  unfold traverseNode at h
  simp only [] at h
  split at h
  · cases h; exact Stay.yrefl o g
  · exact Stay.sbind (fun g1 h1 => Stay.sguard _ (fun g2 h2 => gc_marktv_stay o _ _ _ _ h2) h1)
      (fun g1 g2 _ h2 => Stay.sguard _ (fun g3 h3 => gc_marktv_stay o _ _ _ _ h3) h2) h

theorem gc_traverse_func_stay (o fuel : Nat) (g : GState) (fn : Nat) (g' : GState)
    (h : gc_traverse_func fuel g fn = some g') : Stay o g g' := by
  unfold gc_traverse_func at h
  refine Stay.sbind (fun g1 h1 => gc_markobj_stay o _ _ _ _ h1) (fun g1 g2 _ h2 => ?_) h
  split at h2
  · refine Stay.sbind (fun g3 h3 => gc_markobj_stay o _ _ _ _ h3) (fun g3 g4 _ h4 => ?_) h2
    exact loopM_stay o _ (fun i a b hab => gc_markobj_stay o _ _ _ _ hab) _ _ _ _ h4
  · exact loopM_stay o _ (fun i a b hab => gc_marktv_stay o _ _ _ _ hab) _ _ _ _ h2

theorem gc_marktrace_stay (o : Nat) (g : GState) (traceno : Nat) :
    Stay o g (gc_marktrace g traceno) := by
  unfold gc_marktrace
  simp only []
  split
  · rename_i hw
    refine ⟨fun hn _ => ?_, rfl, rfl, rfl⟩
    have hne : o ≠ g.traceref traceno := fun e => hn (e ▸ hw)
    dsimp only
    rw [modObj_heap_ne _ _ _ _ hne, modObj_heap_ne _ _ _ _ hne]
    exact ⟨rfl, rfl⟩
  · exact Stay.yrefl o g

theorem traverseIR_stay (o fuel T : Nat) : ∀ (k ref : Nat) (g g' : GState),
    traverseIR fuel T k ref g = some g' → Stay o g g'
  | 0, _, g, g', h => by cases h; exact Stay.yrefl o g
  | k + 1, ref, g, g', h => by
    unfold traverseIR at h
    simp only [] at h
    split at h
    · exact Stay.sbind (fun g1 h1 => Stay.sguard _ (fun g2 h2 => gc_markobj_stay o _ _ _ _ h2) h1)
        (fun g1 g2 _ h2 => traverseIR_stay o fuel T k _ g1 g2 h2) h
    · cases h; exact Stay.yrefl o g

theorem gc_traverse_trace_stay (o fuel : Nat) (g : GState) (T : Nat) (g' : GState)
    (h : gc_traverse_trace fuel g T = some g') : Stay o g g' := by
  unfold gc_traverse_trace at h
  split at h
  · cases h; exact Stay.yrefl o g
  · refine Stay.sbind (fun g1 h1 => traverseIR_stay o _ _ _ _ _ _ h1) (fun g1 g2 _ h2 => ?_) h
    simp only [] at h2
    have q1 : Stay o g1 (if (g1.heap T).link ≠ 0 then gc_marktrace g1 (g1.heap T).link
        else g1) := by
      split
      · exact gc_marktrace_stay o _ _
      · exact Stay.yrefl o _
    refine q1.ytrans ?_
    generalize (if (g1.heap T).link ≠ 0 then gc_marktrace g1 (g1.heap T).link else g1) = G1 at h2 ⊢
    have q2 : Stay o G1 (if (G1.heap T).nextroot ≠ 0 then gc_marktrace G1 (G1.heap T).nextroot
        else G1) := by
      split
      · exact gc_marktrace_stay o _ _
      · exact Stay.yrefl o _
    refine q2.ytrans ?_
    generalize (if (G1.heap T).nextroot ≠ 0 then gc_marktrace G1 (G1.heap T).nextroot
        else G1) = G2 at h2 ⊢
    have q3 : Stay o G2 (if (G2.heap T).nextside ≠ 0 then gc_marktrace G2 (G2.heap T).nextside
        else G2) := by
      split
      · exact gc_marktrace_stay o _ _
      · exact Stay.yrefl o _
    exact q3.ytrans (gc_markobj_stay o _ _ _ _ h2)

set_option maxRecDepth 100000 in

theorem mark_str_keeps (x : GCobj) (hw : ¬ iswhite x) (hm : x.marked < 256) :
    (gc_mark_str x).marked = x.marked ∧ (gc_mark_str x).gclist = x.gclist := by
  refine ⟨?_, rfl⟩
  unfold iswhite at hw
  have h0 : x.marked &&& LJ_GC_WHITES = 0 := not_not.mp hw
  show x.marked &&& not8 LJ_GC_WHITES = x.marked
  generalize x.marked = m at hm h0 ⊢
  revert h0
  revert m
  decide

theorem gc_traverse_proto_stay (o fuel : Nat) (g : GState) (pt : Nat) (g' : GState)
    (h : gc_traverse_proto fuel g pt = some g') : Stay o g g' := by
  unfold gc_traverse_proto at h
  simp only [] at h
  refine (Stay.smod o g (g.heap pt).chunkname gc_mark_str
    (fun hw hm => mark_str_keeps _ hw hm)).ytrans ?_
  refine Stay.sbind (fun g1 h1 => loopM_stay o _ (fun i a b hab => gc_markobj_stay o _ _ _ _ hab)
    _ _ _ _ h1) (fun g1 g2 _ h2 => ?_) h
  split at h2
  · cases h2; exact gc_marktrace_stay o _ _
  · cases h2; exact Stay.yrefl o _

theorem traverseFrames_stay (o fuel th : Nat) : ∀ (k i : Nat) (acc : Int) (g : GState)
    (r : GState × Int), traverseFrames fuel th k i acc g = some r → Stay o g r.1
  | 0, _, _, g, r, h => by cases h; exact Stay.yrefl o g
  | k + 1, i, acc, g, r, h => by
    unfold traverseFrames at h
    simp only [] at h
    obtain ⟨g1, h1, h2⟩ := bind_some h
    exact (Stay.sguard _ (fun g2 h2 => gc_markobj_stay o _ _ _ _ h2) h1).ytrans
      (traverseFrames_stay o fuel th k _ _ g1 r h2)

theorem gc_traverse_frames_stay (o fuel : Nat) (g : GState) (th : Nat) (r : GState × Nat)
    (h : gc_traverse_frames fuel g th = some r) : Stay o g r.1 := by
  unfold gc_traverse_frames at h
  obtain ⟨r1, h1, h2⟩ := bind_some h
  cases h2
  exact traverseFrames_stay o _ _ _ _ _ _ r1 h1

theorem lj_state_shrinkstack_stay (o : Nat) (g : GState) (th used : Nat) :
    Stay o g (lj_state_shrinkstack g th used) := by
  unfold lj_state_shrinkstack
  simp only []
  split
  · refine ⟨fun _ _ => ?_, rfl, rfl, rfl⟩
    dsimp only
    rw [modObj_heap]
    split_ifs with e
    · subst e; exact ⟨rfl, rfl⟩
    · exact ⟨rfl, rfl⟩
  · exact Stay.yrefl o g

theorem gc_traverse_thread_stay (o fuel : Nat) (g : GState) (th : Nat) (g' : GState)
    (h : gc_traverse_thread fuel g th = some g') : Stay o g g' := by
  unfold gc_traverse_thread at h
  simp only [] at h
  obtain ⟨g1, h1, h⟩ := bind_some h
  obtain ⟨g2, h2, h⟩ := bind_some h
  obtain ⟨r, h3, h⟩ := bind_some h
  cases h
  have q1 : Stay o g g1 :=
    loopM_stay o _ (fun i a b hab => gc_marktv_stay o _ _ _ _ hab) _ _ _ _ h1
  have q3 := gc_traverse_frames_stay o _ _ _ _ h3
  have q2 := gc_markobj_stay o _ _ _ _ h2
  refine q1.ytrans (Stay.ytrans ?_ (q2.ytrans (q3.ytrans (lj_state_shrinkstack_stay o _ _ _))))
  split
  · exact Stay.smod o g1 th _ (fun _ _ => ⟨rfl, rfl⟩)
  · exact Stay.yrefl o _

theorem color_congr {x y : GCobj} (h : x.marked = y.marked) :
    (iswhite x ↔ iswhite y) ∧ (isblack x ↔ isblack y) ∧ (isgray x ↔ isgray y) := by
  unfold iswhite isblack isgray
  rw [h]
  exact ⟨Iff.rfl, Iff.rfl, Iff.rfl⟩

theorem Quiet.tabWeak_eq {g g' : GState} (q : Quiet g g') (mt : Nat) :
    tabWeak g' mt = tabWeak g mt := by
  unfold tabWeak metaMode
  have e : (g'.heap mt).mmMode = (g.heap mt).mmMode :=
    (show (coreObj (g'.heap mt)).mmMode = (coreObj (g.heap mt)).mmMode by rw [q.core mt])
  rw [e]

theorem Quiet.finalizer_eq {g g' : GState} (q : Quiet g g') :
    g'.ctsFinalizer = g.ctsFinalizer :=
  (show g'.restAtomic.ctsFinalizer = g.restAtomic.ctsFinalizer by rw [q.rest])

theorem Quiet.metatable_eq {g g' : GState} (q : Quiet g g') (a : Nat) :
    (g'.heap a).metatable = (g.heap a).metatable :=
  (show (coreObj (g'.heap a)).metatable = (coreObj (g.heap a)).metatable by rw [q.core a])

theorem tabSetWeak_snd (g : GState) (t w0 : Nat) :
    (tabSetWeak g t w0).2 =
      if w0 ≠ 0 then (if g.ctsFinalizer = some t then weakFin else w0) else w0 := by
  unfold tabSetWeak
  split_ifs <;> rfl

theorem Quiet.tabWeakness_eq {g g' : GState} (q : Quiet g g') (t : Nat) :
    (tabSetWeak g' t (tabWeak g' (g.heap t).metatable)).2 = tabWeakness g t := by
  unfold tabWeakness
  rw [tabSetWeak_snd, tabSetWeak_snd, q.tabWeak_eq, q.finalizer_eq]

/-- The marking loops of `gc_traverse_tab` leave the table alone; only the
generational tail relinks it. -/
theorem tabMarkParts_out (o fuel : Nat) (g : GState) (t weak : Nat) (r : GState × Nat)
    (h : tabMarkParts fuel g t weak = some r) :
    ∃ g3, Stay o g g3 ∧
      r = if weak = 0 ∧ g3.kind = GCKind.gen then
          (({ g3.modObj t (fun x => { x with gclist := g3.grayagain }) with
              grayagain := t }).modObj t black2gray, weak)
        else (g3, weak) := by
  unfold tabMarkParts at h
  obtain ⟨g1, h1, h⟩ := bind_some h
  obtain ⟨g2, h2, h⟩ := bind_some h
  have q1 : Stay o g g1 :=
    Stay.sguard _ (fun g3 h3 => loopM_stay o _ (fun i a b hab => gc_marktv_stay o _ _ _ _ hab)
      _ _ _ _ h3) h1
  have q2 : Stay o g1 g2 :=
    Stay.sguard _ (fun g3 h3 => loopM_stay o _
      (fun i a b hab => traverseNode_stay o _ _ _ _ _ _ hab) _ _ _ _ h3) h2
  refine ⟨g2, q1.ytrans q2, ?_⟩
  split at h
  · rename_i hc
    rw [if_pos hc]
    cases h; rfl
  · rename_i hc
    rw [if_neg hc]
    cases h; rfl

set_option maxRecDepth 100000 in

theorem weak_gray_byte : ∀ m, m < 256 →
    ((((m ||| 4) &&& not8 LJ_GC_WEAK) ||| 8) % 256 &&& 3 = m &&& 3 ∧
      ((((m ||| 4) &&& not8 LJ_GC_WEAK) ||| 8) % 256 &&& not8 LJ_GC_BLACK) &&& 7 = m &&& 3) ∧
    ((((m ||| 4) &&& not8 LJ_GC_WEAK) ||| 16) % 256 &&& 3 = m &&& 3 ∧
      ((((m ||| 4) &&& not8 LJ_GC_WEAK) ||| 16) % 256 &&& not8 LJ_GC_BLACK) &&& 7 = m &&& 3) ∧
    ((((m ||| 4) &&& not8 LJ_GC_WEAK) ||| 24) % 256 &&& 3 = m &&& 3 ∧
      ((((m ||| 4) &&& not8 LJ_GC_WEAK) ||| 24) % 256 &&& not8 LJ_GC_BLACK) &&& 7 = m &&& 3) := by
  decide

theorem weak_gray_bits (m w : Nat) (hm : m < 256) (h3 : m &&& 3 = 0)
    (hw : w = 8 ∨ w = 16 ∨ w = 24) :
    (((m ||| 4) &&& not8 LJ_GC_WEAK) ||| w) % 256 &&& 3 = 0 ∧
    ((((m ||| 4) &&& not8 LJ_GC_WEAK) ||| w) % 256 &&& not8 LJ_GC_BLACK) &&& 7 = 0 := by
  obtain ⟨a, b, c⟩ := weak_gray_byte m hm
  rcases hw with e | e | e <;> subst e
  · exact ⟨a.1.trans h3, a.2.trans h3⟩
  · exact ⟨b.1.trans h3, b.2.trans h3⟩
  · exact ⟨c.1.trans h3, c.2.trans h3⟩

theorem int32Pos_weakFin : ¬ int32Pos weakFin := by decide

theorem int32Pos_zero : ¬ int32Pos 0 := by decide

/-- What `propagatemark` leaves of the gray list once the head `o` has been
popped and traversed: the rest, preceded by objects that were white. -/
theorem popped_gray {S : Finset Nat} {g : GState} {o : Nat} {rest : List Nat}
    (hgray : GrayB g (o :: rest)) (hS : WhiteIn g S) {g' : GState}
    (r : PropBase o S (popGray g) g') :
    ∃ new, GrayB g' (new ++ rest) ∧ (∀ x ∈ new, iswhite (g.heap x)) ∧ o ∉ new ++ rest := by
  obtain ⟨bpop, gG, ho, hne⟩ := popGray_base S hgray
  have hnw : ¬ iswhite (g.heap o) := (hgray.ok o (List.mem_cons_self _ _)).1
  have hnw' : ¬ iswhite ((popGray g).heap o) := bpop.nonwhite hnw
  obtain ⟨new, gn, hw, _⟩ := r.gray rest gG ho hnw' (bpop.bwhiteIn hS)
  have hx : ∀ x ∈ new, x ≠ o := fun x hx e => hnw' (e ▸ hw x hx)
  refine ⟨new, gn, fun x h => ?_, ?_⟩
  · have := hw x h
    rw [hne x (hx x h)] at this
    exact this
  · intro hm
    rcases List.mem_append.mp hm with h | h
    · exact hx o h rfl
    · exact ho h

theorem propagatemark_total {S : Finset Nat} {g : GState} {o : Nat} {rest : List Nat}
    (fuel : Nat) (hgray : GrayB g (o :: rest)) (h0 : ¬ iswhite (g.heap 0)) (htr : TraceOK g)
    (hS : WhiteIn g S) (hf : mu S g ≤ fuel) :
    ∃ r, propagatemark fuel g = some r ∧ PropBase o S (popGray g) r.1 := by
  have hgo : g.gray = o := hgray.chain.1
  have hnw : ¬ iswhite (g.heap o) := (hgray.ok o (List.mem_cons_self _ _)).1
  have c : Ctx o S fuel (popGray g) :=
    Ctx.step ⟨hnw, h0, htr, hS, hf⟩ (popGray_base S hgray).1
  have htv := (hgray.ok o (List.mem_cons_self _ _)).2
  have hgct : ((popGray g).heap o).gct = (g.heap o).gct :=
    (shapeS_fields ((popGray_base S hgray).1.shape o)).gct
  rw [propagatemark_eq, hgo]
  cases hgc : (g.heap o).gct <;> simp only []
  case str => exact absurd hgc htv.1
  case upval => exact absurd hgc htv.2.1
  case udata => exact absurd hgc htv.2.2.1
  case cdata => exact absurd hgc htv.2.2.2
  case func =>
    obtain ⟨g', h, r, _⟩ := gc_traverse_func_spec c (hgct.trans hgc)
    rw [h]
    exact ⟨_, rfl, r.base⟩
  case proto =>
    obtain ⟨g', h, r, _⟩ := gc_traverse_proto_spec c (hgct.trans hgc)
    rw [h]
    exact ⟨_, rfl, r.base⟩
  case trace =>
    obtain ⟨g', h, r, _⟩ := gc_traverse_trace_spec c (hgct.trans hgc)
    rw [h]
    exact ⟨_, rfl, r.base⟩
  case tab =>
    obtain ⟨g', w, h, r, _⟩ := gc_traverse_tab_spec c (hgct.trans hgc)
    rw [h]
    simp only [Option.some_bind]
    by_cases hp : int32Pos w
    · rw [if_pos hp]
      exact ⟨_, rfl, (r.trans (PropRel.b2g o S g' (r.base.nonwhite c.cur))).base⟩
    · rw [if_neg hp]
      exact ⟨_, rfl, r.base⟩
  case thread =>
    have s1 := PropRel.relink o S (popGray g) (popGray g).grayagain c.cur
    have s2 := with_grayagain_rel o S
      ((popGray g).modObj o (fun x => { x with gclist := (popGray g).grayagain })) o
    have s3 := PropRel.b2g o S _ ((s1.trans s2).base.nonwhite c.cur)
    have s := s1.trans (s2.trans s3)
    obtain ⟨g', h, r⟩ := gc_traverse_thread_spec (c.step s.base)
    rw [h]
    exact ⟨_, rfl, (s.trans r).base⟩

theorem popGray_at (g : GState) : (popGray g).heap g.gray = gray2black (g.heap g.gray) := by
  rw [popGray_heap, modObj_heap_same]

theorem g2b_lt {m : Nat} (h : m < 256) : m ||| LJ_GC_BLACK < 256 :=
  @Nat.or_lt_two_pow m LJ_GC_BLACK 8 h (by decide)

theorem b2g_lt (m : Nat) : m &&& not8 LJ_GC_BLACK < 256 :=
  Nat.lt_of_le_of_lt Nat.and_le_right (by decide)

/-- An object that `propagatemark` has made black and whose traversal leaves
it alone is black at the end. -/
theorem popped_black (g : GState) (hnw : ¬ iswhite (g.heap g.gray))
    (hm : (g.heap g.gray).marked < 256) (g' : GState) (st : Stay g.gray (popGray g) g') :
    Black (g'.heap g.gray) := by
  have hPnw : ¬ iswhite ((popGray g).heap g.gray) := by
    rw [popGray_at]; exact gray2black_not_white hnw
  have hPm : ((popGray g).heap g.gray).marked < 256 := by
    rw [popGray_at]; exact g2b_lt hm
  obtain ⟨e, _⟩ := st.obj hPnw hPm
  have cc := color_congr e
  exact ⟨cc.2.1.mpr (by rw [popGray_at]; exact gray2black_black _), fun hw => hPnw (cc.1.mp hw)⟩

theorem propagatemark_black (fuel : Nat) (g : GState) (r : GState × Nat)
    (h : propagatemark fuel g = some r) (hnw : ¬ iswhite (g.heap g.gray))
    (hm : (g.heap g.gray).marked < 256)
    (hgct : (g.heap g.gray).gct = GCT.func ∨ (g.heap g.gray).gct = GCT.proto ∨
      (g.heap g.gray).gct = GCT.trace) : Black (r.1.heap g.gray) := by
  rw [propagatemark_eq] at h
  rcases hgct with e | e | e <;> rw [e] at h <;> simp only [] at h <;>
    obtain ⟨g', h1, h2⟩ := bind_some h <;> cases h2
  · exact popped_black g hnw hm _ (gc_traverse_func_stay _ _ _ _ _ h1)
  · exact popped_black g hnw hm _ (gc_traverse_proto_stay _ _ _ _ _ h1)
  · exact popped_black g hnw hm _ (gc_traverse_trace_stay _ _ _ _ _ h1)

theorem isgray_b2g {x : GCobj} (h : ¬ iswhite x) : isgray (black2gray x) :=
  (isgray_iff _).mpr ⟨black2gray_not_white h, black2gray_not_black x⟩

theorem propagatemark_thread (fuel : Nat) (g : GState) (r : GState × Nat)
    (h : propagatemark fuel g = some r) (hnw : ¬ iswhite (g.heap g.gray))
    (hgct : (g.heap g.gray).gct = GCT.thread) :
    isgray (r.1.heap g.gray) ∧ r.1.grayagain = g.gray ∧
      (r.1.heap g.gray).gclist = g.grayagain := by
  rw [propagatemark_eq, hgct] at h
  simp only [] at h
  obtain ⟨g', h1, h2⟩ := bind_some h
  cases h2
  have st := gc_traverse_thread_stay g.gray _ _ _ _ h1
  have hP : (((({ (popGray g).modObj g.gray
      (fun x => { x with gclist := (popGray g).grayagain }) with
      grayagain := g.gray } : GState).modObj g.gray black2gray).heap g.gray)) =
      black2gray { gray2black (g.heap g.gray) with gclist := g.grayagain } := by
    rw [modObj_heap_same]
    dsimp only
    rw [modObj_heap_same, popGray_at]
    rfl
  have hw : ¬ iswhite (gray2black (g.heap g.gray)) := gray2black_not_white hnw
  obtain ⟨e1, e2⟩ := st.obj (by rw [hP]; exact black2gray_not_white hw)
    (by rw [hP]; exact b2g_lt _)
  rw [hP] at e1 e2
  refine ⟨((color_congr e1).2.2).mpr (isgray_b2g hw), st.grayagain, e2⟩

theorem tabSetWeak_weak (g : GState) (t w0 : Nat) (hw : w0 ≠ 0)
    (hf : g.ctsFinalizer ≠ some t) :
    ((tabSetWeak g t w0).1.heap t).marked =
        (((g.heap t).marked &&& not8 LJ_GC_WEAK) ||| w0) % 256 ∧
      ((tabSetWeak g t w0).1.heap t).gclist = g.weak ∧
      (tabSetWeak g t w0).1.weak = t ∧ (tabSetWeak g t w0).1.grayagain = g.grayagain := by
  unfold tabSetWeak
  rw [if_pos hw, if_neg hf]
  dsimp only
  rw [modObj_heap_same, modObj_heap_same]
  exact ⟨rfl, rfl, rfl, rfl⟩

theorem tabSetWeak_id (g : GState) (t w0 : Nat) (h : w0 = 0 ∨ g.ctsFinalizer = some t) :
    (tabSetWeak g t w0).1 = g := by
  unfold tabSetWeak
  split_ifs with a b
  · rfl
  · rcases h with h | h
    · exact absurd h a
    · exact absurd h b
  · rfl

/-- The result of `gc_traverse_tab` in terms of the state `g1` after the
metatable has been marked and the state `g3` after the marking loops. -/
theorem traverse_tab_out (o fuel : Nat) (P : GState) (rt : GState × Nat)
    (h : gc_traverse_tab fuel P o = some rt) :
    ∃ g1 g3, Stay o P g1 ∧ Quiet P g1 ∧
      Stay o (tabSetWeak g1 o (tabWeak g1 (P.heap o).metatable)).1 g3 ∧
      rt = if (tabSetWeak g1 o (tabWeak g1 (P.heap o).metatable)).2 = 0 ∧
            g3.kind = GCKind.gen then
          (({ g3.modObj o (fun x => { x with gclist := g3.grayagain }) with
              grayagain := o }).modObj o black2gray, 0)
        else (g3, if (tabSetWeak g1 o (tabWeak g1 (P.heap o).metatable)).2 = LJ_GC_WEAK then 1
          else (tabSetWeak g1 o (tabWeak g1 (P.heap o).metatable)).2) := by
  rw [gc_traverse_tab_eq] at h
  obtain ⟨g1, ha, hb⟩ := bind_some h
  have s1 : Stay o P g1 := Stay.sguard _ (fun g3 h3 => gc_markobj_stay o _ _ _ _ h3) ha
  have q1 : Quiet P g1 := Quiet.qguard _ (fun g3 h3 => gc_markobj_quiet _ _ _ _ h3) ha
  suffices hs : ∃ g3, Stay o (tabSetWeak g1 o (tabWeak g1 (P.heap o).metatable)).1 g3 ∧
      rt = if (tabSetWeak g1 o (tabWeak g1 (P.heap o).metatable)).2 = 0 ∧
            g3.kind = GCKind.gen then
          (({ g3.modObj o (fun x => { x with gclist := g3.grayagain }) with
              grayagain := o }).modObj o black2gray, 0)
        else (g3, if (tabSetWeak g1 o (tabWeak g1 (P.heap o).metatable)).2 = LJ_GC_WEAK then 1
          else (tabSetWeak g1 o (tabWeak g1 (P.heap o).metatable)).2) by
    obtain ⟨g3, s3, e⟩ := hs
    exact ⟨g1, g3, s1, q1, s3, e⟩
  generalize tabSetWeak g1 o (tabWeak g1 (P.heap o).metatable) = W at hb ⊢
  by_cases hW : W.2 = LJ_GC_WEAK
  · rw [if_pos hW] at hb
    refine ⟨W.1, Stay.yrefl o _, ?_⟩
    rw [if_neg (fun hc => by rw [hW] at hc; exact absurd hc.1 (by decide)), if_pos hW]
    exact (Option.some.inj hb).symm
  · rw [if_neg hW] at hb
    obtain ⟨g3, s3, e⟩ := tabMarkParts_out o _ _ _ _ _ hb
    refine ⟨g3, s3, ?_⟩
    rw [e, if_neg hW]
    by_cases hc : W.2 = 0 ∧ g3.kind = GCKind.gen
    · rw [if_pos hc, if_pos hc, hc.1]
    · rw [if_neg hc, if_neg hc]

theorem weakness_cases (g : GState) (t : Nat) :
    (tabWeakness g t = 0 ∧ tabWeak g (g.heap t).metatable = 0) ∨
    (tabWeakness g t = weakFin ∧ g.ctsFinalizer = some t) ∨
    (int32Pos (tabWeakness g t) ∧ tabWeak g (g.heap t).metatable ≠ 0 ∧
      g.ctsFinalizer ≠ some t ∧ tabWeakness g t = tabWeak g (g.heap t).metatable ∧
      (tabWeakness g t = 8 ∨ tabWeakness g t = 16 ∨ tabWeakness g t = 24)) := by
  unfold tabWeakness
  rw [tabSetWeak_snd]
  rcases tabWeak_cases g (g.heap t).metatable with e | e | e | e <;> rw [e]
  · exact Or.inl ⟨rfl, rfl⟩
  all_goals
    by_cases hf : g.ctsFinalizer = some t
    · exact Or.inr (Or.inl ⟨by rw [if_pos (by decide), if_pos hf], hf⟩)
    · refine Or.inr (Or.inr ?_)
      rw [if_pos (by decide), if_neg hf]
      exact ⟨by decide, by decide, hf, rfl, by decide⟩

theorem propagatemark_tab (fuel : Nat) (g : GState) (r : GState × Nat)
    (h : propagatemark fuel g = some r) (hnw : ¬ iswhite (g.heap g.gray))
    (hm : (g.heap g.gray).marked < 256) (hgct : (g.heap g.gray).gct = GCT.tab) :
    (int32Pos (tabWeakness g g.gray) →
      isgray (r.1.heap g.gray) ∧ r.1.weak = g.gray ∧ (r.1.heap g.gray).gclist = g.weak) ∧
    (tabWeakness g g.gray = 0 →
      (g.kind = GCKind.inc → Black (r.1.heap g.gray)) ∧
      (g.kind = GCKind.gen → isgray (r.1.heap g.gray) ∧ r.1.grayagain = g.gray ∧
        (r.1.heap g.gray).gclist = g.grayagain)) ∧
    (tabWeakness g g.gray = weakFin →
      Black (r.1.heap g.gray) ∧ r.1.weak = g.weak ∧ r.1.grayagain = g.grayagain) := by
  rw [propagatemark_eq, hgct] at h
  simp only [] at h
  obtain ⟨rt, h1, h2⟩ := bind_some h
  have hr : r.1 = if int32Pos rt.2 then rt.1.modObj g.gray black2gray else rt.1 := by
    cases h2; rfl
  obtain ⟨g1, g3, s1, q1, s3, hrt⟩ := traverse_tab_out g.gray _ _ _ h1
  have hmt : ((popGray g).heap g.gray).metatable = (g.heap g.gray).metatable :=
    (popGray_quiet g).metatable_eq _
  rw [hmt] at s3 hrt
  have qq : Quiet g g1 := (popGray_quiet g).qtrans q1
  rw [qq.tabWeakness_eq g.gray] at hrt
  have hw0 := qq.tabWeak_eq (g.heap g.gray).metatable
  have hfin := qq.finalizer_eq
  rw [hw0] at s3
  have hPnw : ¬ iswhite ((popGray g).heap g.gray) := by
    rw [popGray_at]; exact gray2black_not_white hnw
  have hPm : ((popGray g).heap g.gray).marked < 256 := by
    rw [popGray_at]; exact g2b_lt hm
  obtain ⟨e1m, e1l⟩ := s1.obj hPnw hPm
  have h1nw : ¬ iswhite (g1.heap g.gray) := fun hw => hPnw ((color_congr e1m).1.mp hw)
  have h1m : (g1.heap g.gray).marked < 256 := by rw [e1m]; exact hPm
  rcases weakness_cases g g.gray with ⟨hk, hz⟩ | ⟨hk, hf⟩ | ⟨hk, hz, hf, hkw, hk3⟩
  · -- fully strong
    rw [tabSetWeak_id g1 g.gray _ (Or.inl hz)] at s3
    have s : Stay g.gray (popGray g) g3 := s1.ytrans s3
    have hkind : g3.kind = g.kind := s.kind
    refine ⟨fun hp => absurd (hk ▸ hp) int32Pos_zero, fun _ => ⟨fun hi => ?_, fun hgen => ?_⟩,
      fun hwf => absurd (hk.symm.trans hwf) (by decide)⟩
    · have hc : ¬ (tabWeakness g g.gray = 0 ∧ g3.kind = GCKind.gen) := by
        rw [hkind, hi]; exact fun hc => absurd hc.2 (by decide)
      rw [if_neg hc] at hrt
      rw [hrt] at hr
      dsimp only at hr
      have hp : ¬ int32Pos (if tabWeakness g g.gray = LJ_GC_WEAK then 1
          else tabWeakness g g.gray) := by rw [hk]; decide
      rw [if_neg hp] at hr
      rw [hr]
      exact popped_black g hnw hm _ s
    · have hc : tabWeakness g g.gray = 0 ∧ g3.kind = GCKind.gen := ⟨hk, hkind.trans hgen⟩
      rw [if_pos hc] at hrt
      rw [hrt] at hr
      dsimp only at hr
      rw [if_neg int32Pos_zero] at hr
      rw [hr, modObj_heap_same]
      dsimp only
      rw [modObj_heap_same]
      obtain ⟨e3m, _⟩ := s.obj hPnw hPm
      have h3nw : ¬ iswhite (g3.heap g.gray) := fun hw => hPnw ((color_congr e3m).1.mp hw)
      refine ⟨isgray_b2g (fun hw => h3nw hw), rfl, ?_⟩
      exact s.grayagain
  · -- the FFI finalizer table
    rw [tabSetWeak_id g1 g.gray _ (Or.inr (hfin.trans hf))] at s3
    have s : Stay g.gray (popGray g) g3 := s1.ytrans s3
    refine ⟨fun hp => absurd (hk ▸ hp) int32Pos_weakFin,
      fun hz => absurd (hk.symm.trans hz) (by decide), fun _ => ?_⟩
    have hc : ¬ (tabWeakness g g.gray = 0 ∧ g3.kind = GCKind.gen) := by
      rw [hk]; exact fun hc => absurd hc.1 (by decide)
    rw [if_neg hc] at hrt
    rw [hrt] at hr
    dsimp only at hr
    have hp : ¬ int32Pos (if tabWeakness g g.gray = LJ_GC_WEAK then 1
        else tabWeakness g g.gray) := by rw [hk]; decide
    rw [if_neg hp] at hr
    rw [hr]
    exact ⟨popped_black g hnw hm _ s, s.weak, s.grayagain⟩
  · -- treated as weak
    have hz1 : tabWeak g (g.heap g.gray).metatable ≠ 0 := hz
    have hf1 : g1.ctsFinalizer ≠ some g.gray := by rw [hfin]; exact hf
    obtain ⟨wm, wl, ww, _⟩ := tabSetWeak_weak g1 g.gray _ hz1 hf1
    rw [e1m, popGray_at] at wm
    have hm3 : (g.heap g.gray).marked &&& 3 = 0 := not_not.mp hnw
    have hbits := weak_gray_bits (g.heap g.gray).marked (tabWeak g (g.heap g.gray).metatable)
      hm hm3 (hkw ▸ hk3)
    have hWnw : ¬ iswhite ((tabSetWeak g1 g.gray (tabWeak g (g.heap g.gray).metatable)).1.heap
        g.gray) := by
      unfold iswhite
      rw [wm]
      exact not_not.mpr hbits.1
    have hWm : ((tabSetWeak g1 g.gray (tabWeak g (g.heap g.gray).metatable)).1.heap
        g.gray).marked < 256 := by
      rw [wm]; exact Nat.mod_lt _ (by decide)
    obtain ⟨e3m, e3l⟩ := s3.obj hWnw hWm
    refine ⟨fun _ => ?_, fun hz => absurd (hz ▸ hk) int32Pos_zero,
      fun hwf => absurd (hwf ▸ hk) int32Pos_weakFin⟩
    have hc : ¬ (tabWeakness g g.gray = 0 ∧ g3.kind = GCKind.gen) :=
      fun hc => absurd (hc.1 ▸ hk) int32Pos_zero
    rw [if_neg hc] at hrt
    rw [hrt] at hr
    dsimp only at hr
    have hp : int32Pos (if tabWeakness g g.gray = LJ_GC_WEAK then 1 else tabWeakness g g.gray) := by
      split_ifs
      · decide
      · exact hk
    rw [if_pos hp] at hr
    rw [hr, modObj_heap_same]
    refine ⟨?_, ?_, ?_⟩
    · unfold isgray black2gray
      show ((g3.heap g.gray).marked &&& not8 LJ_GC_BLACK) &&& 7 = 0
      rw [e3m, wm]
      exact hbits.2
    · exact s3.weak.trans ww
    · show (g3.heap g.gray).gclist = g.weak
      rw [e3l, wl]
      exact s1.weak

/-- C29: on a gray list `o :: rest` of non-white traversable objects
`propagatemark` returns; the gray list is then `rest` preceded by the
children it marked (objects that were white), so exactly the head `o` has
been removed.  Afterwards a thread is gray and the head of `grayagain`, linked
to the former `grayagain`; a table treated as weak (`gc_traverse_tab`
computes a positive `weak` for it) is gray and the head of `weak`, linked to
the former `weak`; a fully strong table (`weak = 0`) is black in incremental
mode and gray and the head of `grayagain` in generational mode; a function, a
prototype and a trace are black.  The FFI finalizer table with a weak mode,
for which `weak` is negative, is neither weak nor fully strong: it stays
black and `weak` and `grayagain` keep their heads. -/
theorem propagatemark_outcome (S : Finset Nat) (g : GState) (o : Nat) (rest : List Nat)
    (fuel : Nat) (hgray : GrayB g (o :: rest)) (h0 : ¬ iswhite (g.heap 0)) (htr : TraceOK g)
    (hS : WhiteIn g S) (hf : mu S g ≤ fuel) (hm : (g.heap o).marked < 256) :
    ∃ r new, propagatemark fuel g = some r ∧
      GrayB r.1 (new ++ rest) ∧ (∀ x ∈ new, iswhite (g.heap x)) ∧ o ∉ new ++ rest ∧
      ((g.heap o).gct = GCT.thread →
        isgray (r.1.heap o) ∧ r.1.grayagain = o ∧ (r.1.heap o).gclist = g.grayagain) ∧
      ((g.heap o).gct = GCT.tab → int32Pos (tabWeakness g o) →
        isgray (r.1.heap o) ∧ r.1.weak = o ∧ (r.1.heap o).gclist = g.weak) ∧
      ((g.heap o).gct = GCT.tab → tabWeakness g o = 0 →
        (g.kind = GCKind.inc → Black (r.1.heap o)) ∧
        (g.kind = GCKind.gen →
          isgray (r.1.heap o) ∧ r.1.grayagain = o ∧ (r.1.heap o).gclist = g.grayagain)) ∧
      ((g.heap o).gct = GCT.func ∨ (g.heap o).gct = GCT.proto ∨ (g.heap o).gct = GCT.trace →
        Black (r.1.heap o)) ∧
      ((g.heap o).gct = GCT.tab → tabWeakness g o = weakFin →
        Black (r.1.heap o) ∧ r.1.weak = g.weak ∧ r.1.grayagain = g.grayagain) := by
  obtain ⟨r, h, b⟩ := propagatemark_total fuel hgray h0 htr hS hf
  obtain ⟨new, gn, hw, hn⟩ := popped_gray hgray hS b
  have hgo : g.gray = o := hgray.chain.1
  have hnw : ¬ iswhite (g.heap o) := (hgray.ok o (List.mem_cons_self _ _)).1
  subst hgo
  refine ⟨r, new, h, gn, hw, hn, fun ht => propagatemark_thread fuel g r h hnw ht,
    fun ht => (propagatemark_tab fuel g r h hnw hm ht).1,
    fun ht => (propagatemark_tab fuel g r h hnw hm ht).2.1,
    fun ht => propagatemark_black fuel g r h hnw hm ht,
    fun ht => (propagatemark_tab fuel g r h hnw hm ht).2.2⟩

theorem exWeakTab_heap_other (a : Nat) (h1 : a ≠ 1) (h2 : a ≠ 2) (h4 : a ≠ 4) :
    exWeakTab.heap a = { gct := GCT.trace } := by
  show (if a = 1 then _ else if a = 2 then _ else if a = 4 then _ else _) = _
  rw [if_neg h1, if_neg h2, if_neg h4]

theorem exWeakTab_white : WhiteIn exWeakTab {4} := by
  intro a hw
  by_cases h1 : a = 1
  · subst h1; exact absurd hw (by decide)
  by_cases h2 : a = 2
  · subst h2; exact absurd hw (by decide)
  by_cases h4 : a = 4
  · subst h4; decide
  rw [exWeakTab_heap_other a h1 h2 h4] at hw
  exact absurd hw (by decide)

theorem exWeakTab_gray : GrayB exWeakTab [1] :=
  ⟨⟨rfl, by decide, rfl⟩, by decide, fun t ht => by
    rw [List.mem_singleton] at ht
    subst ht
    exact ⟨by decide, by unfold trav; decide⟩⟩

theorem propagatemark_outcome_witness :
    ∃ r new, propagatemark 1 exWeakTab = some r ∧ GrayB r.1 (new ++ []) ∧ 1 ∉ new ++ [] ∧
      isgray (r.1.heap 1) ∧ r.1.weak = 1 ∧ (r.1.heap 1).gclist = 7 := by
  obtain ⟨r, new, h, hg, _, hn, _, hw, _⟩ :=
    propagatemark_outcome {4} exWeakTab 1 [] 1 exWeakTab_gray (by decide) (fun _ => rfl)
      exWeakTab_white (by decide) (by decide)
  exact ⟨r, new, h, hg, hn, hw rfl (by decide)⟩

/-! ## Shutdown -/

theorem fullsweep_chain (d : Nat) (g : GState) (i : Nat) (xs : List Nat)
    (hc : Chain g (g.strhash i) xs) (hnd : xs.Nodup)
    (hth : ∀ x ∈ xs, (g.heap x).gct ≠ GCT.thread) (hl : xs.length ≤ fullLim)
    (hroot : g.root ∉ xs) :
    ∃ r, gc_fullsweep d g (Loc.strhash i) = some r ∧ ChainSwept g i xs r.1 := by
  have hsw : ∃ g1 p1, gc_sweep d g (Loc.strhash i) (2 ^ 32 - 1) = some (g1, p1) ∧
      SweepPost g (otherwhite g) (Loc.strhash i) xs fullLim g1 p1 := by
    cases d with
    | zero =>
      rw [gc_sweep]
      exact sweepLoop_flat _ _ fullLim xs g (Loc.strhash i) hc hnd (fun q hq => by cases hq) hth
    | succ d =>
      rw [gc_sweep]
      exact sweepLoop_flat _ _ fullLim xs g (Loc.strhash i) hc hnd (fun q hq => by cases hq) hth
  obtain ⟨g1, p1, hrun, P⟩ := hsw
  obtain ⟨fr, fs⟩ := gc_sweep_frame d g (Loc.strhash i) _ _ hrun
  have ht : xs.take fullLim = xs := List.take_of_length_le hl
  have hd : xs.drop fullLim = [] := List.drop_of_length_le hl
  refine ⟨(g1, p1), hrun, ?_⟩
  exact
    { chain := by
        have c := P.chain
        rw [ht, hd, List.append_nil] at c
        exact c
      freed := by rw [P.freed, ht]
      frame := fun a ha => P.frame a (by rw [ht]; exact ha) (fun q hq => by cases hq)
      others := fun j hj => fs j (fun e => hj (by injection e with e; exact e.symm))
      rest := fr
      root := P.root (fun e => by cases e) (by rw [ht]; exact hroot) }

/-- The loop of `lj_gc_freeall` over the hash chains `i .. i + k - 1`: every
chain keeps the strings that pass the sweep test, the others are freed chain
by chain, nothing else changes. -/
theorem freeall_strings (d : Nat) (S : Nat → List Nat) :
    ∀ (k i : Nat) (g : GState),
    (∀ j, i ≤ j → j < i + k → Chain g (g.strhash j) (S j)) →
    (∀ j, i ≤ j → j < i + k → ∀ s ∈ S j, (g.heap s).gct ≠ GCT.thread) →
    (∀ j, i ≤ j → j < i + k → (S j).length ≤ fullLim) →
    (∀ j, i ≤ j → j < i + k → g.root ∉ S j) →
    (((List.range k).map (fun j => S (i + j))).flatten).Nodup →
    ∃ g', loopM (fun i g => (gc_fullsweep d g (Loc.strhash i)).map Prod.fst) k i g = some g' ∧
      (∀ j, i ≤ j → j < i + k →
        Chain g' (g'.strhash j)
          ((S j).filter (fun x => decide (sweepKeeps g (otherwhite g) x)))) ∧
      g'.freed = (((List.range k).map (fun j =>
          (S (i + j)).filter (fun x => decide (¬ sweepKeeps g (otherwhite g) x)))).flatten).reverse
        ++ g.freed ∧
      (∀ a, (∀ j, i ≤ j → j < i + k → a ∉ S j) → g'.heap a = g.heap a) ∧
      (∀ j, j < i → g'.strhash j = g.strhash j) ∧
      g'.root = g.root ∧ g'.restSwp = g.restSwp := by
  intro k
  induction k with
  | zero =>
    intro i g _ _ _ _ _
    exact ⟨g, rfl, fun j a b => absurd b (by omega), rfl, fun _ _ => rfl, fun _ _ => rfl,
      rfl, rfl⟩
  | succ k ih =>
    intro i g hc hth hl hroot hnd
    obtain ⟨hndi, hndr, hdisj⟩ := nodup_flatten_range k i hnd
    obtain ⟨r, h1, P⟩ := fullsweep_chain d g i (S i) (hc i (le_refl _) (by omega)) hndi
      (hth i (le_refl _) (by omega)) (hl i (le_refl _) (by omega))
      (hroot i (le_refl _) (by omega))
    have hoff : ∀ j, i + 1 ≤ j → j < i + 1 + k → ∀ x ∈ S j, r.1.heap x = g.heap x :=
      fun j a b x hx => P.frame x (hdisj j a b x hx)
    have hwh : r.1.currentwhite = g.currentwhite := (restSwp_fields P.rest).2.2.2.2.1
    obtain ⟨g', t1, t2, t3, t4, t5, t6, t7⟩ :=
      ih (i + 1) r.1
        (fun j a b => by
          rw [P.others j (by omega)]
          exact Chain.congr (fun x hx => by rw [hoff j a b x hx]) (hc j (by omega) (by omega)))
        (fun j a b x hx => by
          rw [hoff j a b x hx]; exact hth j (by omega) (by omega) x hx)
        (fun j a b => hl j (by omega) (by omega))
        (fun j a b => by rw [P.root]; exact hroot j (by omega) (by omega))
        hndr
    have how : otherwhite r.1 = otherwhite g := otherwhite_congr hwh
    refine ⟨g', ?_, ?_, ?_, ?_, ?_, t6.trans P.root, t7.trans P.rest⟩
    · rw [loopM, h1]; exact t1
    · intro j a b
      by_cases e : j = i
      · subst e
        rw [t5 j (by omega)]
        refine Chain.congr (fun x hx => ?_) P.chain
        have hx2 : x ∈ S j := (List.mem_filter.mp hx).1
        rw [t4 x (fun j2 a2 b2 hm => hdisj j2 a2 b2 x hm hx2)]
      · have c := t2 j (by omega) (by omega)
        rw [how, filter_keep_congr (hoff j (by omega) (by omega))] at c
        exact c
    · rw [t3, P.freed, flatten_range_succ (fun j =>
        (S j).filter (fun x => decide (¬ sweepKeeps g (otherwhite g) x))) k i,
        List.reverse_append, List.append_assoc]
      congr 2
      congr 1
      refine List.map_congr_left (fun j hj => ?_)
      rw [how]
      refine List.filter_congr (fun y hy => ?_)
      have hj2 := List.mem_range.mp hj
      have : sweepKeeps r.1 (otherwhite g) y ↔ sweepKeeps g (otherwhite g) y :=
        sweepKeeps_congr (by rw [hoff (i + 1 + j) (by omega) (by omega) y hy])
      simp only [this]
    · intro a ha
      rw [t4 a (fun j a2 b2 => ha j (by omega) (by omega))]
      exact P.frame a (ha i (le_refl _) (by omega))
    · intro j hj
      rw [t5 j (by omega)]
      exact P.others j (by omega)

theorem visited_full (U : Nat → List Nat) : ∀ (xs : List Nat),
    (∀ x ∈ xs, (U x).length ≤ fullLim) → visited U xs = footprint U xs
  | [], _ => rfl
  | x :: xs, h => by
    show (U x).take fullLim ++ x :: visited U xs = U x ++ x :: footprint U xs
    rw [List.take_of_length_le (h x (List.mem_cons_self _ _)),
      visited_full U xs (fun y hy => h y (List.mem_cons_of_mem _ hy))]

theorem xor_whites_sfixed (m : Nat) : (m ^^^ LJ_GC_WHITES) &&& LJ_GC_SFIXED = m &&& LJ_GC_SFIXED := by
  apply Nat.eq_of_testBit_eq
  intro i
  have e : LJ_GC_SFIXED = 2 ^ 6 := by decide
  simp only [Nat.testBit_and, Nat.testBit_xor, e, Nat.testBit_two_pow]
  by_cases h : 6 = i
  · subst h
    have : LJ_GC_WHITES.testBit 6 = false := by decide
    rw [this]; simp
  · simp [h]

/-- With `otherwhite = LJ_GC_SFIXED` the sweep keeps exactly the super-fixed
objects. -/
theorem keeps_sfixed (G : GState) (x : Nat) (h : otherwhite G = LJ_GC_SFIXED) :
    sweepKeeps G (otherwhite G) x ↔ issfixed (G.heap x) := by
  unfold sweepKeeps issfixed
  rw [h, xor_whites_sfixed]

theorem filter_sfixed (G g : GState) (l : List Nat) (h : otherwhite G = LJ_GC_SFIXED)
    (hh : ∀ x ∈ l, G.heap x = g.heap x) :
    l.filter (fun x => decide (sweepKeeps G (otherwhite G) x)) =
      l.filter (fun x => decide (issfixed (g.heap x))) :=
  List.filter_congr (fun y hy => by
    have := keeps_sfixed G y h
    rw [hh y hy] at this
    simp only [this])

theorem filter_not_sfixed (G g : GState) (l : List Nat) (h : otherwhite G = LJ_GC_SFIXED)
    (hh : ∀ x ∈ l, G.heap x = g.heap x) :
    l.filter (fun x => decide (¬ sweepKeeps G (otherwhite G) x)) =
      l.filter (fun x => decide (¬ issfixed (g.heap x))) :=
  List.filter_congr (fun y hy => by
    have := keeps_sfixed G y h
    rw [hh y hy] at this
    simp only [this])

theorem mem_flatten_range {S : Nat → List Nat} {n a : Nat} :
    a ∈ ((List.range n).map S).flatten ↔ ∃ j, j < n ∧ a ∈ S j := by
  simp only [List.mem_flatten, List.mem_map, List.mem_range]
  constructor
  · rintro ⟨l, ⟨j, hj, rfl⟩, ha⟩
    exact ⟨j, hj, ha⟩
  · rintro ⟨j, hj, ha⟩
    exact ⟨S j, ⟨j, hj, rfl⟩, ha⟩

/-- C21: `lj_gc_freeall`, on a root list `xs` whose threads have the open
upvalue lists `U` and with the strings `S j` in the hash chains
`strhash[0..strmask]` (all objects distinct, no list longer than the sweep
limit `~(uint32_t)0`, `strmask` below `~(MSize)0`), returns; afterwards the root list, the open-upvalue
list of every thread of the root list (the surviving ones in particular) and
every hash chain hold exactly the objects that had `LJ_GC_SFIXED` set, in
their original order, and every other object of those lists, whatever its
color and its `LJ_GC_FIXED` bit, has been passed to its free function exactly
once: the free log grows by these objects, each once, and by nothing else. -/
theorem freeall_spec (g : GState) (xs : List Nat) (U : Nat → List Nat) (S : Nat → List Nat)
    (hc : Chain g g.root xs)
    (hUch : ∀ x ∈ xs, (g.heap x).gct = GCT.thread → Chain g (g.heap x).openupval (U x))
    (hUnt : ∀ x ∈ xs, (g.heap x).gct ≠ GCT.thread → U x = [])
    (hUth : ∀ x ∈ xs, ∀ u ∈ U x, (g.heap u).gct ≠ GCT.thread)
    (hS : ∀ j, j ≤ g.strmask → Chain g (g.strhash j) (S j))
    (hSth : ∀ j, j ≤ g.strmask → ∀ s ∈ S j, (g.heap s).gct ≠ GCT.thread)
    (hnd : (footprint U xs ++ ((List.range (g.strmask + 1)).map S).flatten).Nodup)
    (hlx : xs.length ≤ fullLim) (hlU : ∀ x ∈ xs, (U x).length ≤ fullLim)
    (hlS : ∀ j, j ≤ g.strmask → (S j).length ≤ fullLim) (hmk : g.strmask < 2 ^ 32 - 1) :
    ∃ g', lj_gc_freeall 1 g = some g' ∧
      Chain g' g'.root (xs.filter (fun x => decide (issfixed (g.heap x)))) ∧
      (∀ t ∈ xs, (g.heap t).gct = GCT.thread →
        Chain g' (g'.heap t).openupval ((U t).filter (fun x => decide (issfixed (g.heap x))))) ∧
      (∀ j, j ≤ g.strmask →
        Chain g' (g'.strhash j) ((S j).filter (fun x => decide (issfixed (g.heap x))))) ∧
      g'.freed =
        ((footprint U xs ++ ((List.range (g.strmask + 1)).map S).flatten).filter
          (fun x => decide (¬ issfixed (g.heap x)))).reverse ++ g.freed ∧
      (∀ x, g'.freed.count x = g.freed.count x +
        if x ∈ footprint U xs ++ ((List.range (g.strmask + 1)).map S).flatten ∧
          ¬ issfixed (g.heap x) then 1 else 0) := by
  obtain ⟨hndF, hndS, hdis⟩ := List.nodup_append.mp hnd
  have hdisj : ∀ j, j ≤ g.strmask → ∀ s ∈ S j, s ∉ footprint U xs := fun j hj s hs hm =>
    hdis hm (mem_flatten_range.mpr ⟨j, by omega, hs⟩)
  obtain ⟨G1, hG1⟩ : ∃ G1 : GState,
      G1 = { g with currentwhite := LJ_GC_WHITES ||| LJ_GC_SFIXED } := ⟨_, rfl⟩
  have hh : G1.heap = g.heap := by rw [hG1]
  have hro : G1.root = g.root := by rw [hG1]
  have hsh : G1.strhash = g.strhash := by rw [hG1]
  have hfd : G1.freed = g.freed := by rw [hG1]
  have hsm : G1.strmask = g.strmask := by rw [hG1]
  have hcw : G1.currentwhite = LJ_GC_WHITES ||| LJ_GC_SFIXED := by rw [hG1]
  have how : otherwhite G1 = LJ_GC_SFIXED := by
    unfold otherwhite
    rw [hcw]
    decide
  have hc1 : Chain G1 (Loc.root.get G1) xs := by
    show Chain G1 G1.root xs
    rw [hro]
    exact @Chain.congr g G1 xs _ (fun x _ => by rw [hh]) hc
  have hUch1 : ∀ x ∈ xs, (G1.heap x).gct = GCT.thread →
      Chain G1 (G1.heap x).openupval (U x) := by
    rw [hh]
    exact fun x hx ht => @Chain.congr g G1 (U x) _ (fun y _ => by rw [hh]) (hUch x hx ht)
  have hUnt1 : ∀ x ∈ xs, (G1.heap x).gct ≠ GCT.thread → U x = [] := by rw [hh]; exact hUnt
  have hUth1 : ∀ x ∈ xs, ∀ u ∈ U x, (G1.heap u).gct ≠ GCT.thread := by rw [hh]; exact hUth
  obtain ⟨R, p', hrun, P⟩ := sweepLoop_nested 0 (otherwhite G1) U fullLim xs G1 Loc.root rfl
    hc1 hUch1 hUnt1 hUth1 hndF (fun q hq => by cases hq)
  have hfull : gc_fullsweep 1 G1 Loc.root = some (R, p') := by
    unfold gc_fullsweep; rw [gc_sweep]; exact hrun
  obtain ⟨fr, fs⟩ := gc_sweep_frame 1 _ Loc.root _ _ hfull
  have hmask : R.strmask = g.strmask := (restSwp_fields fr).2.2.2.1.trans hsm
  have hwh : R.currentwhite = G1.currentwhite := (restSwp_fields fr).2.2.2.2.1
  have howR : otherwhite R = LJ_GC_SFIXED := (otherwhite_congr hwh).trans how
  have ht : xs.take fullLim = xs := List.take_of_length_le hlx
  have hd : xs.drop fullLim = [] := List.drop_of_length_le hlx
  have hvis : visited U (xs.take fullLim) = footprint U xs := by
    rw [ht]; exact visited_full U xs hlU
  have f1 : ∀ a, a ∉ footprint U xs → R.heap a = g.heap a := fun a ha => by
    rw [← hh]
    exact P.eff.frame a (by rw [hvis]; exact ha) (by simp [Loc.owner])
  have c1 : Chain R R.root (xs.filter (fun x => decide (issfixed (g.heap x)))) := by
    have c := P.chain
    rw [ht, hd, List.append_nil, filter_sfixed G1 g xs how (fun _ _ => by rw [hh])] at c
    exact c
  have u1 : ∀ t ∈ xs, (g.heap t).gct = GCT.thread →
      Chain R (R.heap t).openupval ((U t).filter (fun x => decide (issfixed (g.heap x)))) := by
    intro t htx htt
    have c := P.upchain t (by rw [ht]; exact htx) (by rw [hh]; exact htt)
    rw [List.take_of_length_le (hlU t htx), List.drop_of_length_le (hlU t htx),
      List.append_nil, filter_sfixed G1 g (U t) how (fun _ _ => by rw [hh])] at c
    exact c
  have fr1 : R.freed = ((footprint U xs).filter (fun x => decide (¬ issfixed (g.heap x)))).reverse
      ++ g.freed := by
    rw [P.eff.freed, hvis, filter_not_sfixed G1 g _ how (fun _ _ => by rw [hh]), hfd]
  have hoffS : ∀ j, j ≤ g.strmask → ∀ s ∈ S j, R.heap s = g.heap s :=
    fun j hj s hs => f1 s (hdisj j hj s hs)
  have hfun : (fun j => S (0 + j)) = S := funext fun j => by rw [Nat.zero_add]
  obtain ⟨g', t1, t2, t3, t4, _, t6, _⟩ := freeall_strings 1 S (g.strmask + 1) 0 R
    (fun j _ b => by
      rw [fs j (fun e => by cases e), hsh]
      exact Chain.congr (fun x hx => by rw [hoffS j (by omega) x hx]) (hS j (by omega)))
    (fun j _ b s hs => by rw [hoffS j (by omega) s hs]; exact hSth j (by omega) s hs)
    (fun j _ b => hlS j (by omega))
    (fun j _ b hm => by
      have hs0 : R.root ≠ 0 := fun e => Chain.zero_not_mem (hS j (by omega)) (e ▸ hm)
      exact Chain.head_ne c1 hs0
        (fun hf => hdisj j (by omega) _ hm (mem_footprint_self U (List.mem_filter.mp hf).1)) rfl)
    (by rw [hfun]; exact hndS)
  have hkeep : ∀ a ∈ footprint U xs, g'.heap a = R.heap a := fun a ha =>
    t4 a (fun j _ b hm => hdisj j (by omega) a hm ha)
  have hfr : g'.freed =
      ((footprint U xs ++ ((List.range (g.strmask + 1)).map S).flatten).filter
        (fun x => decide (¬ issfixed (g.heap x)))).reverse ++ g.freed := by
    rw [t3, fr1, List.filter_append, List.reverse_append, List.append_assoc]
    congr 2
    rw [List.filter_flatten, List.map_map]
    congr 1
    refine List.map_congr_left (fun j hj => ?_)
    have hj2 := List.mem_range.mp hj
    simp only [Function.comp, Nat.zero_add]
    exact filter_not_sfixed R g (S j) howR (hoffS j (by omega))
  refine ⟨g', ?_, ?_, ?_, ?_, hfr, ?_⟩
  · subst hG1
    unfold lj_gc_freeall
    dsimp only
    rw [hfull]
    simp only [Option.some_bind]
    rw [hmask, if_pos hmk]
    exact t1
  · rw [t6]
    exact Chain.congr (fun x hx => by
      rw [hkeep x (mem_footprint_self U (List.mem_filter.mp hx).1)]) c1
  · intro t htx htt
    rw [hkeep t (mem_footprint_self U htx)]
    exact Chain.congr (fun x hx => by
      rw [hkeep x (mem_footprint_up U htx (List.mem_filter.mp hx).1)]) (u1 t htx htt)
  · intro j hj
    have c := t2 j (Nat.zero_le _) (by omega)
    rw [filter_sfixed R g (S j) howR (hoffS j hj)] at c
    exact c
  · intro x
    rw [hfr, List.count_append, List.count_reverse, Nat.add_comm]
    congr 1
    by_cases hx : x ∈ footprint U xs ++ ((List.range (g.strmask + 1)).map S).flatten ∧
        ¬ issfixed (g.heap x)
    · rw [if_pos hx]
      exact List.count_eq_one_of_mem (hnd.filter _)
        (List.mem_filter.mpr ⟨hx.1, by simpa using hx.2⟩)
    · rw [if_neg hx]
      refine List.count_eq_zero_of_not_mem (fun hm => hx ?_)
      obtain ⟨a, b⟩ := List.mem_filter.mp hm
      exact ⟨a, by simpa using b⟩

/-- Witness for `freeall_spec`: in `exFreeall` the main thread and the string
6 survive; the upvalue, the fixed table and the strings 7 and 8 are freed,
each once. -/
theorem freeall_spec_witness :
    ∃ g', lj_gc_freeall 1 exFreeall = some g' ∧ Chain g' g'.root [1] ∧
      Chain g' (g'.heap 1).openupval [] ∧ Chain g' (g'.strhash 0) [6] ∧
      Chain g' (g'.strhash 1) [] ∧ g'.freed = [8, 7, 2, 4] := by
  have hU : ∀ x ∈ [1, 2], x = 1 ∨ x = 2 := fun x hx => by simpa using hx
  have hj : ∀ j, j ≤ exFreeall.strmask → j = 0 ∨ j = 1 := fun j hj => by
    have : j ≤ 1 := hj
    omega
  obtain ⟨g', h, c1, c2, c3, c4, _⟩ := freeall_spec exFreeall [1, 2] exFreeallU exFreeallS
    ⟨rfl, by decide, rfl, by decide, rfl⟩
    (fun x hx ht => by
      rcases hU x hx with e | e <;> subst e
      · exact ⟨rfl, by decide, rfl⟩
      · exact absurd ht (by decide))
    (fun x hx hn => by
      rcases hU x hx with e | e <;> subst e
      · exact absurd rfl hn
      · rfl)
    (fun x hx u hu => by
      rcases hU x hx with e | e <;> subst e
      · have e : u = 4 := by simpa [exFreeallU] using hu
        subst e; decide
      · simp [exFreeallU] at hu)
    (fun j h => by
      rcases hj j h with e | e <;> subst e
      · exact ⟨rfl, by decide, rfl, by decide, rfl⟩
      · exact ⟨rfl, by decide, rfl⟩)
    (fun j h s hs => by
      rcases hj j h with e | e <;> subst e
      · have : s = 6 ∨ s = 7 := by simpa [exFreeallS] using hs
        rcases this with e | e <;> subst e <;> decide
      · have : s = 8 := by simpa [exFreeallS] using hs
        subst this; decide)
    (by decide) (by decide)
    (fun x hx => by rcases hU x hx with e | e <;> subst e <;> decide)
    (fun j h => by rcases hj j h with e | e <;> subst e <;> decide) (by decide)
  refine ⟨g', h, ?_, ?_, ?_, ?_, ?_⟩
  · have e : [1, 2].filter (fun x => decide (issfixed (exFreeall.heap x))) = [1] := by decide
    rw [e] at c1; exact c1
  · have c := c2 1 (by decide) rfl
    have e : (exFreeallU 1).filter (fun x => decide (issfixed (exFreeall.heap x))) = [] := by
      decide
    rw [e] at c; exact c
  · have c := c3 0 (by decide)
    have e : (exFreeallS 0).filter (fun x => decide (issfixed (exFreeall.heap x))) = [6] := by
      decide
    rw [e] at c; exact c
  · have c := c3 1 (by decide)
    have e : (exFreeallS 1).filter (fun x => decide (issfixed (exFreeall.heap x))) = [] := by
      decide
    rw [e] at c; exact c
  · rw [c4]; decide

/-! ## The structure of the corrected gray lists -/

theorem GLoc.get_set_same (g : GState) (p : GLoc) (r : Nat) : p.get (p.set g r) = r := by
  cases p with
  | grayagain => rfl
  | weak => rfl
  | gclist q => simp only [GLoc.get, GLoc.set, modObj_heap_same]

theorem GLoc.set_heap_off (g : GState) (p : GLoc) (r a : Nat)
    (h : ∀ q, p = GLoc.gclist q → a ≠ q) : (p.set g r).heap a = g.heap a := by
  cases p with
  | grayagain => rfl
  | weak => rfl
  | gclist q =>
    simp only [GLoc.set]
    exact modObj_heap_ne _ _ _ _ (h q rfl)

theorem GLoc.set_keeps_marked (g : GState) (p : GLoc) (r a : Nat) :
    ((p.set g r).heap a).marked = (g.heap a).marked := by
  cases p with
  | grayagain => rfl
  | weak => rfl
  | gclist q =>
    simp only [GLoc.set]
    rw [modObj_heap]
    split_ifs with e
    · subst e; rfl
    · rfl

theorem GLoc.set_grayagain (g : GState) (p : GLoc) (r : Nat) (h : p ≠ GLoc.grayagain) :
    (p.set g r).grayagain = g.grayagain := by
  cases p with
  | grayagain => exact absurd rfl h
  | weak => rfl
  | gclist q => rfl

theorem GLoc.set_weak (g : GState) (p : GLoc) (r : Nat) (h : p ≠ GLoc.weak) :
    (p.set g r).weak = g.weak := by
  cases p with
  | grayagain => rfl
  | weak => exact absurd rfl h
  | gclist q => rfl

/-- A cell reads the same in two states that agree on its head or on its
owner. -/
theorem GLoc.get_agree {g g' : GState} (p : GLoc) (hga : g'.grayagain = g.grayagain)
    (hwk : g'.weak = g.weak) (hq : ∀ q, p = GLoc.gclist q → (g'.heap q).gclist = (g.heap q).gclist) :
    p.get g' = p.get g := by
  cases p with
  | grayagain => exact hga
  | weak => exact hwk
  | gclist q => exact hq q rfl

theorem grayKeeps_congr {g g' : GState} {x : Nat} (h : g'.heap x = g.heap x) :
    grayKeeps g' x ↔ grayKeeps g x := by
  unfold grayKeeps; rw [h]

theorem filter_grayKeeps_congr {g g' : GState} {l : List Nat}
    (h : ∀ y ∈ l, g'.heap y = g.heap y) :
    l.filter (fun y => decide (grayKeeps g' y)) = l.filter (fun y => decide (grayKeeps g y)) :=
  List.filter_congr (fun y hy => by
    have := @grayKeeps_congr g g' y (h y hy)
    simp only [this])

/-- The element at the head stays on the list. -/
theorem GrayPost.keep {g g1 g' : GState} {p p' : GLoc} {x : Nat} {ts : List Nat}
    (hx : p.get g = x) (hx0 : x ≠ 0) (hxn : x ∉ ts)
    (hown : ∀ q, p = GLoc.gclist q → q ∉ x :: ts) (hk : grayKeeps g x)
    (h1 : ∀ a, a ≠ x → g1.heap a = g.heap a)
    (hga : g1.grayagain = g.grayagain) (hwk : g1.weak = g.weak)
    (hth : (g.heap x).gct = GCT.thread → (g1.heap x).marked = (g.heap x).marked)
    (P : GrayPost g1 (GLoc.gclist x) ts g' p') : GrayPost g p (x :: ts) g' p' := by
  have hts : ∀ t ∈ ts, g1.heap t = g.heap t := fun t ht => h1 t (fun e => hxn (e ▸ ht))
  have hf : (x :: ts).filter (fun y => decide (grayKeeps g y))
      = x :: ts.filter (fun y => decide (grayKeeps g1 y)) := by
    rw [List.filter_cons_of_pos (by simpa using hk), filter_grayKeeps_congr hts]
  have hpq : ∀ q, p = GLoc.gclist q → g'.heap q = g.heap q := fun q hq => by
    have hqn := hown q hq
    have hqx : q ≠ x := fun e => hqn (e ▸ List.mem_cons_self _ _)
    rw [P.frame q (fun hm => hqn (List.mem_cons_of_mem _ hm))
      (fun q2 e => by injection e with e; rw [← e]; exact hqx), h1 q hqx]
  have hpg : p.get g' = x := by
    rw [GLoc.get_agree p ((P.grayagain (fun e => by cases e)).trans hga)
      ((P.weak (fun e => by cases e)).trans hwk) (fun q hq => by rw [hpq q hq])]
    exact hx
  exact
    { chain := by
        rw [hf]
        exact ⟨hpg, hx0, P.chain⟩
      cursor := by rw [hf]; exact P.cursor
      frame := fun a ha hq => by
        have hax : a ≠ x := fun e => ha (e ▸ List.mem_cons_self _ _)
        rw [P.frame a (fun hm => ha (List.mem_cons_of_mem _ hm))
          (fun q2 e => by injection e with e; rw [← e]; exact hax), h1 a hax]
      owner := fun q hq => by rw [hpq q hq]
      white := fun t ht htu ha hw => by
        rcases List.mem_cons.mp ht with e | hm
        · subst e
          exfalso
          rcases hk with ⟨_, hk⟩ | ⟨hk, _⟩
          · exact ha hk
          · rcases htu with e | e <;> rw [e] at hk <;> cases hk
        · have e := hts t hm
          rw [← e] at htu ha hw ⊢
          exact P.white t hm htu ha hw
      thread := fun t ht htt => by
        rcases List.mem_cons.mp ht with e | hm
        · subst e
          rw [P.owner t rfl]
          exact hth htt
        · have e := hts t hm
          rw [← e] at htt ⊢
          exact P.thread t hm htt
      grayagain := fun _ => (P.grayagain (fun e => by cases e)).trans hga
      weak := fun _ => (P.weak (fun e => by cases e)).trans hwk }

/-- The element at the head is unlinked. -/
theorem GrayPost.drop {g g1 g' : GState} {p p' : GLoc} {x : Nat} {ts : List Nat}
    (hxn : x ∉ ts) (hown : ∀ q, p = GLoc.gclist q → q ∉ x :: ts) (hk : ¬ grayKeeps g x)
    (h1 : ∀ a, a ≠ x → (∀ q, p = GLoc.gclist q → a ≠ q) → g1.heap a = g.heap a)
    (h1q : ∀ q, p = GLoc.gclist q → (g1.heap q).marked = (g.heap q).marked)
    (hga : p ≠ GLoc.grayagain → g1.grayagain = g.grayagain)
    (hwk : p ≠ GLoc.weak → g1.weak = g.weak)
    (hm : iswhite (g.heap x) ∨ (g.heap x).gct = GCT.thread →
      (g1.heap x).marked = (g.heap x).marked)
    (P : GrayPost g1 p ts g' p') : GrayPost g p (x :: ts) g' p' := by
  have hts : ∀ t ∈ ts, g1.heap t = g.heap t := fun t ht =>
    h1 t (fun e => hxn (e ▸ ht)) (fun q hq e => hown q hq (e ▸ List.mem_cons_of_mem _ ht))
  have hf : (x :: ts).filter (fun y => decide (grayKeeps g y))
      = ts.filter (fun y => decide (grayKeeps g1 y)) := by
    rw [List.filter_cons_of_neg (by simpa using hk), filter_grayKeeps_congr hts]
  have hxq : ∀ q, p = GLoc.gclist q → x ≠ q := fun q hq e =>
    hown q hq (e ▸ List.mem_cons_self _ _)
  exact
    { chain := by rw [hf]; exact P.chain
      cursor := by rw [hf]; exact P.cursor
      frame := fun a ha hq => by
        have hax : a ≠ x := fun e => ha (e ▸ List.mem_cons_self _ _)
        rw [P.frame a (fun hm => ha (List.mem_cons_of_mem _ hm)) hq, h1 a hax hq]
      owner := fun q hq => (P.owner q hq).trans (h1q q hq)
      white := fun t ht htu ha hw => by
        rcases List.mem_cons.mp ht with e | hm2
        · subst e
          rw [P.frame t hxn hxq]
          exact hm (Or.inl hw)
        · have e := hts t hm2
          rw [← e] at htu ha hw ⊢
          exact P.white t hm2 htu ha hw
      thread := fun t ht htt => by
        rcases List.mem_cons.mp ht with e | hm2
        · subst e
          rw [P.frame t hxn hxq]
          exact hm (Or.inr htt)
        · have e := hts t hm2
          rw [← e] at htt ⊢
          exact P.thread t hm2 htt
      grayagain := fun h => (P.grayagain h).trans (hga h)
      weak := fun h => (P.weak h).trans (hwk h) }

/-- The recoloring of an unlinked table or userdata touches nothing but the
color byte of that object, and not even that when the object is white. -/
theorem unlink_recolor (g : GState) (x : Nat) (gX : GState)
    (h : (if ¬ iswhite (g.heap x) then
        (if getage (g.heap x) = G_TOUCHED2 then
            g.modObj x (fun y => changeage y G_TOUCHED2 G_OLD)
          else g).modObj x gray2black
      else g) = gX) :
    (∀ a, a ≠ x → gX.heap a = g.heap a) ∧ (gX.heap x).gclist = (g.heap x).gclist ∧
      (∀ a, a ≠ x → (gX.heap a).marked = (g.heap a).marked) ∧
      gX.grayagain = g.grayagain ∧ gX.weak = g.weak ∧
      (iswhite (g.heap x) → (gX.heap x).marked = (g.heap x).marked) := by
  subst h
  by_cases hw : iswhite (g.heap x)
  · rw [if_neg (not_not.mpr hw)]
    exact ⟨fun _ _ => rfl, rfl, fun _ _ => rfl, rfl, rfl, fun _ => rfl⟩
  · rw [if_pos hw]
    by_cases ha : getage (g.heap x) = G_TOUCHED2
    · rw [if_pos ha]
      refine ⟨fun a hax => ?_, ?_, fun a hax => ?_, rfl, rfl, fun h => absurd h hw⟩
      · rw [modObj_heap_ne _ _ _ _ hax, modObj_heap_ne _ _ _ _ hax]
      · rw [modObj_heap_same, modObj_heap_same]; rfl
      · rw [modObj_heap_ne _ _ _ _ hax, modObj_heap_ne _ _ _ _ hax]
    · rw [if_neg ha]
      refine ⟨fun a hax => ?_, ?_, fun a hax => ?_, rfl, rfl, fun h => absurd h hw⟩
      · rw [modObj_heap_ne _ _ _ _ hax]
      · rw [modObj_heap_same]; rfl
      · rw [modObj_heap_ne _ _ _ _ hax]

/-- On a list of distinct tables, userdata and threads `correctgraylist`
returns as soon as the fuel covers the length of the list. -/
theorem correctgraylist_run : ∀ (ts : List Nat) (n : Nat) (g : GState) (p : GLoc),
    ts.length ≤ n → GChain g (p.get g) ts → ts.Nodup →
    (∀ q, p = GLoc.gclist q → q ∉ ts) →
    (∀ t ∈ ts, (g.heap t).gct = GCT.tab ∨ (g.heap t).gct = GCT.udata ∨
      (g.heap t).gct = GCT.thread) →
    ∃ g' p', correctgraylist n g p = some (g', p') ∧ GrayPost g p ts g' p' := by
  intro ts
  induction ts with
  | nil =>
    intro n g p _ hc _ _ _
    have h0 : p.get g = 0 := hc
    refine ⟨g, p, ?_, ?_⟩
    · cases n with
      | zero => rw [correctgraylist, if_pos h0]
      | succ n => rw [correctgraylist]; dsimp only; rw [if_pos h0]
    · exact
        { chain := hc
          cursor := rfl
          frame := fun _ _ _ => rfl
          owner := fun _ _ => rfl
          white := fun t ht => absurd ht (List.not_mem_nil t)
          thread := fun t ht => absurd ht (List.not_mem_nil t)
          grayagain := fun _ => rfl
          weak := fun _ => rfl }
  | cons x ts ih =>
    intro n g p hn hc hnd hown hty
    obtain ⟨hx, hx0, hch⟩ := hc
    obtain ⟨hxn, hnd'⟩ := List.nodup_cons.mp hnd
    cases n with
    | zero => simp at hn
    | succ n =>
    have hn' : ts.length ≤ n := by simp only [List.length_cons] at hn; omega
    have hxq : ∀ q, p = GLoc.gclist q → x ≠ q := fun q hq e =>
      hown q hq (e ▸ List.mem_cons_self _ _)
    have htq : ∀ q, p = GLoc.gclist q → q ∉ ts := fun q hq hm =>
      hown q hq (List.mem_cons_of_mem _ hm)
    rw [correctgraylist]
    dsimp only
    rw [← hx] at hx0
    rw [if_neg hx0]
    rw [hx]
    rw [hx] at hx0
    -- the recursion after keeping `x`
    have keepStep : ∀ g1 : GState, grayKeeps g x → (∀ a, a ≠ x → g1.heap a = g.heap a) →
        (g1.heap x).gclist = (g.heap x).gclist → g1.grayagain = g.grayagain →
        g1.weak = g.weak →
        ((g.heap x).gct = GCT.thread → (g1.heap x).marked = (g.heap x).marked) →
        ∃ g' p', correctgraylist n g1 (GLoc.gclist x) = some (g', p') ∧
          GrayPost g p (x :: ts) g' p' := by
      intro g1 hk h1 hl hga hwk hth
      have hts : ∀ t ∈ ts, g1.heap t = g.heap t := fun t ht => h1 t (fun e => hxn (e ▸ ht))
      obtain ⟨g', p', hrun, P⟩ := ih n g1 (GLoc.gclist x) hn'
        (by
          show GChain g1 (g1.heap x).gclist ts
          rw [hl]
          exact GChain.congr_mem (fun t ht => by rw [hts t ht]) hch)
        hnd' (fun q hq => by injection hq with hq; rw [← hq]; exact hxn)
        (fun t ht => by rw [hts t ht]; exact hty t (List.mem_cons_of_mem _ ht))
      exact ⟨g', p', hrun, GrayPost.keep hx hx0 hxn hown hk h1 hga hwk hth P⟩
    -- the recursion after unlinking `x`
    have dropStep : ∀ gX : GState, ¬ grayKeeps g x → (∀ a, a ≠ x → gX.heap a = g.heap a) →
        (gX.heap x).gclist = (g.heap x).gclist → gX.grayagain = g.grayagain →
        gX.weak = g.weak →
        (iswhite (g.heap x) ∨ (g.heap x).gct = GCT.thread →
          (gX.heap x).marked = (g.heap x).marked) →
        ∃ g' p', correctgraylist n (p.set gX (gX.heap x).gclist) p = some (g', p') ∧
          GrayPost g p (x :: ts) g' p' := by
      intro gX hk h1 hl hga hwk hm
      have hoff : ∀ a, (∀ q, p = GLoc.gclist q → a ≠ q) →
          (p.set gX (gX.heap x).gclist).heap a = gX.heap a :=
        fun a ha => GLoc.set_heap_off gX p _ a ha
      have hts : ∀ t ∈ ts, (p.set gX (gX.heap x).gclist).heap t = g.heap t := fun t ht => by
        rw [hoff t (fun q hq e => htq q hq (e ▸ ht)), h1 t (fun e => hxn (e ▸ ht))]
      obtain ⟨g', p', hrun, P⟩ := ih n (p.set gX (gX.heap x).gclist) p hn'
        (by
          have e : p.get (p.set gX (gX.heap x).gclist) = (g.heap x).gclist :=
            (GLoc.get_set_same _ _ _).trans hl
          rw [e]
          exact GChain.congr_mem (fun t ht => by rw [hts t ht]) hch)
        hnd' htq
        (fun t ht => by rw [hts t ht]; exact hty t (List.mem_cons_of_mem _ ht))
      refine ⟨g', p', hrun, GrayPost.drop hxn hown hk (fun a hax hq => ?_) (fun q hq => ?_)
        (fun h => ?_) (fun h => ?_) (fun h => ?_) P⟩
      · rw [hoff a hq, h1 a hax]
      · rw [GLoc.set_keeps_marked, h1 q (fun e => hxq q hq e.symm)]
      · rw [GLoc.set_grayagain _ _ _ h, hga]
      · rw [GLoc.set_weak _ _ _ h, hwk]
      · rw [GLoc.set_keeps_marked]; exact hm h
    by_cases htu : (g.heap x).gct = GCT.tab ∨ (g.heap x).gct = GCT.udata
    · rw [if_pos htu]
      by_cases ha : getage (g.heap x) = G_TOUCHED1
      · rw [if_pos ha]
        refine keepStep _ (Or.inl ⟨htu, ha⟩) (fun a hax => ?_) ?_ rfl rfl (fun ht => ?_)
        · rw [modObj_heap_ne _ _ _ _ hax, modObj_heap_ne _ _ _ _ hax]
        · rw [modObj_heap_same, modObj_heap_same]; rfl
        · rcases htu with e | e <;> rw [e] at ht <;> cases ht
      · rw [if_neg ha]
        have hk : ¬ grayKeeps g x := by
          rintro (⟨_, h⟩ | ⟨h, _⟩)
          · exact ha h
          · rcases htu with e | e <;> rw [e] at h <;> cases h
        generalize hgX : (if ¬ iswhite (g.heap x) then
            (if getage (g.heap x) = G_TOUCHED2 then
                g.modObj x (fun y => changeage y G_TOUCHED2 G_OLD)
              else g).modObj x gray2black
          else g) = gX
        obtain ⟨a1, a2, _, a4, a5, a6⟩ := unlink_recolor g x gX hgX
        refine dropStep gX hk a1 a2 a4 a5 (fun h => ?_)
        rcases h with h | h
        · exact a6 h
        · rcases htu with e | e <;> rw [e] at h <;> cases h
    · rw [if_neg htu]
      have hth : (g.heap x).gct = GCT.thread := by
        rcases hty x (List.mem_cons_self _ _) with e | e | e
        · exact absurd (Or.inl e) htu
        · exact absurd (Or.inr e) htu
        · exact e
      rw [if_pos hth]
      by_cases hw : iswhite (g.heap x)
      · rw [if_pos hw]
        have hk : ¬ grayKeeps g x := by
          rintro (⟨h, _⟩ | ⟨_, h⟩)
          · exact htu h
          · exact h hw
        exact dropStep g hk (fun _ _ => rfl) rfl rfl rfl (fun _ => rfl)
      · rw [if_neg hw]
        exact keepStep g (Or.inr ⟨hth, hw⟩) (fun _ _ => rfl) rfl rfl rfl (fun _ => rfl)

theorem lastCell_cases : ∀ (ks : List Nat) (p : GLoc),
    (ks = [] ∧ lastCell p ks = p) ∨ ∃ y ∈ ks, lastCell p ks = GLoc.gclist y
  | [], p => Or.inl ⟨rfl, rfl⟩
  | x :: ks, p => by
    rcases lastCell_cases ks (GLoc.gclist x) with ⟨e, h⟩ | ⟨y, hy, h⟩
    · exact Or.inr ⟨x, List.mem_cons_self _ _, h⟩
    · exact Or.inr ⟨y, List.mem_cons_of_mem _ hy, h⟩

/-- A list whose last cell is made to point to a second list is followed by
that list. -/
theorem GChain.splice : ∀ (ks : List Nat) (p : GLoc) (g g' : GState) (rs : List Nat),
    GChain g (p.get g) ks → ks.Nodup → (∀ q, p = GLoc.gclist q → q ∉ ks) →
    (∀ a ∈ ks, GLoc.gclist a ≠ lastCell p ks → (g'.heap a).gclist = (g.heap a).gclist) →
    (p ≠ lastCell p ks → p.get g' = p.get g) →
    GChain g' ((lastCell p ks).get g') rs →
    GChain g' (p.get g') (ks ++ rs)
  | [], _, _, _, _, _, _, _, _, _, hr => hr
  | x :: ks, p, g, g', rs, hc, hnd, hown, h1, h2, hr => by
    obtain ⟨hx, hx0, hch⟩ := hc
    obtain ⟨hxn, hnd'⟩ := List.nodup_cons.mp hnd
    have hp : p ≠ lastCell p (x :: ks) := by
      intro e
      rcases lastCell_cases (x :: ks) p with ⟨e2, _⟩ | ⟨y, hy, h⟩
      · cases e2
      · exact hown y (e.trans h) hy
    have hpx : p.get g' = x := (h2 hp).trans hx
    refine ⟨hpx, hx0, ?_⟩
    exact GChain.splice ks (GLoc.gclist x) g g' rs hch hnd'
      (fun q hq => by injection hq with hq; rw [← hq]; exact hxn)
      (fun a ha hne => h1 a (List.mem_cons_of_mem _ ha) hne)
      (fun hne => h1 x (List.mem_cons_self _ _) hne)
      hr

theorem GLoc.get_weak_off (g : GState) (p : GLoc) (w : Nat) (h : p ≠ GLoc.weak) :
    p.get { g with weak := w } = p.get g := by
  cases p with
  | grayagain => rfl
  | weak => exact absurd rfl h
  | gclist q => rfl

/-- On a `grayagain` list and a `weak` list of distinct tables, userdata and
threads `correctgraylists` returns as soon as the fuel covers both lengths;
it leaves `weak` null and `grayagain` holding the kept elements of the former
`grayagain` followed by those of the former `weak`. -/
theorem correctgraylists_run (fuel : Nat) (g : GState) (ga wk : List Nat)
    (hga : GChain g g.grayagain ga) (hwk : GChain g g.weak wk) (hnd : (ga ++ wk).Nodup)
    (hty : ∀ t ∈ ga ++ wk, (g.heap t).gct = GCT.tab ∨ (g.heap t).gct = GCT.udata ∨
      (g.heap t).gct = GCT.thread)
    (hf1 : ga.length ≤ fuel) (hf2 : wk.length ≤ fuel) :
    ∃ g', correctgraylists fuel g = some g' ∧ g'.weak = 0 ∧
      GChain g' g'.grayagain (ga.filter (fun x => decide (grayKeeps g x)) ++
        wk.filter (fun x => decide (grayKeeps g x))) := by
  obtain ⟨ndga, ndwk, hdis⟩ := List.nodup_append.mp hnd
  obtain ⟨g1, p1, h1, P1⟩ := correctgraylist_run ga fuel g GLoc.grayagain hf1 hga ndga
    (fun q hq => by cases hq) (fun t ht => hty t (List.mem_append_left _ ht))
  have hK : ∀ y ∈ ga.filter (fun x => decide (grayKeeps g x)), y ∈ ga :=
    fun y hy => (List.mem_filter.mp hy).1
  have hp1w : p1 ≠ GLoc.weak := by
    rw [P1.cursor]
    rcases lastCell_cases (ga.filter (fun x => decide (grayKeeps g x))) GLoc.grayagain with
      ⟨_, h⟩ | ⟨y, _, h⟩ <;> rw [h] <;> exact fun e => by cases e
  have hp1o : ∀ q, p1 = GLoc.gclist q → q ∈ ga := by
    intro q hq
    rw [P1.cursor] at hq
    rcases lastCell_cases (ga.filter (fun x => decide (grayKeeps g x))) GLoc.grayagain with
      ⟨_, h⟩ | ⟨y, hy, h⟩
    · rw [h] at hq; cases hq
    · rw [h] at hq; injection hq with hq; rw [← hq]; exact hK y hy
  have hwkoff : ∀ t ∈ wk, ∀ q, p1 = GLoc.gclist q → t ≠ q := fun t ht q hq e =>
    hdis (hp1o q hq) (e ▸ ht)
  have hg1w : g1.weak = g.weak := P1.weak (fun e => by cases e)
  obtain ⟨G2, hG2⟩ : ∃ G2 : GState, G2 = { p1.set g1 g1.weak with weak := 0 } := ⟨_, rfl⟩
  have hG2h : G2.heap = (p1.set g1 g1.weak).heap := by rw [hG2]
  have hG2a : G2.grayagain = (p1.set g1 g1.weak).grayagain := by rw [hG2]
  have hG2w : G2.weak = 0 := by rw [hG2]
  have hG2g : p1.get G2 = g.weak := by
    rw [hG2, GLoc.get_weak_off _ _ _ hp1w, GLoc.get_set_same, hg1w]
  have hts : ∀ t ∈ wk, G2.heap t = g.heap t := fun t ht => by
    rw [hG2h, GLoc.set_heap_off g1 p1 _ t (hwkoff t ht)]
    exact P1.frame t (fun hm => hdis hm ht) (fun q hq => by cases hq)
  obtain ⟨g3, p3, h3, P3⟩ := correctgraylist_run wk fuel G2 p1 hf2
    (by
      rw [hG2g]
      exact GChain.congr_mem (fun t ht => by rw [hts t ht]) hwk)
    ndwk (fun q hq hm => hdis (hp1o q hq) hm)
    (fun t ht => by rw [hts t ht]; exact hty t (List.mem_append_right _ ht))
  refine ⟨g3, ?_, ?_, ?_⟩
  · subst hG2
    unfold correctgraylists
    rw [h1]
    simp only [Option.some_bind]
    rw [h3]
    rfl
  · exact (P3.weak hp1w).trans hG2w
  · have c3 := P3.chain
    rw [filter_grayKeeps_congr hts] at c3
    have hcur := P1.cursor
    refine GChain.splice _ GLoc.grayagain g1 g3 _ P1.chain (ndga.filter _)
      (fun q hq => by cases hq) (fun a ha hne => ?_) (fun hne => ?_) (by rw [← hcur]; exact c3)
    · rw [← hcur] at hne
      have haq : ∀ q, p1 = GLoc.gclist q → a ≠ q := fun q hq e => hne (by rw [hq, e])
      rw [P3.frame a (fun hm => hdis (hK a ha) hm) haq, hG2h,
        GLoc.set_heap_off g1 p1 _ a haq]
    · rw [← hcur] at hne
      show g3.grayagain = g1.grayagain
      rw [P3.grayagain (fun e => hne e.symm), hG2a]
      exact GLoc.set_grayagain _ _ _ (fun e => hne e.symm)

/-- C27: on a list `ts` of distinct tables, userdata and threads starting in
the cell `p`, `correctgraylist` returns; the list then holds exactly the
tables and userdata whose age was `G_TOUCHED1` and the threads that were not
white, in their original order, every other element being unlinked; an
unlinked table or userdata that was white keeps its color byte, and so does
every thread.  On such lists `ga` in `grayagain` and `wk` in `weak`,
`correctgraylists` returns with `weak` null and `grayagain` holding the
corrected `ga` followed by the corrected `wk`. -/
theorem correctgraylist_spec (g : GState) (p : GLoc) (ts : List Nat) (n : Nat)
    (ga wk : List Nat) (fuel : Nat)
    (hc : GChain g (p.get g) ts) (hnd : ts.Nodup) (hown : ∀ q, p = GLoc.gclist q → q ∉ ts)
    (hty : ∀ t ∈ ts, (g.heap t).gct = GCT.tab ∨ (g.heap t).gct = GCT.udata ∨
      (g.heap t).gct = GCT.thread)
    (hn : ts.length ≤ n)
    (hga : GChain g g.grayagain ga) (hwk : GChain g g.weak wk) (hnd2 : (ga ++ wk).Nodup)
    (hty2 : ∀ t ∈ ga ++ wk, (g.heap t).gct = GCT.tab ∨ (g.heap t).gct = GCT.udata ∨
      (g.heap t).gct = GCT.thread)
    (hf1 : ga.length ≤ fuel) (hf2 : wk.length ≤ fuel) :
    (∃ g' p', correctgraylist n g p = some (g', p') ∧
      GChain g' (p.get g') (ts.filter (fun x => decide (grayKeeps g x))) ∧
      (∀ t ∈ ts, ((g.heap t).gct = GCT.tab ∨ (g.heap t).gct = GCT.udata) →
        getage (g.heap t) ≠ G_TOUCHED1 → iswhite (g.heap t) →
        (g'.heap t).marked = (g.heap t).marked) ∧
      (∀ t ∈ ts, (g.heap t).gct = GCT.thread → (g'.heap t).marked = (g.heap t).marked)) ∧
    (∃ g', correctgraylists fuel g = some g' ∧ g'.weak = 0 ∧
      GChain g' g'.grayagain (ga.filter (fun x => decide (grayKeeps g x)) ++
        wk.filter (fun x => decide (grayKeeps g x)))) := by
  obtain ⟨g', p', h, P⟩ := correctgraylist_run ts n g p hn hc hnd hown hty
  exact ⟨⟨g', p', h, P.chain, P.white, P.thread⟩,
    correctgraylists_run fuel g ga wk hga hwk hnd2 hty2 hf1 hf2⟩

/-- Witness for `correctgraylist_spec`: in `exGrayLists` the correction of
`grayagain` keeps the touched table 2 and the gray thread 5 and unlinks the
white thread 3, whose color stays; `correctgraylists` leaves `grayagain` with
2, 5 and the touched userdata 7. -/
theorem correctgraylist_spec_witness :
    (∃ g' p', correctgraylist 3 exGrayLists GLoc.grayagain = some (g', p') ∧
      GChain g' g'.grayagain [2, 5] ∧ (g'.heap 3).marked = 1) ∧
    (∃ g', correctgraylists 3 exGrayLists = some g' ∧ g'.weak = 0 ∧
      GChain g' g'.grayagain [2, 5, 7]) := by
  have hU : ∀ t ∈ [2, 3, 5] ++ [6, 7], t = 2 ∨ t = 3 ∨ t = 5 ∨ t = 6 ∨ t = 7 :=
    fun t ht => by simpa using ht
  have hV : ∀ t ∈ [2, 3, 5], t = 2 ∨ t = 3 ∨ t = 5 := fun t ht => by simpa using ht
  obtain ⟨⟨g1, p1, a1, a2, _, a4⟩, ⟨g2, b1, b2, b3⟩⟩ :=
    correctgraylist_spec exGrayLists GLoc.grayagain [2, 3, 5] 3 [2, 3, 5] [6, 7] 3
      ⟨rfl, by decide, rfl, by decide, rfl, by decide, rfl⟩ (by decide)
      (fun q hq => by cases hq)
      (fun t ht => by rcases hV t ht with e | e | e <;> subst e <;> decide)
      (by decide)
      ⟨rfl, by decide, rfl, by decide, rfl, by decide, rfl⟩
      ⟨rfl, by decide, rfl, by decide, rfl⟩ (by decide)
      (fun t ht => by rcases hU t ht with e | e | e | e | e <;> subst e <;> decide)
      (by decide) (by decide)
  have e1 : [2, 3, 5].filter (fun x => decide (grayKeeps exGrayLists x)) = [2, 5] := by decide
  have e2 : [6, 7].filter (fun x => decide (grayKeeps exGrayLists x)) = [7] := by decide
  rw [e1] at a2
  rw [e1, e2] at b3
  exact ⟨⟨g1, p1, a1, a2, a4 3 (by decide) rfl⟩, ⟨g2, b1, b2, b3⟩⟩

/-! ## The generational sweep -/

theorem shapeG_gct {x y : GCobj} (h : shapeG x = shapeG y) : x.gct = y.gct :=
  (show (shapeG x).gct = (shapeG y).gct by rw [h])

theorem Seg.head {g : GState} {h e : Nat} : ∀ {xs : List Nat}, Seg g h xs e → h = xs.headD e
  | [], hc => hc
  | _ :: _, hc => hc.1

theorem Loc.set_restGen (g : GState) (p : Loc) (r : Nat) : (p.set g r).restGen = g.restGen := by
  cases p <;> rfl

theorem Anchor.aset_restGen (g : GState) (a : Anchor) (r : Nat) :
    (a.set g r).restGen = g.restGen := by
  cases a <;> rfl

theorem Loc.set_shapeG (g : GState) (p : Loc) (r a : Nat) :
    shapeG ((p.set g r).heap a) = shapeG (g.heap a) := by
  cases p with
  | root => rfl
  | strhash i => rfl
  | nextgc o =>
    unfold Loc.set; rw [modObj_heap]; split
    · next e => subst e; rfl
    · rfl
  | openupval o =>
    unfold Loc.set; rw [modObj_heap]; split
    · next e => subst e; rfl
    · rfl

theorem Loc.set_anchor (g : GState) (p : Loc) (r : Nat) (a : Anchor) :
    a.get (p.set g r) = a.get g := by
  cases p <;> cases a <;> rfl

theorem genMarked_congr {g g' : GState} (h : g'.currentwhite = g.currentwhite) (o : GCobj) :
    genMarked g' o = genMarked g o := by
  unfold genMarked; rw [makewhite_congr h]

theorem restGen_white {g g' : GState} (h : g'.restGen = g.restGen) :
    g'.currentwhite = g.currentwhite :=
  (show g'.restGen.currentwhite = g.restGen.currentwhite by rw [h])

theorem GenPost.gnil (g : GState) (p : Loc) (U : Nat → List Nat) (limit : Nat)
    (root : Option Anchor) (h0 : p.get g = limit) : GenPost g p U [] limit root g p :=
  { chain := h0
    cursor := rfl
    upchain := fun t ht => by simp at ht
    frame := fun _ _ _ => rfl
    owner := fun q hq => (Loc.put_get_self g p q hq).symm
    shape := fun _ => rfl
    age := fun v hv => by simp [footprint] at hv
    mark := fun v hv => by simp [footprint] at hv
    same := fun _ _ => ⟨rfl, rfl⟩
    freed := by simp [footprint]
    groot := fun _ => rfl
    strhash := fun _ _ => rfl
    rest := rfl
    anchorOff := fun _ _ => rfl
    anchorIn := fun r _ pre suf e ha => by
      have hs : suf = [] := (List.append_eq_nil.mp e.symm).2
      subst hs
      exact ha }

theorem GenPost.ginner {g g1 : GState} {x : Nat} {U : Nat → List Nat} {p1 : Loc}
    (post : GenPost g (Loc.openupval x) (fun _ => []) (U x) 0 none g1 p1) :
    GenInner g x U g1 :=
  { frame := fun a ha hax => post.frame a (by rw [footprint_nil]; exact ha)
      (fun q hq => by injection hq with hq; subst hq; exact hax)
    self := post.owner x rfl
    shape := post.shape
    age := fun v hv hd => post.age v (by rw [footprint_nil]; exact hv) hd
    mark := fun v hv hd => post.mark v (by rw [footprint_nil]; exact hv) hd
    same := fun v hv => post.same v (by rw [footprint_nil]; exact hv)
    freed := by rw [post.freed, footprint_nil]
    root := post.groot (by simp)
    strhash := funext (fun j => post.strhash j (by simp))
    rest := post.rest
    anchors := fun r => post.anchorOff r (fun h => by cases h)
    up := fun _ => Chain.seg.mpr post.chain }

theorem GenInner.gnone (g : GState) (x : Nat) (U : Nat → List Nat)
    (ht : (g.heap x).gct ≠ GCT.thread) (hU : U x = []) : GenInner g x U g :=
  { frame := fun _ _ _ => rfl
    self := rfl
    shape := fun _ => rfl
    age := fun v hv => by rw [hU] at hv; simp at hv
    mark := fun v hv => by rw [hU] at hv; simp at hv
    same := fun _ _ => ⟨rfl, rfl⟩
    freed := by rw [hU]; rfl
    root := rfl
    strhash := rfl
    rest := rfl
    anchors := fun _ => rfl
    up := fun h => absurd h ht }

theorem GenInner.x_same {g g1 : GState} {x : Nat} {U : Nat → List Nat}
    (h : GenInner g x U g1) :
    (g1.heap x).nextgc = (g.heap x).nextgc ∧ (g1.heap x).marked = (g.heap x).marked ∧
      (g1.heap x).age = (g.heap x).age ∧ (g1.heap x).gct = (g.heap x).gct := by
  rw [h.self]
  exact ⟨rfl, rfl, rfl, rfl⟩

/-- The freeing branch of `sweepgen`, followed by the sweep of the rest. -/
theorem GenPost.gcons_dead {g g1 G2 g' : GState} {p p' : Loc} {U : Nat → List Nat} {x : Nat}
    {rest : List Nat} {limit : Nat} {root : Option Anchor}
    (inner : GenInner g x U g1) (hd : oldDead g x)
    (hnext : Seg g (g.heap x).nextgc rest limit)
    (hGh : ∀ a, (∀ q, p.owner = some q → a ≠ q) → G2.heap a = g1.heap a)
    (hGo : ∀ q, p.owner = some q → G2.heap q = p.put (g1.heap q) (g1.heap x).nextgc)
    (hGs : ∀ a, shapeG (G2.heap a) = shapeG (g1.heap a))
    (hGm : ∀ a, (G2.heap a).marked = (g1.heap a).marked ∧ (G2.heap a).age = (g1.heap a).age)
    (hGf : G2.freed = x :: g1.freed)
    (hGr : p ≠ Loc.root → G2.root = g1.root)
    (hGstr : ∀ j, p ≠ Loc.strhash j → G2.strhash j = g1.strhash j)
    (hGrest : G2.restGen = g1.restGen)
    (hGa : ∀ r : Anchor, r.get G2
      = if root = some r ∧ x = r.get g1 then (g1.heap x).nextgc else r.get g1)
    (post : GenPost G2 p U rest limit root g' p')
    (hxr : x ∉ footprint U rest) (hUr : ∀ u ∈ U x, u ∉ footprint U rest) (hxl : x ≠ limit)
    (hq : ∀ q, p.owner = some q → q ∉ U x ∧ q ≠ x ∧ q ∉ footprint U rest) :
    GenPost g p U (x :: rest) limit root g' p' := by
  have hxq : ∀ q, p.owner = some q → x ≠ q := fun q h e => (hq q h).2.1 e.symm
  have hUq : ∀ u ∈ U x, ∀ q, p.owner = some q → u ≠ q := fun u hu q h e =>
    (hq q h).1 (e ▸ hu)
  have hfp : footprint U (x :: rest) = U x ++ x :: footprint U rest := rfl
  have hxrest : x ∉ rest := fun h => hxr (mem_footprint_self U h)
  -- objects of the rest are as in `g`
  have hrm : ∀ v ∈ footprint U rest, (G2.heap v).marked = (g.heap v).marked ∧
      (G2.heap v).age = (g.heap v).age := fun v hv => by
    have hvU : v ∉ U x := fun h => hUr v h hv
    exact ⟨(hGm v).1.trans (inner.same v (Or.inl hvU)).2,
      (hGm v).2.trans (inner.same v (Or.inl hvU)).1⟩
  have hrest_m : ∀ y ∈ rest, (G2.heap y).marked = (g.heap y).marked := fun y hy =>
    (hrm y (mem_footprint_self U hy)).1
  have hwh : G2.currentwhite = g.currentwhite :=
    (restGen_white hGrest).trans (restGen_white inner.rest)
  have hgm : ∀ v ∈ footprint U rest, genMarked G2 (G2.heap v) = genMarked g (g.heap v) := by
    intro v hv
    rw [genMarked_congr hwh]
    unfold genMarked getage makewhite
    rw [(hrm v hv).1, (hrm v hv).2]
  have hanc : ∀ r : Anchor, r.get g1 = r.get g := inner.anchors
  refine
    { chain := ?_, cursor := ?_, upchain := ?_, frame := ?_, owner := ?_, shape := ?_, age := ?_
      mark := ?_, same := ?_, freed := ?_, groot := ?_, strhash := ?_
      rest := post.rest.trans (hGrest.trans inner.rest)
      anchorOff := ?_, anchorIn := ?_ }
  · rw [List.filter_cons_of_neg (by simpa using hd), ← (filter_dead_congr hrest_m).2]
    exact post.chain
  · rw [List.filter_cons_of_neg (by simpa using hd), ← (filter_dead_congr hrest_m).2]
    exact post.cursor
  · intro t ht hth
    rcases List.mem_cons.mp ht with e | ht
    · subst e
      have hc := inner.up hth
      have e1 : g'.heap t = g1.heap t := (post.frame t hxr hxq).trans (hGh t hxq)
      rw [e1]
      refine Chain.congr (fun u hu => ?_) hc
      have huU : u ∈ U t := List.mem_of_mem_filter hu
      rw [post.frame u (hUr u huU) (hUq u huU), hGh u (hUq u huU)]
    · have hg : (G2.heap t).gct = (g.heap t).gct :=
        (shapeG_gct (hGs t)).trans (shapeG_gct (inner.shape t))
      have := post.upchain t ht (by rw [hg]; exact hth)
      rw [(filter_dead_congr (fun y hy => (hrm y (mem_footprint_up U ht hy)).1)).2] at this
      exact this
  · intro a ha haq
    rw [hfp] at ha
    have h1 : a ∉ U x := fun h => ha (List.mem_append_left _ h)
    have h3 : a ≠ x := fun e => ha (List.mem_append_right _ (e ▸ List.mem_cons_self _ _))
    have h4 : a ∉ footprint U rest := fun h =>
      ha (List.mem_append_right _ (List.mem_cons_of_mem _ h))
    rw [post.frame a h4 haq, hGh a haq, inner.frame a h1 h3]
  · intro q hqo
    rw [post.owner q hqo, hGo q hqo, inner.frame q (hq q hqo).1 (hq q hqo).2.1, Loc.put_put]
  · intro a
    exact (post.shape a).trans ((hGs a).trans (inner.shape a))
  · intro v hv hdv
    rw [hfp] at hv
    rcases List.mem_append.mp hv with hv | hv
    · rw [(post.same v (Or.inl (hUr v hv))).1, (hGm v).2]
      exact inner.age v hv hdv
    · rcases List.mem_cons.mp hv with e | hv
      · subst e; exact absurd hd hdv
      · rw [post.age v hv (fun h => hdv ((oldDead_congr (hrm v hv).1).mp h)), (hrm v hv).2]
  · intro v hv hdv
    rw [hfp] at hv
    rcases List.mem_append.mp hv with hv | hv
    · rw [(post.same v (Or.inl (hUr v hv))).2, (hGm v).1]
      exact inner.mark v hv hdv
    · rcases List.mem_cons.mp hv with e | hv
      · subst e; exact absurd hd hdv
      · rw [post.mark v hv (fun h => hdv ((oldDead_congr (hrm v hv).1).mp h)), hgm v hv]
  · intro v hv
    by_cases hvr : v ∈ footprint U rest
    · have hdv : oldDead g v := by
        rcases hv with hv | hv
        · exact absurd (by rw [hfp]; exact List.mem_append_right _ (List.mem_cons_of_mem _ hvr)) hv
        · exact hv
      have s1 := post.same v (Or.inr ((oldDead_congr (hrm v hvr).1).mpr hdv))
      exact ⟨s1.1.trans (hrm v hvr).2, s1.2.trans (hrm v hvr).1⟩
    · have s1 := post.same v (Or.inl hvr)
      have s2 := inner.same v (by
        rcases hv with hv | hv
        · exact Or.inl (fun h => hv (by rw [hfp]; exact List.mem_append_left _ h))
        · exact Or.inr hv)
      exact ⟨s1.1.trans ((hGm v).2.trans s2.1), s1.2.trans ((hGm v).1.trans s2.2)⟩
  · rw [post.freed, (filter_dead_congr (fun y hy => (hrm y hy).1)).1, hfp, List.filter_append,
      List.filter_cons_of_pos (by simpa using hd), List.reverse_append, List.reverse_cons,
      hGf, inner.freed]
    simp
  · intro hp
    rw [post.groot hp, hGr hp, inner.root]
  · intro j hp
    rw [post.strhash j hp, hGstr j hp, inner.strhash]
  · intro r hr
    have hne : ¬ (root = some r ∧ x = r.get g1) := fun h =>
      hr h.1 (by rw [← hanc r, ← h.2]; exact List.mem_cons_self _ _)
    have e2 : r.get G2 = r.get g := by rw [hGa r, if_neg hne, hanc r]
    rw [post.anchorOff r (fun h => by
      rw [e2]; exact fun hm => hr h (List.mem_cons_of_mem _ hm)), e2]
  · intro r hr pre suf e ha
    cases pre with
    | nil =>
      have hs : suf = x :: rest := e.symm
      subst hs
      have hax : r.get g = x := ha
      have e2 : r.get G2 = rest.headD limit := by
        rw [hGa r, if_pos ⟨hr, by rw [hanc r, hax]⟩, inner.x_same.1]
        exact Seg.head hnext
      rw [List.filter_cons_of_neg (by simpa using hd),
        ← (filter_dead_congr hrest_m).2]
      exact post.anchorIn r hr [] rest rfl e2
    | cons y pre' =>
      have e1 : x = y ∧ rest = pre' ++ suf := by
        rw [List.cons_append] at e
        exact ⟨(List.cons.inj e).1, (List.cons.inj e).2⟩
      have hsub : ∀ s ∈ suf, s ∈ rest := fun s hs => by
        rw [e1.2]; exact List.mem_append_right _ hs
      have hax : r.get g ≠ x := by
        rw [ha]
        cases suf with
        | nil => exact fun h => hxl h.symm
        | cons s ss =>
          exact fun h => hxrest (by
            have : s = x := h
            rw [← this]; exact hsub s (List.mem_cons_self _ _))
      have hne : ¬ (root = some r ∧ x = r.get g1) := fun h => hax (by rw [← hanc r, ← h.2])
      have e2 : r.get G2 = r.get g := by rw [hGa r, if_neg hne, hanc r]
      have := post.anchorIn r hr pre' suf e1.2 (e2.trans ha)
      rw [(filter_dead_congr (fun y hy => hrest_m y (hsub y hy))).2] at this
      exact this

/-- The keeping branch of `sweepgen`, followed by the sweep of the rest. -/
theorem GenPost.gcons_kept {g g1 G2 g' : GState} {p p' : Loc} {U : Nat → List Nat} {x : Nat}
    {rest : List Nat} {limit : Nat} {root : Option Anchor}
    (hx : p.get g = x) (hx0 : x ≠ 0)
    (inner : GenInner g x U g1) (hk : ¬ oldDead g x)
    (hGh : ∀ a, a ≠ x → G2.heap a = g1.heap a)
    (hGx : G2.heap x = { g1.heap x with marked := genMarked g1 (g1.heap x),
                                         age := nextage.getD (g1.heap x).age 0 })
    (hGf : G2.freed = g1.freed) (hGr : G2.root = g1.root) (hGstr : G2.strhash = g1.strhash)
    (hGrest : G2.restGen = g1.restGen) (hGa : ∀ r : Anchor, r.get G2 = r.get g1)
    (post : GenPost G2 (Loc.nextgc x) U rest limit root g' p')
    (hxr : x ∉ footprint U rest) (hUr : ∀ u ∈ U x, u ∉ footprint U rest) (hxU : x ∉ U x)
    (hq : ∀ q, p.owner = some q → q ∉ U x ∧ q ≠ x ∧ q ∉ footprint U rest) :
    GenPost g p U (x :: rest) limit root g' p' := by
  have hpx : ∀ q, (Loc.nextgc x).owner = some q → q = x := fun q h => by
    injection h with h; exact h.symm
  have hfp : footprint U (x :: rest) = U x ++ x :: footprint U rest := rfl
  have hxrest : x ∉ rest := fun h => hxr (mem_footprint_self U h)
  have hs2 : ∀ a, shapeG (G2.heap a) = shapeG (g1.heap a) := fun a => by
    by_cases e : a = x
    · subst e; rw [hGx]; rfl
    · rw [hGh a e]
  have hrh : ∀ v ∈ footprint U rest, G2.heap v = g.heap v := fun v hv => by
    have hvx : v ≠ x := fun e => hxr (e ▸ hv)
    rw [hGh v hvx, inner.frame v (fun h => hUr v h hv) hvx]
  have hrest_m : ∀ y ∈ rest, (G2.heap y).marked = (g.heap y).marked := fun y hy => by
    rw [hrh y (mem_footprint_self U hy)]
  have hwh : G2.currentwhite = g.currentwhite :=
    (restGen_white hGrest).trans (restGen_white inner.rest)
  have hwh1 : g1.currentwhite = g.currentwhite := restGen_white inner.rest
  have hgm : ∀ v ∈ footprint U rest, genMarked G2 (G2.heap v) = genMarked g (g.heap v) := by
    intro v hv
    rw [genMarked_congr hwh, hrh v hv]
  have hqq : ∀ q, p.owner = some q → g'.heap q = g.heap q := fun q hqo => by
    rw [post.frame q (hq q hqo).2.2 (fun q' h' => by rw [hpx q' h']; exact (hq q hqo).2.1),
      hGh q (hq q hqo).2.1, inner.frame q (hq q hqo).1 (hq q hqo).2.1]
  have hroot : g'.root = g.root := (post.groot (by simp)).trans (hGr.trans inner.root)
  have hstr : g'.strhash = g.strhash :=
    (funext (fun j => post.strhash j (by simp))).trans (hGstr.trans inner.strhash)
  have hget : p.get g' = p.get g := Loc.get_congr g g' p hqq (fun _ => hroot) (Or.inr hstr)
  have hself : g'.heap x = { G2.heap x with nextgc := (g'.heap x).nextgc } := post.owner x rfl
  have hanc : ∀ r : Anchor, r.get G2 = r.get g := fun r => (hGa r).trans (inner.anchors r)
  have hxs := inner.x_same
  refine
    { chain := ?_, cursor := ?_, upchain := ?_, frame := ?_, owner := ?_, shape := ?_, age := ?_
      mark := ?_, same := ?_, freed := ?_, groot := fun _ => hroot
      strhash := fun j _ => congrFun hstr j
      rest := post.rest.trans (hGrest.trans inner.rest)
      anchorOff := ?_, anchorIn := ?_ }
  · rw [List.filter_cons_of_pos (by simpa using hk)]
    refine ⟨hget.trans hx, hx0, ?_⟩
    rw [← (filter_dead_congr hrest_m).2]
    exact post.chain
  · rw [List.filter_cons_of_pos (by simpa using hk), ← (filter_dead_congr hrest_m).2]
    exact post.cursor
  · intro t ht hth
    rcases List.mem_cons.mp ht with e | ht
    · subst e
      have hc := inner.up hth
      have e1 : (g'.heap t).openupval = (g1.heap t).openupval := by
        rw [hself, hGx]
      rw [e1]
      refine Chain.congr (fun u hu => ?_) hc
      have huU : u ∈ U t := List.mem_of_mem_filter hu
      have hut : u ≠ t := fun e => hxU (e ▸ huU)
      rw [post.frame u (hUr u huU) (fun q' h' => by rw [hpx q' h']; exact hut), hGh u hut]
    · have hg : (G2.heap t).gct = (g.heap t).gct := by
        rw [hrh t (mem_footprint_self U ht)]
      have := post.upchain t ht (by rw [hg]; exact hth)
      rw [(@filter_dead_congr g G2 _ (fun y hy => by
        rw [hrh y (mem_footprint_up U ht hy)])).2] at this
      exact this
  · intro a ha haq
    rw [hfp] at ha
    have h1 : a ∉ U x := fun h => ha (List.mem_append_left _ h)
    have h3 : a ≠ x := fun e => ha (List.mem_append_right _ (e ▸ List.mem_cons_self _ _))
    have h4 : a ∉ footprint U rest := fun h =>
      ha (List.mem_append_right _ (List.mem_cons_of_mem _ h))
    rw [post.frame a h4 (fun q' h' => by rw [hpx q' h']; exact h3), hGh a h3,
      inner.frame a h1 h3]
  · intro q hqo
    rw [hqq q hqo, hget]
    exact (Loc.put_get_self g p q hqo).symm
  · intro a
    exact (post.shape a).trans ((hs2 a).trans (inner.shape a))
  · intro v hv hdv
    rw [hfp] at hv
    rcases List.mem_append.mp hv with hv | hv
    · have hvx : v ≠ x := fun e => hxU (e ▸ hv)
      rw [(post.same v (Or.inl (hUr v hv))).1, hGh v hvx]
      exact inner.age v hv hdv
    · rcases List.mem_cons.mp hv with e | hv
      · subst e
        rw [hself, hGx]
        show nextage.getD (g1.heap v).age 0 = _
        rw [hxs.2.2.1]
      · rw [post.age v hv (fun h => hdv ((oldDead_congr (by rw [hrh v hv])).mp h)), hrh v hv]
  · intro v hv hdv
    rw [hfp] at hv
    rcases List.mem_append.mp hv with hv | hv
    · have hvx : v ≠ x := fun e => hxU (e ▸ hv)
      rw [(post.same v (Or.inl (hUr v hv))).2, hGh v hvx]
      exact inner.mark v hv hdv
    · rcases List.mem_cons.mp hv with e | hv
      · subst e
        rw [hself, hGx]
        show genMarked g1 (g1.heap v) = _
        rw [genMarked_congr hwh1]
        unfold genMarked getage makewhite
        rw [hxs.2.1, hxs.2.2.1]
      · rw [post.mark v hv (fun h => hdv ((oldDead_congr (by rw [hrh v hv])).mp h)), hgm v hv]
  · intro v hv
    have hvx : v ≠ x := by
      rcases hv with hv | hv
      · exact fun e => hv (by rw [hfp, e]; exact List.mem_append_right _ (List.mem_cons_self _ _))
      · exact fun e => hk (e ▸ hv)
    by_cases hvr : v ∈ footprint U rest
    · have hdv : oldDead g v := by
        rcases hv with hv | hv
        · exact absurd (by rw [hfp]; exact List.mem_append_right _ (List.mem_cons_of_mem _ hvr)) hv
        · exact hv
      have s1 := post.same v (Or.inr ((oldDead_congr (by rw [hrh v hvr])).mpr hdv))
      rw [hrh v hvr] at s1
      exact s1
    · have s1 := post.same v (Or.inl hvr)
      have s2 := inner.same v (by
        rcases hv with hv | hv
        · exact Or.inl (fun h => hv (by rw [hfp]; exact List.mem_append_left _ h))
        · exact Or.inr hv)
      rw [hGh v hvx] at s1
      exact ⟨s1.1.trans s2.1, s1.2.trans s2.2⟩
  · rw [post.freed, (@filter_dead_congr g G2 _ (fun y hy => by rw [hrh y hy])).1, hfp,
      List.filter_append, List.filter_cons_of_neg (by simpa using hk), List.reverse_append,
      hGf, inner.freed]
    simp
  · intro r hr
    have e2 : r.get G2 = r.get g := hanc r
    rw [post.anchorOff r (fun h => by
      rw [e2]; exact fun hm => hr h (List.mem_cons_of_mem _ hm)), e2]
  · intro r hr pre suf e ha
    cases pre with
    | nil =>
      have hs : suf = x :: rest := e.symm
      subst hs
      have hax : r.get g = x := ha
      rw [List.filter_cons_of_pos (by simpa using hk)]
      show r.get g' = x
      rw [post.anchorOff r (fun _ => by rw [hanc r, hax]; exact hxrest), hanc r, hax]
    | cons y pre' =>
      have e1 : x = y ∧ rest = pre' ++ suf := by
        rw [List.cons_append] at e
        exact ⟨(List.cons.inj e).1, (List.cons.inj e).2⟩
      have hsub : ∀ s ∈ suf, s ∈ rest := fun s hs => by
        rw [e1.2]; exact List.mem_append_right _ hs
      have := post.anchorIn r hr pre' suf e1.2 ((hanc r).trans ha)
      rw [(filter_dead_congr (fun y hy => hrest_m y (hsub y hy))).2] at this
      exact this

theorem Anchor.aget_set (g : GState) (r0 r : Anchor) (v : Nat) :
    r.get (r0.set g v) = if r = r0 then v else r.get g := by
  cases r0 <;> cases r <;> rfl

/-- The state in which `sweepgen` goes on after freeing `x`. -/
theorem genFree_facts (g1 : GState) (p : Loc) (x : Nat) (root : Option Anchor)
    (hxq : ∀ q, p.owner = some q → x ≠ q) (G2 : GState)
    (hG : gc_free (match root with
        | some r =>
          if x = r.get (p.set g1 (g1.heap x).nextgc) then
            r.set (p.set g1 (g1.heap x).nextgc) ((p.set g1 (g1.heap x).nextgc).heap x).nextgc
          else p.set g1 (g1.heap x).nextgc
        | none => p.set g1 (g1.heap x).nextgc) x = G2) :
    (∀ a, (∀ q, p.owner = some q → a ≠ q) → G2.heap a = g1.heap a) ∧
    (∀ q, p.owner = some q → G2.heap q = p.put (g1.heap q) (g1.heap x).nextgc) ∧
    (∀ a, shapeG (G2.heap a) = shapeG (g1.heap a)) ∧
    (∀ a, (G2.heap a).marked = (g1.heap a).marked ∧ (G2.heap a).age = (g1.heap a).age) ∧
    G2.freed = x :: g1.freed ∧ (p ≠ Loc.root → G2.root = g1.root) ∧
    (∀ j, p ≠ Loc.strhash j → G2.strhash j = g1.strhash j) ∧
    G2.restGen = g1.restGen ∧
    (∀ r : Anchor, r.get G2
      = if root = some r ∧ x = r.get g1 then (g1.heap x).nextgc else r.get g1) ∧
    p.get G2 = (g1.heap x).nextgc := by
  subst hG
  have hnx : ((p.set g1 (g1.heap x).nextgc).heap x).nextgc = (g1.heap x).nextgc := by
    rw [Loc.set_heap_ne g1 p _ x hxq]
  cases root with
  | none =>
    refine ⟨fun a ha => Loc.set_heap_ne g1 p _ a ha, fun q hq => Loc.set_owner g1 p q _ hq,
      fun a => Loc.set_shapeG g1 p _ a,
      fun a => ⟨(Loc.set_marked g1 p _ a).1, Loc.set_age_eq g1 p _ a⟩, ?_,
      fun hp => (Loc.set_fields g1 p _).2.2.1 hp, fun j hp => Loc.set_strhash_ne g1 p _ j hp,
      Loc.set_restGen g1 p _, fun r => ?_, ?_⟩
    · show x :: (p.set g1 (g1.heap x).nextgc).freed = _
      rw [(Loc.set_fields g1 p _).2.1]
    · rw [if_neg (fun h => by cases h.1)]
      show r.get (p.set g1 (g1.heap x).nextgc) = _
      exact Loc.set_anchor g1 p _ r
    · show p.get (gc_free (p.set g1 (g1.heap x).nextgc) x) = _
      have e0 : p.get (gc_free (p.set g1 (g1.heap x).nextgc) x)
          = p.get (p.set g1 (g1.heap x).nextgc) := by cases p <;> rfl
      rw [e0, Loc.get_set]
  | some r0 =>
    by_cases hm : x = r0.get (p.set g1 (g1.heap x).nextgc)
    · simp only [if_pos hm]
      have hm1 : x = r0.get g1 := hm.trans (Loc.set_anchor g1 p _ r0)
      refine ⟨fun a ha => ?_, fun q hq => ?_, fun a => ?_, fun a => ⟨?_, ?_⟩, ?_,
        fun hp => ?_, fun j hp => ?_, ?_, fun r => ?_, ?_⟩
      · cases r0 <;> exact Loc.set_heap_ne g1 p _ a ha
      · cases r0 <;> exact Loc.set_owner g1 p q _ hq
      · cases r0 <;> exact Loc.set_shapeG g1 p _ a
      · cases r0 <;> exact (Loc.set_marked g1 p _ a).1
      · cases r0 <;> exact Loc.set_age_eq g1 p _ a
      · cases r0 <;>
        · show x :: (p.set g1 (g1.heap x).nextgc).freed = _
          rw [(Loc.set_fields g1 p _).2.1]
      · cases r0 <;> exact (Loc.set_fields g1 p _).2.2.1 hp
      · cases r0 <;> exact Loc.set_strhash_ne g1 p _ j hp
      · cases r0 <;> exact Loc.set_restGen g1 p _
      · show r.get (r0.set (p.set g1 (g1.heap x).nextgc)
          ((p.set g1 (g1.heap x).nextgc).heap x).nextgc) = _
        rw [Anchor.aget_set, hnx, Loc.set_anchor]
        by_cases e : r = r0
        · subst e
          rw [if_pos rfl, if_pos ⟨rfl, hm1⟩]
        · rw [if_neg e, if_neg (fun h => e (Option.some.inj h.1).symm)]
      · have e0 : p.get (gc_free (r0.set (p.set g1 (g1.heap x).nextgc)
            ((p.set g1 (g1.heap x).nextgc).heap x).nextgc) x)
            = p.get (p.set g1 (g1.heap x).nextgc) := by cases p <;> cases r0 <;> rfl
        rw [e0, Loc.get_set]
    · simp only [if_neg hm]
      have hm1 : ¬ x = r0.get g1 := fun h => hm (h.trans (Loc.set_anchor g1 p _ r0).symm)
      refine ⟨fun a ha => Loc.set_heap_ne g1 p _ a ha, fun q hq => Loc.set_owner g1 p q _ hq,
        fun a => Loc.set_shapeG g1 p _ a,
        fun a => ⟨(Loc.set_marked g1 p _ a).1, Loc.set_age_eq g1 p _ a⟩, ?_,
        fun hp => (Loc.set_fields g1 p _).2.2.1 hp, fun j hp => Loc.set_strhash_ne g1 p _ j hp,
        Loc.set_restGen g1 p _, fun r => ?_, ?_⟩
      · show x :: (p.set g1 (g1.heap x).nextgc).freed = _
        rw [(Loc.set_fields g1 p _).2.1]
      · show r.get (p.set g1 (g1.heap x).nextgc) = _
        rw [Loc.set_anchor]
        by_cases e : r = r0
        · subst e
          rw [if_neg (fun h => hm1 h.2)]
        · rw [if_neg (fun h => e (Option.some.inj h.1).symm)]
      · have e0 : p.get (gc_free (p.set g1 (g1.heap x).nextgc) x)
            = p.get (p.set g1 (g1.heap x).nextgc) := by cases p <;> rfl
        rw [e0, Loc.get_set]

/-- The state in which `sweepgen` goes on after keeping `x`. -/
theorem genKeep_facts (g1 : GState) (x : Nat) (G2 : GState)
    (hG : (if getage (g1.heap x) = G_NEW then g1.modObj x (makewhite g1) else g1).modObj x
        (fun y => setage y (nextage.getD (getage y) 0)) = G2) :
    (∀ a, a ≠ x → G2.heap a = g1.heap a) ∧
    G2.heap x = { g1.heap x with marked := genMarked g1 (g1.heap x),
                                  age := nextage.getD (g1.heap x).age 0 } ∧
    G2.freed = g1.freed ∧ G2.root = g1.root ∧ G2.strhash = g1.strhash ∧
    G2.restGen = g1.restGen ∧ (∀ r : Anchor, r.get G2 = r.get g1) := by
  subst hG
  by_cases ha : getage (g1.heap x) = G_NEW
  · rw [if_pos ha]
    refine ⟨fun a hax => ?_, ?_, rfl, rfl, rfl, rfl, fun r => by cases r <;> rfl⟩
    · rw [modObj_heap_ne _ _ _ _ hax, modObj_heap_ne _ _ _ _ hax]
    · rw [modObj_heap_same, modObj_heap_same]
      unfold genMarked
      rw [if_pos ha]
      rfl
  · rw [if_neg ha]
    refine ⟨fun a hax => ?_, ?_, rfl, rfl, rfl, rfl, fun r => by cases r <;> rfl⟩
    · rw [modObj_heap_ne _ _ _ _ hax]
    · rw [modObj_heap_same]
      unfold genMarked
      rw [if_neg ha]
      rfl

/-- The function `sweepgen` on the objects `xs` between the cell `p` and the
object `limit`, whose threads have the open-upvalue lists `U`: with fuel for
the footprint it returns, and leaves the state described by `GenPost`. -/
theorem sweepgen_post : ∀ (n : Nat) (U : Nat → List Nat) (xs : List Nat) (g : GState)
    (p : Loc) (limit : Nat) (root : Option Anchor),
    Seg g (p.get g) xs limit →
    (∀ x ∈ xs, (g.heap x).gct = GCT.thread → Chain g (g.heap x).openupval (U x)) →
    (∀ x ∈ xs, (g.heap x).gct ≠ GCT.thread → U x = []) →
    (∀ x ∈ xs, ∀ u ∈ U x, (g.heap u).gct ≠ GCT.thread) →
    (footprint U xs).Nodup → limit ∉ xs →
    (∀ q, p.owner = some q → q ∉ footprint U xs) →
    (footprint U xs).length ≤ n →
    ∃ g' p', sweepgen n g p limit root = some (g', p') ∧ GenPost g p U xs limit root g' p' := by
  intro n
  induction n with
  | zero =>
    intro U xs g p limit root hc _ _ _ _ _ _ hl
    cases xs with
    | nil =>
      have h0 : p.get g = limit := hc
      exact ⟨g, p, by simp [sweepgen, h0], GenPost.gnil g p U limit root h0⟩
    | cons x rest => simp [footprint] at hl
  | succ n ih =>
    intro U xs g p limit root hc hUch hUnt hUth hnd hlim hown hl
    cases xs with
    | nil =>
      have h0 : p.get g = limit := hc
      exact ⟨g, p, by simp [sweepgen, h0], GenPost.gnil g p U limit root h0⟩
    | cons x rest =>
      obtain ⟨hx, hx0, hrest⟩ := hc
      have hfp : footprint U (x :: rest) = U x ++ x :: footprint U rest := rfl
      rw [hfp] at hnd hl hown
      have hndU : (U x).Nodup := (List.nodup_append.mp hnd).1
      have hnd2 : (x :: footprint U rest).Nodup := (List.nodup_append.mp hnd).2.1
      have hdisj := (List.nodup_append.mp hnd).2.2
      have hxU : x ∉ U x := fun h => hdisj h (List.mem_cons_self _ _)
      have hxr : x ∉ footprint U rest := (List.nodup_cons.mp hnd2).1
      have hndr : (footprint U rest).Nodup := (List.nodup_cons.mp hnd2).2
      have hUr : ∀ u ∈ U x, u ∉ footprint U rest := fun u hu h =>
        hdisj hu (List.mem_cons_of_mem _ h)
      have hq : ∀ q, p.owner = some q → q ∉ U x ∧ q ≠ x ∧ q ∉ footprint U rest :=
        fun q hqo => ⟨fun h => hown q hqo (List.mem_append_left _ h),
          fun e => hown q hqo (List.mem_append_right _ (e ▸ List.mem_cons_self _ _)),
          fun h => hown q hqo (List.mem_append_right _ (List.mem_cons_of_mem _ h))⟩
      have hxq : ∀ q, p.owner = some q → x ≠ q := fun q h e => (hq q h).2.1 e.symm
      have hlU : (U x).length ≤ n := by
        simp only [List.length_append, List.length_cons] at hl; omega
      have hlr : (footprint U rest).length ≤ n := by
        simp only [List.length_append, List.length_cons] at hl; omega
      have hxm : x ∈ x :: rest := List.mem_cons_self _ _
      have hxl : x ≠ limit := fun e => hlim (e ▸ hxm)
      have hlr2 : limit ∉ rest := fun h => hlim (List.mem_cons_of_mem _ h)
      -- the open upvalues
      have hin : ∃ g1, (if (g.heap x).gct = GCT.thread then
            (sweepgen n g (Loc.openupval x) 0 none).map Prod.fst
          else some g) = some g1 ∧ GenInner g x U g1 := by
        by_cases ht : (g.heap x).gct = GCT.thread
        · rw [if_pos ht]
          have hcu := hUch x hxm ht
          obtain ⟨g1, p1, hrun, post⟩ := ih (fun _ => []) (U x) g (Loc.openupval x) 0 none
            (Chain.seg.mp hcu)
            (fun u hu hth => absurd hth (hUth x hxm u hu)) (fun _ _ _ => rfl)
            (fun _ _ u hu => by simp at hu) (by rw [footprint_nil]; exact hndU)
            (Chain.zero_not_mem hcu)
            (fun q hqo => by
              injection hqo with hqo; subst hqo; rw [footprint_nil]; exact hxU)
            (by rw [footprint_nil]; exact hlU)
          exact ⟨g1, by rw [hrun]; rfl, post.ginner⟩
        · rw [if_neg ht]
          exact ⟨g, rfl, GenInner.gnone g x U ht (hUnt x hxm ht)⟩
      obtain ⟨g1, hrun1, inner⟩ := hin
      have hxs := inner.x_same
      have hd1 : (iswhite (g1.heap x) ∧ ¬ isfixed (g1.heap x)) ↔ oldDead g x :=
        oldDead_congr hxs.2.1
      have hfoot1 : ∀ a ∈ footprint U rest, g1.heap a = g.heap a := fun a ha =>
        inner.frame a (fun h => hUr a h ha) (fun (e : a = x) => hxr (e ▸ ha))
      rw [sweepgen]
      simp only [hx, hxl, hx0, if_false]
      rw [hrun1]
      simp only [Option.some_bind]
      by_cases hd : oldDead g x
      · -- freed
        rw [if_pos (hd1.mpr hd)]
        generalize hG : gc_free _ x = G2
        obtain ⟨f1, f2, f3, f4, f5, f6, f7, f8, f9, f10⟩ := genFree_facts g1 p x root hxq G2 hG
        have hfoot2 : ∀ a ∈ footprint U rest, G2.heap a = g.heap a := fun a ha => by
          rw [f1 a (fun q hqo (e : a = q) => (hq q hqo).2.2 (e ▸ ha)), hfoot1 a ha]
        obtain ⟨h1, h2, h3⟩ := sweepHyps_congr hfoot2
          (fun y hy => hUch y (List.mem_cons_of_mem _ hy))
          (fun y hy => hUnt y (List.mem_cons_of_mem _ hy))
          (fun y hy => hUth y (List.mem_cons_of_mem _ hy))
        have hc2 : Seg G2 (p.get G2) rest limit := by
          have e : p.get G2 = (g.heap x).nextgc := f10.trans hxs.1
          rw [e]
          exact Seg.scongr (fun y hy => by rw [hfoot2 y (mem_footprint_self U hy)]) hrest
        obtain ⟨g', p', hrun2, post⟩ := ih U rest G2 p limit root hc2 h1 h2 h3 hndr hlr2
          (fun q hqo => (hq q hqo).2.2) hlr
        exact ⟨g', p', hrun2, GenPost.gcons_dead inner hd hrest f1 f2 f3 f4 f5 f6 f7 f8 f9 post
          hxr hUr hxl hq⟩
      · -- kept
        rw [if_neg (fun h => hd (hd1.mp h))]
        generalize hG : GState.modObj _ x _ = G2
        obtain ⟨k1, k2, k3, k4, k5, k6, k7⟩ := genKeep_facts g1 x G2 hG
        have hfoot2 : ∀ a ∈ footprint U rest, G2.heap a = g.heap a := fun a ha => by
          rw [k1 a (fun (e : a = x) => hxr (e ▸ ha)), hfoot1 a ha]
        obtain ⟨h1, h2, h3⟩ := sweepHyps_congr hfoot2
          (fun y hy => hUch y (List.mem_cons_of_mem _ hy))
          (fun y hy => hUnt y (List.mem_cons_of_mem _ hy))
          (fun y hy => hUth y (List.mem_cons_of_mem _ hy))
        have hc2 : Seg G2 ((Loc.nextgc x).get G2) rest limit := by
          have e : (Loc.nextgc x).get G2 = (g.heap x).nextgc := by
            show (G2.heap x).nextgc = _
            rw [k2]
            exact hxs.1
          rw [e]
          exact Seg.scongr (fun y hy => by rw [hfoot2 y (mem_footprint_self U hy)]) hrest
        obtain ⟨g', p', hrun2, post⟩ := ih U rest G2 (Loc.nextgc x) limit root hc2 h1 h2 h3
          hndr hlr2 (fun q hqo => by injection hqo with hqo; subst hqo; exact hxr) hlr
        exact ⟨g', p', hrun2, GenPost.gcons_kept hx hx0 inner hd k1 k2 k3 k4 k5 k6 k7 post
          hxr hUr hxU hq⟩

theorem Seg.last_get {g : GState} {limit : Nat} : ∀ {ks : List Nat} {p : Loc},
    Seg g (p.get g) ks limit → (lastLoc p ks).get g = limit
  | [], _, hc => hc
  | x :: ks, _, hc => by
    obtain ⟨_, _, h3⟩ := hc
    exact @Seg.last_get g limit ks (Loc.nextgc x) h3

theorem nextage_le : ∀ a, a ≤ G_TOUCHED2 → nextage.getD a 0 ≤ G_TOUCHED2 := by
  intro a ha
  have h6 : a ≤ 6 := ha
  interval_cases a <;> decide

/-- C25: on the objects `xs` between `*p` and `limit` (a null `limit` for a
whole list), whose threads have the open-upvalue lists `U` and whose ages are
among the seven, `sweepgen` returns given fuel for the footprint.  It has
visited the objects before `limit` and the open upvalues of the threads among
them: those that are white and not fixed are freed, in visiting order; every
other one has the age `nextage` gives for its age and its `marked` byte is
recolored to the current white when its age was `G_NEW` and unchanged
otherwise; the survivors stay linked in their order, up to `limit`.  Objects
off the footprint, `limit` and what follows it among them, are untouched;
the returned pointer is the link that points to `limit`; an anchor `*root`
that referred to an object of the list refers to the first survivor from that
object on, or to `limit` when there is none: it is advanced to the successor
whenever the object it refers to is freed.  Any other anchor is unchanged. -/
theorem sweepgen_spec (n : Nat) (U : Nat → List Nat) (xs : List Nat) (g : GState)
    (p : Loc) (limit : Nat) (root : Option Anchor)
    (hc : Seg g (p.get g) xs limit)
    (hUch : ∀ x ∈ xs, (g.heap x).gct = GCT.thread → Chain g (g.heap x).openupval (U x))
    (hUnt : ∀ x ∈ xs, (g.heap x).gct ≠ GCT.thread → U x = [])
    (hUth : ∀ x ∈ xs, ∀ u ∈ U x, (g.heap u).gct ≠ GCT.thread)
    (hnd : (footprint U xs).Nodup) (hlim : limit ∉ xs)
    (hown : ∀ q, p.owner = some q → q ∉ footprint U xs)
    (hage : ∀ v ∈ footprint U xs, (g.heap v).age ≤ G_TOUCHED2)
    (hl : (footprint U xs).length ≤ n) :
    ∃ g' p', sweepgen n g p limit root = some (g', p') ∧
      g'.freed = ((footprint U xs).filter (fun x => decide (oldDead g x))).reverse ++ g.freed ∧
      Seg g' (p.get g') (xs.filter (fun x => decide (¬ oldDead g x))) limit ∧
      (∀ t ∈ xs, (g.heap t).gct = GCT.thread →
        Chain g' (g'.heap t).openupval ((U t).filter (fun x => decide (¬ oldDead g x)))) ∧
      (∀ v ∈ footprint U xs, ¬ oldDead g v →
        (g'.heap v).age = nextage.getD (g.heap v).age 0 ∧ (g'.heap v).age ≤ G_TOUCHED2 ∧
        ((g.heap v).age = G_NEW → (g'.heap v).marked = (makewhite g (g.heap v)).marked) ∧
        ((g.heap v).age ≠ G_NEW → (g'.heap v).marked = (g.heap v).marked)) ∧
      nextage = [G_SURVIVAL, G_OLD1, G_OLD1, G_OLD, G_OLD, G_TOUCHED1, G_TOUCHED2] ∧
      (∀ a, a ∉ footprint U xs → (∀ q, p.owner = some q → a ≠ q) → g'.heap a = g.heap a) ∧
      p'.get g' = limit ∧ p' = lastLoc p (xs.filter (fun x => decide (¬ oldDead g x))) ∧
      (∀ r : Anchor, root = some r → ∀ pre suf, xs = pre ++ suf →
        r.get g = suf.headD limit →
        r.get g' = (suf.filter (fun x => decide (¬ oldDead g x))).headD limit) ∧
      (∀ r : Anchor, (root = some r → r.get g ∉ xs) → r.get g' = r.get g) := by
  obtain ⟨g', p', hrun, P⟩ := sweepgen_post n U xs g p limit root hc hUch hUnt hUth hnd hlim
    hown hl
  refine ⟨g', p', hrun, P.freed, P.chain, P.upchain, fun v hv hk => ⟨P.age v hv hk, ?_, ?_, ?_⟩,
    rfl, P.frame, ?_, P.cursor, P.anchorIn, P.anchorOff⟩
  · rw [P.age v hv hk]
    exact nextage_le _ (hage v hv)
  · intro ha
    rw [P.mark v hv hk]
    unfold genMarked getage
    rw [if_pos ha]
  · intro ha
    rw [P.mark v hv hk]
    unfold genMarked getage
    rw [if_neg ha]
  · rw [P.cursor]
    exact Seg.last_get P.chain

/-- Witness for `sweepgen_spec`: in `exSweepgen` the sweep from `root` to the
table 7 frees the table 3 and the upvalue 6, keeps the table 2 (now
`G_SURVIVAL`, recolored) and the thread 5 (now `G_OLD1`, same color), returns
the link of 5 and moves `old` from the freed table 3 to the thread 5. -/
theorem sweepgen_spec_witness :
    ∃ g' p', sweepgen 4 exSweepgen Loc.root 7 (some Anchor.old) = some (g', p') ∧
      g'.freed = [6, 3] ∧ Seg g' g'.root [2, 5] 7 ∧
      (g'.heap 2).age = G_SURVIVAL ∧ (g'.heap 2).marked = 1 ∧
      (g'.heap 5).age = G_OLD1 ∧ (g'.heap 5).marked = 0 ∧
      g'.heap 7 = exSweepgen.heap 7 ∧ p' = Loc.nextgc 5 ∧ g'.old = 5 := by
  have hU : ∀ x ∈ [2, 3, 5], x = 2 ∨ x = 3 ∨ x = 5 := fun x hx => by simpa using hx
  have hF : ∀ v ∈ footprint exSweepgenU [2, 3, 5], v = 2 ∨ v = 3 ∨ v = 6 ∨ v = 5 :=
    fun v hv => by
      have e : footprint exSweepgenU [2, 3, 5] = [2, 3, 6, 5] := by decide
      rw [e] at hv
      simpa using hv
  obtain ⟨g', p', h1, h2, h3, _, h5, _, h7, _, h9, h10, _⟩ :=
    sweepgen_spec 4 exSweepgenU [2, 3, 5] exSweepgen Loc.root 7 (some Anchor.old)
      ⟨rfl, by decide, rfl, by decide, rfl, by decide, rfl⟩
      (fun x hx ht => by
        rcases hU x hx with e | e | e <;> subst e
        · exact absurd ht (by decide)
        · exact absurd ht (by decide)
        · exact ⟨rfl, by decide, rfl⟩)
      (fun x hx hn => by
        rcases hU x hx with e | e | e <;> subst e
        · rfl
        · rfl
        · exact absurd rfl hn)
      (fun x hx u hu => by
        rcases hU x hx with e | e | e <;> subst e
        · simp [exSweepgenU] at hu
        · simp [exSweepgenU] at hu
        · have e : u = 6 := by simpa [exSweepgenU] using hu
          subst e; decide)
      (by decide) (by decide) (fun q hq => by cases hq)
      (fun v hv => by rcases hF v hv with e | e | e | e <;> subst e <;> decide)
      (by decide)
  have e1 : (footprint exSweepgenU [2, 3, 5]).filter (fun x => decide (oldDead exSweepgen x)) = [3, 6] := by
    decide
  have e2 : [2, 3, 5].filter (fun x => decide (¬ oldDead exSweepgen x)) = [2, 5] := by decide
  have e3 : [3, 5].filter (fun x => decide (¬ oldDead exSweepgen x)) = [5] := by decide
  have a2 := h5 2 (by decide) (by decide)
  have a5 := h5 5 (by decide) (by decide)
  refine ⟨g', p', h1, ?_, ?_, a2.1, ?_, a5.1, ?_, ?_, ?_, ?_⟩
  · rw [h2, e1]; rfl
  · rw [e2] at h3; exact h3
  · rw [a2.2.2.1 rfl]; decide
  · rw [a5.2.2.2 (by decide)]; rfl
  · exact h7 7 (by decide) (fun q hq => by cases hq)
  · rw [h9, e2]; rfl
  · have := h10 Anchor.old rfl [2] [3, 5] rfl rfl
    rw [e3] at this
    exact this

/-! ## The two sweeps of a young collection -/

theorem Seg.split {g : GState} {e : Nat} : ∀ {xs ys : List Nat} {h : Nat},
    Seg g h (xs ++ ys) e → Seg g h xs (ys.headD e) ∧ Seg g (ys.headD e) ys e
  | [], ys, h, hc => by
    have e1 : h = ys.headD e := Seg.head hc
    refine ⟨e1, ?_⟩
    rw [← e1]; exact hc
  | x :: xs, ys, h, hc => by
    obtain ⟨a, b, c⟩ := hc
    obtain ⟨c1, c2⟩ := @Seg.split g e xs ys _ c
    exact ⟨⟨a, b, c1⟩, c2⟩

theorem lastLoc_cases : ∀ (ks : List Nat) (p : Loc),
    (ks = [] ∧ lastLoc p ks = p) ∨ ∃ y ∈ ks, lastLoc p ks = Loc.nextgc y
  | [], p => Or.inl ⟨rfl, rfl⟩
  | x :: ks, p => by
    rcases lastLoc_cases ks (Loc.nextgc x) with ⟨e, h⟩ | ⟨y, hy, h⟩
    · exact Or.inr ⟨x, List.mem_cons_self _ _, h⟩
    · exact Or.inr ⟨y, List.mem_cons_of_mem _ hy, h⟩

/-- A list segment whose last link is made to point to a second segment is
followed by that segment. -/
theorem Seg.spliced : ∀ (ks : List Nat) (p : Loc) (g g' : GState) (rs : List Nat) (m e : Nat),
    Seg g (p.get g) ks m → ks.Nodup → (∀ q, p.owner = some q → q ∉ ks) →
    (∀ a ∈ ks, Loc.nextgc a ≠ lastLoc p ks → (g'.heap a).nextgc = (g.heap a).nextgc) →
    (p ≠ lastLoc p ks → p.get g' = p.get g) →
    Seg g' ((lastLoc p ks).get g') rs e →
    Seg g' (p.get g') (ks ++ rs) e
  | [], _, _, _, _, _, _, _, _, _, _, _, hr => hr
  | x :: ks, p, g, g', rs, m, e, hc, hnd, hown, h1, h2, hr => by
    obtain ⟨hx, hx0, hch⟩ := hc
    obtain ⟨hxn, hnd'⟩ := List.nodup_cons.mp hnd
    have hp : p ≠ lastLoc p (x :: ks) := by
      intro e1
      rcases lastLoc_cases (x :: ks) p with ⟨e2, _⟩ | ⟨y, hy, h⟩
      · cases e2
      · exact hown y (by rw [e1, h]; rfl) hy
    have hpx : p.get g' = x := (h2 hp).trans hx
    refine ⟨hpx, hx0, ?_⟩
    exact Seg.spliced ks (Loc.nextgc x) g g' rs m e hch hnd'
      (fun q hq => by injection hq with hq; rw [← hq]; exact hxn)
      (fun a ha hne => h1 a (List.mem_cons_of_mem _ ha) hne)
      (fun hne => h1 x (List.mem_cons_self _ _) hne)
      hr

theorem footprint_sub (U : Nat → List Nat) : ∀ xs : List Nat, List.Sublist xs (footprint U xs)
  | [] => List.Sublist.refl _
  | x :: xs =>
    List.Sublist.trans (List.Sublist.cons₂ x (footprint_sub U xs))
      (List.sublist_append_right (U x) (x :: footprint U xs))

theorem Tame.trefl (g : GState) : Tame g g := ⟨fun _ => rfl, rfl⟩

theorem Tame.ttrans {a b c : GState} (h1 : Tame a b) (h2 : Tame b c) : Tame a c :=
  ⟨fun x => (h2.core x).trans (h1.core x), h2.rest.trans h1.rest⟩

theorem Tame.tmod (g : GState) (o : Nat) (f : GCobj → GCobj)
    (hf : linkObj (f (g.heap o)) = linkObj (g.heap o)) : Tame g (g.modObj o f) := by
  refine ⟨fun a => ?_, rfl⟩
  rw [modObj_heap]
  split_ifs with h
  · subst h; exact hf
  · rfl

theorem Tame.tflds {g g' : GState} (h1 : g'.heap = g.heap)
    (h2 : g'.restLink = g.restLink) : Tame g g' :=
  ⟨fun a => by rw [h1], h2⟩

theorem Tame.tguard (c : Prop) [Decidable c] {X : Option GState} {g g' : GState}
    (hX : ∀ g1, X = some g1 → Tame g g1)
    (h : (if c then X else some g) = some g') : Tame g g' := by
  by_cases hc : c
  · rw [if_pos hc] at h; exact hX g' h
  · rw [if_neg hc] at h; cases h; exact Tame.trefl g

theorem Tame.tbind {X : Option GState} {f : GState → Option GState} {g g' : GState}
    (hX : ∀ g1, X = some g1 → Tame g g1)
    (hf : ∀ g1 g2, X = some g1 → f g1 = some g2 → Tame g1 g2)
    (h : X.bind f = some g') : Tame g g' := by
  obtain ⟨g1, h1, h2⟩ := bind_some h
  exact (hX g1 h1).ttrans (hf g1 g' h1 h2)

theorem gc_mark_tame : ∀ (n : Nat) (g : GState) (o : Nat) (g' : GState),
    gc_mark n g o = some g' → Tame g g' := by
  intro n
  induction n with
  | zero => intro g o g' h; simp [gc_mark] at h
  | succ n ih =>
    intro g o g' h
    have h1 : Tame g (g.modObj o white2gray) := Tame.tmod g o _ rfl
    refine h1.ttrans ?_
    unfold gc_mark at h
    simp only [] at h
    generalize g.modObj o white2gray = G at h ⊢
    cases hg : (g.heap o).gct <;> rw [hg] at h <;> simp only [] at h
    case udata =>
      exact (Tame.tmod G o _ rfl).ttrans
        (Tame.tbind (fun g1 h1 => Tame.tguard _ (fun g2 h2 => ih _ _ _ h2) h1)
          (fun g1 g2 _ h2 => Tame.tguard _ (fun g3 h3 => ih _ _ _ h3) h2) h)
    case upval =>
      refine Tame.tbind (fun g1 h1 => Tame.tguard _ (fun g2 h2 => ih _ _ _ h2) h1)
        (fun g1 g2 _ h2 => ?_) h
      split at h2
      · cases h2; exact Tame.tmod g1 o _ rfl
      · cases h2; exact Tame.trefl _
    case str => cases h; exact Tame.trefl _
    case cdata => cases h; exact Tame.trefl _
    all_goals
      cases h
      exact (Tame.tmod G o (fun x => { x with gclist := G.gray }) rfl).ttrans
        (Tame.tflds rfl rfl)

theorem gc_markobj_tame (n : Nat) (g : GState) (o : Nat) (g' : GState)
    (h : gc_markobj n g o = some g') : Tame g g' :=
  Tame.tguard _ (fun _ h1 => gc_mark_tame _ _ _ _ h1) h

theorem gc_marktv_tame (n : Nat) (g : GState) (tv : TValue) (g' : GState)
    (h : gc_marktv n g tv = some g') : Tame g g' :=
  Tame.tguard _ (fun _ h1 => gc_mark_tame _ _ _ _ h1) h

theorem loopM_tame (f : Nat → GState → Option GState)
    (hf : ∀ i g g', f i g = some g' → Tame g g') :
    ∀ (k i : Nat) (g g' : GState), loopM f k i g = some g' → Tame g g'
  | 0, _, g, g', h => by cases h; exact Tame.trefl g
  | k + 1, i, g, g', h => by
    unfold loopM at h
    exact Tame.tbind (fun g1 h1 => hf i g g1 h1)
      (fun g1 g2 _ h2 => loopM_tame f hf k (i + 1) g1 g2 h2) h

theorem traverseNode_tame (fuel t weak i : Nat) (g g' : GState)
    (h : traverseNode fuel t weak i g = some g') : Tame g g' := by
  unfold traverseNode at h
  simp only [] at h
  split at h
  · cases h; exact Tame.trefl g
  · exact Tame.tbind (fun g1 h1 => Tame.tguard _ (fun g2 h2 => gc_marktv_tame _ _ _ _ h2) h1)
      (fun g1 g2 _ h2 => Tame.tguard _ (fun g3 h3 => gc_marktv_tame _ _ _ _ h3) h2) h

theorem tabSetWeak_tame (g : GState) (t w0 : Nat) : Tame g (tabSetWeak g t w0).1 := by
  unfold tabSetWeak
  split
  · split
    · exact Tame.trefl g
    · refine ⟨fun a => ?_, rfl⟩
      simp only [modObj_heap, eq_self_iff_true, if_true]
      split_ifs with e <;> first | rfl | (subst e; rfl)
  · exact Tame.trefl g

theorem tabMarkParts_tame (fuel : Nat) (g : GState) (t weak : Nat) (r : GState × Nat)
    (h : tabMarkParts fuel g t weak = some r) : Tame g r.1 := by
  unfold tabMarkParts at h
  obtain ⟨g1, h1, h⟩ := bind_some h
  obtain ⟨g2, h2, h⟩ := bind_some h
  have q1 : Tame g g1 :=
    Tame.tguard _ (fun g3 h3 => loopM_tame _ (fun i a b hab => gc_marktv_tame _ _ _ _ hab)
      _ _ _ _ h3) h1
  have q2 : Tame g1 g2 :=
    Tame.tguard _ (fun g3 h3 => loopM_tame _ (fun i a b hab => traverseNode_tame _ _ _ _ _ _ hab)
      _ _ _ _ h3) h2
  refine q1.ttrans (q2.ttrans ?_)
  split at h
  · cases h
    refine ⟨fun a => ?_, rfl⟩
    simp only [modObj_heap, eq_self_iff_true, if_true]
    split_ifs with e <;> first | rfl | (subst e; rfl)
  · cases h; exact Tame.trefl _

theorem gc_traverse_tab_tame (fuel : Nat) (g : GState) (t : Nat) (r : GState × Nat)
    (h : gc_traverse_tab fuel g t = some r) : Tame g r.1 := by
  rw [gc_traverse_tab_eq] at h
  obtain ⟨g1, h1, h⟩ := bind_some h
  have q1 : Tame g g1 := Tame.tguard _ (fun g3 h3 => gc_markobj_tame _ _ _ _ h3) h1
  refine q1.ttrans ((tabSetWeak_tame g1 t (tabWeak g1 (g.heap t).metatable)).ttrans ?_)
  split at h
  · cases h; exact Tame.trefl _
  · exact tabMarkParts_tame _ _ _ _ _ h

theorem gc_traverse_func_tame (fuel : Nat) (g : GState) (fn : Nat) (g' : GState)
    (h : gc_traverse_func fuel g fn = some g') : Tame g g' := by
  unfold gc_traverse_func at h
  refine Tame.tbind (fun g1 h1 => gc_markobj_tame _ _ _ _ h1) (fun g1 g2 _ h2 => ?_) h
  split at h2
  · refine Tame.tbind (fun g3 h3 => gc_markobj_tame _ _ _ _ h3) (fun g3 g4 _ h4 => ?_) h2
    exact loopM_tame _ (fun i a b hab => gc_markobj_tame _ _ _ _ hab) _ _ _ _ h4
  · exact loopM_tame _ (fun i a b hab => gc_marktv_tame _ _ _ _ hab) _ _ _ _ h2

theorem gc_marktrace_tame (g : GState) (traceno : Nat) : Tame g (gc_marktrace g traceno) := by
  unfold gc_marktrace
  simp only []
  split
  · refine ⟨fun a => ?_, rfl⟩
    simp only [modObj_heap, eq_self_iff_true, if_true]
    split_ifs with e <;> first | rfl | (subst e; rfl)
  · exact Tame.trefl g

theorem traverseIR_tame (fuel T : Nat) : ∀ (k ref : Nat) (g g' : GState),
    traverseIR fuel T k ref g = some g' → Tame g g'
  | 0, _, g, g', h => by cases h; exact Tame.trefl g
  | k + 1, ref, g, g', h => by
    unfold traverseIR at h
    simp only [] at h
    split at h
    · exact Tame.tbind (fun g1 h1 => Tame.tguard _ (fun g2 h2 => gc_markobj_tame _ _ _ _ h2) h1)
        (fun g1 g2 _ h2 => traverseIR_tame fuel T k _ g1 g2 h2) h
    · cases h; exact Tame.trefl g

theorem gc_traverse_trace_tame (fuel : Nat) (g : GState) (T : Nat) (g' : GState)
    (h : gc_traverse_trace fuel g T = some g') : Tame g g' := by
  unfold gc_traverse_trace at h
  split at h
  · cases h; exact Tame.trefl g
  · refine Tame.tbind (fun g1 h1 => traverseIR_tame _ _ _ _ _ _ h1) (fun g1 g2 _ h2 => ?_) h
    simp only [] at h2
    have q1 : Tame g1 (if (g1.heap T).link ≠ 0 then gc_marktrace g1 (g1.heap T).link else g1) := by
      split
      · exact gc_marktrace_tame _ _
      · exact Tame.trefl _
    refine q1.ttrans ?_
    generalize (if (g1.heap T).link ≠ 0 then gc_marktrace g1 (g1.heap T).link else g1) = G1 at h2 ⊢
    have q2 : Tame G1 (if (G1.heap T).nextroot ≠ 0 then gc_marktrace G1 (G1.heap T).nextroot
        else G1) := by
      split
      · exact gc_marktrace_tame _ _
      · exact Tame.trefl _
    refine q2.ttrans ?_
    generalize (if (G1.heap T).nextroot ≠ 0 then gc_marktrace G1 (G1.heap T).nextroot
        else G1) = G2 at h2 ⊢
    have q3 : Tame G2 (if (G2.heap T).nextside ≠ 0 then gc_marktrace G2 (G2.heap T).nextside
        else G2) := by
      split
      · exact gc_marktrace_tame _ _
      · exact Tame.trefl _
    exact q3.ttrans (gc_markobj_tame _ _ _ _ h2)

theorem gc_traverse_proto_tame (fuel : Nat) (g : GState) (pt : Nat) (g' : GState)
    (h : gc_traverse_proto fuel g pt = some g') : Tame g g' := by
  unfold gc_traverse_proto at h
  simp only [] at h
  refine (Tame.tmod g (g.heap pt).chunkname gc_mark_str rfl).ttrans ?_
  refine Tame.tbind (fun g1 h1 => loopM_tame _ (fun i a b hab => gc_markobj_tame _ _ _ _ hab)
    _ _ _ _ h1) (fun g1 g2 _ h2 => ?_) h
  split at h2
  · cases h2; exact gc_marktrace_tame _ _
  · cases h2; exact Tame.trefl _

theorem traverseFrames_tame (fuel th : Nat) : ∀ (k i : Nat) (acc : Int) (g : GState) (r : GState × Int),
    traverseFrames fuel th k i acc g = some r → Tame g r.1
  | 0, _, _, g, r, h => by cases h; exact Tame.trefl g
  | k + 1, i, acc, g, r, h => by
    unfold traverseFrames at h
    simp only [] at h
    obtain ⟨g1, h1, h2⟩ := bind_some h
    exact (Tame.tguard _ (fun g2 h2 => gc_markobj_tame _ _ _ _ h2) h1).ttrans
      (traverseFrames_tame fuel th k _ _ g1 r h2)

theorem gc_traverse_frames_tame (fuel : Nat) (g : GState) (th : Nat) (r : GState × Nat)
    (h : gc_traverse_frames fuel g th = some r) : Tame g r.1 := by
  unfold gc_traverse_frames at h
  obtain ⟨r1, h1, h2⟩ := bind_some h
  cases h2
  exact traverseFrames_tame _ _ _ _ _ _ r1 h1

theorem lj_state_shrinkstack_tame (g : GState) (th used : Nat) :
    Tame g (lj_state_shrinkstack g th used) := by
  unfold lj_state_shrinkstack
  simp only []
  split
  · refine ⟨fun a => ?_, rfl⟩
    simp only [modObj_heap]
    split_ifs with e <;> first | rfl | (subst e; rfl)
  · exact Tame.trefl g

theorem gc_traverse_thread_tame (fuel : Nat) (g : GState) (th : Nat) (g' : GState)
    (h : gc_traverse_thread fuel g th = some g') : Tame g g' := by
  unfold gc_traverse_thread at h
  simp only [] at h
  obtain ⟨g1, h1, h⟩ := bind_some h
  obtain ⟨g2, h2, h⟩ := bind_some h
  obtain ⟨r, h3, h⟩ := bind_some h
  cases h
  have q1 : Tame g g1 := loopM_tame _ (fun i a b hab => gc_marktv_tame _ _ _ _ hab) _ _ _ _ h1
  have q3 := gc_traverse_frames_tame _ _ _ _ h3
  have q2 := gc_markobj_tame _ _ _ _ h2
  refine q1.ttrans (Tame.ttrans ?_ (q2.ttrans (q3.ttrans (lj_state_shrinkstack_tame _ _ _))))
  split
  · exact Tame.tmod g1 th _ rfl
  · exact Tame.trefl _

theorem popGray_tame (g : GState) : Tame g (popGray g) := by
  unfold popGray
  refine ⟨fun a => ?_, rfl⟩
  simp only [modObj_heap]
  split_ifs with e <;> first | rfl | (subst e; rfl)

theorem propagatemark_tame (fuel : Nat) (g : GState) (r : GState × Nat)
    (h : propagatemark fuel g = some r) : Tame g r.1 := by
  rw [propagatemark_eq] at h
  refine (popGray_tame g).ttrans ?_
  generalize popGray g = G at h ⊢
  cases hg : (g.heap g.gray).gct <;> rw [hg] at h <;> simp only [] at h
  case tab =>
    obtain ⟨r1, h1, h2⟩ := bind_some h
    cases h2
    refine (gc_traverse_tab_tame _ _ _ _ h1).ttrans ?_
    dsimp only
    split
    · exact Tame.tmod _ _ _ rfl
    · exact Tame.trefl _
  case func =>
    obtain ⟨r1, h1, h2⟩ := bind_some h
    cases h2
    exact gc_traverse_func_tame _ _ _ _ h1
  case proto =>
    obtain ⟨r1, h1, h2⟩ := bind_some h
    cases h2
    exact gc_traverse_proto_tame _ _ _ _ h1
  case thread =>
    obtain ⟨r1, h1, h2⟩ := bind_some h
    cases h2
    refine Tame.ttrans ?_ (gc_traverse_thread_tame _ _ _ _ h1)
    refine ⟨fun a => ?_, rfl⟩
    simp only [modObj_heap, eq_self_iff_true, if_true]
    split_ifs with e <;> first | rfl | (subst e; rfl)
  all_goals
    obtain ⟨r1, h1, h2⟩ := bind_some h
    cases h2
    exact gc_traverse_trace_tame _ _ _ _ h1

theorem gc_propagate_gray_tame : ∀ (n : Nat) (g : GState) (r : GState × Nat),
    gc_propagate_gray n g = some r → Tame g r.1
  | 0, g, r, h => by
    unfold gc_propagate_gray at h
    split at h
    · cases h; exact Tame.trefl g
    · cases h
  | n + 1, g, r, h => by
    unfold gc_propagate_gray at h
    split at h
    · cases h; exact Tame.trefl g
    · obtain ⟨r1, h1, h2⟩ := bind_some h
      obtain ⟨r2, h3, h4⟩ := bind_some h2
      cases h4
      exact (propagatemark_tame _ _ _ h1).ttrans (gc_propagate_gray_tame n _ r2 h3)

theorem markUvLoop_tame (fuel : Nat) : ∀ (uvs : List Nat) (g g' : GState),
    markUvLoop fuel uvs g = some g' → Tame g g'
  | [], g, g', h => by cases h; exact Tame.trefl g
  | uv :: uvs, g, g', h => by
    unfold markUvLoop at h
    exact Tame.tbind (fun g1 h1 => Tame.tguard _ (fun g2 h2 => gc_marktv_tame _ _ _ _ h2) h1)
      (fun g1 g2 _ h2 => markUvLoop_tame fuel uvs g1 g2 h2) h

theorem gc_mark_gcroot_tame (fuel : Nat) (g g' : GState) (h : gc_mark_gcroot fuel g = some g') :
    Tame g g' :=
  loopM_tame _ (fun _ _ _ hab => Tame.tguard _ (fun _ h2 => gc_markobj_tame _ _ _ _ h2) hab)
    _ _ _ _ h

theorem gc_traverse_curtrace_tame (fuel : Nat) (g g' : GState)
    (h : gc_traverse_curtrace fuel g = some g') : Tame g g' :=
  Tame.tguard _ (fun _ h2 => gc_traverse_trace_tame _ _ _ _ h2) h

theorem markMmudataLoop_tame (root : Nat) : ∀ (n : Nat) (g : GState) (u : Nat) (g' : GState),
    markMmudataLoop root n g u = some g' → Tame g g' := by
  intro n
  induction n with
  | zero => intro g u g' h; simp [markMmudataLoop] at h
  | succ n ih =>
    intro g u g' h
    unfold markMmudataLoop at h
    simp only [] at h
    refine Tame.ttrans (Tame.tmod g (g.heap u).nextgc (makewhite g) rfl)
      (Tame.tbind (fun g1 h1 => gc_mark_tame _ _ _ _ h1) (fun g1 g2 _ h2 => ?_) h)
    split at h2
    · exact ih _ _ _ h2
    · cases h2; exact Tame.trefl _

theorem gc_mark_mmudata_tame (n : Nat) (g g' : GState) (h : gc_mark_mmudata n g = some g') :
    Tame g g' := by
  unfold gc_mark_mmudata at h
  split at h
  · exact markMmudataLoop_tame _ _ _ _ _ h
  · cases h; exact Tame.trefl _

theorem gc_mayclear_tame (g : GState) (o : TValue) (val : Bool) :
    Tame g (gc_mayclear g o val).1 := by
  unfold gc_mayclear
  split
  · split
    · exact Tame.tmod g _ gc_mark_str rfl
    · split
      · exact Tame.trefl g
      · split <;> exact Tame.trefl g
  · exact Tame.trefl g

theorem loopT_tame (f : Nat → GState → GState) (hf : ∀ i g, Tame g (f i g)) :
    ∀ (k i : Nat) (g : GState), Tame g (loopT f k i g)
  | 0, _, g => Tame.trefl g
  | k + 1, i, g => (hf i g).ttrans (loopT_tame f hf k (i + 1) (f i g))

theorem clearArraySlot_tame (t i : Nat) (g : GState) : Tame g (clearArraySlot t i g) := by
  unfold clearArraySlot
  simp only []
  split
  · exact (gc_mayclear_tame g _ true).ttrans (Tame.tmod _ t _ rfl)
  · exact gc_mayclear_tame g _ true

theorem clearNode_tame (t i : Nat) (g : GState) : Tame g (clearNode t i g) := by
  unfold clearNode
  split
  · exact Tame.trefl g
  · simp only []
    have hk := gc_mayclear_tame g ((g.heap t).node.getD i {}).key false
    generalize gc_mayclear g ((g.heap t).node.getD i {}).key false = rk at hk ⊢
    have hv : Tame g (if rk.2 = true then rk
        else gc_mayclear rk.1 ((rk.1.heap t).node.getD i {}).val true).1 := by
      split
      · exact hk
      · exact hk.ttrans (gc_mayclear_tame _ _ true)
    generalize (if rk.2 = true then rk
        else gc_mayclear rk.1 ((rk.1.heap t).node.getD i {}).val true) = rv at hv ⊢
    split
    · exact hv.ttrans (Tame.tmod _ t _ rfl)
    · exact hv

theorem clearweakTab_tame (g : GState) (t : Nat) : Tame g (clearweakTab g t) := by
  unfold clearweakTab
  simp only []
  have h1 : Tame g (if (g.heap t).marked &&& LJ_GC_WEAKVAL ≠ 0 then
      loopT (clearArraySlot t) (g.heap t).array.length 0 g else g) := by
    split
    · exact loopT_tame _ (clearArraySlot_tame t) _ _ _
    · exact Tame.trefl g
  generalize (if (g.heap t).marked &&& LJ_GC_WEAKVAL ≠ 0 then
      loopT (clearArraySlot t) (g.heap t).array.length 0 g else g) = G at h1 ⊢
  split
  · exact h1.ttrans (loopT_tame _ (clearNode_tame t) _ _ _)
  · exact h1

theorem gc_clearweak_tame : ∀ (n : Nat) (g : GState) (o : Nat) (g' : GState),
    gc_clearweak n g o = some g' → Tame g g'
  | 0, g, o, g', h => by
    unfold gc_clearweak at h
    split at h
    · cases h; exact Tame.trefl g
    · cases h
  | n + 1, g, o, g', h => by
    unfold gc_clearweak at h
    split at h
    · cases h; exact Tame.trefl g
    · exact (clearweakTab_tame g o).ttrans (gc_clearweak_tame n _ _ _ h)

theorem Tame.tmm {g g' : GState} (h : Tame g g') : g'.mmudata = g.mmudata :=
  (show g'.restLink.mmudata = g.restLink.mmudata by rw [h.rest])

theorem separateMove_mm (g : GState) (p : Loc) (o : Nat) : (separateMove g p o).mmudata = o := by
  rw [separateMove_eq]
  unfold moveLink
  split <;> rfl

/-- Once something is on `mmudata`, the loop of `lj_gc_separateudata` leaves
something there. -/
theorem separateLoop_mm (all : Bool) : ∀ (n : Nat) (g : GState) (p : Loc) (m : Nat)
    (r : GState × Nat), separateLoop all n g p m = some r → g.mmudata ≠ 0 →
    r.1.mmudata ≠ 0 := by
  intro n
  induction n with
  | zero =>
    intro g p m r h h0
    unfold separateLoop at h
    split at h
    · cases h; exact h0
    · cases h
  | succ n ih =>
    intro g p m r h h0
    unfold separateLoop at h
    simp only [] at h
    split at h
    · cases h; exact h0
    · split at h
      · exact ih _ _ _ _ h h0
      · split at h
        · exact ih _ _ _ _ h h0
        · refine ih _ _ _ _ h ?_
          rw [separateMove_mm]
          assumption

/-- The loop of `lj_gc_separateudata`, when it ends with nothing on
`mmudata`, has moved nothing. -/
theorem separateLoop_tame (all : Bool) : ∀ (n : Nat) (g : GState) (p : Loc) (m : Nat)
    (r : GState × Nat), separateLoop all n g p m = some r → r.1.mmudata = 0 →
    Tame g r.1 := by
  intro n
  induction n with
  | zero =>
    intro g p m r h h0
    unfold separateLoop at h
    split at h
    · cases h; exact Tame.trefl _
    · cases h
  | succ n ih =>
    intro g p m r h h0
    unfold separateLoop at h
    simp only [] at h
    split at h
    · cases h; exact Tame.trefl _
    · split at h
      · exact ih _ _ _ _ h h0
      · split at h
        · exact (Tame.tmod g _ markfinalized rfl).ttrans (ih _ _ _ _ h h0)
        · exfalso
          refine separateLoop_mm all n _ _ _ _ h ?_ h0
          rw [separateMove_mm]
          assumption

theorem atomicMark_tame (vm : VM) (hvm : VMBufTame vm) (fuel : Nat) (g : GState) (L : Nat)
    (r : GState × Nat) (h : atomicMark vm fuel g L = some r) (h0 : r.1.mmudata = 0) :
    Tame g r.1 := by
  unfold atomicMark at h
  simp only [] at h
  obtain ⟨g1, h1, h⟩ := bind_some h
  obtain ⟨r2, h2, h⟩ := bind_some h
  obtain ⟨g3, h3, h⟩ := bind_some h
  obtain ⟨g4, h4, h⟩ := bind_some h
  obtain ⟨g5, h5, h⟩ := bind_some h
  obtain ⟨r6, h6, h⟩ := bind_some h
  obtain ⟨r7, h7, h⟩ := bind_some h
  obtain ⟨s8, h8, h⟩ := bind_some h
  obtain ⟨g9, h9, h⟩ := bind_some h
  obtain ⟨r10, h10, h⟩ := bind_some h
  obtain ⟨g11, h11, h⟩ := bind_some h
  cases h
  have q0 : Tame g { g with grayagain := 0, state := GCSatomic } := Tame.tflds rfl rfl
  have q1 := markUvLoop_tame fuel _ _ _ h1
  have q2 := gc_propagate_gray_tame fuel _ _ h2
  have q2' : Tame r2.1 { r2.1 with gray := r2.1.weak, weak := 0 } := Tame.tflds rfl rfl
  have q3 := gc_markobj_tame fuel _ _ _ h3
  have q4 := gc_traverse_curtrace_tame fuel _ _ h4
  have q5 := gc_mark_gcroot_tame fuel _ _ h5
  have q6 := gc_propagate_gray_tame fuel _ _ h6
  have q6' : Tame r6.1 { r6.1 with gray := g.grayagain } := Tame.tflds rfl rfl
  have q7 := gc_propagate_gray_tame fuel _ _ h7
  have q9 := gc_mark_mmudata_tame fuel _ _ h9
  have q10 := gc_propagate_gray_tame fuel _ _ h10
  have q11 := gc_clearweak_tame fuel _ _ _ h11
  have qt := q9.ttrans (q10.ttrans (q11.ttrans (hvm _ L)))
  have h8z : s8.1.mmudata = 0 := qt.tmm.symm.trans h0
  have q8 := separateLoop_tame false fuel _ _ _ _ h8 h8z
  exact q0.ttrans (q1.ttrans (q2.ttrans (q2'.ttrans (q3.ttrans (q4.ttrans (q5.ttrans
    (q6.ttrans (q6'.ttrans (q7.ttrans (q8.ttrans qt))))))))))

theorem atomic_tame (vm : VM) (hvm : VMBufTame vm) (fuel : Nat) (g : GState) (L : Nat)
    (g' : GState) (h : atomic vm fuel g L = some g') (h0 : g'.mmudata = 0) : Tame g g' := by
  unfold atomic at h
  simp only [Option.map_eq_some'] at h
  obtain ⟨r, h1, e⟩ := h
  subst e
  exact (atomicMark_tame vm hvm fuel g L r h1 h0).ttrans (Tame.tflds rfl rfl)

/-- What a state keeps through marking that moves nothing. -/
theorem Tame.tobj {g g' : GState} (h : Tame g g') (a : Nat) :
    (g'.heap a).nextgc = (g.heap a).nextgc ∧ (g'.heap a).openupval = (g.heap a).openupval ∧
    (g'.heap a).gct = (g.heap a).gct ∧ (g'.heap a).age = (g.heap a).age :=
  ⟨(show (linkObj (g'.heap a)).nextgc = (linkObj (g.heap a)).nextgc by rw [h.core a]),
   (show (linkObj (g'.heap a)).openupval = (linkObj (g.heap a)).openupval by rw [h.core a]),
   (show (linkObj (g'.heap a)).gct = (linkObj (g.heap a)).gct by rw [h.core a]),
   (show (linkObj (g'.heap a)).age = (linkObj (g.heap a)).age by rw [h.core a])⟩

theorem Tame.tkeeps {g g' : GState} (h : Tame g g') :
    g'.root = g.root ∧ g'.strhash = g.strhash ∧ g'.strmask = g.strmask ∧
    g'.mainthread = g.mainthread ∧ g'.surival = g.surival ∧ g'.old = g.old ∧
    g'.reallyold = g.reallyold ∧ g'.udatasur = g.udatasur ∧ g'.udataold = g.udataold ∧
    g'.udatarold = g.udatarold ∧ g'.freed = g.freed :=
  ⟨(show g'.restLink.root = g.restLink.root by rw [h.rest]),
   (show g'.restLink.strhash = g.restLink.strhash by rw [h.rest]),
   (show g'.restLink.strmask = g.restLink.strmask by rw [h.rest]),
   (show g'.restLink.mainthread = g.restLink.mainthread by rw [h.rest]),
   (show g'.restLink.surival = g.restLink.surival by rw [h.rest]),
   (show g'.restLink.old = g.restLink.old by rw [h.rest]),
   (show g'.restLink.reallyold = g.restLink.reallyold by rw [h.rest]),
   (show g'.restLink.udatasur = g.restLink.udatasur by rw [h.rest]),
   (show g'.restLink.udataold = g.restLink.udataold by rw [h.rest]),
   (show g'.restLink.udatarold = g.restLink.udatarold by rw [h.rest]),
   (show g'.restLink.freed = g.restLink.freed by rw [h.rest])⟩

theorem Steady.drefl (g : GState) : Steady g g := ⟨fun _ => rfl, rfl⟩

theorem Steady.dtrans {a b c : GState} (h1 : Steady a b) (h2 : Steady b c) : Steady a c :=
  ⟨fun x => (h2.core x).trans (h1.core x), h2.rest.trans h1.rest⟩

theorem Steady.dmod (g : GState) (o : Nat) (f : GCobj → GCobj)
    (hf : steadyObj (f (g.heap o)) = steadyObj (g.heap o)) : Steady g (g.modObj o f) := by
  refine ⟨fun a => ?_, rfl⟩
  rw [modObj_heap]
  split_ifs with h
  · subst h; exact hf
  · rfl

theorem Steady.dflds {g g' : GState} (h1 : g'.heap = g.heap)
    (h2 : g'.restSteady = g.restSteady) : Steady g g' :=
  ⟨fun a => by rw [h1], h2⟩

theorem Steady.dguard (c : Prop) [Decidable c] {X : Option GState} {g g' : GState}
    (hX : ∀ g1, X = some g1 → Steady g g1)
    (h : (if c then X else some g) = some g') : Steady g g' := by
  by_cases hc : c
  · rw [if_pos hc] at h; exact hX g' h
  · rw [if_neg hc] at h; cases h; exact Steady.drefl g

theorem Steady.dbind {X : Option GState} {f : GState → Option GState} {g g' : GState}
    (hX : ∀ g1, X = some g1 → Steady g g1)
    (hf : ∀ g1 g2, X = some g1 → f g1 = some g2 → Steady g1 g2)
    (h : X.bind f = some g') : Steady g g' := by
  obtain ⟨g1, h1, h2⟩ := bind_some h
  exact (hX g1 h1).dtrans (hf g1 g' h1 h2)

theorem gc_mark_steady : ∀ (n : Nat) (g : GState) (o : Nat) (g' : GState),
    gc_mark n g o = some g' → Steady g g' := by
  intro n
  induction n with
  | zero => intro g o g' h; simp [gc_mark] at h
  | succ n ih =>
    intro g o g' h
    have h1 : Steady g (g.modObj o white2gray) := Steady.dmod g o _ rfl
    refine h1.dtrans ?_
    unfold gc_mark at h
    simp only [] at h
    generalize g.modObj o white2gray = G at h ⊢
    cases hg : (g.heap o).gct <;> rw [hg] at h <;> simp only [] at h
    case udata =>
      exact (Steady.dmod G o _ rfl).dtrans
        (Steady.dbind (fun g1 h1 => Steady.dguard _ (fun g2 h2 => ih _ _ _ h2) h1)
          (fun g1 g2 _ h2 => Steady.dguard _ (fun g3 h3 => ih _ _ _ h3) h2) h)
    case upval =>
      refine Steady.dbind (fun g1 h1 => Steady.dguard _ (fun g2 h2 => ih _ _ _ h2) h1)
        (fun g1 g2 _ h2 => ?_) h
      split at h2
      · cases h2; exact Steady.dmod g1 o _ rfl
      · cases h2; exact Steady.drefl _
    case str => cases h; exact Steady.drefl _
    case cdata => cases h; exact Steady.drefl _
    all_goals
      cases h
      exact (Steady.dmod G o (fun x => { x with gclist := G.gray }) rfl).dtrans
        (Steady.dflds rfl rfl)

theorem gc_markobj_steady (n : Nat) (g : GState) (o : Nat) (g' : GState)
    (h : gc_markobj n g o = some g') : Steady g g' :=
  Steady.dguard _ (fun _ h1 => gc_mark_steady _ _ _ _ h1) h

theorem gc_marktv_steady (n : Nat) (g : GState) (tv : TValue) (g' : GState)
    (h : gc_marktv n g tv = some g') : Steady g g' :=
  Steady.dguard _ (fun _ h1 => gc_mark_steady _ _ _ _ h1) h

theorem loopM_steady (f : Nat → GState → Option GState)
    (hf : ∀ i g g', f i g = some g' → Steady g g') :
    ∀ (k i : Nat) (g g' : GState), loopM f k i g = some g' → Steady g g'
  | 0, _, g, g', h => by cases h; exact Steady.drefl g
  | k + 1, i, g, g', h => by
    unfold loopM at h
    exact Steady.dbind (fun g1 h1 => hf i g g1 h1)
      (fun g1 g2 _ h2 => loopM_steady f hf k (i + 1) g1 g2 h2) h

theorem traverseNode_steady (fuel t weak i : Nat) (g g' : GState)
    (h : traverseNode fuel t weak i g = some g') : Steady g g' := by
  unfold traverseNode at h
  simp only [] at h
  split at h
  · cases h; exact Steady.drefl g
  · exact Steady.dbind (fun g1 h1 => Steady.dguard _ (fun g2 h2 => gc_marktv_steady _ _ _ _ h2) h1)
      (fun g1 g2 _ h2 => Steady.dguard _ (fun g3 h3 => gc_marktv_steady _ _ _ _ h3) h2) h

theorem tabSetWeak_steady (g : GState) (t w0 : Nat) : Steady g (tabSetWeak g t w0).1 := by
  unfold tabSetWeak
  split
  · split
    · exact Steady.drefl g
    · refine ⟨fun a => ?_, rfl⟩
      simp only [modObj_heap, eq_self_iff_true, if_true]
      split_ifs with e <;> first | rfl | (subst e; rfl)
  · exact Steady.drefl g

theorem tabMarkParts_steady (fuel : Nat) (g : GState) (t weak : Nat) (r : GState × Nat)
    (h : tabMarkParts fuel g t weak = some r) : Steady g r.1 := by
  unfold tabMarkParts at h
  obtain ⟨g1, h1, h⟩ := bind_some h
  obtain ⟨g2, h2, h⟩ := bind_some h
  have q1 : Steady g g1 :=
    Steady.dguard _ (fun g3 h3 => loopM_steady _ (fun i a b hab => gc_marktv_steady _ _ _ _ hab)
      _ _ _ _ h3) h1
  have q2 : Steady g1 g2 :=
    Steady.dguard _ (fun g3 h3 => loopM_steady _ (fun i a b hab => traverseNode_steady _ _ _ _ _ _ hab)
      _ _ _ _ h3) h2
  refine q1.dtrans (q2.dtrans ?_)
  split at h
  · cases h
    refine ⟨fun a => ?_, rfl⟩
    simp only [modObj_heap, eq_self_iff_true, if_true]
    split_ifs with e <;> first | rfl | (subst e; rfl)
  · cases h; exact Steady.drefl _

theorem gc_traverse_tab_steady (fuel : Nat) (g : GState) (t : Nat) (r : GState × Nat)
    (h : gc_traverse_tab fuel g t = some r) : Steady g r.1 := by
  rw [gc_traverse_tab_eq] at h
  obtain ⟨g1, h1, h⟩ := bind_some h
  have q1 : Steady g g1 := Steady.dguard _ (fun g3 h3 => gc_markobj_steady _ _ _ _ h3) h1
  refine q1.dtrans ((tabSetWeak_steady g1 t (tabWeak g1 (g.heap t).metatable)).dtrans ?_)
  split at h
  · cases h; exact Steady.drefl _
  · exact tabMarkParts_steady _ _ _ _ _ h

theorem gc_traverse_func_steady (fuel : Nat) (g : GState) (fn : Nat) (g' : GState)
    (h : gc_traverse_func fuel g fn = some g') : Steady g g' := by
  unfold gc_traverse_func at h
  refine Steady.dbind (fun g1 h1 => gc_markobj_steady _ _ _ _ h1) (fun g1 g2 _ h2 => ?_) h
  split at h2
  · refine Steady.dbind (fun g3 h3 => gc_markobj_steady _ _ _ _ h3) (fun g3 g4 _ h4 => ?_) h2
    exact loopM_steady _ (fun i a b hab => gc_markobj_steady _ _ _ _ hab) _ _ _ _ h4
  · exact loopM_steady _ (fun i a b hab => gc_marktv_steady _ _ _ _ hab) _ _ _ _ h2

theorem gc_marktrace_steady (g : GState) (traceno : Nat) : Steady g (gc_marktrace g traceno) := by
  unfold gc_marktrace
  simp only []
  split
  · refine ⟨fun a => ?_, rfl⟩
    simp only [modObj_heap, eq_self_iff_true, if_true]
    split_ifs with e <;> first | rfl | (subst e; rfl)
  · exact Steady.drefl g

theorem traverseIR_steady (fuel T : Nat) : ∀ (k ref : Nat) (g g' : GState),
    traverseIR fuel T k ref g = some g' → Steady g g'
  | 0, _, g, g', h => by cases h; exact Steady.drefl g
  | k + 1, ref, g, g', h => by
    unfold traverseIR at h
    simp only [] at h
    split at h
    · exact Steady.dbind (fun g1 h1 => Steady.dguard _ (fun g2 h2 => gc_markobj_steady _ _ _ _ h2) h1)
        (fun g1 g2 _ h2 => traverseIR_steady fuel T k _ g1 g2 h2) h
    · cases h; exact Steady.drefl g

theorem gc_traverse_trace_steady (fuel : Nat) (g : GState) (T : Nat) (g' : GState)
    (h : gc_traverse_trace fuel g T = some g') : Steady g g' := by
  unfold gc_traverse_trace at h
  split at h
  · cases h; exact Steady.drefl g
  · refine Steady.dbind (fun g1 h1 => traverseIR_steady _ _ _ _ _ _ h1) (fun g1 g2 _ h2 => ?_) h
    simp only [] at h2
    have q1 : Steady g1 (if (g1.heap T).link ≠ 0 then gc_marktrace g1 (g1.heap T).link else g1) := by
      split
      · exact gc_marktrace_steady _ _
      · exact Steady.drefl _
    refine q1.dtrans ?_
    generalize (if (g1.heap T).link ≠ 0 then gc_marktrace g1 (g1.heap T).link else g1) = G1 at h2 ⊢
    have q2 : Steady G1 (if (G1.heap T).nextroot ≠ 0 then gc_marktrace G1 (G1.heap T).nextroot
        else G1) := by
      split
      · exact gc_marktrace_steady _ _
      · exact Steady.drefl _
    refine q2.dtrans ?_
    generalize (if (G1.heap T).nextroot ≠ 0 then gc_marktrace G1 (G1.heap T).nextroot
        else G1) = G2 at h2 ⊢
    have q3 : Steady G2 (if (G2.heap T).nextside ≠ 0 then gc_marktrace G2 (G2.heap T).nextside
        else G2) := by
      split
      · exact gc_marktrace_steady _ _
      · exact Steady.drefl _
    exact q3.dtrans (gc_markobj_steady _ _ _ _ h2)

theorem gc_traverse_proto_steady (fuel : Nat) (g : GState) (pt : Nat) (g' : GState)
    (h : gc_traverse_proto fuel g pt = some g') : Steady g g' := by
  unfold gc_traverse_proto at h
  simp only [] at h
  refine (Steady.dmod g (g.heap pt).chunkname gc_mark_str rfl).dtrans ?_
  refine Steady.dbind (fun g1 h1 => loopM_steady _ (fun i a b hab => gc_markobj_steady _ _ _ _ hab)
    _ _ _ _ h1) (fun g1 g2 _ h2 => ?_) h
  split at h2
  · cases h2; exact gc_marktrace_steady _ _
  · cases h2; exact Steady.drefl _

theorem traverseFrames_steady (fuel th : Nat) : ∀ (k i : Nat) (acc : Int) (g : GState) (r : GState × Int),
    traverseFrames fuel th k i acc g = some r → Steady g r.1
  | 0, _, _, g, r, h => by cases h; exact Steady.drefl g
  | k + 1, i, acc, g, r, h => by
    unfold traverseFrames at h
    simp only [] at h
    obtain ⟨g1, h1, h2⟩ := bind_some h
    exact (Steady.dguard _ (fun g2 h2 => gc_markobj_steady _ _ _ _ h2) h1).dtrans
      (traverseFrames_steady fuel th k _ _ g1 r h2)

theorem gc_traverse_frames_steady (fuel : Nat) (g : GState) (th : Nat) (r : GState × Nat)
    (h : gc_traverse_frames fuel g th = some r) : Steady g r.1 := by
  unfold gc_traverse_frames at h
  obtain ⟨r1, h1, h2⟩ := bind_some h
  cases h2
  exact traverseFrames_steady _ _ _ _ _ _ r1 h1

theorem lj_state_shrinkstack_steady (g : GState) (th used : Nat) :
    Steady g (lj_state_shrinkstack g th used) := by
  unfold lj_state_shrinkstack
  simp only []
  split
  · refine ⟨fun a => ?_, rfl⟩
    simp only [modObj_heap]
    split_ifs with e <;> first | rfl | (subst e; rfl)
  · exact Steady.drefl g

theorem gc_traverse_thread_steady (fuel : Nat) (g : GState) (th : Nat) (g' : GState)
    (h : gc_traverse_thread fuel g th = some g') : Steady g g' := by
  unfold gc_traverse_thread at h
  simp only [] at h
  obtain ⟨g1, h1, h⟩ := bind_some h
  obtain ⟨g2, h2, h⟩ := bind_some h
  obtain ⟨r, h3, h⟩ := bind_some h
  cases h
  have q1 : Steady g g1 := loopM_steady _ (fun i a b hab => gc_marktv_steady _ _ _ _ hab) _ _ _ _ h1
  have q3 := gc_traverse_frames_steady _ _ _ _ h3
  have q2 := gc_markobj_steady _ _ _ _ h2
  refine q1.dtrans (Steady.dtrans ?_ (q2.dtrans (q3.dtrans (lj_state_shrinkstack_steady _ _ _))))
  split
  · exact Steady.dmod g1 th _ rfl
  · exact Steady.drefl _

theorem popGray_steady (g : GState) : Steady g (popGray g) := by
  unfold popGray
  refine ⟨fun a => ?_, rfl⟩
  simp only [modObj_heap]
  split_ifs with e <;> first | rfl | (subst e; rfl)

theorem propagatemark_steady (fuel : Nat) (g : GState) (r : GState × Nat)
    (h : propagatemark fuel g = some r) : Steady g r.1 := by
  rw [propagatemark_eq] at h
  refine (popGray_steady g).dtrans ?_
  generalize popGray g = G at h ⊢
  cases hg : (g.heap g.gray).gct <;> rw [hg] at h <;> simp only [] at h
  case tab =>
    obtain ⟨r1, h1, h2⟩ := bind_some h
    cases h2
    refine (gc_traverse_tab_steady _ _ _ _ h1).dtrans ?_
    dsimp only
    split
    · exact Steady.dmod _ _ _ rfl
    · exact Steady.drefl _
  case func =>
    obtain ⟨r1, h1, h2⟩ := bind_some h
    cases h2
    exact gc_traverse_func_steady _ _ _ _ h1
  case proto =>
    obtain ⟨r1, h1, h2⟩ := bind_some h
    cases h2
    exact gc_traverse_proto_steady _ _ _ _ h1
  case thread =>
    obtain ⟨r1, h1, h2⟩ := bind_some h
    cases h2
    refine Steady.dtrans ?_ (gc_traverse_thread_steady _ _ _ _ h1)
    refine ⟨fun a => ?_, rfl⟩
    simp only [modObj_heap, eq_self_iff_true, if_true]
    split_ifs with e <;> first | rfl | (subst e; rfl)
  all_goals
    obtain ⟨r1, h1, h2⟩ := bind_some h
    cases h2
    exact gc_traverse_trace_steady _ _ _ _ h1

theorem Steady.dstate {g g' : GState} (h : Steady g g') :
    g'.state = g.state ∧ g'.mmudata = g.mmudata ∧ g'.debt = g.debt :=
  ⟨(show g'.restSteady.state = g.restSteady.state by rw [h.rest]),
   (show g'.restSteady.mmudata = g.restSteady.mmudata by rw [h.rest]),
   (show g'.restSteady.debt = g.restSteady.debt by rw [h.rest])⟩

theorem finalizerEntry_state (vm : VM) (hvm : VMKeepsState vm) (g : GState) (L : Nat)
    (mo : TValue) (o : Nat) : (finalizerEntry vm g L mo o).1.state = g.state := by
  unfold finalizerEntry
  simp only []
  split <;> exact hvm.1 g

theorem gc_call_finalizer_state (vm : VM) (hvm : VMKeepsState vm) (g : GState) (L : Nat)
    (mo : TValue) (o : Nat) : (gc_call_finalizer vm g L mo o).1.state = g.state := by
  rw [gc_call_finalizer_fst]
  exact (hvm.2 _ _ _).trans (finalizerEntry_state vm hvm g L mo o)

theorem finalizeUnlink_state (g : GState) : (finalizeUnlink g).state = g.state := by
  unfold finalizeUnlink
  simp only []
  split <;> rfl

theorem finalizeCdataCall_state (vm : VM) (hvm : VMKeepsState vm) (g : GState) (L o : Nat) :
    (finalizeCdataCall vm g L o).1.state = g.state := by
  unfold finalizeCdataCall
  simp only []
  split
  · split
    · exact gc_call_finalizer_state vm hvm _ _ _ _
    · rfl
  · rfl

theorem gc_finalize_state (vm : VM) (hvm : VMKeepsState vm) (g : GState) (L : Nat) :
    (gc_finalize vm g L).1.state = g.state := by
  rw [gc_finalize_eq]
  have hp : (finalizePre g).state = g.state := finalizeUnlink_state g
  have hc : ∀ o, (finalizeRelinkCdata (finalizeUnlink g) o).state = g.state :=
    fun _ => finalizeUnlink_state g
  split
  · exact (finalizeCdataCall_state vm hvm _ _ _).trans (hc _)
  · split
    · exact (gc_call_finalizer_state vm hvm _ _ _ _).trans hp
    · exact hp

theorem gc_mark_start_state (fuel : Nat) (g g' : GState) (h : gc_mark_start fuel g = some g') :
    g'.state = GCSpropagate := by
  unfold gc_mark_start at h
  simp only [] at h
  obtain ⟨g1, _, h⟩ := bind_some h
  obtain ⟨g2, _, h⟩ := bind_some h
  obtain ⟨g3, _, h⟩ := bind_some h
  simp only [Option.map_eq_some'] at h
  obtain ⟨g4, _, e⟩ := h
  subst e
  rfl

theorem sweepDone_cases (vm : VM) (g : GState) (L : Nat) (p : Loc) (old : Nat) :
    (p.get g ≠ 0 → (sweepDone vm g L p old).state = g.state ∧
      (sweepDone vm g L p old).debt = g.debt ∧ (sweepDone vm g L p old).mmudata = g.mmudata) ∧
    (p.get g = 0 →
      ((sweepDone vm g L p old).mmudata ≠ 0 ∧ (sweepDone vm g L p old).state = GCSfinalize) ∨
      ((sweepDone vm g L p old).mmudata = 0 ∧ (sweepDone vm g L p old).state = GCSpause ∧
        (sweepDone vm g L p old).debt = 0)) := by
  have e : ∀ (G : GState) (est : Nat),
      Loc.get { G with sweep := p, estimate := est } p = p.get G :=
    fun G est => by cases p <;> rfl
  unfold sweepDone
  dsimp only
  rw [e]
  constructor
  · intro h
    rw [if_neg h]
    exact ⟨rfl, rfl, rfl⟩
  · intro h
    rw [if_pos h]
    split_ifs <;>
      first
        | exact Or.inl ⟨by assumption, rfl⟩
        | exact Or.inr ⟨not_not.mp (by assumption), rfl, rfl⟩

theorem step_from_pause (vm : VM) (fuel : Nat) (g : GState) (L : Nat) (r : Res Nat)
    (hs : g.state = GCSpause) (h : gc_onestep vm fuel g L = some r) :
    r.gst.state = GCSpropagate := by
  unfold gc_onestep at h
  rw [if_pos hs] at h
  simp only [Option.map_eq_some'] at h
  obtain ⟨g1, h1, e⟩ := h
  subst e
  exact gc_mark_start_state fuel g g1 h1

theorem step_from_propagate (vm : VM) (fuel : Nat) (g : GState) (L : Nat) (r : Res Nat)
    (hs : g.state = GCSpropagate) (h : gc_onestep vm fuel g L = some r) :
    (g.gray ≠ 0 → r.gst.state = GCSpropagate) ∧ (g.gray = 0 → r.gst.state = GCSatomic) := by
  unfold gc_onestep at h
  rw [if_neg (by rw [hs]; decide), if_pos hs] at h
  constructor
  · intro hg
    rw [if_pos hg] at h
    simp only [Option.map_eq_some'] at h
    obtain ⟨r1, h1, e⟩ := h
    subst e
    exact (propagatemark_steady fuel g r1 h1).dstate.1.trans hs
  · intro hg
    rw [if_neg (not_not.mpr hg)] at h
    cases h
    rfl

theorem step_from_atomic (vm : VM) (fuel : Nat) (g : GState) (L : Nat) (r : Res Nat)
    (hs : g.state = GCSatomic) (h : gc_onestep vm fuel g L = some r) :
    r.gst.state = GCSatomic ∨ r.gst.state = GCSsweepstring := by
  unfold gc_onestep at h
  rw [if_neg (by rw [hs]; decide), if_neg (by rw [hs]; decide), if_pos hs] at h
  split at h
  · cases h; exact Or.inl hs
  · simp only [Option.map_eq_some'] at h
    obtain ⟨g1, _, e⟩ := h
    subst e
    exact Or.inr rfl

theorem step_from_sweepstring (vm : VM) (fuel : Nat) (g : GState) (L : Nat) (r : Res Nat)
    (hs : g.state = GCSsweepstring) (h : gc_onestep vm fuel g L = some r) :
    r.gst.state = GCSsweepstring ∨ r.gst.state = GCSsweep := by
  unfold gc_onestep at h
  rw [if_neg (by rw [hs]; decide), if_neg (by rw [hs]; decide), if_neg (by rw [hs]; decide),
    if_pos hs] at h
  simp only [Option.map_eq_some'] at h
  obtain ⟨r1, h1, e⟩ := h
  subst e
  have hst : r1.1.state = g.state := (restSwp_fields (gc_sweep_frame _ _ _ _ _ h1).1).2.1
  have hd := (sweepstringDone_fields r1.1 g.total).2.2.2.2.2.2.2.2.1
  show (sweepstringDone r1.1 g.total).state = _ ∨ (sweepstringDone r1.1 g.total).state = _
  rw [hd]
  split
  · exact Or.inr rfl
  · exact Or.inl (hst.trans hs)

theorem step_from_sweep (vm : VM) (fuel : Nat) (g : GState) (L : Nat) (r : Res Nat)
    (hs : g.state = GCSsweep) (h : gc_onestep vm fuel g L = some r) :
    ∃ r1, gc_sweep fuel g g.sweep GCSWEEPMAX = some r1 ∧ r1.1.mmudata = g.mmudata ∧
      (r1.2.get r1.1 ≠ 0 → r.gst.state = GCSsweep ∧ r.gst.mmudata = g.mmudata) ∧
      (r1.2.get r1.1 = 0 →
        (r.gst.mmudata ≠ 0 ∧ r.gst.state = GCSfinalize) ∨
        (r.gst.mmudata = 0 ∧ r.gst.state = GCSpause ∧ r.gst.debt = 0)) ∧
      ((∀ s L m, (vm.lj_str_resize s L m).mmudata = s.mmudata) → r.gst.mmudata = g.mmudata) := by
  unfold gc_onestep at h
  rw [if_neg (by rw [hs]; decide), if_neg (by rw [hs]; decide), if_neg (by rw [hs]; decide),
    if_neg (by rw [hs]; decide), if_pos hs] at h
  simp only [Option.map_eq_some'] at h
  obtain ⟨r1, h1, e⟩ := h
  subst e
  have f := restSwp_fields (gc_sweep_frame _ _ _ _ _ h1).1
  have hst : r1.1.state = g.state := f.2.1
  have hmm : r1.1.mmudata = g.mmudata := f.2.2.2.2.2.2.2.2.2.1
  obtain ⟨c1, c2⟩ := sweepDone_cases vm r1.1 L r1.2 g.total
  refine ⟨r1, h1, hmm, fun hc => ?_, fun hc => c2 hc, fun hr => ?_⟩
  · exact ⟨(c1 hc).1.trans (hst.trans hs), (c1 hc).2.2.trans hmm⟩
  · show (sweepDone vm r1.1 L r1.2 g.total).mmudata = _
    rw [← hmm]
    have e : ∀ (G : GState) (est : Nat),
        Loc.get { G with sweep := r1.2, estimate := est } r1.2 = r1.2.get G :=
      fun G est => by cases r1.2 <;> rfl
    unfold sweepDone
    dsimp only
    rw [e]
    split_ifs <;> first | rfl | exact hr _ _ _

theorem step_from_finalize (vm : VM) (hvm : VMKeepsState vm) (fuel : Nat) (g : GState) (L : Nat)
    (r : Res Nat) (hs : g.state = GCSfinalize) (h : gc_onestep vm fuel g L = some r) :
    (g.mmudata ≠ 0 → r.gst.state = GCSfinalize) ∧
    (g.mmudata = 0 → r.gst.state = GCSpause ∧ r.gst.debt = 0) := by
  unfold gc_onestep at h
  rw [if_neg (by rw [hs]; decide), if_neg (by rw [hs]; decide), if_neg (by rw [hs]; decide),
    if_neg (by rw [hs]; decide), if_neg (by rw [hs]; decide), if_pos hs] at h
  cases h
  unfold finalizeStep
  constructor
  · intro hm
    rw [if_pos hm]
    split
    · exact hs
    · have hf := gc_finalize_state vm hvm g L
      split
      · rename_i g1 e heq
        rw [heq] at hf
        exact hf.trans hs
      · rename_i g1 heq
        rw [heq] at hf
        show (if g1.estimate > GCFINALIZECOST then
          { g1 with estimate := g1.estimate - GCFINALIZECOST } else g1).state = _
        split
        · exact hf.trans hs
        · exact hf.trans hs
  · intro hm
    rw [if_neg (not_not.mpr hm)]
    exact ⟨rfl, rfl⟩

theorem step_from_other (vm : VM) (fuel : Nat) (g : GState) (L : Nat) (r : Res Nat)
    (h0 : g.state ≠ GCSpause) (h1 : g.state ≠ GCSpropagate) (h2 : g.state ≠ GCSatomic)
    (h3 : g.state ≠ GCSsweepstring) (h4 : g.state ≠ GCSsweep) (h5 : g.state ≠ GCSfinalize)
    (h : gc_onestep vm fuel g L = some r) : r = Res.ok g 0 := by
  unfold gc_onestep at h
  rw [if_neg h0, if_neg h1, if_neg h2, if_neg h3, if_neg h4, if_neg h5] at h
  cases h
  rfl

/-- C31 (as amended): every call of `gc_onestep` that comes back, normally or by an
error
thrown from a finalizer, leaves `state` as it was or has moved it along one
of the seven edges, provided the code run from the finalizer call keeps
`state`.  From `GCSpropagate` it moves to `GCSatomic` exactly when `gray` is
null.  From `GCSsweep` it moves exactly when the cursor `gc_sweep` returned
is at a null link: to `GCSfinalize` when `mmudata` is then non-null, to
`GCSpause` with `debt = 0` otherwise; and `mmudata` is the one of before when
the string table resize keeps it.  From `GCSfinalize` it moves, to
`GCSpause`, exactly when `mmudata` is null.  Whenever the state becomes
`GCSpause`, `debt` is 0. -/
theorem onestep_transitions (vm : VM) (hvm : VMKeepsState vm) (fuel : Nat) (g : GState)
    (L : Nat) (r : Res Nat) (h : gc_onestep vm fuel g L = some r) :
    (r.gst.state = g.state ∨ gcEdge g.state r.gst.state) ∧
    (g.state = GCSpropagate → (r.gst.state = GCSatomic ↔ g.gray = 0)) ∧
    (g.state = GCSsweep →
      ∃ r1, gc_sweep fuel g g.sweep GCSWEEPMAX = some r1 ∧
        (r.gst.state ≠ GCSsweep ↔ r1.2.get r1.1 = 0) ∧
        (r1.2.get r1.1 = 0 → (r.gst.state = GCSfinalize ↔ r.gst.mmudata ≠ 0) ∧
          (r.gst.state = GCSpause ↔ r.gst.mmudata = 0)) ∧
        ((∀ s L m, (vm.lj_str_resize s L m).mmudata = s.mmudata) →
          r.gst.mmudata = g.mmudata)) ∧
    (g.state = GCSfinalize → (r.gst.state ≠ GCSfinalize ↔ g.mmudata = 0)) ∧
    (r.gst.state = GCSpause → g.state ≠ GCSpause → r.gst.debt = 0) := by
  by_cases h0 : g.state = GCSpause
  · have e := step_from_pause vm fuel g L r h0 h
    refine ⟨Or.inr (Or.inl ⟨h0, e⟩), fun hx => absurd (h0.symm.trans hx) (by decide),
      fun hx => absurd (h0.symm.trans hx) (by decide),
      fun hx => absurd (h0.symm.trans hx) (by decide), fun _ hn => absurd h0 hn⟩
  by_cases h1 : g.state = GCSpropagate
  · obtain ⟨a, b⟩ := step_from_propagate vm fuel g L r h1 h
    refine ⟨?_, fun _ => ⟨fun hx => ?_, b⟩,
      fun hx => absurd (h1.symm.trans hx) (by decide),
      fun hx => absurd (h1.symm.trans hx) (by decide), fun hp _ => ?_⟩
    · by_cases hg : g.gray = 0
      · exact Or.inr (Or.inr (Or.inl ⟨h1, b hg⟩))
      · exact Or.inl ((a hg).trans h1.symm)
    · by_contra hg
      exact absurd ((a hg).symm.trans hx) (by decide)
    · exfalso
      by_cases hg : g.gray = 0
      · exact absurd ((b hg).symm.trans hp) (by decide)
      · exact absurd ((a hg).symm.trans hp) (by decide)
  by_cases h2 : g.state = GCSatomic
  · have e := step_from_atomic vm fuel g L r h2 h
    refine ⟨?_, fun hx => absurd (h2.symm.trans hx) (by decide),
      fun hx => absurd (h2.symm.trans hx) (by decide),
      fun hx => absurd (h2.symm.trans hx) (by decide), fun hp _ => ?_⟩
    · rcases e with e | e
      · exact Or.inl (e.trans h2.symm)
      · exact Or.inr (Or.inr (Or.inr (Or.inl ⟨h2, e⟩)))
    · exfalso
      rcases e with e | e
      · exact absurd (e.symm.trans hp) (by decide)
      · exact absurd (e.symm.trans hp) (by decide)
  by_cases h3 : g.state = GCSsweepstring
  · have e := step_from_sweepstring vm fuel g L r h3 h
    refine ⟨?_, fun hx => absurd (h3.symm.trans hx) (by decide),
      fun hx => absurd (h3.symm.trans hx) (by decide),
      fun hx => absurd (h3.symm.trans hx) (by decide), fun hp _ => ?_⟩
    · rcases e with e | e
      · exact Or.inl (e.trans h3.symm)
      · exact Or.inr (Or.inr (Or.inr (Or.inr (Or.inl ⟨h3, e⟩))))
    · exfalso
      rcases e with e | e
      · exact absurd (e.symm.trans hp) (by decide)
      · exact absurd (e.symm.trans hp) (by decide)
  by_cases h4 : g.state = GCSsweep
  · obtain ⟨r1, e1, _, a, b, c⟩ := step_from_sweep vm fuel g L r h4 h
    refine ⟨?_, fun hx => absurd (h4.symm.trans hx) (by decide),
      fun _ => ⟨r1, e1, ⟨fun hn => ?_, fun hc => ?_⟩, fun hc => ?_, c⟩,
      fun hx => absurd (h4.symm.trans hx) (by decide), fun hp _ => ?_⟩
    · by_cases hc : r1.2.get r1.1 = 0
      · rcases b hc with ⟨_, e⟩ | ⟨_, e, _⟩
        · exact Or.inr (Or.inr (Or.inr (Or.inr (Or.inr (Or.inl ⟨h4, e⟩)))))
        · exact Or.inr (Or.inr (Or.inr (Or.inr (Or.inr (Or.inr (Or.inl ⟨h4, e⟩))))))
      · exact Or.inl ((a hc).1.trans h4.symm)
    · by_contra hc
      exact hn (a hc).1
    · rcases b hc with ⟨_, e⟩ | ⟨_, e, _⟩
      · rw [e]; decide
      · rw [e]; decide
    · rcases b hc with ⟨m, e⟩ | ⟨m, e, _⟩
      · exact ⟨⟨fun _ => m, fun _ => e⟩,
          ⟨fun hx => absurd (e.symm.trans hx) (by decide), fun hx => absurd hx m⟩⟩
      · exact ⟨⟨fun hx => absurd (e.symm.trans hx) (by decide), fun hx => absurd m hx⟩,
          ⟨fun _ => m, fun _ => e⟩⟩
    · by_cases hc : r1.2.get r1.1 = 0
      · rcases b hc with ⟨_, e⟩ | ⟨_, _, d⟩
        · exact absurd (e.symm.trans hp) (by decide)
        · exact d
      · exact absurd ((a hc).1.symm.trans hp) (by decide)
  by_cases h5 : g.state = GCSfinalize
  · obtain ⟨a, b⟩ := step_from_finalize vm hvm fuel g L r h5 h
    refine ⟨?_, fun hx => absurd (h5.symm.trans hx) (by decide),
      fun hx => absurd (h5.symm.trans hx) (by decide),
      fun _ => ⟨fun hn => ?_, fun hm => ?_⟩, fun hp _ => ?_⟩
    · by_cases hm : g.mmudata = 0
      · exact Or.inr (Or.inr (Or.inr (Or.inr (Or.inr (Or.inr (Or.inr ⟨h5, (b hm).1⟩))))))
      · exact Or.inl ((a hm).trans h5.symm)
    · by_contra hm
      exact hn (a hm)
    · rw [(b hm).1]; decide
    · by_cases hm : g.mmudata = 0
      · exact (b hm).2
      · exact absurd ((a hm).symm.trans hp) (by decide)
  · have e := step_from_other vm fuel g L r h0 h1 h2 h3 h4 h5 h
    subst e
    exact ⟨Or.inl rfl, fun hx => absurd hx h1, fun hx => absurd hx h4, fun hx => absurd hx h5,
      fun hp _ => absurd hp h0⟩

/-- Witness for `onestep_transitions`: in `exEdge` the sweep cursor is at
the end of the empty `root` list and `mmudata` holds a userdata; the step
moves from `GCSsweep` to `GCSfinalize`. -/
theorem onestep_transitions_witness :
    VMKeepsState exVM ∧ exEdge.state = GCSsweep ∧
    ∃ r, gc_onestep exVM 1 exEdge 1 = some r ∧ r.gst.state = GCSfinalize ∧
      (r.gst.state = exEdge.state ∨ gcEdge exEdge.state r.gst.state) :=
  ⟨⟨fun _ => rfl, fun _ _ _ => rfl⟩, rfl, _, rfl, rfl,
    (onestep_transitions exVM ⟨fun _ => rfl, fun _ _ _ => rfl⟩ 1 exEdge 1 _ rfl).1⟩

/-- C33: on a well-formed userdata list `xs` after the main thread, with
`ms` on the circular `mmudata` list, `lj_gc_separateudata` returns (given
fuel for the list).  It moves exactly the objects of `xs` that are white (or
any, when `all`), not `FINALIZED`, and have a `__gc` metamethod: `mmudata`
holds `ms` followed by them in list order, and the value returned is the sum
of their `sizeudata` (a `size_t` in the source; the sum is taken without
wrap-around, the objects being distinct allocations).  The other objects
stay on the userdata list in their order.  Every object of `xs` that is white (or `all`) and not `FINALIZED`
gets `FINALIZED` set and no other bit changed, moved or not; every other
object keeps its `marked` byte.  No object changes in any field but `marked`
and the link `nextgc`, and objects off both lists, the main thread apart,
do not change at all; the anchor `udatarold` and all of the state but the
heap, `mmudata`, `udatasur` and `udataold` are as before. -/
theorem separateudata_spec (g : GState) (all : Bool) (fuel : Nat) (xs ms : List Nat)
    (hc : Chain g (g.heap g.mainthread).nextgc xs) (hcirc : Circ g g.mmudata ms)
    (hnd : (xs ++ ms).Nodup) (hm0 : g.mainthread ≠ 0) (hmx : g.mainthread ∉ xs)
    (hmm : g.mainthread ∉ ms) (hl : xs.length ≤ fuel) :
    ∃ g1 m1, lj_gc_separateudata fuel g all = some (g1, m1) ∧
      Circ g1 g1.mmudata (ms ++ xs.filter (fun x => decide (movable g all x))) ∧
      Chain g1 (g1.heap g1.mainthread).nextgc (xs.filter (fun x => decide (¬ movable g all x))) ∧
      m1 = ((xs.filter (fun x => decide (movable g all x))).map
        (fun x => g.sizeudata (g.heap x))).sum ∧
      (∀ x ∈ xs, sepCand g all x →
        (g1.heap x).marked = (g.heap x).marked ||| LJ_GC_FINALIZED ∧ isfinalized (g1.heap x)) ∧
      (∀ x, ¬ (x ∈ xs ∧ sepCand g all x) → (g1.heap x).marked = (g.heap x).marked) ∧
      (∀ a, shapeN (g1.heap a) = shapeN (g.heap a)) ∧
      (∀ a, a ∉ xs → a ∉ ms → a ≠ g.mainthread → g1.heap a = g.heap a) ∧
      g1.restSep = g.restSep := by
  obtain ⟨g1, m1, hrun, P⟩ :=
    separateLoop_spec all xs fuel g g.mainthread 0 ms hc hcirc hnd hm0 hmx hmm hl
  have hmt : g1.mainthread = g.mainthread :=
    (show g1.restSep.mainthread = g.restSep.mainthread by rw [P.rest])
  refine ⟨g1, m1, hrun, P.circ, by rw [hmt]; exact P.chain, by rw [P.size, Nat.zero_add],
    fun x hx hcand => ?_, fun x hx => ?_, P.shape, P.frame, P.rest⟩
  · have e : (g1.heap x).marked = (g.heap x).marked ||| LJ_GC_FINALIZED := by
      rw [P.marked_in x hx, if_pos hcand]
    refine ⟨e, ?_⟩
    unfold isfinalized
    rw [e]
    exact fin_markfinalized (g.heap x)
  · by_cases hin : x ∈ xs
    · rw [P.marked_in x hin, if_neg (fun h => hx ⟨hin, h⟩)]
    · exact P.marked_out x hin

/-- Witness for `separateudata_spec`: in `exSep` the userdata 2 is moved to
`mmudata`, 3 and 4 stay, and the bytes of 2 are returned. -/
theorem separateudata_spec_witness :
    ∃ g1 m1, lj_gc_separateudata 3 exSep false = some (g1, m1) ∧ Circ g1 g1.mmudata [2] ∧
      Chain g1 (g1.heap g1.mainthread).nextgc [3, 4] ∧
      m1 = exSep.sizeudata (exSep.heap 2) ∧ isfinalized (g1.heap 3) := by
  obtain ⟨g1, m1, h1, h2, h3, h4, h5, _⟩ := separateudata_spec exSep false 3 [2, 3, 4] []
    ⟨rfl, by decide, rfl, by decide, rfl, by decide, rfl⟩ rfl (by decide) (by decide)
    (by decide) (by simp) (by decide)
  have e : [2, 3, 4].filter (fun x => decide (movable exSep false x)) = [2] := by decide
  have e' : [2, 3, 4].filter (fun x => decide (¬ movable exSep false x)) = [3, 4] := by decide
  rw [e] at h2 h4
  rw [e'] at h3
  exact ⟨g1, m1, h1, h2, h3, by rw [h4]; simp, (h5 3 (by simp) (by decide)).2⟩

theorem moveAnchors_anchors (G : GState) (o : Nat) :
    (moveAnchors G o).udatasur = (if o = G.udatasur then (G.heap o).nextgc else G.udatasur) ∧
    (moveAnchors G o).udataold = (if o = G.udataold then (G.heap o).nextgc else G.udataold) := by
  unfold moveAnchors
  by_cases h1 : o = G.udatasur <;> by_cases h2 : o = G.udataold
  · simp only [if_pos h1, if_pos h2, and_self]
  · simp only [if_pos h1, if_neg h2, and_self]
  · simp only [if_neg h1, if_pos h2, and_self]
  · simp only [if_neg h1, if_neg h2, and_self]

theorem separateMove_anchors (g : GState) (q x : Nat) (hxq : x ≠ q) :
    (separateMove g (Loc.nextgc q) x).udatasur
      = (if x = g.udatasur then (g.heap x).nextgc else g.udatasur) ∧
    (separateMove g (Loc.nextgc q) x).udataold
      = (if x = g.udataold then (g.heap x).nextgc else g.udataold) := by
  rw [separateMove_eq]
  have hn : ((Loc.set (g.modObj x markfinalized) (Loc.nextgc q)
      ((g.modObj x markfinalized).heap x).nextgc).heap x).nextgc = (g.heap x).nextgc := by
    unfold Loc.set
    simp only [modObj_heap, hxq, if_false, if_true]
    rfl
  generalize hG : Loc.set (g.modObj x markfinalized) (Loc.nextgc q)
    ((g.modObj x markfinalized).heap x).nextgc = G at hn
  have hs : G.udatasur = g.udatasur := by rw [← hG]; rfl
  have ho : G.udataold = g.udataold := by rw [← hG]; rfl
  have hl : ∀ s : GState, (moveLink s x).udatasur = s.udatasur ∧
      (moveLink s x).udataold = s.udataold := by
    intro s
    unfold moveLink
    split <;> exact ⟨rfl, rfl⟩
  rw [(hl _).1, (hl _).2, (moveAnchors_anchors G x).1, (moveAnchors_anchors G x).2, hs, ho, hn]
  exact ⟨rfl, rfl⟩

theorem sepAnchor_off (g : GState) (all : Bool) : ∀ (xs : List Nat) (a : Nat),
    a ∉ xs → sepAnchor g all xs a = a
  | [], _, _ => rfl
  | x :: xs, a, h => by
    unfold sepAnchor
    rw [if_neg (fun e => h (by rw [← e]; exact List.mem_cons_self _ _))]
    exact sepAnchor_off g all xs a (fun h1 => h (List.mem_cons_of_mem _ h1))

theorem sepAnchor_congr {g g1 : GState} (all : Bool) : ∀ (xs : List Nat) (a : Nat),
    (∀ y ∈ xs, (movable g1 all y ↔ movable g all y)) →
    sepAnchor g1 all xs a = sepAnchor g all xs a
  | [], _, _ => rfl
  | x :: xs, a, h => by
    unfold sepAnchor
    have e : (x :: xs).filter (fun y => decide (¬ movable g1 all y))
        = (x :: xs).filter (fun y => decide (¬ movable g all y)) :=
      List.filter_congr (fun y hy => by
        simp only [decide_eq_decide]; exact not_congr (h y hy))
    rw [e, sepAnchor_congr all xs a (fun y hy => h y (List.mem_cons_of_mem _ hy))]

/-- The anchors `udatasur` and `udataold` after the loop of
`lj_gc_separateudata` over the list `xs` at the cell `nextgc` of `q`. -/
theorem separateLoop_anchors (all : Bool) : ∀ (xs : List Nat) (n : Nat) (g : GState) (q m : Nat)
    (r : GState × Nat), Chain g (g.heap q).nextgc xs → xs.Nodup → q ≠ 0 → q ∉ xs →
    g.mmudata ∉ xs → q ≠ g.mmudata →
    separateLoop all n g (Loc.nextgc q) m = some r →
    r.1.udatasur = sepAnchor g all xs g.udatasur ∧
    r.1.udataold = sepAnchor g all xs g.udataold
  | [], n, g, q, m, r, hc, _, _, _, _, _, h => by
    rw [separateLoop_nil all n g _ m (show Loc.get g (Loc.nextgc q) = 0 from hc)] at h
    cases h
    exact ⟨rfl, rfl⟩
  | x :: rest, 0, g, q, m, r, hc, _, _, _, _, _, h => by
    exfalso
    unfold separateLoop at h
    have e : Loc.get g (Loc.nextgc q) = x := hc.1
    rw [e, if_neg hc.2.1] at h
    cases h
  | x :: rest, n + 1, g, q, m, r, hc, hnd, hq0, hq, hmx, hqm, h => by
    obtain ⟨hqx', hx0, hrest⟩ := hc
    have hget : Loc.get g (Loc.nextgc q) = x := hqx'
    have hxr : x ∉ rest := (List.nodup_cons.mp hnd).1
    have hndr : rest.Nodup := (List.nodup_cons.mp hnd).2
    have hqx : q ≠ x := fun e => hq (e ▸ List.mem_cons_self _ _)
    have hqr : q ∉ rest := fun h => hq (List.mem_cons_of_mem _ h)
    have hxm : x ≠ g.mmudata := fun e => hmx (e ▸ List.mem_cons_self _ _)
    have hmr : g.mmudata ∉ rest := fun h => hmx (List.mem_cons_of_mem _ h)
    -- an anchor and the first object of the list, when that object stays
    have hstay : ∀ (g1 : GState) (a : Nat), ¬ movable g all x →
        (∀ y ∈ rest, (movable g1 all y ↔ movable g all y)) →
        sepAnchor g1 all rest a = sepAnchor g all (x :: rest) a := by
      intro g1 a hmv hcg
      rw [sepAnchor_congr all rest a hcg]
      conv => rhs; unfold sepAnchor
      by_cases e : x = a
      · rw [if_pos e, List.filter_cons_of_pos (by simpa using hmv)]
        subst e
        exact sepAnchor_off g all rest x hxr
      · rw [if_neg e]
    by_cases hcand : sepCand g all x
    · by_cases hg : metaGc g (g.heap x).metatable = none
      · rw [separateLoop_nogc all n g _ m x hget hx0 hcand hg] at h
        have hmov : ¬ movable g all x := fun h => h.2.2 hg
        have hh : ∀ a, a ≠ x → (g.modObj x markfinalized).heap a = g.heap a :=
          fun a ha => modObj_heap_ne _ _ _ _ ha
        have hhr : ∀ y ∈ rest, (g.modObj x markfinalized).heap y = g.heap y :=
          fun y hy => hh y (fun e => hxr (e ▸ hy))
        obtain ⟨a1, a2⟩ := separateLoop_anchors all rest n (g.modObj x markfinalized) x m r
          (by
            rw [modObj_heap_same]
            exact Chain.congr (fun y hy => by rw [hhr y hy]) hrest)
          hndr hx0 hxr hmr hxm h
        have hcg : ∀ y ∈ rest, (movable (g.modObj x markfinalized) all y ↔ movable g all y) :=
          fun y hy => movable_congr all (by rw [hhr y hy]) (markfinalized_shape g x)
        exact ⟨a1.trans (hstay _ _ hmov hcg), a2.trans (hstay _ _ hmov hcg)⟩
      · rw [separateLoop_move all n g _ m x hget hx0 hcand hg] at h
        have hmov : movable g all x := ⟨hcand.1, hcand.2, hg⟩
        obtain ⟨f1, f2, f3, f4⟩ := separateMove_facts g q x (fun e => hqx e.symm) hxm hqm
        obtain ⟨s1, s2⟩ := separateMove_anchors g q x (fun e => hqx e.symm)
        generalize separateMove g (Loc.nextgc q) x = G7 at f1 f2 f3 f4 s1 s2 h
        have hhr : ∀ y ∈ rest, G7.heap y = g.heap y := fun y hy => by
          rw [f1]
          exact moveHeap_other g q x y (fun e => hxr (e ▸ hy)) (fun e => hqr (e ▸ hy))
            (fun _ e => hmr (e ▸ hy))
        have hqn : (G7.heap q).nextgc = (g.heap x).nextgc := by
          rw [f1]; unfold moveHeap
          rw [if_neg hqx, if_neg (fun h => hqm h.1), if_pos rfl]
        have hs7 : ∀ a, shapeN (G7.heap a) = shapeN (g.heap a) :=
          fun a => by rw [f1]; exact moveHeap_shape g q x a
        obtain ⟨a1, a2⟩ := separateLoop_anchors all rest n G7 q _ r
          (by rw [hqn]; exact Chain.congr (fun y hy => by rw [hhr y hy]) hrest)
          hndr hq0 hqr (by rw [f2]; exact hxr) (by rw [f2]; exact hqx) h
        have hcg : ∀ y ∈ rest, (movable G7 all y ↔ movable g all y) :=
          fun y hy => movable_congr all (by rw [hhr y hy]) hs7
        have hnext : (g.heap x).nextgc = rest.headD 0 := by
          cases rest with
          | nil => exact hrest
          | cons y ys => exact hrest.1
        have hmove : ∀ a a7 : Nat, a7 = (if x = a then (g.heap x).nextgc else a) →
            sepAnchor G7 all rest a7 = sepAnchor g all (x :: rest) a := by
          intro a a7 e7
          rw [sepAnchor_congr all rest a7 hcg]
          conv => rhs; unfold sepAnchor
          by_cases e : x = a
          · rw [if_pos e, List.filter_cons_of_neg (by simpa using hmov)]
            rw [if_pos e, hnext] at e7
            rw [e7]
            cases rest with
            | nil => rfl
            | cons y ys =>
              show sepAnchor g all (y :: ys) y = _
              unfold sepAnchor
              rw [if_pos rfl]
          · rw [if_neg e]
            rw [if_neg e] at e7
            rw [e7]
        exact ⟨a1.trans (hmove _ _ s1), a2.trans (hmove _ _ s2)⟩
    · rw [separateLoop_skip all n g _ m x hget hx0 hcand] at h
      have hmov : ¬ movable g all x := fun h => hcand (movable_cand h)
      obtain ⟨a1, a2⟩ := separateLoop_anchors all rest n g x m r hrest hndr hx0 hxr hmr hxm h
      exact ⟨a1.trans (hstay g _ hmov (fun _ _ => Iff.rfl)),
        a2.trans (hstay g _ hmov (fun _ _ => Iff.rfl))⟩

theorem sepAnchor_at (g : GState) (all : Bool) : ∀ (pre suf : List Nat) (a : Nat),
    a ∉ pre → sepAnchor g all (pre ++ a :: suf) a
      = ((a :: suf).filter (fun y => decide (¬ movable g all y))).headD 0
  | [], suf, a, _ => by
    show sepAnchor g all (a :: suf) a = _
    unfold sepAnchor
    rw [if_pos rfl]
  | p :: ps, suf, a, h => by
    show sepAnchor g all (p :: (ps ++ a :: suf)) a = _
    unfold sepAnchor
    rw [if_neg (fun e => h (by rw [← e]; exact List.mem_cons_self _ _))]
    exact sepAnchor_at g all ps suf a (fun h1 => h (List.mem_cons_of_mem _ h1))

theorem sepAnchor_cases (g : GState) (all : Bool) (xs : List Nat) (a : Nat) :
    (a ∉ xs ∧ sepAnchor g all xs a = a) ∨
    (∃ pre suf, xs = pre ++ a :: suf ∧ a ∉ pre ∧
      sepAnchor g all xs a = ((a :: suf).filter (fun y => decide (¬ movable g all y))).headD 0) := by
  by_cases h : a ∈ xs
  · right
    obtain ⟨pre, suf, e, hp⟩ := List.eq_append_cons_of_mem h
    exact ⟨pre, suf, e, hp, by rw [e]; exact sepAnchor_at g all pre suf a hp⟩
  · exact Or.inl ⟨h, sepAnchor_off g all xs a h⟩

/-- C34: on a well-formed userdata list `xs` after the main thread, with
`ms` on the circular `mmudata` list, `lj_gc_separateudata` returns with the
anchors `udatasur` and `udataold` as follows.  An anchor that referred to an
object of `xs` refers to the first object of `xs`, from that object on, that
is not moved, and is null when every object from there on is moved; so an
anchor that referred to a moved object refers to the first object after it
that is not moved, however many consecutive objects are moved.  An anchor
that did not refer to a moved object is unchanged.  Neither anchor refers to
an object moved by this call. -/
theorem separateudata_anchors (g : GState) (all : Bool) (fuel : Nat) (xs ms : List Nat)
    (hc : Chain g (g.heap g.mainthread).nextgc xs) (hcirc : Circ g g.mmudata ms)
    (hnd : (xs ++ ms).Nodup) (hm0 : g.mainthread ≠ 0) (hmx : g.mainthread ∉ xs)
    (hmm : g.mainthread ∉ ms) (hl : xs.length ≤ fuel) :
    ∃ g1 m1, lj_gc_separateudata fuel g all = some (g1, m1) ∧
      g1.udatasur = sepAnchor g all xs g.udatasur ∧
      g1.udataold = sepAnchor g all xs g.udataold ∧
      (∀ a pre suf, xs = pre ++ a :: suf → sepAnchor g all xs a
        = ((a :: suf).filter (fun y => decide (¬ movable g all y))).headD 0) ∧
      (∀ a pre suf, xs = pre ++ a :: suf → movable g all a → sepAnchor g all xs a
        = (suf.filter (fun y => decide (¬ movable g all y))).headD 0) ∧
      (∀ a, ¬ (a ∈ xs ∧ movable g all a) → sepAnchor g all xs a = a) ∧
      ¬ (g1.udatasur ∈ xs ∧ movable g all g1.udatasur) ∧
      ¬ (g1.udataold ∈ xs ∧ movable g all g1.udataold) := by
  obtain ⟨g1, m1, hrun, _⟩ :=
    separateLoop_spec all xs fuel g g.mainthread 0 ms hc hcirc hnd hm0 hmx hmm hl
  have hndx : xs.Nodup := (List.nodup_append.mp hnd).1
  have hmmx : g.mmudata ∉ xs := by
    intro h
    by_cases hne : ms = []
    · have h0 : g.mmudata = 0 := hcirc.nil_iff.mpr hne
      rw [h0] at h
      exact Chain.zero_not_mem hc h
    · exact (List.nodup_append.mp hnd).2.2 h (hcirc.tail_mem hne).1
  have hqm : g.mainthread ≠ g.mmudata := by
    intro e
    by_cases hne : ms = []
    · exact hm0 (e.trans (hcirc.nil_iff.mpr hne))
    · exact hmm (e ▸ (hcirc.tail_mem hne).1)
  obtain ⟨a1, a2⟩ := separateLoop_anchors all xs fuel g g.mainthread 0 (g1, m1) hc hndx hm0 hmx
    hmmx hqm hrun
  have hat : ∀ a pre suf, xs = pre ++ a :: suf → sepAnchor g all xs a
      = ((a :: suf).filter (fun y => decide (¬ movable g all y))).headD 0 := by
    intro a pre suf e
    have hp : a ∉ pre := by
      intro h
      rw [e] at hndx
      exact (List.nodup_append.mp hndx).2.2 h (List.mem_cons_self _ _)
    rw [e]
    exact sepAnchor_at g all pre suf a hp
  have hstay : ∀ a, ¬ (a ∈ xs ∧ movable g all a) → sepAnchor g all xs a = a := by
    intro a h
    rcases sepAnchor_cases g all xs a with ⟨_, e⟩ | ⟨pre, suf, e, _, e2⟩
    · exact e
    · have hm : ¬ movable g all a := fun hm =>
        h ⟨by rw [e]; exact List.mem_append_right _ (List.mem_cons_self _ _), hm⟩
      rw [e2, List.filter_cons_of_pos (by simpa using hm)]
      rfl
  have hfree : ∀ a, ¬ (sepAnchor g all xs a ∈ xs ∧ movable g all (sepAnchor g all xs a)) := by
    intro a
    rcases sepAnchor_cases g all xs a with ⟨h, e⟩ | ⟨pre, suf, e, _, e2⟩
    · rw [e]; exact fun h1 => h h1.1
    · rw [e2]
      cases hf : (a :: suf).filter (fun y => decide (¬ movable g all y)) with
      | nil => exact fun h1 => Chain.zero_not_mem hc h1.1
      | cons y ys =>
        have hy : y ∈ (a :: suf).filter (fun y => decide (¬ movable g all y)) := by
          rw [hf]; exact List.mem_cons_self _ _
        exact fun h1 => (of_decide_eq_true (List.mem_filter.mp hy).2) h1.2
  refine ⟨g1, m1, hrun, a1, a2, hat, fun a pre suf e hm => ?_, hstay, ?_, ?_⟩
  · rw [hat a pre suf e, List.filter_cons_of_neg (by simpa using hm)]
  · have e : g1.udatasur = sepAnchor g all xs g.udatasur := a1
    rw [e]; exact hfree _
  · have e : g1.udataold = sepAnchor g all xs g.udataold := a2
    rw [e]; exact hfree _

/-- Witness for `separateudata_anchors`: in `exAnchor` the userdata 2 and 3
are moved; `udatasur`, which referred to 2, refers to 4 afterwards, and
`udataold` still refers to 4. -/
theorem separateudata_anchors_witness :
    exAnchor.udatasur = 2 ∧ exAnchor.udataold = 4 ∧
    ∃ g1 m1, lj_gc_separateudata 3 exAnchor false = some (g1, m1) ∧
      g1.udatasur = 4 ∧ g1.udataold = 4 := by
  obtain ⟨g1, m1, h1, h2, h3, _⟩ := separateudata_anchors exAnchor false 3 [2, 3, 4] []
    ⟨rfl, by decide, rfl, by decide, rfl, by decide, rfl⟩ rfl (by decide) (by decide)
    (by decide) (by simp) (by decide)
  have e2 : sepAnchor exAnchor false [2, 3, 4] exAnchor.udatasur = 4 := by decide
  have e3 : sepAnchor exAnchor false [2, 3, 4] exAnchor.udataold = 4 := by decide
  exact ⟨rfl, rfl, g1, m1, h1, h2.trans e2, h3.trans e3⟩

theorem weakBits_congr {k v k' v' : Prop} [Decidable k] [Decidable v] [Decidable k']
    [Decidable v'] (h1 : k ↔ k') (h2 : v ↔ v') : weakBits k v = weakBits k' v' := by
  unfold weakBits
  by_cases a : k <;> by_cases b : v <;>
    simp only [if_pos, if_neg, a, b, h1.mp, h2.mp, (not_congr h1).mp, (not_congr h2).mp,
      not_false_eq_true, if_true, if_false]

theorem cstr_cons (c : Char) (cs : List Char) :
    cstr (c :: cs) = if c = Char.ofNat 0 then [] else c :: cstr cs := by
  unfold cstr
  rw [List.takeWhile_cons]
  by_cases h : c = Char.ofNat 0
  · simp [h]
  · simp [h]

theorem modeWeak_bits : ∀ cs : List Char,
    modeWeak cs = weakBits ('k' ∈ cstr cs) ('v' ∈ cstr cs)
  | [] => by
    unfold modeWeak weakBits cstr
    simp
  | c :: cs => by
    have ih := modeWeak_bits cs
    unfold modeWeak
    simp only []
    rw [cstr_cons]
    by_cases h0 : c = Char.ofNat 0
    · rw [if_pos h0, if_pos h0]
      unfold weakBits
      simp
    · rw [if_neg h0, if_neg h0, ih]
      unfold weakBits
      by_cases hk : c = 'k'
      · subst hk
        rw [if_pos rfl]
        by_cases a : 'k' ∈ cstr cs <;> by_cases b : 'v' ∈ cstr cs <;>
          simp [a, b] <;> decide
      · rw [if_neg hk]
        by_cases hv : c = 'v'
        · subst hv
          rw [if_pos rfl]
          by_cases a : 'k' ∈ cstr cs <;> by_cases b : 'v' ∈ cstr cs <;>
            first | (simp [a, b]; done) | (simp [a, b]; decide)
        · rw [if_neg hv]
          have e1 : ('k' ∈ c :: cstr cs) ↔ 'k' ∈ cstr cs := by
            rw [List.mem_cons]
            exact ⟨fun h => h.resolve_left (fun e => hk e.symm), Or.inr⟩
          have e2 : ('v' ∈ c :: cstr cs) ↔ 'v' ∈ cstr cs := by
            rw [List.mem_cons]
            exact ⟨fun h => h.resolve_left (fun e => hv e.symm), Or.inr⟩
          exact (weakBits_congr e1 e2).symm

theorem tabWeak_bits (g : GState) (t : Nat) :
    tabWeak g (g.heap t).metatable = weakBits (modeHas g t 'k') (modeHas g t 'v') := by
  unfold tabWeak
  cases h : metaMode g (g.heap t).metatable with
  | none =>
    have a : ¬ modeHas g t 'k' := by unfold modeHas; rw [h]; exact not_false
    have b : ¬ modeHas g t 'v' := by unfold modeHas; rw [h]; exact not_false
    unfold weakBits
    rw [if_neg a, if_neg b]
    rfl
  | some cs =>
    show modeWeak cs = _
    rw [modeWeak_bits]
    apply weakBits_congr
    · unfold modeHas; rw [h]
    · unfold modeHas; rw [h]

theorem weakBits_cases (k v : Prop) [Decidable k] [Decidable v] :
    (¬ k ∧ ¬ v ∧ weakBits k v = 0) ∨ (k ∧ ¬ v ∧ weakBits k v = 8) ∨
    (¬ k ∧ v ∧ weakBits k v = 16) ∨ (k ∧ v ∧ weakBits k v = 24) := by
  unfold weakBits
  by_cases a : k <;> by_cases b : v
  · exact Or.inr (Or.inr (Or.inr ⟨a, b, by rw [if_pos a, if_pos b]; rfl⟩))
  · exact Or.inr (Or.inl ⟨a, b, by rw [if_pos a, if_neg b]; rfl⟩)
  · exact Or.inr (Or.inr (Or.inl ⟨a, b, by rw [if_neg a, if_pos b]; rfl⟩))
  · exact Or.inl ⟨a, b, by rw [if_neg a, if_neg b]; rfl⟩

theorem markNode_eq (fuel t w : Nat) :
    traverseNode fuel t w =
      markNode fuel t (decide (w &&& LJ_GC_WEAKKEY = 0)) (decide (w &&& LJ_GC_WEAKVAL = 0)) := by
  funext i g
  unfold traverseNode markNode
  simp only [decide_eq_true_eq]

theorem tabMarkParts_slots (fuel : Nat) (g : GState) (t w : Nat) :
    tabMarkParts fuel g t w =
      (markSlots fuel t (decide (w &&& LJ_GC_WEAKKEY = 0)) (decide (w &&& LJ_GC_WEAKVAL = 0))
        g).map fun g2 => if w = 0 then (genTail g2 t, w) else (g2, w) := by
  unfold tabMarkParts markSlots genTail
  rw [markNode_eq]
  simp only [decide_eq_true_eq]
  cases (if w &&& LJ_GC_WEAKVAL = 0 then
      loopM (fun i g => gc_marktv fuel g ((g.heap t).array.getD i TValue.nil))
        (g.heap t).array.length 0 g else some g) with
  | none => rfl
  | some g1 =>
    simp only [Option.some_bind]
    cases (if (g1.heap t).hmask > 0 then
        loopM (markNode fuel t (decide (w &&& LJ_GC_WEAKKEY = 0))
          (decide (w &&& LJ_GC_WEAKVAL = 0))) ((g1.heap t).hmask + 1) 0 g1 else some g1) with
    | none => rfl
    | some g2 =>
      simp only [Option.some_bind, Option.map_some']
      by_cases h0 : w = 0
      · by_cases hk : g2.kind = GCKind.gen
        · rw [if_pos ⟨h0, hk⟩, if_pos h0, if_pos hk]
        · rw [if_neg (fun h => hk h.2), if_pos h0, if_neg hk]
      · rw [if_neg (fun h => h0 h.1), if_neg h0]

theorem pushWeak_eq (g : GState) (t w0 : Nat) (hw : w0 ≠ 0) (hf : g.ctsFinalizer ≠ some t) :
    tabSetWeak g t w0 = (pushWeak g t w0, w0) := by
  unfold tabSetWeak pushWeak
  rw [if_pos hw, if_neg hf]

theorem tabSetWeak_zero (g : GState) (t : Nat) : tabSetWeak g t 0 = (g, 0) := by
  unfold tabSetWeak
  rw [if_neg (by decide)]

theorem tabSetWeak_fin (g : GState) (t w0 : Nat) (hw : w0 ≠ 0) (hf : g.ctsFinalizer = some t) :
    tabSetWeak g t w0 = (g, weakFin) := by
  unfold tabSetWeak
  rw [if_pos hw, if_pos hf]

theorem tabMarkParts_strong (fuel : Nat) (g : GState) (t : Nat) :
    tabMarkParts fuel g t 0 =
      (markSlots fuel t true true g).map fun g2 => (genTail g2 t, 0) := by
  rw [tabMarkParts_slots]
  rfl

theorem tabMarkParts_weak (fuel : Nat) (g : GState) (t w : Nat) (kb vb : Bool) (hw : w ≠ 0)
    (hk : decide (w &&& LJ_GC_WEAKKEY = 0) = kb) (hv : decide (w &&& LJ_GC_WEAKVAL = 0) = vb) :
    tabMarkParts fuel g t w = (markSlots fuel t kb vb g).map fun g2 => (g2, w) := by
  rw [tabMarkParts_slots]
  subst hk hv
  simp only [if_neg hw]

/-- The function `gc_traverse_tab` is the traversal told by modes. -/
theorem traverse_tab_modes_eq (fuel : Nat) (g : GState) (t : Nat) :
    gc_traverse_tab fuel g t = traverseTabModes fuel g t := by
  rw [gc_traverse_tab_eq]
  unfold traverseTabModes
  cases hM : (if (g.heap t).metatable ≠ 0 then gc_markobj fuel g (g.heap t).metatable
      else some g) with
  | none => rfl
  | some g1 =>
    simp only [Option.some_bind]
    have q : Quiet g g1 := Quiet.qguard _ (fun _ h => gc_markobj_quiet _ _ _ _ h) hM
    rw [q.tabWeak_eq, tabWeak_bits]
    have hfin : g1.ctsFinalizer = g.ctsFinalizer := q.finalizer_eq
    by_cases hf : g.ctsFinalizer = some t
    · rcases weakBits_cases (modeHas g t 'k') (modeHas g t 'v') with
        ⟨a, b, e⟩ | ⟨a, b, e⟩ | ⟨a, b, e⟩ | ⟨a, b, e⟩
      · rw [e, tabSetWeak_zero]
        dsimp only
        rw [if_neg (show ¬ (0 = LJ_GC_WEAK) by decide),
          if_pos (show ¬ (modeHas g t 'k' ∨ modeHas g t 'v') from fun h => h.elim a b),
          tabMarkParts_strong]
      all_goals
        rw [e, tabSetWeak_fin g1 t _ (by decide) (hfin.trans hf)]
        dsimp only
        rw [if_neg (show ¬ (weakFin = LJ_GC_WEAK) by decide),
          if_neg (show ¬ ¬ (modeHas g t 'k' ∨ modeHas g t 'v') from
            not_not.mpr (by first | exact Or.inl a | exact Or.inr b)),
          if_pos hf, tabMarkParts_weak fuel g1 t weakFin false true (by decide) (by decide)
            (by decide)]
    · have hf1 : g1.ctsFinalizer ≠ some t := fun h => hf (hfin.symm.trans h)
      rcases weakBits_cases (modeHas g t 'k') (modeHas g t 'v') with
        ⟨a, b, e⟩ | ⟨a, b, e⟩ | ⟨a, b, e⟩ | ⟨a, b, e⟩
      · rw [e, tabSetWeak_zero]
        dsimp only
        rw [if_neg (show ¬ (0 = LJ_GC_WEAK) by decide),
          if_pos (show ¬ (modeHas g t 'k' ∨ modeHas g t 'v') from fun h => h.elim a b),
          tabMarkParts_strong]
      · rw [e, pushWeak_eq g1 t _ (by decide) hf1]
        dsimp only
        rw [if_neg (show ¬ (8 = LJ_GC_WEAK) by decide),
          if_neg (show ¬ ¬ (modeHas g t 'k' ∨ modeHas g t 'v') from not_not.mpr (Or.inl a)),
          if_neg hf, if_neg (show ¬ (modeHas g t 'k' ∧ modeHas g t 'v') from fun h => b h.2),
          tabMarkParts_weak fuel _ t 8 (decide (¬ modeHas g t 'k'))
            (decide (¬ modeHas g t 'v')) (by decide)
            ((decide_eq_false (not_not.mpr a)).symm ▸ rfl) ((decide_eq_true b).symm ▸ rfl)]
      · rw [e, pushWeak_eq g1 t _ (by decide) hf1]
        dsimp only
        rw [if_neg (show ¬ (16 = LJ_GC_WEAK) by decide),
          if_neg (show ¬ ¬ (modeHas g t 'k' ∨ modeHas g t 'v') from not_not.mpr (Or.inr b)),
          if_neg hf, if_neg (show ¬ (modeHas g t 'k' ∧ modeHas g t 'v') from fun h => a h.1),
          tabMarkParts_weak fuel _ t 16 (decide (¬ modeHas g t 'k'))
            (decide (¬ modeHas g t 'v')) (by decide)
            ((decide_eq_true a).symm ▸ rfl) ((decide_eq_false (not_not.mpr b)).symm ▸ rfl)]
      · rw [e, pushWeak_eq g1 t _ (by decide) hf1]
        dsimp only
        rw [if_pos (show 24 = LJ_GC_WEAK by decide),
          if_neg (show ¬ ¬ (modeHas g t 'k' ∨ modeHas g t 'v') from not_not.mpr (Or.inl a)),
          if_neg hf, if_pos (show modeHas g t 'k' ∧ modeHas g t 'v' from ⟨a, b⟩)]
        rfl

set_option maxRecDepth 100000 in

theorem weak_set_byte : ∀ r, r < 256 →
    ((r &&& 231) ||| 8) &&& 24 = 8 ∧ ((r &&& 231) ||| 16) &&& 24 = 16 ∧
    ((r &&& 231) ||| 24) &&& 24 = 24 := by
  decide

theorem weak_set (m w : Nat) (hw : w = 8 ∨ w = 16 ∨ w = 24) :
    (((m &&& not8 LJ_GC_WEAK) ||| w) % 256) &&& LJ_GC_WEAK = w := by
  have e : not8 LJ_GC_WEAK = 231 := by decide
  have e2 : LJ_GC_WEAK = 24 := by decide
  have h := weak_set_byte (m % 256) (mod256_lt m)
  rw [e, e2, mod256_or, mod256_and]
  rcases hw with e1 | e1 | e1 <;> subst e1
  · exact h.1
  · exact h.2.1
  · exact h.2.2

theorem b2g_weak (m : Nat) : (m &&& not8 LJ_GC_BLACK) &&& LJ_GC_WEAK = m &&& LJ_GC_WEAK := by
  rw [Nat.and_assoc]
  have e : not8 LJ_GC_BLACK &&& LJ_GC_WEAK = LJ_GC_WEAK := by decide
  rw [e]

theorem nodeRefsW_val (w : Nat) (n : Node) (hn : ¬ tvisnil n.val = true)
    (hv : w &&& LJ_GC_WEAKVAL = 0) (x : Nat) (hx : x ∈ tvRef n.val) : x ∈ nodeRefsW w n := by
  unfold nodeRefsW
  rw [if_neg hn, if_pos hv]
  exact List.mem_append_right _ hx

theorem nodeRefsW_key (w : Nat) (n : Node) (hn : ¬ tvisnil n.val = true)
    (hk : w &&& LJ_GC_WEAKKEY = 0) (x : Nat) (hx : x ∈ tvRef n.key) : x ∈ nodeRefsW w n := by
  unfold nodeRefsW
  rw [if_neg hn, if_pos hk]
  exact List.mem_append_left _ hx

/-- The marking loops of `gc_traverse_tab` under the context of a traversal:
they return, keep the list `weak` and the weak bits of the table, keep its
color byte and link when `weak` is not zero, and leave the referents of the
parts that are not weak non-white. -/
theorem tabMarkParts_full {t : Nat} {S : Finset Nat} {fuel : Nat} {g : GState}
    (c : Ctx t S fuel g) (hb : (g.heap t).marked < 256) (w : Nat) :
    ∃ g', tabMarkParts fuel g t w = some (g', w) ∧ PropRel t S g g' ∧ g'.weak = g.weak ∧
      (g'.heap t).marked &&& LJ_GC_WEAK = (g.heap t).marked &&& LJ_GC_WEAK ∧
      (w ≠ 0 → (g'.heap t).marked = (g.heap t).marked ∧
        (g'.heap t).gclist = (g.heap t).gclist) ∧
      (w &&& LJ_GC_WEAKVAL = 0 → ∀ tv ∈ (g.heap t).array, ∀ x ∈ tvRef tv,
        ¬ iswhite (g'.heap x)) ∧
      ((g.heap t).hmask > 0 → ∀ i, i < (g.heap t).hmask + 1 →
        ∀ x ∈ nodeRefsW w ((g.heap t).node.getD i {}), ¬ iswhite (g'.heap x)) := by
  obtain ⟨g', h, r, _, pA, pN⟩ := tabMarkParts_spec c w
  obtain ⟨g3, s, e⟩ := tabMarkParts_out t fuel g t w (g', w) h
  obtain ⟨m3, l3⟩ := s.obj c.cur hb
  have sh := shapeS_fields (r.base.shape t)
  have hw : g'.weak = g.weak := by
    split_ifs at e
    · rw [(Prod.mk.inj e).1]; exact s.weak
    · rw [(Prod.mk.inj e).1]; exact s.weak
  have hm : (g'.heap t).marked &&& LJ_GC_WEAK = (g.heap t).marked &&& LJ_GC_WEAK := by
    split_ifs at e
    · rw [(Prod.mk.inj e).1, modObj_heap_same]
      show ((({ g3.modObj t (fun x => { x with gclist := g3.grayagain }) with
        grayagain := t } : GState).heap t).marked &&& not8 LJ_GC_BLACK) &&& LJ_GC_WEAK = _
      rw [b2g_weak]
      show ((g3.modObj t (fun x => { x with gclist := g3.grayagain })).heap t).marked
        &&& LJ_GC_WEAK = _
      rw [modObj_heap_same]
      show (g3.heap t).marked &&& LJ_GC_WEAK = _
      rw [m3]
    · rw [(Prod.mk.inj e).1, m3]
  refine ⟨g', h, r, hw, hm, fun h0 => ?_, fun hv => ?_, fun hh i hi => ?_⟩
  · rw [if_neg (fun a => h0 a.1)] at e
    rw [(Prod.mk.inj e).1]
    exact ⟨m3, l3⟩
  · have := pA hv
    rw [sh.array] at this
    exact this
  · have := pN (by rw [sh.hmask]; exact hh) i (by rw [sh.hmask]; exact hi)
    rw [sh.node] at this
    exact this

theorem pushWeak_facts {t : Nat} {S : Finset Nat} {fuel : Nat} {g : GState}
    (c : Ctx t S fuel g) (w : Nat) (hw : w = 8 ∨ w = 16 ∨ w = 24)
    (hf : g.ctsFinalizer ≠ some t) :
    PropRel t S g (pushWeak g t w) ∧
    ((pushWeak g t w).heap t).marked = (((g.heap t).marked &&& not8 LJ_GC_WEAK) ||| w) % 256 ∧
    ((pushWeak g t w).heap t).marked &&& LJ_GC_WEAK = w ∧
    ((pushWeak g t w).heap t).gclist = g.weak ∧ (pushWeak g t w).weak = t := by
  have h0 : w ≠ 0 := by rcases hw with e | e | e <;> rw [e] <;> decide
  have r := (tabSetWeak_spec c w (Or.inr hw)).1
  have f := tabSetWeak_weak g t w h0 hf
  rw [pushWeak_eq g t w h0 hf] at r f
  refine ⟨r, f.1, ?_, f.2.1, f.2.2.1⟩
  rw [f.1]
  exact weak_set _ w hw

theorem pushed_marks {t : Nat} {S : Finset Nat} {fuel : Nat} {g : GState}
    (c : Ctx t S fuel g) (w : Nat) (hw : w = 8 ∨ w = 16 ∨ w = 24)
    (hf : g.ctsFinalizer ≠ some t) :
    ∃ g', tabMarkParts fuel (pushWeak g t w) t w = some (g', w) ∧ PropRel t S g g' ∧
      (g'.heap t).marked = (((g.heap t).marked &&& not8 LJ_GC_WEAK) ||| w) % 256 ∧
      (g'.heap t).marked &&& LJ_GC_WEAK = w ∧
      (g'.heap t).gclist = g.weak ∧ g'.weak = t ∧
      (w &&& LJ_GC_WEAKVAL = 0 → ∀ tv ∈ (g.heap t).array, ∀ x ∈ tvRef tv,
        ¬ iswhite (g'.heap x)) ∧
      ((g.heap t).hmask > 0 → ∀ i, i < (g.heap t).hmask + 1 →
        ∀ x ∈ nodeRefsW w ((g.heap t).node.getD i {}), ¬ iswhite (g'.heap x)) := by
  have h0 : w ≠ 0 := by rcases hw with e | e | e <;> rw [e] <;> decide
  obtain ⟨r, f1, f2, f3, f4⟩ := pushWeak_facts c w hw hf
  have c2 := c.step r.base
  have hb2 : ((pushWeak g t w).heap t).marked < 256 := by rw [f1]; exact mod256_lt _
  obtain ⟨g', h, r2, hwk, hm, hk, pA, pN⟩ := tabMarkParts_full c2 hb2 w
  have sh := shapeS_fields (r.base.shape t)
  rw [sh.array] at pA
  rw [sh.hmask, sh.node] at pN
  obtain ⟨k1, k2⟩ := hk h0
  exact ⟨g', h, r.trans r2, k1.trans f1, hm.trans f2, k2.trans f3, hwk.trans f4, pA, pN⟩

/-- What the traversal of a table leaves behind, by mode: the state `g1`
after the metatable has been marked, the result `(g', w)` and the marks. -/
theorem traverse_tab_marks {t : Nat} {S : Finset Nat} {fuel : Nat} {g : GState}
    (c : Ctx t S fuel g) (hb : (g.heap t).marked < 256) :
    ∃ g1 g' w,
      (if (g.heap t).metatable ≠ 0 then gc_markobj fuel g (g.heap t).metatable
        else some g) = some g1 ∧
      gc_traverse_tab fuel g t = some (g', w) ∧
      ((g.heap t).metatable ≠ 0 → ¬ iswhite (g'.heap (g.heap t).metatable)) ∧
      (modeHas g t 'k' ∨ modeHas g t 'v' → g.ctsFinalizer ≠ some t →
        (g'.heap t).marked = (((g.heap t).marked &&& not8 LJ_GC_WEAK) |||
          weakBits (modeHas g t 'k') (modeHas g t 'v')) % 256 ∧
        (g'.heap t).marked &&& LJ_GC_WEAK = weakBits (modeHas g t 'k') (modeHas g t 'v') ∧
        g'.weak = t ∧ (g'.heap t).gclist = g.weak) ∧
      (¬ (modeHas g t 'k' ∨ modeHas g t 'v') ∨ g.ctsFinalizer = some t →
        g'.weak = g.weak ∧
        (g'.heap t).marked &&& LJ_GC_WEAK = (g.heap t).marked &&& LJ_GC_WEAK) ∧
      (¬ modeHas g t 'v' ∨ g.ctsFinalizer = some t →
        ∀ tv ∈ (g.heap t).array, ∀ x ∈ tvRef tv, ¬ iswhite (g'.heap x)) ∧
      ((g.heap t).hmask > 0 → ∀ i, i < (g.heap t).hmask + 1 →
        ¬ tvisnil ((g.heap t).node.getD i {}).val = true →
        (¬ modeHas g t 'v' ∨ g.ctsFinalizer = some t →
          ∀ x ∈ tvRef ((g.heap t).node.getD i {}).val, ¬ iswhite (g'.heap x)) ∧
        (¬ modeHas g t 'k' → ¬ (g.ctsFinalizer = some t ∧ modeHas g t 'v') →
          ∀ x ∈ tvRef ((g.heap t).node.getD i {}).key, ¬ iswhite (g'.heap x))) ∧
      (modeHas g t 'k' → modeHas g t 'v' → g.ctsFinalizer ≠ some t →
        g' = pushWeak g1 t LJ_GC_WEAK ∧ w = 1) := by
  have hM : ∃ g1, (if (g.heap t).metatable ≠ 0 then gc_markobj fuel g (g.heap t).metatable
      else some g) = some g1 ∧ PropRel t S g g1 ∧
      ((g.heap t).metatable ≠ 0 → ¬ iswhite (g1.heap (g.heap t).metatable)) := by
    by_cases hm : (g.heap t).metatable ≠ 0
    · rw [if_pos hm]
      obtain ⟨g1, h1, r1, p1⟩ := markobj_step c (g.heap t).metatable
      exact ⟨g1, h1, r1, fun _ => p1⟩
    · rw [if_neg hm]
      exact ⟨g, rfl, PropRel.refl t S g, fun h => absurd h hm⟩
  obtain ⟨g1, h1, r1, p1⟩ := hM
  have c1 := c.step r1.base
  have s1 : Stay t g g1 := Stay.sguard _ (fun _ h => gc_markobj_stay t _ _ _ _ h) h1
  obtain ⟨m1, _⟩ := s1.obj c.cur hb
  have hb1 : (g1.heap t).marked < 256 := by rw [m1]; exact hb
  have q : Quiet g g1 := Quiet.qguard _ (fun _ h => gc_markobj_quiet _ _ _ _ h) h1
  have hfin : g1.ctsFinalizer = g.ctsFinalizer := q.finalizer_eq
  have sh1 := shapeS_fields (r1.base.shape t)
  have key : gc_traverse_tab fuel g t =
      if (tabSetWeak g1 t (weakBits (modeHas g t 'k') (modeHas g t 'v'))).2 = LJ_GC_WEAK then
        some ((tabSetWeak g1 t (weakBits (modeHas g t 'k') (modeHas g t 'v'))).1, 1)
      else tabMarkParts fuel
        (tabSetWeak g1 t (weakBits (modeHas g t 'k') (modeHas g t 'v'))).1 t
        (tabSetWeak g1 t (weakBits (modeHas g t 'k') (modeHas g t 'v'))).2 := by
    rw [gc_traverse_tab_eq, h1]
    simp only [Option.some_bind]
    rw [q.tabWeak_eq, tabWeak_bits]
  rw [key]
  rcases weakBits_cases (modeHas g t 'k') (modeHas g t 'v') with
    ⟨a, b, e⟩ | ⟨a, b, e⟩ | ⟨a, b, e⟩ | ⟨a, b, e⟩
  · -- no mode
    obtain ⟨g', h, r, hw, hm, _, pA, pN⟩ := tabMarkParts_full c1 hb1 0
    rw [sh1.array] at pA
    rw [sh1.hmask, sh1.node] at pN
    refine ⟨g1, g', 0, h1, ?_, fun hmt => r.base.nonwhite (p1 hmt),
      fun hkv => absurd hkv (fun x => x.elim a b),
      fun _ => ⟨hw.trans s1.weak, hm.trans (by rw [m1])⟩,
      fun _ => pA (by decide), fun hh i hi hn => ⟨fun _ x hx => ?_, fun _ _ x hx => ?_⟩,
      fun hk => absurd hk a⟩
    · rw [e, tabSetWeak_zero]
      dsimp only
      rw [if_neg (show ¬ (0 = LJ_GC_WEAK) by decide)]
      exact h
    · exact pN hh i hi x (nodeRefsW_val 0 _ hn (by decide) x hx)
    · exact pN hh i hi x (nodeRefsW_key 0 _ hn (by decide) x hx)
  all_goals
    have hkv : modeHas g t 'k' ∨ modeHas g t 'v' := by
      first | exact Or.inl a | exact Or.inr b
    by_cases hf : g.ctsFinalizer = some t
    · -- the finalizer table
      obtain ⟨g', h, r, hw, hm, _, pA, pN⟩ := tabMarkParts_full c1 hb1 weakFin
      rw [sh1.array] at pA
      rw [sh1.hmask, sh1.node] at pN
      refine ⟨g1, g', weakFin, h1, ?_, fun hmt => r.base.nonwhite (p1 hmt),
        fun _ hnf => absurd hf hnf,
        fun _ => ⟨hw.trans s1.weak, hm.trans (by rw [m1])⟩,
        fun _ => pA (by decide), fun hh i hi hn => ⟨fun _ x hx => ?_, fun hk hfv => ?_⟩,
        fun _ _ hnf => absurd hf hnf⟩
      · rw [e, tabSetWeak_fin g1 t _ (by decide) (hfin.trans hf)]
        dsimp only
        rw [if_neg (show ¬ (weakFin = LJ_GC_WEAK) by decide)]
        exact h
      · exact pN hh i hi x (nodeRefsW_val weakFin _ hn (by decide) x hx)
      · exact absurd ⟨hf, hkv.resolve_left hk⟩ hfv
    · have hf1 : g1.ctsFinalizer ≠ some t := fun h => hf (hfin.symm.trans h)
      first
      | -- both weak
        obtain ⟨r, f1, f2, f3, f4⟩ := pushWeak_facts c1 24 (by decide) hf1
        refine ⟨g1, pushWeak g1 t 24, 1, h1, ?_, fun hmt => r.base.nonwhite (p1 hmt),
          fun _ _ => ⟨by rw [e, f1, m1], by rw [e]; exact f2, f4, f3.trans s1.weak⟩,
          fun h => absurd (h.resolve_left (not_not.mpr hkv)) hf,
          fun h => absurd (h.resolve_left (not_not.mpr b)) hf,
          fun hh i hi hn => ⟨fun h => absurd (h.resolve_left (not_not.mpr b)) hf,
            fun hk => absurd a hk⟩,
          fun _ _ _ => ⟨rfl, rfl⟩⟩
        rw [e, pushWeak_eq g1 t _ (by decide) hf1]
        dsimp only
        rw [if_pos (show 24 = LJ_GC_WEAK by decide)]
      | -- weak keys
        obtain ⟨g', h, r, f1, f2, f3, f4, pA, pN⟩ := pushed_marks c1 8 (by decide) hf1
        rw [sh1.array] at pA
        rw [sh1.hmask, sh1.node] at pN
        refine ⟨g1, g', 8, h1, ?_, fun hmt => r.base.nonwhite (p1 hmt),
          fun _ _ => ⟨by rw [e, f1, m1], by rw [e]; exact f2, f4, f3.trans s1.weak⟩,
          fun h => absurd (h.resolve_left (not_not.mpr hkv)) hf,
          fun _ => pA (by decide),
          fun hh i hi hn => ⟨fun _ x hx =>
              pN hh i hi x (nodeRefsW_val 8 _ hn (by decide) x hx),
            fun hk => absurd a hk⟩,
          fun _ hv => absurd hv b⟩
        rw [e, pushWeak_eq g1 t _ (by decide) hf1]
        dsimp only
        rw [if_neg (show ¬ (8 = LJ_GC_WEAK) by decide)]
        exact h
      | -- weak values
        obtain ⟨g', h, r, f1, f2, f3, f4, _, pN⟩ := pushed_marks c1 16 (by decide) hf1
        rw [sh1.hmask, sh1.node] at pN
        refine ⟨g1, g', 16, h1, ?_, fun hmt => r.base.nonwhite (p1 hmt),
          fun _ _ => ⟨by rw [e, f1, m1], by rw [e]; exact f2, f4, f3.trans s1.weak⟩,
          fun h => absurd (h.resolve_left (not_not.mpr hkv)) hf,
          fun h => absurd (h.resolve_left (not_not.mpr b)) hf,
          fun hh i hi hn => ⟨fun h => absurd (h.resolve_left (not_not.mpr b)) hf,
            fun _ _ x hx => pN hh i hi x (nodeRefsW_key 16 _ hn (by decide) x hx)⟩,
          fun hk => absurd hk a⟩
        rw [e, pushWeak_eq g1 t _ (by decide) hf1]
        dsimp only
        rw [if_neg (show ¬ (16 = LJ_GC_WEAK) by decide)]
        exact h

/-- C32 (as amended): `gc_traverse_tab` computes the weak mode from the
characters of a string `__mode` that come before its first NUL character:
`LJ_GC_WEAKKEY` iff `k` is among them, `LJ_GC_WEAKVAL` iff `v` is, nothing
else counts; and it is the traversal `traverseTabModes`: the metatable is
marked; with a mode, a table other than the FFI finalizer table gets exactly
the bits of the mode and is pushed on `weak`; array slots and hash values are
marked iff the table is not weak-value or is the finalizer table, hash keys
iff it is not weak-key and not the finalizer table with a mode, in both cases
only for hash nodes with a non-nil value; a table with both modes that is not
the finalizer table is only set up.  For a table that is not white, with a
color byte below 256 and fuel for the white objects, the call returns, the
metatable is not white afterwards, the weak bits, the head of `weak` and the
link of the table are as said, and the referents of the marked parts are not
white afterwards. -/
theorem traverse_tab_modes (fuel : Nat) (g : GState) (t : Nat) :
    tabWeak g (g.heap t).metatable = weakBits (modeHas g t 'k') (modeHas g t 'v') ∧
    gc_traverse_tab fuel g t = traverseTabModes fuel g t ∧
    ∀ S, Ctx t S fuel g → (g.heap t).marked < 256 →
      ∃ g1 g' w,
        (if (g.heap t).metatable ≠ 0 then gc_markobj fuel g (g.heap t).metatable
          else some g) = some g1 ∧
        gc_traverse_tab fuel g t = some (g', w) ∧
        ((g.heap t).metatable ≠ 0 → ¬ iswhite (g'.heap (g.heap t).metatable)) ∧
        (modeHas g t 'k' ∨ modeHas g t 'v' → g.ctsFinalizer ≠ some t →
          (g'.heap t).marked = (((g.heap t).marked &&& not8 LJ_GC_WEAK) |||
            weakBits (modeHas g t 'k') (modeHas g t 'v')) % 256 ∧
          (g'.heap t).marked &&& LJ_GC_WEAK = weakBits (modeHas g t 'k') (modeHas g t 'v') ∧
          g'.weak = t ∧ (g'.heap t).gclist = g.weak) ∧
        (¬ (modeHas g t 'k' ∨ modeHas g t 'v') ∨ g.ctsFinalizer = some t →
          g'.weak = g.weak ∧
          (g'.heap t).marked &&& LJ_GC_WEAK = (g.heap t).marked &&& LJ_GC_WEAK) ∧
        (¬ modeHas g t 'v' ∨ g.ctsFinalizer = some t →
          ∀ tv ∈ (g.heap t).array, ∀ x ∈ tvRef tv, ¬ iswhite (g'.heap x)) ∧
        ((g.heap t).hmask > 0 → ∀ i, i < (g.heap t).hmask + 1 →
          ¬ tvisnil ((g.heap t).node.getD i {}).val = true →
          (¬ modeHas g t 'v' ∨ g.ctsFinalizer = some t →
            ∀ x ∈ tvRef ((g.heap t).node.getD i {}).val, ¬ iswhite (g'.heap x)) ∧
          (¬ modeHas g t 'k' → ¬ (g.ctsFinalizer = some t ∧ modeHas g t 'v') →
            ∀ x ∈ tvRef ((g.heap t).node.getD i {}).key, ¬ iswhite (g'.heap x))) ∧
        (modeHas g t 'k' → modeHas g t 'v' → g.ctsFinalizer ≠ some t →
          g' = pushWeak g1 t LJ_GC_WEAK ∧ w = 1) :=
  ⟨tabWeak_bits g t, traverse_tab_modes_eq fuel g t, fun _ c hb => traverse_tab_marks c hb⟩

theorem exModes_heap_other (a : Nat) (h1 : a ≠ 1) (h2 : a ≠ 2) (h4 : ¬ (a = 4 ∨ a = 5 ∨ a = 6)) :
    exModes.heap a = { gct := GCT.trace } := by
  show (if a = 1 then _ else if a = 2 then _ else if a = 4 ∨ a = 5 ∨ a = 6 then _ else _) = _
  rw [if_neg h1, if_neg h2, if_neg h4]

theorem exModes_white : WhiteIn exModes {2, 4, 5, 6} := by
  intro a hw
  by_cases h1 : a = 1
  · subst h1; exact absurd hw (by decide)
  by_cases h2 : a = 2
  · subst h2; decide
  by_cases h4 : a = 4 ∨ a = 5 ∨ a = 6
  · rcases h4 with e | e | e <;> subst e <;> decide
  rw [exModes_heap_other a h1 h2 h4] at hw
  exact absurd hw (by decide)

theorem exModes_ctx : Ctx 1 {2, 4, 5, 6} 4 exModes := by
  refine ⟨by decide, by decide, fun _ => rfl, exModes_white, ?_⟩
  exact Finset.card_filter_le _ _

/-- The table 1 of `exModes`, with `__mode = "xk"`, gets the bit
`LJ_GC_WEAKKEY` alone and is pushed on `weak`; its metatable 2, the table 4
of its array part and the value 6 of its hash node are not white afterwards. -/
theorem traverse_tab_modes_witness :
    Ctx 1 {2, 4, 5, 6} 4 exModes ∧ (exModes.heap 1).marked < 256 ∧
    ∃ g' w, gc_traverse_tab 4 exModes 1 = some (g', w) ∧
      (g'.heap 1).marked &&& LJ_GC_WEAK = LJ_GC_WEAKKEY ∧ g'.weak = 1 ∧
      (g'.heap 1).gclist = 7 ∧ ¬ iswhite (g'.heap 2) ∧ ¬ iswhite (g'.heap 4) ∧
      ¬ iswhite (g'.heap 6) := by
  refine ⟨exModes_ctx, by decide, ?_⟩
  obtain ⟨_, g', w, _, h, hmt, hweak, _, hA, hN, _⟩ :=
    (traverse_tab_modes 4 exModes 1).2.2 {2, 4, 5, 6} exModes_ctx (by decide)
  have hk : modeHas exModes 1 'k' := by decide
  have hv : ¬ modeHas exModes 1 'v' := by decide
  have hb : weakBits (modeHas exModes 1 'k') (modeHas exModes 1 'v') = LJ_GC_WEAKKEY := by
    unfold weakBits
    rw [if_pos hk, if_neg hv]
    rfl
  obtain ⟨_, w2, w3, w4⟩ := hweak (Or.inl hk) (by decide)
  refine ⟨g', w, h, w2.trans hb, w3, w4, hmt (by decide), ?_, ?_⟩
  · exact hA (Or.inl hv) (TValue.gcv GCT.tab 4) (by decide) 4 (by decide)
  · exact (hN (by decide) 0 (by decide) (by decide)).1 (Or.inl hv) 6 (by decide)

/-- C32 (as stated) fails: the `__mode` of the metatable of the table 1 of
`exNulMode` contains the character `k`, after a NUL character, and the table
is not treated as weak-key: the traversal returns 0, the weak bits of the
table stay clear, the list `weak` keeps its head 7 and the white key 5 of
the hash node is marked. -/
theorem traverse_tab_modes_nul :
    modeContains exNulMode 1 'k' ∧ iswhite (exNulMode.heap 5) ∧ exNulMode.weak = 7 ∧
    exNulMode.ctsFinalizer ≠ some 1 ∧
    ∃ g', gc_traverse_tab 2 exNulMode 1 = some (g', 0) ∧
      (g'.heap 1).marked &&& LJ_GC_WEAK = 0 ∧ g'.weak = 7 ∧ ¬ iswhite (g'.heap 5) :=
  ⟨by decide, by decide, rfl, by decide, _, rfl, rfl, rfl, by decide⟩

/-- C31 (as stated) fails when a finalizer steps the collector: in
`exFinStep` the state is `GCSfinalize` and `mmudata` holds one userdata,
whose finalizer calls `lj_gc_step` twice (`exStepVM`).  The first of these
calls moves the collector to `GCSpause`, the second on to `GCSpropagate`, so
that the one call of `gc_onestep` that ran the finalizer returns with state
`GCSpropagate`: the state has changed, and not along one of the seven
edges. -/
theorem onestep_transitions_stepping :
    exFinStep.state = GCSfinalize ∧ exFinStep.mmudata ≠ 0 ∧
    ∃ g' c, gc_onestep exStepVM 6 exFinStep 1 = some (Res.ok g' c) ∧
      g'.state = GCSpropagate ∧
      ¬ (g'.state = exFinStep.state ∨ gcEdge exFinStep.state g'.state) := by
  refine ⟨rfl, by decide, _, _, rfl, rfl, ?_⟩
  show ¬ (GCSpropagate = GCSfinalize ∨ gcEdge GCSfinalize GCSpropagate)
  unfold gcEdge
  decide

/-- C20 (as stated) fails when a finalizer switches the collector mode: in
`exAgeDrop` the table 2 has age `G_OLD` and the new userdata 3 is to be
finalized; its finalizer calls `lj_gc_changemode(L, KGC_INC)` (`exModeVM`),
whose `enterinc` gives every object of `root` the age `G_NEW`.  The young
collection returns, the table 2 has survived (nothing was freed), and its
age is `G_NEW`, lower than before; it was old and is not old any more. -/
theorem young_ages_monotone_changemode :
    (exAgeDrop.heap 2).age = G_OLD ∧ isold (exAgeDrop.heap 2) ∧
    ∃ g', youngcollection exModeVM 6 exAgeDrop 1 = some (Res.ok g' ()) ∧
      g'.freed = [] ∧ (g'.heap 2).age = G_NEW ∧ ¬ isold (g'.heap 2) ∧
      ¬ (exAgeDrop.heap 2).age ≤ (g'.heap 2).age :=
  ⟨rfl, by decide, _, rfl, rfl, rfl, by decide, by decide⟩

/-! ## Totality of the mark phase -/

theorem Byt.zrefl (g : GState) : Byt g g := fun _ h => h

theorem Byt.ztrans {a b c : GState} (h1 : Byt a b) (h2 : Byt b c) : Byt a c :=
  fun x h => h2 x (h1 x h)

theorem Byt.zmod (g : GState) (o : Nat) (f : GCobj → GCobj)
    (hf : (g.heap o).marked < 256 → (f (g.heap o)).marked < 256) : Byt g (g.modObj o f) := by
  intro a ha
  rw [modObj_heap]
  split_ifs with h
  · subst h; exact hf ha
  · exact ha

theorem Byt.zflds {g g' : GState} (h1 : g'.heap = g.heap) : Byt g g' :=
  fun a h => by rw [h1]; exact h

theorem Byt.zguard (c : Prop) [Decidable c] {X : Option GState} {g g' : GState}
    (hX : ∀ g1, X = some g1 → Byt g g1)
    (h : (if c then X else some g) = some g') : Byt g g' := by
  by_cases hc : c
  · rw [if_pos hc] at h; exact hX g' h
  · rw [if_neg hc] at h; cases h; exact Byt.zrefl g

theorem Byt.zbind {X : Option GState} {f : GState → Option GState} {g g' : GState}
    (hX : ∀ g1, X = some g1 → Byt g g1)
    (hf : ∀ g1 g2, X = some g1 → f g1 = some g2 → Byt g1 g2)
    (h : X.bind f = some g') : Byt g g' := by
  obtain ⟨g1, h1, h2⟩ := bind_some h
  exact (hX g1 h1).ztrans (hf g1 g' h1 h2)

theorem and_byte {m : Nat} (k : Nat) (h : m < 256) : m &&& k < 256 :=
  Nat.lt_of_le_of_lt Nat.and_le_left h

theorem or_byte {m k : Nat} (h : m < 256) (hk : k < 256) : m ||| k < 256 :=
  @Nat.or_lt_two_pow m k 8 h hk

theorem Byt.zw2g (g : GState) (o : Nat) : Byt g (g.modObj o white2gray) :=
  Byt.zmod g o _ (fun h => and_byte _ h)

theorem Byt.zg2b (g : GState) (o : Nat) : Byt g (g.modObj o gray2black) :=
  Byt.zmod g o _ (fun h => or_byte h (by decide))

theorem Byt.zb2g (g : GState) (o : Nat) : Byt g (g.modObj o black2gray) :=
  Byt.zmod g o _ (fun h => and_byte _ h)

theorem Byt.zlink (g : GState) (o v : Nat) :
    Byt g (g.modObj o (fun x => { x with gclist := v })) :=
  Byt.zmod g o _ (fun h => h)

theorem gc_mark_byt : ∀ (n : Nat) (g : GState) (o : Nat) (g' : GState),
    gc_mark n g o = some g' → Byt g g' := by
  intro n
  induction n with
  | zero => intro g o g' h; simp [gc_mark] at h
  | succ n ih =>
    intro g o g' h
    refine (Byt.zw2g g o).ztrans ?_
    unfold gc_mark at h
    simp only [] at h
    generalize g.modObj o white2gray = G at h ⊢
    cases hg : (g.heap o).gct <;> rw [hg] at h <;> simp only [] at h
    case udata =>
      exact (Byt.zg2b G o).ztrans
        (Byt.zbind (fun g1 h1 => Byt.zguard _ (fun g2 h2 => ih _ _ _ h2) h1)
          (fun g1 g2 _ h2 => Byt.zguard _ (fun g3 h3 => ih _ _ _ h3) h2) h)
    case upval =>
      refine Byt.zbind (fun g1 h1 => Byt.zguard _ (fun g2 h2 => ih _ _ _ h2) h1)
        (fun g1 g2 _ h2 => ?_) h
      split at h2
      · cases h2; exact Byt.zg2b g1 o
      · cases h2; exact Byt.zrefl _
    case str => cases h; exact Byt.zrefl _
    case cdata => cases h; exact Byt.zrefl _
    all_goals
      cases h
      exact (Byt.zlink G o G.gray).ztrans (Byt.zflds rfl)

theorem gc_markobj_byt (n : Nat) (g : GState) (o : Nat) (g' : GState)
    (h : gc_markobj n g o = some g') : Byt g g' :=
  Byt.zguard _ (fun _ h1 => gc_mark_byt _ _ _ _ h1) h

theorem gc_marktv_byt (n : Nat) (g : GState) (tv : TValue) (g' : GState)
    (h : gc_marktv n g tv = some g') : Byt g g' :=
  Byt.zguard _ (fun _ h1 => gc_mark_byt _ _ _ _ h1) h

theorem loopM_byt (f : Nat → GState → Option GState)
    (hf : ∀ i g g', f i g = some g' → Byt g g') :
    ∀ (k i : Nat) (g g' : GState), loopM f k i g = some g' → Byt g g'
  | 0, _, g, g', h => by cases h; exact Byt.zrefl g
  | k + 1, i, g, g', h => by
    unfold loopM at h
    exact Byt.zbind (fun g1 h1 => hf i g g1 h1)
      (fun g1 g2 _ h2 => loopM_byt f hf k (i + 1) g1 g2 h2) h

theorem traverseNode_byt (fuel t weak i : Nat) (g g' : GState)
    (h : traverseNode fuel t weak i g = some g') : Byt g g' := by
  unfold traverseNode at h
  simp only [] at h
  split at h
  · cases h; exact Byt.zrefl g
  · exact Byt.zbind (fun g1 h1 => Byt.zguard _ (fun g2 h2 => gc_marktv_byt _ _ _ _ h2) h1)
      (fun g1 g2 _ h2 => Byt.zguard _ (fun g3 h3 => gc_marktv_byt _ _ _ _ h3) h2) h

theorem tabSetWeak_byt (g : GState) (t w0 : Nat) : Byt g (tabSetWeak g t w0).1 := by
  unfold tabSetWeak
  split
  · split
    · exact Byt.zrefl g
    · dsimp only
      exact (Byt.zmod g t _ (fun _ => Nat.mod_lt _ (by decide))).ztrans
        ((Byt.zlink _ t _).ztrans (Byt.zflds rfl))
  · exact Byt.zrefl g

theorem tabMarkParts_byt (fuel : Nat) (g : GState) (t weak : Nat) (r : GState × Nat)
    (h : tabMarkParts fuel g t weak = some r) : Byt g r.1 := by
  unfold tabMarkParts at h
  obtain ⟨g1, h1, h⟩ := bind_some h
  obtain ⟨g2, h2, h⟩ := bind_some h
  have q1 : Byt g g1 :=
    Byt.zguard _ (fun g3 h3 => loopM_byt _ (fun i a b hab => gc_marktv_byt _ _ _ _ hab)
      _ _ _ _ h3) h1
  have q2 : Byt g1 g2 :=
    Byt.zguard _ (fun g3 h3 => loopM_byt _ (fun i a b hab => traverseNode_byt _ _ _ _ _ _ hab)
      _ _ _ _ h3) h2
  refine q1.ztrans (q2.ztrans ?_)
  split at h
  · cases h
    dsimp only
    exact (Byt.zlink g2 t _).ztrans
      ((Byt.zflds (show ({ g2.modObj t (fun x => { x with gclist := g2.grayagain }) with
        grayagain := t } : GState).heap = _ from rfl)).ztrans (Byt.zb2g _ t))
  · cases h; exact Byt.zrefl _

theorem gc_traverse_tab_byt (fuel : Nat) (g : GState) (t : Nat) (r : GState × Nat)
    (h : gc_traverse_tab fuel g t = some r) : Byt g r.1 := by
  rw [gc_traverse_tab_eq] at h
  obtain ⟨g1, h1, h⟩ := bind_some h
  have q1 : Byt g g1 := Byt.zguard _ (fun g3 h3 => gc_markobj_byt _ _ _ _ h3) h1
  refine q1.ztrans ((tabSetWeak_byt g1 t (tabWeak g1 (g.heap t).metatable)).ztrans ?_)
  split at h
  · cases h; exact Byt.zrefl _
  · exact tabMarkParts_byt _ _ _ _ _ h

theorem gc_traverse_func_byt (fuel : Nat) (g : GState) (fn : Nat) (g' : GState)
    (h : gc_traverse_func fuel g fn = some g') : Byt g g' := by
  unfold gc_traverse_func at h
  refine Byt.zbind (fun g1 h1 => gc_markobj_byt _ _ _ _ h1) (fun g1 g2 _ h2 => ?_) h
  split at h2
  · refine Byt.zbind (fun g3 h3 => gc_markobj_byt _ _ _ _ h3) (fun g3 g4 _ h4 => ?_) h2
    exact loopM_byt _ (fun i a b hab => gc_markobj_byt _ _ _ _ hab) _ _ _ _ h4
  · exact loopM_byt _ (fun i a b hab => gc_marktv_byt _ _ _ _ hab) _ _ _ _ h2

theorem gc_marktrace_byt (g : GState) (traceno : Nat) : Byt g (gc_marktrace g traceno) := by
  unfold gc_marktrace
  simp only []
  split
  · exact (Byt.zw2g g _).ztrans ((Byt.zlink _ _ _).ztrans (Byt.zflds rfl))
  · exact Byt.zrefl g

theorem traverseIR_byt (fuel T : Nat) : ∀ (k ref : Nat) (g g' : GState),
    traverseIR fuel T k ref g = some g' → Byt g g'
  | 0, _, g, g', h => by cases h; exact Byt.zrefl g
  | k + 1, ref, g, g', h => by
    unfold traverseIR at h
    simp only [] at h
    split at h
    · exact Byt.zbind (fun g1 h1 => Byt.zguard _ (fun g2 h2 => gc_markobj_byt _ _ _ _ h2) h1)
        (fun g1 g2 _ h2 => traverseIR_byt fuel T k _ g1 g2 h2) h
    · cases h; exact Byt.zrefl g

theorem gc_traverse_trace_byt (fuel : Nat) (g : GState) (T : Nat) (g' : GState)
    (h : gc_traverse_trace fuel g T = some g') : Byt g g' := by
  unfold gc_traverse_trace at h
  split at h
  · cases h; exact Byt.zrefl g
  · refine Byt.zbind (fun g1 h1 => traverseIR_byt _ _ _ _ _ _ h1) (fun g1 g2 _ h2 => ?_) h
    simp only [] at h2
    have q1 : Byt g1 (if (g1.heap T).link ≠ 0 then gc_marktrace g1 (g1.heap T).link else g1) := by
      split
      · exact gc_marktrace_byt _ _
      · exact Byt.zrefl _
    refine q1.ztrans ?_
    generalize (if (g1.heap T).link ≠ 0 then gc_marktrace g1 (g1.heap T).link else g1) = G1 at h2 ⊢
    have q2 : Byt G1 (if (G1.heap T).nextroot ≠ 0 then gc_marktrace G1 (G1.heap T).nextroot
        else G1) := by
      split
      · exact gc_marktrace_byt _ _
      · exact Byt.zrefl _
    refine q2.ztrans ?_
    generalize (if (G1.heap T).nextroot ≠ 0 then gc_marktrace G1 (G1.heap T).nextroot
        else G1) = G2 at h2 ⊢
    have q3 : Byt G2 (if (G2.heap T).nextside ≠ 0 then gc_marktrace G2 (G2.heap T).nextside
        else G2) := by
      split
      · exact gc_marktrace_byt _ _
      · exact Byt.zrefl _
    exact q3.ztrans (gc_markobj_byt _ _ _ _ h2)

theorem gc_traverse_proto_byt (fuel : Nat) (g : GState) (pt : Nat) (g' : GState)
    (h : gc_traverse_proto fuel g pt = some g') : Byt g g' := by
  unfold gc_traverse_proto at h
  simp only [] at h
  refine (Byt.zmod g (g.heap pt).chunkname gc_mark_str (fun hb => and_byte _ hb)).ztrans ?_
  refine Byt.zbind (fun g1 h1 => loopM_byt _ (fun i a b hab => gc_markobj_byt _ _ _ _ hab)
    _ _ _ _ h1) (fun g1 g2 _ h2 => ?_) h
  split at h2
  · cases h2; exact gc_marktrace_byt _ _
  · cases h2; exact Byt.zrefl _

theorem traverseFrames_byt (fuel th : Nat) : ∀ (k i : Nat) (acc : Int) (g : GState)
    (r : GState × Int), traverseFrames fuel th k i acc g = some r → Byt g r.1
  | 0, _, _, g, r, h => by cases h; exact Byt.zrefl g
  | k + 1, i, acc, g, r, h => by
    unfold traverseFrames at h
    simp only [] at h
    obtain ⟨g1, h1, h2⟩ := bind_some h
    exact (Byt.zguard _ (fun g2 h2 => gc_markobj_byt _ _ _ _ h2) h1).ztrans
      (traverseFrames_byt fuel th k _ _ g1 r h2)

theorem gc_traverse_frames_byt (fuel : Nat) (g : GState) (th : Nat) (r : GState × Nat)
    (h : gc_traverse_frames fuel g th = some r) : Byt g r.1 := by
  unfold gc_traverse_frames at h
  obtain ⟨r1, h1, h2⟩ := bind_some h
  cases h2
  exact traverseFrames_byt _ _ _ _ _ _ r1 h1

theorem lj_state_shrinkstack_byt (g : GState) (th used : Nat) :
    Byt g (lj_state_shrinkstack g th used) := by
  unfold lj_state_shrinkstack
  simp only []
  split
  · exact fun a ha => Byt.zmod g th
      (fun x => { x with stack := x.stack.take ((g.heap th).stack.length / 2) })
      (fun hb => hb) a ha
  · exact Byt.zrefl g

theorem gc_traverse_thread_byt (fuel : Nat) (g : GState) (th : Nat) (g' : GState)
    (h : gc_traverse_thread fuel g th = some g') : Byt g g' := by
  unfold gc_traverse_thread at h
  simp only [] at h
  obtain ⟨g1, h1, h⟩ := bind_some h
  obtain ⟨g2, h2, h⟩ := bind_some h
  obtain ⟨r, h3, h⟩ := bind_some h
  cases h
  have q1 : Byt g g1 := loopM_byt _ (fun i a b hab => gc_marktv_byt _ _ _ _ hab) _ _ _ _ h1
  have q3 := gc_traverse_frames_byt _ _ _ _ h3
  have q2 := gc_markobj_byt _ _ _ _ h2
  refine q1.ztrans (Byt.ztrans ?_ (q2.ztrans (q3.ztrans (lj_state_shrinkstack_byt _ _ _))))
  split
  · exact Byt.zmod g1 th _ (fun hb => hb)
  · exact Byt.zrefl _

theorem popGray_byt (g : GState) : Byt g (popGray g) := by
  unfold popGray
  exact (Byt.zg2b g g.gray).ztrans (Byt.zflds rfl)

theorem propagatemark_byt (fuel : Nat) (g : GState) (r : GState × Nat)
    (h : propagatemark fuel g = some r) : Byt g r.1 := by
  rw [propagatemark_eq] at h
  refine (popGray_byt g).ztrans ?_
  generalize popGray g = G at h ⊢
  cases hg : (g.heap g.gray).gct <;> rw [hg] at h <;> simp only [] at h
  case tab =>
    obtain ⟨r1, h1, h2⟩ := bind_some h
    cases h2
    refine (gc_traverse_tab_byt _ _ _ _ h1).ztrans ?_
    dsimp only
    split
    · exact Byt.zb2g _ _
    · exact Byt.zrefl _
  case func =>
    obtain ⟨r1, h1, h2⟩ := bind_some h
    cases h2
    exact gc_traverse_func_byt _ _ _ _ h1
  case proto =>
    obtain ⟨r1, h1, h2⟩ := bind_some h
    cases h2
    exact gc_traverse_proto_byt _ _ _ _ h1
  case thread =>
    obtain ⟨r1, h1, h2⟩ := bind_some h
    cases h2
    refine Byt.ztrans ?_ (gc_traverse_thread_byt _ _ _ _ h1)
    exact (Byt.zlink G g.gray _).ztrans
      ((Byt.zflds (show ({ G.modObj g.gray (fun x => { x with gclist := G.grayagain }) with
        grayagain := g.gray } : GState).heap = _ from rfl)).ztrans (Byt.zb2g _ _))
  all_goals
    obtain ⟨r1, h1, h2⟩ := bind_some h
    cases h2
    exact gc_traverse_trace_byt _ _ _ _ h1

theorem markUvLoop_byt (fuel : Nat) : ∀ (uvs : List Nat) (g g' : GState),
    markUvLoop fuel uvs g = some g' → Byt g g'
  | [], g, g', h => by cases h; exact Byt.zrefl g
  | uv :: uvs, g, g', h => by
    unfold markUvLoop at h
    exact Byt.zbind (fun g1 h1 => Byt.zguard _ (fun g2 h2 => gc_marktv_byt _ _ _ _ h2) h1)
      (fun g1 g2 _ h2 => markUvLoop_byt fuel uvs g1 g2 h2) h

theorem gc_mark_gcroot_byt (fuel : Nat) (g g' : GState) (h : gc_mark_gcroot fuel g = some g') :
    Byt g g' :=
  loopM_byt _ (fun _ _ _ hab => Byt.zguard _ (fun _ h2 => gc_markobj_byt _ _ _ _ h2) hab)
    _ _ _ _ h

theorem gc_traverse_curtrace_byt (fuel : Nat) (g g' : GState)
    (h : gc_traverse_curtrace fuel g = some g') : Byt g g' :=
  Byt.zguard _ (fun _ h2 => gc_traverse_trace_byt _ _ _ _ h2) h

theorem Oth.orefl (o : Nat) (g : GState) : Oth o g g := fun _ _ _ _ => ⟨rfl, rfl⟩

theorem Oth.otrans {o : Nat} {a b c : GState} (h1 : Oth o a b) (h2 : Oth o b c) :
    Oth o a c := by
  intro x hx hw hm
  obtain ⟨e1, e2⟩ := h1 x hx hw hm
  have hw' : ¬ iswhite (b.heap x) := by
    unfold iswhite at hw ⊢; rw [e1]; exact hw
  obtain ⟨e3, e4⟩ := h2 x hx hw' (by rw [e1]; exact hm)
  exact ⟨e3.trans e1, e4.trans e2⟩

theorem Oth.of_stay (o : Nat) {g g' : GState} (h : ∀ a, Stay a g g') : Oth o g g' :=
  fun a _ hw hm => (h a).obj hw hm

theorem Oth.omod (o : Nat) (g : GState) (f : GCobj → GCobj) : Oth o g (g.modObj o f) := by
  intro a ha _ _
  rw [modObj_heap_ne _ _ _ _ ha]
  exact ⟨rfl, rfl⟩

theorem Oth.oheap (o : Nat) {g g' : GState} (h : g'.heap = g.heap) : Oth o g g' :=
  fun a _ _ _ => by rw [h]; exact ⟨rfl, rfl⟩

theorem Oth.oset (o : Nat) {g g' : GState} (h : ∀ a, a ≠ o → g'.heap a = g.heap a) :
    Oth o g g' :=
  fun a ha _ _ => by rw [h a ha]; exact ⟨rfl, rfl⟩

theorem tabSetWeak_oth (g : GState) (t w0 : Nat) : Oth t g (tabSetWeak g t w0).1 := by
  unfold tabSetWeak
  split
  · split
    · exact Oth.orefl t g
    · refine Oth.oset t (fun a ha => ?_)
      simp only [GState.modObj, GState.setObj, if_neg ha]
  · exact Oth.orefl t g

theorem tabSetWeak_heads (g : GState) (t w0 : Nat) :
    (tabSetWeak g t w0).1.grayagain = g.grayagain ∧ (tabSetWeak g t w0).1.kind = g.kind ∧
    ((w0 = 0 ∨ g.ctsFinalizer = some t) → (tabSetWeak g t w0).1 = g) := by
  refine ⟨?_, ?_, fun h => tabSetWeak_id g t w0 h⟩
  · unfold tabSetWeak
    split_ifs <;> rfl
  · unfold tabSetWeak
    split_ifs <;> rfl

/-- The marking loops of `gc_traverse_tab` keep every object that is not
white; only the generational tail relinks the table. -/
theorem tabMarkParts_steps (fuel : Nat) (g : GState) (t weak : Nat) (r : GState × Nat)
    (h : tabMarkParts fuel g t weak = some r) :
    ∃ g3, (∀ a, Stay a g g3) ∧
      r = if weak = 0 ∧ g3.kind = GCKind.gen then
          (({ g3.modObj t (fun x => { x with gclist := g3.grayagain }) with
              grayagain := t }).modObj t black2gray, weak)
        else (g3, weak) := by
  unfold tabMarkParts at h
  obtain ⟨g1, h1, h⟩ := bind_some h
  obtain ⟨g2, h2, h⟩ := bind_some h
  have q1 : ∀ o, Stay o g g1 := fun o =>
    Stay.sguard _ (fun g3 h3 => loopM_stay o _ (fun i a b hab => gc_marktv_stay o _ _ _ _ hab)
      _ _ _ _ h3) h1
  have q2 : ∀ o, Stay o g1 g2 := fun o =>
    Stay.sguard _ (fun g3 h3 => loopM_stay o _
      (fun i a b hab => traverseNode_stay o _ _ _ _ _ _ hab) _ _ _ _ h3) h2
  refine ⟨g2, fun o => (q1 o).ytrans (q2 o), ?_⟩
  split at h
  · rename_i hc
    rw [if_pos hc]
    cases h; rfl
  · rename_i hc
    rw [if_neg hc]
    cases h; rfl

/-- The result of `gc_traverse_tab` in terms of the state `g1` after the
metatable has been marked and the state `g3` after the marking loops, with
what the marking keeps of every object. -/
theorem traverse_tab_steps (o fuel : Nat) (P : GState) (rt : GState × Nat)
    (h : gc_traverse_tab fuel P o = some rt) :
    ∃ g1 g3, (∀ a, Stay a P g1) ∧ Quiet P g1 ∧
      (∀ a, Stay a (tabSetWeak g1 o (tabWeak g1 (P.heap o).metatable)).1 g3) ∧
      rt = if (tabSetWeak g1 o (tabWeak g1 (P.heap o).metatable)).2 = 0 ∧
            g3.kind = GCKind.gen then
          (({ g3.modObj o (fun x => { x with gclist := g3.grayagain }) with
              grayagain := o }).modObj o black2gray, 0)
        else (g3, if (tabSetWeak g1 o (tabWeak g1 (P.heap o).metatable)).2 = LJ_GC_WEAK then 1
          else (tabSetWeak g1 o (tabWeak g1 (P.heap o).metatable)).2) := by
  rw [gc_traverse_tab_eq] at h
  obtain ⟨g1, ha, hb⟩ := bind_some h
  have s1 : ∀ a, Stay a P g1 := fun a =>
    Stay.sguard _ (fun g3 h3 => gc_markobj_stay a _ _ _ _ h3) ha
  have q1 : Quiet P g1 := Quiet.qguard _ (fun g3 h3 => gc_markobj_quiet _ _ _ _ h3) ha
  suffices hs : ∃ g3, (∀ a, Stay a (tabSetWeak g1 o (tabWeak g1 (P.heap o).metatable)).1 g3) ∧
      rt = if (tabSetWeak g1 o (tabWeak g1 (P.heap o).metatable)).2 = 0 ∧
            g3.kind = GCKind.gen then
          (({ g3.modObj o (fun x => { x with gclist := g3.grayagain }) with
              grayagain := o }).modObj o black2gray, 0)
        else (g3, if (tabSetWeak g1 o (tabWeak g1 (P.heap o).metatable)).2 = LJ_GC_WEAK then 1
          else (tabSetWeak g1 o (tabWeak g1 (P.heap o).metatable)).2) by
    obtain ⟨g3, s3, e⟩ := hs
    exact ⟨g1, g3, s1, q1, s3, e⟩
  generalize tabSetWeak g1 o (tabWeak g1 (P.heap o).metatable) = W at hb ⊢
  by_cases hW : W.2 = LJ_GC_WEAK
  · rw [if_pos hW] at hb
    refine ⟨W.1, fun a => Stay.yrefl a _, ?_⟩
    rw [if_neg (fun hc => by rw [hW] at hc; exact absurd hc.1 (by decide)), if_pos hW]
    exact (Option.some.inj hb).symm
  · rw [if_neg hW] at hb
    obtain ⟨g3, s3, e⟩ := tabMarkParts_steps _ _ _ _ _ hb
    refine ⟨g3, s3, ?_⟩
    rw [e, if_neg hW]
    by_cases hc : W.2 = 0 ∧ g3.kind = GCKind.gen
    · rw [if_pos hc, if_pos hc, hc.1]
    · rw [if_neg hc, if_neg hc]

theorem popGray_oth (g : GState) : Oth g.gray g (popGray g) := by
  refine Oth.oset _ (fun a ha => ?_)
  simp only [popGray, GState.modObj, GState.setObj, if_neg ha]

theorem popGray_heads (g : GState) :
    (popGray g).grayagain = g.grayagain ∧ (popGray g).weak = g.weak := ⟨rfl, rfl⟩

/-- What `propagatemark` does to the lists `grayagain` and `weak` and to the
objects other than the head `o` of the gray list: these, when not white, keep
color byte and link; the two lists are as before, or `o` has been pushed on
one of them. -/
theorem propagatemark_frame (fuel : Nat) (g : GState) (r : GState × Nat)
    (h : propagatemark fuel g = some r) (hnw : ¬ iswhite (g.heap g.gray))
    (hm : (g.heap g.gray).marked < 256) :
    Oth g.gray g r.1 ∧
    ((r.1.grayagain = g.grayagain ∧ r.1.weak = g.weak) ∨
     (r.1.grayagain = g.gray ∧ (r.1.heap g.gray).gclist = g.grayagain ∧ r.1.weak = g.weak) ∨
     (r.1.weak = g.gray ∧ (r.1.heap g.gray).gclist = g.weak ∧
       r.1.grayagain = g.grayagain)) := by
  have hP := popGray_oth g
  have hPnw : ¬ iswhite ((popGray g).heap g.gray) := by
    rw [popGray_at]; exact gray2black_not_white hnw
  have hPm : ((popGray g).heap g.gray).marked < 256 := by
    rw [popGray_at]; exact g2b_lt hm
  cases hg : (g.heap g.gray).gct
  case tab =>
    have T := propagatemark_tab fuel g r h hnw hm hg
    have h' := h
    rw [propagatemark_eq, hg] at h'
    simp only [] at h'
    obtain ⟨rt, h1, h2⟩ := bind_some h'
    have hr : r.1 = if int32Pos rt.2 then rt.1.modObj g.gray black2gray else rt.1 := by
      cases h2; rfl
    obtain ⟨g1, g3, s1, q1, s3, hrt⟩ := traverse_tab_steps g.gray _ _ _ h1
    have o1 : Oth g.gray (popGray g) g3 :=
      (Oth.of_stay _ s1).otrans ((tabSetWeak_oth g1 g.gray _).otrans (Oth.of_stay _ s3))
    have o2 : Oth g.gray g3 rt.1 := by
      rw [hrt]
      split
      · refine Oth.oset _ (fun a ha => ?_)
        simp only [GState.modObj, GState.setObj, if_neg ha]
      · exact Oth.orefl _ _
    have o3 : Oth g.gray rt.1 r.1 := by
      rw [hr]
      split
      · exact Oth.omod _ _ _
      · exact Oth.orefl _ _
    refine ⟨hP.otrans (o1.otrans (o2.otrans o3)), ?_⟩
    obtain ⟨hga, hkd, _⟩ := tabSetWeak_heads g1 g.gray (tabWeak g1 ((popGray g).heap g.gray).metatable)
    have hgrayagain3 : g3.grayagain = g.grayagain :=
      ((s3 0).grayagain.trans hga).trans (s1 0).grayagain
    rcases weakness_cases g g.gray with ⟨hk, hz⟩ | ⟨hk, hf⟩ | ⟨hk, hz, hf, hkw, hk3⟩
    · -- fully strong
      cases hkind : g.kind
      · -- incremental: the table is dropped
        refine Or.inl ?_
        have hmt : ((popGray g).heap g.gray).metatable = (g.heap g.gray).metatable :=
          (popGray_quiet g).metatable_eq _
        have qq : Quiet g g1 := (popGray_quiet g).qtrans q1
        rw [hmt, qq.tabWeakness_eq g.gray] at hrt
        have hk3 : g3.kind = g.kind := ((s3 0).kind.trans hkd).trans (s1 0).kind
        rw [if_neg (fun hc => by rw [hk3, hkind] at hc; exact absurd hc.2 (by decide))] at hrt
        rw [hrt] at hr
        dsimp only at hr
        rw [if_neg (by rw [hk]; decide)] at hr
        rw [hr]
        have hw0 := qq.tabWeak_eq (g.heap g.gray).metatable
        rw [hmt, hw0, tabSetWeak_id g1 g.gray _ (Or.inl hz)] at s3
        exact ⟨hgrayagain3, ((s3 0).weak.trans (s1 0).weak)⟩
      · -- generational: pushed on grayagain
        refine Or.inr (Or.inl ?_)
        obtain ⟨_, e1, e2⟩ := (T.2.1 hk).2 hkind
        have hmt : ((popGray g).heap g.gray).metatable = (g.heap g.gray).metatable :=
          (popGray_quiet g).metatable_eq _
        have qq : Quiet g g1 := (popGray_quiet g).qtrans q1
        rw [hmt, qq.tabWeakness_eq g.gray] at hrt
        have hk3 : g3.kind = g.kind := ((s3 0).kind.trans hkd).trans (s1 0).kind
        rw [if_pos ⟨hk, hk3.trans hkind⟩] at hrt
        rw [hrt] at hr
        dsimp only at hr
        rw [if_neg int32Pos_zero] at hr
        have hw0 := qq.tabWeak_eq (g.heap g.gray).metatable
        rw [hmt, hw0, tabSetWeak_id g1 g.gray _ (Or.inl hz)] at s3
        refine ⟨e1, e2, ?_⟩
        rw [hr]
        exact ((s3 0).weak.trans (s1 0).weak)
    · exact Or.inl ⟨(T.2.2 hk).2.2, (T.2.2 hk).2.1⟩
    · refine Or.inr (Or.inr ?_)
      obtain ⟨_, e1, e2⟩ := T.1 hk
      refine ⟨e1, e2, ?_⟩
      rw [hr]
      have : rt.1.grayagain = g.grayagain := by
        rw [hrt]
        split
        · rename_i hc
          have hmt : ((popGray g).heap g.gray).metatable = (g.heap g.gray).metatable :=
            (popGray_quiet g).metatable_eq _
          have qq : Quiet g g1 := (popGray_quiet g).qtrans q1
          rw [hmt, qq.tabWeakness_eq g.gray] at hc
          exact absurd (hc.1 ▸ hk) int32Pos_zero
        · exact hgrayagain3
      split
      · exact this
      · exact this
  case thread =>
    obtain ⟨_, e1, e2⟩ := propagatemark_thread fuel g r h hnw hg
    rw [propagatemark_eq, hg] at h
    simp only [] at h
    obtain ⟨g', h1, h2⟩ := bind_some h
    cases h2
    have st := fun a => gc_traverse_thread_stay a _ _ _ _ h1
    refine ⟨hP.otrans (Oth.otrans (Oth.oset _ (fun a ha => ?_)) (Oth.of_stay _ st)),
      Or.inr (Or.inl ⟨e1, e2, (st 0).weak⟩)⟩
    simp only [GState.modObj, GState.setObj, if_neg ha]
  case func =>
    rw [propagatemark_eq, hg] at h
    simp only [] at h
    obtain ⟨g', h1, h2⟩ := bind_some h
    cases h2
    have st := fun a => gc_traverse_func_stay a _ _ _ _ h1
    exact ⟨hP.otrans (Oth.of_stay _ st), Or.inl ⟨(st 0).grayagain, (st 0).weak⟩⟩
  case proto =>
    rw [propagatemark_eq, hg] at h
    simp only [] at h
    obtain ⟨g', h1, h2⟩ := bind_some h
    cases h2
    have st := fun a => gc_traverse_proto_stay a _ _ _ _ h1
    exact ⟨hP.otrans (Oth.of_stay _ st), Or.inl ⟨(st 0).grayagain, (st 0).weak⟩⟩
  all_goals
    rw [propagatemark_eq, hg] at h
    simp only [] at h
    obtain ⟨g', h1, h2⟩ := bind_some h
    cases h2
    have st := fun a => gc_traverse_trace_stay a _ _ _ _ h1
    exact ⟨hP.otrans (Oth.of_stay _ st), Or.inl ⟨(st 0).grayagain, (st 0).weak⟩⟩

theorem GChain.gnonzero {g : GState} : ∀ {xs : List Nat} {h : Nat},
    GChain g h xs → 0 ∉ xs
  | [], _, _ => by simp
  | x :: xs, h, hc => by
    obtain ⟨_, h2, h3⟩ := hc
    intro hm
    rcases List.mem_cons.mp hm with e | e
    · exact h2 e.symm
    · exact GChain.gnonzero h3 e

theorem mu_le_card (S : Finset Nat) (g : GState) : mu S g ≤ S.card :=
  Finset.card_filter_le _ _

theorem Op.oprefl (S : Finset Nat) (g : GState) : Op S g g :=
  ⟨PropBase.brefl 0 S g, fun a => Stay.yrefl a g, Byt.zrefl g⟩

theorem Op.optrans {S : Finset Nat} {a b c : GState} (h1 : Op S a b) (h2 : Op S b c) :
    Op S a c :=
  ⟨h1.base.btrans h2.base, fun x => (h1.stay x).ytrans (h2.stay x), h1.byt.ztrans h2.byt⟩

theorem Op.opctx {S : Finset Nat} {fuel : Nat} {g g' : GState} (c : Ctx 0 S fuel g)
    (h : Op S g g') : Ctx 0 S fuel g' := c.step h.base

theorem Work.wctx {S : Finset Nat} {g : GState} {gs as ws ps : List Nat} {ph : Nat}
    (w : Work S g gs as ws ps ph) {fuel : Nat} (hf : S.card ≤ fuel) : Ctx 0 S fuel g :=
  ⟨w.null, w.null, w.trace, w.cover, le_trans (mu_le_card S g) hf⟩

theorem Work.grayB {S : Finset Nat} {g : GState} {gs as ws ps : List Nat} {ph : Nat}
    (w : Work S g gs as ws ps ph) : GrayB g gs :=
  ⟨w.gray, (List.nodup_append.mp w.nodup).1,
    fun t ht => ⟨(w.ok t (List.mem_append_left _ ht)).1, (w.ok t (List.mem_append_left _ ht)).2.1⟩⟩

/-- A marking operation keeps the work lists well formed: the gray list
grows at its head by objects that were white, the other lists are as they
were. -/
theorem Work.op {S : Finset Nat} {g g' : GState} {gs as ws ps : List Nat} {ph : Nat}
    (w : Work S g gs as ws ps ph) (h : Op S g g') :
    ∃ new, Work S g' (new ++ gs) as ws ps ph ∧ (∀ x ∈ new, iswhite (g.heap x)) ∧
      new.length + mu S g' ≤ mu S g := by
  obtain ⟨new, gB, hnew, hmu⟩ := h.base.gray gs w.grayB (GChain.gnonzero w.gray) w.null w.cover
  obtain ⟨nd1, nd2, nd3⟩ := List.nodup_append.mp w.nodup
  have hkeep : ∀ t ∈ as ++ (ws ++ ps),
      (g'.heap t).marked = (g.heap t).marked ∧ (g'.heap t).gclist = (g.heap t).gclist :=
    fun t ht => (h.stay t).obj (w.ok t (List.mem_append_right _ ht)).1 (w.bytes t)
  have hmem : ∀ {l : List Nat}, (∀ t ∈ l, t ∈ as ++ (ws ++ ps)) → ∀ {hd : Nat},
      GChain g hd l → GChain g' hd l := fun hl _ hc =>
    GChain.congr_mem (fun x hx => (hkeep x (hl x hx)).2) hc
  refine ⟨new, ⟨gB.chain, ?_, ?_, ?_, ?_, ?_, ?_, ?_, ?_, ?_⟩, hnew, hmu⟩
  · rw [(h.stay 0).grayagain]
    exact hmem (fun t ht => List.mem_append_left _ ht) w.again
  · rw [(h.stay 0).weak]
    exact hmem (fun t ht => List.mem_append_right _ (List.mem_append_left _ ht)) w.weak
  · exact hmem (fun t ht => List.mem_append_right _ (List.mem_append_right _ ht)) w.parked
  · rw [List.append_assoc]
    refine List.nodup_append.mpr ⟨(List.nodup_append.mp gB.nodup).1, w.nodup, ?_⟩
    intro x hx hy
    exact (w.ok x hy).1 (hnew x hx)
  · intro t ht
    rw [List.append_assoc] at ht
    rcases List.mem_append.mp ht with hn | ho
    · have := gB.ok t (List.mem_append_left _ hn)
      exact ⟨this.1, this.2, w.cover t (hnew t hn)⟩
    · obtain ⟨a, b, c⟩ := w.ok t ho
      refine ⟨h.base.nonwhite a, ?_, c⟩
      rw [(shapeS_fields (h.base.shape t)).gct]; exact b
  · exact fun a => h.byt a (w.bytes a)
  · exact h.base.nonwhite w.null
  · intro n
    rw [(restProp_fields h.base.rest).2.1, (shapeS_fields (h.base.shape _)).gct]
    exact w.trace n
  · exact h.base.bwhiteIn w.cover

theorem markobj_op {S : Finset Nat} {fuel : Nat} {g : GState} (c : Ctx 0 S fuel g) (a : Nat) :
    ∃ g', gc_markobj fuel g a = some g' ∧ Op S g g' := by
  obtain ⟨g', h, r, _⟩ := markobj_step c a
  exact ⟨g', h, r.base, fun x => gc_markobj_stay x _ _ _ _ h, gc_markobj_byt _ _ _ _ h⟩

theorem marktv_op {S : Finset Nat} {fuel : Nat} {g : GState} (c : Ctx 0 S fuel g) (tv : TValue) :
    ∃ g', gc_marktv fuel g tv = some g' ∧ Op S g g' := by
  obtain ⟨g', h, r, _⟩ := marktv_step c tv
  exact ⟨g', h, r.base, fun x => gc_marktv_stay x _ _ _ _ h, gc_marktv_byt _ _ _ _ h⟩

theorem marktrace_op {S : Finset Nat} {fuel : Nat} {g : GState} (c : Ctx 0 S fuel g) (n : Nat) :
    Op S g (gc_marktrace g n) :=
  ⟨(marktrace_step c n).1.base, fun x => gc_marktrace_stay x g n, gc_marktrace_byt g n⟩

theorem guard_op {S : Finset Nat} {g : GState} (c : Prop) [Decidable c]
    {X : Option GState} (hX : ∃ g', X = some g' ∧ Op S g g') :
    ∃ g', (if c then X else some g) = some g' ∧ Op S g g' := by
  by_cases hc : c
  · rw [if_pos hc]; exact hX
  · rw [if_neg hc]; exact ⟨g, rfl, Op.oprefl S g⟩

theorem bind_op {S : Finset Nat} {g : GState} {X : Option GState}
    {f : GState → Option GState} (hX : ∃ g1, X = some g1 ∧ Op S g g1)
    (hf : ∀ g1, Op S g g1 → ∃ g2, f g1 = some g2 ∧ Op S g1 g2) :
    ∃ g', X.bind f = some g' ∧ Op S g g' := by
  obtain ⟨g1, h1, o1⟩ := hX
  obtain ⟨g2, h2, o2⟩ := hf g1 o1
  exact ⟨g2, by rw [h1]; exact h2, o1.optrans o2⟩

theorem loopM_op {S : Finset Nat} {fuel : Nat} (f : Nat → GState → Option GState)
    (hstep : ∀ j g, Ctx 0 S fuel g → ∃ g', f j g = some g' ∧ Op S g g') :
    ∀ (k i : Nat) (g : GState), Ctx 0 S fuel g → ∃ g', loopM f k i g = some g' ∧ Op S g g'
  | 0, _, g, _ => ⟨g, rfl, Op.oprefl S g⟩
  | k + 1, i, g, c => by
    unfold loopM
    exact bind_op (hstep i g c) (fun g1 o1 => loopM_op f hstep k (i + 1) g1 (Op.opctx c o1))

theorem traverseIR_op {S : Finset Nat} {fuel : Nat} (T : Nat) :
    ∀ (k ref : Nat) (g : GState), Ctx 0 S fuel g →
      ∃ g', traverseIR fuel T k ref g = some g' ∧ Op S g g'
  | 0, _, g, _ => ⟨g, rfl, Op.oprefl S g⟩
  | k + 1, ref, g, c => by
    unfold traverseIR
    simp only []
    split
    · exact bind_op (guard_op _ (markobj_op c _))
        (fun g1 o1 => traverseIR_op T k _ g1 (Op.opctx c o1))
    · exact ⟨g, rfl, Op.oprefl S g⟩

theorem marktrace_opt_op {S : Finset Nat} {fuel : Nat} {g : GState} (c : Ctx 0 S fuel g)
    (n : Nat) : Op S g (if n ≠ 0 then gc_marktrace g n else g) := by
  split
  · exact marktrace_op c n
  · exact Op.oprefl S g

theorem traverse_trace_op {S : Finset Nat} {fuel : Nat} {g : GState} (c : Ctx 0 S fuel g)
    (T : Nat) : ∃ g', gc_traverse_trace fuel g T = some g' ∧ Op S g g' := by
  unfold gc_traverse_trace
  split
  · exact ⟨g, rfl, Op.oprefl S g⟩
  · refine bind_op (traverseIR_op T _ _ g c) (fun g1 o1 => ?_)
    have c1 := Op.opctx c o1
    simp only []
    have q1 := marktrace_opt_op c1 (g1.heap T).link
    have c2 := Op.opctx c1 q1
    generalize (if (g1.heap T).link ≠ 0 then gc_marktrace g1 (g1.heap T).link else g1) = G1
      at q1 c2 ⊢
    have q2 := marktrace_opt_op c2 (G1.heap T).nextroot
    have c3 := Op.opctx c2 q2
    generalize (if (G1.heap T).nextroot ≠ 0 then gc_marktrace G1 (G1.heap T).nextroot
        else G1) = G2 at q2 c3 ⊢
    have q3 := marktrace_opt_op c3 (G2.heap T).nextside
    have c4 := Op.opctx c3 q3
    generalize (if (G2.heap T).nextside ≠ 0 then gc_marktrace G2 (G2.heap T).nextside
        else G2) = G3 at q3 c4 ⊢
    obtain ⟨g', h, o4⟩ := markobj_op c4 (G3.heap T).startpt
    exact ⟨g', h, q1.optrans (q2.optrans (q3.optrans o4))⟩

theorem curtrace_op {S : Finset Nat} {fuel : Nat} {g : GState} (c : Ctx 0 S fuel g) :
    ∃ g', gc_traverse_curtrace fuel g = some g' ∧ Op S g g' := by
  unfold gc_traverse_curtrace
  exact guard_op _ (traverse_trace_op c _)

theorem gcroot_op {S : Finset Nat} {fuel : Nat} {g : GState} (c : Ctx 0 S fuel g) :
    ∃ g', gc_mark_gcroot fuel g = some g' ∧ Op S g g' := by
  unfold gc_mark_gcroot
  exact loopM_op _ (fun j g1 c1 => guard_op _ (markobj_op c1 _)) _ _ g c

theorem markUvLoop_op {S : Finset Nat} {fuel : Nat} :
    ∀ (uvs : List Nat) (g : GState), Ctx 0 S fuel g →
      ∃ g', markUvLoop fuel uvs g = some g' ∧ Op S g g'
  | [], g, _ => ⟨g, rfl, Op.oprefl S g⟩
  | uv :: uvs, g, c => by
    unfold markUvLoop
    exact bind_op (guard_op _ (marktv_op c _)) (fun g1 o1 => markUvLoop_op uvs g1 (Op.opctx c o1))

theorem mark_uv_op {S : Finset Nat} {fuel : Nat} {g : GState} (c : Ctx 0 S fuel g) :
    ∃ g', gc_mark_uv fuel g = some g' ∧ Op S g g' := by
  unfold gc_mark_uv
  exact markUvLoop_op _ g c

theorem nodup_moved (new rest as ws ps : List Nat) (o : Nat)
    (h : ((o :: rest) ++ (as ++ (ws ++ ps))).Nodup) (hn : (new ++ rest).Nodup)
    (hd : ∀ x ∈ new, x ∉ (o :: rest) ++ (as ++ (ws ++ ps))) :
    ((new ++ rest) ++ (as ++ (ws ++ ps))).Nodup ∧
    ((new ++ rest) ++ ((o :: as) ++ (ws ++ ps))).Nodup ∧
    ((new ++ rest) ++ (as ++ ((o :: ws) ++ ps))).Nodup := by
  have h0 : (new ++ ((o :: rest) ++ (as ++ (ws ++ ps)))).Nodup :=
    List.nodup_append.mpr ⟨(List.nodup_append.mp hn).1, h, fun x hx hy => hd x hx hy⟩
  have p1 : (new ++ ((o :: rest) ++ (as ++ (ws ++ ps)))).Perm
      (o :: ((new ++ rest) ++ (as ++ (ws ++ ps)))) := by
    rw [← Multiset.coe_eq_coe]
    simp only [← Multiset.coe_add, ← Multiset.cons_coe, ← Multiset.singleton_add,
      List.cons_append]
    abel
  have p2 : (new ++ ((o :: rest) ++ (as ++ (ws ++ ps)))).Perm
      ((new ++ rest) ++ ((o :: as) ++ (ws ++ ps))) := by
    rw [← Multiset.coe_eq_coe]
    simp only [← Multiset.coe_add, ← Multiset.cons_coe, ← Multiset.singleton_add,
      List.cons_append]
    abel
  have p3 : (new ++ ((o :: rest) ++ (as ++ (ws ++ ps)))).Perm
      ((new ++ rest) ++ (as ++ ((o :: ws) ++ ps))) := by
    rw [← Multiset.coe_eq_coe]
    simp only [← Multiset.coe_add, ← Multiset.cons_coe, ← Multiset.singleton_add,
      List.cons_append]
    abel
  exact ⟨(List.nodup_cons.mp (p1.nodup_iff.mp h0)).2, p2.nodup_iff.mp h0, p3.nodup_iff.mp h0⟩

theorem Work.len {S : Finset Nat} {g : GState} {gs as ws ps : List Nat} {ph : Nat}
    (w : Work S g gs as ws ps ph) : (gs ++ (as ++ (ws ++ ps))).length ≤ S.card := by
  rw [← List.toFinset_card_of_nodup w.nodup]
  apply Finset.card_le_card
  intro x hx
  exact (w.ok x (List.mem_toFinset.mp hx)).2.2

theorem Work.gray_fuel {S : Finset Nat} {g : GState} {gs as ws ps : List Nat} {ph : Nat}
    (w : Work S g gs as ws ps ph) {fuel : Nat} (hf : 2 * S.card ≤ fuel) :
    gs.length + mu S g ≤ fuel := by
  have h1 := w.len
  have h2 := mu_le_card S g
  simp only [List.length_append] at h1
  omega

theorem GChain.gheap {g g' : GState} {xs : List Nat} {hd : Nat} (c : GChain g hd xs)
    (h : g'.heap = g.heap) : GChain g' hd xs :=
  GChain.gcongr (fun x => by rw [h]) c

/-- Setting `grayagain` aside, as `atomic` does at its start. -/
theorem Work.park {S : Finset Nat} {g : GState} {gs as ws : List Nat}
    (w : Work S g gs as ws [] 0) (st : Nat) :
    Work S { g with grayagain := 0, state := st } gs [] ws as g.grayagain := by
  have p : (gs ++ (as ++ (ws ++ []))).Perm (gs ++ ([] ++ (ws ++ as))) := by
    rw [← Multiset.coe_eq_coe]
    simp only [← Multiset.coe_add, List.append_nil, List.nil_append]
    abel
  refine ⟨GChain.gheap w.gray rfl, rfl, GChain.gheap w.weak rfl,
    GChain.gheap w.again rfl, p.nodup_iff.mp w.nodup, fun t ht => ?_, w.bytes,
    w.null, w.trace, w.cover⟩
  exact w.ok t (p.mem_iff.mpr ht)

/-- The statement `gray = weak; weak = NULL` of `atomic`. -/
theorem Work.weak_to_gray {S : Finset Nat} {g : GState} {as ws ps : List Nat} {ph : Nat}
    (w : Work S g [] as ws ps ph) :
    Work S { g with gray := g.weak, weak := 0 } ws as [] ps ph := by
  have p : ([] ++ (as ++ (ws ++ ps))).Perm (ws ++ (as ++ ([] ++ ps))) := by
    rw [← Multiset.coe_eq_coe]
    simp only [← Multiset.coe_add, List.nil_append]
    abel
  refine ⟨GChain.gheap w.weak rfl, GChain.gheap w.again rfl, rfl,
    GChain.gheap w.parked rfl, p.nodup_iff.mp w.nodup, fun t ht => ?_, w.bytes,
    w.null, w.trace, w.cover⟩
  exact w.ok t (p.mem_iff.mpr ht)

/-- The statement `gray = grayagain` of `atomic`, for the list set aside. -/
theorem Work.parked_to_gray {S : Finset Nat} {g : GState} {as ws ps : List Nat} {ph : Nat}
    (w : Work S g [] as ws ps ph) :
    Work S { g with gray := ph } ps as ws [] 0 := by
  have p : ([] ++ (as ++ (ws ++ ps))).Perm (ps ++ (as ++ (ws ++ []))) := by
    rw [← Multiset.coe_eq_coe]
    simp only [← Multiset.coe_add, List.nil_append, List.append_nil]
    abel
  refine ⟨GChain.gheap w.parked rfl, GChain.gheap w.again rfl,
    GChain.gheap w.weak rfl, rfl, p.nodup_iff.mp w.nodup, fun t ht => ?_, w.bytes,
    w.null, w.trace, w.cover⟩
  exact w.ok t (p.mem_iff.mpr ht)

set_option maxRecDepth 100000 in

theorem or8_white : ∀ r, r < 256 → (r ||| 8) &&& 3 = r &&& 3 := by decide

theorem white_markfinalized (m : Nat) (hm : m < 256) :
    (m ||| LJ_GC_FINALIZED) &&& LJ_GC_WHITES = m &&& LJ_GC_WHITES :=
  or8_white m hm

/-- The work lists after `lj_gc_separateudata`: it changes no link `gclist`,
no white bit and no list head. -/
theorem Work.sep {S : Finset Nat} {g g' : GState} {gs as ws ps : List Nat} {ph : Nat}
    (w : Work S g gs as ws ps ph) {all : Bool} {q : Nat} {xs ms : List Nat} {m m' : Nat}
    (p : SepPost g all q xs ms m g' m') : Work S g' gs as ws ps ph := by
  have hgl : ∀ a, (g'.heap a).gclist = (g.heap a).gclist := fun a =>
    (show (shapeN (g'.heap a)).gclist = (shapeN (g.heap a)).gclist by rw [p.shape a])
  have hgct : ∀ a, (g'.heap a).gct = (g.heap a).gct := fun a =>
    (show (shapeN (g'.heap a)).gct = (shapeN (g.heap a)).gct by rw [p.shape a])
  have hmk : ∀ a, (g'.heap a).marked = (g.heap a).marked ∨
      (g'.heap a).marked = (g.heap a).marked ||| LJ_GC_FINALIZED := fun a => by
    by_cases ha : a ∈ xs
    · rw [p.marked_in a ha]
      split
      · exact Or.inr rfl
      · exact Or.inl rfl
    · exact Or.inl (p.marked_out a ha)
  have hw : ∀ a, iswhite (g'.heap a) ↔ iswhite (g.heap a) := fun a => by
    unfold iswhite
    rcases hmk a with e | e
    · rw [e]
    · rw [e, white_markfinalized _ (w.bytes a)]
  have e1 : g'.gray = g.gray := (show g'.restSep.gray = g.restSep.gray by rw [p.rest])
  have e2 : g'.grayagain = g.grayagain :=
    (show g'.restSep.grayagain = g.restSep.grayagain by rw [p.rest])
  have e3 : g'.weak = g.weak := (show g'.restSep.weak = g.restSep.weak by rw [p.rest])
  have e4 : g'.traceref = g.traceref :=
    (show g'.restSep.traceref = g.restSep.traceref by rw [p.rest])
  refine ⟨?_, ?_, ?_, GChain.gcongr hgl w.parked, w.nodup, fun t ht => ?_, fun a => ?_, ?_, ?_, ?_⟩
  · rw [e1]; exact GChain.gcongr hgl w.gray
  · rw [e2]; exact GChain.gcongr hgl w.again
  · rw [e3]; exact GChain.gcongr hgl w.weak
  · obtain ⟨a, b, c⟩ := w.ok t ht
    exact ⟨fun h => a ((hw t).mp h), by rw [hgct]; exact b, c⟩
  · rcases hmk a with e | e
    · rw [e]; exact w.bytes a
    · rw [e]; exact or_byte (w.bytes a) (by decide)
  · exact fun h => w.null ((hw 0).mp h)
  · intro n
    rw [e4, hgct]; exact w.trace n
  · exact fun a ha => w.cover a ((hw a).mp ha)

/-- Marking a white object is a marking operation and returns, given fuel for
the white objects. -/
theorem mark_op {S : Finset Nat} {fuel : Nat} {g : GState} (c : Ctx 0 S fuel g) (a : Nat)
    (ha : iswhite (g.heap a)) : ∃ g', gc_mark fuel g a = some g' ∧ Op S g g' := by
  obtain ⟨g', h⟩ := c.total ha
  obtain ⟨r, _⟩ := gc_mark_prop 0 S fuel g a g' ha c.null h
  exact ⟨g', h, r.base, fun x => (gc_mark_rel fuel g a g' ha h).1.stay x, gc_mark_byt _ _ _ _ h⟩

theorem curwhite_lt (g : GState) : curwhite g < 256 :=
  Nat.lt_of_le_of_lt Nat.and_le_right (by decide)

set_option maxRecDepth 100000 in

theorem makewhite_byte : ∀ m, m < 256 → ∀ c, c < 4 → c ≠ 0 →
    ((m &&& not8 LJ_GC_COLORS) ||| c) &&& 3 ≠ 0 := by decide

theorem makewhite_white (g : GState) (x : GCobj) (hx : x.marked < 256) (hc : curwhite g ≠ 0) :
    iswhite (makewhite g x) := by
  unfold iswhite makewhite
  have h4 : curwhite g < 4 := Nat.lt_of_le_of_lt Nat.and_le_right (by decide)
  exact makewhite_byte x.marked hx (curwhite g) h4 hc

/-- Making an object white that is on no work list keeps the lists well
formed. -/
theorem Work.whiten {S : Finset Nat} {g : GState} {gs as ws ps : List Nat} {ph : Nat}
    (w : Work S g gs as ws ps ph) (u : Nat) (hu : u ∉ gs ++ (as ++ (ws ++ ps))) (hS : u ∈ S)
    (h0 : u ≠ 0) : Work S (g.modObj u (makewhite g)) gs as ws ps ph := by
  have hne : ∀ t ∈ gs ++ (as ++ (ws ++ ps)), (g.modObj u (makewhite g)).heap t = g.heap t :=
    fun t ht => modObj_heap_ne _ _ _ _ (fun e => hu (e ▸ ht))
  have hch : ∀ {l : List Nat}, (∀ t ∈ l, t ∈ gs ++ (as ++ (ws ++ ps))) → ∀ {hd : Nat},
      GChain g hd l → GChain (g.modObj u (makewhite g)) hd l := fun hl _ hc =>
    GChain.congr_mem (fun x hx => by rw [hne x (hl x hx)]) hc
  refine ⟨hch (fun t ht => List.mem_append_left _ ht) w.gray,
    hch (fun t ht => List.mem_append_right _ (List.mem_append_left _ ht)) w.again,
    hch (fun t ht => List.mem_append_right _ (List.mem_append_right _
      (List.mem_append_left _ ht))) w.weak,
    hch (fun t ht => List.mem_append_right _ (List.mem_append_right _
      (List.mem_append_right _ ht))) w.parked,
    w.nodup, fun t ht => by rw [hne t ht]; exact w.ok t ht, fun a => ?_, ?_, ?_, ?_⟩
  · rw [modObj_heap]
    split
    · exact or_byte (and_byte _ (w.bytes u)) (curwhite_lt g)
    · exact w.bytes a
  · rw [modObj_heap_ne _ _ _ _ (Ne.symm h0)]; exact w.null
  · intro n
    show ((g.modObj u (makewhite g)).heap (g.traceref n)).gct = GCT.trace
    rw [modObj_heap]
    split
    · rename_i e
      show (g.heap u).gct = GCT.trace
      rw [← e]; exact w.trace n
    · exact w.trace n
  · intro a ha
    rw [modObj_heap] at ha
    split at ha
    · rename_i e; rw [e]; exact hS
    · exact w.cover a ha

theorem Circ.tail_next {g : GState} {tail : Nat} {m : Nat} {rest : List Nat}
    (h : Circ g tail (m :: rest)) : (g.heap tail).nextgc = m := by
  obtain ⟨h1, h2⟩ := h
  have e := List.dropLast_append_getLast (List.cons_ne_nil m rest)
  rw [← h1] at e
  rw [← e] at h2
  exact (Seg.snoc_iff.mp h2).2.2

theorem getLast_cons_mem {x : Nat} {xs : List Nat} (hne : xs ≠ []) :
    (x :: xs).getLast (List.cons_ne_nil x xs) ∈ xs := by
  rw [List.getLast_cons hne]
  exact List.getLast_mem hne

/-- The loop of `gc_mark_mmudata` over the rest `rem` of the circular list,
on well-formed work lists: it returns and keeps the lists well formed. -/
theorem markMmudataLoop_work {S : Finset Nat} (root : Nat) :
    ∀ (rem : List Nat) (hne : rem ≠ []) (n : Nat) (g : GState) (u e : Nat)
      (gs as ws ps : List Nat) (ph : Nat),
    Work S g gs as ws ps ph → Seg g (g.heap u).nextgc rem e → root = rem.getLast hne →
    rem.Nodup → (∀ x ∈ rem, ¬ trav (g.heap x).gct ∧ x ∈ S) → curwhite g ≠ 0 →
    rem.length + S.card ≤ n →
    ∃ g' gs', markMmudataLoop root n g u = some g' ∧ Work S g' gs' as ws ps ph ∧
      (∀ a, a ∉ rem → ¬ iswhite (g.heap a) → ¬ iswhite (g'.heap a))
  | [], hne, _, _, _, _, _, _, _, _, _, _, _, _, _, _, _, _ => absurd rfl hne
  | x :: xs, hne, 0, _, _, _, _, _, _, _, _, _, _, _, _, _, _, hn => by
    simp only [List.length_cons] at hn; omega
  | x :: xs, hne, n + 1, g, u, e, gs, as, ws, ps, ph, w, hseg, hroot, hnd, hty, hcw, hn => by
    obtain ⟨hux, hx0, hrest⟩ := hseg
    have hxl : x ∉ gs ++ (as ++ (ws ++ ps)) := fun hm =>
      (hty x (List.mem_cons_self _ _)).1 (w.ok x hm).2.1
    have w1 := w.whiten x hxl (hty x (List.mem_cons_self _ _)).2 hx0
    have hwx : iswhite ((g.modObj x (makewhite g)).heap x) := by
      rw [modObj_heap_same]
      exact makewhite_white g _ (w.bytes x) hcw
    have hcard : S.card ≤ n := by
      simp only [List.length_cons] at hn; omega
    obtain ⟨g2, h2, o2⟩ := mark_op (w1.wctx hcard) x hwx
    obtain ⟨new, w2, _, _⟩ := w1.op o2
    have hnext : ∀ a, (g2.heap a).nextgc = (g.heap a).nextgc := fun a => by
      have e1 : (g2.heap a).nextgc = ((g.modObj x (makewhite g)).heap a).nextgc :=
        (show (shapeS (g2.heap a)).nextgc = (shapeS ((g.modObj x (makewhite g)).heap a)).nextgc
          by rw [o2.base.shape a])
      rw [e1, modObj_heap]
      split
      · rename_i e'; rw [e']; rfl
      · rfl
    have hgct : ∀ a, (g2.heap a).gct = (g.heap a).gct := fun a => by
      have e1 : (g2.heap a).gct = ((g.modObj x (makewhite g)).heap a).gct :=
        (show (shapeS (g2.heap a)).gct = (shapeS ((g.modObj x (makewhite g)).heap a)).gct
          by rw [o2.base.shape a])
      rw [e1, modObj_heap]
      split
      · rename_i e'; rw [e']; rfl
      · rfl
    have hcw2 : curwhite g2 = curwhite g := by
      unfold curwhite
      have : g2.currentwhite = (g.modObj x (makewhite g)).currentwhite :=
        (show g2.restProp.currentwhite = (g.modObj x (makewhite g)).restProp.currentwhite
          by rw [o2.base.rest])
      rw [this]; rfl
    have hnw2 : ∀ a, a ∉ x :: xs → ¬ iswhite (g.heap a) → ¬ iswhite (g2.heap a) :=
      fun a ha hw => o2.base.nonwhite (by
        rw [modObj_heap_ne g x a _ (fun e' => ha (by rw [e']; exact List.mem_cons_self _ _))]
        exact hw)
    unfold markMmudataLoop
    simp only []
    rw [hux, h2]
    simp only [Option.some_bind]
    by_cases hxr : x ≠ root
    · rw [if_pos hxr]
      have hxs : xs ≠ [] := by
        intro e'
        subst e'
        exact hxr hroot.symm
      have hroot' : root = xs.getLast hxs := by
        rw [hroot, List.getLast_cons hxs]
      obtain ⟨g', gs', h', w', nw'⟩ :=
        markMmudataLoop_work root xs hxs n g2 x e (new ++ gs) as ws ps ph
        w2 (by rw [hnext x]; exact Seg.scongr (fun y _ => hnext y) hrest) hroot'
        (List.nodup_cons.mp hnd).2
        (fun y hy => by rw [hgct]; exact hty y (List.mem_cons_of_mem _ hy))
        (by rw [hcw2]; exact hcw)
        (by simp only [List.length_cons] at hn; omega)
      exact ⟨g', gs', h', w', fun a ha hw =>
        nw' a (fun hm => ha (List.mem_cons_of_mem _ hm)) (hnw2 a ha hw)⟩
    · rw [if_neg hxr]
      exact ⟨g2, new ++ gs, rfl, w2, hnw2⟩

/-- The function `gc_mark_mmudata` on well-formed work lists and a
well-formed `mmudata` list of objects that `propagatemark` does not traverse:
it returns and keeps the work lists well formed. -/
theorem mark_mmudata_work {S : Finset Nat} {g : GState} {gs as ws ps : List Nat} {ph : Nat}
    (w : Work S g gs as ws ps ph) {ms : List Nat} (hc : Circ g g.mmudata ms) (hnd : ms.Nodup)
    (hty : ∀ x ∈ ms, ¬ trav (g.heap x).gct ∧ x ∈ S) (hcw : curwhite g ≠ 0) {fuel : Nat}
    (hf : ms.length + S.card ≤ fuel) :
    ∃ g' gs', gc_mark_mmudata fuel g = some g' ∧ Work S g' gs' as ws ps ph ∧
      (∀ a, a ∉ ms → ¬ iswhite (g.heap a) → ¬ iswhite (g'.heap a)) := by
  unfold gc_mark_mmudata
  cases ms with
  | nil =>
    have h0 : g.mmudata = 0 := hc
    rw [if_neg (not_not.mpr h0)]
    exact ⟨g, gs, rfl, w, fun _ _ hw => hw⟩
  | cons m rest =>
    have hne := (hc.tail_mem (List.cons_ne_nil m rest)).2
    rw [if_pos hne]
    exact markMmudataLoop_work g.mmudata (m :: rest) (List.cons_ne_nil m rest) fuel g g.mmudata m
      gs as ws ps ph w (by rw [hc.tail_next]; exact hc.2) hc.1 hnd hty hcw hf

/-- A `propagatemark` changes the head of `grayagain` only for a thread or a
table, and the head of `weak` only for a table. -/
theorem propagatemark_heads (fuel : Nat) (g : GState) (r : GState × Nat)
    (h : propagatemark fuel g = some r) :
    (r.1.grayagain ≠ g.grayagain →
      (g.heap g.gray).gct = GCT.thread ∨ (g.heap g.gray).gct = GCT.tab) ∧
    (r.1.weak ≠ g.weak → (g.heap g.gray).gct = GCT.tab) := by
  cases hg : (g.heap g.gray).gct
  case tab => exact ⟨fun _ => Or.inr rfl, fun _ => rfl⟩
  case thread =>
    refine ⟨fun _ => Or.inl rfl, fun hne => absurd ?_ hne⟩
    rw [propagatemark_eq, hg] at h
    simp only [] at h
    obtain ⟨g', h1, h2⟩ := bind_some h
    cases h2
    exact (gc_traverse_thread_stay 0 _ _ _ _ h1).weak
  case func =>
    rw [propagatemark_eq, hg] at h
    simp only [] at h
    obtain ⟨g', h1, h2⟩ := bind_some h
    cases h2
    have st := gc_traverse_func_stay 0 _ _ _ _ h1
    exact ⟨fun hne => absurd st.grayagain hne, fun hne => absurd st.weak hne⟩
  case proto =>
    rw [propagatemark_eq, hg] at h
    simp only [] at h
    obtain ⟨g', h1, h2⟩ := bind_some h
    cases h2
    have st := gc_traverse_proto_stay 0 _ _ _ _ h1
    exact ⟨fun hne => absurd st.grayagain hne, fun hne => absurd st.weak hne⟩
  all_goals
    rw [propagatemark_eq, hg] at h
    simp only [] at h
    obtain ⟨g', h1, h2⟩ := bind_some h
    cases h2
    have st := gc_traverse_trace_stay 0 _ _ _ _ h1
    exact ⟨fun hne => absurd st.grayagain hne, fun hne => absurd st.weak hne⟩

theorem Work.sane {S : Finset Nat} {g : GState} {gs as ws ps : List Nat} {ph : Nat}
    (w : Work S g gs as ws ps ph) : Sane S g :=
  ⟨w.bytes, w.null, w.trace, w.cover⟩

theorem Sane.start {S : Finset Nat} {g : GState} (s : Sane S g) (h1 : g.gray = 0)
    (h2 : g.grayagain = 0) (h3 : g.weak = 0) : Work S g [] [] [] [] 0 :=
  ⟨h1, h2, h3, rfl, List.nodup_nil, fun t ht => absurd ht (List.not_mem_nil t), s.bytes, s.null,
    s.trace, s.cover⟩

theorem Op.steady {S : Finset Nat} {g g' : GState} (h : Op S g g') : Steady g g' :=
  ⟨h.base.shape, h.base.rest⟩

theorem Steady.dobj {g g' : GState} (h : Steady g g') (a : Nat) :
    (g'.heap a).nextgc = (g.heap a).nextgc ∧ (g'.heap a).openupval = (g.heap a).openupval ∧
    (g'.heap a).gct = (g.heap a).gct ∧ (g'.heap a).age = (g.heap a).age ∧
    (g'.heap a).metatable = (g.heap a).metatable ∧ (g'.heap a).mmGc = (g.heap a).mmGc :=
  ⟨(show (steadyObj (g'.heap a)).nextgc = (steadyObj (g.heap a)).nextgc by rw [h.core a]),
   (show (steadyObj (g'.heap a)).openupval = (steadyObj (g.heap a)).openupval by rw [h.core a]),
   (show (steadyObj (g'.heap a)).gct = (steadyObj (g.heap a)).gct by rw [h.core a]),
   (show (steadyObj (g'.heap a)).age = (steadyObj (g.heap a)).age by rw [h.core a]),
   (show (steadyObj (g'.heap a)).metatable = (steadyObj (g.heap a)).metatable by rw [h.core a]),
   (show (steadyObj (g'.heap a)).mmGc = (steadyObj (g.heap a)).mmGc by rw [h.core a])⟩

theorem Steady.dkeeps {g g' : GState} (h : Steady g g') :
    g'.mainthread = g.mainthread ∧ g'.mmudata = g.mmudata ∧
    g'.currentwhite = g.currentwhite ∧ g'.root = g.root ∧ g'.strhash = g.strhash ∧
    g'.strmask = g.strmask ∧ g'.state = g.state ∧ g'.kind = g.kind ∧
    g'.jit_base = g.jit_base ∧ g'.freed = g.freed :=
  ⟨(show g'.restSteady.mainthread = g.restSteady.mainthread by rw [h.rest]),
   (show g'.restSteady.mmudata = g.restSteady.mmudata by rw [h.rest]),
   (show g'.restSteady.currentwhite = g.restSteady.currentwhite by rw [h.rest]),
   (show g'.restSteady.root = g.restSteady.root by rw [h.rest]),
   (show g'.restSteady.strhash = g.restSteady.strhash by rw [h.rest]),
   (show g'.restSteady.strmask = g.restSteady.strmask by rw [h.rest]),
   (show g'.restSteady.state = g.restSteady.state by rw [h.rest]),
   (show g'.restSteady.kind = g.restSteady.kind by rw [h.rest]),
   (show g'.restSteady.jit_base = g.restSteady.jit_base by rw [h.rest]),
   (show g'.restSteady.freed = g.restSteady.freed by rw [h.rest])⟩

theorem GChain.head_cases {g : GState} {h : Nat} {l : List Nat} (c : GChain g h l) :
    h = 0 ∨ h ∈ l := by
  cases l with
  | nil => exact Or.inl c
  | cons x xs => exact Or.inr (by rw [c.1]; exact List.mem_cons_self _ _)

theorem mem_moved (new rest as ws ps : List Nat) (o t : Nat) :
    (t ∈ (new ++ rest) ++ (as ++ (ws ++ ps)) →
      t ∈ new ∨ t = o ∨ t ∈ rest ++ (as ++ (ws ++ ps))) ∧
    (t ∈ (new ++ rest) ++ ((o :: as) ++ (ws ++ ps)) →
      t ∈ new ∨ t = o ∨ t ∈ rest ++ (as ++ (ws ++ ps))) ∧
    (t ∈ (new ++ rest) ++ (as ++ ((o :: ws) ++ ps)) →
      t ∈ new ∨ t = o ∨ t ∈ rest ++ (as ++ (ws ++ ps))) := by
  simp only [List.mem_append, List.mem_cons]
  refine ⟨?_, ?_, ?_⟩ <;> intro h <;> tauto

/-- One `propagatemark` on well-formed work lists: it returns, the head `o`
of the gray list is replaced by objects that were white, `o` is dropped or
pushed on `grayagain` (a thread or a table) or on `weak` (a table), and the
lists are well formed again. -/
theorem propagatemark_work {S : Finset Nat} {g : GState} {o : Nat}
    {rest as ws ps : List Nat} {ph : Nat} (fuel : Nat)
    (w : Work S g (o :: rest) as ws ps ph) (hf : mu S g ≤ fuel) :
    ∃ r new as' ws', propagatemark fuel g = some r ∧
      Work S r.1 (new ++ rest) as' ws' ps ph ∧ new.length + mu S r.1 ≤ mu S g ∧
      Steady g r.1 ∧
      (∀ t ∈ as', t ∈ as ∨ thrOrTab (g.heap t)) ∧
      (∀ t ∈ ws', t ∈ ws ∨ (g.heap t).gct = GCT.tab) ∧
      (∀ a, ¬ iswhite (g.heap a) → ¬ iswhite (r.1.heap a)) := by
  have hB := w.grayB
  have hgo : g.gray = o := hB.chain.1
  have ho0 : o ≠ 0 := hB.chain.2.1
  obtain ⟨r, h, pb⟩ := propagatemark_total fuel hB w.null w.trace w.cover hf
  obtain ⟨bpop, gG, ho, hne⟩ := popGray_base S hB
  have hnw : ¬ iswhite (g.heap o) := (hB.ok o (List.mem_cons_self _ _)).1
  have hnw' : ¬ iswhite ((popGray g).heap o) := bpop.nonwhite hnw
  obtain ⟨new, gn, hwnew, hmu⟩ := pb.gray rest gG ho hnw' (bpop.bwhiteIn w.cover)
  have base : PropBase o S g r.1 := bpop.btrans pb
  obtain ⟨oth, heads⟩ := propagatemark_frame fuel g r h (by rw [hgo]; exact hnw) (w.bytes _)
  obtain ⟨kA, kW⟩ := propagatemark_heads fuel g r h
  rw [hgo] at oth heads kA kW
  have hnewo : ∀ x ∈ new, x ≠ o := fun x hx e => hnw' (e ▸ hwnew x hx)
  have hneww : ∀ x ∈ new, iswhite (g.heap x) := fun x hx => by
    have := hwnew x hx
    rw [hne x (hnewo x hx)] at this
    exact this
  have hnd := w.nodup
  have hndo : ∀ t ∈ rest ++ (as ++ (ws ++ ps)), t ≠ o := fun t ht e => by
    rw [List.cons_append] at hnd
    exact (List.nodup_cons.mp hnd).1 (e ▸ ht)
  have hold : ∀ t ∈ rest ++ (as ++ (ws ++ ps)),
      (r.1.heap t).gclist = (g.heap t).gclist ∧ ¬ iswhite (r.1.heap t) ∧
      trav (r.1.heap t).gct ∧ t ∈ S := fun t ht => by
    have hm : t ∈ (o :: rest) ++ (as ++ (ws ++ ps)) := by
      rw [List.cons_append]; exact List.mem_cons_of_mem _ ht
    obtain ⟨a, b, c⟩ := w.ok t hm
    refine ⟨(oth t (hndo t ht) a (w.bytes t)).2, base.nonwhite a, ?_, c⟩
    rw [(shapeS_fields (base.shape t)).gct]; exact b
  have hoo : ¬ iswhite (r.1.heap o) ∧ trav (r.1.heap o).gct ∧ o ∈ S := by
    obtain ⟨a, b, c⟩ := w.ok o (by rw [List.cons_append]; exact List.mem_cons_self _ _)
    refine ⟨base.nonwhite a, ?_, c⟩
    rw [(shapeS_fields (base.shape o)).gct]; exact b
  have hnn : ∀ t ∈ new, ¬ iswhite (r.1.heap t) ∧ trav (r.1.heap t).gct ∧ t ∈ S := fun t ht =>
    ⟨(gn.ok t (List.mem_append_left _ ht)).1, (gn.ok t (List.mem_append_left _ ht)).2,
      w.cover t (hneww t ht)⟩
  have hall : ∀ t, (t ∈ new ∨ t = o ∨ t ∈ rest ++ (as ++ (ws ++ ps))) →
      ¬ iswhite (r.1.heap t) ∧ trav (r.1.heap t).gct ∧ t ∈ S := by
    intro t ht
    rcases ht with h1 | h1 | h1
    · exact hnn t h1
    · rw [h1]; exact hoo
    · exact ⟨(hold t h1).2.1, (hold t h1).2.2.1, (hold t h1).2.2.2⟩
  have hch : ∀ {l : List Nat}, (∀ t ∈ l, t ∈ rest ++ (as ++ (ws ++ ps))) → ∀ {hd : Nat},
      GChain g hd l → GChain r.1 hd l := fun hl _ hc =>
    GChain.congr_mem (fun x hx => (hold x (hl x hx)).1) hc
  have cA : GChain r.1 g.grayagain as :=
    hch (fun t ht => List.mem_append_right _ (List.mem_append_left _ ht)) w.again
  have cW : GChain r.1 g.weak ws :=
    hch (fun t ht => List.mem_append_right _ (List.mem_append_right _
      (List.mem_append_left _ ht))) w.weak
  have cP : GChain r.1 ph ps :=
    hch (fun t ht => List.mem_append_right _ (List.mem_append_right _
      (List.mem_append_right _ ht))) w.parked
  obtain ⟨n1, n2, n3⟩ := nodup_moved new rest as ws ps o hnd gn.nodup (fun x hx hm =>
    (w.ok x hm).1 (hneww x hx))
  have hbytes : ∀ a, (r.1.heap a).marked < 256 := fun a =>
    propagatemark_byt fuel g r h a (w.bytes a)
  have hnull := base.nonwhite w.null
  have htrace : TraceOK r.1 := by
    intro n
    rw [(restProp_fields base.rest).2.1, (shapeS_fields (base.shape _)).gct]
    exact w.trace n
  have hcover := base.bwhiteIn w.cover
  have hmu' : new.length + mu S r.1 ≤ mu S g := le_trans hmu bpop.mu_le
  have hst : Steady g r.1 := ⟨base.shape, base.rest⟩
  have hoA : o ≠ g.grayagain := fun e => by
    rcases w.again.head_cases with h0 | hm
    · exact ho0 (e.trans h0)
    · exact hndo _ (List.mem_append_right _ (List.mem_append_left _ hm)) e.symm
  have hoW : o ≠ g.weak := fun e => by
    rcases w.weak.head_cases with h0 | hm
    · exact ho0 (e.trans h0)
    · exact hndo _ (List.mem_append_right _ (List.mem_append_right _
        (List.mem_append_left _ hm))) e.symm
  rcases heads with ⟨e1, e2⟩ | ⟨e1, e2, e3⟩ | ⟨e1, e2, e3⟩
  · refine ⟨r, new, as, ws, h, ⟨gn.chain, by rw [e1]; exact cA, by rw [e2]; exact cW, cP, n1,
      fun t ht => hall t ((mem_moved new rest as ws ps o t).1 ht), hbytes, hnull, htrace,
      hcover⟩, hmu', hst, fun t ht => Or.inl ht, fun t ht => Or.inl ht,
      fun _ hw => base.nonwhite hw⟩
  · refine ⟨r, new, o :: as, ws, h, ⟨gn.chain, ?_, by rw [e3]; exact cW, cP, n2,
      fun t ht => hall t ((mem_moved new rest as ws ps o t).2.1 ht), hbytes, hnull, htrace,
      hcover⟩, hmu', hst, ?_, fun t ht => Or.inl ht, fun _ hw => base.nonwhite hw⟩
    · exact ⟨e1, ho0, by rw [e2]; exact cA⟩
    · intro t ht
      rcases List.mem_cons.mp ht with e | hm
      · rw [e]
        exact Or.inr (kA (by rw [e1]; exact hoA))
      · exact Or.inl hm
  · refine ⟨r, new, as, o :: ws, h, ⟨gn.chain, by rw [e3]; exact cA, ?_, cP, n3,
      fun t ht => hall t ((mem_moved new rest as ws ps o t).2.2 ht), hbytes, hnull, htrace,
      hcover⟩, hmu', hst, fun t ht => Or.inl ht, ?_, fun _ hw => base.nonwhite hw⟩
    · exact ⟨e1, ho0, by rw [e2]; exact cW⟩
    · intro t ht
      rcases List.mem_cons.mp ht with e | hm
      · rw [e]
        exact Or.inr (kW (by rw [e1]; exact hoW))
      · exact Or.inl hm

/-- The loop `gc_propagate_gray` on well-formed work lists returns with the
gray list empty and the lists well formed; what it pushed on `grayagain` are
threads and tables, what it pushed on `weak` are tables. -/
theorem propagate_work {S : Finset Nat} : ∀ (n : Nat) (g : GState)
    (gs as ws ps : List Nat) (ph : Nat),
    Work S g gs as ws ps ph → gs.length + mu S g ≤ n →
    ∃ r as' ws', gc_propagate_gray n g = some r ∧ Work S r.1 [] as' ws' ps ph ∧
      Steady g r.1 ∧
      (∀ t ∈ as', t ∈ as ∨ thrOrTab (g.heap t)) ∧
      (∀ t ∈ ws', t ∈ ws ∨ (g.heap t).gct = GCT.tab) ∧
      (∀ a, ¬ iswhite (g.heap a) → ¬ iswhite (r.1.heap a))
  | 0, g, gs, as, ws, ps, ph, w, hn => by
    have hl : gs = [] := List.length_eq_zero.mp (by omega)
    subst hl
    have h0 : g.gray = 0 := w.gray
    refine ⟨(g, 0), as, ws, ?_, w, Steady.drefl g, fun t ht => Or.inl ht, fun t ht => Or.inl ht,
      fun _ hw => hw⟩
    unfold gc_propagate_gray
    rw [if_pos h0]
  | n + 1, g, gs, as, ws, ps, ph, w, hn => by
    cases gs with
    | nil =>
      have h0 : g.gray = 0 := w.gray
      refine ⟨(g, 0), as, ws, ?_, w, Steady.drefl g, fun t ht => Or.inl ht,
        fun t ht => Or.inl ht, fun _ hw => hw⟩
      unfold gc_propagate_gray
      rw [if_pos h0]
    | cons o rest =>
      have hne : g.gray ≠ 0 := by
        rw [w.gray.1]; exact w.gray.2.1
      have hfu : mu S g ≤ n := by
        simp only [List.length_cons] at hn; omega
      obtain ⟨r, new, as1, ws1, h, w1, hmu, s1, ka1, kw1, nw1⟩ := propagatemark_work n w hfu
      obtain ⟨r2, as2, ws2, h2, w2, s2, ka2, kw2, nw2⟩ :=
        propagate_work n r.1 (new ++ rest) as1 ws1 ps ph w1 (by
          simp only [List.length_cons, List.length_append] at hn ⊢; omega)
      refine ⟨(r2.1, r.2 + r2.2), as2, ws2, ?_, w2, s1.dtrans s2, ?_, ?_,
        fun a hw => nw2 a (nw1 a hw)⟩
      · unfold gc_propagate_gray
        rw [if_neg hne, h]
        simp only [Option.some_bind]
        rw [h2]
        rfl
      · intro t ht
        rcases ka2 t ht with hm | hk
        · exact ka1 t hm
        · refine Or.inr ?_
          unfold thrOrTab at hk ⊢
          rw [(s1.dobj t).2.2.1] at hk
          exact hk
      · intro t ht
        rcases kw2 t ht with hm | hk
        · exact kw1 t hm
        · refine Or.inr ?_
          rw [(s1.dobj t).2.2.1] at hk
          exact hk

theorem Still.vrefl (g : GState) : Still g g := ⟨fun _ => rfl, Byt.zrefl g, fun _ h => h, rfl⟩

theorem Still.vtrans {a b c : GState} (h1 : Still a b) (h2 : Still b c) : Still a c :=
  ⟨fun x => (h2.obj x).trans (h1.obj x), h1.byt.ztrans h2.byt,
    fun x h => h1.white x (h2.white x h), h2.rest.trans h1.rest⟩

theorem Still.vmod (g : GState) (o : Nat) (f : GCobj → GCobj)
    (hf : slotObj (f (g.heap o)) = slotObj (g.heap o))
    (hm : (f (g.heap o)).marked = (g.heap o).marked) : Still g (g.modObj o f) := by
  refine ⟨fun a => ?_, Byt.zmod g o f (fun h => by rw [hm]; exact h), fun a h => ?_, rfl⟩
  · rw [modObj_heap]
    split_ifs with h
    · subst h; exact hf
    · rfl
  · rw [modObj_heap] at h
    split_ifs at h with e
    · subst e
      unfold iswhite at h ⊢
      rw [hm] at h
      exact h
    · exact h

theorem Still.vmarkstr (g : GState) (o : Nat) : Still g (g.modObj o gc_mark_str) := by
  refine ⟨fun a => ?_, Byt.zmod g o _ (fun h => and_byte _ h), fun a h => ?_, rfl⟩
  · rw [modObj_heap]
    split_ifs with h
    · subst h; rfl
    · rfl
  · rw [modObj_heap] at h
    split_ifs at h with e
    · subst e
      unfold iswhite gc_mark_str at h
      simp only [] at h
      unfold iswhite
      intro hz
      apply h
      rw [Nat.land_assoc, Nat.land_comm (not8 LJ_GC_WHITES), ← Nat.land_assoc, hz]
      exact Nat.zero_and _
    · exact h

theorem gc_mayclear_still (g : GState) (o : TValue) (val : Bool) :
    Still g (gc_mayclear g o val).1 := by
  unfold gc_mayclear
  split
  · split
    · exact Still.vmarkstr g _
    · split
      · exact Still.vrefl g
      · split <;> exact Still.vrefl g
  · exact Still.vrefl g

theorem loopT_still (f : Nat → GState → GState) (hf : ∀ i g, Still g (f i g)) :
    ∀ (k i : Nat) (g : GState), Still g (loopT f k i g)
  | 0, _, g => Still.vrefl g
  | k + 1, i, g => (hf i g).vtrans (loopT_still f hf k (i + 1) (f i g))

theorem clearArraySlot_still (t i : Nat) (g : GState) : Still g (clearArraySlot t i g) := by
  unfold clearArraySlot
  simp only []
  split
  · exact (gc_mayclear_still g _ true).vtrans (Still.vmod _ t _ rfl rfl)
  · exact gc_mayclear_still g _ true

theorem clearNode_still (t i : Nat) (g : GState) : Still g (clearNode t i g) := by
  unfold clearNode
  split
  · exact Still.vrefl g
  · simp only []
    have hk := gc_mayclear_still g ((g.heap t).node.getD i {}).key false
    generalize gc_mayclear g ((g.heap t).node.getD i {}).key false = rk at hk ⊢
    have hv : Still g (if rk.2 = true then rk
        else gc_mayclear rk.1 ((rk.1.heap t).node.getD i {}).val true).1 := by
      split
      · exact hk
      · exact hk.vtrans (gc_mayclear_still _ _ true)
    generalize (if rk.2 = true then rk
        else gc_mayclear rk.1 ((rk.1.heap t).node.getD i {}).val true) = rv at hv ⊢
    split
    · exact hv.vtrans (Still.vmod _ t _ rfl rfl)
    · exact hv

theorem clearweakTab_still (g : GState) (t : Nat) : Still g (clearweakTab g t) := by
  unfold clearweakTab
  simp only []
  have h1 : Still g (if (g.heap t).marked &&& LJ_GC_WEAKVAL ≠ 0 then
      loopT (clearArraySlot t) (g.heap t).array.length 0 g else g) := by
    split
    · exact loopT_still _ (clearArraySlot_still t) _ _ _
    · exact Still.vrefl g
  generalize (if (g.heap t).marked &&& LJ_GC_WEAKVAL ≠ 0 then
      loopT (clearArraySlot t) (g.heap t).array.length 0 g else g) = G at h1 ⊢
  split
  · exact h1.vtrans (loopT_still _ (clearNode_still t) _ _ _)
  · exact h1

theorem gc_clearweak_still : ∀ (n : Nat) (g : GState) (o : Nat) (g' : GState),
    gc_clearweak n g o = some g' → Still g g'
  | 0, g, o, g', h => by
    unfold gc_clearweak at h
    split at h
    · cases h; exact Still.vrefl g
    · cases h
  | n + 1, g, o, g', h => by
    unfold gc_clearweak at h
    split at h
    · cases h; exact Still.vrefl g
    · exact (clearweakTab_still g o).vtrans (gc_clearweak_still n _ _ _ h)

theorem Still.vobj {g g' : GState} (h : Still g g') (a : Nat) :
    (g'.heap a).nextgc = (g.heap a).nextgc ∧ (g'.heap a).openupval = (g.heap a).openupval ∧
    (g'.heap a).gct = (g.heap a).gct ∧ (g'.heap a).age = (g.heap a).age ∧
    (g'.heap a).gclist = (g.heap a).gclist ∧ (g'.heap a).metatable = (g.heap a).metatable ∧
    (g'.heap a).mmGc = (g.heap a).mmGc :=
  ⟨(show (slotObj (g'.heap a)).nextgc = (slotObj (g.heap a)).nextgc by rw [h.obj a]),
   (show (slotObj (g'.heap a)).openupval = (slotObj (g.heap a)).openupval by rw [h.obj a]),
   (show (slotObj (g'.heap a)).gct = (slotObj (g.heap a)).gct by rw [h.obj a]),
   (show (slotObj (g'.heap a)).age = (slotObj (g.heap a)).age by rw [h.obj a]),
   (show (slotObj (g'.heap a)).gclist = (slotObj (g.heap a)).gclist by rw [h.obj a]),
   (show (slotObj (g'.heap a)).metatable = (slotObj (g.heap a)).metatable by rw [h.obj a]),
   (show (slotObj (g'.heap a)).mmGc = (slotObj (g.heap a)).mmGc by rw [h.obj a])⟩

theorem Still.vsane {S : Finset Nat} {g g' : GState} (h : Still g g') (s : Sane S g) :
    Sane S g' :=
  ⟨fun a => h.byt a (s.bytes a), fun hw => s.null (h.white 0 hw),
    fun n => by
      have e : g'.traceref = g.traceref :=
        (show g'.noHeap.traceref = g.noHeap.traceref by rw [h.rest])
      rw [e, (h.vobj _).2.2.1]
      exact s.trace n,
    fun a ha => s.cover a (h.white a ha)⟩

theorem bind_some_of {α β : Type} {X : Option α} {f : α → Option β} {a : α} {b : β}
    (h : X = some a) (h2 : f a = some b) : X.bind f = some b := by
  rw [h]; exact h2

theorem nodup_len_le {S : Finset Nat} {l : List Nat} (hn : l.Nodup) (hs : ∀ x ∈ l, x ∈ S) :
    l.length ≤ S.card := by
  rw [← List.toFinset_card_of_nodup hn]
  exact Finset.card_le_card (fun x hx => hs x (List.mem_toFinset.mp hx))

/-- The marking of `atomic` returns on well-formed work lists and a
well-formed userdata list (`xs`, after the main thread) and `mmudata` list
(`ms`) of objects that `propagatemark` does not traverse, given fuel for
twice the objects of `S`.  It names the state `g7` before and `g8` after
`lj_gc_separateudata` and the state `gm` before `lj_buf_shrink`: marking
keeps every list link up to `g7`, the separation is as `SepPost` says, what
follows changes no list link, and at the end the gray lists are as `MarkEnd`
says. -/
theorem atomicMark_total {S : Finset Nat} (vm : VM) (fuel : Nat) (g : GState) (L : Nat)
    {gs as ws xs ms : List Nat} (w : Work S g gs as ws [] 0)
    (hc : Chain g (g.heap g.mainthread).nextgc xs) (hcirc : Circ g g.mmudata ms)
    (hnd : (xs ++ ms).Nodup) (hm0 : g.mainthread ≠ 0) (hmx : g.mainthread ∉ xs)
    (hmm : g.mainthread ∉ ms) (hud : ∀ u ∈ xs ++ ms, ¬ trav (g.heap u).gct ∧ u ∈ S)
    (hcw : curwhite g ≠ 0) (hf : 2 * S.card ≤ fuel) :
    ∃ g7 g8 gm m8 ud as' ws',
      atomicMark vm fuel g L = some (vm.lj_buf_shrink gm L, ud) ∧
      Steady { g with grayagain := 0, state := GCSatomic } g7 ∧
      lj_gc_separateudata fuel g7 false = some (g8, m8) ∧
      SepPost g7 false g.mainthread xs ms 0 g8 m8 ∧
      Tame g8 gm ∧ Quiet g8 gm ∧ Sane S gm ∧ MarkEnd gm as' ws' ∧
      (as' ++ ws').length ≤ S.card ∧
      (∀ a, a ∉ xs → a ∉ ms → ¬ iswhite (g.heap a) → ¬ iswhite (gm.heap a)) := by
  have hS : S.card ≤ fuel := by omega
  obtain ⟨G0, hG0⟩ : ∃ G0 : GState, G0 = { g with grayagain := 0, state := GCSatomic } :=
    ⟨_, rfl⟩
  have w0 : Work S G0 gs [] ws as g.grayagain := by rw [hG0]; exact w.park GCSatomic
  have hG0h : G0.heap = g.heap := by rw [hG0]
  obtain ⟨g1, h1, o1⟩ := mark_uv_op (w0.wctx hS)
  obtain ⟨n1, w1, _, _⟩ := w0.op o1
  obtain ⟨r2, as2, ws2, h2, w2, s2, ka2, kw2, nw2⟩ :=
    propagate_work fuel g1 _ _ _ _ _ w1 (w1.gray_fuel hf)
  obtain ⟨G2, hG2⟩ : ∃ G2 : GState, G2 = { r2.1 with gray := r2.1.weak, weak := 0 } :=
    ⟨_, rfl⟩
  have w2' : Work S G2 ws2 as2 [] as g.grayagain := by rw [hG2]; exact w2.weak_to_gray
  have sG2 : Steady r2.1 G2 := by rw [hG2]; exact Steady.dflds rfl rfl
  obtain ⟨g3, h3, o3⟩ := markobj_op (w2'.wctx hS) L
  obtain ⟨n3, w3, _, _⟩ := w2'.op o3
  obtain ⟨g4, h4, o4⟩ := curtrace_op (w3.wctx hS)
  obtain ⟨n4, w4, _, _⟩ := w3.op o4
  obtain ⟨g5, h5, o5⟩ := gcroot_op (w4.wctx hS)
  obtain ⟨n5, w5, _, _⟩ := w4.op o5
  obtain ⟨r6, as6, ws6, h6, w6, s6, ka6, kw6, nw6⟩ :=
    propagate_work fuel g5 _ _ _ _ _ w5 (w5.gray_fuel hf)
  obtain ⟨G6, hG6⟩ : ∃ G6 : GState, G6 = { r6.1 with gray := g.grayagain } := ⟨_, rfl⟩
  have w6' : Work S G6 as as6 ws6 [] 0 := by rw [hG6]; exact w6.parked_to_gray
  have sG6 : Steady r6.1 G6 := by rw [hG6]; exact Steady.dflds rfl rfl
  obtain ⟨r7, as7, ws7, h7, w7, s7, ka7, kw7, nw7⟩ :=
    propagate_work fuel G6 _ _ _ _ _ w6' (w6'.gray_fuel hf)
  -- the frames so far
  have D1 : Steady G0 g1 := o1.steady
  have D5 : Steady G0 g5 :=
    D1.dtrans (s2.dtrans (sG2.dtrans (o3.steady.dtrans (o4.steady.dtrans o5.steady))))
  have D6 : Steady G0 G6 := D5.dtrans (s6.dtrans sG6)
  have D7 : Steady G0 r7.1 := D6.dtrans s7
  have hgct : ∀ {G : GState}, Steady G0 G → ∀ a, (G.heap a).gct = (g.heap a).gct :=
    fun hG a => by rw [(hG.dobj a).2.2.1, hG0h]
  have hnx7 : ∀ a, (r7.1.heap a).nextgc = (g.heap a).nextgc := fun a => by
    rw [(D7.dobj a).1, hG0h]
  have hmt7 : r7.1.mainthread = g.mainthread := by rw [D7.dkeeps.1, hG0]
  have hmu7 : r7.1.mmudata = g.mmudata := by rw [D7.dkeeps.2.1, hG0]
  have hcw7 : r7.1.currentwhite = g.currentwhite := by rw [D7.dkeeps.2.2.1, hG0]
  -- the separation
  have hxsS : ∀ x ∈ xs, x ∈ S := fun x hx => (hud x (List.mem_append_left _ hx)).2
  have hmsS : ∀ x ∈ ms, x ∈ S := fun x hx => (hud x (List.mem_append_right _ hx)).2
  obtain ⟨ndx, ndm, hdis⟩ := List.nodup_append.mp hnd
  obtain ⟨g8, m8, h8, sp⟩ := separateLoop_spec false xs fuel r7.1 g.mainthread 0 ms
    (by rw [hnx7]; exact Chain.congr (fun x _ => hnx7 x) hc)
    (by rw [hmu7]; exact Circ.ccongr (fun x _ => hnx7 x) hcirc)
    hnd hm0 hmx hmm (le_trans (nodup_len_le ndx hxsS) hS)
  have h8' : lj_gc_separateudata fuel r7.1 false = some (g8, m8) := by
    unfold lj_gc_separateudata
    rw [hmt7]
    exact h8
  have w8 : Work S g8 [] as7 ws7 [] 0 := w7.sep sp
  have hgct8 : ∀ a, (g8.heap a).gct = (g.heap a).gct := fun a => by
    have e : (g8.heap a).gct = (r7.1.heap a).gct :=
      (show (shapeN (g8.heap a)).gct = (shapeN (r7.1.heap a)).gct by rw [sp.shape a])
    rw [e, hgct D7]
  have hcw8 : g8.currentwhite = g.currentwhite := by
    have e : g8.currentwhite = r7.1.currentwhite :=
      (show g8.restSep.currentwhite = r7.1.restSep.currentwhite by rw [sp.rest])
    rw [e, hcw7]
  have hmv : ∀ x ∈ ms ++ xs.filter (fun x => decide (movable r7.1 false x)), x ∈ xs ++ ms :=
    fun x hx => by
      rcases List.mem_append.mp hx with h | h
      · exact List.mem_append_right _ h
      · exact List.mem_append_left _ (List.mem_filter.mp h).1
  have nd8 : (ms ++ xs.filter (fun x => decide (movable r7.1 false x))).Nodup :=
    List.nodup_append.mpr ⟨ndm, ndx.filter _, fun x h1 h2 =>
      hdis (List.mem_filter.mp h2).1 h1⟩
  obtain ⟨g9, gs9, h9, w9, nw9⟩ := @mark_mmudata_work S g8 [] as7 ws7 [] 0 w8 _ sp.circ nd8
    (fun x hx => by rw [hgct8]; exact hud x (hmv x hx))
    (by unfold curwhite at hcw ⊢; rw [hcw8]; exact hcw) fuel
    (by
      have := nodup_len_le nd8 (fun x hx => (hud x (hmv x hx)).2)
      omega)
  obtain ⟨r10, as10, ws10, h10, w10, s10, ka10, kw10, nw10⟩ :=
    propagate_work fuel g9 _ _ _ _ _ w9 (w9.gray_fuel hf)
  have hwl : ws10.length ≤ fuel := by
    have := w10.len
    simp only [List.length_append, List.nil_append] at this
    omega
  obtain ⟨g11, h11, _, _⟩ := clearweak_main fuel ws10 r10.1 r10.1.weak w10.weak hwl
  have st := gc_clearweak_still fuel _ _ _ h11
  have T9 := gc_mark_mmudata_tame fuel _ _ h9
  have hgct9 : ∀ a, (g9.heap a).gct = (g.heap a).gct := fun a => by
    rw [(T9.tobj a).2.2.1, hgct8]
  have hgct10 : ∀ a, (r10.1.heap a).gct = (g.heap a).gct := fun a => by
    rw [(s10.dobj a).2.2.1, hgct9]
  have hgct11 : ∀ a, (g11.heap a).gct = (g.heap a).gct := fun a => by
    rw [(st.vobj a).2.2.1, hgct10]
  -- the kinds of what was pushed
  have K2 : ∀ t ∈ as2, thrOrTab (g.heap t) := fun t ht => by
    rcases ka2 t ht with h | h
    · exact absurd h (List.not_mem_nil t)
    · unfold thrOrTab at h ⊢; rw [hgct D1] at h; exact h
  have K6 : ∀ t ∈ as6, thrOrTab (g.heap t) := fun t ht => by
    rcases ka6 t ht with h | h
    · exact K2 t h
    · unfold thrOrTab at h ⊢; rw [hgct D5] at h; exact h
  have K7 : ∀ t ∈ as7, thrOrTab (g.heap t) := fun t ht => by
    rcases ka7 t ht with h | h
    · exact K6 t h
    · unfold thrOrTab at h ⊢; rw [hgct D6] at h; exact h
  have K10 : ∀ t ∈ as10, thrOrTab (g.heap t) := fun t ht => by
    rcases ka10 t ht with h | h
    · exact K7 t h
    · unfold thrOrTab at h ⊢; rw [hgct9] at h; exact h
  have W6 : ∀ t ∈ ws6, (g.heap t).gct = GCT.tab := fun t ht => by
    rcases kw6 t ht with h | h
    · exact absurd h (List.not_mem_nil t)
    · rw [hgct D5] at h; exact h
  have W7 : ∀ t ∈ ws7, (g.heap t).gct = GCT.tab := fun t ht => by
    rcases kw7 t ht with h | h
    · exact W6 t h
    · rw [hgct D6] at h; exact h
  have W10 : ∀ t ∈ ws10, (g.heap t).gct = GCT.tab := fun t ht => by
    rcases kw10 t ht with h | h
    · exact W7 t h
    · rw [hgct9] at h; exact h
  have hheads : g11.gray = r10.1.gray ∧ g11.grayagain = r10.1.grayagain ∧
      g11.weak = r10.1.weak :=
    ⟨(show g11.noHeap.gray = r10.1.noHeap.gray by rw [st.rest]),
     (show g11.noHeap.grayagain = r10.1.noHeap.grayagain by rw [st.rest]),
     (show g11.noHeap.weak = r10.1.noHeap.weak by rw [st.rest])⟩
  have hend : MarkEnd g11 as10 ws10 := by
    refine ⟨?_, ?_, ?_, ?_, ?_, ?_, ?_⟩
    · rw [hheads.1]; exact w10.gray
    · rw [hheads.2.1]; exact GChain.gcongr (fun x => (st.vobj x).2.2.2.2.1) w10.again
    · rw [hheads.2.2]; exact GChain.gcongr (fun x => (st.vobj x).2.2.2.2.1) w10.weak
    · have := w10.nodup
      simpa using this
    · intro t ht
      have := K10 t ht
      unfold thrOrTab at this ⊢
      rw [hgct11]; exact this
    · intro t ht
      rw [hgct11]; exact W10 t ht
    · intro t ht hw
      refine (w10.ok t ?_).1 (st.white t hw)
      simpa using ht
  refine ⟨r7.1, g8, g11, m8, m8 + r10.2, as10, ws10, ?_, by rw [← hG0]; exact D7, h8', ?_,
    T9.ttrans ((gc_propagate_gray_tame _ _ _ h10).ttrans (gc_clearweak_tame _ _ _ _ h11)),
    (gc_mark_mmudata_quiet _ _ _ h9).qtrans ((gc_propagate_gray_quiet _ _ _ h10).qtrans
      (gc_clearweak_quiet _ _ _ _ h11)),
    st.vsane w10.sane, hend, by
      have := w10.len
      simpa using this, ?_⟩
  · unfold atomicMark
    simp only []
    rw [hG0] at h1
    refine bind_some_of h1 (bind_some_of h2 ?_)
    rw [hG2] at h3
    refine bind_some_of h3 (bind_some_of h4 (bind_some_of h5 (bind_some_of h6 ?_)))
    rw [hG6] at h7
    refine bind_some_of h7 (bind_some_of h8' (bind_some_of h9 (bind_some_of h10
      (bind_some_of h11 rfl))))
  · exact sp
  · intro a hax ham hw
    have k0 : ¬ iswhite (G0.heap a) := by rw [hG0h]; exact hw
    have k1 : ¬ iswhite (g1.heap a) := o1.base.nonwhite k0
    have k2 : ¬ iswhite (G2.heap a) := by
      have e : G2.heap = r2.1.heap := by rw [hG2]
      rw [e]; exact nw2 a k1
    have k5 : ¬ iswhite (g5.heap a) :=
      o5.base.nonwhite (o4.base.nonwhite (o3.base.nonwhite k2))
    have k6 : ¬ iswhite (G6.heap a) := by
      have e : G6.heap = r6.1.heap := by rw [hG6]
      rw [e]; exact nw6 a k5
    have k7 : ¬ iswhite (r7.1.heap a) := nw7 a k6
    have k8 : ¬ iswhite (g8.heap a) := by
      unfold iswhite at k7 ⊢
      rw [sp.marked_out a hax]; exact k7
    have k9 : ¬ iswhite (g9.heap a) := nw9 a (fun hm => by
      rcases List.mem_append.mp hm with h | h
      · exact ham h
      · exact hax (List.mem_filter.mp h).1) k8
    exact fun h => nw10 a k9 (st.white a h)

/-- The function `atomic` returns under the conditions of
`atomicMark_total`. -/
theorem atomic_total {S : Finset Nat} (vm : VM) (fuel : Nat) (g : GState) (L : Nat)
    {gs as ws xs ms : List Nat} (w : Work S g gs as ws [] 0)
    (hc : Chain g (g.heap g.mainthread).nextgc xs) (hcirc : Circ g g.mmudata ms)
    (hnd : (xs ++ ms).Nodup) (hm0 : g.mainthread ≠ 0) (hmx : g.mainthread ∉ xs)
    (hmm : g.mainthread ∉ ms) (hud : ∀ u ∈ xs ++ ms, ¬ trav (g.heap u).gct ∧ u ∈ S)
    (hcw : curwhite g ≠ 0) (hf : 2 * S.card ≤ fuel) :
    ∃ g1, atomic vm fuel g L = some g1 := by
  obtain ⟨_, _, gm, _, ud, _, _, h, _⟩ :=
    atomicMark_total vm fuel g L w hc hcirc hnd hm0 hmx hmm hud hcw hf
  exact ⟨atomicFlip (vm.lj_buf_shrink gm L) ud, by unfold atomic; rw [h]; rfl⟩

theorem AtomicReady.returns {S : Finset Nat} {g : GState} {gs as ws xs ms : List Nat}
    (r : AtomicReady S g gs as ws xs ms) (vm : VM) (L : Nat) {fuel : Nat}
    (hf : 2 * S.card ≤ fuel) : ∃ g1, atomic vm fuel g L = some g1 :=
  atomic_total vm fuel g L r.work r.udata r.mmudata r.nodup r.main.1 r.main.2.1 r.main.2.2
    r.kinds r.white hf

/-- C12: in state `GCSatomic` with `jit_base` set, `gc_onestep` returns
`LJ_MAX_MEM` and the state it was given.  An `incstep` entered there (with
`LJ_MAX_MEM` a positive `GCSize` in signed reading and `10 * stepmul` not
above it) leaves its loop after that one `gc_onestep`, returns `0` or `-1`,
never `1`, and leaves `state`, `currentwhite`, the heap and the lists as they
were.  With `jit_base` null, on a well-formed heap (`AtomicReady`) and with
fuel for twice the objects of `S`, `atomic` returns and `gc_onestep` returns
cost 0 and the state `atomic` left, with `state = GCSsweepstring` and
`sweepstr = 0`. -/
theorem onestep_atomic_spec (vm : VM) (fuel : Nat) (g : GState) (L : Nat)
    (hs : g.state = GCSatomic) :
    (g.jit_base ≠ 0 →
      gc_onestep vm fuel g L = some (Res.ok g vm.LJ_MAX_MEM) ∧
      (0 < g.memw → vm.LJ_MAX_MEM < 2 ^ (g.memw - 1) → 10 * g.stepmul ≤ vm.LJ_MAX_MEM →
        incstepLoop vm fuel 1 (incstepEntry vm g).1 L (incstepEntry vm g).2
          = some (Res.ok (incstepEntry vm g).1 false) ∧
        (0 < fuel → ∃ g' r, incstep vm fuel g L = some (Res.ok g' r) ∧
          (r = 0 ∨ r = -1) ∧ r ≠ 1 ∧
          g'.state = GCSatomic ∧ g'.currentwhite = g.currentwhite ∧ g'.heap = g.heap ∧
          g'.gray = g.gray ∧ g'.grayagain = g.grayagain ∧ g'.weak = g.weak ∧
          g'.mmudata = g.mmudata ∧ g'.root = g.root ∧ g'.vmstate = g.vmstate))) ∧
    (g.jit_base = 0 → ∀ (S : Finset Nat) (gs as ws xs ms : List Nat),
      AtomicReady S g gs as ws xs ms → 2 * S.card ≤ fuel →
      ∃ g1 g', atomic vm fuel g L = some g1 ∧
        gc_onestep vm fuel g L = some (Res.ok g' 0) ∧
        g' = { g1 with state := GCSsweepstring, sweepstr := 0 } ∧
        g'.state = GCSsweepstring ∧ g'.sweepstr = 0) := by
  constructor
  · intro hj
    refine ⟨onestep_on_trace vm fuel g L hs hj, fun hw hM hl => ?_⟩
    obtain ⟨f1, f2, f3, f4, f5, f6, f7, f8, f9, f10, _, _, _⟩ := incstepEntry_fields vm g
    have hloop : ∀ n, incstepLoop vm fuel (n + 1) (incstepEntry vm g).1 L (incstepEntry vm g).2
        = some (Res.ok (incstepEntry vm g).1 false) := fun n =>
      incstepLoop_on_trace vm fuel n _ L _ (f1.trans hs) (by rw [f2]; exact hj)
        (by rw [f3]; exact hw) (by rw [f3]; exact hM) (incstepEntry_lim vm g hl)
    refine ⟨hloop 0, fun hf => ?_⟩
    obtain ⟨n, hn⟩ : ∃ n, fuel = n + 1 := ⟨fuel - 1, by omega⟩
    unfold incstep
    simp only []
    rw [show incstepLoop vm fuel fuel (incstepEntry vm g).1 L (incstepEntry vm g).2
        = some (Res.ok (incstepEntry vm g).1 false) from by
      conv => lhs; arg 3; rw [hn]
      exact hloop n]
    simp only [andThen, Bool.false_eq_true, if_false]
    by_cases hd : (incstepEntry vm g).1.debt < GCSTEPSIZE
    · rw [if_pos hd]
      exact ⟨_, _, rfl, Or.inr rfl, by decide, f1.trans hs, f5, f4, f6, f7, f8, f9, f10, rfl⟩
    · rw [if_neg hd]
      exact ⟨_, _, rfl, Or.inl rfl, by decide, f1.trans hs, f5, f4, f6, f7, f8, f9, f10, rfl⟩
  · intro hj S gs as ws xs ms hr hf
    obtain ⟨g1, ha⟩ := hr.returns vm L hf
    refine ⟨g1, _, ha, ?_, rfl, rfl, rfl⟩
    unfold gc_onestep
    rw [if_neg (by rw [hs]; decide), if_neg (by rw [hs]; decide), if_pos hs,
      if_neg (fun h => h hj), ha]
    rfl

theorem exAtomicRun_ready : AtomicReady ∅ exAtomicRun [] [] [] [] [] := by
  have hb : ∀ a, (exAtomicRun.heap a).marked < 256 := fun a => by
    show (if a = 1 then _ else if a = 2 then _ else _ : GCobj).marked < 256
    split
    · decide
    · split <;> decide
  have hw : ∀ a, ¬ iswhite (exAtomicRun.heap a) := fun a => by
    show ¬ iswhite (if a = 1 then _ else if a = 2 then _ else _ : GCobj)
    split
    · decide
    · split <;> decide
  exact ⟨⟨rfl, rfl, rfl, rfl, List.nodup_nil, fun t ht => absurd ht (List.not_mem_nil t), hb,
      hw 0, fun _ => rfl, fun a ha => absurd ha (hw a)⟩,
    rfl, rfl, List.nodup_nil, ⟨by decide, List.not_mem_nil _, List.not_mem_nil _⟩,
    fun u hu => absurd hu (List.not_mem_nil u), by decide⟩

/-- Witness for `onestep_atomic_spec`: on `exAtomic` the step costs
`LJ_MAX_MEM` and changes nothing; on `exAtomicRun`, where `jit_base` is null,
it runs `atomic` and ends in `GCSsweepstring` with `sweepstr = 0`. -/
theorem onestep_atomic_spec_witness :
    exAtomic.state = GCSatomic ∧
    gc_onestep exVM 1 exAtomic 1 = some (Res.ok exAtomic exVM.LJ_MAX_MEM) ∧
    ∃ g1 g', atomic exVM 5 exAtomicRun 1 = some g1 ∧
      gc_onestep exVM 5 exAtomicRun 1 = some (Res.ok g' 0) ∧
      g' = { g1 with state := GCSsweepstring, sweepstr := 0 } ∧
      g'.state = GCSsweepstring ∧ g'.sweepstr = 0 :=
  ⟨rfl, ((onestep_atomic_spec exVM 1 exAtomic 1 rfl).1 (by decide)).1,
    (onestep_atomic_spec exVM 5 exAtomicRun 1 rfl).2 rfl ∅ [] [] [] [] []
      exAtomicRun_ready (by decide)⟩

theorem GrayKept.chain {g g' : GState} (h : GrayKept g g') {hd : Nat} {l : List Nat}
    (c : GChain g hd l) : GChain g' hd l :=
  GChain.gcongr (fun x => (h.obj x).1) c

theorem VMBufOnly.tame {vm : VM} (h : VMBufOnly vm) : VMBufTame vm := fun g L => by
  obtain ⟨t, e⟩ := h g L
  rw [e]
  exact ⟨fun _ => rfl, rfl⟩

theorem VMBufOnly.quiet {vm : VM} (h : VMBufOnly vm) : VMBufQuiet vm := fun g L => by
  obtain ⟨t, e⟩ := h g L
  rw [e]
  exact ⟨fun _ => rfl, rfl⟩

/-- The end of marking seen from the state `atomic` returns: the gray lists
of `MarkEnd` are still there after `lj_buf_shrink` and the flip. -/
theorem MarkEnd.flip {vm : VM} (hvm : VMBufOnly vm) {gm : GState} {as ws : List Nat}
    (e : MarkEnd gm as ws) (L ud : Nat) :
    MarkEnd (atomicFlip (vm.lj_buf_shrink gm L) ud) as ws ∧
    (atomicFlip (vm.lj_buf_shrink gm L) ud).heap = gm.heap ∧
    (atomicFlip (vm.lj_buf_shrink gm L) ud).mmudata = gm.mmudata := by
  obtain ⟨t, et⟩ := hvm gm L
  rw [et]
  have hh : (atomicFlip { gm with total := t } ud).heap = gm.heap := rfl
  refine ⟨⟨e.gray, GChain.gheap e.again hh, GChain.gheap e.weak hh, e.nodup,
    fun x hx => by rw [hh]; exact e.akind x hx, fun x hx => by rw [hh]; exact e.wkind x hx,
    fun x hx => by rw [hh]; exact e.nonwhite x hx⟩, hh, rfl⟩

theorem StepsIn.pmono {vm : VM} {fuel L : Nat} {P Q : GState → Prop} (hPQ : ∀ g, P g → Q g) :
    ∀ {k : Nat} {g s : GState}, StepsIn vm fuel L P k g s → StepsIn vm fuel L Q k g s
  | 0, _, _, h => h
  | _ + 1, _, _, ⟨hp, g1, c, h1, h2⟩ => ⟨hPQ _ hp, g1, c, h1, StepsIn.pmono hPQ h2⟩

theorem StepsIn.pappend {vm : VM} {fuel L : Nat} {P : GState → Prop} :
    ∀ {k j : Nat} {g s t : GState}, StepsIn vm fuel L P k g s → StepsIn vm fuel L P j s t →
      StepsIn vm fuel L P (k + j) g t
  | 0, j, g, s, t, h1, h2 => by
    have e : g = s := h1
    rw [Nat.zero_add, e]; exact h2
  | k + 1, j, g, s, t, ⟨hp, g1, c, h1, h2⟩, h3 => by
    rw [show k + 1 + j = (k + j) + 1 by omega]
    exact ⟨hp, g1, c, h1, StepsIn.pappend h2 h3⟩

theorem StepsIn.pone {vm : VM} {fuel L : Nat} {P : GState → Prop} {g s : GState} {c : Nat}
    (hp : P g) (h : gc_onestep vm fuel g L = some (Res.ok s c)) : StepsIn vm fuel L P 1 g s :=
  ⟨hp, s, c, h, rfl⟩

/-- The loop of `lj_gc_runtilstate` towards `GCSpause` follows a run of steps
that ends in `GCSpause`. -/
theorem runtil_of_steps (vm : VM) (fuel L : Nat) :
    ∀ (k n : Nat) (g s : GState), StepsIn vm fuel L notPause k g s → s.state = GCSpause →
      k ≤ n → runtilLoop vm fuel n g L GCSpause = some (Res.ok s ())
  | 0, n, g, s, h, hs, _ => by
    have e : g = s := h
    subst e
    cases n with
    | zero => unfold runtilLoop; rw [if_pos hs]
    | succ n => unfold runtilLoop; rw [if_pos hs]
  | k + 1, 0, g, s, _, _, hn => absurd hn (by omega)
  | k + 1, n + 1, g, s, ⟨hp, g1, c, h1, h2⟩, hs, hn => by
    unfold runtilLoop
    rw [if_neg (show ¬ g.state = GCSpause from hp), h1]
    exact runtil_of_steps vm fuel L k n g1 s h2 hs (by omega)

theorem lastLoc_append : ∀ (xs ys : List Nat) (p : Loc),
    lastLoc p (xs ++ ys) = lastLoc (lastLoc p xs) ys
  | [], _, _ => rfl
  | x :: xs, ys, _ => lastLoc_append xs ys (Loc.nextgc x)

theorem lastLoc_not_strhash (ks : List Nat) (i : Nat) : lastLoc Loc.root ks ≠ Loc.strhash i := by
  rcases lastLoc_cases ks Loc.root with ⟨_, h⟩ | ⟨y, _, h⟩ <;> rw [h] <;> intro e <;> cases e

theorem footprint_sublist {U U' : Nat → List Nat} (hU : ∀ x, (U' x).Sublist (U x)) :
    ∀ {xs' xs : List Nat}, xs'.Sublist xs → (footprint U' xs').Sublist (footprint U xs)
  | _, _, List.Sublist.slnil => List.Sublist.refl _
  | _, _, List.Sublist.cons a h =>
    (footprint_sublist hU h).trans
      ((List.sublist_cons_self a _).trans (List.sublist_append_right (U a) _))
  | _, _, List.Sublist.cons₂ a h =>
    List.Sublist.append (hU a) (List.Sublist.cons₂ a (footprint_sublist hU h))

theorem flatten_map_sublist {St St' : Nat → List Nat} (h : ∀ j, (St' j).Sublist (St j)) :
    ∀ l : List Nat, ((l.map St').flatten).Sublist ((l.map St).flatten)
  | [] => List.Sublist.refl _
  | j :: l => by
    simp only [List.map_cons, List.flatten_cons]
    exact List.Sublist.append (h j) (flatten_map_sublist h l)

theorem mem_footprint_iff (U : Nat → List Nat) : ∀ {xs : List Nat} {a : Nat},
    a ∈ footprint U xs ↔ a ∈ xs ∨ ∃ x ∈ xs, a ∈ U x
  | [], a => by simp [footprint]
  | y :: ys, a => by
    have ih := @mem_footprint_iff U ys a
    simp only [footprint, List.mem_append, List.mem_cons, ih]
    constructor
    · rintro (h | h | h | ⟨x, hx, h⟩)
      · exact Or.inr ⟨y, Or.inl rfl, h⟩
      · exact Or.inl (Or.inl h)
      · exact Or.inl (Or.inr h)
      · exact Or.inr ⟨x, Or.inr hx, h⟩
    · rintro ((h | h) | ⟨x, hx | hx, h⟩)
      · exact Or.inr (Or.inl h)
      · exact Or.inr (Or.inr (Or.inl h))
      · rw [hx] at h; exact Or.inl h
      · exact Or.inr (Or.inr (Or.inr ⟨x, hx, h⟩))

theorem Lists.lnonzero {S : Finset Nat} {g : GState} {U St : Nat → List Nat} {xs : List Nat}
    (h : Lists S g U St xs) :
    0 ∉ footprint U xs ++ ((List.range (g.strmask + 1)).map St).flatten := by
  intro hm
  rcases List.mem_append.mp hm with hm | hm
  · rcases (mem_footprint_iff U).mp hm with h1 | ⟨x, hx, h1⟩
    · exact Chain.zero_not_mem h.root h1
    · by_cases ht : (g.heap x).gct = GCT.thread
      · exact Chain.zero_not_mem (h.upch x hx ht) h1
      · rw [h.upnt x hx ht] at h1; cases h1
  · obtain ⟨j, hj, h1⟩ := mem_flatten_range.mp hm
    exact Chain.zero_not_mem (h.str j (by omega)) h1

theorem whiteOK.curwhite {g : GState} (h : whiteOK g) : curwhite g ≠ 0 := by
  unfold LjGc.curwhite
  rcases h with h | h <;> rw [h] <;> decide

theorem whiteOK.wflip {g g' : GState} (h : whiteOK g)
    (e : g'.currentwhite = otherwhite g % 256) : whiteOK g' := by
  unfold whiteOK otherwhite at *
  rcases h with h | h <;> rw [e, h]
  · right; decide
  · left; decide

/-- A sweep keeps a sane heap sane. -/
theorem SweepEff.esane {S : Finset Nat} {g g' : GState} {ow : Nat} {V Q : List Nat}
    (h : SweepEff g g' ow V Q) (hV : ∀ v ∈ V, v ∈ S) (h0 : 0 ∉ V)
    (htr : g'.traceref = g.traceref) (s : Sane S g) : Sane S g' := by
  have hgct : ∀ a, (g'.heap a).gct = (g.heap a).gct := fun a =>
    (show (shapeL (g'.heap a)).gct = (shapeL (g.heap a)).gct by rw [h.shape a])
  refine ⟨fun a => ?_, ?_, fun n => ?_, fun a ha => ?_⟩
  · by_cases hv : a ∈ V ∧ sweepKeeps g ow a
    · rw [h.kept a hv.1 hv.2]
      exact or_byte (and_byte _ (s.bytes a)) (curwhite_lt g)
    · rw [h.same a (by
        by_cases h1 : a ∈ V
        · exact Or.inr (fun h2 => hv ⟨h1, h2⟩)
        · exact Or.inl h1)]
      exact s.bytes a
  · unfold iswhite
    rw [h.same 0 (Or.inl h0)]
    exact s.null
  · rw [htr, hgct]; exact s.trace n
  · by_cases hv : a ∈ V
    · exact hV a hv
    · refine s.cover a ?_
      unfold iswhite at ha ⊢
      rw [← h.same a (Or.inl hv)]; exact ha

/-- An object that passes the sweep test before a sweep passes it after. -/
theorem SweepEff.keeps {g g' : GState} {V Q : List Nat}
    (h : SweepEff g g' (otherwhite g) V Q) (hw : whiteOK g) (v : Nat)
    (hk : sweepKeeps g (otherwhite g) v) : sweepKeeps g' (otherwhite g') v := by
  have hw' : whiteOK g' := by unfold whiteOK; rw [h.white]; exact hw
  by_cases hv : v ∈ V
  · refine (sweep_test_normal g' hw' v).2.2.1 ?_
    rw [h.kept v hv hk]
    unfold makewhite curwhite
    rw [h.white]
    exact (mkw_bits (g.heap v).marked g.currentwhite).1
  · rw [otherwhite_congr h.white]
    exact (sweepKeeps_congr (h.same v (Or.inl hv))).mpr hk

theorem nodup_flatten_disj (St : Nat → List Nat) : ∀ (n : Nat),
    (((List.range n).map St).flatten).Nodup →
    ∀ j j', j < j' → j' < n → ∀ a ∈ St j, a ∉ St j'
  | 0, _, _, _, _, h, _, _ => absurd h (Nat.not_lt_zero _)
  | n + 1, hnd, j, j', hj, hj', a, ha => by
    rw [List.range_succ, List.map_append, List.flatten_append] at hnd
    obtain ⟨h1, _, h3⟩ := List.nodup_append.mp hnd
    by_cases e : j' = n
    · subst e
      intro hm
      exact h3 (mem_flatten_range.mpr ⟨j, hj, ha⟩) (by simpa using hm)
    · exact nodup_flatten_disj St n h1 j j' hj (by omega) a ha

theorem Lists.foot_nodup {S : Finset Nat} {g : GState} {U St : Nat → List Nat} {xs : List Nat}
    (h : Lists S g U St xs) : (footprint U xs).Nodup :=
  (List.nodup_append.mp h.nodup).1

theorem Lists.str_nodup {S : Finset Nat} {g : GState} {U St : Nat → List Nat} {xs : List Nat}
    (h : Lists S g U St xs) {j : Nat} (hj : j ≤ g.strmask) : (St j).Nodup :=
  (List.nodup_flatten.mp (List.nodup_append.mp h.nodup).2.1).1 (St j)
    (List.mem_map.mpr ⟨j, List.mem_range.mpr (by omega), rfl⟩)

theorem Lists.str_disj {S : Finset Nat} {g : GState} {U St : Nat → List Nat} {xs : List Nat}
    (h : Lists S g U St xs) {j j' : Nat} (hj : j ≤ g.strmask) (hj' : j' ≤ g.strmask)
    (hne : j ≠ j') {a : Nat} (ha : a ∈ St j) : a ∉ St j' := by
  have hnd := (List.nodup_append.mp h.nodup).2.1
  rcases Nat.lt_or_gt_of_ne hne with h1 | h1
  · exact nodup_flatten_disj St _ hnd j j' h1 (by omega) a ha
  · exact fun hm => nodup_flatten_disj St _ hnd j' j h1 (by omega) a hm ha

theorem Lists.foot_str {S : Finset Nat} {g : GState} {U St : Nat → List Nat} {xs : List Nat}
    (h : Lists S g U St xs) {a : Nat} (ha : a ∈ footprint U xs) {j : Nat}
    (hj : j ≤ g.strmask) : a ∉ St j := fun hm =>
  (List.nodup_append.mp h.nodup).2.2 ha (mem_flatten_range.mpr ⟨j, by omega, hm⟩)

theorem Lists.root_off {S : Finset Nat} {g : GState} {U St : Nat → List Nat} {xs : List Nat}
    (h : Lists S g U St xs) {j : Nat} (hj : j ≤ g.strmask) : g.root ∉ St j := by
  cases xs with
  | nil =>
    have e : g.root = 0 := h.root
    rw [e]
    exact Chain.zero_not_mem (h.str j hj)
  | cons x xs =>
    have e : g.root = x := h.root.1
    rw [e]
    exact h.foot_str (mem_footprint_self U (List.mem_cons_self _ _)) hj

theorem Sane.sane_flds {S : Finset Nat} {g g' : GState} (s : Sane S g) (h1 : g'.heap = g.heap)
    (h2 : g'.traceref = g.traceref) : Sane S g' :=
  ⟨fun a => by rw [h1]; exact s.bytes a, by rw [h1]; exact s.null,
    fun n => by rw [h1, h2]; exact s.trace n, fun a ha => s.cover a (by rw [← h1]; exact ha)⟩

/-- Well-formed lists stay well formed when no link, type or list head
changes. -/
theorem Lists.links {S : Finset Nat} {g g' : GState} {U St : Nat → List Nat} {xs : List Nat}
    (h : Lists S g U St xs)
    (ho : ∀ a, (g'.heap a).nextgc = (g.heap a).nextgc ∧
      (g'.heap a).openupval = (g.heap a).openupval ∧ (g'.heap a).gct = (g.heap a).gct)
    (hr : g'.root = g.root) (hs : g'.strhash = g.strhash) (hm : g'.strmask = g.strmask)
    (hsane : Sane S g') (hw : whiteOK g') : Lists S g' U St xs :=
  { sane := hsane
    root := by rw [hr]; exact Chain.congr (fun x _ => (ho x).1) h.root
    upch := fun x hx ht => by
      rw [(ho x).2.2] at ht
      rw [(ho x).2.1]
      exact Chain.congr (fun u _ => (ho u).1) (h.upch x hx ht)
    upnt := fun x hx ht => h.upnt x hx (by rw [← (ho x).2.2]; exact ht)
    upth := fun x hx u hu => by rw [(ho u).2.2]; exact h.upth x hx u hu
    str := fun j hj => by
      rw [hm] at hj
      rw [hs]
      exact Chain.congr (fun x _ => (ho x).1) (h.str j hj)
    strth := fun j hj s hs' => by
      rw [hm] at hj
      rw [(ho s).2.2]; exact h.strth j hj s hs'
    nodup := by rw [hm]; exact h.nodup
    mem := by rw [hm]; exact h.mem
    mask := by rw [hm]; exact h.mask
    white := hw }

theorem SwKept.wrefl (g : GState) : SwKept g g :=
  ⟨fun _ => ⟨rfl, rfl, rfl, rfl⟩, rfl, le_refl _⟩

theorem SwKept.wtrans {a b c : GState} (h1 : SwKept a b) (h2 : SwKept b c) : SwKept a c :=
  ⟨fun x => ⟨(h2.obj x).1.trans (h1.obj x).1, (h2.obj x).2.1.trans (h1.obj x).2.1,
    (h2.obj x).2.2.1.trans (h1.obj x).2.2.1, (h2.obj x).2.2.2.trans (h1.obj x).2.2.2⟩,
    h2.rest.trans h1.rest, le_trans h2.mask h1.mask⟩

theorem restCyc_of_swp {g h : GState} (e : g.restSwp = h.restSwp) : g.restCyc = h.restCyc :=
  (congrArg GState.restCyc e : g.restSwp.restCyc = h.restSwp.restCyc)

theorem SwKept.wflds {g s : GState} (h : SwKept g s) :
    s.mainthread = g.mainthread ∧ s.mmudata = g.mmudata ∧ s.currentwhite = g.currentwhite ∧
    s.traceref = g.traceref ∧ s.jit_base = g.jit_base ∧ s.kind = g.kind ∧
    s.gray = g.gray ∧ s.grayagain = g.grayagain ∧ s.weak = g.weak ∧ s.memw = g.memw ∧
    s.pause = g.pause ∧ s.vmstate = g.vmstate :=
  ⟨(show s.restCyc.mainthread = g.restCyc.mainthread by rw [h.rest]),
   (show s.restCyc.mmudata = g.restCyc.mmudata by rw [h.rest]),
   (show s.restCyc.currentwhite = g.restCyc.currentwhite by rw [h.rest]),
   (show s.restCyc.traceref = g.restCyc.traceref by rw [h.rest]),
   (show s.restCyc.jit_base = g.restCyc.jit_base by rw [h.rest]),
   (show s.restCyc.kind = g.restCyc.kind by rw [h.rest]),
   (show s.restCyc.gray = g.restCyc.gray by rw [h.rest]),
   (show s.restCyc.grayagain = g.restCyc.grayagain by rw [h.rest]),
   (show s.restCyc.weak = g.restCyc.weak by rw [h.rest]),
   (show s.restCyc.memw = g.restCyc.memw by rw [h.rest]),
   (show s.restCyc.pause = g.restCyc.pause by rw [h.rest]),
   (show s.restCyc.vmstate = g.restCyc.vmstate by rw [h.rest])⟩

theorem SweepEff.kobj {g g' : GState} {ow : Nat} {V Q : List Nat} (h : SweepEff g g' ow V Q)
    (a : Nat) : (g'.heap a).gct = (g.heap a).gct ∧ (g'.heap a).metatable = (g.heap a).metatable ∧
      (g'.heap a).mmGc = (g.heap a).mmGc ∧ (g'.heap a).gclist = (g.heap a).gclist :=
  ⟨(show (shapeL (g'.heap a)).gct = (shapeL (g.heap a)).gct by rw [h.shape a]),
   (show (shapeL (g'.heap a)).metatable = (shapeL (g.heap a)).metatable by rw [h.shape a]),
   (show (shapeL (g'.heap a)).mmGc = (shapeL (g.heap a)).mmGc by rw [h.shape a]),
   (show (shapeL (g'.heap a)).gclist = (shapeL (g.heap a)).gclist by rw [h.shape a])⟩

theorem sweepstringDone_rest (g : GState) (old : Nat) :
    (sweepstringDone g old).restCyc = g.restCyc := by
  unfold sweepstringDone
  dsimp only
  split_ifs <;> rfl

theorem filter_take_sublist (l : List Nat) (n : Nat) (p : Nat → Bool) :
    ((l.take n).filter p ++ l.drop n).Sublist l := by
  have h := List.Sublist.append (List.filter_sublist (l.take n) (p := p))
    (List.Sublist.refl (l.drop n))
  rwa [List.take_append_drop] at h

/-- One `gc_onestep` in state `GCSsweepstring` on well-formed lists: it
returns and the lists are well formed again, the chain of the step holding
what it kept. -/
theorem sweepstring_lists (vm : VM) (fuel : Nat) (g : GState) (L : Nat) {S : Finset Nat}
    {U St : Nat → List Nat} {xs : List Nat} (hl : Lists S g U St xs)
    (hs : g.state = GCSsweepstring) (hi : g.sweepstr ≤ g.strmask) :
    ∃ s St', gc_onestep vm fuel g L = some (Res.ok s GCSWEEPCOST) ∧ Lists S s U St' xs ∧
      SwKept g s ∧ s.sweepstr = g.sweepstr + 1 ∧ s.strmask = g.strmask ∧ s.sweep = g.sweep ∧
      s.state = (if g.sweepstr = g.strmask then GCSsweep else GCSsweepstring) ∧
      (∀ v, sweepKeeps g (otherwhite g) v → sweepKeeps s (otherwhite s) v) := by
  have hc := hl.str g.sweepstr hi
  have hnd := hl.str_nodup hi
  have hsw : ∃ g1 p1, gc_sweep fuel g (Loc.strhash g.sweepstr) (2 ^ 32 - 1) = some (g1, p1) ∧
      SweepPost g (otherwhite g) (Loc.strhash g.sweepstr) (St g.sweepstr) fullLim g1 p1 := by
    cases fuel with
    | zero =>
      rw [gc_sweep]
      exact sweepLoop_flat _ _ fullLim _ g _ hc hnd (fun q hq => by cases hq)
        (hl.strth _ hi)
    | succ d =>
      rw [gc_sweep]
      exact sweepLoop_flat _ _ fullLim _ g _ hc hnd (fun q hq => by cases hq)
        (hl.strth _ hi)
  obtain ⟨g1, p1, hrun, P⟩ := hsw
  obtain ⟨fr, fs⟩ := gc_sweep_frame fuel g _ _ _ hrun
  have eff := P.eff
  have hframe : ∀ a, a ∉ St g.sweepstr → g1.heap a = g.heap a := fun a ha =>
    P.frame a (fun h => ha (List.mem_of_mem_take h)) (fun q hq => by cases hq)
  obtain ⟨d1, d2, d3, d4, d5, d6, d7, d8, d9, d10⟩ := sweepstringDone_fields g1 g.total
  obtain ⟨r1, r2, r3, r4, r5, r6, r7, r8, r9, r10, r11, r12⟩ := restSwp_fields fr
  have rtr : g1.traceref = g.traceref :=
    (show g1.restSwp.traceref = g.restSwp.traceref by rw [fr])
  obtain ⟨St', hSt'⟩ : ∃ St' : Nat → List Nat, St' = fun j =>
      if j = g.sweepstr then
        ((St j).take fullLim).filter (fun x => decide (sweepKeeps g (otherwhite g) x))
          ++ (St j).drop fullLim
      else St j := ⟨_, rfl⟩
  have eSi : St' g.sweepstr =
      ((St g.sweepstr).take fullLim).filter (fun x => decide (sweepKeeps g (otherwhite g) x))
        ++ (St g.sweepstr).drop fullLim := by
    rw [hSt']; simp only [if_pos]
  have eSn : ∀ j, j ≠ g.sweepstr → St' j = St j := fun j hj => by
    rw [hSt']; simp only [if_neg hj]
  have hsub : ∀ j, (St' j).Sublist (St j) := fun j => by
    by_cases e : j = g.sweepstr
    · rw [e, eSi]; exact filter_take_sublist _ _ _
    · rw [eSn j e]
  have hmemS : ∀ v ∈ (St g.sweepstr).take fullLim, v ∈ footprint U xs ++
      ((List.range (g.strmask + 1)).map St).flatten := fun v hv =>
    List.mem_append_right _ (mem_flatten_range.mpr ⟨g.sweepstr, by omega,
      List.mem_of_mem_take hv⟩)
  have sane1 : Sane S g1 := eff.esane (fun v hv => hl.mem v (hmemS v hv))
    (fun h0 => hl.lnonzero (hmemS 0 h0)) rtr hl.sane
  have hroot : g1.root = g.root :=
    P.root (by simp) (fun h => hl.root_off hi (List.mem_of_mem_take h))
  have hw1 : whiteOK g1 := by unfold whiteOK; rw [r5]; exact hl.white
  have hl1 : Lists S g1 U St' xs :=
    { sane := sane1
      root := by
        rw [hroot]
        exact Chain.congr (fun x hx => by
          rw [hframe x (hl.foot_str (mem_footprint_self U hx) hi)]) hl.root
      upch := fun x hx ht => by
        rw [hframe x (hl.foot_str (mem_footprint_self U hx) hi)] at ht ⊢
        exact Chain.congr (fun u hu => by
          rw [hframe u (hl.foot_str (mem_footprint_up U hx hu) hi)]) (hl.upch x hx ht)
      upnt := fun x hx ht => by
        rw [hframe x (hl.foot_str (mem_footprint_self U hx) hi)] at ht
        exact hl.upnt x hx ht
      upth := fun x hx u hu => by
        rw [hframe u (hl.foot_str (mem_footprint_up U hx hu) hi)]
        exact hl.upth x hx u hu
      str := fun j hj => by
        rw [r4] at hj
        by_cases e : j = g.sweepstr
        · rw [e, eSi]; exact P.chain
        · rw [eSn j e, fs j (fun e' => e (by injection e' with e'; exact e'.symm))]
          exact Chain.congr (fun x hx => by rw [hframe x (hl.str_disj hj hi e hx)])
            (hl.str j hj)
      strth := fun j hj s hs' => by
        rw [r4] at hj
        rw [(eff.kobj s).1]
        exact hl.strth j hj s ((hsub j).subset hs')
      nodup := by
        rw [r4]
        exact (List.Sublist.append (List.Sublist.refl _)
          (flatten_map_sublist hsub _)).nodup hl.nodup
      mem := fun x hx => by
        rw [r4] at hx
        exact hl.mem x ((List.Sublist.append (List.Sublist.refl _)
          (flatten_map_sublist hsub _)).subset hx)
      mask := by rw [r4]; exact hl.mask
      white := hw1 }
  have htr : (sweepstringDone g1 g.total).traceref = g1.traceref :=
    (show (sweepstringDone g1 g.total).restCyc.traceref = g1.restCyc.traceref by
      rw [sweepstringDone_rest])
  have hsw' : (sweepstringDone g1 g.total).sweep = g1.restSwp.sweep := by
    unfold sweepstringDone
    dsimp only
    split_ifs <;> rfl
  have e1 : (g.sweepstr + 1) % 2 ^ 32 = g.sweepstr + 1 :=
    Nat.mod_eq_of_lt (by have := hl.mask; omega)
  refine ⟨sweepstringDone g1 g.total, St', ?_, ?_, ?_, ?_, ?_, ?_, ?_, ?_⟩
  · unfold gc_onestep
    rw [if_neg (by rw [hs]; decide), if_neg (by rw [hs]; decide), if_neg (by rw [hs]; decide),
      if_pos hs]
    unfold gc_fullsweep
    rw [hrun]; rfl
  · exact hl1.links (fun a => by rw [d1]; exact ⟨rfl, rfl, rfl⟩) d4 d2 d6
      (sane1.sane_flds d1 htr) (by unfold whiteOK; rw [d7]; exact hw1)
  · exact ⟨fun a => by rw [d1]; exact eff.kobj a,
      (sweepstringDone_rest g1 g.total).trans (restCyc_of_swp fr), le_of_eq (d6.trans r4)⟩
  · rw [d8, r1, e1]
  · rw [d6, r4]
  · rw [hsw', fr]; rfl
  · rw [d9, r1, e1, r4, r2, hs]
    by_cases e : g.sweepstr = g.strmask
    · rw [if_pos e, if_pos (by omega)]
    · rw [if_neg e, if_neg (by omega)]
  · intro v hk
    have k1 := eff.keeps hl.white v hk
    rw [otherwhite_congr d7]
    exact (sweepKeeps_congr (by rw [d1])).mpr k1

theorem visited_sub (U : Nat → List Nat) {l : List Nat} {a : Nat} (h : a ∈ visited U l) :
    a ∈ footprint U l := by
  have e : l.take l.length = l := List.take_length l
  rw [← e] at h
  exact visited_sub_footprint U h

theorem footprint_up_not_mem (U : Nat → List Nat) : ∀ {xs : List Nat},
    (footprint U xs).Nodup → ∀ {x u : Nat}, x ∈ xs → u ∈ U x → u ∉ xs
  | [], _, _, _, hx, _ => absurd hx (List.not_mem_nil _)
  | y :: ys, hnd, x, u, hx, hu => by
    have hnd' : (U y ++ y :: footprint U ys).Nodup := hnd
    obtain ⟨_, h2, h3⟩ := List.nodup_append.mp hnd'
    have hy : y ∉ footprint U ys := (List.nodup_cons.mp h2).1
    intro hm
    rcases List.mem_cons.mp hx with e | hx'
    · rw [e] at hu
      rcases List.mem_cons.mp hm with e' | hm'
      · exact h3 hu (by rw [e']; exact List.mem_cons_self _ _)
      · exact h3 hu (List.mem_cons_of_mem _ (mem_footprint_self U hm'))
    · rcases List.mem_cons.mp hm with e' | hm'
      · exact hy (by rw [← e']; exact mem_footprint_up U hx' hu)
      · exact footprint_up_not_mem U (List.nodup_cons.mp h2).2 hx' hu hm'

/-- The sweep of `rest`, the part of `root` that follows the cursor, on
well-formed lists: `gc_sweep` returns, the list keeps what passed the sweep
test, the cursor is the cell that ends the kept part, and the lists are well
formed again. -/
theorem sweep_lists_core (d : Nat) (g : GState) {S : Finset Nat} {U St : Nat → List Nat}
    {pre rest : List Nat} (hl : Lists S g U St (pre ++ rest))
    (hcur : g.sweep = lastLoc Loc.root pre) :
    ∃ g1 p1 U1, gc_sweep (d + 1) g g.sweep GCSWEEPMAX = some (g1, p1) ∧
      Lists S g1 U1 St
        (pre ++ ((rest.take GCSWEEPMAX).filter (fun x => decide (sweepKeeps g (otherwhite g) x))
          ++ rest.drop GCSWEEPMAX)) ∧
      (∀ x, (U1 x).Sublist (U x)) ∧
      Chain g1 (p1.get g1) (rest.drop GCSWEEPMAX) ∧
      p1 = lastLoc Loc.root
        (pre ++ (rest.take GCSWEEPMAX).filter (fun x => decide (sweepKeeps g (otherwhite g) x))) ∧
      g1.restSwp = g.restSwp ∧
      (∀ a, (g1.heap a).gct = (g.heap a).gct ∧ (g1.heap a).metatable = (g.heap a).metatable ∧
        (g1.heap a).mmGc = (g.heap a).mmGc ∧ (g1.heap a).gclist = (g.heap a).gclist) ∧
      (∀ v, sweepKeeps g (otherwhite g) v → sweepKeeps g1 (otherwhite g1) v) := by
  have hndf : (footprint U pre ++ footprint U rest).Nodup := by
    rw [← footprint_append]; exact hl.foot_nodup
  obtain ⟨ndp, ndr, disj⟩ := List.nodup_append.mp hndf
  have ndpre : pre.Nodup := (footprint_sub U pre).nodup ndp
  have ndrest : rest.Nodup := (footprint_sub U rest).nodup ndr
  have hseg : Seg g g.root (pre ++ rest) 0 := Chain.seg.mp hl.root
  obtain ⟨s1, s2⟩ := Seg.split hseg
  have hget : g.sweep.get g = rest.headD 0 := by
    rw [hcur]
    exact @Seg.last_get g (rest.headD 0) pre Loc.root s1
  have hc : Chain g (g.sweep.get g) rest := by rw [hget]; exact Chain.seg.mpr s2
  have hownpre : ∀ q, g.sweep.owner = some q → q ∈ pre ∧ g.sweep = Loc.nextgc q := by
    intro q hq
    rcases lastLoc_cases pre Loc.root with ⟨_, e⟩ | ⟨y, hy, e⟩
    · rw [hcur, e] at hq; cases hq
    · rw [hcur, e] at hq
      injection hq with hq
      subst hq
      exact ⟨hy, by rw [hcur, e]⟩
  have hown : ∀ q, g.sweep.owner = some q → q ∉ footprint U rest := fun q hq hm =>
    disj (mem_footprint_self U (hownpre q hq).1) hm
  have hmemL : ∀ x ∈ rest, x ∈ pre ++ rest := fun x hx => List.mem_append_right _ hx
  obtain ⟨g1, p1, hrun, post⟩ := sweepLoop_nested d (otherwhite g) U GCSWEEPMAX rest g g.sweep
    rfl hc (fun x hx => hl.upch x (hmemL x hx)) (fun x hx => hl.upnt x (hmemL x hx))
    (fun x hx => hl.upth x (hmemL x hx)) ndr hown
  have hrun' : gc_sweep (d + 1) g g.sweep GCSWEEPMAX = some (g1, p1) := by
    rw [gc_sweep]; exact hrun
  obtain ⟨fr, _⟩ := gc_sweep_frame (d + 1) g g.sweep _ _ hrun'
  obtain ⟨r1, r2, r3, r4, r5, r6, r7, r8, r9, r10, r11, r12⟩ := restSwp_fields fr
  have rtr : g1.traceref = g.traceref :=
    (show g1.restSwp.traceref = g.restSwp.traceref by rw [fr])
  have eff := post.eff
  have hnotstr : ∀ i, g.sweep ≠ Loc.strhash i := fun i => by
    rw [hcur]; exact lastLoc_not_strhash pre i
  have hstrh : g1.strhash = g.strhash := post.strhash hnotstr
  -- what the sweep leaves alone
  have hfr : ∀ a, a ∉ footprint U rest → (∀ q, g.sweep.owner = some q → a ≠ q) →
      g1.heap a = g.heap a := fun a ha hq =>
    eff.frame a (fun h => ha (visited_sub_footprint U h)) (fun h => by
      cases hp : g.sweep.owner with
      | none => rw [hp] at h; simp at h
      | some q => rw [hp] at h; exact hq q hp (by simpa using h))
  have hfrD : ∀ a ∈ footprint U (rest.drop GCSWEEPMAX), g1.heap a = g.heap a := by
    intro a ha
    have hsplit : (footprint U (rest.take GCSWEEPMAX)
        ++ footprint U (rest.drop GCSWEEPMAX)).Nodup := by
      rw [← footprint_append, List.take_append_drop]; exact ndr
    have hd := (List.nodup_append.mp hsplit).2.2
    have har : a ∈ footprint U rest := by
      rw [← List.take_append_drop GCSWEEPMAX rest, footprint_append]
      exact List.mem_append_right _ ha
    refine eff.frame a (fun h => hd (visited_sub U h) ha) (fun h => ?_)
    cases hp : g.sweep.owner with
    | none => rw [hp] at h; simp at h
    | some q =>
      rw [hp] at h
      have e : a = q := by simpa using h
      exact hown q hp (e ▸ har)
  have hup : ∀ a, a ∉ footprint U rest → (g1.heap a).openupval = (g.heap a).openupval := by
    intro a ha
    by_cases hq : g.sweep.owner = some a
    · rw [post.owner a hq, (hownpre a hq).2]; rfl
    · rw [hfr a ha (fun q hq' e => hq (e ▸ hq'))]
  have hgct : ∀ a, (g1.heap a).gct = (g.heap a).gct := fun a => (eff.kobj a).1
  have hpreR : ∀ a ∈ footprint U pre, a ∉ footprint U rest := fun a ha hm => disj ha hm
  have hupnot : ∀ x ∈ pre ++ rest, ∀ u ∈ U x, u ∉ pre ++ rest := fun x hx u hu =>
    footprint_up_not_mem U hl.foot_nodup hx hu
  have hstrfr : ∀ j, j ≤ g.strmask → ∀ s ∈ St j, g1.heap s = g.heap s := fun j hj s hs =>
    hfr s (fun hm => hl.foot_str (by rw [footprint_append]; exact List.mem_append_right _ hm)
      hj hs)
      (fun q hq e => hl.foot_str (by
        rw [footprint_append]
        exact List.mem_append_left _ (mem_footprint_self U (hownpre q hq).1)) hj (e ▸ hs))
  -- the new lists
  obtain ⟨kept, hkept⟩ : ∃ kept : List Nat, kept =
      (rest.take GCSWEEPMAX).filter (fun x => decide (sweepKeeps g (otherwhite g) x)) :=
    ⟨_, rfl⟩
  obtain ⟨U1, hU1⟩ : ∃ U1 : Nat → List Nat, U1 = fun x =>
      if x ∈ rest.take GCSWEEPMAX then
        ((U x).take fullLim).filter (fun y => decide (sweepKeeps g (otherwhite g) y))
          ++ (U x).drop fullLim
      else U x := ⟨_, rfl⟩
  have eU1 : ∀ x, x ∈ rest.take GCSWEEPMAX → U1 x =
      ((U x).take fullLim).filter (fun y => decide (sweepKeeps g (otherwhite g) y))
        ++ (U x).drop fullLim := fun x hx => by
    rw [hU1]; simp only [if_pos hx]
  have eU2 : ∀ x, x ∉ rest.take GCSWEEPMAX → U1 x = U x := fun x hx => by
    rw [hU1]; simp only [if_neg hx]
  have hsubU : ∀ x, (U1 x).Sublist (U x) := fun x => by
    by_cases e : x ∈ rest.take GCSWEEPMAX
    · rw [eU1 x e]; exact filter_take_sublist _ _ _
    · rw [eU2 x e]
  have hsubK : (kept ++ rest.drop GCSWEEPMAX).Sublist rest := by
    rw [hkept]; exact filter_take_sublist _ _ _
  have hsubX : (pre ++ (kept ++ rest.drop GCSWEEPMAX)).Sublist (pre ++ rest) :=
    List.Sublist.append (List.Sublist.refl _) hsubK
  have hsubF := List.Sublist.append (footprint_sublist hsubU hsubX)
    (List.Sublist.refl (((List.range (g.strmask + 1)).map St).flatten))
  have hpreT : ∀ x ∈ pre, x ∉ rest.take GCSWEEPMAX := fun x hx hm =>
    disj (mem_footprint_self U hx) (mem_footprint_self U (List.mem_of_mem_take hm))
  have hdropT : ∀ x ∈ rest.drop GCSWEEPMAX, x ∉ rest.take GCSWEEPMAX := by
    have h : (rest.take GCSWEEPMAX ++ rest.drop GCSWEEPMAX).Nodup := by
      rw [List.take_append_drop]; exact ndrest
    exact fun x hx hm => (List.nodup_append.mp h).2.2 hm hx
  -- the chain `root`
  have hroot1 : Seg g1 (Loc.root.get g1) (pre ++ (kept ++ rest.drop GCSWEEPMAX)) 0 := by
    refine Seg.spliced pre Loc.root g g1 (kept ++ rest.drop GCSWEEPMAX) (rest.headD 0) 0 s1
      ndpre (fun q hq => by cases hq) (fun a ha hne => ?_) (fun hne => ?_) ?_
    · rw [hfr a (hpreR a (mem_footprint_self U ha)) (fun q hq e => by
        apply hne
        rw [← hcur, (hownpre q hq).2, e])]
    · have hp : g.sweep ≠ Loc.root := by rw [hcur]; exact fun e => hne e.symm
      have hpre : pre ≠ [] := by
        intro e
        apply hne
        rw [e]; rfl
      obtain ⟨y, ys, e⟩ := List.exists_cons_of_ne_nil hpre
      have hry : g.root = y := by rw [e] at s1; exact s1.1
      refine post.root hp (fun h => ?_)
      have hy : y ∈ pre := by rw [e]; exact List.mem_cons_self _ _
      exact hpreR y (mem_footprint_self U hy) (visited_sub_footprint U (hry ▸ h))
    · rw [← hcur, hkept]
      exact Chain.seg.mp post.chain
  have sane1 : Sane S g1 := eff.esane
    (fun v hv => hl.mem v (List.mem_append_left _ (by
      rw [footprint_append]
      exact List.mem_append_right _ (visited_sub_footprint U hv))))
    (fun h0 => hl.lnonzero (List.mem_append_left _ (by
      rw [footprint_append]
      exact List.mem_append_right _ (visited_sub_footprint U h0))))
    rtr hl.sane
  have hw1 : whiteOK g1 := by unfold whiteOK; rw [r5]; exact hl.white
  have hmemX : ∀ x ∈ pre ++ (kept ++ rest.drop GCSWEEPMAX),
      x ∈ pre ∨ (x ∈ rest.take GCSWEEPMAX ∧ x ∈ kept) ∨ x ∈ rest.drop GCSWEEPMAX := by
    intro x hx
    rcases List.mem_append.mp hx with h | h
    · exact Or.inl h
    · rcases List.mem_append.mp h with h | h
      · exact Or.inr (Or.inl ⟨by rw [hkept] at h; exact (List.mem_filter.mp h).1, h⟩)
      · exact Or.inr (Or.inr h)
  have hl1 : Lists S g1 U1 St (pre ++ (kept ++ rest.drop GCSWEEPMAX)) :=
    { sane := sane1
      root := Chain.seg.mpr hroot1
      upch := fun x hx ht => by
        have hxl : x ∈ pre ++ rest := hsubX.subset hx
        rw [hgct] at ht
        rcases hmemX x hx with h | ⟨h, _⟩ | h
        · rw [eU2 x (hpreT x h), hup x (hpreR x (mem_footprint_self U h))]
          refine Chain.congr (fun u hu => ?_) (hl.upch x hxl ht)
          rw [hfr u (hpreR u (mem_footprint_up U h hu)) (fun q hq e =>
            hupnot x hxl u hu (e ▸ List.mem_append_left _ (hownpre q hq).1))]
        · rw [eU1 x h]
          exact post.upchain x h ht
        · rw [eU2 x (hdropT x h), hfrD x (mem_footprint_self U h)]
          exact Chain.congr (fun u hu => by rw [hfrD u (mem_footprint_up U h hu)])
            (hl.upch x hxl ht)
      upnt := fun x hx ht => by
        rw [hgct] at ht
        have e := hl.upnt x (hsubX.subset hx) ht
        exact List.eq_nil_of_sublist_nil (e ▸ hsubU x)
      upth := fun x hx u hu => by
        rw [hgct]
        exact hl.upth x (hsubX.subset hx) u ((hsubU x).subset hu)
      str := fun j hj => by
        rw [r4] at hj
        rw [hstrh]
        exact Chain.congr (fun s hs => by rw [hstrfr j hj s hs]) (hl.str j hj)
      strth := fun j hj s hs => by
        rw [r4] at hj
        rw [hgct]; exact hl.strth j hj s hs
      nodup := by rw [r4]; exact hsubF.nodup hl.nodup
      mem := fun x hx => by
        rw [r4] at hx
        exact hl.mem x (hsubF.subset hx)
      mask := by rw [r4]; exact hl.mask
      white := hw1 }
  refine ⟨g1, p1, U1, hrun', ?_, hsubU, post.cursor, ?_, fr, eff.kobj, eff.keeps hl.white⟩
  · rw [← hkept]; exact hl1
  · rw [post.last, hcur, lastLoc_append]

theorem shr_one_le (n : Nat) : n >>> 1 ≤ n := by
  rw [Nat.shiftRight_eq_div_pow]
  exact Nat.div_le_self _ _

/-- The string-table resize to a mask that is not larger keeps well-formed
lists well formed. -/
theorem Lists.rehash {vm : VM} (hvr : VMStrRehash vm) {S : Finset Nat} {g : GState}
    {U St : Nat → List Nat} {xs : List Nat} (h : Lists S g U St xs) (L m : Nat)
    (hle : m ≤ g.strmask) :
    ∃ St', Lists S (vm.lj_str_resize g L m) U St' xs ∧ SwKept g (vm.lj_str_resize g L m) ∧
      (∀ a, ((vm.lj_str_resize g L m).heap a).marked = (g.heap a).marked) := by
  obtain ⟨hh, m', nx, t, e, hm0, hst⟩ := hvr g L m
  have hm' : m' ≤ g.strmask := hm0 hle
  obtain ⟨hnx, St', hch, hperm⟩ := hst St h.str (List.nodup_append.mp h.nodup).2.1
  generalize vm.lj_str_resize g L m = r at e hch ⊢
  subst e
  have hoff : ∀ a ∈ footprint U xs, nx a = (g.heap a).nextgc := fun a ha =>
    hnx a (fun hm => (List.nodup_append.mp h.nodup).2.2 ha hm)
  have hP := List.Perm.append_left (footprint U xs) hperm
  refine ⟨St', ?_, ⟨fun a => ⟨rfl, rfl, rfl, rfl⟩, rfl, hm'⟩, fun a => rfl⟩
  exact
    { sane := ⟨fun a => h.sane.bytes a, h.sane.null, fun n => h.sane.trace n,
        fun a ha => h.sane.cover a ha⟩
      root := Chain.congr (fun x hx => hoff x (mem_footprint_self U hx)) h.root
      upch := fun x hx ht =>
        Chain.congr (fun u hu => hoff u (mem_footprint_up U hx hu)) (h.upch x hx ht)
      upnt := fun x hx ht => h.upnt x hx ht
      upth := fun x hx u hu => h.upth x hx u hu
      str := fun j hj => hch j hj
      strth := fun j hj s hs => by
        have h1 : s ∈ ((List.range (m' + 1)).map St').flatten :=
          mem_flatten_range.mpr ⟨j, by
            have : j ≤ m' := hj
            omega, hs⟩
        obtain ⟨j0, hj0, hs0⟩ := mem_flatten_range.mp (hperm.subset h1)
        exact h.strth j0 (by omega) s hs0
      nodup := hP.nodup_iff.mpr h.nodup
      mem := fun x hx => h.mem x (hP.subset hx)
      mask := by
        have := h.mask
        show m' + 1 < 2 ^ 32
        omega
      white := h.white }

/-- The end of the `GCSsweep` case of `gc_onestep` on well-formed lists with
nothing to finalize. -/
theorem sweepDone_lists {vm : VM} (hvr : VMStrRehash vm) (g1 : GState) (L : Nat) (p1 : Loc)
    (old : Nat) {S : Finset Nat} {U St : Nat → List Nat} {xs : List Nat}
    (hl : Lists S g1 U St xs) (hmm : g1.mmudata = 0) :
    (p1.get g1 ≠ 0 →
      ∃ e, sweepDone vm g1 L p1 old = { g1 with sweep := p1, estimate := e }) ∧
    (p1.get g1 = 0 →
      ∃ St', Lists S (sweepDone vm g1 L p1 old) U St' xs ∧
        SwKept g1 (sweepDone vm g1 L p1 old) ∧
        (∀ a, ((sweepDone vm g1 L p1 old).heap a).marked = (g1.heap a).marked) ∧
        (sweepDone vm g1 L p1 old).state = GCSpause) := by
  have e : ∀ (G : GState) (est : Nat),
      Loc.get { G with sweep := p1, estimate := est } p1 = p1.get G :=
    fun G est => by cases p1 <;> rfl
  have hl3 : ∀ est, Lists S { g1 with sweep := p1, estimate := est } U St xs := fun est =>
    hl.links (fun a => ⟨rfl, rfl, rfl⟩) rfl rfl rfl (hl.sane.sane_flds rfl rfl) hl.white
  have k3 : ∀ est, SwKept g1 { g1 with sweep := p1, estimate := est } := fun est =>
    ⟨fun a => ⟨rfl, rfl, rfl, rfl⟩, rfl, le_refl _⟩
  have fin : ∀ (G : GState) (St4 : Nat → List Nat), Lists S G U St4 xs → SwKept g1 G →
      (∀ a, (G.heap a).marked = (g1.heap a).marked) →
      ∃ St', Lists S ({ G with state := GCSpause, debt := 0 }) U St' xs ∧
        SwKept g1 { G with state := GCSpause, debt := 0 } ∧
        (∀ a, (({ G with state := GCSpause, debt := 0 } : GState).heap a).marked
          = (g1.heap a).marked) ∧
        ({ G with state := GCSpause, debt := 0 } : GState).state = GCSpause :=
    fun G St4 l4 k4 m4 => ⟨St4,
      l4.links (fun a => ⟨rfl, rfl, rfl⟩) rfl rfl rfl (l4.sane.sane_flds rfl rfl) l4.white,
      k4.wtrans ⟨fun a => ⟨rfl, rfl, rfl, rfl⟩, rfl, le_refl _⟩, m4, rfl⟩
  have hmmR : ∀ est m, m ≤ g1.strmask →
      (vm.lj_str_resize { g1 with sweep := p1, estimate := est } L m).mmudata = 0 :=
    fun est m hle => by
      obtain ⟨St4, l4, k4, m4⟩ := (hl3 est).rehash hvr L m hle
      rw [((k3 est).wtrans k4).wflds.2.1]; exact hmm
  have keyR : ∀ est m, m ≤ g1.strmask → ∃ St', Lists S
        ({ vm.lj_str_resize { g1 with sweep := p1, estimate := est } L m with
            state := GCSpause, debt := 0 }) U St' xs ∧
      SwKept g1 { vm.lj_str_resize { g1 with sweep := p1, estimate := est } L m with
            state := GCSpause, debt := 0 } ∧
      (∀ a, (({ vm.lj_str_resize { g1 with sweep := p1, estimate := est } L m with
            state := GCSpause, debt := 0 } : GState).heap a).marked = (g1.heap a).marked) ∧
      ({ vm.lj_str_resize { g1 with sweep := p1, estimate := est } L m with
            state := GCSpause, debt := 0 } : GState).state = GCSpause :=
    fun est m hle => by
      obtain ⟨St4, l4, k4, m4⟩ := (hl3 est).rehash hvr L m hle
      exact fin _ St4 l4 ((k3 est).wtrans k4) (fun a => m4 a)
  unfold sweepDone
  dsimp only
  rw [e]
  constructor
  · intro h
    rw [if_neg h]
    exact ⟨_, rfl⟩
  · intro h
    rw [if_pos h]
    split_ifs with hc hm hf hm hf
    · exact absurd (hmmR _ _ (shr_one_le _)) hm
    · exact absurd (hmmR _ _ (shr_one_le _)) hm
    · exact keyR _ _ (shr_one_le _)
    · exact absurd hmm hm
    · exact absurd hmm hm
    · exact fin _ St (hl3 _) (k3 _) (fun a => rfl)

theorem Chain.cnil {g : GState} {h : Nat} {l : List Nat} (c : Chain g h l) :
    h = 0 ↔ l = [] := by
  cases l with
  | nil => exact ⟨fun _ => rfl, fun _ => c⟩
  | cons x xs =>
    constructor
    · intro e
      exact absurd (c.1.symm.trans e) c.2.1
    · intro e
      cases e

/-- One `gc_onestep` in state `GCSsweep` on well-formed lists with nothing
to finalize: it returns, `root` keeps of the next forty objects those that
pass the sweep test, the lists are well formed again, and the state is
`GCSpause` when the list is exhausted, else `GCSsweep` with the cursor after
what was kept. -/
theorem sweep_lists {vm : VM} (hvr : VMStrRehash vm) (d : Nat) (g : GState) (L : Nat)
    {S : Finset Nat} {U St : Nat → List Nat} {pre rest : List Nat}
    (hl : Lists S g U St (pre ++ rest)) (hs : g.state = GCSsweep)
    (hcur : g.sweep = lastLoc Loc.root pre) (hmm : g.mmudata = 0) :
    ∃ s U1 St1, gc_onestep vm (d + 1) g L = some (Res.ok s (GCSWEEPMAX * GCSWEEPCOST)) ∧
      Lists S s U1 St1
        (pre ++ ((rest.take GCSWEEPMAX).filter (fun x => decide (sweepKeeps g (otherwhite g) x))
          ++ rest.drop GCSWEEPMAX)) ∧
      (∀ x, (U1 x).Sublist (U x)) ∧ SwKept g s ∧
      (rest.length ≤ GCSWEEPMAX → s.state = GCSpause) ∧
      (GCSWEEPMAX < rest.length → s.state = GCSsweep ∧ s.sweep = lastLoc Loc.root
        (pre ++ (rest.take GCSWEEPMAX).filter
          (fun x => decide (sweepKeeps g (otherwhite g) x)))) ∧
      (∀ v, sweepKeeps g (otherwhite g) v → sweepKeeps s (otherwhite s) v) := by
  obtain ⟨g1, p1, U1, hrun, hl1, hsub, hch, hp1, fr, kobj, keeps⟩ := sweep_lists_core d g hl hcur
  obtain ⟨r1, r2, r3, r4, r5, r6, r7, r8, r9, r10, r11, r12⟩ := restSwp_fields fr
  have hk1 : SwKept g g1 := ⟨kobj, restCyc_of_swp fr, le_of_eq r4⟩
  have hstep : gc_onestep vm (d + 1) g L
      = some (Res.ok (sweepDone vm g1 L p1 g.total) (GCSWEEPMAX * GCSWEEPCOST)) := by
    unfold gc_onestep
    rw [if_neg (by rw [hs]; decide), if_neg (by rw [hs]; decide), if_neg (by rw [hs]; decide),
      if_neg (by rw [hs]; decide), if_pos hs, hrun]
    rfl
  obtain ⟨c1, c2⟩ := sweepDone_lists hvr g1 L p1 g.total hl1 (r10.trans hmm)
  by_cases hlen : rest.length ≤ GCSWEEPMAX
  · have hd : rest.drop GCSWEEPMAX = [] := List.drop_eq_nil_of_le hlen
    have h0 : p1.get g1 = 0 := hch.cnil.mpr hd
    obtain ⟨St1, l2, k2, m2, s2⟩ := c2 h0
    refine ⟨_, U1, St1, hstep, l2, hsub, hk1.wtrans k2, fun _ => s2,
      fun h => absurd hlen (by omega), fun v hv => ?_⟩
    rw [otherwhite_congr (k2.wflds.2.2.1)]
    exact (sweepKeeps_congr (m2 v)).mpr (keeps v hv)
  · have hd : rest.drop GCSWEEPMAX ≠ [] := fun e =>
      hlen (List.drop_eq_nil_iff.mp e)
    have h0 : p1.get g1 ≠ 0 := fun e => hd (hch.cnil.mp e)
    obtain ⟨e, he⟩ := c1 h0
    rw [he] at hstep
    refine ⟨_, U1, St, hstep,
      hl1.links (fun a => ⟨rfl, rfl, rfl⟩) rfl rfl rfl (hl1.sane.sane_flds rfl rfl) hl1.white, hsub,
      hk1.wtrans ⟨fun a => ⟨rfl, rfl, rfl, rfl⟩, rfl, le_refl _⟩, fun h => absurd h hlen,
      fun _ => ⟨r2.trans hs, hp1⟩, fun v hv => keeps v hv⟩

theorem mem_kept_of_keeps {P : Nat → Prop} [DecidablePred P] {pre rest : List Nat} (n : Nat)
    {v : Nat} (hv : v ∈ pre ++ rest) (hk : P v) :
    v ∈ pre ++ ((rest.take n).filter (fun x => decide (P x)) ++ rest.drop n) := by
  rcases List.mem_append.mp hv with h | h
  · exact List.mem_append_left _ h
  · rw [← List.take_append_drop n rest] at h
    rcases List.mem_append.mp h with h | h
    · exact List.mem_append_right _ (List.mem_append_left _
        (List.mem_filter.mpr ⟨h, by simpa using hk⟩))
    · exact List.mem_append_right _ (List.mem_append_right _ h)

/-- The steps of state `GCSsweep` on well-formed lists with nothing to
finalize: after at most one step per forty objects left on `root` the state
is `GCSpause`, on well-formed lists that hold every object which passed the
sweep test. -/
theorem root_phase {vm : VM} (hvr : VMStrRehash vm) (d L : Nat) {S : Finset Nat} :
    ∀ (n : Nat) (g : GState) (U St : Nat → List Nat) (pre rest : List Nat),
      Lists S g U St (pre ++ rest) → g.state = GCSsweep → g.sweep = lastLoc Loc.root pre →
      g.mmudata = 0 → rest.length ≤ GCSWEEPMAX * (n + 1) →
      ∃ k s U1 St1 xs1, StepsIn vm (d + 1) L inSweep k g s ∧ k ≤ n + 1 ∧ s.state = GCSpause ∧
        Lists S s U1 St1 xs1 ∧ SwKept g s ∧ xs1.Sublist (pre ++ rest) ∧
        (∀ v ∈ pre ++ rest, sweepKeeps g (otherwhite g) v → v ∈ xs1) ∧
        (∀ v, sweepKeeps g (otherwhite g) v → sweepKeeps s (otherwhite s) v) := by
  intro n
  induction n with
  | zero =>
    intro g U St pre rest hl hs hcur hmm hlen
    obtain ⟨s, U1, St1, h1, l1, _, k1, e1, _, kp⟩ := sweep_lists hvr d g L hl hs hcur hmm
    refine ⟨1, s, U1, St1, _, StepsIn.pone (Or.inr hs) h1, le_refl _,
      e1 (by simpa using hlen), l1, k1,
      List.Sublist.append (List.Sublist.refl _) (filter_take_sublist _ _ _),
      fun v hv hk => mem_kept_of_keeps GCSWEEPMAX hv hk, kp⟩
  | succ n ih =>
    intro g U St pre rest hl hs hcur hmm hlen
    obtain ⟨s, U1, St1, h1, l1, _, k1, e1, e2, kp⟩ := sweep_lists hvr d g L hl hs hcur hmm
    by_cases hle : rest.length ≤ GCSWEEPMAX
    · exact ⟨1, s, U1, St1, _, StepsIn.pone (Or.inr hs) h1, by omega, e1 hle, l1, k1,
        List.Sublist.append (List.Sublist.refl _) (filter_take_sublist _ _ _),
        fun v hv hk => mem_kept_of_keeps GCSWEEPMAX hv hk, kp⟩
    · obtain ⟨s1, s2⟩ := e2 (by omega)
      rw [← List.append_assoc] at l1
      have hlen2 : (rest.drop GCSWEEPMAX).length ≤ GCSWEEPMAX * (n + 1) := by
        rw [List.length_drop]
        have e : GCSWEEPMAX = 40 := rfl
        rw [e] at hlen ⊢
        omega
      obtain ⟨k, t, U2, St2, xs2, r1, r2, r3, r4, r5, r6, r7, r8⟩ :=
        ih s U1 St1 _ _ l1 s1 s2 (k1.wflds.2.1.trans hmm) hlen2
      refine ⟨1 + k, t, U2, St2, xs2,
        StepsIn.pappend (StepsIn.pone (Or.inr hs) h1) r1, by omega, r3, r4, k1.wtrans r5, ?_,
        fun v hv hk => ?_, fun v hv => r8 v (kp v hv)⟩
      · refine r6.trans ?_
        rw [List.append_assoc]
        exact List.Sublist.append (List.Sublist.refl _) (filter_take_sublist _ _ _)
      · refine r7 v ?_ (kp v hk)
        rw [List.append_assoc]
        exact mem_kept_of_keeps GCSWEEPMAX hv hk

/-- The steps of state `GCSsweepstring` on well-formed lists: one step per
hash chain from `sweepstr` up to `strmask`, then the state is `GCSsweep`. -/
theorem string_phase (vm : VM) (fuel L : Nat) {S : Finset Nat} {U : Nat → List Nat}
    {xs : List Nat} : ∀ (n : Nat) (g : GState) (St : Nat → List Nat),
      Lists S g U St xs → g.state = GCSsweepstring → g.sweepstr + n = g.strmask →
      ∃ s St1, StepsIn vm fuel L inSweep (n + 1) g s ∧ s.state = GCSsweep ∧
        Lists S s U St1 xs ∧ SwKept g s ∧ s.sweep = g.sweep ∧
        (∀ v, sweepKeeps g (otherwhite g) v → sweepKeeps s (otherwhite s) v) := by
  intro n
  induction n with
  | zero =>
    intro g St hl hs hn
    obtain ⟨s, St1, h1, l1, k1, _, _, e3, e4, kp⟩ :=
      sweepstring_lists vm fuel g L hl hs (by omega)
    rw [if_pos (by omega)] at e4
    exact ⟨s, St1, StepsIn.pone (Or.inl hs) h1, e4, l1, k1, e3, kp⟩
  | succ n ih =>
    intro g St hl hs hn
    obtain ⟨s, St1, h1, l1, k1, e1, e2, e3, e4, kp⟩ :=
      sweepstring_lists vm fuel g L hl hs (by omega)
    rw [if_neg (by omega)] at e4
    obtain ⟨t, St2, r1, r2, r3, r4, r5, r6⟩ := ih s St1 l1 e4 (by omega)
    refine ⟨t, St2, ?_, r2, r3, k1.wtrans r4, r5.trans e3, fun v hv => r6 v (kp v hv)⟩
    have := StepsIn.pappend (StepsIn.pone (Or.inl hs) h1) r1
    rwa [show 1 + (n + 1) = n + 1 + 1 by omega] at this

theorem Same.same_refl (g : GState) : Same g g := ⟨fun _ => ⟨rfl, rfl, rfl⟩, rfl, rfl, rfl, rfl, le_refl _⟩

theorem Same.same_trans {a b c : GState} (h1 : Same a b) (h2 : Same b c) : Same a c :=
  ⟨fun x => ⟨(h2.obj x).1.trans (h1.obj x).1, (h2.obj x).2.1.trans (h1.obj x).2.1,
    (h2.obj x).2.2.trans (h1.obj x).2.2⟩, h2.main.trans h1.main, h2.jit.trans h1.jit,
    h2.vmst.trans h1.vmst, h2.kind.trans h1.kind, le_trans h2.mask h1.mask⟩

theorem SwKept.wsame {g s : GState} (h : SwKept g s) : Same g s :=
  ⟨fun a => ⟨(h.obj a).1, (h.obj a).2.1, (h.obj a).2.2.1⟩, h.wflds.1, h.wflds.2.2.2.2.1,
    h.wflds.2.2.2.2.2.2.2.2.2.2.2, h.wflds.2.2.2.2.2.1, h.mask⟩

theorem Steady.dsame {g s : GState} (h : Steady g s) : Same g s :=
  ⟨fun a => ⟨(h.dobj a).2.2.1, (h.dobj a).2.2.2.2.1, (h.dobj a).2.2.2.2.2⟩, h.dkeeps.1,
    h.dkeeps.2.2.2.2.2.2.2.2.1,
    (show s.restSteady.vmstate = g.restSteady.vmstate by rw [h.rest]), h.dkeeps.2.2.2.2.2.2.2.1,
    le_of_eq h.dkeeps.2.2.2.2.2.1⟩

theorem Tame.tsame {g s : GState} (h : Tame g s) : Same g s :=
  ⟨fun a => ⟨(h.tobj a).2.2.1,
    (show (linkObj (s.heap a)).metatable = (linkObj (g.heap a)).metatable by rw [h.core a]),
    (show (linkObj (s.heap a)).mmGc = (linkObj (g.heap a)).mmGc by rw [h.core a])⟩,
    h.tkeeps.2.2.2.1,
    (show s.restLink.jit_base = g.restLink.jit_base by rw [h.rest]),
    (show s.restLink.vmstate = g.restLink.vmstate by rw [h.rest]),
    (show s.restLink.kind = g.restLink.kind by rw [h.rest]), le_of_eq h.tkeeps.2.2.1⟩

theorem NoFin.ncongr {g s : GState} {xs R ud : List Nat} (h : NoFin g xs R ud) (k : Same g s)
    (hmm : s.mmudata = 0) : NoFin s xs R ud :=
  { split := by rw [k.main]; exact h.split
    main := by rw [k.main]; exact h.main
    kinds := fun u hu => by
      obtain ⟨a, b⟩ := h.kinds u hu
      refine ⟨by rw [(k.obj u).1]; exact a, ?_⟩
      unfold metaGc at b ⊢
      rw [(k.obj u).2.1, (k.obj _).2.2]
      exact b
    empty := hmm }

theorem sublist_split_at {m : Nat} {R l ud : List Nat} (hs : l.Sublist (R ++ m :: ud))
    (hm : m ∈ l) (hR : m ∉ R) (hU : m ∉ ud) :
    ∃ R1 ud1, l = R1 ++ m :: ud1 ∧ R1.Sublist R ∧ ud1.Sublist ud := by
  obtain ⟨a, b, e, ha, hb⟩ := List.sublist_append_iff.mp hs
  subst e
  have hma : m ∉ a := fun h => hR (ha.subset h)
  have hmb : m ∈ b := by
    rcases List.mem_append.mp hm with h | h
    · exact absurd h hma
    · exact h
  cases hb with
  | cons _ h => exact absurd (h.subset hmb) hU
  | cons₂ _ h => exact ⟨a, _, rfl, ha, h⟩

theorem Lists.root_nodup {S : Finset Nat} {g : GState} {U St : Nat → List Nat}
    {xs : List Nat} (h : Lists S g U St xs) : xs.Nodup :=
  (footprint_sub U xs).nodup h.foot_nodup

/-- The userdata list of `NoFin` after a sweep: the swept list splits at the
main thread again, into sublists. -/
theorem NoFin.sub {g s : GState} {xs xs1 R ud : List Nat} (h : NoFin g xs R ud)
    (hnd : xs.Nodup) (k : Same g s) (hmm : s.mmudata = 0) (hs : xs1.Sublist xs)
    (hm : g.mainthread ∈ xs1) : ∃ R1 ud1, NoFin s xs1 R1 ud1 := by
  rw [h.split] at hs hnd
  obtain ⟨n1, n2, n3⟩ := List.nodup_append.mp hnd
  obtain ⟨R1, ud1, e, _, hu⟩ := sublist_split_at hs hm
    (fun hR => n3 hR (List.mem_cons_self _ _)) (List.nodup_cons.mp n2).1
  refine ⟨R1, ud1, ?_⟩
  have h1 : NoFin g xs1 R1 ud1 :=
    ⟨e, h.main, fun u hu' => h.kinds u (hu.subset hu'), h.empty⟩
  exact h1.ncongr k hmm

theorem Sane.sncongr {S : Finset Nat} {g s : GState} (h : Sane S g)
    (ho : ∀ a, (s.heap a).marked = (g.heap a).marked ∧ (s.heap a).gct = (g.heap a).gct)
    (ht : s.traceref = g.traceref) : Sane S s :=
  ⟨fun a => by rw [(ho a).1]; exact h.bytes a,
   by unfold iswhite; rw [(ho 0).1]; exact h.null,
   fun n => by rw [ht, (ho _).2]; exact h.trace n,
   fun a ha => h.cover a (by unfold iswhite at ha ⊢; rw [← (ho a).1]; exact ha)⟩

/-- The sweep phase on well-formed lists with nothing to finalize, from
state `GCSsweepstring` (with `sweepstr` a chain index) or `GCSsweep`, the
cursor at the end of the part `pre` of `root`: a run of steps through sweep
states ends in `GCSpause`, on well-formed lists that hold every object which
passed the sweep test. -/
theorem sweep_phase {vm : VM} (hvr : VMStrRehash vm) (fuel L : Nat) (hfuel : 1 ≤ fuel)
    {S : Finset Nat} (g : GState) (U St : Nat → List Nat) (pre rest : List Nat)
    (hl : Lists S g U St (pre ++ rest))
    (hst : (g.state = GCSsweepstring ∧ g.sweepstr ≤ g.strmask) ∨ g.state = GCSsweep)
    (hcur : g.sweep = lastLoc Loc.root pre) (hmm : g.mmudata = 0) :
    ∃ k s U1 St1 xs1, StepsIn vm fuel L inSweep k g s ∧ k ≤ g.strmask + rest.length + 2 ∧
      s.state = GCSpause ∧ Lists S s U1 St1 xs1 ∧ SwKept g s ∧ xs1.Sublist (pre ++ rest) ∧
      (∀ v ∈ pre ++ rest, sweepKeeps g (otherwhite g) v → v ∈ xs1) ∧
      (∀ v, sweepKeeps g (otherwhite g) v → sweepKeeps s (otherwhite s) v) := by
  obtain ⟨d, rfl⟩ : ∃ d, fuel = d + 1 := ⟨fuel - 1, by omega⟩
  have hq : rest.length ≤ GCSWEEPMAX * (rest.length + 1) := by
    have e : GCSWEEPMAX = 40 := rfl
    rw [e]; omega
  rcases hst with ⟨hs, hi⟩ | hs
  · obtain ⟨n, hn⟩ : ∃ n, g.sweepstr + n = g.strmask := ⟨g.strmask - g.sweepstr, by omega⟩
    obtain ⟨s, St1, r1, r2, r3, r4, r5, r6⟩ := string_phase vm (d + 1) L n g St hl hs hn
    obtain ⟨k, t, U2, St2, xs2, q1, q2, q3, q4, q5, q6, q7, q8⟩ :=
      root_phase hvr d L rest.length s U St1 pre rest r3 r2 (r5.trans hcur)
        (r4.wflds.2.1.trans hmm) hq
    exact ⟨n + 1 + k, t, U2, St2, xs2, StepsIn.pappend r1 q1, by omega, q3, q4, r4.wtrans q5, q6,
      fun v hv hk => q7 v hv (r6 v hk), fun v hv => q8 v (r6 v hv)⟩
  · obtain ⟨k, t, U2, St2, xs2, q1, q2, q3, q4, q5, q6, q7, q8⟩ :=
      root_phase hvr d L rest.length g U St pre rest hl hs hcur hmm hq
    exact ⟨k, t, U2, St2, xs2, q1, by omega, q3, q4, q5, q6, q7, q8⟩

theorem Lists.lsteady {S : Finset Nat} {g s : GState} {U St : Nat → List Nat} {xs : List Nat}
    (h : Lists S g U St xs) (k : Steady g s) (hs : Sane S s) : Lists S s U St xs :=
  h.links (fun a => ⟨(k.dobj a).1, (k.dobj a).2.1, (k.dobj a).2.2.1⟩) k.dkeeps.2.2.2.1
    k.dkeeps.2.2.2.2.1 k.dkeeps.2.2.2.2.2.1 hs
    (by unfold whiteOK; rw [k.dkeeps.2.2.1]; exact h.white)

theorem Lists.ltame {S : Finset Nat} {g s : GState} {U St : Nat → List Nat} {xs : List Nat}
    (h : Lists S g U St xs) (k : Tame g s) (hs : Sane S s) (hw : whiteOK s) :
    Lists S s U St xs :=
  h.links (fun a => ⟨(k.tobj a).1, (k.tobj a).2.1, (k.tobj a).2.2.1⟩) k.tkeeps.1
    k.tkeeps.2.1 k.tkeeps.2.2.1 hs hw

theorem Work.wcongr {S : Finset Nat} {g s : GState} {gs as ws ps : List Nat} {ph : Nat}
    (w : Work S g gs as ws ps ph) (hh : s.heap = g.heap) (h1 : s.gray = g.gray)
    (h2 : s.grayagain = g.grayagain) (h3 : s.weak = g.weak) (h4 : s.traceref = g.traceref) :
    Work S s gs as ws ps ph :=
  ⟨by rw [h1]; exact GChain.gheap w.gray hh, by rw [h2]; exact GChain.gheap w.again hh,
   by rw [h3]; exact GChain.gheap w.weak hh, GChain.gheap w.parked hh, w.nodup,
   fun t ht => by rw [hh]; exact w.ok t ht, fun a => by rw [hh]; exact w.bytes a,
   by rw [hh]; exact w.null, fun n => by rw [h4, hh]; exact w.trace n,
   fun a ha => w.cover a (by rw [← hh]; exact ha)⟩

/-- The userdata list of `NoFin` is the chain after the main thread, of
distinct objects of `S` other than the main thread. -/
theorem NoFin.nchain {S : Finset Nat} {g : GState} {U St : Nat → List Nat} {xs R ud : List Nat}
    (h : NoFin g xs R ud) (hl : Lists S g U St xs) :
    Chain g (g.heap g.mainthread).nextgc ud ∧ ud.Nodup ∧ g.mainthread ∉ ud ∧
    (∀ u ∈ ud, u ∈ S) ∧ g.mainthread ∈ xs := by
  have hc := hl.root
  have hnd := hl.root_nodup
  rw [h.split] at hc hnd
  obtain ⟨_, s2⟩ := Seg.split (Chain.seg.mp hc)
  obtain ⟨_, _, s3⟩ := s2
  obtain ⟨_, n2, _⟩ := List.nodup_append.mp hnd
  refine ⟨Chain.seg.mpr s3, (List.nodup_cons.mp n2).2, (List.nodup_cons.mp n2).1,
    fun u hu => hl.mem u (List.mem_append_left _ (mem_footprint_self U ?_)), ?_⟩
  · rw [h.split]
    exact List.mem_append_right _ (List.mem_cons_of_mem _ hu)
  · rw [h.split]
    exact List.mem_append_right _ (List.mem_cons_self _ _)

/-- One `gc_onestep` in state `GCSpause` on well-formed lists: `gc_mark_start`
returns, the state is `GCSpropagate`, the gray list is well formed, the other
two work lists are empty, the main thread is not white, and no list link
changed. -/
theorem pause_step (vm : VM) (fuel : Nat) (g : GState) (L : Nat) {S : Finset Nat}
    {U St : Nat → List Nat} {xs : List Nat} (hl : Lists S g U St xs)
    (hs : g.state = GCSpause) (hf : S.card ≤ fuel) :
    ∃ s gs, gc_onestep vm fuel g L = some (Res.ok s 0) ∧
      gc_mark_start fuel g = some s ∧ s.state = GCSpropagate ∧
      Work S s gs [] [] [] 0 ∧ Lists S s U St xs ∧ Same g s ∧ s.mmudata = g.mmudata ∧
      ¬ iswhite (s.heap s.mainthread) := by
  obtain ⟨G0, hG0⟩ : ∃ G0 : GState, G0 = { g with gray := 0, grayagain := 0, weak := 0 } :=
    ⟨_, rfl⟩
  have s0 : Steady g G0 := by rw [hG0]; exact ⟨fun _ => rfl, rfl⟩
  have sn0 : Sane S G0 := by rw [hG0]; exact hl.sane.sane_flds rfl rfl
  have w0 : Work S G0 [] [] [] [] 0 :=
    sn0.start (by rw [hG0]) (by rw [hG0]) (by rw [hG0])
  have hm0 : G0.mainthread = g.mainthread := by rw [hG0]
  have c0 := w0.wctx hf
  obtain ⟨g1, h1, o1⟩ := markobj_op c0 G0.mainthread
  obtain ⟨g1', h1', _, nw1⟩ := markobj_step c0 G0.mainthread
  have e1 : g1' = g1 := by rw [h1] at h1'; injection h1' with e; exact e.symm
  rw [e1] at nw1
  have c1 := Op.opctx c0 o1
  obtain ⟨g2, h2, o2⟩ := markobj_op c1 (g1.heap g1.mainthread).env
  have c2 := Op.opctx c1 o2
  obtain ⟨g3, h3, o3⟩ := marktv_op c2 g2.registrytv
  have c3 := Op.opctx c2 o3
  obtain ⟨g4, h4, o4⟩ := gcroot_op c3
  have o := o1.optrans (o2.optrans (o3.optrans o4))
  obtain ⟨new, w4, _, _⟩ := w0.op o
  rw [List.append_nil] at w4
  have st : Steady g g4 := s0.dtrans o.steady
  have hrun : gc_mark_start fuel g = some { g4 with state := GCSpropagate } := by
    unfold gc_mark_start
    dsimp only
    rw [← hG0, ← hm0, h1]
    simp only [Option.bind]
    rw [h2]
    simp only [Option.bind]
    rw [h3]
    simp only [Option.bind]
    rw [h4]
    rfl
  have hl4 : Lists S g4 U St xs := hl.lsteady st w4.sane
  have hmain : g4.mainthread = G0.mainthread := o.steady.dkeeps.1
  have nw4 : ¬ iswhite (g4.heap g4.mainthread) := by
    rw [hmain]
    exact (o2.optrans (o3.optrans o4)).base.nonwhite nw1
  refine ⟨{ g4 with state := GCSpropagate }, new, ?_, hrun, rfl,
    w4.wcongr rfl rfl rfl rfl rfl,
    hl4.links (fun a => ⟨rfl, rfl, rfl⟩) rfl rfl rfl (hl4.sane.sane_flds rfl rfl) hl4.white,
    st.dsame.same_trans ⟨fun _ => ⟨rfl, rfl, rfl⟩, rfl, rfl, rfl, rfl, le_refl _⟩, st.dkeeps.2.1, nw4⟩
  unfold gc_onestep
  rw [if_pos hs, hrun]
  rfl

/-- The steps of state `GCSpropagate` on well-formed work lists: one
`propagatemark` per step until the gray list is empty, then the step that
sets `GCSatomic`; no list link changes and no object turns white. -/
theorem propagate_phase (vm : VM) (fuel L : Nat) {S : Finset Nat} (hf : S.card ≤ fuel) :
    ∀ (n : Nat) (g : GState) (gs as ws : List Nat), Work S g gs as ws [] 0 →
      g.state = GCSpropagate → gs.length + mu S g ≤ n →
      ∃ k t as1 ws1, StepsIn vm fuel L notPause k g { t with state := GCSatomic } ∧ k ≤ n + 1 ∧
        Work S t [] as1 ws1 [] 0 ∧ Steady g t ∧
        (∀ a, ¬ iswhite (g.heap a) → ¬ iswhite (t.heap a)) := by
  intro n
  induction n with
  | zero =>
    intro g gs as ws w hs hn
    have hgs : gs = [] := List.length_eq_zero.mp (by omega)
    subst hgs
    have h0 : g.gray = 0 := w.gray
    refine ⟨1, g, as, ws, @StepsIn.pone vm fuel L notPause g _ 0
      (by unfold notPause; rw [hs]; decide) ?_, le_refl _, w, Steady.drefl g, fun _ h => h⟩
    · unfold gc_onestep
      rw [if_neg (by rw [hs]; decide), if_pos hs, if_neg (not_not.mpr h0)]
  | succ n ih =>
    intro g gs as ws w hs hn
    cases gs with
    | nil =>
      have h0 : g.gray = 0 := w.gray
      refine ⟨1, g, as, ws, @StepsIn.pone vm fuel L notPause g _ 0
        (by unfold notPause; rw [hs]; decide) ?_, by omega, w, Steady.drefl g, fun _ h => h⟩
      · unfold gc_onestep
        rw [if_neg (by rw [hs]; decide), if_pos hs, if_neg (not_not.mpr h0)]
    | cons o rest =>
      have hg : g.gray ≠ 0 := by
        have c : GChain g g.gray (o :: rest) := w.gray
        rw [c.1]; exact c.2.1
      obtain ⟨r, new, as1, ws1, h1, w1, hmu, st, _, _, nw⟩ :=
        propagatemark_work fuel w (le_trans (mu_le_card S g) hf)
      have hstep : gc_onestep vm fuel g L = some (Res.ok r.1 r.2) := by
        unfold gc_onestep
        rw [if_neg (by rw [hs]; decide), if_pos hs, if_pos hg, h1]
        rfl
      obtain ⟨k, t, as2, ws2, r1, r2, r3, r4, r5⟩ := ih r.1 (new ++ rest) as1 ws1 w1
        (st.dkeeps.2.2.2.2.2.2.1.trans hs) (by
          simp only [List.length_append, List.length_cons] at hn ⊢
          omega)
      refine ⟨1 + k, t, as2, ws2, StepsIn.pappend (StepsIn.pone
        (by unfold notPause; rw [hs]; decide) hstep) r1, by omega, r3, st.dtrans r4,
        fun a ha => r5 a (nw a ha)⟩

/-- The function `atomic` on well-formed work lists and object lists with
nothing to finalize: it returns, nothing is enqueued on `mmudata`, no list
link changes, the current white is flipped, the cursor is at `root`, the gray
lists are as `MarkEnd` says, and no object off the userdata list turns
white. -/
theorem atomic_lists {vm : VM} (hvm : VMBufOnly vm) (fuel : Nat) (g : GState) (L : Nat)
    {S : Finset Nat} {U St : Nat → List Nat} {xs R ud gs as ws : List Nat}
    (w : Work S g gs as ws [] 0) (hl : Lists S g U St xs) (hn : NoFin g xs R ud)
    (hf : 2 * S.card ≤ fuel) :
    ∃ g1 as1 ws1, atomic vm fuel g L = some g1 ∧ MarkEnd g1 as1 ws1 ∧
      (as1 ++ ws1).length ≤ S.card ∧ Tame g g1 ∧
      Lists S g1 U St xs ∧ NoFin g1 xs R ud ∧ g1.sweep = Loc.root ∧
      (∀ a, a ∉ ud → ¬ iswhite (g.heap a) → sweepKeeps g1 (otherwhite g1) a) := by
  obtain ⟨hc, ndx, hmx, hS, _⟩ := hn.nchain hl
  obtain ⟨g7, g8, gm, m8, udz, as1, ws1, hA, s7, h8, sp, T8, Q8, sane, hend, hlen, nw⟩ :=
    @atomicMark_total S vm fuel g L gs as ws ud [] w hc (by rw [hn.empty]; rfl)
      (by simpa using ndx) hn.main hmx (List.not_mem_nil _)
      (fun u hu => by
        have hu' : u ∈ ud := by simpa using hu
        exact ⟨(hn.kinds u hu').1, hS u hu'⟩)
      hl.white.curwhite hf
  have hG0 : ∀ a, ({ g with grayagain := 0, state := GCSatomic } : GState).heap a = g.heap a :=
    fun _ => rfl
  have hnone : ∀ x ∈ ud, ¬ movable g7 false x := by
    intro x hx hmv
    apply hmv.2.2
    unfold metaGc
    rw [(s7.dobj x).2.2.2.2.1, hG0]
    have h0 := (hn.kinds x hx).2
    unfold metaGc at h0
    split
    · rfl
    · rename_i hne
      rw [if_neg hne] at h0
      rw [(s7.dobj _).2.2.2.2.2, hG0]
      exact h0
  have hfil : ud.filter (fun x => decide (movable g7 false x)) = [] :=
    List.filter_eq_nil_iff.mpr (fun x hx => by simpa using hnone x hx)
  have h80 : g8.mmudata = 0 := by
    have c := sp.circ
    rw [hfil] at c
    exact c
  have hm0 : gm.mmudata = 0 := by rw [T8.tmm]; exact h80
  obtain ⟨e1, e2, e3⟩ := hend.flip hvm L udz
  obtain ⟨g1, hg1⟩ : ∃ g1, g1 = atomicFlip (vm.lj_buf_shrink gm L) udz := ⟨_, rfl⟩
  rw [← hg1] at e1 e2 e3
  have hrun : atomic vm fuel g L = some g1 := by
    unfold atomic
    rw [hA, hg1]
    rfl
  have hmm1 : g1.mmudata = 0 := e3.trans hm0
  have tm : Tame g g1 := atomic_tame vm hvm.tame fuel g L g1 hrun hmm1
  have cw7 : g7.currentwhite = g.currentwhite := s7.dkeeps.2.2.1
  have cw8 : g8.currentwhite = g7.currentwhite :=
    (show g8.restSep.currentwhite = g7.restSep.currentwhite by rw [sp.rest])
  have cwm : gm.currentwhite = g8.currentwhite :=
    (show gm.restAtomic.currentwhite = g8.restAtomic.currentwhite by rw [Q8.rest])
  have flds : g1.currentwhite = otherwhite gm % 256 ∧ g1.traceref = gm.traceref ∧
      g1.sweep = Loc.root := by
    obtain ⟨t, et⟩ := hvm gm L
    rw [hg1, et]
    exact ⟨rfl, rfl, rfl⟩
  have hw1 : whiteOK g1 := hl.white.wflip (by
    rw [flds.1]; unfold otherwhite; rw [cwm, cw8, cw7])
  have sane1 : Sane S g1 := sane.sane_flds e2 flds.2.1
  have hl1 : Lists S g1 U St xs := hl.ltame tm sane1 hw1
  refine ⟨g1, as1, ws1, hrun, e1, hlen, tm, hl1, hn.ncongr tm.tsame hmm1, flds.2.2, ?_⟩
  · intro a ha hnw
    refine (sweep_test_normal g1 hw1 a).2.1 ?_
    rw [e2]
    exact nw a ha (List.not_mem_nil _) hnw

theorem Lists.llen {S : Finset Nat} {g : GState} {U St : Nat → List Nat} {xs : List Nat}
    (h : Lists S g U St xs) : xs.length ≤ S.card :=
  nodup_len_le h.root_nodup
    (fun x hx => h.mem x (List.mem_append_left _ (mem_footprint_self U hx)))

/-- The run from state `GCSsweepstring` or `GCSsweep` to `GCSpause`, with
the main thread kept. -/
theorem from_sweep {vm : VM} (hvr : VMStrRehash vm) (fuel L : Nat) (hfuel : 1 ≤ fuel)
    {S : Finset Nat} {g : GState} {U St : Nat → List Nat} {xs R ud : List Nat}
    (hl : Lists S g U St xs) (hn : NoFin g xs R ud)
    (hst : (g.state = GCSsweepstring ∧ g.sweepstr ≤ g.strmask) ∨ g.state = GCSsweep)
    (hk : sweepKeeps g (otherwhite g) g.mainthread)
    (hcur : ∃ pre rest, xs = pre ++ rest ∧ g.sweep = lastLoc Loc.root pre) :
    ∃ k s U1 St1 xs1 R1 ud1, StepsIn vm fuel L inSweep k g s ∧ k ≤ g.strmask + S.card + 2 ∧
      s.state = GCSpause ∧ Lists S s U1 St1 xs1 ∧ NoFin s xs1 R1 ud1 ∧ Same g s := by
  obtain ⟨pre, rest, e, hc⟩ := hcur
  have hlen := hl.llen
  have hnd := hl.root_nodup
  have hmx := (hn.nchain hl).2.2.2.2
  subst e
  obtain ⟨k, s, U1, St1, xs1, r1, r2, r3, r4, r5, r6, r7, _⟩ :=
    sweep_phase hvr fuel L hfuel g U St pre rest hl hst hc hn.empty
  obtain ⟨R1, ud1, n1⟩ := hn.sub hnd r5.wsame (r5.wflds.2.1.trans hn.empty) r6 (r7 _ hmx hk)
  refine ⟨k, s, U1, St1, xs1, R1, ud1, r1, ?_, r3, r4, n1, r5.wsame⟩
  simp only [List.length_append] at hlen
  omega

/-- One `gc_onestep` in state `GCSatomic` off trace, on well-formed lists
with nothing to finalize: `atomic` returns and the sweep of the strings is
set up, with every object that was not white passing the sweep test. -/
theorem atomic_step {vm : VM} (hvm : VMBufOnly vm) (fuel : Nat) (g : GState) (L : Nat)
    {S : Finset Nat} {U St : Nat → List Nat} {xs R ud gs as ws : List Nat}
    (w : Work S g gs as ws [] 0) (hl : Lists S g U St xs) (hn : NoFin g xs R ud)
    (hs : g.state = GCSatomic) (hj : g.jit_base = 0) (hf : 2 * S.card ≤ fuel) :
    ∃ s, gc_onestep vm fuel g L = some (Res.ok s 0) ∧ s.state = GCSsweepstring ∧
      s.sweepstr = 0 ∧ s.sweep = Loc.root ∧ Lists S s U St xs ∧ NoFin s xs R ud ∧ Same g s ∧
      (∀ a, a ∉ ud → ¬ iswhite (g.heap a) → sweepKeeps s (otherwhite s) a) ∧
      s.strmask = g.strmask := by
  obtain ⟨g1, as1, ws1, h1, _, _, tm, l1, n1, c1, kp⟩ := atomic_lists hvm fuel g L w hl hn hf
  refine ⟨{ g1 with state := GCSsweepstring, sweepstr := 0 }, ?_, rfl, rfl, c1,
    l1.links (fun a => ⟨rfl, rfl, rfl⟩) rfl rfl rfl (l1.sane.sane_flds rfl rfl) l1.white,
    n1.ncongr ⟨fun _ => ⟨rfl, rfl, rfl⟩, rfl, rfl, rfl, rfl, le_refl _⟩ n1.empty,
    tm.tsame.same_trans ⟨fun _ => ⟨rfl, rfl, rfl⟩, rfl, rfl, rfl, rfl, le_refl _⟩, fun a ha hnw => kp a ha hnw,
    tm.tkeeps.2.2.1⟩
  unfold gc_onestep
  rw [if_neg (by rw [hs]; decide), if_neg (by rw [hs]; decide), if_pos hs,
    if_neg (not_not.mpr hj), h1]
  rfl

/-- One `gc_onestep` in state `GCSfinalize` with nothing on `mmudata`: the
state becomes `GCSpause` and no list changes. -/
theorem finalize_step {vm : VM} (hvt : VMTabRehash vm) (fuel : Nat) (g : GState) (L : Nat)
    {S : Finset Nat} {U St : Nat → List Nat} {xs R ud : List Nat}
    (hl : Lists S g U St xs) (hn : NoFin g xs R ud) (hs : g.state = GCSfinalize) :
    ∃ s, gc_onestep vm fuel g L = some (Res.ok s 0) ∧ s.state = GCSpause ∧
      Lists S s U St xs ∧ NoFin s xs R ud ∧ Same g s := by
  have key : ∀ G : GState, Lists S G U St xs → NoFin G xs R ud → Same g G →
      Lists S { G with state := GCSpause, debt := 0 } U St xs ∧
      NoFin { G with state := GCSpause, debt := 0 } xs R ud ∧
      Same g { G with state := GCSpause, debt := 0 } := fun G l n k =>
    ⟨l.links (fun a => ⟨rfl, rfl, rfl⟩) rfl rfl rfl (l.sane.sane_flds rfl rfl) l.white,
     n.ncongr ⟨fun _ => ⟨rfl, rfl, rfl⟩, rfl, rfl, rfl, rfl, le_refl _⟩ n.empty,
     k.same_trans ⟨fun _ => ⟨rfl, rfl, rfl⟩, rfl, rfl, rfl, rfl, le_refl _⟩⟩
  have hstep : gc_onestep vm fuel g L = some (finalizeStep vm g L) := by
    unfold gc_onestep
    rw [if_neg (by rw [hs]; decide), if_neg (by rw [hs]; decide), if_neg (by rw [hs]; decide),
      if_neg (by rw [hs]; decide), if_neg (by rw [hs]; decide), if_pos hs]
  rw [hstep]
  unfold finalizeStep
  rw [if_neg (not_not.mpr hn.empty)]
  dsimp only
  split_ifs with hc
  · obtain ⟨arr, nod, tot, e⟩ := hvt g L (g.ctsFinalizer.getD 0)
    obtain ⟨H, hH⟩ : ∃ H : Nat → GCobj, H = (fun a =>
      if a = g.ctsFinalizer.getD 0 then { g.heap a with array := arr, node := nod }
      else g.heap a) := ⟨_, rfl⟩
    have e1 : vm.lj_tab_rehash g L (g.ctsFinalizer.getD 0) = { g with total := tot, heap := H } := by
      rw [hH]; exact e
    rw [e1]
    have hobj : ∀ a, (H a).nextgc = (g.heap a).nextgc ∧ (H a).openupval = (g.heap a).openupval ∧
        (H a).gct = (g.heap a).gct ∧ (H a).marked = (g.heap a).marked ∧
        (H a).metatable = (g.heap a).metatable ∧ (H a).mmGc = (g.heap a).mmGc := fun a => by
      rw [hH]
      dsimp only
      split_ifs <;> exact ⟨rfl, rfl, rfl, rfl, rfl, rfl⟩
    have k1 : Same g { g with total := tot, heap := H } :=
      ⟨fun a => ⟨(hobj a).2.2.1, (hobj a).2.2.2.2.1, (hobj a).2.2.2.2.2⟩, rfl, rfl, rfl, rfl,
        le_refl _⟩
    have l1 : Lists S { g with total := tot, heap := H } U St xs :=
      hl.links (fun a => ⟨(hobj a).1, (hobj a).2.1, (hobj a).2.2.1⟩) rfl rfl rfl
        (hl.sane.sncongr (fun a => ⟨(hobj a).2.2.2.1, (hobj a).2.2.1⟩) rfl) hl.white
    obtain ⟨a1, a2, a3⟩ := key _ l1 (hn.ncongr k1 hn.empty) k1
    exact ⟨_, rfl, rfl, a1, a2, a3⟩
  · obtain ⟨a1, a2, a3⟩ := key g hl hn (Same.same_refl g)
    exact ⟨_, rfl, rfl, a1, a2, a3⟩

theorem inSweep.notPause {g : GState} (h : inSweep g) : notPause g := by
  unfold LjGc.notPause
  rcases h with h | h <;> rw [h] <;> decide

/-- The run from state `GCSatomic` to `GCSpause`. -/
theorem from_atomic {vm : VM} (hvm : VMBufOnly vm) (hvr : VMStrRehash vm) (fuel L : Nat)
    {S : Finset Nat} {g : GState} {U St : Nat → List Nat} {xs R ud gs as ws : List Nat}
    (w : Work S g gs as ws [] 0) (hl : Lists S g U St xs) (hn : NoFin g xs R ud)
    (hs : g.state = GCSatomic) (hj : g.jit_base = 0) (hnw : ¬ iswhite (g.heap g.mainthread))
    (hf : 2 * S.card + 1 ≤ fuel) :
    ∃ k s U1 St1 xs1 R1 ud1, StepsIn vm fuel L notPause k g s ∧ k ≤ g.strmask + S.card + 3 ∧
      s.state = GCSpause ∧ Lists S s U1 St1 xs1 ∧ NoFin s xs1 R1 ud1 ∧ Same g s := by
  obtain ⟨s, h1, s1, s2, s3, l1, n1, k1, kp, m1⟩ :=
    atomic_step hvm fuel g L w hl hn hs hj (by omega)
  obtain ⟨k, t, U1, St1, xs1, R1, ud1, r1, r2, r3, r4, r5, r6⟩ :=
    from_sweep hvr fuel L (by omega) l1 n1 (Or.inl ⟨s1, by omega⟩)
      (by rw [k1.main]; exact kp _ (hn.nchain hl).2.2.1 hnw) ⟨[], xs, rfl, s3⟩
  refine ⟨1 + k, t, U1, St1, xs1, R1, ud1,
    StepsIn.pappend (StepsIn.pone (by unfold notPause; rw [hs]; decide) h1)
      (StepsIn.pmono (fun _ h => h.notPause) r1), by omega, r3, r4, r5, k1.same_trans r6⟩

/-- The run from state `GCSpropagate` to `GCSpause`. -/
theorem from_propagate {vm : VM} (hvm : VMBufOnly vm) (hvr : VMStrRehash vm) (fuel L : Nat)
    {S : Finset Nat} {g : GState} {U St : Nat → List Nat} {xs R ud gs as ws : List Nat}
    (w : Work S g gs as ws [] 0) (hl : Lists S g U St xs) (hn : NoFin g xs R ud)
    (hs : g.state = GCSpropagate) (hj : g.jit_base = 0)
    (hnw : ¬ iswhite (g.heap g.mainthread)) (hf : 2 * S.card + 1 ≤ fuel) :
    ∃ k s U1 St1 xs1 R1 ud1, StepsIn vm fuel L notPause k g s ∧
      k ≤ 3 * S.card + g.strmask + 4 ∧
      s.state = GCSpause ∧ Lists S s U1 St1 xs1 ∧ NoFin s xs1 R1 ud1 ∧ Same g s := by
  have hlen := w.len
  have hmu := mu_le_card S g
  obtain ⟨k, t, as1, ws1, r1, r2, w1, st, nw⟩ :=
    propagate_phase vm fuel L (by omega) (gs.length + mu S g) g gs as ws w hs (le_refl _)
  have lt : Lists S t U St xs := hl.lsteady st w1.sane
  have nt : NoFin t xs R ud := hn.ncongr st.dsame (st.dkeeps.2.1.trans hn.empty)
  have kk : Same t { t with state := GCSatomic } := ⟨fun _ => ⟨rfl, rfl, rfl⟩, rfl, rfl, rfl, rfl, le_refl _⟩
  obtain ⟨k2, s, U1, St1, xs1, R1, ud1, q1, q2, q3, q4, q5, q6⟩ :=
    @from_atomic vm hvm hvr fuel L S { t with state := GCSatomic } U St xs R ud [] as1 ws1
      (w1.wcongr rfl rfl rfl rfl rfl)
      (lt.links (fun a => ⟨rfl, rfl, rfl⟩) rfl rfl rfl (lt.sane.sane_flds rfl rfl) lt.white)
      (nt.ncongr kk nt.empty) rfl (st.dsame.jit.trans hj)
      (by
        show ¬ iswhite (t.heap t.mainthread)
        rw [st.dsame.main]; exact nw _ hnw) hf
  have hm : t.strmask = g.strmask := st.dkeeps.2.2.2.2.2.1
  have hq2 : k2 ≤ t.strmask + S.card + 3 := q2
  simp only [List.length_append] at hlen
  exact ⟨k + k2, s, U1, St1, xs1, R1, ud1, StepsIn.pappend r1 q1, by omega, q3, q4, q5,
    st.dsame.same_trans (kk.same_trans q6)⟩

/-- From a state that is `Ready` the incremental cycle runs to `GCSpause`:
a run of steps through states other than `GCSpause` ends there, on
well-formed lists with no finalizable userdata. -/
theorem run_to_pause {vm : VM} (hvm : VMBufOnly vm) (hvr : VMStrRehash vm)
    (hvt : VMTabRehash vm) (fuel L : Nat) {S : Finset Nat} {g : GState}
    {U St : Nat → List Nat} {xs R ud : List Nat} (hr : Ready S g U St xs R ud)
    (hf : 2 * S.card + 1 ≤ fuel) :
    ∃ k s U1 St1 xs1 R1 ud1, StepsIn vm fuel L notPause k g s ∧
      k ≤ 3 * S.card + g.strmask + 4 ∧
      s.state = GCSpause ∧ Lists S s U1 St1 xs1 ∧ NoFin s xs1 R1 ud1 ∧ Same g s := by
  have hst := hr.state
  have e5 : GCSfinalize = 5 := rfl
  rw [e5] at hst
  obtain h | h | h | h | h | h : g.state = GCSpause ∨ g.state = GCSpropagate ∨
      g.state = GCSatomic ∨ g.state = GCSsweepstring ∨ g.state = GCSsweep ∨
      g.state = GCSfinalize := by
    have e0 : GCSpause = 0 := rfl
    have e1 : GCSpropagate = 1 := rfl
    have e2 : GCSatomic = 2 := rfl
    have e3 : GCSsweepstring = 3 := rfl
    have e4 : GCSsweep = 4 := rfl
    rw [e0, e1, e2, e3, e4, e5]
    omega
  · exact ⟨0, g, U, St, xs, R, ud, rfl, by omega, h, hr.lists, hr.nofin, Same.same_refl g⟩
  · obtain ⟨hj, hnw, gs, as, ws, w⟩ := hr.mark (Or.inl h)
    exact from_propagate hvm hvr fuel L w hr.lists hr.nofin h hj hnw hf
  · obtain ⟨hj, hnw, gs, as, ws, w⟩ := hr.mark (Or.inr h)
    obtain ⟨k, s, U1, St1, xs1, R1, ud1, r1, r2, r3⟩ :=
      from_atomic hvm hvr fuel L w hr.lists hr.nofin h hj hnw hf
    exact ⟨k, s, U1, St1, xs1, R1, ud1, r1, by omega, r3⟩
  · obtain ⟨hk, hi, hc⟩ := hr.sweep (Or.inl h)
    obtain ⟨k, s, U1, St1, xs1, R1, ud1, r1, r2, r3⟩ :=
      from_sweep hvr fuel L (by omega) hr.lists hr.nofin (Or.inl ⟨h, hi h⟩) hk hc
    exact ⟨k, s, U1, St1, xs1, R1, ud1, StepsIn.pmono (fun _ h => h.notPause) r1, by omega, r3⟩
  · obtain ⟨hk, hi, hc⟩ := hr.sweep (Or.inr h)
    obtain ⟨k, s, U1, St1, xs1, R1, ud1, r1, r2, r3⟩ :=
      from_sweep hvr fuel L (by omega) hr.lists hr.nofin (Or.inr h) hk hc
    exact ⟨k, s, U1, St1, xs1, R1, ud1, StepsIn.pmono (fun _ h => h.notPause) r1, by omega, r3⟩
  · obtain ⟨s, h1, h2, h3, h4, h5⟩ := finalize_step hvt fuel g L hr.lists hr.nofin h
    exact ⟨1, s, U, St, xs, R, ud,
      StepsIn.pone (by unfold notPause; rw [h]; decide) h1, by omega, h2, h3, h4, h5⟩

/-! ## The full collection in incremental mode -/

theorem VMStrRehash.str_id {vm : VM} (h : vm.lj_str_resize = fun g _ _ => g) :
    VMStrRehash vm := fun g L m =>
  ⟨g.strhash, g.strmask, fun a => (g.heap a).nextgc, g.total, by rw [h], fun _ => le_refl _,
    fun St hc _ => ⟨fun _ _ => rfl, St, by rw [h]; exact hc, List.Perm.refl _⟩⟩

theorem VMTabRehash.tab_id {vm : VM} (h : vm.lj_tab_rehash = fun g _ _ => g) :
    VMTabRehash vm := fun g L t => by
  refine ⟨(g.heap t).array, (g.heap t).node, g.total, ?_⟩
  rw [h]
  have e : g.heap = fun a =>
      if a = t then { g.heap a with array := (g.heap t).array, node := (g.heap t).node }
      else g.heap a := by
    funext a
    split_ifs with c
    · rw [c]
    · rfl
  show g = { g with total := g.total, heap := _ }
  rw [← e]

/-- In state `GCSatomic` with `jit_base` set, the loop of
`lj_gc_runtilstate` towards `GCSpause` never ends: every `gc_onestep` returns
the state it was given. -/
theorem runtil_stuck (vm : VM) (fuel L : Nat) (g : GState) (hs : g.state = GCSatomic)
    (hj : g.jit_base ≠ 0) : ∀ n, runtilLoop vm fuel n g L GCSpause = none
  | 0 => by
    unfold runtilLoop
    rw [if_neg (by rw [hs]; decide)]
  | n + 1 => by
    have hstep : gc_onestep vm fuel g L = some (Res.ok g vm.LJ_MAX_MEM) := by
      unfold gc_onestep
      rw [if_neg (by rw [hs]; decide), if_neg (by rw [hs]; decide), if_pos hs, if_pos hj]
    unfold runtilLoop
    rw [if_neg (by rw [hs]; decide), hstep]
    exact runtil_stuck vm fuel L g hs hj n

theorem runtil_propagate (vm : VM) (fuel L : Nat) (g s : GState) (hf : 1 ≤ fuel)
    (hs : g.state = GCSpause) (h : gc_onestep vm fuel g L = some (Res.ok s 0))
    (hp : s.state = GCSpropagate) :
    lj_gc_runtilstate vm fuel g L GCSpropagate = some (Res.ok s ()) := by
  obtain ⟨d, rfl⟩ : ∃ d, fuel = d + 1 := ⟨fuel - 1, by omega⟩
  unfold lj_gc_runtilstate
  unfold runtilLoop
  rw [if_neg (by rw [hs]; decide), h]
  show runtilLoop vm (d + 1) d s L GCSpropagate = _
  cases d with
  | zero => unfold runtilLoop; rw [if_pos hp]
  | succ d => unfold runtilLoop; rw [if_pos hp]

theorem Lists.foot_len {S : Finset Nat} {g : GState} {U St : Nat → List Nat} {xs : List Nat}
    (h : Lists S g U St xs) : (footprint U xs).length ≤ S.card :=
  nodup_len_le h.foot_nodup (fun x hx => h.mem x (List.mem_append_left _ hx))

theorem Lists.str_len {S : Finset Nat} {g : GState} {U St : Nat → List Nat} {xs : List Nat}
    (h : Lists S g U St xs) {j : Nat} (hj : j ≤ g.strmask) : (St j).length ≤ S.card :=
  nodup_len_le (h.str_nodup hj) (fun x hx => h.mem x (List.mem_append_right _
    (mem_flatten_range.mpr ⟨j, by omega, hx⟩)))

/-- C17: on a list `xsA` at the cell `pA` whose threads have the
open-upvalue lists `UA`, `sweep2old` returns (given fuel for the footprint);
it frees exactly the objects of the list and of these upvalue lists that are
white and not fixed, in visiting order; every other one of these objects gets
age `G_OLD`; no `marked` byte changes; the list and each upvalue list keep
their remaining objects in order; objects off the lists are untouched.
For `entergen`: from a state that is `Ready` (well-formed lists, no
finalizable userdata, and in the mark states `jit_base` null), with hooks that
only resize and fuel for the steps of a cycle, `entergen` returns; the objects
then on `root`, on the open-upvalue lists of its threads and on every hash
chain `0..strmask` have age `G_OLD`; `surival`, `old` and `reallyold` equal
`root`; `udatasur`, `udataold` and `udatarold` equal `mainthread->nextgc`;
`kind` is generational and `state` is `GCSpropagate`. -/
theorem sweep2old_entergen_spec (nA : Nat) (gA : GState) (pA : Loc) (UA : Nat → List Nat)
    (xsA : List Nat) (hcA : Chain gA (pA.get gA) xsA)
    (hUchA : ∀ x ∈ xsA, (gA.heap x).gct = GCT.thread → Chain gA (gA.heap x).openupval (UA x))
    (hUntA : ∀ x ∈ xsA, (gA.heap x).gct ≠ GCT.thread → UA x = [])
    (hUthA : ∀ x ∈ xsA, ∀ u ∈ UA x, (gA.heap u).gct ≠ GCT.thread)
    (hndA : (footprint UA xsA).Nodup) (hownA : ∀ q, pA.owner = some q → q ∉ footprint UA xsA)
    (hlA : (footprint UA xsA).length ≤ nA)
    (vm : VM) (fuel : Nat) (g : GState) (L : Nat) (S : Finset Nat)
    (U St : Nat → List Nat) (xs R ud : List Nat)
    (hvm : VMBufOnly vm) (hvr : VMStrRehash vm) (hvt : VMTabRehash vm)
    (hr : Ready S g U St xs R ud) (hfuel : 3 * S.card + g.strmask + 4 ≤ fuel) :
    (∃ gA', sweep2old nA gA pA = some gA' ∧
      gA'.freed = ((footprint UA xsA).filter (fun x => decide (oldDead gA x))).reverse
        ++ gA.freed ∧
      (∀ v ∈ footprint UA xsA, ¬ oldDead gA v → (gA'.heap v).age = G_OLD) ∧
      (∀ a, (gA'.heap a).marked = (gA.heap a).marked) ∧
      Chain gA' (pA.get gA') (xsA.filter (fun x => decide (¬ oldDead gA x))) ∧
      (∀ t ∈ xsA, (gA.heap t).gct = GCT.thread →
        Chain gA' (gA'.heap t).openupval ((UA t).filter (fun x => decide (¬ oldDead gA x)))) ∧
      (∀ a, a ∉ footprint UA xsA → (∀ q, pA.owner = some q → a ≠ q) →
        gA'.heap a = gA.heap a)) ∧
    (∃ (g' : GState) (xs1 : List Nat) (U1 St1 : Nat → List Nat),
      entergen vm fuel g L = some (Res.ok g' ()) ∧
      Chain g' g'.root xs1 ∧
      (∀ t ∈ xs1, (g'.heap t).gct = GCT.thread → Chain g' (g'.heap t).openupval (U1 t)) ∧
      (∀ v ∈ footprint U1 xs1, (g'.heap v).age = G_OLD) ∧
      (∀ j, j ≤ g'.strmask →
        Chain g' (g'.strhash j) (St1 j) ∧ ∀ v ∈ St1 j, (g'.heap v).age = G_OLD) ∧
      g'.surival = g'.root ∧ g'.old = g'.root ∧ g'.reallyold = g'.root ∧
      g'.udatasur = (g'.heap g'.mainthread).nextgc ∧
      g'.udataold = (g'.heap g'.mainthread).nextgc ∧
      g'.udatarold = (g'.heap g'.mainthread).nextgc ∧
      g'.kind = GCKind.gen ∧ g'.state = GCSpropagate) := by
  constructor
  · obtain ⟨gA', hrun, P⟩ := sweep2old_post nA UA xsA gA pA hcA hUchA hUntA hUthA hndA hownA hlA
    exact ⟨gA', hrun, P.freed, P.old, fun a => (shapeO_marked (P.shape a)).1, P.chain,
      P.upchain, P.frame⟩
  · -- the run to `GCSpause`, the step to `GCSpropagate`, and `atomic`
    obtain ⟨k, s, Ua, Sa, xa, Ra, uda, steps, hk, hs, la, na, sa⟩ :=
      run_to_pause hvm hvr hvt fuel L hr (by omega)
    have h1 : lj_gc_runtilstate vm fuel g L GCSpause = some (Res.ok s ()) :=
      runtil_of_steps vm fuel L k fuel g s steps hs (by omega)
    obtain ⟨s1, gs1, hstep, _, st1, w1, lb, kb, mmb, _⟩ :=
      pause_step vm fuel s L la hs (by omega)
    have h2 := runtil_propagate vm fuel L s s1 (by omega) hs hstep st1
    have nb : NoFin s1 xa Ra uda := na.ncongr kb (mmb.trans na.empty)
    obtain ⟨g3, as1, ws1, h3, me, hlen, tm, l3, n3, _, _⟩ :=
      atomic_lists hvm fuel s1 L w1 lb nb (by omega)
    have hfin : g3.mmudata = 0 := n3.empty
    have hcard : S.card ≤ fuel := by omega
    obtain ⟨g4, g5, r4, r5, P, Q, hm, hfr⟩ :=
      entergen_sweeps fuel g3 Ua Sa xa l3.root l3.upch l3.upnt l3.upth l3.str l3.strth l3.nodup
        (le_trans l3.foot_len hcard) (fun j hj => le_trans (l3.str_len hj) hcard)
    -- the gray lists after the sweeps
    have hgl : ∀ a, ((entergenSeed g5).heap a).gclist = (g3.heap a).gclist ∧
        ((entergenSeed g5).heap a).gct = (g3.heap a).gct := fun a => by
      have e1 : shapeO (g5.heap a) = shapeO (g3.heap a) := (Q.shape a).trans (P.shape a)
      exact ⟨(show (shapeO (g5.heap a)).gclist = (shapeO (g3.heap a)).gclist by rw [e1]),
        (show (shapeO (g5.heap a)).gct = (shapeO (g3.heap a)).gct by rw [e1])⟩
    have hga : (entergenSeed g5).grayagain = g3.grayagain :=
      (show g5.restOld.grayagain = g4.restOld.grayagain by rw [Q.rest]).trans
        (show g4.restOld.grayagain = g3.restOld.grayagain by rw [P.rest])
    have hwk : (entergenSeed g5).weak = g3.weak :=
      (show g5.restOld.weak = g4.restOld.weak by rw [Q.rest]).trans
        (show g4.restOld.weak = g3.restOld.weak by rw [P.rest])
    have hlen2 : as1.length ≤ fuel ∧ ws1.length ≤ fuel := by
      simp only [List.length_append] at hlen
      omega
    obtain ⟨g6, hcg6, _, _⟩ := correctgraylists_run fuel (entergenSeed g5) as1 ws1
      (by rw [hga]; exact GChain.gcongr (fun x => (hgl x).1) me.again)
      (by rw [hwk]; exact GChain.gcongr (fun x => (hgl x).1) me.weak)
      me.nodup
      (fun t ht => by
        rw [(hgl t).2]
        rcases List.mem_append.mp ht with h | h
        · rcases me.akind t h with e | e
          · exact Or.inr (Or.inr e)
          · exact Or.inl e
        · exact Or.inl (me.wkind t h))
      hlen2.1 hlen2.2
    have G := correctgraylists_fix _ _ _ hcg6
    have F := G.flds
    have hP := restOld_fields P.rest
    have hQ := restOld_fields Q.rest
    have hmm : (entergenSeed g5).mmudata = 0 := by
      show g5.mmudata = 0
      rw [hQ.2.1, hP.2.1]; exact hfin
    have ho : ∀ a, (g6.heap a).age = (g5.heap a).age ∧ (g6.heap a).nextgc = (g5.heap a).nextgc ∧
        (g6.heap a).openupval = (g5.heap a).openupval ∧ (g6.heap a).gct = (g5.heap a).gct :=
      fun a => tintObj_fields (G.obj a)
    have hd4 := fun (l : List Nat) =>
      (@filter_dead_congr g3 g4 l (fun y _ => hm y)).2
    have hroot : g6.root = g4.root := F.root.trans Q.root
    have hconv : ∀ (h : Nat) (l : List Nat), Chain g6 h l →
        Chain { g6 with state := GCSpropagate } h l :=
      fun h l c => @Chain.congr g6 _ l h (fun _ _ => rfl) c
    have hgct : ∀ a, (g6.heap a).gct = (g3.heap a).gct := fun a =>
      (ho a).2.2.2.trans (hgl a).2
    have hsm : g6.strmask = g3.strmask := F.strmask.trans (hQ.1.trans hP.1)
    refine ⟨_, xa.filter (fun x => decide (¬ oldDead g3 x)),
      fun t => (Ua t).filter (fun x => decide (¬ oldDead g3 x)),
      fun j => (Sa j).filter (fun x => decide (¬ oldDead g3 x)),
      (entergen_eq vm fuel g L s s1 g3 g4 g5 h1 h2 h3 r4 r5).trans
        (finishgencycle_none vm fuel _ g6 L hcg6 hmm), ?_, ?_, ?_, ?_, ?_, ?_, ?_, ?_, ?_, ?_,
      F.kind, rfl⟩
    · refine hconv _ _ ?_
      rw [hroot]
      have hP4 : Chain g4 g4.root (xa.filter (fun x => decide (¬ oldDead g3 x))) := P.chain
      refine Chain.congr (fun v hv => ?_) hP4
      rw [(ho v).2.1, hfr v (mem_footprint_self Ua (List.mem_of_mem_filter hv))]
    · intro t ht hth
      have ht' : t ∈ xa := List.mem_of_mem_filter ht
      have hth' : (g3.heap t).gct = GCT.thread := by
        rw [← hgct t]; exact hth
      refine hconv _ _ ?_
      show Chain g6 (g6.heap t).openupval _
      rw [(ho t).2.2.1, hfr t (mem_footprint_self Ua ht')]
      refine Chain.congr (fun v hv => ?_) (P.upchain t ht' hth')
      rw [(ho v).2.1, hfr v (mem_footprint_up Ua ht' (List.mem_of_mem_filter hv))]
    · intro v hv
      show (g6.heap v).age = G_OLD
      have hmem : v ∈ footprint Ua xa ∧ ¬ oldDead g3 v := by
        rcases (mem_footprint_iff _).mp hv with h | ⟨x, hx, h⟩
        · have := List.mem_filter.mp h
          exact ⟨mem_footprint_self Ua this.1, by simpa using this.2⟩
        · have := List.mem_filter.mp h
          exact ⟨mem_footprint_up Ua (List.mem_of_mem_filter hx) this.1, by simpa using this.2⟩
      rw [(ho v).1, hfr v hmem.1]
      exact P.old v hmem.1 hmem.2
    · intro j hj
      have hj' : j ≤ g3.strmask := by
        have hj2 : j ≤ g6.strmask := hj
        omega
      constructor
      · refine hconv _ _ ?_
        show Chain g6 (g6.strhash j) ((Sa j).filter (fun x => decide (¬ oldDead g3 x)))
        have e : g6.strhash j = g5.strhash j := congrFun F.strhash j
        rw [e, ← hd4]
        exact Chain.congr (fun v _ => (ho v).2.1) (Q.chain j (Nat.zero_le _) (by omega))
      · intro v hv
        have hv' := List.mem_filter.mp hv
        show (g6.heap v).age = G_OLD
        rw [(ho v).1]
        exact Q.old j (Nat.zero_le _) (by omega) v hv'.1
          (fun h => (by simpa using hv'.2 : ¬ oldDead g3 v) ((oldDead_congr (hm v)).mp h))
    · exact F.surival.trans F.root.symm
    · exact F.old.trans F.root.symm
    · exact F.reallyold.trans F.root.symm
    · show g6.udatasur = (g6.heap g6.mainthread).nextgc
      rw [F.udatasur, F.mainthread, (ho _).2.1]; rfl
    · show g6.udataold = (g6.heap g6.mainthread).nextgc
      rw [F.udataold, F.mainthread, (ho _).2.1]; rfl
    · show g6.udatarold = (g6.heap g6.mainthread).nextgc
      rw [F.udatarold, F.mainthread, (ho _).2.1]; rfl

theorem exEnter_ready :
    Ready {1, 2, 6} exEnter (fun _ => []) (fun j => if j = 0 then [6] else []) [2, 1] [2] [] := by
  have hb : ∀ a, (exEnter.heap a).marked < 256 := fun a => by
    show (if a = 1 then _ else if a = 2 then _ else if a = 6 then _
      else if a = 7 then _ else _ : GCobj).marked < 256
    split_ifs <;> decide
  have hw : ∀ a, iswhite (exEnter.heap a) → a = 1 ∨ a = 2 ∨ a = 6 := fun a => by
    show iswhite (if a = 1 then _ else if a = 2 then _ else if a = 6 then _
      else if a = 7 then _ else _ : GCobj) → _
    split_ifs with h1 h2 h3 h4
    · intro _; exact Or.inl h1
    · intro _; exact Or.inr (Or.inl h2)
    · intro _; exact Or.inr (Or.inr h3)
    · intro h; exact absurd h (by decide)
    · intro h; exact absurd h (by decide)
  have hU : ∀ x ∈ [2, 1], x = 2 ∨ x = 1 := fun x hx => by simpa using hx
  have hS : ∀ j, j ≤ exEnter.strmask → j = 0 := fun j hj => Nat.le_zero.mp hj
  exact
    { lists :=
        { sane := ⟨hb, fun h => (by rcases hw 0 h with e | e | e <;> cases e), fun _ => rfl,
            fun a ha => (by rcases hw a ha with e | e | e <;> rw [e] <;> decide)⟩
          root := ⟨rfl, by decide, rfl, by decide, rfl⟩
          upch := fun x hx ht => by
            rcases hU x hx with e | e <;> subst e
            · exact absurd ht (by decide)
            · rfl
          upnt := fun _ _ _ => rfl
          upth := fun _ _ u hu => absurd hu (List.not_mem_nil u)
          str := fun j hj => by rw [hS j hj]; exact ⟨rfl, by decide, rfl⟩
          strth := fun j hj s hs => by
            rw [hS j hj] at hs
            have e : s = 6 := by simpa using hs
            subst e; decide
          nodup := by decide
          mem := by decide
          mask := by decide
          white := Or.inl (by decide) }
      nofin := ⟨rfl, by decide, fun u hu => absurd hu (List.not_mem_nil u), rfl⟩
      state := by decide
      mark := fun h => absurd h (by decide)
      sweep := fun h => absurd h (by decide) }

/-- Witness for `sweep2old_entergen_spec`: `sweep2old` on the list of
`exSweep` frees the table 2 and the upvalue 4; `entergen` from `exEnter`
returns in generational mode at `GCSpropagate`, the unreachable table and
string freed and the main thread old. -/
theorem sweep2old_entergen_spec_witness :
    (∃ gA', sweep2old 4 exSweep Loc.root = some gA' ∧ gA'.freed = [4, 2]) ∧
    (∃ g', entergen exVM 13 exEnter 1 = some (Res.ok g' ()) ∧ g'.freed = [6, 2] ∧
      g'.root = 1 ∧ (g'.heap 1).age = G_OLD ∧ g'.kind = GCKind.gen ∧
      g'.state = GCSpropagate) := by
  have hX : ∀ x ∈ [1, 2, 3], x = 1 ∨ x = 2 ∨ x = 3 := fun x hx => by simpa using hx
  obtain ⟨⟨gA', a1, a2, _⟩, ⟨g', _, _, _, b1, _, _, _, _, _, _, _, _, _, _, b12, b13⟩⟩ :=
    sweep2old_entergen_spec 4 exSweep Loc.root exSweepU [1, 2, 3]
      ⟨rfl, by decide, rfl, by decide, rfl, by decide, rfl⟩
      (fun x hx ht => by
        rcases hX x hx with e | e | e <;> subst e
        · exact absurd ht (by decide)
        · exact absurd ht (by decide)
        · exact ⟨rfl, by decide, rfl⟩)
      (fun x hx _ => by
        rcases hX x hx with e | e | e <;> subst e
        · rfl
        · rfl
        · exact absurd rfl ‹_›)
      (fun x hx u hu => by
        rcases hX x hx with e | e | e <;> subst e
        · simp [exSweepU] at hu
        · simp [exSweepU] at hu
        · have e : u = 4 := by simpa [exSweepU] using hu
          subst e; decide)
      (by decide) (fun q hq => by cases hq) (by decide)
      exVM 13 exEnter 1 {1, 2, 6} (fun _ => []) (fun j => if j = 0 then [6] else []) [2, 1] [2] []
      (fun g _ => ⟨g.total, rfl⟩) (VMStrRehash.str_id rfl) (VMTabRehash.tab_id rfl)
      exEnter_ready (by decide)
  obtain ⟨g2, r1, r2, r3, r4⟩ : ∃ g2, entergen exVM 13 exEnter 1 = some (Res.ok g2 ()) ∧
      g2.freed = [6, 2] ∧ g2.root = 1 ∧ (g2.heap 1).age = G_OLD := ⟨_, rfl, rfl, rfl, rfl⟩
  have e : g2 = g' := by
    rw [b1] at r1
    injection r1 with r1
    injection r1 with r1
    exact r1.symm
  subst e
  refine ⟨⟨gA', a1, ?_⟩, ⟨g2, b1, r2, r3, r4, b12, b13⟩⟩
  rw [a2]; decide

/-- Counterexample to C17 as stated: `exEnterJit` has no userdata and
nothing on `mmudata`, so no object is finalizable, but the collector is in
state `GCSatomic` with `jit_base` set: the loop of `lj_gc_runtilstate` towards
`GCSpause` never leaves that state, and `entergen` does not end, whatever the
fuel.  With `jit_base` null the same state lets `entergen` return. -/
theorem entergen_stuck_on_trace :
    exEnterJit.mmudata = 0 ∧ exEnterJit.state = GCSatomic ∧ exEnterJit.jit_base ≠ 0 ∧
    Chain exEnterJit exEnterJit.root [1] ∧ (exEnterJit.heap 1).gct = GCT.thread ∧
    (∀ (vm : VM) (fuel L : Nat), entergen vm fuel exEnterJit L = none) ∧
    ∃ g', entergen exVM 13 { exEnterJit with jit_base := 0 } 1 = some (Res.ok g' ()) ∧
      g'.kind = GCKind.gen ∧ g'.state = GCSpropagate := by
  refine ⟨rfl, rfl, by decide, ⟨rfl, by decide, rfl⟩, rfl, fun vm fuel L => ?_,
    ⟨_, rfl, rfl, rfl⟩⟩
  unfold entergen lj_gc_runtilstate
  rw [runtil_stuck vm fuel L exEnterJit rfl (by decide) fuel]
  rfl

end LjGc
